import Mathlib

/-!
# templatesjs: the template converter of `templates.go`

A shallow embedding of `Convert` and the functions it calls, followed by the
properties proved about them.

* Go strings are lists of characters (`Str`); only valid UTF-8 text is modelled.
* The calls into Go's `regexp` and `strings` packages are modelled by a small
  backtracking matcher (`Re.run`) that lists the ways a pattern matches at a
  position in the library's order of preference, so that the first entry is the
  leftmost-first match the library reports.
* A function that can stop with a run-time panic, or loops, returns an `Outcome`
  and takes a `fuel` bound on the number of loop iterations.
-/

namespace Templatesjs

/-- A Go string. -/
abbrev Str := List Char

/-- How a call ends: it returns a value, stops with a run-time panic, or the
iteration bound given to the model was used up before it returned. -/
inductive Outcome (α : Type) where
  | ret (a : α)
  | panic
  | fuelOut
  deriving Repr, DecidableEq

/-- Sequencing of two calls. -/
def Outcome.bind {α β : Type} (x : Outcome α) (f : α → Outcome β) : Outcome β :=
  match x with
  | .ret a => f a
  | .panic => .panic
  | .fuelOut => .fuelOut

/-! ## Regular expressions (the part of Go's `regexp` the program uses) -/

/-- Regular expressions: one character, a character class, the anchor `\A`, the
empty pattern, concatenation, alternation (left branch preferred), iteration
(greedy `*` or lazy `*?`) and a numbered capture group. -/
inductive Re where
  | chr (c : Char)
  | cls (p : Char → Bool)
  | bot
  | eps
  | seq (a b : Re)
  | alt (a b : Re)
  | star (greedy : Bool) (a : Re)
  | grp (n : Nat) (a : Re)

/-- A literal text (also what `regexp.QuoteMeta` yields once compiled). -/
def Re.lit : Str → Re
  | [] => .eps
  | c :: cs => .seq (.chr c) (Re.lit cs)

/-- Concatenation of several patterns. -/
def Re.cat : List Re → Re
  | [] => .eps
  | r :: rs => .seq r (Re.cat rs)

/-- Greedy `a?`. -/
def Re.opt (a : Re) : Re := .alt a .eps

/-- Greedy `a+`. -/
def Re.plus (a : Re) : Re := .seq a (.star true a)

/-- State of the matcher: the groups captured so far (newest first), whether the
position is the beginning of the text, and the text still to be read. -/
structure MState where
  caps : List (Nat × Str)
  atStart : Bool
  rest : Str

/-- Iteration of a step `f`; every round has to consume text, and `fuel` bounds
the number of rounds (the length of the text is always enough). -/
def starRun (f : MState → List MState) (greedy : Bool) : Nat → MState → List MState
  | 0, st => [st]
  | n + 1, st =>
    let more := ((f st).filter (fun s2 => s2.rest.length < st.rest.length)).flatMap (starRun f greedy n)
    if greedy then more ++ [st] else st :: more

/-- All the ways the pattern matches at the current position, most preferred
first. -/
def Re.run : Re → MState → List MState
  | .chr c, st =>
    match st.rest with
    | x :: xs => if x = c then [⟨st.caps, false, xs⟩] else []
    | [] => []
  | .cls p, st =>
    match st.rest with
    | x :: xs => if p x then [⟨st.caps, false, xs⟩] else []
    | [] => []
  | .bot, st => if st.atStart then [st] else []
  | .eps, st => [st]
  | .seq a b, st => (a.run st).flatMap (fun s2 => b.run s2)
  | .alt a b, st => a.run st ++ b.run st
  | .star g a, st => starRun (fun s2 => a.run s2) g st.rest.length st
  | .grp n a, st =>
    (a.run st).map (fun s2 =>
      ⟨(n, st.rest.take (st.rest.length - s2.rest.length)) :: s2.caps, s2.atStart, s2.rest⟩)

/-- A match: the matched text and the captured groups. -/
structure Match where
  whole : Str
  caps : List (Nat × Str)

/-- Text of group `n` (`m[n]` in Go; the empty string when the group took no part). -/
def Match.group (m : Match) (n : Nat) : Str :=
  match n with
  | 0 => m.whole
  | k + 1 => ((m.caps.lookup (k + 1)).getD [])

/-- The preferred match that begins exactly at the head of `s`. Each pattern of
this program contains a mandatory literal, so it never matches the empty text;
an empty match counts as no match here. -/
def matchAt (re : Re) (atStart : Bool) (s : Str) : Option Match :=
  match re.run ⟨[], atStart, s⟩ with
  | [] => none
  | st :: _ =>
    if st.rest.length < s.length then some ⟨s.take (s.length - st.rest.length), st.caps⟩ else none

/-- The successive non-overlapping matches (`FindAllStringSubmatch(s, -1)`);
`skip` counts the characters still covered by the previous match. -/
def findAllFrom (re : Re) : Bool → Nat → Str → List Match
  | _, _, [] => []
  | _, k + 1, _ :: cs => findAllFrom re false k cs
  | b, 0, c :: cs =>
    match matchAt re b (c :: cs) with
    | some m => m :: findAllFrom re false (m.whole.length - 1) cs
    | none => findAllFrom re false 0 cs

/-- `re.FindAllStringSubmatch(s, -1)`. -/
def findAll (re : Re) (s : Str) : List Match := findAllFrom re true 0 s

/-- `re.FindStringSubmatch(s)`: the leftmost match, `none` for Go's `nil`. -/
def findFirst (re : Re) (s : Str) : Option Match := (findAll re s).head?

/-- Replace every match by `repl` applied to it, copying the text in between. -/
def replaceAllFrom (re : Re) (repl : Match → Str) : Bool → Nat → Str → Str
  | _, _, [] => []
  | _, k + 1, _ :: cs => replaceAllFrom re repl false k cs
  | b, 0, c :: cs =>
    match matchAt re b (c :: cs) with
    | some m => repl m ++ replaceAllFrom re repl false (m.whole.length - 1) cs
    | none => c :: replaceAllFrom re repl false 0 cs

/-- `re.ReplaceAllString` / `re.ReplaceAllLiteralString`, the replacement given
as a function of the match. -/
def replaceAll (re : Re) (repl : Match → Str) (s : Str) : Str := replaceAllFrom re repl true 0 s

/-- The pieces between matches; the head of the result is the piece in progress. -/
def splitFrom (re : Re) : Bool → Nat → Str → List Str
  | _, _, [] => [[]]
  | _, k + 1, _ :: cs => splitFrom re false k cs
  | b, 0, c :: cs =>
    match matchAt re b (c :: cs) with
    | some m => [] :: splitFrom re false (m.whole.length - 1) cs
    | none =>
      match splitFrom re false 0 cs with
      | p :: ps => (c :: p) :: ps
      | [] => [[c]]

/-- `re.Split(s, -1)`. -/
def reSplit (re : Re) (s : Str) : List Str := splitFrom re true 0 s

/-! ## The part of Go's `strings` and `strconv` the program uses -/

/-- Scan for `strings.Replace` with a non-empty `old`. -/
def strReplaceFrom (old new : Str) : Nat → Str → Str
  | _, [] => []
  | k + 1, _ :: cs => strReplaceFrom old new k cs
  | 0, c :: cs =>
    if old.isPrefixOf (c :: cs) then new ++ strReplaceFrom old new (old.length - 1) cs
    else c :: strReplaceFrom old new 0 cs

/-- `strings.Replace(s, old, new, -1)`. -/
def strReplace (s old new : Str) : Str :=
  if old = [] then new ++ s.flatMap (fun c => c :: new) else strReplaceFrom old new 0 s

/-- `strings.IndexByte` / `strings.IndexAny`: the index of the first character
satisfying `p`; `none` stands for `-1`. -/
def indexOf (p : Char → Bool) : Str → Option Nat
  | [] => none
  | c :: cs => if p c then some 0 else (indexOf p cs).map (fun i => i + 1)

/-- `strings.Join`. -/
def strJoin (parts : List Str) (sep : Str) : Str :=
  match parts with
  | [] => []
  | [p] => p
  | p :: q :: ps => p ++ sep ++ strJoin (q :: ps) sep

/-- `strconv.Itoa` on a non-negative number. -/
def itoa (n : Nat) : Str := Nat.toDigits 10 n

/-! ## The patterns of `templates.go` -/

/-- The letters and numbers of the identifier class. The library reads `\pNl`
as `\pN` followed by the letter `l`, so the class `[_\pL\pNl]` holds `_` and the
Unicode categories `L` (letters) and `N` (numbers). Below 128 these are exactly
the ASCII letters and the digits `0` to `9`; the library's table for the other
characters is the parameter `ext`. -/
def isLetterLike (ext : Char → Bool) (c : Char) : Bool :=
  if c.toNat < 128 then c.isAlphanum else ext c

/-- Class `[_\pL\pNl]`: `_`, a letter or a number. -/
def identStart (ext : Char → Bool) (c : Char) : Bool := c == '_' || isLetterLike ext c

/-- Class `[_\pL\pNl\d]`. -/
def identRest (ext : Char → Bool) (c : Char) : Bool := identStart ext c || c.isDigit

/-- Pattern `identifierRegex`. -/
def identifierRegex (ext : Char → Bool) : Re :=
  .seq (.cls (identStart ext)) (.star true (.cls (identRest ext)))

/-- Pattern `arrayRegex`. -/
def arrayRegex : Re := Re.cat [.chr '[', Re.plus (.cls Char.isDigit), .chr ']']

/-- Pattern `namespaceRegex`. -/
def namespaceRegex (ext : Char → Bool) : Re :=
  .seq (.chr '.') (.alt (identifierRegex ext) arrayRegex)

/-- Pattern `specialRegex`. -/
def specialRegex : Re :=
  .seq (.chr '@')
    (.alt (Re.lit "index".toList) (.alt (Re.lit "key".toList)
      (.alt (Re.lit "value".toList) (Re.lit "first".toList))))

/-- Pattern `keyRegex`. -/
def keyRegex (ext : Char → Bool) : Re :=
  .alt specialRegex (.seq (identifierRegex ext) (.star true (namespaceRegex ext)))

/-- Pattern `(\.\.\/)?` as capture group `n`. -/
def parentRegex (n : Nat) : Re := Re.opt (.grp n (Re.lit "../".toList))

/-- Pattern `(!?)` as capture group `n`. -/
def notRegex (n : Nat) : Re := .grp n (Re.opt (.chr '!'))

/-- Pattern `[ ]*,[ ]*`, the value of `functionsArgs`. -/
def functionsArgs : Re :=
  Re.cat [.star true (.cls (fun c => c == ' ')), .chr ',', .star true (.cls (fun c => c == ' '))]

/-- Pattern `(?:[ ]*,[ ]*` keyRegex `)*`. -/
def argsStar (ext : Char → Bool) : Re := .star true (.seq functionsArgs (keyRegex ext))

/-- Pattern `((?:[ ]*,[ ]*` keyRegex `)*)` as capture group `n`. -/
def argsRegex (ext : Char → Bool) (n : Nat) : Re := .grp n (argsStar ext)

/-- Pattern `[\r\n]*`. -/
def newlinesRegex : Re := .star true (.cls (fun c => c == '\r' || c == '\n'))

/-- Value of `rawKeyRegex`. -/
def rawKeyRegex (ext : Char → Bool) : Re :=
  Re.cat [Re.lit "\x7b\x7b".toList, parentRegex 1, .grp 2 (keyRegex ext), Re.lit "\x7d\x7d".toList]

/-- Value of `escapedKeyRegex`. -/
def escapedKeyRegex (ext : Char → Bool) : Re :=
  Re.cat [.chr '\x7b', parentRegex 1, .grp 2 (keyRegex ext), .chr '\x7d']

/-- Value of `functionRegex`. -/
def functionRegex (ext : Char → Bool) : Re :=
  Re.cat [Re.lit "\x7bfunction.".toList, .grp 1 (identifierRegex ext), argsRegex ext 2, .chr '\x7d']

/-- Value of `ifFunctionRegex`. -/
def ifFunctionRegex (ext : Char → Bool) : Re :=
  Re.cat [Re.lit "<!-- IF ".toList, notRegex 1, Re.lit "function.".toList,
    .grp 2 (identifierRegex ext), argsRegex ext 3, Re.lit " -->".toList, newlinesRegex]

/-- Value of `ifRegex`. -/
def ifRegex (ext : Char → Bool) : Re :=
  Re.cat [Re.lit "<!-- IF ".toList, notRegex 1, parentRegex 2, .grp 3 (keyRegex ext),
    Re.lit " -->".toList, newlinesRegex]

/-- Value of `elseRegex`. -/
def elseRegex : Re := Re.cat [Re.lit "<!-- ELSE -->".toList, newlinesRegex]

/-- Value of `endifRegex`. -/
def endifRegex (ext : Char → Bool) : Re :=
  Re.cat [Re.lit "<!-- ENDIF ".toList, notRegex 1, parentRegex 2, .grp 3 (keyRegex ext),
    Re.lit " -->".toList]

/-- Value of `rawSpecialRegex`. -/
def rawSpecialRegex : Re :=
  Re.cat [.grp 1 (.alt .bot (.chr '\x7d')), .grp 2 (.star false (.cls (fun c => c != '\x7b'))),
    .grp 3 specialRegex]

/-- Value of `loopFindRegex`. -/
def loopFindRegex (ext : Char → Bool) : Re :=
  Re.cat [Re.lit "<!-- BEGIN ".toList, .grp 1 (keyRegex ext), Re.lit " -->".toList]

/-- The pattern compiled in `convertLoops` for the key `k`; `regexp.QuoteMeta`
makes `k` a literal, so that `regexp.Compile` cannot fail on it. -/
def loopRegex (k : Str) : Re :=
  Re.cat [Re.lit "<!-- BEGIN ".toList, .grp 1 (Re.lit k), Re.lit " -->".toList, newlinesRegex,
    .grp 2 (.star false (.cls (fun _ => true))), Re.lit "<!-- END ".toList, Re.lit k,
    Re.lit " -->".toList]

/-! ## The functions of `templates.go` -/

/-- The error value of `convertVariables`; `near` is the offending snippet. -/
inductive ConvError where
  | doubleBraced (near : Str)
  deriving Repr, DecidableEq

/-- Loop of `convertName`, one unit of fuel per iteration. The slice
`remaining[:i]` panics when no `]` follows a `[`. -/
def convertNameLoop : Nat → Str → Str → Outcome Str
  | 0, _, _ => .fuelOut
  | fuel + 1, converted, remaining =>
    match remaining with
    | [] => .ret converted
    | c :: tl =>
      if c = '[' then
        match indexOf (fun x => x == ']') tl with
        | none => .panic
        | some i =>
          convertNameLoop fuel ("(index ".toList ++ converted ++ " ".toList ++ tl.take i ++ ")".toList)
            (tl.drop (i + 1))
      else
        let remaining1 := if c = '.' then tl else c :: tl
        let split : Str × Str :=
          match indexOf (fun x => x == '.' || x == '[') remaining1 with
          | none => (remaining1, [])
          | some i => (remaining1.take i, remaining1.drop i)
        convertNameLoop fuel
          (if split.1 = "length".toList then "(len ".toList ++ converted ++ ")".toList
           else converted ++ ".".toList ++ split.1)
          split.2

/-- Function `convertName`. -/
def convertName (fuel : Nat) (name : Str) : Outcome Str :=
  if "@".toList.isPrefixOf name then .ret name
  else convertNameLoop fuel "$".toList name

/-- The loop of `convertMethod` filling `parameters`. -/
def convertArgs (fuel : Nat) : List Str → Outcome (List Str)
  | [] => .ret []
  | arg :: args =>
    (convertName fuel arg).bind fun p =>
      (convertArgs fuel args).bind fun ps => .ret (p :: ps)

/-- Function `convertMethod`. -/
def convertMethod (fuel : Nat) (name : Str) (args : List Str) : Outcome Str :=
  (if 1 < args.length then convertArgs fuel (args.drop 1) else .ret []).bind fun parameters =>
    .ret (name ++ " $ ".toList ++ strJoin parameters " ".toList)

/-- Second loop of `convertVariables`, over the matches of `functionRegex`. -/
def replaceFunctions (fuel : Nat) : List Match → Str → Outcome Str
  | [], template => .ret template
  | fn :: fns, template =>
    (convertMethod fuel (fn.group 1) (reSplit functionsArgs (fn.group 2))).bind fun call =>
      replaceFunctions fuel fns
        (strReplace template (fn.group 0) ("\x7b\x7b".toList ++ call ++ "\x7d\x7d".toList))

/-- Third loop of `convertVariables`, over the matches of `escapedKeyRegex`. -/
def replaceKeys (fuel : Nat) : List Match → Str → Outcome Str
  | [], template => .ret template
  | key :: keys, template =>
    (convertName fuel (key.group 2)).bind fun e =>
      replaceKeys fuel keys
        (strReplace template (key.group 0) ("\x7b\x7b".toList ++ e ++ "\x7d\x7d".toList))

/-- Function `convertVariables`. -/
def convertVariables (ext : Char → Bool) (fuel : Nat) (template : Str) :
    Outcome (Str × Option ConvError) :=
  match (findAll (rawKeyRegex ext) template).take 1 with
  | problem :: _ => .ret ([], some (.doubleBraced (problem.group 0)))
  | [] =>
    (replaceFunctions fuel (findAll (functionRegex ext) template) template).bind fun t1 =>
      (replaceKeys fuel (findAll (escapedKeyRegex ext) t1) t1).bind fun t2 =>
        .ret (t2, none)

/-- First loop of `convertConditions`, over the matches of `ifFunctionRegex`. -/
def replaceIfFunctions (fuel : Nat) : List Match → Str → Outcome Str
  | [], template => .ret template
  | cond :: conds, template =>
    (convertMethod fuel (cond.group 2) (reSplit functionsArgs (cond.group 3))).bind fun call =>
      replaceIfFunctions fuel conds
        (strReplace template (cond.group 0)
          ("\x7b\x7bif ".toList ++ (if cond.group 1 ≠ [] then "not ".toList else []) ++ " (".toList
            ++ call ++ ")\x7d\x7d".toList))

/-- Second loop of `convertConditions`, over the matches of `ifRegex`. -/
def replaceIfs (fuel : Nat) : List Match → Str → Outcome Str
  | [], template => .ret template
  | cond :: conds, template =>
    (convertName fuel (cond.group 3)).bind fun e =>
      replaceIfs fuel conds
        (strReplace template (cond.group 0)
          ("\x7b\x7bif ".toList ++ (if cond.group 1 ≠ [] then "not ".toList else []) ++ e
            ++ "\x7d\x7d".toList))

/-- Function `convertConditions`. -/
def convertConditions (ext : Char → Bool) (fuel : Nat) (template : Str) :
    Outcome (Str × Option ConvError) :=
  (replaceIfFunctions fuel (findAll (ifFunctionRegex ext) template) template).bind fun t1 =>
    (replaceIfs fuel (findAll (ifRegex ext) t1) t1).bind fun t2 =>
      .ret (replaceAll (endifRegex ext) (fun _ => "\x7b\x7b- end\x7d\x7d".toList)
        (replaceAll elseRegex (fun _ => "\x7b\x7b- else\x7d\x7d".toList) t2), none)

/-- The replacement template `$1$2{{$3}}` of `convertLoops`, expanded on a match. -/
def wrapSpecial (m : Match) : Str :=
  m.group 1 ++ m.group 2 ++ "\x7b\x7b".toList ++ m.group 3 ++ "\x7d\x7d".toList

/-- Inner `for` of `convertLoops`: apply `rawSpecialRegex` until nothing changes. -/
def wrapSpecials : Nat → Str → Outcome Str
  | 0, _ => .fuelOut
  | fuel + 1, body =>
    let next := replaceAll rawSpecialRegex wrapSpecial body
    if next = body then .ret body else wrapSpecials fuel next

/-- The body of the `for` loop of `convertLoops` once the block `loop` has been
found; `recur` stands for `convertLoops` itself, entered with a given loop
counter (0 for the recursive call on the body, `i + 1` for the next round). -/
def loopStep (recur : Nat → Str → Str → Str → Outcome (Str × Option ConvError)) (fuel i : Nat)
    (template pfx iterator : Str) (loop : Match) : Outcome (Str × Option ConvError) :=
  (convertName fuel (loop.group 1)).bind fun name =>
    let key := strReplace name "$.".toList (pfx ++ ".".toList)
    let newIterator := iterator ++ "i".toList ++ itoa i
    let newKey := "(index ".toList ++ key ++ " ".toList ++ newIterator ++ ")".toList
    let body := strReplace (loop.group 2) (key ++ ".".toList) (newKey ++ ".".toList)
    match recur 0 body newKey newIterator with
    | .ret (body1, none) =>
      (wrapSpecials fuel body1).bind fun body2 =>
        let body3 := strReplace body2 "@index".toList newIterator
        let body4 := strReplace body3 "@key".toList newIterator
        let body5 := strReplace body4 "@value".toList (newIterator ++ "_v".toList)
        let body6 := strReplace body5 "@first".toList ("(not ".toList ++ newIterator ++ ")".toList)
        let replace := "\x7b\x7brange ".toList ++ newIterator ++ ", ".toList ++ newIterator
          ++ "_v := ".toList ++ key ++ "\x7d\x7d".toList ++ body6 ++ "\x7b\x7b- end\x7d\x7d".toList
        recur (i + 1) (strReplace template (loop.group 0) replace) pfx iterator
    | .ret (_, some err) => .ret ([], some err)
    | .panic => .panic
    | .fuelOut => .fuelOut

/-- Function `convertLoops`, entered with the loop counter at `i`. The index
`loop[0]` panics when the pattern of the key matches nowhere, in which case
`FindStringSubmatch` returned `nil`. -/
def convertLoopsFrom (ext : Char → Bool) :
    Nat → Nat → Str → Str → Str → Outcome (Str × Option ConvError)
  | 0, _, _, _, _ => .fuelOut
  | fuel + 1, i, template, pfx, iterator =>
    match findFirst (loopFindRegex ext) template with
    | none => .ret (template, none)
    | some found =>
      match findFirst (loopRegex (found.group 1)) template with
      | none => .panic
      | some loop =>
        loopStep (fun j t p it => convertLoopsFrom ext fuel j t p it) fuel i template pfx iterator loop

/-- Function `convertLoops`. -/
def convertLoops (ext : Char → Bool) (fuel : Nat) (template pfx iterator : Str) :
    Outcome (Str × Option ConvError) :=
  convertLoopsFrom ext fuel 0 template pfx iterator

/-- One stage of `parse`: run the next pass unless the previous one failed. -/
def andThen (r : Outcome (Str × Option ConvError)) (next : Str → Outcome (Str × Option ConvError)) :
    Outcome (Str × Option ConvError) :=
  r.bind fun p =>
    match p.2 with
    | some err => .ret ([], some err)
    | none => next p.1

/-- Function `parse`. -/
def parse (ext : Char → Bool) (fuel : Nat) (template : Str) : Outcome (Str × Option ConvError) :=
  andThen (andThen (convertVariables ext fuel template) (convertConditions ext fuel))
    (fun t => convertLoops ext fuel t "$".toList "$".toList)

/-- Function `Convert`. -/
def Convert (ext : Char → Bool) (fuel : Nat) (src : Str) : Outcome (Str × Option ConvError) :=
  parse ext fuel src

/-- The body of the loop of `convertLoops` as in `loopStep`, keeping in addition
a record of the iterator names in the order in which they are generated: the
name of this round, the names generated for its body, then those of the later
rounds. -/
def loopStepTrace (recur : Nat → Str → Str → Str → Outcome ((Str × Option ConvError) × List Str))
    (fuel i : Nat) (template pfx iterator : Str) (loop : Match) :
    Outcome ((Str × Option ConvError) × List Str) :=
  (convertName fuel (loop.group 1)).bind fun name =>
    let key := strReplace name "$.".toList (pfx ++ ".".toList)
    let newIterator := iterator ++ "i".toList ++ itoa i
    let newKey := "(index ".toList ++ key ++ " ".toList ++ newIterator ++ ")".toList
    let body := strReplace (loop.group 2) (key ++ ".".toList) (newKey ++ ".".toList)
    match recur 0 body newKey newIterator with
    | .ret ((body1, none), inner) =>
      (wrapSpecials fuel body1).bind fun body2 =>
        let body3 := strReplace body2 "@index".toList newIterator
        let body4 := strReplace body3 "@key".toList newIterator
        let body5 := strReplace body4 "@value".toList (newIterator ++ "_v".toList)
        let body6 := strReplace body5 "@first".toList ("(not ".toList ++ newIterator ++ ")".toList)
        let replace := "\x7b\x7brange ".toList ++ newIterator ++ ", ".toList ++ newIterator
          ++ "_v := ".toList ++ key ++ "\x7d\x7d".toList ++ body6 ++ "\x7b\x7b- end\x7d\x7d".toList
        (recur (i + 1) (strReplace template (loop.group 0) replace) pfx iterator).bind fun r =>
          .ret (r.1, newIterator :: (inner ++ r.2))
    | .ret ((_, some err), inner) => .ret (([], some err), newIterator :: inner)
    | .panic => .panic
    | .fuelOut => .fuelOut

/-- Function `convertLoops` with the record of the generated iterator names, one
for each round of the loop (each call of `strings.Replace` on the template). -/
def convertLoopsTrace (ext : Char → Bool) :
    Nat → Nat → Str → Str → Str → Outcome ((Str × Option ConvError) × List Str)
  | 0, _, _, _, _ => .fuelOut
  | fuel + 1, i, template, pfx, iterator =>
    match findFirst (loopFindRegex ext) template with
    | none => .ret ((template, none), [])
    | some found =>
      match findFirst (loopRegex (found.group 1)) template with
      | none => .panic
      | some loop =>
        loopStepTrace (fun j t p it => convertLoopsTrace ext fuel j t p it) fuel i template pfx
          iterator loop

/-- The result of an outcome under a function. -/
def Outcome.map {α β : Type} (f : α → β) : Outcome α → Outcome β
  | .ret a => .ret (f a)
  | .panic => .panic
  | .fuelOut => .fuelOut

/-! ## Vocabulary of the statements -/

/-- The pattern matches the text `s` from its first to its last character. -/
def fullMatch (re : Re) (s : Str) : Bool :=
  (re.run ⟨[], false, s⟩).any (fun st => st.rest.isEmpty)

/-- An identifier: a text matched as a whole by `identifierRegex`. -/
def isIdentifier (ext : Char → Bool) (s : Str) : Bool := fullMatch (identifierRegex ext) s

/-- A path of the key grammar: a text matched as a whole by `keyRegex`. -/
def isKey (ext : Char → Bool) (s : Str) : Bool := fullMatch (keyRegex ext) s

/-- A table with no letter and no number beyond ASCII, for statements about
ASCII text. -/
def asciiLetters : Char → Bool := fun _ => false

/-- A segment after the leading identifier of a path: `.name` or `[digits]`. -/
inductive Segment where
  | field (name : Str)
  | index (digits : Str)

/-- The text of a segment. -/
def Segment.text : Segment → Str
  | .field f => '.' :: f
  | .index d => '[' :: (d ++ [']'])

/-- A segment is well formed: the name is an identifier, the index is a
non-empty run of digits. -/
def Segment.wf (ext : Char → Bool) : Segment → Prop
  | .field f => isIdentifier ext f = true
  | .index d => d ≠ [] ∧ ∀ c ∈ d, c.isDigit = true

/-- The expression a segment makes of the expression `e` built so far. -/
def Segment.apply (e : Str) : Segment → Str
  | .field f =>
    if f = "length".toList then "(len ".toList ++ e ++ ")".toList else e ++ ".".toList ++ f
  | .index d => "(index ".toList ++ e ++ " ".toList ++ d ++ ")".toList

/-- The text of a path: the leading identifier followed by its segments. -/
def pathText (head : Str) (segs : List Segment) : Str :=
  head ++ (segs.map Segment.text).flatten

/-- One or more rounds of a step `f` lead from the first state to the second,
each round consuming text. -/
inductive Reach (f : MState → List MState) : MState → MState → Prop where
  | refl (st : MState) : Reach f st st
  | step {st s2 st2 : MState} : s2 ∈ f st → s2.rest.length < st.rest.length → Reach f s2 st2 →
      Reach f st st2

/-- Every character the pattern can consume satisfies `P`. -/
def Re.Within (P : Char → Prop) : Re → Prop
  | .chr c => P c
  | .cls p => ∀ x, p x = true → P x
  | .bot => True
  | .eps => True
  | .seq a b => a.Within P ∧ b.Within P
  | .alt a b => a.Within P ∧ b.Within P
  | .star _ a => a.Within P
  | .grp _ a => a.Within P

/-- The pattern does not use the anchor `\A`. -/
def Re.noBot : Re → Bool
  | .bot => false
  | .seq a b => a.noBot && b.noBot
  | .alt a b => a.noBot && b.noBot
  | .star _ a => a.noBot
  | .grp _ a => a.noBot
  | _ => true

/-- The pattern contains capture group `n`. -/
def Re.hasGrp (n : Nat) : Re → Bool
  | .seq a b => a.hasGrp n || b.hasGrp n
  | .alt a b => a.hasGrp n || b.hasGrp n
  | .star _ a => a.hasGrp n
  | .grp k a => k == n || a.hasGrp n
  | _ => false

/-- An ASCII character that is neither a letter, a digit nor `_`. -/
def isPunct (c : Char) : Bool := decide (c.toNat < 128) && !c.isAlphanum && c != '_'

/-- The text is empty or begins with one of the separators `.` and `[`. -/
def sepStart (rest : Str) : Prop :=
  rest = [] ∨ ∃ c tl, rest = c :: tl ∧ (c == '.' || c == '[') = true

/-- The characters a path of the key grammar is made of. -/
def keyChar (ext : Char → Bool) (c : Char) : Bool :=
  identRest ext c || c == '.' || c == '[' || c == ']' || c == '@'

/-- Every match of the pattern begins with the character `c0`. -/
def NeedsHead (re : Re) (c0 : Char) : Prop :=
  ∀ st : MState, (∀ tl, st.rest ≠ c0 :: tl) → re.run st = []

/-- The pattern has no capture group. -/
def Re.noGrp : Re → Bool
  | .seq a b => a.noGrp && b.noGrp
  | .alt a b => a.noGrp && b.noGrp
  | .star _ a => a.noGrp
  | .grp _ _ => false
  | _ => true

/-- A punctuation character that cannot stand in a path of the key grammar. -/
def isDelim (c : Char) : Bool := isPunct c && c != '.' && c != '[' && c != ']' && c != '@'

/-- What `convertName` needs of a segment: no separator inside a name, no `]`
inside an index. -/
def Segment.loose : Segment → Prop
  | .field f => ∀ c ∈ f, (c == '.' || c == '[') = false
  | .index d => ∀ c ∈ d, (c == ']') = false

/-- The four special tokens. -/
def specialTokens : List Str :=
  ["@index".toList, "@key".toList, "@value".toList, "@first".toList]

/-- The characters `convertName` writes by itself. -/
def nameLiterals : List Char := "(index len).$ ".toList

/-- The text does not begin with a line break. -/
def noNewlineHead (s : Str) : Prop :=
  ∀ c tl, s = c :: tl → (c == '\r' || c == '\n') = false

/-- The characters of an argument list: key characters, the comma and the space. -/
def argChar (ext : Char → Bool) (c : Char) : Bool := keyChar ext c || c == ',' || c == ' '

/-- The text `pat` begins at no position of `body`, whatever text follows
`body`. -/
def NoOcc (pat body : Str) : Prop :=
  ∀ x y tail, body = x ++ y → y ≠ [] → pat.isPrefixOf (y ++ tail) = false

/-- The marker `<!-- BEGIN k -->`. -/
def beginMarker (k : Str) : Str := "<!-- BEGIN ".toList ++ k ++ " -->".toList

/-- The marker `<!-- END k -->`. -/
def endMarker (k : Str) : Str := "<!-- END ".toList ++ k ++ " -->".toList

/-- Every `<` of the text begins a `BEGIN` or an `END` marker. -/
def OnlyLoopMarkers (s : Str) : Prop :=
  ∀ x y, s = x ++ '<' :: y →
    "!-- BEGIN ".toList.isPrefixOf y = true ∨ "!-- END ".toList.isPrefixOf y = true

/-- The element of the collection `key` at the iterator `it`. -/
def elemKey (key it : Str) : Str :=
  "(index ".toList ++ key ++ " ".toList ++ it ++ ")".toList

/-- The four replacements of the special tokens in the body of a loop whose
iterator is `it`. -/
def substSpecials (it body : Str) : Str :=
  strReplace (strReplace (strReplace (strReplace body "@index".toList it) "@key".toList it)
    "@value".toList (it ++ "_v".toList)) "@first".toList ("(not ".toList ++ it ++ ")".toList)

/-- The `range` block written for a loop over `key` with the iterator `it`. -/
def rangeBlock (it key body : Str) : Str :=
  "\x7b\x7brange ".toList ++ it ++ ", ".toList ++ it ++ "_v := ".toList ++ key ++ "\x7d\x7d".toList
    ++ body ++ "\x7b\x7b- end\x7d\x7d".toList

/-- The characters of the loop markers around the key. -/
def markerLiterals : List Char := "<!- BEGIND>".toList

/-- The characters of the `range` header and of the end marker. -/
def rangeLiterals : List Char := "\x7b\x7d range,_v:=-end".toList

/-- A text with properly nested loop blocks: plain text, or plain text followed
by a block (its key, the line breaks behind its `BEGIN` marker, its body) and
by what comes after the block. -/
inductive Skel where
  | text (t : Str)
  | block (pre k nl : Str) (body rest : Skel)

/-- The text of a skeleton. -/
def Skel.render : Skel → Str
  | .text t => t
  | .block pre k nl body rest =>
    pre ++ ((beginMarker k ++ nl ++ body.render ++ endMarker k) ++ rest.render)

/-- The number of `BEGIN`/`END` pairs. -/
def Skel.blocks : Skel → Nat
  | .text _ => 0
  | .block _ _ _ body rest => 1 + body.blocks + rest.blocks

/-- The maximum nesting depth of the blocks. -/
def Skel.depth : Skel → Nat
  | .text _ => 0
  | .block _ _ _ body rest => max (body.depth + 1) rest.depth

/-- The keys of the blocks. -/
def Skel.keys : Skel → List Str
  | .text _ => []
  | .block _ k _ body rest => k :: (body.keys ++ rest.keys)

/-- The same blocks with every stretch of plain text changed by `g`. -/
def Skel.mapText (g : Str → Str) : Skel → Skel
  | .text t => .text (g t)
  | .block pre k nl body rest => .block (g pre) k nl (body.mapText g) (rest.mapText g)

/-- The same blocks with `w` put in front of the text. -/
def Skel.prepend (w : Str) : Skel → Skel
  | .text t => .text (w ++ t)
  | .block pre k nl body rest => .block (w ++ pre) k nl body rest

/-- The iterator names of the blocks, in the order of the text: the `j`-th block
of a level (counted from `i`) is named by the name `it` of the enclosing level
followed by `i` and the number `j`. -/
def Skel.names : Skel → Str → Nat → List Str
  | .text _, _, _ => []
  | .block _ _ _ body rest, it, i =>
    (it ++ "i".toList ++ itoa i) :: (body.names (it ++ "i".toList ++ itoa i) 0 ++ rest.names it (i + 1))

/-- Every `@` of the text stands inside braces, that is behind a `{` with no `}`
in between; `inside` tells whether the text itself begins inside braces. -/
def atOpen : Bool → Str → Bool
  | _, [] => true
  | inside, c :: cs =>
    (c != '@' || inside) &&
      atOpen (if c = '\x7b' then true else if c = '\x7d' then false else inside) cs

/-- A character other than `<`, `@` and the braces. -/
def plainChar (c : Char) : Bool := c != '<' && c != '@' && c != '\x7b' && c != '\x7d'

/-- Plain text: no loop marker begins in it, and every `@` in it stands inside
braces (as the special tokens do that the Variable Pass and the Condition Pass
have put into an interpolation). -/
def PlainText (t : Str) : Prop :=
  NoOcc "<!-- BEGIN ".toList t ∧ NoOcc "<!-- END ".toList t ∧ atOpen false t = true

/-- The texts of the skeleton are plain, the keys are identifiers, and the line
breaks recorded behind a `BEGIN` marker are all the line breaks that stand
there. -/
def Skel.Good (ext : Char → Bool) : Skel → Prop
  | .text t => PlainText t
  | .block pre k nl body rest =>
    PlainText pre ∧ isIdentifier ext k = true ∧ (∀ c ∈ nl, (c == '\r' || c == '\n') = true) ∧
      noNewlineHead (body.render ++ endMarker k) ∧ body.Good ext ∧ rest.Good ext

/-- A text without `<`, `@` and braces that begins with `$` or with `(`: what
the Loop Pass uses as the path of the enclosing element. -/
def PfxOk (pfx : Str) : Prop :=
  (∃ tl, pfx = '(' :: tl ∨ pfx = '$' :: tl) ∧ ∀ c ∈ pfx, plainChar c = true

/-- A text without `<`, `@` and braces that begins with `$`: what the Loop Pass
uses as the iterator name of the enclosing level. -/
def ItOk (it : Str) : Prop :=
  (∃ tl, it = '$' :: tl) ∧ ∀ c ∈ it, plainChar c = true

/-- The number a text of decimal digits stands for, read from the left with the
value `a` for what was read before. -/
def decodeFrom (a : Nat) (cs : Str) : Nat := cs.foldl (fun v c => v * 10 + (c.toNat - 48)) a

/-- Two top-level blocks `a` and `c`, the first with the nested block `b`. -/
def exampleSkel : Skel :=
  .block [] "a".toList [] (.block [] "b".toList [] (.text "x".toList) (.text []))
    (.block [] "c".toList [] (.text "y".toList) (.text []))

/-- A list `items` between two stretches of text, with the nested list `tags`, a
line break behind each `BEGIN` marker, and special tokens inside
interpolations. -/
def listSkel : Skel :=
  .block "<ul>".toList "items".toList "\n".toList
    (.block "<li>\x7b\x7b@index\x7d\x7d: ".toList "tags".toList "\n".toList
      (.text "\x7b\x7bif @first\x7d\x7d!\x7b\x7b- end\x7d\x7d\x7b\x7b@value\x7d\x7d".toList)
      (.text "</li>".toList))
    (.text "</ul>".toList)

/-- What one iteration of the loop of `convertName` does: it returns the
expression built so far, goes on with a new expression and a new remaining
text, or stops at the slice `remaining[:i]` with `i = -1`. -/
inductive NameStep where
  | done (result : Str)
  | next (converted remaining : Str)
  | fail
  deriving DecidableEq

/-- One iteration of the loop of `convertName`, on the expression built so far
and the remaining text. The first character is read only behind the test for
the empty text. -/
def convertNameStep (converted remaining : Str) : NameStep :=
  match remaining with
  | [] => .done converted
  | c :: tl =>
    if c = '[' then
      match indexOf (fun x => x == ']') tl with
      | none => .fail
      | some i =>
        .next ("(index ".toList ++ converted ++ " ".toList ++ tl.take i ++ ")".toList) (tl.drop (i + 1))
    else
      let remaining1 := if c = '.' then tl else c :: tl
      let split : Str × Str :=
        match indexOf (fun x => x == '.' || x == '[') remaining1 with
        | none => (remaining1, [])
        | some i => (remaining1.take i, remaining1.drop i)
      .next
        (if split.1 = "length".toList then "(len ".toList ++ converted ++ ")".toList
         else converted ++ ".".toList ++ split.1)
        split.2

/-- The states (expression built so far, remaining text) at the beginning of the
iterations of the loop of `convertName`, at most `fuel` of them. -/
def convertNameStates : Nat → Str → Str → List (Str × Str)
  | 0, _, _ => []
  | fuel + 1, converted, remaining =>
    (converted, remaining) ::
      match convertNameStep converted remaining with
      | .next converted1 remaining1 => convertNameStates fuel converted1 remaining1
      | _ => []

/-- The argument text `, a1, …, ak` of a function-call reference. -/
def argText (as : List Str) : Str := (as.map (fun a => ", ".toList ++ a)).flatten

/-- The reference `{function.n, a1, …, ak}`. -/
def callRef (n : Str) (as : List Str) : Str :=
  "\x7bfunction.".toList ++ n ++ argText as ++ "\x7d".toList

/-- The interpolation `{{e}}` of an expression. -/
def interp (e : Str) : Str := "\x7b\x7b".toList ++ e ++ "\x7d\x7d".toList

/-- What the Loop Pass puts for a special token in a loop whose iterator is
`it`. -/
def specialValue (it tok : Str) : Str :=
  if tok = "@index".toList then it
  else if tok = "@key".toList then it
  else if tok = "@value".toList then it ++ "_v".toList
  else if tok = "@first".toList then "(not ".toList ++ it ++ ")".toList
  else tok

/-- A text cut at its special tokens: stretches of text, each followed by a
token, and a last stretch. -/
def tokenText (items : List (Str × Str)) (last : Str) : Str :=
  (items.map (fun p => p.1 ++ p.2)).flatten ++ last

/-- The pattern matches no substring of `s`: at no position of `s` (the
beginning of the text or not) does the matcher find a way to match. -/
def NoMatch (re : Re) (s : Str) : Prop :=
  ∀ (x y : Str) (b : Bool), s = x ++ y → re.run ⟨[], b, y⟩ = []

/-- The patterns of the legacy forms `Convert` looks for: the double- and the
single-brace variable, the function call, the function-based and the plain `IF`
marker, the `ELSE`, the `ENDIF` and the `BEGIN` marker. -/
def legacyPatterns (ext : Char → Bool) : List Re :=
  [rawKeyRegex ext, escapedKeyRegex ext, functionRegex ext, ifFunctionRegex ext, ifRegex ext,
    elseRegex, endifRegex ext, loopFindRegex ext]

/-- The text `pat` is a substring of `s` (`strings.Contains`). -/
def hasSubstring (pat s : Str) : Bool := s.tails.any (fun y => pat.isPrefixOf y)

/-- The text behind `IF ` or `ENDIF ` in a marker: the optional `!`, the
optional `../` and the path. -/
def condPayload (neg par : Bool) (p : Str) : Str :=
  (if neg then "!".toList else []) ++ ((if par then "../".toList else []) ++ p)

/-- The groups captured on a marker with the given payload, newest first. -/
def condCaps (neg par : Bool) (p : Str) : List (Nat × Str) :=
  (3, p) :: ((if par then [(2, "../".toList)] else []) ++ [(1, if neg then "!".toList else [])])

/-- The matcher state `s1` is the state `s2` with a `<` and the text `t` added
at the end of the text still to be read. -/
def Framed (t : Str) (s1 s2 : MState) : Prop :=
  s1.caps = s2.caps ∧ s1.atStart = s2.atStart ∧ s1.rest = s2.rest ++ '<' :: t

/-- A search text of `strings.Replace` that a `<` followed by `t` at the end of
the template does not disturb: it holds no `<` behind its first character, does
not stand at that `<`, and its first character does not occur in `t`. -/
def SearchOk (t old : Str) : Prop :=
  ∃ o w, old = o :: w ∧ '<' ∉ w ∧ (o :: w).isPrefixOf ('<' :: t) = false ∧ ∀ c ∈ t, c ≠ o

/-- The pattern treats a text followed by `<` and `t` as the text alone: it
matches at the positions of the text as if nothing followed, it matches nowhere
from the `<` on, and what it matches is a search text the `<` does not
disturb. -/
def Barrier (re : Re) (t : Str) : Prop :=
  (∀ a b, a ≠ [] → matchAt re b (a ++ '<' :: t) = matchAt re b a) ∧
    NoMatch re ('<' :: t) ∧ ∀ b s m, matchAt re b s = some m → SearchOk t m.whole

/-- The special token that begins the text, if there is one. -/
def specialAt (s : Str) : Option Str := specialTokens.find? (fun tok => tok.isPrefixOf s)

/-- The first special token of the text that stands before every `{` of the
text, with the text in front of it. -/
def nextSpecial : Str → Option (Str × Str)
  | [] => none
  | c :: cs =>
    match specialAt (c :: cs) with
    | some tok => some ([], tok)
    | none => if c = '\x7b' then none else (nextSpecial cs).map (fun p => (c :: p.1, p.2))

/-- Whether the position behind the character `c` is inside braces, given
whether the position of `c` is. -/
def braceStep (o : Bool) (c : Char) : Bool :=
  if c = '\x7b' then true else if c = '\x7d' then false else o

/-- Whether the end of the text `s` is inside braces (the last brace of `s` is
a `{`), given whether its beginning is. -/
def braceState (o : Bool) (s : Str) : Bool := s.foldl braceStep o

/-- What the wrapping of the special tokens makes of a text in the end: every
special token outside braces is put into `{{` and `}}`; `o` tells whether the
text begins inside braces, `skip` counts the characters of a token still to be
passed over. -/
def wrapAllFrom : Bool → Nat → Str → Str
  | _, _, [] => []
  | o, k + 1, _ :: cs => wrapAllFrom o k cs
  | o, 0, c :: cs =>
    match specialAt (c :: cs) with
    | some tok =>
      (if o then tok else "\x7b\x7b".toList ++ tok ++ "\x7d\x7d".toList) ++
        wrapAllFrom o (tok.length - 1) cs
    | none => c :: wrapAllFrom (braceStep o c) 0 cs

/-- The text with every special token outside braces put into `{{` and `}}`. -/
def wrapAll (s : Str) : Str := wrapAllFrom false 0 s

/-- What `rawSpecialRegex` matches at the head of a text: the text up to the
first special token that no `{` precedes, provided the position is the
beginning of the whole text or holds a `}`. -/
def wrapMatch (b : Bool) (s : Str) : Option (Str × Str) :=
  match s with
  | [] => none
  | c :: cs => if b = true ∨ c = '\x7d' then nextSpecial (c :: cs) else none

/-- One scan of the text with `rawSpecialRegex`, every match replaced by the
expansion of `$1$2{{$3}}`; `b` tells whether the text is the whole body. -/
def wrapPass (b : Bool) (s : Str) : Str := replaceAllFrom rawSpecialRegex wrapSpecial b 0 s

/-- The text `pat` begins at no position of `body` when `body` is followed by
`tail`. -/
def NoOccIn (pat body tail : Str) : Prop :=
  ∀ x y, body = x ++ y → y ≠ [] → pat.isPrefixOf (y ++ tail) = false

/-- The special tokens of a text cut at its tokens, each put into `{{` and `}}`
when it stands outside braces; the braces are added to the stretches of text
around it. -/
def wrapItems : Bool → List (Str × Str) → List (Str × Str)
  | _, [] => []
  | o, p :: rest =>
    if braceState o p.1 then p :: wrapItems true rest
    else (p.1 ++ "\x7b\x7b".toList, p.2) :: ("\x7d\x7d".toList, []) :: wrapItems false rest

/-- What the Loop Pass makes of a loop body cut at its special tokens, in a loop
whose iterator is `it`: every token is replaced by its value, in an
interpolation of its own when the token stood outside braces; `o` tells whether
the body begins inside braces. -/
def bodyOut (it : Str) : Bool → List (Str × Str) → Str → Str
  | _, [], last => last
  | o, p :: rest, last =>
    p.1 ++ ((if braceState o p.1 then specialValue it p.2
      else "\x7b\x7b".toList ++ specialValue it p.2 ++ "\x7d\x7d".toList) ++
        bodyOut it (braceState o p.1) rest last)

/-- The text holds no special token. -/
def TokenFree (t : Str) : Prop := ∀ tok ∈ specialTokens, hasSubstring tok t = false

/-- The collection expression of a loop over the key `k` inside the element
`pfx`, as `convertLoops` computes it: `convertName` of the key with `$.`
replaced by `pfx.`. -/
def loopKey (k pfx : Str) : Str :=
  match convertName (k.length + 2) k with
  | .ret name => strReplace name "$.".toList (pfx ++ ".".toList)
  | _ => []

/-- The text begins with a line break. -/
def newlineHead : Str → Bool
  | [] => false
  | c :: _ => c == '\r' || c == '\n'

/-- The skeleton describes its text as the Loop Pass reads it: the stretches
of text hold no `<!-- BEGIN `, the keys are paths of the key grammar, the line
breaks recorded behind a `BEGIN` marker are all the line breaks that stand
there, and the body of a block holds no `END` marker of the key of the block
(the block ends at the first one). -/
def Skel.wf (ext : Char → Bool) : Skel → Bool
  | .text t => !hasSubstring "<!-- BEGIN ".toList t
  | .block pre k nl body rest =>
    !hasSubstring "<!-- BEGIN ".toList pre && isKey ext k &&
      nl.all (fun c => c == '\r' || c == '\n') && !newlineHead (body.render ++ endMarker k) &&
      !hasSubstring (endMarker k) body.render && body.wf ext && rest.wf ext

/-- No block stands a second time behind itself when the Loop Pass reaches it.
The pass reaches the blocks of a level from left to right, inside the element
`pfx` and with the iterator name `it` of the enclosing level and the loop
counter `i`; it replaces every copy of the text of the block at once, so the
text of the block must not occur in the text behind the block. The body of the
block is read after the path of the collection has been replaced in it by the
path of the element. -/
inductive Skel.Fresh : Skel → Str → Str → Nat → Prop
  | text (t pfx it : Str) (i : Nat) : Skel.Fresh (.text t) pfx it i
  | block (pre k nl : Str) (body rest : Skel) (pfx it : Str) (i : Nat)
      (hcopy : hasSubstring (beginMarker k ++ nl ++ body.render ++ endMarker k) rest.render = false)
      (hbody : Skel.Fresh
        (body.mapText (fun t => strReplace t (loopKey k pfx ++ ".".toList)
          (elemKey (loopKey k pfx) (it ++ "i".toList ++ itoa i) ++ ".".toList)))
        (elemKey (loopKey k pfx) (it ++ "i".toList ++ itoa i)) (it ++ "i".toList ++ itoa i) 0)
      (hrest : Skel.Fresh rest pfx it (i + 1)) :
      Skel.Fresh (.block pre k nl body rest) pfx it i

/-- A list over the dotted key `a.b` with a nested list over `c`, followed by a
second block over `a.b` with another body; the text between the markers holds
tags and special tokens inside and outside braces. -/
def siblingSkel : Skel :=
  .block "<ul>".toList "a.b".toList "\n".toList
    (.block "<li>@index ".toList "c".toList [] (.text "\x7b\x7b@value\x7d\x7d".toList)
      (.text "</li>".toList))
    (.block "</ul><p>".toList "a.b".toList [] (.text "y".toList) (.text "</p>".toList))

/-- The matcher state `s1` is the state `s2` with the character `x` and the
text `t` added at the end of the text still to be read. -/
def FramedAt (x : Char) (t : Str) (s1 s2 : MState) : Prop :=
  s1.caps = s2.caps ∧ s1.atStart = s2.atStart ∧ s1.rest = s2.rest ++ x :: t

/-- One round of the first loop of `convertConditions`: the search text and
the replacement it hands to `strings.Replace`. -/
def ifFunctionOp (fuel : Nat) (cond : Match) : Outcome (Str × Str) :=
  (convertMethod fuel (cond.group 2) (reSplit functionsArgs (cond.group 3))).map fun call =>
    (cond.group 0,
      "\x7b\x7bif ".toList ++ (if cond.group 1 ≠ [] then "not ".toList else []) ++ " (".toList
        ++ call ++ ")\x7d\x7d".toList)

/-- One round of the second loop of `convertConditions`: the search text and
the replacement it hands to `strings.Replace`. -/
def ifOp (fuel : Nat) (cond : Match) : Outcome (Str × Str) :=
  (convertName fuel (cond.group 3)).map fun e =>
    (cond.group 0,
      "\x7b\x7bif ".toList ++ (if cond.group 1 ≠ [] then "not ".toList else []) ++ e
        ++ "\x7d\x7d".toList)

/-- The pairs of search text and replacement of a loop over the matches `ms`. -/
def collectOps (f : Match → Outcome (Str × Str)) : List Match → Outcome (List (Str × Str))
  | [] => .ret []
  | m :: ms => (f m).bind fun op => (collectOps f ms).bind fun ops => .ret (op :: ops)

/-- The calls of `strings.Replace(template, search, replace, -1)` for the pairs
`ops`, one after the other. -/
def applyOps (ops : List (Str × Str)) (s : Str) : Str :=
  ops.foldl (fun t op => strReplace t op.1 op.2) s

/-- A replacement of the Condition Pass loops: the search text begins with `<`
and holds no further `<` and no `{`, the replacement begins with `{` and holds
no `<`. -/
def OpOk (op : Str × Str) : Prop :=
  ∃ w v, op.1 = '<' :: w ∧ '<' ∉ w ∧ '\x7b' ∉ w ∧ op.2 = '\x7b' :: v ∧ '<' ∉ v

/-- The search text `o` stands at the head of no text that begins with `Z` and
goes on without a line break. -/
def NoHit (Z o : Str) : Prop :=
  ∀ P, noNewlineHead P → o.isPrefixOf (Z ++ P) = false

/-- The marker `M` stands at the head of `y`, and the run of line breaks that
follows it there is a proper beginning of the run `nl`. -/
def shortRunAt (M nl y : Str) : Bool :=
  M.isPrefixOf y &&
    (((y.drop M.length).takeWhile (fun c => c == '\r' || c == '\n')).isPrefixOf nl &&
      decide (((y.drop M.length).takeWhile (fun c => c == '\r' || c == '\n')).length < nl.length))

/-- Somewhere in `s` the marker `M` stands followed by a run of line breaks that
is a proper beginning of the run `nl`. -/
def shortRunIn (M nl s : Str) : Bool := s.tails.any (shortRunAt M nl)

/-- Nowhere in `s` the marker `M` stands followed by a proper beginning of the
run `nl` of line breaks and by no further line break. -/
def NoShort (M nl s : Str) : Prop :=
  ∀ x y n1 n2, s = x ++ (M ++ n1) ++ y → nl = n1 ++ n2 → n2 ≠ [] → noNewlineHead y → False

/-- The last two statements of `convertConditions`: the `ELSE` markers and then
the `ENDIF` markers are replaced. -/
def replaceElseEndif (ext : Char → Bool) (s : Str) : Str :=
  replaceAll (endifRegex ext) (fun _ => "\x7b\x7b- end\x7d\x7d".toList)
    (replaceAll elseRegex (fun _ => "\x7b\x7b- else\x7d\x7d".toList) s)

/-- The Condition Pass of the template `T`, carried out on the text `s`: the two
loops run over the markers found in `T` (the second over those found in what
the first made of `T`), their calls of `strings.Replace` are made on `s`, and
the `ELSE` and `ENDIF` markers of the result are replaced. On `s = T` this is
`convertConditions`. -/
def convertConditionsOf (ext : Char → Bool) (fuel : Nat) (T s : Str) : Outcome Str :=
  (replaceIfFunctions fuel (findAll (ifFunctionRegex ext) T) T).bind fun T1 =>
    (replaceIfFunctions fuel (findAll (ifFunctionRegex ext) T) s).bind fun s1 =>
      (replaceIfs fuel (findAll (ifRegex ext) T1) s1).bind fun s2 =>
        .ret (replaceAll (endifRegex ext) (fun _ => "\x7b\x7b- end\x7d\x7d".toList)
          (replaceAll elseRegex (fun _ => "\x7b\x7b- else\x7d\x7d".toList) s2))

/-- A separator of an argument list: a comma between spaces. -/
def IsSep (s : Str) : Prop :=
  ∃ sp1 sp2 : Str, s = sp1 ++ ',' :: sp2 ∧ (∀ c ∈ sp1, (c == ' ') = true) ∧
    ∀ c ∈ sp2, (c == ' ') = true

/-! ## The matcher -/

theorem mem_run_chr {c : Char} {st st2 : MState} (h : st2 ∈ (Re.chr c).run st) :
    st.rest = c :: st2.rest ∧ st2.caps = st.caps ∧ st2.atStart = false := by
  obtain ⟨caps, b, rest⟩ := st
  cases rest with
  | nil => simp [Re.run] at h
  | cons x xs =>
    by_cases hx : x = c
    · simp [Re.run, hx] at h
      subst h
      simp [hx]
    · simp [Re.run, hx] at h

theorem mem_run_cls {p : Char → Bool} {st st2 : MState} (h : st2 ∈ (Re.cls p).run st) :
    ∃ x, st.rest = x :: st2.rest ∧ p x = true ∧ st2.caps = st.caps ∧ st2.atStart = false := by
  obtain ⟨caps, b, rest⟩ := st
  cases rest with
  | nil => simp [Re.run] at h
  | cons x xs =>
    by_cases hx : p x = true
    · simp [Re.run, hx] at h
      subst h
      exact ⟨x, rfl, hx, rfl, rfl⟩
    · simp [Re.run, hx] at h

theorem run_cls_cons (p : Char → Bool) (caps : List (Nat × Str)) (b : Bool) (x : Char) (xs : Str) :
    (Re.cls p).run ⟨caps, b, x :: xs⟩ = if p x then [⟨caps, false, xs⟩] else [] := rfl

theorem run_chr_cons (c : Char) (caps : List (Nat × Str)) (b : Bool) (x : Char) (xs : Str) :
    (Re.chr c).run ⟨caps, b, x :: xs⟩ = if x = c then [⟨caps, false, xs⟩] else [] := rfl

theorem run_seq (a b : Re) (st : MState) :
    (Re.seq a b).run st = (a.run st).flatMap (fun s2 => b.run s2) := rfl

theorem run_alt (a b : Re) (st : MState) : (Re.alt a b).run st = a.run st ++ b.run st := rfl

theorem run_eps (st : MState) : Re.eps.run st = [st] := rfl

theorem mem_run_seq {a b : Re} {st st2 : MState} :
    st2 ∈ (Re.seq a b).run st ↔ ∃ s1 ∈ a.run st, st2 ∈ b.run s1 := by
  simp [run_seq, List.mem_flatMap]

theorem mem_run_alt {a b : Re} {st st2 : MState} :
    st2 ∈ (Re.alt a b).run st ↔ st2 ∈ a.run st ∨ st2 ∈ b.run st := by
  simp [run_alt]

theorem mem_run_grp {n : Nat} {a : Re} {st st2 : MState} (h : st2 ∈ (Re.grp n a).run st) :
    ∃ s1 ∈ a.run st, st2 = ⟨(n, st.rest.take (st.rest.length - s1.rest.length)) :: s1.caps,
      s1.atStart, s1.rest⟩ := by
  simp only [Re.run, List.mem_map] at h
  obtain ⟨s1, h1, h2⟩ := h
  exact ⟨s1, h1, h2.symm⟩

theorem reach_nil {f : MState → List MState} {st st2 : MState} (h : Reach f st st2)
    (h0 : st.rest.length = 0) : st2 = st := by
  cases h with
  | refl => rfl
  | step _ hlt _ => omega

theorem mem_starRun_iff (f : MState → List MState) (g : Bool) :
    ∀ (n : Nat) (st : MState), st.rest.length ≤ n →
      ∀ st2, st2 ∈ starRun f g n st ↔ Reach f st st2 := by
  intro n
  induction n with
  | zero =>
    intro st hn st2
    simp only [starRun, List.mem_singleton]
    constructor
    · intro h; subst h; exact Reach.refl _
    · intro h; exact reach_nil h (by omega)
  | succ n ih =>
    intro st hn st2
    have key : (st2 = st ∨ ∃ s1 ∈ f st, s1.rest.length < st.rest.length ∧ st2 ∈ starRun f g n s1)
        ↔ Reach f st st2 := by
      constructor
      · rintro (h | ⟨s1, h1, h2, h3⟩)
        · subst h; exact Reach.refl _
        · exact Reach.step h1 h2 ((ih s1 (by omega) st2).1 h3)
      · intro h
        cases h with
        | refl => exact Or.inl rfl
        | step h1 h2 h3 => exact Or.inr ⟨_, h1, h2, (ih _ (by omega) st2).2 h3⟩
    rw [← key]
    cases g <;>
      simp [starRun, List.mem_flatMap, List.mem_filter, and_assoc, or_comm]

theorem mem_run_star {g : Bool} {a : Re} {st st2 : MState} :
    st2 ∈ (Re.star g a).run st ↔ Reach (fun s => a.run s) st st2 := by
  simp only [Re.run]
  exact mem_starRun_iff _ g _ st (Nat.le_refl _) st2

theorem reach_within {P : Char → Prop} {f : MState → List MState}
    (hf : ∀ st st2, st2 ∈ f st → ∃ w, st.rest = w ++ st2.rest ∧ ∀ c ∈ w, P c)
    {st st2 : MState} (h : Reach f st st2) :
    ∃ w, st.rest = w ++ st2.rest ∧ ∀ c ∈ w, P c := by
  induction h with
  | refl st => exact ⟨[], rfl, by simp⟩
  | step h1 _ _ ih =>
    obtain ⟨w1, e1, p1⟩ := hf _ _ h1
    obtain ⟨w2, e2, p2⟩ := ih
    refine ⟨w1 ++ w2, by rw [e1, e2, List.append_assoc], ?_⟩
    intro c hc
    rcases List.mem_append.1 hc with hc | hc
    · exact p1 c hc
    · exact p2 c hc

/-- What a pattern consumes is a prefix of the text, made of characters the
pattern allows. -/
theorem Re.run_within {P : Char → Prop} (r : Re) :
    r.Within P → ∀ st st2, st2 ∈ r.run st → ∃ w, st.rest = w ++ st2.rest ∧ ∀ c ∈ w, P c := by
  induction r with
  | chr c =>
    intro hP st st2 h
    obtain ⟨h1, _, _⟩ := mem_run_chr h
    exact ⟨[c], by simp [h1], by simpa [Re.Within] using hP⟩
  | cls p =>
    intro hP st st2 h
    obtain ⟨x, h1, h2, _, _⟩ := mem_run_cls h
    refine ⟨[x], by simp [h1], ?_⟩
    intro c hc
    simp only [List.mem_singleton] at hc
    subst hc
    exact hP _ h2
  | bot =>
    intro _ st st2 h
    by_cases hb : st.atStart = true
    · simp [Re.run, hb] at h
      subst h
      exact ⟨[], rfl, by simp⟩
    · simp [Re.run, hb] at h
  | eps =>
    intro _ st st2 h
    simp [Re.run] at h
    subst h
    exact ⟨[], rfl, by simp⟩
  | seq a b iha ihb =>
    intro hP st st2 h
    obtain ⟨s1, h1, h2⟩ := mem_run_seq.1 h
    obtain ⟨w1, e1, p1⟩ := iha hP.1 _ _ h1
    obtain ⟨w2, e2, p2⟩ := ihb hP.2 _ _ h2
    refine ⟨w1 ++ w2, by rw [e1, e2, List.append_assoc], ?_⟩
    intro c hc
    rcases List.mem_append.1 hc with hc | hc
    · exact p1 c hc
    · exact p2 c hc
  | alt a b iha ihb =>
    intro hP st st2 h
    rcases mem_run_alt.1 h with h | h
    · exact iha hP.1 _ _ h
    · exact ihb hP.2 _ _ h
  | star g a iha =>
    intro hP st st2 h
    exact reach_within (fun s s2 hs => iha hP s s2 hs) (mem_run_star.1 h)
  | grp n a iha =>
    intro hP st st2 h
    obtain ⟨s1, h1, h2⟩ := mem_run_grp h
    obtain ⟨w, e, pw⟩ := iha hP _ _ h1
    exact ⟨w, by rw [h2]; exact e, pw⟩

/-- What a pattern leaves is a suffix of the text. -/
theorem Re.run_suffix (r : Re) {st st2 : MState} (h : st2 ∈ r.run st) :
    ∃ w, st.rest = w ++ st2.rest := by
  have hw : ∀ r : Re, r.Within (fun _ => True) := by
    intro r
    induction r with
    | chr c => trivial
    | cls p => intro _ _; trivial
    | bot => trivial
    | eps => trivial
    | seq a b iha ihb => exact ⟨iha, ihb⟩
    | alt a b iha ihb => exact ⟨iha, ihb⟩
    | star g a iha => exact iha
    | grp n a iha => exact iha
  obtain ⟨w, e, _⟩ := r.run_within (hw r) _ _ h
  exact ⟨w, e⟩

theorem Re.run_length_le (r : Re) {st st2 : MState} (h : st2 ∈ r.run st) :
    st2.rest.length ≤ st.rest.length := by
  obtain ⟨w, e⟩ := r.run_suffix h
  rw [e]
  simp

/-- A captured group is the text its pattern consumed. -/
theorem mem_run_grp_text {n : Nat} {a : Re} {st st2 : MState} (h : st2 ∈ (Re.grp n a).run st) :
    ∃ s1 ∈ a.run st, ∃ w, st.rest = w ++ s1.rest ∧ st2 = ⟨(n, w) :: s1.caps, s1.atStart, s1.rest⟩ := by
  obtain ⟨s1, h1, h2⟩ := mem_run_grp h
  obtain ⟨w, e⟩ := a.run_suffix h1
  refine ⟨s1, h1, w, e, ?_⟩
  rw [h2, e]
  simp

theorem mem_run_grp_of {n : Nat} {a : Re} {st s1 : MState} {w : Str} (h1 : s1 ∈ a.run st)
    (e : st.rest = w ++ s1.rest) :
    (⟨(n, w) :: s1.caps, s1.atStart, s1.rest⟩ : MState) ∈ (Re.grp n a).run st := by
  simp only [Re.run, List.mem_map]
  refine ⟨s1, h1, ?_⟩
  rw [e]
  simp

theorem reach_frame {f : MState → List MState}
    (hf : ∀ st st2, st2 ∈ f st → ∀ caps b y, ∃ s3 ∈ f ⟨caps, b, st.rest ++ y⟩, s3.rest = st2.rest ++ y)
    {st st2 : MState} (h : Reach f st st2) :
    ∀ caps b y, ∃ s3, Reach f ⟨caps, b, st.rest ++ y⟩ s3 ∧ s3.rest = st2.rest ++ y := by
  induction h with
  | refl st => intro caps b y; exact ⟨_, Reach.refl _, rfl⟩
  | @step st s1 st2 h1 hlt _ ih =>
    intro caps b y
    obtain ⟨s3, m3, e3⟩ := hf _ _ h1 caps b y
    obtain ⟨s4, r4, e4⟩ := ih s3.caps s3.atStart y
    refine ⟨s4, Reach.step m3 ?_ ?_, e4⟩
    · simp only [e3, List.length_append]; omega
    · have : s3 = ⟨s3.caps, s3.atStart, s1.rest ++ y⟩ := by rw [← e3]
      rw [this]; exact r4

/-- A match is not lost when text is appended, whatever the groups captured
before and wherever the position is (for a pattern without `\A`). -/
theorem Re.run_frame (r : Re) :
    r.noBot = true → ∀ st st2, st2 ∈ r.run st →
      ∀ caps b y, ∃ s3 ∈ r.run ⟨caps, b, st.rest ++ y⟩, s3.rest = st2.rest ++ y := by
  induction r with
  | chr c =>
    intro _ st st2 h caps b y
    obtain ⟨h1, _, _⟩ := mem_run_chr h
    exact ⟨⟨caps, false, st2.rest ++ y⟩, by simp [h1, run_chr_cons], rfl⟩
  | cls p =>
    intro _ st st2 h caps b y
    obtain ⟨x, h1, h2, _, _⟩ := mem_run_cls h
    exact ⟨⟨caps, false, st2.rest ++ y⟩, by simp [h1, run_cls_cons, h2], rfl⟩
  | bot => intro hb; simp [Re.noBot] at hb
  | eps =>
    intro _ st st2 h caps b y
    simp [Re.run] at h
    subst h
    exact ⟨⟨caps, b, st2.rest ++ y⟩, by simp [Re.run], rfl⟩
  | seq a b iha ihb =>
    intro hb st st2 h caps b0 y
    simp only [Re.noBot, Bool.and_eq_true] at hb
    obtain ⟨s1, h1, h2⟩ := mem_run_seq.1 h
    obtain ⟨s3, m3, e3⟩ := iha hb.1 _ _ h1 caps b0 y
    obtain ⟨s4, m4, e4⟩ := ihb hb.2 _ _ h2 s3.caps s3.atStart y
    refine ⟨s4, mem_run_seq.2 ⟨s3, m3, ?_⟩, e4⟩
    have : s3 = ⟨s3.caps, s3.atStart, s1.rest ++ y⟩ := by rw [← e3]
    rw [this]; exact m4
  | alt a b iha ihb =>
    intro hb st st2 h caps b0 y
    simp only [Re.noBot, Bool.and_eq_true] at hb
    rcases mem_run_alt.1 h with h | h
    · obtain ⟨s3, m3, e3⟩ := iha hb.1 _ _ h caps b0 y
      exact ⟨s3, mem_run_alt.2 (Or.inl m3), e3⟩
    · obtain ⟨s3, m3, e3⟩ := ihb hb.2 _ _ h caps b0 y
      exact ⟨s3, mem_run_alt.2 (Or.inr m3), e3⟩
  | star g a iha =>
    intro hb st st2 h caps b0 y
    simp only [Re.noBot] at hb
    obtain ⟨s3, r3, e3⟩ := reach_frame (fun s s2 hs => iha hb s s2 hs) (mem_run_star.1 h) caps b0 y
    exact ⟨s3, mem_run_star.2 r3, e3⟩
  | grp n a iha =>
    intro hb st st2 h caps b0 y
    simp only [Re.noBot] at hb
    obtain ⟨s1, h1, h2⟩ := mem_run_grp h
    obtain ⟨s3, m3, e3⟩ := iha hb _ _ h1 caps b0 y
    refine ⟨⟨(n, (st.rest ++ y).take ((st.rest ++ y).length - s3.rest.length)) :: s3.caps,
      s3.atStart, s3.rest⟩, ?_, ?_⟩
    · simp only [Re.run, List.mem_map]
      exact ⟨s3, m3, rfl⟩
    · simp [e3, h2]

/-- A pattern leaves alone the groups it does not contain. -/
theorem Re.run_lookup (n : Nat) (r : Re) :
    r.hasGrp n = false → ∀ st st2, st2 ∈ r.run st → st2.caps.lookup n = st.caps.lookup n := by
  induction r with
  | chr c => intro _ st st2 h; rw [(mem_run_chr h).2.1]
  | cls p =>
    intro _ st st2 h
    obtain ⟨x, _, _, h3, _⟩ := mem_run_cls h
    rw [h3]
  | bot =>
    intro _ st st2 h
    by_cases hb : st.atStart = true
    · simp [Re.run, hb] at h; rw [h]
    · simp [Re.run, hb] at h
  | eps => intro _ st st2 h; simp [Re.run] at h; rw [h]
  | seq a b iha ihb =>
    intro hg st st2 h
    simp only [Re.hasGrp, Bool.or_eq_false_iff] at hg
    obtain ⟨s1, h1, h2⟩ := mem_run_seq.1 h
    rw [ihb hg.2 _ _ h2, iha hg.1 _ _ h1]
  | alt a b iha ihb =>
    intro hg st st2 h
    simp only [Re.hasGrp, Bool.or_eq_false_iff] at hg
    rcases mem_run_alt.1 h with h | h
    · exact iha hg.1 _ _ h
    · exact ihb hg.2 _ _ h
  | star g a iha =>
    intro hg st st2 h
    simp only [Re.hasGrp] at hg
    have hr := mem_run_star.1 h
    clear h
    induction hr with
    | refl => rfl
    | step h1 _ _ ih => rw [ih, iha hg _ _ h1]
  | grp k a iha =>
    intro hg st st2 h
    simp only [Re.hasGrp, Bool.or_eq_false_iff, beq_eq_false_iff_ne, ne_eq] at hg
    obtain ⟨s1, h1, h2⟩ := mem_run_grp h
    rw [h2]
    simp only [List.lookup_cons]
    have : (n == k) = false := by
      simp only [beq_eq_false_iff_ne, ne_eq]
      exact fun e => hg.1 e.symm
    rw [this]
    exact iha hg.2 _ _ h1

theorem fullMatch_iff {re : Re} {s : Str} :
    fullMatch re s = true ↔ ∃ st ∈ re.run ⟨[], false, s⟩, st.rest = [] := by
  simp [fullMatch, List.any_eq_true]

/-- A full match of a pattern without `\A` is found again when the text is
followed by more text, with any groups captured before. -/
theorem fullMatch_frame {re : Re} {s : Str} (hb : re.noBot = true) (h : fullMatch re s = true)
    (caps : List (Nat × Str)) (b : Bool) (y : Str) :
    ∃ st ∈ re.run ⟨caps, b, s ++ y⟩, st.rest = y := by
  obtain ⟨st, hst, e⟩ := fullMatch_iff.1 h
  obtain ⟨s3, m3, e3⟩ := re.run_frame hb _ _ hst caps b y
  exact ⟨s3, m3, by simpa [e] using e3⟩

theorem mem_run_lit_append (w : Str) (caps : List (Nat × Str)) (b : Bool) (y : Str) (hw : w ≠ []) :
    (⟨caps, false, y⟩ : MState) ∈ (Re.lit w).run ⟨caps, b, w ++ y⟩ := by
  induction w generalizing b with
  | nil => exact absurd rfl hw
  | cons c cs ih =>
    simp only [Re.lit, List.cons_append]
    refine mem_run_seq.2 ⟨⟨caps, false, cs ++ y⟩, by simp [run_chr_cons], ?_⟩
    cases cs with
    | nil => simp [Re.lit, run_eps]
    | cons d ds => exact ih false (by simp)

theorem mem_run_lit {w : Str} {st st2 : MState} (h : st2 ∈ (Re.lit w).run st) :
    st.rest = w ++ st2.rest ∧ st2.caps = st.caps := by
  induction w generalizing st with
  | nil =>
    simp [Re.lit, run_eps] at h
    subst h
    simp
  | cons c cs ih =>
    simp only [Re.lit] at h
    obtain ⟨s1, h1, h2⟩ := mem_run_seq.1 h
    obtain ⟨e1, c1, _⟩ := mem_run_chr h1
    obtain ⟨e2, c2⟩ := ih h2
    exact ⟨by rw [e1, e2]; rfl, by rw [c2, c1]⟩

theorem matchAt_of_mem {re : Re} {b : Bool} {s : Str} {st : MState}
    (hst : st ∈ re.run ⟨[], b, s⟩)
    (hlt : ∀ s2 ∈ re.run ⟨[], b, s⟩, s2.rest.length < s.length) :
    ∃ m, matchAt re b s = some m := by
  unfold matchAt
  cases hrun : re.run ⟨[], b, s⟩ with
  | nil => rw [hrun] at hst; simp at hst
  | cons s0 tl =>
    have h0 : s0.rest.length < s.length := hlt s0 (by rw [hrun]; simp)
    simp [h0]

theorem findAllFrom_ne_nil (re : Re) (pre t : Str) (b : Bool)
    (h : ∀ b2, ∃ m, matchAt re b2 t = some m) (ht : t ≠ []) :
    findAllFrom re b 0 (pre ++ t) ≠ [] := by
  induction pre generalizing b with
  | nil =>
    obtain ⟨m, hm⟩ := h b
    cases t with
    | nil => exact absurd rfl ht
    | cons c cs => simp [findAllFrom, hm]
  | cons c cs ih =>
    simp only [List.cons_append, findAllFrom]
    cases hm : matchAt re b (c :: (cs ++ t)) with
    | some m => simp
    | none => simpa using ih false

theorem run_rawKeyRegex_lt (ext : Char → Bool) {st st2 : MState}
    (h : st2 ∈ (rawKeyRegex ext).run st) : st2.rest.length < st.rest.length := by
  simp only [rawKeyRegex, Re.cat] at h
  obtain ⟨s1, h1, h2⟩ := mem_run_seq.1 h
  obtain ⟨e1, _⟩ := mem_run_lit h1
  have := Re.run_length_le _ h2
  rw [e1]
  simp only [List.length_append]
  have : ("\x7b\x7b".toList).length = 2 := rfl
  omega

theorem noBot_keyRegex (ext : Char → Bool) : (keyRegex ext).noBot = true := rfl

/-- A double-brace variable form is matched by `rawKeyRegex` where it stands. -/
theorem rawKeyRegex_matches (ext : Char → Bool) (up k post : Str)
    (hup : up = [] ∨ up = "../".toList) (hk : isKey ext k = true) (b : Bool) :
    ∃ m, matchAt (rawKeyRegex ext) b
      ("\x7b\x7b".toList ++ up ++ k ++ "\x7d\x7d".toList ++ post) = some m := by
  obtain ⟨s3, m3, e3⟩ := fullMatch_frame (noBot_keyRegex ext) hk
    (if up = [] then [] else [(1, "../".toList)]) false ("\x7d\x7d".toList ++ post)
  have hgrp : (⟨(2, k) :: s3.caps, s3.atStart, "\x7d\x7d".toList ++ post⟩ : MState) ∈
      (Re.grp 2 (keyRegex ext)).run
        ⟨if up = [] then [] else [(1, "../".toList)], false, k ++ ("\x7d\x7d".toList ++ post)⟩ := by
    have := mem_run_grp_of (n := 2) (w := k) m3 (by simp [e3])
    rw [e3] at this
    exact this
  have hpar : (⟨if up = [] then [] else [(1, "../".toList)], false,
      k ++ ("\x7d\x7d".toList ++ post)⟩ : MState) ∈
      (parentRegex 1).run ⟨[], false, up ++ (k ++ ("\x7d\x7d".toList ++ post))⟩ := by
    rcases hup with hup | hup
    · subst hup
      simp [parentRegex, Re.opt, run_alt, run_eps]
    · subst hup
      simp only [parentRegex, Re.opt]
      refine mem_run_alt.2 (Or.inl ?_)
      have := mem_run_grp_of (n := 1) (w := "../".toList)
        (mem_run_lit_append "../".toList [] false (k ++ ("\x7d\x7d".toList ++ post)) (by simp)) rfl
      simpa using this
  have hall : (⟨(2, k) :: s3.caps, false, post⟩ : MState) ∈ (rawKeyRegex ext).run
      ⟨[], b, "\x7b\x7b".toList ++ up ++ k ++ "\x7d\x7d".toList ++ post⟩ := by
    simp only [rawKeyRegex, Re.cat, List.append_assoc]
    refine mem_run_seq.2 ⟨_, mem_run_lit_append "\x7b\x7b".toList [] b _ (by simp), ?_⟩
    refine mem_run_seq.2 ⟨_, hpar, ?_⟩
    refine mem_run_seq.2 ⟨_, hgrp, ?_⟩
    refine mem_run_seq.2 ⟨_, mem_run_lit_append "\x7d\x7d".toList _ _ post (by simp), ?_⟩
    simp [run_eps]
  exact matchAt_of_mem hall (fun s2 h2 => run_rawKeyRegex_lt ext h2)

/-- Claim C1: a text with an occurrence of the double-brace variable form (two
opening braces, an optional `../`, a path of the key grammar, two closing
braces) makes `Convert` return an error together with the empty text, whatever
stands before and after the occurrence and whatever the iteration bound. -/
theorem C1_double_brace_rejected (ext : Char → Bool) (fuel : Nat) (pre up k post : Str)
    (hup : up = [] ∨ up = "../".toList) (hk : isKey ext k = true) :
    ∃ near, Convert ext fuel (pre ++ ("\x7b\x7b".toList ++ up ++ k ++ "\x7d\x7d".toList ++ post))
      = .ret ([], some (.doubleBraced near)) := by
  have hne := findAllFrom_ne_nil (rawKeyRegex ext) pre
    ("\x7b\x7b".toList ++ up ++ k ++ "\x7d\x7d".toList ++ post) true
    (fun b2 => rawKeyRegex_matches ext up k post hup hk b2) (by simp)
  cases hfa : findAll (rawKeyRegex ext)
      (pre ++ ("\x7b\x7b".toList ++ up ++ k ++ "\x7d\x7d".toList ++ post)) with
  | nil => exact absurd hfa hne
  | cons m ms =>
    refine ⟨m.group 0, ?_⟩
    have hv : convertVariables ext fuel
        (pre ++ ("\x7b\x7b".toList ++ up ++ k ++ "\x7d\x7d".toList ++ post))
        = .ret ([], some (.doubleBraced (m.group 0))) := by
      unfold convertVariables
      rw [hfa]
      rfl
    unfold Convert parse
    rw [hv]
    rfl

/-- Claim C1 at the input `a {{../user.name}} b` and at `{{1}}`, whose key begins
with a digit. -/
theorem C1_double_brace_rejected_witness :
    (("../".toList = [] ∨ "../".toList = "../".toList) ∧
      isKey asciiLetters "user.name".toList = true ∧
      ∃ near, Convert asciiLetters 0
          ("a ".toList ++ ("\x7b\x7b".toList ++ "../".toList ++ "user.name".toList ++ "\x7d\x7d".toList
            ++ " b".toList))
        = .ret ([], some (.doubleBraced near))) ∧
    isKey asciiLetters "1".toList = true ∧
    ∃ near, Convert asciiLetters 0
        ([] ++ ("\x7b\x7b".toList ++ [] ++ "1".toList ++ "\x7d\x7d".toList ++ []))
      = .ret ([], some (.doubleBraced near)) :=
  ⟨⟨Or.inr rfl, by decide,
    C1_double_brace_rejected asciiLetters 0 "a ".toList "../".toList "user.name".toList " b".toList
      (Or.inr rfl) (by decide)⟩, by decide,
    C1_double_brace_rejected asciiLetters 0 [] [] "1".toList [] (Or.inl rfl) (by decide)⟩

/-! ## Characters and identifiers -/

theorem identRest_of_isPunct (ext : Char → Bool) {c : Char} (h : isPunct c = true) :
    identRest ext c = false := by
  simp only [isPunct, Bool.and_eq_true, decide_eq_true_eq, Bool.not_eq_true', bne_iff_ne, ne_eq] at h
  obtain ⟨⟨h1, h2⟩, h3⟩ := h
  have h4 : c.isDigit = false := by
    simp only [Char.isAlphanum, Bool.or_eq_false_iff] at h2
    exact h2.2
  simp [identRest, identStart, isLetterLike, h1, h2, h3, h4]

theorem identStart_imp_identRest (ext : Char → Bool) {c : Char} (h : identStart ext c = true) :
    identRest ext c = true := by
  simp [identRest, h]

theorem mem_run_star_cls {g : Bool} {p : Char → Bool} {st st2 : MState}
    (h : st2 ∈ (Re.star g (Re.cls p)).run st) :
    ∃ w, st.rest = w ++ st2.rest ∧ (∀ c ∈ w, p c = true) ∧ st2.caps = st.caps := by
  have hr := mem_run_star.1 h
  clear h
  induction hr with
  | refl st => exact ⟨[], rfl, by simp, rfl⟩
  | step h1 _ _ ih =>
    obtain ⟨x, e1, px, c1, _⟩ := mem_run_cls h1
    obtain ⟨w, e2, pw, c2⟩ := ih
    refine ⟨x :: w, by rw [e1, e2]; rfl, ?_, by rw [c2, c1]⟩
    intro c hc
    rcases List.mem_cons.1 hc with hc | hc
    · rw [hc]; exact px
    · exact pw c hc

theorem mem_run_star_cls_of {g : Bool} {p : Char → Bool} (w : Str) (hw : ∀ c ∈ w, p c = true)
    (caps : List (Nat × Str)) (y : Str) :
    ∀ b : Bool, (⟨caps, b && w.isEmpty, y⟩ : MState) ∈ (Re.star g (Re.cls p)).run ⟨caps, b, w ++ y⟩ := by
  induction w with
  | nil => intro b; simpa using mem_run_star.2 (Reach.refl _)
  | cons x xs ih =>
    intro b
    refine mem_run_star.2 (@Reach.step _ _ ⟨caps, false, xs ++ y⟩ _ ?_ ?_ ?_)
    · simp [run_cls_cons, hw x (by simp)]
    · simp
    · have := mem_run_star.1 (ih (fun c hc => hw c (by simp [hc])) false)
      simpa using this

/-- An identifier is a character of the class `[_\pL\pNl]` followed by
characters of the class `[_\pL\pNl\d]`. -/
theorem isIdentifier_iff (ext : Char → Bool) (s : Str) :
    isIdentifier ext s = true ↔
      ∃ c cs, s = c :: cs ∧ identStart ext c = true ∧ ∀ x ∈ cs, identRest ext x = true := by
  constructor
  · intro h
    obtain ⟨st, hst, e⟩ := fullMatch_iff.1 h
    simp only [identifierRegex] at hst
    obtain ⟨s1, h1, h2⟩ := mem_run_seq.1 hst
    obtain ⟨x, e1, px, _, _⟩ := mem_run_cls h1
    obtain ⟨w, e2, pw, _⟩ := mem_run_star_cls h2
    refine ⟨x, w, ?_, px, pw⟩
    have : s = x :: s1.rest := e1
    rw [this, e2, e]
    simp
  · rintro ⟨c, cs, rfl, hc, hcs⟩
    refine fullMatch_iff.2 ⟨⟨[], false, []⟩, ?_, rfl⟩
    simp only [identifierRegex]
    refine mem_run_seq.2 ⟨⟨[], false, cs⟩, by simp [run_cls_cons, hc], ?_⟩
    have := mem_run_star_cls_of (g := true) cs hcs [] [] false
    simpa using this

theorem isIdentifier_chars (ext : Char → Bool) {s : Str} (h : isIdentifier ext s = true) :
    s ≠ [] ∧ ∀ c ∈ s, identRest ext c = true := by
  obtain ⟨c, cs, rfl, hc, hcs⟩ := (isIdentifier_iff ext s).1 h
  refine ⟨by simp, ?_⟩
  intro x hx
  rcases List.mem_cons.1 hx with hx | hx
  · rw [hx]; exact identStart_imp_identRest ext hc
  · exact hcs x hx

/-- No character of an identifier is a punctuation character. -/
theorem isIdentifier_not_punct (ext : Char → Bool) {s : Str} (h : isIdentifier ext s = true)
    {c : Char} (hc : c ∈ s) : isPunct c = false := by
  cases hp : isPunct c with
  | false => rfl
  | true =>
    have := (isIdentifier_chars ext h).2 c hc
    rw [identRest_of_isPunct ext hp] at this
    exact absurd this (by simp)

/-! ## The Path Resolver `convertName` -/

theorem indexOf_none {p : Char → Bool} {w : Str} (hw : ∀ c ∈ w, p c = false) :
    indexOf p w = none := by
  induction w with
  | nil => rfl
  | cons x xs ih =>
    simp [indexOf, hw x (by simp), ih (fun c hc => hw c (by simp [hc]))]

theorem indexOf_append {p : Char → Bool} {w : Str} (hw : ∀ c ∈ w, p c = false) (c : Char)
    (hc : p c = true) (rest : Str) : indexOf p (w ++ c :: rest) = some w.length := by
  induction w with
  | nil => simp [indexOf, hc]
  | cons x xs ih =>
    simp [indexOf, hw x (by simp), ih (fun c hc => hw c (by simp [hc]))]

theorem nameSplit {p : Char → Bool} {n rest : Str} (hn : ∀ c ∈ n, p c = false)
    (hrest : rest = [] ∨ ∃ c tl, rest = c :: tl ∧ p c = true) :
    (match indexOf p (n ++ rest) with
      | none => (n ++ rest, ([] : Str))
      | some i => ((n ++ rest).take i, (n ++ rest).drop i)) = (n, rest) := by
  rcases hrest with h | ⟨c, tl, h, hc⟩
  · subst h
    simp [indexOf_none hn]
  · subst h
    simp [indexOf_append hn c hc tl]

theorem convertNameLoop_field (fuel : Nat) (e n rest : Str)
    (hn : ∀ c ∈ n, (c == '.' || c == '[') = false) (hrest : sepStart rest) :
    convertNameLoop (fuel + 1) e ('.' :: (n ++ rest)) =
      convertNameLoop fuel (Segment.apply e (.field n)) rest := by
  have hs := nameSplit hn hrest
  simp only [convertNameLoop, Segment.apply, ↓reduceIte]
  rw [if_neg (by decide), hs]

theorem convertNameLoop_head (fuel : Nat) (e n rest : Str) (hne : n ≠ [])
    (hn : ∀ c ∈ n, (c == '.' || c == '[') = false) (hrest : sepStart rest) :
    convertNameLoop (fuel + 1) e (n ++ rest) =
      convertNameLoop fuel (Segment.apply e (.field n)) rest := by
  have hs := nameSplit hn hrest
  cases n with
  | nil => exact absurd rfl hne
  | cons c cs =>
    have hc := hn c (by simp)
    simp only [Bool.or_eq_false_iff, beq_eq_false_iff_ne, ne_eq] at hc
    simp only [List.cons_append, convertNameLoop, Segment.apply]
    rw [if_neg hc.2, if_neg hc.1]
    simp only [List.cons_append] at hs
    rw [hs]

theorem convertNameLoop_index (fuel : Nat) (e d rest : Str)
    (hd : ∀ c ∈ d, (c == ']') = false) :
    convertNameLoop (fuel + 1) e ('[' :: (d ++ ']' :: rest)) =
      convertNameLoop fuel (Segment.apply e (.index d)) rest := by
  simp only [convertNameLoop, Segment.apply, ↓reduceIte]
  rw [indexOf_append hd ']' (by decide) rest]
  simp

theorem identRest_not_sep (ext : Char → Bool) {c : Char} (h : identRest ext c = true) :
    (c == '.' || c == '[') = false := by
  cases hc : (c == '.' || c == '[') with
  | false => rfl
  | true =>
    simp only [Bool.or_eq_true, beq_iff_eq] at hc
    rcases hc with hc | hc <;> subst hc <;>
      rw [identRest_of_isPunct ext (by decide)] at h <;> exact absurd h (by simp)

theorem sepStart_segments (segs : List Segment) : sepStart (segs.map Segment.text).flatten := by
  cases segs with
  | nil => exact Or.inl rfl
  | cons sg rest =>
    cases sg with
    | field f => exact Or.inr ⟨'.', _, rfl, by decide⟩
    | index d => exact Or.inr ⟨'[', _, rfl, by decide⟩

theorem convertNameLoop_segments (segs : List Segment) :
    (∀ sg ∈ segs, sg.loose) → ∀ (fuel : Nat) (e : Str),
      convertNameLoop (fuel + segs.length + 1) e (segs.map Segment.text).flatten =
        .ret (segs.foldl Segment.apply e) := by
  induction segs with
  | nil => intro _ fuel e; simp [convertNameLoop]
  | cons sg rest ih =>
    intro hwf fuel e
    have hrest := ih (fun x hx => hwf x (by simp [hx])) fuel
    have hsg := hwf sg (by simp)
    have hlen : fuel + (sg :: rest).length + 1 = (fuel + rest.length + 1) + 1 := by
      simp only [List.length_cons]; omega
    rw [hlen]
    cases sg with
    | field f =>
      simp only [List.map_cons, List.flatten_cons, Segment.text, List.foldl_cons, List.cons_append]
      rw [convertNameLoop_field _ _ _ _ hsg (sepStart_segments rest)]
      exact hrest _
    | index d =>
      simp only [List.map_cons, List.flatten_cons, Segment.text, List.foldl_cons, List.cons_append,
        List.append_assoc, List.singleton_append]
      rw [convertNameLoop_index _ _ _ _ hsg]
      exact hrest _

/-- The result of `convertName` on an identifier followed by segments. -/
theorem convertName_path (ext : Char → Bool) (head : Str) (segs : List Segment) (fuel : Nat)
    (hhead : isIdentifier ext head = true) (hsegs : ∀ sg ∈ segs, sg.loose)
    (hfuel : segs.length + 1 < fuel) :
    convertName fuel (pathText head segs) =
      .ret ((Segment.field head :: segs).foldl Segment.apply "$".toList) := by
  obtain ⟨k, rfl⟩ : ∃ k, fuel = (k + segs.length + 1) + 1 := ⟨fuel - segs.length - 2, by omega⟩
  obtain ⟨hne, hchars⟩ := isIdentifier_chars ext hhead
  have hat : ("@".toList.isPrefixOf (pathText head segs)) = false := by
    cases head with
    | nil => exact absurd rfl hne
    | cons c cs =>
      have hc := isIdentifier_not_punct ext hhead (c := c) (by simp)
      cases hq : ("@".toList.isPrefixOf (pathText (c :: cs) segs)) with
      | false => rfl
      | true =>
        simp [pathText] at hq
        subst hq
        exact absurd hc (by decide)
  unfold convertName
  rw [hat]
  simp only [Bool.false_eq_true, if_false, pathText, List.foldl_cons]
  rw [convertNameLoop_head _ _ _ _ hne (fun c hc => identRest_not_sep ext (hchars c hc))
    (sepStart_segments segs)]
  exact convertNameLoop_segments segs hsegs k _

theorem loose_of_wf (ext : Char → Bool) {sg : Segment} (h : sg.wf ext) : sg.loose := by
  cases sg with
  | field f => exact fun c hc => identRest_not_sep ext ((isIdentifier_chars ext h).2 c hc)
  | index d =>
    intro c hc
    have := h.2 c hc
    cases hq : (c == ']') with
    | false => rfl
    | true =>
      simp only [beq_iff_eq] at hq
      subst hq
      exact absurd this (by decide)

/-- Claim C3: on a path made of a leading identifier and any sequence of
`.identifier` and `[digits]` segments, `convertName` returns the left fold of
the segments from the root symbol `$`: a field `f` other than `length` makes
`E.f` of `E`, `length` makes `(len E)`, and `[N]` makes `(index E N)`; the
leading identifier counts as the first field. One iteration is spent on each
segment and one on the final test. -/
theorem C3_convertName_fold (ext : Char → Bool) (head : Str) (segs : List Segment) (fuel : Nat)
    (hhead : isIdentifier ext head = true) (hsegs : ∀ sg ∈ segs, sg.wf ext)
    (hfuel : segs.length + 1 < fuel) :
    convertName fuel (pathText head segs) =
      .ret ((Segment.field head :: segs).foldl Segment.apply "$".toList) :=
  convertName_path ext head segs fuel hhead (fun sg h => loose_of_wf ext (hsegs sg h)) hfuel

/-- Claim C3 at the paths `a.b[2].c` and `items.length`. -/
theorem C3_convertName_fold_witness :
    (convertName 5 "a.b[2].c".toList = .ret "(index $.a.b 2).c".toList) ∧
    (convertName 5 "items.length".toList = .ret "(len $.items)".toList) :=
  ⟨C3_convertName_fold asciiLetters "a".toList
      [.field "b".toList, .index "2".toList, .field "c".toList] 5 (by decide)
      (by
        intro sg hsg
        simp only [List.mem_cons, List.mem_singleton, List.not_mem_nil, or_false] at hsg
        rcases hsg with h | h | h <;> subst h
        · show isIdentifier asciiLetters "b".toList = true
          decide
        · exact ⟨by decide, by decide⟩
        · show isIdentifier asciiLetters "c".toList = true
          decide)
      (by decide),
   C3_convertName_fold asciiLetters "items".toList [.field "length".toList] 5 (by decide)
      (by
        intro sg hsg
        simp only [List.mem_singleton] at hsg
        subst hsg
        show isIdentifier asciiLetters "length".toList = true
        decide)
      (by decide)⟩

/-! ## Scanning a text -/

theorem findAllFrom_zero (re : Re) (b : Bool) (c : Char) (cs : Str) :
    findAllFrom re b 0 (c :: cs) =
      match matchAt re b (c :: cs) with
      | some m => m :: findAllFrom re false (m.whole.length - 1) cs
      | none => findAllFrom re false 0 cs := rfl

theorem findAllFrom_succ (re : Re) (b : Bool) (k : Nat) (c : Char) (cs : Str) :
    findAllFrom re b (k + 1) (c :: cs) = findAllFrom re false k cs := rfl

theorem replaceAllFrom_zero (re : Re) (repl : Match → Str) (b : Bool) (c : Char) (cs : Str) :
    replaceAllFrom re repl b 0 (c :: cs) =
      match matchAt re b (c :: cs) with
      | some m => repl m ++ replaceAllFrom re repl false (m.whole.length - 1) cs
      | none => c :: replaceAllFrom re repl false 0 cs := rfl

theorem replaceAllFrom_succ (re : Re) (repl : Match → Str) (b : Bool) (k : Nat) (c : Char)
    (cs : Str) : replaceAllFrom re repl b (k + 1) (c :: cs) = replaceAllFrom re repl false k cs := rfl

theorem strReplaceFrom_zero (old new : Str) (c : Char) (cs : Str) :
    strReplaceFrom old new 0 (c :: cs) =
      if old.isPrefixOf (c :: cs) then new ++ strReplaceFrom old new (old.length - 1) cs
      else c :: strReplaceFrom old new 0 cs := rfl

theorem strReplaceFrom_succ (old new : Str) (k : Nat) (c : Char) (cs : Str) :
    strReplaceFrom old new (k + 1) (c :: cs) = strReplaceFrom old new k cs := rfl

theorem run_seq_assoc (a b c : Re) (st : MState) :
    (Re.seq (Re.seq a b) c).run st = (Re.seq a (Re.seq b c)).run st := by
  simp only [run_seq, List.flatMap_assoc]

/-- A pattern that begins with a literal text: the literal has to stand at the
position, and the rest of the pattern goes on behind it. -/
theorem run_lit_seq (w : Str) (r : Re) (st : MState) :
    (Re.seq (Re.lit w) r).run st =
      if w.isPrefixOf st.rest then r.run ⟨st.caps, st.atStart && w.isEmpty, st.rest.drop w.length⟩
      else [] := by
  induction w generalizing st with
  | nil =>
    obtain ⟨caps, b, rest⟩ := st
    simp [Re.lit, run_seq, run_eps]
  | cons c cs ih =>
    obtain ⟨caps, b, rest⟩ := st
    simp only [Re.lit]
    rw [run_seq_assoc, run_seq]
    cases rest with
    | nil => simp [Re.run]
    | cons x xs =>
      rw [run_chr_cons]
      by_cases hx : x = c
      · subst hx
        simp [ih]
      · have : (c == x) = false := by
          simp only [beq_eq_false_iff_ne, ne_eq]
          exact fun e => hx e.symm
        simp only [hx, if_false, List.flatMap_nil, List.isPrefixOf_cons₂, this, Bool.false_and,
          Bool.false_eq_true]

theorem needsHead_lit (c0 : Char) (w : Str) (r : Re) : NeedsHead (Re.seq (Re.lit (c0 :: w)) r) c0 := by
  intro st hst
  rw [run_lit_seq]
  cases hrest : st.rest with
  | nil => simp
  | cons x xs =>
    have : x ≠ c0 := by
      intro e
      subst e
      exact hst xs hrest
    have hb : (c0 == x) = false := by
      simp only [beq_eq_false_iff_ne, ne_eq]
      exact fun e => this e.symm
    simp only [List.isPrefixOf_cons₂, hb, Bool.false_and, Bool.false_eq_true, if_false]

theorem needsHead_chr (c0 : Char) (r : Re) : NeedsHead (Re.seq (Re.chr c0) r) c0 := by
  intro st hst
  obtain ⟨caps, b, rest⟩ := st
  cases rest with
  | nil => simp [Re.run]
  | cons x xs =>
    have : x ≠ c0 := by
      intro e
      subst e
      exact hst xs rfl
    simp [run_seq, run_chr_cons, this]

theorem matchAt_none_of_run {re : Re} {b : Bool} {s : Str} (h : re.run ⟨[], b, s⟩ = []) :
    matchAt re b s = none := by
  simp [matchAt, h]

theorem matchAt_none_of_head {re : Re} {c0 : Char} (hre : NeedsHead re c0) (b : Bool) (c : Char)
    (cs : Str) (hc : c ≠ c0) : matchAt re b (c :: cs) = none := by
  apply matchAt_none_of_run
  apply hre
  intro tl e
  simp only [List.cons.injEq] at e
  exact hc e.1

theorem findAllFrom_skip {re : Re} {c0 : Char} (hre : NeedsHead re c0) (pre s : Str)
    (hpre : ∀ c ∈ pre, c ≠ c0) (b : Bool) :
    findAllFrom re b 0 (pre ++ s) = findAllFrom re (b && pre.isEmpty) 0 s := by
  induction pre generalizing b with
  | nil => simp
  | cons c cs ih =>
    rw [List.cons_append, findAllFrom_zero, matchAt_none_of_head hre b c _ (hpre c (by simp))]
    simp only
    rw [ih (fun x hx => hpre x (by simp [hx])) false]
    simp

theorem findAllFrom_nil_of_not_mem {re : Re} {c0 : Char} (hre : NeedsHead re c0) (s : Str)
    (hs : ∀ c ∈ s, c ≠ c0) (b : Bool) : findAllFrom re b 0 s = [] := by
  have := findAllFrom_skip hre s [] hs b
  simpa [findAllFrom] using this

theorem findAllFrom_drop (re : Re) (w s : Str) (b : Bool) (hw : w ≠ []) :
    findAllFrom re b w.length (w ++ s) = findAllFrom re false 0 s := by
  induction w generalizing b with
  | nil => exact absurd rfl hw
  | cons c cs ih =>
    rw [List.length_cons, List.cons_append, findAllFrom_succ]
    cases cs with
    | nil => simp
    | cons d ds => exact ih false (by simp)

theorem findAllFrom_match {re : Re} {b : Bool} {w s : Str} {m : Match}
    (hm : matchAt re b (w ++ s) = some m) (hw : m.whole = w) (hne : w ≠ []) :
    findAllFrom re b 0 (w ++ s) = m :: findAllFrom re false 0 s := by
  cases w with
  | nil => exact absurd rfl hne
  | cons c cs =>
    rw [List.cons_append] at hm
    rw [List.cons_append, findAllFrom_zero, hm]
    simp only [hw, List.length_cons, Nat.add_sub_cancel]
    cases cs with
    | nil => simp
    | cons d ds =>
      rw [findAllFrom_drop re (d :: ds) s false (by simp)]

theorem replaceAllFrom_skip {re : Re} {c0 : Char} (hre : NeedsHead re c0) (repl : Match → Str)
    (pre s : Str) (hpre : ∀ c ∈ pre, c ≠ c0) (b : Bool) :
    replaceAllFrom re repl b 0 (pre ++ s) = pre ++ replaceAllFrom re repl (b && pre.isEmpty) 0 s := by
  induction pre generalizing b with
  | nil => simp
  | cons c cs ih =>
    rw [List.cons_append, replaceAllFrom_zero, matchAt_none_of_head hre b c _ (hpre c (by simp))]
    simp only
    rw [ih (fun x hx => hpre x (by simp [hx])) false]
    simp

theorem replaceAllFrom_id_of_not_mem {re : Re} {c0 : Char} (hre : NeedsHead re c0)
    (repl : Match → Str) (s : Str) (hs : ∀ c ∈ s, c ≠ c0) (b : Bool) :
    replaceAllFrom re repl b 0 s = s := by
  have := replaceAllFrom_skip hre repl s [] hs b
  simpa [replaceAllFrom] using this

theorem replaceAllFrom_drop (re : Re) (repl : Match → Str) (w s : Str) (b : Bool) (hw : w ≠ []) :
    replaceAllFrom re repl b w.length (w ++ s) = replaceAllFrom re repl false 0 s := by
  induction w generalizing b with
  | nil => exact absurd rfl hw
  | cons c cs ih =>
    rw [List.length_cons, List.cons_append, replaceAllFrom_succ]
    cases cs with
    | nil => simp
    | cons d ds => exact ih false (by simp)

theorem replaceAllFrom_match {re : Re} {repl : Match → Str} {b : Bool} {w s : Str} {m : Match}
    (hm : matchAt re b (w ++ s) = some m) (hw : m.whole = w) (hne : w ≠ []) :
    replaceAllFrom re repl b 0 (w ++ s) = repl m ++ replaceAllFrom re repl false 0 s := by
  cases w with
  | nil => exact absurd rfl hne
  | cons c cs =>
    rw [List.cons_append] at hm
    rw [List.cons_append, replaceAllFrom_zero, hm]
    simp only [hw, List.length_cons, Nat.add_sub_cancel]
    cases cs with
    | nil => simp
    | cons d ds =>
      rw [replaceAllFrom_drop re repl (d :: ds) s false (by simp)]

theorem strReplaceFrom_skip (old new : Str) (c0 : Char) (tl : Str) (ho : old = c0 :: tl)
    (pre s : Str) (hpre : ∀ c ∈ pre, c ≠ c0) :
    strReplaceFrom old new 0 (pre ++ s) = pre ++ strReplaceFrom old new 0 s := by
  induction pre with
  | nil => simp
  | cons c cs ih =>
    have hc : (c0 == c) = false := by
      simp only [beq_eq_false_iff_ne, ne_eq]
      exact fun e => hpre c (by simp) e.symm
    have hp : old.isPrefixOf (c :: (cs ++ s)) = false := by
      rw [ho, List.isPrefixOf_cons₂, hc]
      rfl
    rw [List.cons_append, strReplaceFrom_zero, hp, ih (fun x hx => hpre x (by simp [hx]))]
    simp

theorem strReplaceFrom_drop (old new w s : Str) :
    strReplaceFrom old new w.length (w ++ s) = strReplaceFrom old new 0 s := by
  induction w with
  | nil => simp
  | cons c cs ih => rw [List.length_cons, List.cons_append, strReplaceFrom_succ, ih]

theorem strReplaceFrom_match (old new s : Str) (hne : old ≠ []) :
    strReplaceFrom old new 0 (old ++ s) = new ++ strReplaceFrom old new 0 s := by
  cases old with
  | nil => exact absurd rfl hne
  | cons c cs =>
    have hp : (c :: cs).isPrefixOf (c :: (cs ++ s)) = true := by
      rw [List.isPrefixOf_iff_prefix]
      exact ⟨s, rfl⟩
    rw [List.cons_append, strReplaceFrom_zero, hp]
    simp only [if_true, List.length_cons, Nat.add_sub_cancel]
    rw [strReplaceFrom_drop]

theorem strReplace_eq (s old new : Str) (hne : old ≠ []) :
    strReplace s old new = strReplaceFrom old new 0 s := by
  simp [strReplace, hne]

/-- Nothing is replaced in a text that lacks the first character of `old`. -/
theorem strReplace_of_not_mem (s old new : Str) (c0 : Char) (tl : Str) (ho : old = c0 :: tl)
    (hs : ∀ c ∈ s, c ≠ c0) : strReplace s old new = s := by
  have h := strReplaceFrom_skip old new c0 tl ho s [] hs
  rw [strReplace_eq s old new (by rw [ho]; simp)]
  simpa [strReplaceFrom] using h

/-- Replacing the whole text. -/
theorem strReplace_self (s new : Str) (hne : s ≠ []) : strReplace s s new = new := by
  have h := strReplaceFrom_match s new [] hne
  rw [strReplace_eq s s new hne]
  simpa [strReplaceFrom] using h

/-! ## The key grammar -/

/-- A pattern without groups leaves the captured groups as they are. -/
theorem Re.run_caps (r : Re) :
    r.noGrp = true → ∀ st st2, st2 ∈ r.run st → st2.caps = st.caps := by
  induction r with
  | chr c => intro _ st st2 h; exact (mem_run_chr h).2.1
  | cls p =>
    intro _ st st2 h
    obtain ⟨x, _, _, h3, _⟩ := mem_run_cls h
    exact h3
  | bot =>
    intro _ st st2 h
    by_cases hb : st.atStart = true
    · simp [Re.run, hb] at h; rw [h]
    · simp [Re.run, hb] at h
  | eps => intro _ st st2 h; simp [Re.run] at h; rw [h]
  | seq a b iha ihb =>
    intro hg st st2 h
    simp only [Re.noGrp, Bool.and_eq_true] at hg
    obtain ⟨s1, h1, h2⟩ := mem_run_seq.1 h
    rw [ihb hg.2 _ _ h2, iha hg.1 _ _ h1]
  | alt a b iha ihb =>
    intro hg st st2 h
    simp only [Re.noGrp, Bool.and_eq_true] at hg
    rcases mem_run_alt.1 h with h | h
    · exact iha hg.1 _ _ h
    · exact ihb hg.2 _ _ h
  | star g a iha =>
    intro hg st st2 h
    simp only [Re.noGrp] at hg
    have hr := mem_run_star.1 h
    clear h
    induction hr with
    | refl => rfl
    | step h1 _ _ ih => rw [ih, iha hg _ _ h1]
  | grp k a _ => intro hg; simp [Re.noGrp] at hg

theorem keyChar_of_isDelim (ext : Char → Bool) {c : Char} (h : isDelim c = true) :
    keyChar ext c = false := by
  simp only [isDelim, Bool.and_eq_true, bne_iff_ne, ne_eq] at h
  obtain ⟨⟨⟨⟨h1, h2⟩, h3⟩, h4⟩, h5⟩ := h
  simp [keyChar, identRest_of_isPunct ext h1, h2, h3, h4, h5]

theorem keyChar_of_identRest (ext : Char → Bool) {c : Char} (h : identRest ext c = true) :
    keyChar ext c = true := by
  simp [keyChar, h]

theorem identRest_letter (ext : Char → Bool) {c : Char} (h1 : c.toNat < 128)
    (h2 : c.isAlpha = true) : identRest ext c = true := by
  simp [identRest, identStart, isLetterLike, Char.isAlphanum, h1, h2]

theorem keyRegex_within (ext : Char → Bool) :
    (keyRegex ext).Within (fun c => keyChar ext c = true) := by
  have hd : ∀ x : Char, x.isDigit = true → keyChar ext x = true := by
    intro x hx
    simp [keyChar, identRest, hx]
  have hs : ∀ x : Char, identStart ext x = true → keyChar ext x = true :=
    fun x hx => keyChar_of_identRest ext (identStart_imp_identRest ext hx)
  have hr : ∀ x : Char, identRest ext x = true → keyChar ext x = true :=
    fun x hx => keyChar_of_identRest ext hx
  have h1 : keyChar ext '@' = true := by simp [keyChar]
  have h2 : keyChar ext '.' = true := by simp [keyChar]
  have h3 : keyChar ext '[' = true := by simp [keyChar]
  have h4 : keyChar ext ']' = true := by simp [keyChar]
  simp only [keyRegex, specialRegex, identifierRegex, namespaceRegex, arrayRegex, Re.cat, Re.plus,
    Re.Within, and_true]
  refine ⟨⟨h1, ?_, ?_, ?_, ?_⟩, ⟨hs, hr⟩, h2, ⟨hs, hr⟩, h3, ⟨hd, hd⟩, h4⟩ <;>
    (repeat' constructor)

theorem noGrp_keyRegex (ext : Char → Bool) : (keyRegex ext).noGrp = true := rfl

/-- Every character of a path of the key grammar is a key character. -/
theorem isKey_chars (ext : Char → Bool) {p : Str} (h : isKey ext p = true) :
    ∀ c ∈ p, keyChar ext c = true := by
  obtain ⟨st, hst, e⟩ := fullMatch_iff.1 h
  obtain ⟨w, e1, hw⟩ := (keyRegex ext).run_within (keyRegex_within ext) _ _ hst
  have : p = w := by
    have : p = w ++ st.rest := e1
    rw [this, e]
    simp
  rw [this]
  exact hw

/-- Capture group `n` around `keyRegex`: the group is the text consumed, made
of key characters. -/
theorem mem_run_grp_key (ext : Char → Bool) {n : Nat} {st st2 : MState}
    (h : st2 ∈ (Re.grp n (keyRegex ext)).run st) :
    ∃ w, st.rest = w ++ st2.rest ∧ (∀ c ∈ w, keyChar ext c = true) ∧ st2.caps = (n, w) :: st.caps := by
  obtain ⟨s1, h1, w, e, h2⟩ := mem_run_grp_text h
  obtain ⟨w2, e2, hw2⟩ := (keyRegex ext).run_within (keyRegex_within ext) _ _ h1
  have hww : w = w2 := List.append_cancel_right (e.symm.trans e2)
  have hc := (keyRegex ext).run_caps (noGrp_keyRegex ext) _ _ h1
  refine ⟨w, ?_, ?_, ?_⟩
  · rw [h2]; exact e
  · rw [hww]; exact hw2
  · rw [h2, ← hc]

/-- Two ways of cutting a text at its first character outside a class agree. -/
theorem append_cons_unique {P : Char → Bool} {a b r1 r2 : Str} {x y : Char}
    (ha : ∀ c ∈ a, P c = true) (hb : ∀ c ∈ b, P c = true) (hx : P x = false) (hy : P y = false)
    (h : a ++ x :: r1 = b ++ y :: r2) : a = b ∧ x = y ∧ r1 = r2 := by
  induction a generalizing b with
  | nil =>
    cases b with
    | nil => simpa using h
    | cons d ds =>
      simp only [List.nil_append, List.cons_append, List.cons.injEq] at h
      have := hb d (by simp)
      rw [← h.1, hx] at this
      exact absurd this (by simp)
  | cons c cs ih =>
    cases b with
    | nil =>
      simp only [List.nil_append, List.cons_append, List.cons.injEq] at h
      have := ha c (by simp)
      rw [h.1, hy] at this
      exact absurd this (by simp)
    | cons d ds =>
      simp only [List.cons_append, List.cons.injEq] at h
      obtain ⟨h1, h2, h3⟩ := ih (fun c hc => ha c (by simp [hc])) (fun c hc => hb c (by simp [hc])) h.2
      exact ⟨by rw [h.1, h1], h2, h3⟩

theorem matchAt_eq {re : Re} {b : Bool} {w post : Str} {caps0 : List (Nat × Str)}
    (hex : ∃ st, st ∈ re.run ⟨[], b, w ++ post⟩)
    (hall : ∀ st ∈ re.run ⟨[], b, w ++ post⟩, st.rest = post ∧ st.caps = caps0) (hw : w ≠ []) :
    matchAt re b (w ++ post) = some ⟨w, caps0⟩ := by
  unfold matchAt
  cases hrun : re.run ⟨[], b, w ++ post⟩ with
  | nil =>
    obtain ⟨st, hst⟩ := hex
    rw [hrun] at hst
    simp at hst
  | cons s0 tl =>
    obtain ⟨h1, h2⟩ := hall s0 (by rw [hrun]; simp)
    have hlen : post.length < (w ++ post).length := by
      have : 0 < w.length := List.length_pos.2 hw
      simp only [List.length_append]
      omega
    simp only [h1, hlen, if_true, h2, List.length_append, Nat.add_sub_cancel]
    simp [hw]

/-- The first character of a path of the key grammar. -/
theorem isKey_head (ext : Char → Bool) {p : Str} (h : isKey ext p = true) :
    ∃ c cs, p = c :: cs ∧ (c = '@' ∨ identStart ext c = true) := by
  obtain ⟨st, hst, _⟩ := fullMatch_iff.1 h
  simp only [keyRegex, specialRegex, identifierRegex] at hst
  rcases mem_run_alt.1 hst with h1 | h1
  · obtain ⟨s1, h2, _⟩ := mem_run_seq.1 h1
    obtain ⟨e, _, _⟩ := mem_run_chr h2
    exact ⟨'@', s1.rest, e, Or.inl rfl⟩
  · obtain ⟨s1, h2, _⟩ := mem_run_seq.1 h1
    obtain ⟨s2, h3, _⟩ := mem_run_seq.1 h2
    obtain ⟨x, e, hx, _, _⟩ := mem_run_cls h3
    exact ⟨x, s2.rest, e, Or.inr hx⟩

/-- A path of the key grammar does not begin with a punctuation character
other than `@`. -/
theorem isKey_head_ne (ext : Char → Bool) {p : Str} (h : isKey ext p = true) {x : Char}
    (hx : isPunct x = true) (hx2 : x ≠ '@') (tl : Str) : p ≠ x :: tl := by
  obtain ⟨c, cs, e, hc⟩ := isKey_head ext h
  intro e2
  rw [e] at e2
  simp only [List.cons.injEq] at e2
  rcases hc with hc | hc
  · exact hx2 (e2.1 ▸ hc)
  · have := identStart_imp_identRest ext hc
    rw [e2.1, identRest_of_isPunct ext hx] at this
    exact absurd this (by simp)

theorem reach_namespace (ext : Char → Bool) {s st : MState}
    (h : Reach (fun x => (namespaceRegex ext).run x) s st) :
    ∃ segs : List Segment, (∀ sg ∈ segs, sg.loose) ∧
      s.rest = (segs.map Segment.text).flatten ++ st.rest := by
  induction h with
  | refl s => exact ⟨[], by simp, by simp⟩
  | @step s s2 st h1 _ _ ih =>
    obtain ⟨segs, hl, e⟩ := ih
    simp only [namespaceRegex, identifierRegex, arrayRegex, Re.cat, Re.plus] at h1
    obtain ⟨sa, ha, hb⟩ := mem_run_seq.1 h1
    obtain ⟨ea, _, _⟩ := mem_run_chr ha
    rcases mem_run_alt.1 hb with hb | hb
    · obtain ⟨sb, hb1, hb2⟩ := mem_run_seq.1 hb
      obtain ⟨x, ex, px, _, _⟩ := mem_run_cls hb1
      obtain ⟨w, ew, pw, _⟩ := mem_run_star_cls hb2
      refine ⟨Segment.field (x :: w) :: segs, ?_, ?_⟩
      · intro sg hsg
        rcases List.mem_cons.1 hsg with hsg | hsg
        · subst hsg
          intro c hc
          rcases List.mem_cons.1 hc with hc | hc
          · subst hc; exact identRest_not_sep ext (identStart_imp_identRest ext px)
          · exact identRest_not_sep ext (pw c hc)
        · exact hl sg hsg
      · rw [ea, ex, ew, e]
        simp [Segment.text]
    · obtain ⟨sb, hb1, hb2⟩ := mem_run_seq.1 hb
      obtain ⟨eb, _, _⟩ := mem_run_chr hb1
      obtain ⟨sc, hc1, hc2⟩ := mem_run_seq.1 hb2
      obtain ⟨sd, hd1, hd2⟩ := mem_run_seq.1 hc1
      obtain ⟨x, ex, px, _, _⟩ := mem_run_cls hd1
      obtain ⟨w, ew, pw, _⟩ := mem_run_star_cls hd2
      obtain ⟨se, he1, he2⟩ := mem_run_seq.1 hc2
      obtain ⟨ee, _, _⟩ := mem_run_chr he1
      simp only [run_eps, List.mem_singleton] at he2
      subst he2
      refine ⟨Segment.field [] :: Segment.index (x :: w) :: segs, ?_, ?_⟩
      · intro sg hsg
        simp only [List.mem_cons] at hsg
        rcases hsg with hsg | hsg | hsg
        · subst hsg; intro c hc; simp at hc
        · subst hsg
          intro c hc
          have hdig : c.isDigit = true := by
            rcases List.mem_cons.1 hc with hc | hc
            · subst hc; exact px
            · exact pw c hc
          cases hq : (c == ']') with
          | false => rfl
          | true =>
            simp only [beq_iff_eq] at hq
            subst hq
            exact absurd hdig (by decide)
        · exact hl sg hsg
      · rw [ea, eb, ex, ew, ee, e]
        simp [Segment.text]

/-- A path of the key grammar is a special token, or an identifier followed by
segments (an array segment `.[N]` counting as an empty name and an index). -/
theorem isKey_cases (ext : Char → Bool) {p : Str} (h : isKey ext p = true) :
    p ∈ specialTokens ∨
    ∃ head segs, isIdentifier ext head = true ∧ (∀ sg ∈ segs, sg.loose) ∧ p = pathText head segs := by
  obtain ⟨st, hst, e⟩ := fullMatch_iff.1 h
  simp only [keyRegex, specialRegex, identifierRegex] at hst
  rcases mem_run_alt.1 hst with h1 | h1
  · left
    obtain ⟨s1, h2, h3⟩ := mem_run_seq.1 h1
    obtain ⟨e1, _, _⟩ := mem_run_chr h2
    have hp : p = '@' :: s1.rest := e1
    rcases mem_run_alt.1 h3 with h3 | h3
    · have := (mem_run_lit h3).1
      rw [e] at this
      rw [hp, this]
      decide
    · rcases mem_run_alt.1 h3 with h3 | h3
      · have := (mem_run_lit h3).1
        rw [e] at this
        rw [hp, this]
        decide
      · rcases mem_run_alt.1 h3 with h3 | h3
        · have := (mem_run_lit h3).1
          rw [e] at this
          rw [hp, this]
          decide
        · have := (mem_run_lit h3).1
          rw [e] at this
          rw [hp, this]
          decide
  · right
    obtain ⟨s1, h2, h3⟩ := mem_run_seq.1 h1
    obtain ⟨s2, h4, h5⟩ := mem_run_seq.1 h2
    obtain ⟨x, ex, px, _, _⟩ := mem_run_cls h4
    obtain ⟨w, ew, pw, _⟩ := mem_run_star_cls h5
    obtain ⟨segs, hl, es⟩ := reach_namespace ext (mem_run_star.1 h3)
    refine ⟨x :: w, segs, (isIdentifier_iff ext _).2 ⟨x, w, rfl, px, pw⟩, hl, ?_⟩
    have hp : p = x :: s2.rest := ex
    rw [hp, ew, es, e]
    simp [pathText]

theorem length_segments_le (segs : List Segment) :
    segs.length ≤ ((segs.map Segment.text).flatten).length := by
  induction segs with
  | nil => simp
  | cons sg rest ih =>
    have : 1 ≤ sg.text.length := by cases sg <;> simp [Segment.text]
    simp only [List.map_cons, List.flatten_cons, List.length_append, List.length_cons]
    omega

/-- Every character of the result of `convertName` comes from the name or is one
of the characters the function writes by itself. -/
theorem convertNameLoop_chars (P : Char → Prop) (hlit : ∀ c ∈ nameLiterals, P c) :
    ∀ (fuel : Nat) (e r E : Str), (∀ c ∈ e, P c) → (∀ c ∈ r, P c) →
      convertNameLoop fuel e r = .ret E → ∀ c ∈ E, P c := by
  have h1 : ∀ c ∈ "(index ".toList, P c := by
    intro c hc; apply hlit; revert c; decide
  have h2 : ∀ c ∈ " ".toList, P c := by
    intro c hc; apply hlit; revert c; decide
  have h3 : ∀ c ∈ ")".toList, P c := by
    intro c hc; apply hlit; revert c; decide
  have h4 : ∀ c ∈ "(len ".toList, P c := by
    intro c hc; apply hlit; revert c; decide
  have h5 : ∀ c ∈ ".".toList, P c := by
    intro c hc; apply hlit; revert c; decide
  intro fuel
  induction fuel with
  | zero => intro e r E _ _ h; simp [convertNameLoop] at h
  | succ n ih =>
    intro e r E he hr h
    cases r with
    | nil =>
      simp only [convertNameLoop, Outcome.ret.injEq] at h
      subst h
      exact he
    | cons c tl =>
      have htl : ∀ x ∈ tl, P x := fun x hx => hr x (by simp [hx])
      simp only [convertNameLoop] at h
      split at h
      · split at h
        · exact absurd h (by simp)
        · rename_i i _
          refine ih _ _ _ ?_ ?_ h
          · intro x hx
            simp only [List.mem_append] at hx
            rcases hx with (((hx | hx) | hx) | hx) | hx
            · exact h1 x hx
            · exact he x hx
            · exact h2 x hx
            · exact htl x (List.mem_of_mem_take hx)
            · exact h3 x hx
          · intro x hx
            exact htl x (List.mem_of_mem_drop hx)
      · have hrem : ∀ x ∈ (if c = '.' then tl else c :: tl), P x := by
          intro x hx
          split at hx
          · exact htl x hx
          · exact hr x hx
        generalize (if c = '.' then tl else c :: tl) = rem at h hrem
        have hsp : (∀ x ∈ (match indexOf (fun x => x == '.' || x == '[') rem with
                | none => (rem, ([] : Str))
                | some i => (rem.take i, rem.drop i)).1, P x) ∧
            (∀ x ∈ (match indexOf (fun x => x == '.' || x == '[') rem with
                | none => (rem, ([] : Str))
                | some i => (rem.take i, rem.drop i)).2, P x) := by
          cases indexOf (fun x => x == '.' || x == '[') rem with
          | none => exact ⟨hrem, by simp⟩
          | some i =>
            exact ⟨fun x hx => hrem x (List.mem_of_mem_take hx),
              fun x hx => hrem x (List.mem_of_mem_drop hx)⟩
        refine ih _ _ _ ?_ hsp.2 h
        intro x hx
        split at hx
        · simp only [List.mem_append] at hx
          rcases hx with (hx | hx) | hx
          · exact h4 x hx
          · exact he x hx
          · exact h3 x hx
        · simp only [List.mem_append] at hx
          rcases hx with (hx | hx) | hx
          · exact he x hx
          · exact h5 x hx
          · exact hsp.1 x hx

theorem convertName_chars (P : Char → Prop) (hlit : ∀ c ∈ nameLiterals, P c) (fuel : Nat)
    (name E : Str) (hn : ∀ c ∈ name, P c) (h : convertName fuel name = .ret E) :
    ∀ c ∈ E, P c := by
  unfold convertName at h
  split at h
  · simp only [Outcome.ret.injEq] at h
    subst h
    exact hn
  · exact convertNameLoop_chars P hlit fuel _ _ _ (fun c hc => hlit c (by
      simp only [String.toList, List.mem_singleton] at hc
      subst hc
      decide)) hn h

theorem convertName_special {p : Str} (h : p ∈ specialTokens) (fuel : Nat) :
    convertName fuel p = .ret p := by
  simp only [specialTokens, List.mem_cons, List.mem_singleton, List.not_mem_nil, or_false] at h
  rcases h with h | h | h | h <;> subst h <;> rfl

/-- With one more unit of fuel than the path has characters, `convertName`
returns on every path of the key grammar. -/
theorem convertName_key (ext : Char → Bool) {p : Str} (hk : isKey ext p = true) (fuel : Nat)
    (hfuel : p.length + 1 < fuel) : ∃ E, convertName fuel p = .ret E := by
  rcases isKey_cases ext hk with h | ⟨head, segs, hh, hs, e⟩
  · exact ⟨p, convertName_special h fuel⟩
  · refine ⟨_, e ▸ convertName_path ext head segs fuel hh hs ?_⟩
    have h1 := length_segments_le segs
    have h2 : p.length = head.length + ((segs.map Segment.text).flatten).length := by
      rw [e, pathText, List.length_append]
    omega

/-- A character of the result of `convertName` on a key is a key character or
one of the characters the function writes by itself. -/
theorem convertName_key_chars (ext : Char → Bool) {p E : Str} (hk : isKey ext p = true) {fuel : Nat}
    (h : convertName fuel p = .ret E) :
    ∀ c ∈ E, keyChar ext c = true ∨ c ∈ nameLiterals :=
  convertName_chars (fun c => keyChar ext c = true ∨ c ∈ nameLiterals) (fun _ hc => Or.inr hc)
    fuel p E (fun c hc => Or.inl (isKey_chars ext hk c hc)) h

/-- No delimiter other than space, `$` and the parentheses occurs in the result
of `convertName` on a key. -/
theorem convertName_key_not_mem (ext : Char → Bool) {p E : Str} (hk : isKey ext p = true)
    {fuel : Nat} (h : convertName fuel p = .ret E) {x : Char} (hx : isDelim x = true)
    (hx2 : x ∉ nameLiterals) : ∀ c ∈ E, c ≠ x := by
  intro c hc e
  subst e
  rcases convertName_key_chars ext hk h c hc with h1 | h1
  · rw [keyChar_of_isDelim ext hx] at h1
    exact absurd h1 (by simp)
  · exact hx2 h1

/-! ## Matches of the patterns of the Variable Pass -/

theorem needsHead_rawKey (ext : Char → Bool) : NeedsHead (rawKeyRegex ext) '\x7b' :=
  needsHead_lit _ _ _

theorem needsHead_escapedKey (ext : Char → Bool) : NeedsHead (escapedKeyRegex ext) '\x7b' :=
  needsHead_chr _ _

theorem needsHead_function (ext : Char → Bool) : NeedsHead (functionRegex ext) '\x7b' :=
  needsHead_lit _ _ _

theorem needsHead_ifFunction (ext : Char → Bool) : NeedsHead (ifFunctionRegex ext) '<' :=
  needsHead_lit _ _ _

theorem needsHead_if (ext : Char → Bool) : NeedsHead (ifRegex ext) '<' :=
  needsHead_lit _ _ _

theorem needsHead_else : NeedsHead elseRegex '<' :=
  needsHead_lit _ _ _

theorem needsHead_endif (ext : Char → Bool) : NeedsHead (endifRegex ext) '<' :=
  needsHead_lit _ _ _

theorem needsHead_loopFind (ext : Char → Bool) : NeedsHead (loopFindRegex ext) '<' :=
  needsHead_lit _ _ _

/-- The optional `../` takes no part when the text does not begin with a dot. -/
theorem mem_run_parent {n : Nat} {st s2 : MState} (h : s2 ∈ (parentRegex n).run st)
    (hne : ∀ tl, st.rest ≠ '.' :: tl) : s2 = st := by
  simp only [parentRegex, Re.opt] at h
  rcases mem_run_alt.1 h with h | h
  · obtain ⟨s1, h1, _⟩ := mem_run_grp h
    have := (mem_run_lit h1).1
    exact absurd this (hne _)
  · simpa [run_eps] using h

theorem mem_run_parent_self (n : Nat) (st : MState) : st ∈ (parentRegex n).run st := by
  simp only [parentRegex, Re.opt]
  exact mem_run_alt.2 (Or.inr (by simp [run_eps]))

/-- The optional `!` takes no part when the text does not begin with one; the
group is then empty. -/
theorem mem_run_not {n : Nat} {st s2 : MState} (h : s2 ∈ (notRegex n).run st)
    (hne : ∀ tl, st.rest ≠ '!' :: tl) : s2 = ⟨(n, []) :: st.caps, st.atStart, st.rest⟩ := by
  simp only [notRegex, Re.opt] at h
  obtain ⟨s1, h1, h2⟩ := mem_run_grp h
  rcases mem_run_alt.1 h1 with h1 | h1
  · exact absurd (mem_run_chr h1).1 (hne _)
  · simp only [run_eps, List.mem_singleton] at h1
    subst h1
    simpa using h2

theorem mem_run_not_self (n : Nat) (st : MState) :
    (⟨(n, []) :: st.caps, st.atStart, st.rest⟩ : MState) ∈ (notRegex n).run st := by
  simp only [notRegex, Re.opt]
  have h : st ∈ (Re.alt (Re.chr '!') Re.eps).run st := mem_run_alt.2 (Or.inr (by simp [run_eps]))
  exact mem_run_grp_of h (by simp)

/-- Group `n` around `keyRegex` can take a whole key that stands at the position. -/
theorem mem_run_grp_key_of (ext : Char → Bool) (n : Nat) (caps : List (Nat × Str)) (b : Bool)
    {p : Str} (hk : isKey ext p = true) (y : Str) :
    ∃ st2 ∈ (Re.grp n (keyRegex ext)).run ⟨caps, b, p ++ y⟩, st2.rest = y := by
  obtain ⟨s3, m3, e3⟩ := fullMatch_frame (noBot_keyRegex ext) hk caps b y
  have := mem_run_grp_of (n := n) (w := p) m3 (by simp [e3])
  exact ⟨_, this, e3⟩

theorem keyChar_not_delim (ext : Char → Bool) {w : Str} (hw : ∀ c ∈ w, keyChar ext c = true)
    {x : Char} (hx : isDelim x = true) : ∀ c ∈ w, c ≠ x := by
  intro c hc e
  subst e
  have := hw c hc
  rw [keyChar_of_isDelim ext hx] at this
  exact absurd this (by simp)

/-- At a single-brace reference `escapedKeyRegex` matches exactly the reference,
with the path as group 2. -/
theorem escapedKey_matchAt (ext : Char → Bool) {p : Str} (hk : isKey ext p = true) (post : Str)
    (b : Bool) :
    matchAt (escapedKeyRegex ext) b (('\x7b' :: (p ++ ['\x7d'])) ++ post) =
      some ⟨'\x7b' :: (p ++ ['\x7d']), [(2, p)]⟩ := by
  have hdot : ∀ tl, p ++ '\x7d' :: post ≠ '.' :: tl := by
    intro tl e
    obtain ⟨c, cs, e1, _⟩ := isKey_head ext hk
    rw [e1] at e
    simp only [List.cons_append, List.cons.injEq] at e
    exact isKey_head_ne ext hk (x := '.') (by decide) (by decide) cs (e.1 ▸ e1)
  apply matchAt_eq
  · obtain ⟨s3, m3, e3⟩ := mem_run_grp_key_of ext 2 [] false hk ('\x7d' :: post)
    refine ⟨⟨s3.caps, false, post⟩, ?_⟩
    simp only [escapedKeyRegex, Re.cat, List.cons_append, List.append_assoc, List.singleton_append]
    refine mem_run_seq.2 ⟨⟨[], false, p ++ '\x7d' :: post⟩, by simp [run_chr_cons], ?_⟩
    refine mem_run_seq.2 ⟨_, mem_run_parent_self 1 _, ?_⟩
    refine mem_run_seq.2 ⟨s3, m3, ?_⟩
    refine mem_run_seq.2 ⟨⟨s3.caps, false, post⟩, ?_, by simp [run_eps]⟩
    obtain ⟨c3, b3, r3⟩ := s3
    simp only at e3
    subst e3
    simp [run_chr_cons]
  · intro st hst
    simp only [escapedKeyRegex, Re.cat, List.cons_append, List.append_assoc,
      List.singleton_append, List.nil_append] at hst
    obtain ⟨s1, h1, g1⟩ := mem_run_seq.1 hst
    obtain ⟨e1, c1, _⟩ := mem_run_chr h1
    simp only [List.cons.injEq, true_and] at e1
    obtain ⟨s2, h2, g2⟩ := mem_run_seq.1 g1
    have e2 := mem_run_parent h2 (by rw [← e1]; exact hdot)
    obtain ⟨s3, h3, g3⟩ := mem_run_seq.1 g2
    obtain ⟨w, e3, hw, c3⟩ := mem_run_grp_key ext h3
    obtain ⟨s4, h4, g4⟩ := mem_run_seq.1 g3
    obtain ⟨e4, c4, _⟩ := mem_run_chr h4
    simp only [run_eps, List.mem_singleton] at g4
    rw [e2, ← e1, e4] at e3
    obtain ⟨hpw, _, hpost⟩ := append_cons_unique (P := keyChar ext) (isKey_chars ext hk) hw
      (keyChar_of_isDelim ext (by decide)) (keyChar_of_isDelim ext (by decide)) e3
    refine ⟨by rw [g4]; exact hpost.symm, ?_⟩
    rw [g4, c4, c3, e2, c1, hpw]
  · simp

theorem matchAt_lit_none (w : Str) (r : Re) (b : Bool) (s : Str) (h : w.isPrefixOf s = false) :
    matchAt (Re.seq (Re.lit w) r) b s = none := by
  apply matchAt_none_of_run
  rw [run_lit_seq]
  simp [h]

/-- A literal that stands at the head of `p` followed by a character foreign to
the literal stands at the head of `p` alone. -/
theorem isPrefixOf_append_cons (w p r : Str) (x : Char) (hx : x ∉ w)
    (h : w.isPrefixOf (p ++ x :: r) = true) : w.isPrefixOf p = true := by
  induction w generalizing p with
  | nil => simp
  | cons a as ih =>
    cases p with
    | nil =>
      simp only [List.nil_append, List.isPrefixOf_cons₂, Bool.and_eq_true, beq_iff_eq] at h
      exact absurd (by simp [h.1]) hx
    | cons c cs =>
      simp only [List.cons_append, List.isPrefixOf_cons₂, Bool.and_eq_true, beq_iff_eq] at h
      simp only [List.isPrefixOf_cons₂, Bool.and_eq_true, beq_iff_eq]
      exact ⟨h.1, ih cs (fun hm => hx (by simp [hm])) h.2⟩

/-! ## The passes on a text without the characters they look for -/

/-- The Variable Pass returns a text without `{` unchanged. -/
theorem convertVariables_of_not_mem (ext : Char → Bool) (fuel : Nat) (t : Str)
    (h : ∀ c ∈ t, c ≠ '\x7b') : convertVariables ext fuel t = .ret (t, none) := by
  have h1 : findAll (rawKeyRegex ext) t = [] := findAllFrom_nil_of_not_mem (needsHead_rawKey ext) t h _
  have h2 : findAll (functionRegex ext) t = [] :=
    findAllFrom_nil_of_not_mem (needsHead_function ext) t h _
  have h3 : findAll (escapedKeyRegex ext) t = [] :=
    findAllFrom_nil_of_not_mem (needsHead_escapedKey ext) t h _
  unfold convertVariables
  rw [h1, h2]
  simp only [List.take_nil, replaceFunctions, Outcome.bind, h3, replaceKeys]

/-- The Condition Pass returns a text without `<` unchanged. -/
theorem convertConditions_of_not_mem (ext : Char → Bool) (fuel : Nat) (t : Str)
    (h : ∀ c ∈ t, c ≠ '<') : convertConditions ext fuel t = .ret (t, none) := by
  have h1 : findAll (ifFunctionRegex ext) t = [] :=
    findAllFrom_nil_of_not_mem (needsHead_ifFunction ext) t h _
  have h2 : findAll (ifRegex ext) t = [] := findAllFrom_nil_of_not_mem (needsHead_if ext) t h _
  have h3 : ∀ f, replaceAll elseRegex f t = t :=
    fun f => replaceAllFrom_id_of_not_mem needsHead_else f t h _
  have h4 : ∀ f, replaceAll (endifRegex ext) f t = t :=
    fun f => replaceAllFrom_id_of_not_mem (needsHead_endif ext) f t h _
  unfold convertConditions
  rw [h1]
  simp only [replaceIfFunctions, Outcome.bind, h2, replaceIfs, h3, h4]

/-- The Loop Pass returns a text without `<` unchanged. -/
theorem convertLoopsFrom_of_not_mem (ext : Char → Bool) (fuel i : Nat) (t pfx iterator : Str)
    (h : ∀ c ∈ t, c ≠ '<') :
    convertLoopsFrom ext (fuel + 1) i t pfx iterator = .ret (t, none) := by
  have h1 : findFirst (loopFindRegex ext) t = none := by
    unfold findFirst findAll
    rw [findAllFrom_nil_of_not_mem (needsHead_loopFind ext) t h _]
    rfl
  simp only [convertLoopsFrom, h1]

/-- The stages of `parse` when each of them returns a text. -/
theorem parse_of_stages (ext : Char → Bool) (fuel : Nat) (t t1 t2 t3 : Str)
    (h1 : convertVariables ext fuel t = .ret (t1, none))
    (h2 : convertConditions ext fuel t1 = .ret (t2, none))
    (h3 : convertLoops ext fuel t2 "$".toList "$".toList = .ret (t3, none)) :
    Convert ext fuel t = .ret (t3, none) := by
  simp only [Convert, parse, andThen, Outcome.bind, h1, h2, h3]

/-! ## A single-brace reference -/

theorem convertVariables_key (ext : Char → Bool) (fuel : Nat) {p E : Str} (hk : isKey ext p = true)
    (hf : "function.".toList.isPrefixOf p = false) (hE : convertName fuel p = .ret E) :
    convertVariables ext fuel ('\x7b' :: (p ++ ['\x7d'])) =
      .ret ("\x7b\x7b".toList ++ E ++ "\x7d\x7d".toList, none) := by
  have hchars : ∀ c ∈ p ++ ['\x7d'], c ≠ '\x7b' := by
    intro c hc
    rcases List.mem_append.1 hc with hc | hc
    · exact keyChar_not_delim ext (isKey_chars ext hk) (by decide) c hc
    · simp only [List.mem_singleton] at hc
      subst hc
      decide
  obtain ⟨c0, cs, e0, _⟩ := isKey_head ext hk
  have hc0 : c0 ≠ '\x7b' := hchars c0 (by simp [e0])
  have h1 : findAll (rawKeyRegex ext) ('\x7b' :: (p ++ ['\x7d'])) = [] := by
    unfold findAll
    rw [findAllFrom_zero]
    have : matchAt (rawKeyRegex ext) true ('\x7b' :: (p ++ ['\x7d'])) = none := by
      apply matchAt_lit_none
      have : ('\x7b' == c0) = false := by
        simp only [beq_eq_false_iff_ne, ne_eq]
        exact fun e => hc0 e.symm
      simp [e0, List.isPrefixOf_cons₂, this]
    rw [this]
    exact findAllFrom_nil_of_not_mem (needsHead_rawKey ext) _ hchars _
  have h2 : findAll (functionRegex ext) ('\x7b' :: (p ++ ['\x7d'])) = [] := by
    unfold findAll
    rw [findAllFrom_zero]
    have : matchAt (functionRegex ext) true ('\x7b' :: (p ++ ['\x7d'])) = none := by
      apply matchAt_lit_none
      cases hq : ("\x7bfunction.".toList.isPrefixOf ('\x7b' :: (p ++ ['\x7d']))) with
      | false => rfl
      | true =>
        have hq2 : "function.".toList.isPrefixOf (p ++ '\x7d' :: []) = true := by
          simpa [List.isPrefixOf_cons₂] using hq
        have := isPrefixOf_append_cons _ p [] '\x7d' (by decide) hq2
        rw [hf] at this
        exact absurd this (by simp)
    rw [this]
    exact findAllFrom_nil_of_not_mem (needsHead_function ext) _ hchars _
  have h3 : findAll (escapedKeyRegex ext) ('\x7b' :: (p ++ ['\x7d'])) =
      [⟨'\x7b' :: (p ++ ['\x7d']), [(2, p)]⟩] := by
    have hm := escapedKey_matchAt ext hk [] true
    have := findAllFrom_match hm rfl (by simp)
    simpa [findAll, findAllFrom] using this
  unfold convertVariables
  rw [h1, h2]
  simp only [List.take_nil, replaceFunctions, Outcome.bind, h3, replaceKeys, Match.group,
    List.lookup, beq_self_eq_true, Option.getD_some, hE]
  rw [strReplace_self _ _ (by simp)]

/-- Claim C2: for a path `p` of the key grammar that does not begin with
`function.`, `Convert` applied to the single-brace reference of `p` returns the
double-brace interpolation of `E`, the result of `convertName` on `p`, which
exists as soon as the iteration bound exceeds the length of `p` by two. -/
theorem C2_single_brace_reference (ext : Char → Bool) (fuel : Nat) (p : Str)
    (hk : isKey ext p = true) (hf : "function.".toList.isPrefixOf p = false)
    (hfuel : p.length + 1 < fuel) :
    ∃ E, convertName fuel p = .ret E ∧
      Convert ext fuel ("\x7b".toList ++ p ++ "\x7d".toList) =
        .ret ("\x7b\x7b".toList ++ E ++ "\x7d\x7d".toList, none) := by
  obtain ⟨E, hE⟩ := convertName_key ext hk fuel hfuel
  refine ⟨E, hE, ?_⟩
  obtain ⟨k, rfl⟩ : ∃ k, fuel = k + 1 := ⟨fuel - 1, by omega⟩
  have hlt : ∀ c ∈ "\x7b\x7b".toList ++ E ++ "\x7d\x7d".toList, c ≠ '<' := by
    intro c hc
    simp only [List.mem_append] at hc
    rcases hc with (hc | hc) | hc
    · revert c; decide
    · exact convertName_key_not_mem ext hk hE (by decide) (by decide) c hc
    · revert c; decide
  exact parse_of_stages ext _ _ _ _ _ (convertVariables_key ext _ hk hf hE)
    (convertConditions_of_not_mem ext _ _ hlt) (convertLoopsFrom_of_not_mem ext k 0 _ _ _ hlt)

/-- Claim C2 at the reference `{name}`, which converts to `{{$.name}}`, and at
the reference `{1}` to a key that begins with a digit, which converts to
`{{$.1}}`. -/
theorem C2_single_brace_reference_witness :
    (isKey asciiLetters "name".toList = true ∧
      "function.".toList.isPrefixOf "name".toList = false ∧ "name".toList.length + 1 < 6 ∧
      ∃ E, convertName 6 "name".toList = .ret E ∧ E = "$.name".toList ∧
        Convert asciiLetters 6 "\x7bname\x7d".toList = .ret ("\x7b\x7b$.name\x7d\x7d".toList, none)) ∧
    isKey asciiLetters "1".toList = true ∧
    Convert asciiLetters 6 "\x7b1\x7d".toList = .ret ("\x7b\x7b$.1\x7d\x7d".toList, none) := by
  obtain ⟨E, h1, h2⟩ := C2_single_brace_reference asciiLetters 6 "name".toList (by decide)
    (by decide) (by decide)
  have hE : E = "$.name".toList := by
    have : convertName 6 "name".toList = .ret "$.name".toList := by decide
    rw [this] at h1
    exact (Outcome.ret.inj h1).symm
  obtain ⟨D, d1, d2⟩ := C2_single_brace_reference asciiLetters 6 "1".toList (by decide)
    (by decide) (by decide)
  have hD : D = "$.1".toList := by
    have : convertName 6 "1".toList = .ret "$.1".toList := by decide
    rw [this] at d1
    exact (Outcome.ret.inj d1).symm
  refine ⟨⟨by decide, by decide, by decide, E, h1, hE, ?_⟩, by decide, ?_⟩
  · rw [hE] at h2
    exact h2
  · rw [hD] at d2
    exact d2

/-! ## Matches of the patterns of the Condition Pass -/

theorem mem_run_newlines {st s2 : MState} (h : s2 ∈ newlinesRegex.run st)
    (hn : noNewlineHead st.rest) : s2.rest = st.rest ∧ s2.caps = st.caps := by
  obtain ⟨w, e, hw, hc⟩ := mem_run_star_cls h
  cases w with
  | nil => exact ⟨by simpa using e.symm, hc⟩
  | cons c cs =>
    have := hn c (cs ++ s2.rest) (by simpa using e)
    rw [hw c (by simp)] at this
    exact absurd this (by simp)

theorem mem_run_newlines_self (st : MState) : st ∈ newlinesRegex.run st :=
  mem_run_star.2 (Reach.refl _)

theorem mem_run_lit_self (w : Str) (st : MState) (y : Str) (hw : w ≠ []) (e : st.rest = w ++ y) :
    (⟨st.caps, false, y⟩ : MState) ∈ (Re.lit w).run st := by
  obtain ⟨caps, b, rest⟩ := st
  simp only at e
  subst e
  exact mem_run_lit_append w caps b y hw

theorem key_head_ne (ext : Char → Bool) {p : Str} (hk : isKey ext p = true) {x : Char}
    (hx : isPunct x = true) (hx2 : x ≠ '@') (y tl : Str) : p ++ y ≠ x :: tl := by
  obtain ⟨c, cs, e1, _⟩ := isKey_head ext hk
  intro e
  rw [e1] at e
  simp only [List.cons_append, List.cons.injEq] at e
  exact isKey_head_ne ext hk hx hx2 cs (e.1 ▸ e1)

/-- At a plain `IF` marker `ifRegex` matches exactly the marker, with an empty
negation group and the path as group 3. -/
theorem if_matchAt (ext : Char → Bool) {p : Str} (hk : isKey ext p = true) (post : Str)
    (hpost : noNewlineHead post) (b : Bool) :
    matchAt (ifRegex ext) b (("<!-- IF ".toList ++ p ++ " -->".toList) ++ post) =
      some ⟨"<!-- IF ".toList ++ p ++ " -->".toList, [(3, p), (1, [])]⟩ := by
  apply matchAt_eq
  · obtain ⟨s3, m3, e3⟩ := mem_run_grp_key_of ext 3 [(1, [])] false hk (" -->".toList ++ post)
    refine ⟨⟨s3.caps, false, post⟩, ?_⟩
    simp only [ifRegex, Re.cat, List.append_assoc]
    refine mem_run_seq.2 ⟨_, mem_run_lit_append "<!-- IF ".toList [] b _ (by simp), ?_⟩
    refine mem_run_seq.2 ⟨_, mem_run_not_self 1 _, ?_⟩
    refine mem_run_seq.2 ⟨_, mem_run_parent_self 2 _, ?_⟩
    refine mem_run_seq.2 ⟨s3, m3, ?_⟩
    refine mem_run_seq.2 ⟨_, mem_run_lit_self " -->".toList s3 post (by simp) e3, ?_⟩
    refine mem_run_seq.2 ⟨_, mem_run_newlines_self _, by simp [run_eps]⟩
  · intro st hst
    simp only [ifRegex, Re.cat, List.append_assoc] at hst
    obtain ⟨s1, h1, g1⟩ := mem_run_seq.1 hst
    obtain ⟨e1, c1⟩ := mem_run_lit h1
    have e1b : s1.rest = p ++ (" -->".toList ++ post) := (List.append_cancel_left e1).symm
    obtain ⟨s2, h2, g2⟩ := mem_run_seq.1 g1
    have e2 := mem_run_not h2 (by rw [e1b]; exact key_head_ne ext hk (by decide) (by decide) _)
    obtain ⟨s3, h3, g3⟩ := mem_run_seq.1 g2
    have e3 := mem_run_parent h3
      (by rw [e2]; simp only; rw [e1b]; exact key_head_ne ext hk (by decide) (by decide) _)
    obtain ⟨s4, h4, g4⟩ := mem_run_seq.1 g3
    obtain ⟨w, e4, hw, c4⟩ := mem_run_grp_key ext h4
    obtain ⟨s5, h5, g5⟩ := mem_run_seq.1 g4
    obtain ⟨e5, c5⟩ := mem_run_lit h5
    obtain ⟨s6, h6, g6⟩ := mem_run_seq.1 g5
    simp only [run_eps, List.mem_singleton] at g6
    rw [e3, e2] at e4 c4
    simp only at e4 c4
    rw [e1b, e5] at e4
    have e4b : p ++ ' ' :: ("-->".toList ++ post) = w ++ ' ' :: ("-->".toList ++ s5.rest) := by
      simpa using e4
    obtain ⟨hpw, _, hrest⟩ := append_cons_unique (P := keyChar ext) (isKey_chars ext hk) hw
      (keyChar_of_isDelim ext (by decide)) (keyChar_of_isDelim ext (by decide)) e4b
    have hs5 : s5.rest = post := (List.append_cancel_left hrest).symm
    obtain ⟨e6, c6⟩ := mem_run_newlines h6 (by rw [hs5]; exact hpost)
    refine ⟨by rw [g6, e6, hs5], ?_⟩
    rw [g6, c6, c5, c4, c1, hpw]
  · simp

/-- At an `ENDIF` marker `endifRegex` matches exactly the marker. -/
theorem endif_matchAt (ext : Char → Bool) {p : Str} (hk : isKey ext p = true) (post : Str)
    (b : Bool) :
    matchAt (endifRegex ext) b (("<!-- ENDIF ".toList ++ p ++ " -->".toList) ++ post) =
      some ⟨"<!-- ENDIF ".toList ++ p ++ " -->".toList, [(3, p), (1, [])]⟩ := by
  apply matchAt_eq
  · obtain ⟨s3, m3, e3⟩ := mem_run_grp_key_of ext 3 [(1, [])] false hk (" -->".toList ++ post)
    refine ⟨⟨s3.caps, false, post⟩, ?_⟩
    simp only [endifRegex, Re.cat, List.append_assoc]
    refine mem_run_seq.2 ⟨_, mem_run_lit_append "<!-- ENDIF ".toList [] b _ (by simp), ?_⟩
    refine mem_run_seq.2 ⟨_, mem_run_not_self 1 _, ?_⟩
    refine mem_run_seq.2 ⟨_, mem_run_parent_self 2 _, ?_⟩
    refine mem_run_seq.2 ⟨s3, m3, ?_⟩
    refine mem_run_seq.2 ⟨_, mem_run_lit_self " -->".toList s3 post (by simp) e3, by simp [run_eps]⟩
  · intro st hst
    simp only [endifRegex, Re.cat, List.append_assoc] at hst
    obtain ⟨s1, h1, g1⟩ := mem_run_seq.1 hst
    obtain ⟨e1, c1⟩ := mem_run_lit h1
    have e1b : s1.rest = p ++ (" -->".toList ++ post) := (List.append_cancel_left e1).symm
    obtain ⟨s2, h2, g2⟩ := mem_run_seq.1 g1
    have e2 := mem_run_not h2 (by rw [e1b]; exact key_head_ne ext hk (by decide) (by decide) _)
    obtain ⟨s3, h3, g3⟩ := mem_run_seq.1 g2
    have e3 := mem_run_parent h3
      (by rw [e2]; simp only; rw [e1b]; exact key_head_ne ext hk (by decide) (by decide) _)
    obtain ⟨s4, h4, g4⟩ := mem_run_seq.1 g3
    obtain ⟨w, e4, hw, c4⟩ := mem_run_grp_key ext h4
    obtain ⟨s5, h5, g5⟩ := mem_run_seq.1 g4
    obtain ⟨e5, c5⟩ := mem_run_lit h5
    simp only [run_eps, List.mem_singleton] at g5
    rw [e3, e2] at e4 c4
    simp only at e4 c4
    rw [e1b, e5] at e4
    have e4b : p ++ ' ' :: ("-->".toList ++ post) = w ++ ' ' :: ("-->".toList ++ s5.rest) := by
      simpa using e4
    obtain ⟨hpw, _, hrest⟩ := append_cons_unique (P := keyChar ext) (isKey_chars ext hk) hw
      (keyChar_of_isDelim ext (by decide)) (keyChar_of_isDelim ext (by decide)) e4b
    have hs5 : s5.rest = post := (List.append_cancel_left hrest).symm
    refine ⟨by rw [g5, hs5], ?_⟩
    rw [g5, c5, c4, c1, hpw]
  · simp

/-- At an `ELSE` marker that no line break follows `elseRegex` matches exactly
the marker. -/
theorem else_matchAt (post : Str) (hpost : noNewlineHead post) (b : Bool) :
    matchAt elseRegex b ("<!-- ELSE -->".toList ++ post) = some ⟨"<!-- ELSE -->".toList, []⟩ := by
  apply matchAt_eq
  · refine ⟨⟨[], false, post⟩, ?_⟩
    simp only [elseRegex, Re.cat]
    refine mem_run_seq.2 ⟨_, mem_run_lit_append "<!-- ELSE -->".toList [] b _ (by simp), ?_⟩
    exact mem_run_seq.2 ⟨_, mem_run_newlines_self _, by simp [run_eps]⟩
  · intro st hst
    simp only [elseRegex, Re.cat] at hst
    obtain ⟨s1, h1, g1⟩ := mem_run_seq.1 hst
    obtain ⟨e1, c1⟩ := mem_run_lit h1
    have e1b : s1.rest = post := (List.append_cancel_left e1).symm
    obtain ⟨s2, h2, g2⟩ := mem_run_seq.1 g1
    simp only [run_eps, List.mem_singleton] at g2
    obtain ⟨e2, c2⟩ := mem_run_newlines h2 (by rw [e1b]; exact hpost)
    exact ⟨by rw [g2, e2, e1b], by rw [g2, c2, c1]⟩
  · simp

/-- A plain `IF` marker whose path does not begin with `function.` is no match
of `ifFunctionRegex`. -/
theorem ifFunction_matchAt_none (ext : Char → Bool) {p : Str} (hk : isKey ext p = true)
    (hf : "function.".toList.isPrefixOf p = false) (post : Str) (b : Bool) :
    matchAt (ifFunctionRegex ext) b ("<!-- IF ".toList ++ p ++ " -->".toList ++ post) = none := by
  apply matchAt_none_of_run
  apply List.eq_nil_iff_forall_not_mem.2
  intro st hst
  simp only [ifFunctionRegex, Re.cat, List.append_assoc] at hst
  obtain ⟨s1, h1, g1⟩ := mem_run_seq.1 hst
  obtain ⟨e1, c1⟩ := mem_run_lit h1
  have e1b : s1.rest = p ++ (" -->".toList ++ post) := (List.append_cancel_left e1).symm
  obtain ⟨s2, h2, g2⟩ := mem_run_seq.1 g1
  have e2 := mem_run_not h2 (by rw [e1b]; exact key_head_ne ext hk (by decide) (by decide) _)
  obtain ⟨s3, h3, g3⟩ := mem_run_seq.1 g2
  obtain ⟨e3, _⟩ := mem_run_lit h3
  rw [e2] at e3
  simp only at e3
  rw [e1b] at e3
  have hpre : "function.".toList.isPrefixOf (p ++ ' ' :: ("-->".toList ++ post)) = true := by
    rw [List.isPrefixOf_iff_prefix]
    exact ⟨s3.rest, by simpa using e3.symm⟩
  have := isPrefixOf_append_cons _ p _ ' ' (by decide) hpre
  rw [hf] at this
  exact absurd this (by simp)

/-! ## Scanning a text block by block -/

theorem not_mem_append {x : Char} {a b : Str} (ha : ∀ c ∈ a, c ≠ x) (hb : ∀ c ∈ b, c ≠ x) :
    ∀ c ∈ a ++ b, c ≠ x := by
  intro c hc
  rcases List.mem_append.1 hc with hc | hc
  · exact ha c hc
  · exact hb c hc

/-- A block that begins with the first character of the pattern but is no
match, up to the next occurrence of that character, yields no match. -/
theorem findAllFrom_block {re : Re} {c0 : Char} (hre : NeedsHead re c0) (u s : Str) (b : Bool)
    (hu : ∀ c ∈ u, c ≠ c0) (hm : matchAt re b (c0 :: (u ++ s)) = none) :
    findAllFrom re b 0 (c0 :: (u ++ s)) = findAllFrom re false 0 s := by
  rw [findAllFrom_zero, hm]
  simp only
  rw [findAllFrom_skip hre u s hu false]
  simp

theorem replaceAllFrom_block {re : Re} {c0 : Char} (hre : NeedsHead re c0) (repl : Match → Str)
    (u s : Str) (b : Bool) (hu : ∀ c ∈ u, c ≠ c0) (hm : matchAt re b (c0 :: (u ++ s)) = none) :
    replaceAllFrom re repl b 0 (c0 :: (u ++ s)) = c0 :: (u ++ replaceAllFrom re repl false 0 s) := by
  rw [replaceAllFrom_zero, hm]
  simp only
  rw [replaceAllFrom_skip hre repl u s hu false]
  simp

theorem strReplaceFrom_block (old new : Str) (c0 : Char) (tl : Str) (ho : old = c0 :: tl)
    (u s : Str) (hu : ∀ c ∈ u, c ≠ c0) (hm : old.isPrefixOf (c0 :: (u ++ s)) = false) :
    strReplaceFrom old new 0 (c0 :: (u ++ s)) = c0 :: (u ++ strReplaceFrom old new 0 s) := by
  rw [strReplaceFrom_zero, hm]
  simp only [Bool.false_eq_true, if_false]
  rw [strReplaceFrom_skip old new c0 tl ho u s hu]

theorem findAllFrom_cons_none {re : Re} {b : Bool} {c : Char} {cs : Str}
    (hm : matchAt re b (c :: cs) = none) :
    findAllFrom re b 0 (c :: cs) = findAllFrom re false 0 cs := by
  rw [findAllFrom_zero, hm]

theorem findAllFrom_block_last {re : Re} {c0 : Char} (hre : NeedsHead re c0) (u : Str) (b : Bool)
    (hu : ∀ c ∈ u, c ≠ c0) (hm : matchAt re b (c0 :: u) = none) :
    findAllFrom re b 0 (c0 :: u) = [] := by
  rw [findAllFrom_zero, hm]
  exact findAllFrom_nil_of_not_mem hre u hu false

theorem replaceAllFrom_block_last {re : Re} {c0 : Char} (hre : NeedsHead re c0)
    (repl : Match → Str) (u : Str) (b : Bool) (hu : ∀ c ∈ u, c ≠ c0)
    (hm : matchAt re b (c0 :: u) = none) :
    replaceAllFrom re repl b 0 (c0 :: u) = c0 :: u := by
  rw [replaceAllFrom_zero, hm]
  simp only
  rw [replaceAllFrom_id_of_not_mem hre repl u hu false]

theorem strReplaceFrom_block_last (old new : Str) (c0 : Char) (tl : Str) (ho : old = c0 :: tl)
    (u : Str) (hu : ∀ c ∈ u, c ≠ c0) (hm : old.isPrefixOf (c0 :: u) = false) :
    strReplaceFrom old new 0 (c0 :: u) = c0 :: u := by
  have := strReplaceFrom_block old new c0 tl ho u [] hu (by simpa using hm)
  simpa [strReplaceFrom] using this

theorem findAllFrom_match_last {re : Re} {b : Bool} {w : Str} {m : Match}
    (hm : matchAt re b w = some m) (hw : m.whole = w) (hne : w ≠ []) :
    findAllFrom re b 0 w = [m] := by
  have := findAllFrom_match (s := []) (by simpa using hm) hw hne
  simpa [findAllFrom] using this

theorem replaceAllFrom_match_last {re : Re} {repl : Match → Str} {b : Bool} {w : Str} {m : Match}
    (hm : matchAt re b w = some m) (hw : m.whole = w) (hne : w ≠ []) :
    replaceAllFrom re repl b 0 w = repl m := by
  have := @replaceAllFrom_match _ repl _ _ [] _ (by simpa using hm) hw hne
  simpa [replaceAllFrom] using this

/-- A text that does not begin with `a` does not begin with `a` followed by more. -/
theorem isPrefixOf_append_false (a r t : Str) (h : a.isPrefixOf t = false) :
    (a ++ r).isPrefixOf t = false := by
  cases hq : (a ++ r).isPrefixOf t with
  | false => rfl
  | true =>
    rw [List.isPrefixOf_iff_prefix] at hq
    have : a.isPrefixOf t = true := by
      rw [List.isPrefixOf_iff_prefix]
      exact (List.prefix_append a r).trans hq
    rw [h] at this
    exact absurd this (by simp)

theorem noNewlineHead_cons (c : Char) (tl : Str) (hc : (c == '\r' || c == '\n') = false) :
    noNewlineHead (c :: tl) := by
  intro d tl2 e
  simp only [List.cons.injEq] at e
  rw [← e.1]
  exact hc

theorem noNewlineHead_nil : noNewlineHead [] := by
  intro d tl2 e
  simp at e

/-! ## A conditional block with an `ELSE` branch -/

theorem replaceIfs_single (fuel : Nat) (w p t E : Str) (hE : convertName fuel p = .ret E) :
    replaceIfs fuel [⟨w, [(3, p), (1, [])]⟩] t =
      .ret (strReplace t w ("\x7b\x7bif ".toList ++ E ++ "\x7d\x7d".toList)) := by
  have g3 : (⟨w, [(3, p), (1, [])]⟩ : Match).group 3 = p := rfl
  have g1 : (⟨w, [(3, p), (1, [])]⟩ : Match).group 1 = [] := rfl
  have g0 : (⟨w, [(3, p), (1, [])]⟩ : Match).group 0 = w := rfl
  rw [replaceIfs, g3, g1, g0, hE]
  simp [Outcome.bind, replaceIfs]

theorem convertConditions_if_else (ext : Char → Bool) (fuel : Nat) {p E : Str}
    (hk : isKey ext p = true) (hf : "function.".toList.isPrefixOf p = false)
    (hE : convertName fuel p = .ret E) :
    convertConditions ext fuel
        ("<!-- IF ".toList ++ p ++ " -->".toList ++
          ("<!-- ELSE -->".toList ++ ("<!-- ENDIF ".toList ++ p ++ " -->".toList))) =
      .ret ("\x7b\x7bif ".toList ++ E ++ "\x7d\x7d".toList ++ "\x7b\x7b- else\x7d\x7d".toList
        ++ "\x7b\x7b- end\x7d\x7d".toList, none) := by
  have hp : ∀ c ∈ p, c ≠ '<' := keyChar_not_delim ext (isKey_chars ext hk) (by decide)
  have hEc : ∀ c ∈ E, c ≠ '<' := convertName_key_not_mem ext hk hE (by decide) (by decide)
  -- the three blocks of the text, each beginning with `<`
  have hu2 : ∀ c ∈ "!-- ELSE -->".toList, c ≠ '<' := by decide
  have hu3 : ∀ c ∈ "!-- ENDIF ".toList ++ p ++ " -->".toList, c ≠ '<' :=
    not_mem_append (not_mem_append (by decide) hp) (by decide)
  have e1 : "<!-- IF ".toList ++ p ++ " -->".toList = '<' :: ("!-- IF ".toList ++ p ++ " -->".toList) :=
    rfl
  have e2 : "<!-- ELSE -->".toList = '<' :: "!-- ELSE -->".toList := rfl
  have e3 : "<!-- ENDIF ".toList ++ p ++ " -->".toList =
      '<' :: ("!-- ENDIF ".toList ++ p ++ " -->".toList) := rfl
  have hnl2 : noNewlineHead ("<!-- ELSE -->".toList ++ ("<!-- ENDIF ".toList ++ p ++ " -->".toList)) :=
    noNewlineHead_cons _ _ (by decide)
  have hnl3 : noNewlineHead ("<!-- ENDIF ".toList ++ p ++ " -->".toList) :=
    noNewlineHead_cons _ _ (by decide)
  -- the markers after the first are no `IF` markers
  have hrest : ∀ (r : Re) (hr : NeedsHead (Re.seq (Re.lit "<!-- IF ".toList) r) '<') (b : Bool),
      findAllFrom (Re.seq (Re.lit "<!-- IF ".toList) r) b 0
        ("<!-- ELSE -->".toList ++ ("<!-- ENDIF ".toList ++ p ++ " -->".toList)) = [] := by
    intro r hr b
    rw [e2, List.cons_append, findAllFrom_block hr _ _ _ hu2 (matchAt_lit_none _ _ _ _ rfl), e3]
    exact findAllFrom_block_last hr _ _ hu3 (matchAt_lit_none _ _ _ _ rfl)
  have h1 : findAll (ifFunctionRegex ext)
      ("<!-- IF ".toList ++ p ++ " -->".toList ++
        ("<!-- ELSE -->".toList ++ ("<!-- ENDIF ".toList ++ p ++ " -->".toList))) = [] := by
    unfold findAll
    have hu1 : ∀ c ∈ "!-- IF ".toList ++ p ++ " -->".toList, c ≠ '<' :=
      not_mem_append (not_mem_append (by decide) hp) (by decide)
    rw [e1, List.cons_append,
      findAllFrom_block (needsHead_ifFunction ext) _ _ _ hu1
        (ifFunction_matchAt_none ext hk hf _ true)]
    exact hrest _ (needsHead_ifFunction ext) false
  -- one plain marker
  have h2 : findAll (ifRegex ext)
      ("<!-- IF ".toList ++ p ++ " -->".toList ++
        ("<!-- ELSE -->".toList ++ ("<!-- ENDIF ".toList ++ p ++ " -->".toList))) =
      [⟨"<!-- IF ".toList ++ p ++ " -->".toList, [(3, p), (1, [])]⟩] := by
    unfold findAll
    rw [findAllFrom_match (if_matchAt ext hk _ hnl2 true) rfl (by simp)]
    rw [show findAllFrom (ifRegex ext) false 0
        ("<!-- ELSE -->".toList ++ ("<!-- ENDIF ".toList ++ p ++ " -->".toList)) = []
      from hrest _ (needsHead_if ext) false]
  -- the replacement of the marker
  have hpre : ∀ y : Str, ("<!-- IF ".toList ++ p ++ " -->".toList).isPrefixOf ('<' :: '!' :: '-' ::
      '-' :: ' ' :: 'E' :: y) = false := by
    intro y
    rw [List.append_assoc]
    exact isPrefixOf_append_false _ _ _ rfl
  have h3 : strReplace
      ("<!-- IF ".toList ++ p ++ " -->".toList ++
        ("<!-- ELSE -->".toList ++ ("<!-- ENDIF ".toList ++ p ++ " -->".toList)))
      ("<!-- IF ".toList ++ p ++ " -->".toList) ("\x7b\x7bif ".toList ++ E ++ "\x7d\x7d".toList) =
      "\x7b\x7bif ".toList ++ E ++ "\x7d\x7d".toList ++
        ("<!-- ELSE -->".toList ++ ("<!-- ENDIF ".toList ++ p ++ " -->".toList)) := by
    rw [strReplace_eq _ _ _ (by simp), strReplaceFrom_match _ _ _ (by simp)]
    have : strReplaceFrom ("<!-- IF ".toList ++ p ++ " -->".toList)
        ("\x7b\x7bif ".toList ++ E ++ "\x7d\x7d".toList) 0
        ("<!-- ELSE -->".toList ++ ("<!-- ENDIF ".toList ++ p ++ " -->".toList)) =
        "<!-- ELSE -->".toList ++ ("<!-- ENDIF ".toList ++ p ++ " -->".toList) := by
      rw [e2, List.cons_append, strReplaceFrom_block _ _ '<' _ e1 _ _ hu2 (hpre _), e3,
        strReplaceFrom_block_last _ _ '<' _ e1 _ hu3 (hpre _)]
    rw [this]
  have hpre1 : ∀ c ∈ "\x7b\x7bif ".toList ++ E ++ "\x7d\x7d".toList, c ≠ '<' :=
    not_mem_append (not_mem_append (by decide) hEc) (by decide)
  have h4 : replaceAll elseRegex (fun _ => "\x7b\x7b- else\x7d\x7d".toList)
      ("\x7b\x7bif ".toList ++ E ++ "\x7d\x7d".toList ++
        ("<!-- ELSE -->".toList ++ ("<!-- ENDIF ".toList ++ p ++ " -->".toList))) =
      "\x7b\x7bif ".toList ++ E ++ "\x7d\x7d".toList ++
        ("\x7b\x7b- else\x7d\x7d".toList ++ ("<!-- ENDIF ".toList ++ p ++ " -->".toList)) := by
    unfold replaceAll
    rw [replaceAllFrom_skip needsHead_else _ _ _ hpre1,
      replaceAllFrom_match (else_matchAt _ hnl3 _) rfl (by simp), e3,
      replaceAllFrom_block_last needsHead_else _ _ _ hu3 (matchAt_lit_none _ _ _ _ rfl)]
  have hpre2 : ∀ c ∈ "\x7b\x7bif ".toList ++ E ++ "\x7d\x7d".toList ++ "\x7b\x7b- else\x7d\x7d".toList,
      c ≠ '<' := not_mem_append hpre1 (by decide)
  have h5 : replaceAll (endifRegex ext) (fun _ => "\x7b\x7b- end\x7d\x7d".toList)
      ("\x7b\x7bif ".toList ++ E ++ "\x7d\x7d".toList ++
        ("\x7b\x7b- else\x7d\x7d".toList ++ ("<!-- ENDIF ".toList ++ p ++ " -->".toList))) =
      "\x7b\x7bif ".toList ++ E ++ "\x7d\x7d".toList ++ "\x7b\x7b- else\x7d\x7d".toList ++
        "\x7b\x7b- end\x7d\x7d".toList := by
    have hm5 : ∀ b, matchAt (endifRegex ext) b ("<!-- ENDIF ".toList ++ p ++ " -->".toList) =
        some ⟨"<!-- ENDIF ".toList ++ p ++ " -->".toList, [(3, p), (1, [])]⟩ := by
      intro b
      have := endif_matchAt ext hk [] b
      rwa [List.append_nil] at this
    unfold replaceAll
    rw [← List.append_assoc, replaceAllFrom_skip (needsHead_endif ext) _ _ _ hpre2,
      replaceAllFrom_match_last (hm5 _) rfl (by simp)]
  unfold convertConditions
  rw [h1, replaceIfFunctions]
  simp only [Outcome.bind]
  rw [h2, replaceIfs_single fuel _ p _ E hE]
  simp only
  rw [h3, h4, h5]

/-- Claim C4: for a path `p` of the key grammar that does not begin with
`function.`, `Convert` turns the block `<!-- IF p --><!-- ELSE --><!-- ENDIF p -->`
into `{{if E}}{{- else}}{{- end}}`, where `E` is the result of `convertName`
on `p`. -/
theorem C4_if_else_endif (ext : Char → Bool) (fuel : Nat) (p : Str)
    (hk : isKey ext p = true) (hf : "function.".toList.isPrefixOf p = false)
    (hfuel : p.length + 1 < fuel) :
    ∃ E, convertName fuel p = .ret E ∧
      Convert ext fuel ("<!-- IF ".toList ++ p ++ " -->".toList ++
          ("<!-- ELSE -->".toList ++ ("<!-- ENDIF ".toList ++ p ++ " -->".toList))) =
        .ret ("\x7b\x7bif ".toList ++ E ++ "\x7d\x7d".toList ++ "\x7b\x7b- else\x7d\x7d".toList
          ++ "\x7b\x7b- end\x7d\x7d".toList, none) := by
  obtain ⟨E, hE⟩ := convertName_key ext hk fuel hfuel
  refine ⟨E, hE, ?_⟩
  obtain ⟨k, rfl⟩ : ∃ k, fuel = k + 1 := ⟨fuel - 1, by omega⟩
  have hp : ∀ c ∈ p, c ≠ '\x7b' := keyChar_not_delim ext (isKey_chars ext hk) (by decide)
  have hT : ∀ c ∈ "<!-- IF ".toList ++ p ++ " -->".toList ++
      ("<!-- ELSE -->".toList ++ ("<!-- ENDIF ".toList ++ p ++ " -->".toList)), c ≠ '\x7b' :=
    not_mem_append (not_mem_append (not_mem_append (by decide) hp) (by decide))
      (not_mem_append (by decide) (not_mem_append (not_mem_append (by decide) hp) (by decide)))
  have hEc : ∀ c ∈ E, c ≠ '<' := convertName_key_not_mem ext hk hE (by decide) (by decide)
  have hout : ∀ c ∈ "\x7b\x7bif ".toList ++ E ++ "\x7d\x7d".toList ++ "\x7b\x7b- else\x7d\x7d".toList
      ++ "\x7b\x7b- end\x7d\x7d".toList, c ≠ '<' :=
    not_mem_append (not_mem_append (not_mem_append (not_mem_append (by decide) hEc) (by decide))
      (by decide)) (by decide)
  exact parse_of_stages ext _ _ _ _ _ (convertVariables_of_not_mem ext _ _ hT)
    (convertConditions_if_else ext _ hk hf hE) (convertLoopsFrom_of_not_mem ext k 0 _ _ _ hout)

/-- Claim C4 at the path `active`: the block
`<!-- IF active --><!-- ELSE --><!-- ENDIF active -->` converts to
`{{if $.active}}{{- else}}{{- end}}`; and at the path `1`, which begins with a
digit. -/
theorem C4_if_else_endif_witness :
    (isKey asciiLetters "active".toList = true ∧
      "function.".toList.isPrefixOf "active".toList = false ∧ "active".toList.length + 1 < 8 ∧
      Convert asciiLetters 8 "<!-- IF active --><!-- ELSE --><!-- ENDIF active -->".toList =
        .ret ("\x7b\x7bif $.active\x7d\x7d\x7b\x7b- else\x7d\x7d\x7b\x7b- end\x7d\x7d".toList, none)) ∧
    isKey asciiLetters "1".toList = true ∧
    Convert asciiLetters 8 "<!-- IF 1 --><!-- ELSE --><!-- ENDIF 1 -->".toList =
      .ret ("\x7b\x7bif $.1\x7d\x7d\x7b\x7b- else\x7d\x7d\x7b\x7b- end\x7d\x7d".toList, none) := by
  obtain ⟨E, h1, h2⟩ := C4_if_else_endif asciiLetters 8 "active".toList (by decide)
    (by decide) (by decide)
  have hE : E = "$.active".toList := by
    have : convertName 8 "active".toList = .ret "$.active".toList := by decide
    rw [this] at h1
    exact (Outcome.ret.inj h1).symm
  obtain ⟨D, d1, d2⟩ := C4_if_else_endif asciiLetters 8 "1".toList (by decide)
    (by decide) (by decide)
  have hD : D = "$.1".toList := by
    have : convertName 8 "1".toList = .ret "$.1".toList := by decide
    rw [this] at d1
    exact (Outcome.ret.inj d1).symm
  refine ⟨⟨by decide, by decide, by decide, ?_⟩, by decide, ?_⟩
  · rw [hE] at h2
    exact h2
  · rw [hD] at d2
    exact d2

/-! ## The Function-Call Resolver `convertMethod` -/

theorem strJoin_spaces (E : Str) (Es : List Str) :
    " ".toList ++ strJoin (E :: Es) " ".toList = ((E :: Es).map (fun e => " ".toList ++ e)).flatten := by
  induction Es generalizing E with
  | nil => simp [strJoin]
  | cons F Fs ih =>
    have := ih F
    simp only [strJoin, List.map_cons, List.flatten_cons] at this ⊢
    rw [← this]
    simp

theorem convertArgs_of_forall₂ (fuel : Nat) {args Es : List Str}
    (h : List.Forall₂ (fun a E => convertName fuel a = .ret E) args Es) :
    convertArgs fuel args = .ret Es := by
  induction h with
  | nil => rfl
  | cons h1 _ ih => simp [convertArgs, h1, ih, Outcome.bind]

/-- The result of `convertMethod` on a list with at least one argument behind
the leading element. -/
theorem convertMethod_args (fuel : Nat) (n x0 : Str) {args Es : List Str} (hne : args ≠ [])
    (h : List.Forall₂ (fun a E => convertName fuel a = .ret E) args Es) :
    convertMethod fuel n (x0 :: args) =
      .ret (n ++ " $".toList ++ (Es.map (fun e => " ".toList ++ e)).flatten) := by
  have hlen : 1 < (x0 :: args).length := by
    cases args with
    | nil => exact absurd rfl hne
    | cons a as => simp
  cases h with
  | nil => exact absurd rfl hne
  | @cons a E as Es' h1 h2 =>
    have hargs := convertArgs_of_forall₂ fuel (List.Forall₂.cons h1 h2)
    unfold convertMethod
    rw [if_pos hlen]
    simp only [List.drop_succ_cons, List.drop_zero, hargs, Outcome.bind]
    rw [← strJoin_spaces]
    simp

/-! ## Splitting an argument list -/

theorem splitFrom_zero (re : Re) (b : Bool) (c : Char) (cs : Str) :
    splitFrom re b 0 (c :: cs) =
      match matchAt re b (c :: cs) with
      | some m => [] :: splitFrom re false (m.whole.length - 1) cs
      | none =>
        match splitFrom re false 0 cs with
        | p :: ps => (c :: p) :: ps
        | [] => [[c]] := rfl

theorem splitFrom_succ (re : Re) (b : Bool) (k : Nat) (c : Char) (cs : Str) :
    splitFrom re b (k + 1) (c :: cs) = splitFrom re false k cs := rfl

theorem splitFrom_drop (re : Re) (w s : Str) (b : Bool) (hw : w ≠ []) :
    splitFrom re b w.length (w ++ s) = splitFrom re false 0 s := by
  induction w generalizing b with
  | nil => exact absurd rfl hw
  | cons c cs ih =>
    rw [List.length_cons, List.cons_append, splitFrom_succ]
    cases cs with
    | nil => simp
    | cons d ds => exact ih false (by simp)

theorem splitFrom_match {re : Re} {b : Bool} {w s : Str} {m : Match}
    (hm : matchAt re b (w ++ s) = some m) (hw : m.whole = w) (hne : w ≠ []) :
    splitFrom re b 0 (w ++ s) = [] :: splitFrom re false 0 s := by
  cases w with
  | nil => exact absurd rfl hne
  | cons c cs =>
    rw [List.cons_append] at hm
    rw [List.cons_append, splitFrom_zero, hm]
    simp only [hw, List.length_cons, Nat.add_sub_cancel]
    cases cs with
    | nil => simp
    | cons d ds =>
      rw [splitFrom_drop re (d :: ds) s false (by simp)]

/-- Characters at which the pattern cannot match go to the piece in progress. -/
theorem splitFrom_skip (re : Re) (w s hd : Str) (tl : List Str)
    (hw : ∀ c ∈ w, ∀ b cs, matchAt re b (c :: cs) = none)
    (hs : ∀ b, splitFrom re b 0 s = hd :: tl) (b : Bool) :
    splitFrom re b 0 (w ++ s) = (w ++ hd) :: tl := by
  induction w generalizing b with
  | nil => simpa using hs b
  | cons c cs ih =>
    rw [List.cons_append, splitFrom_zero, hw c (by simp) b _]
    simp only
    rw [ih (fun x hx => hw x (by simp [hx])) false]
    simp

theorem run_star_cls_stop (g : Bool) (p : Char → Bool) (st : MState)
    (h : ∀ c tl, st.rest = c :: tl → p c = false) : (Re.star g (Re.cls p)).run st = [st] := by
  obtain ⟨caps, b, rest⟩ := st
  cases rest with
  | nil => simp [Re.run, starRun]
  | cons c tl => cases g <;> simp [Re.run, starRun, h c tl rfl]

theorem run_star_cls_cons (p : Char → Bool) (caps : List (Nat × Str)) (b : Bool) (x : Char) (xs : Str)
    (hx : p x = true) :
    (Re.star true (Re.cls p)).run ⟨caps, b, x :: xs⟩ =
      (Re.star true (Re.cls p)).run ⟨caps, false, xs⟩ ++ [⟨caps, b, x :: xs⟩] := by
  simp [Re.run, starRun, hx]

/-- The separator `, ` is matched with its space when no further space follows. -/
theorem functionsArgs_matchAt (y : Str) (hy : ∀ c tl, y = c :: tl → (c == ' ') = false) (b : Bool) :
    matchAt functionsArgs b (", ".toList ++ y) = some ⟨", ".toList, []⟩ := by
  have h1 : (Re.star true (Re.cls (fun c => c == ' '))).run ⟨[], b, ',' :: ' ' :: y⟩ =
      [⟨[], b, ',' :: ' ' :: y⟩] := run_star_cls_stop _ _ _ (by
    intro c tl e
    simp only [List.cons.injEq] at e
    rw [← e.1]
    decide)
  have h2 : (Re.star true (Re.cls (fun c => c == ' '))).run ⟨[], false, ' ' :: y⟩ =
      [⟨[], false, y⟩, ⟨[], false, ' ' :: y⟩] := by
    rw [run_star_cls_cons _ _ _ _ _ (by decide), run_star_cls_stop _ _ _ hy]
    rfl
  have hrun : functionsArgs.run ⟨[], b, ',' :: ' ' :: y⟩ =
      [⟨[], false, y⟩, ⟨[], false, ' ' :: y⟩] := by
    simp only [functionsArgs, Re.cat, run_seq, h1, List.flatMap_cons, List.flatMap_nil,
      List.append_nil, run_chr_cons, if_true, h2, run_eps]
    rfl
  show matchAt functionsArgs b (',' :: ' ' :: y) = some ⟨[',', ' '], []⟩
  have hlen : y.length + 1 + 1 - y.length = 2 := by omega
  have hlt : y.length < y.length + 1 + 1 := by omega
  simp [matchAt, hrun, hlen, hlt]

/-- The separator pattern matches only at a space or a comma. -/
theorem functionsArgs_matchAt_none (c : Char) (cs : Str) (b : Bool) (h1 : c ≠ ' ') (h2 : c ≠ ',') :
    matchAt functionsArgs b (c :: cs) = none := by
  apply matchAt_none_of_run
  have hs : (Re.star true (Re.cls (fun c => c == ' '))).run ⟨[], b, c :: cs⟩ = [⟨[], b, c :: cs⟩] :=
    run_star_cls_stop _ _ _ (by
      intro d tl e
      simp only [List.cons.injEq] at e
      rw [← e.1]
      simpa using h1)
  simp only [functionsArgs, Re.cat, run_seq, hs, List.flatMap_cons, List.flatMap_nil,
    List.append_nil, run_chr_cons, h2, if_false]

/-- The text `, a1, a2` splits into the empty leading element and the two
arguments. -/
theorem reSplit_two (a1 a2 : Str) (h1 : ∀ c ∈ a1, c ≠ ' ' ∧ c ≠ ',')
    (h2 : ∀ c ∈ a2, c ≠ ' ' ∧ c ≠ ',') :
    reSplit functionsArgs (", ".toList ++ a1 ++ ", ".toList ++ a2) = [[], a1, a2] := by
  have hhead : ∀ (a : Str), (∀ c ∈ a, c ≠ ' ' ∧ c ≠ ',') → ∀ (y : Str) (c : Char) (tl : Str),
      a ++ y = c :: tl → y = [] ∨ (∃ d tl2, y = d :: tl2 ∧ d ≠ ' ') → (c == ' ') = false := by
    intro a ha y c tl e hy
    cases a with
    | nil =>
      rcases hy with hy | ⟨d, tl2, hy, hd⟩
      · rw [hy] at e; simp at e
      · rw [hy] at e
        simp only [List.nil_append, List.cons.injEq] at e
        rw [← e.1]
        simpa using hd
    | cons x xs =>
      simp only [List.cons_append, List.cons.injEq] at e
      rw [← e.1]
      simpa using (ha x (by simp)).1
  have hnone : ∀ (a : Str), (∀ c ∈ a, c ≠ ' ' ∧ c ≠ ',') →
      ∀ c ∈ a, ∀ b cs, matchAt functionsArgs b (c :: cs) = none :=
    fun a ha c hc b cs => functionsArgs_matchAt_none c cs b (ha c hc).1 (ha c hc).2
  have e2 : ∀ b, splitFrom functionsArgs b 0 a2 = [a2] := by
    intro b
    have := splitFrom_skip functionsArgs a2 [] [] [] (hnone a2 h2) (fun _ => rfl) b
    simpa using this
  have e3 : ∀ b, splitFrom functionsArgs b 0 (", ".toList ++ a2) = [[], a2] := by
    intro b
    rw [splitFrom_match (functionsArgs_matchAt a2
      (fun c tl e => hhead a2 h2 [] c tl (by simpa using e) (Or.inl rfl)) b) rfl (by simp), e2]
  have e4 : ∀ b, splitFrom functionsArgs b 0 (a1 ++ (", ".toList ++ a2)) = [a1, a2] := by
    intro b
    have := splitFrom_skip functionsArgs a1 _ [] [a2] (hnone a1 h1) e3 b
    simpa using this
  unfold reSplit
  rw [List.append_assoc, List.append_assoc,
    splitFrom_match (functionsArgs_matchAt (a1 ++ (", ".toList ++ a2))
      (fun c tl e => hhead a1 h1 _ c tl e (Or.inr ⟨',', _, rfl, by decide⟩)) true) rfl (by simp),
    e4]

/-! ## Matches of `functionRegex` -/

theorem argChar_of_keyChar (ext : Char → Bool) {c : Char} (h : keyChar ext c = true) :
    argChar ext c = true := by
  simp [argChar, h]

theorem argChar_of_isDelim (ext : Char → Bool) {c : Char} (h : isDelim c = true) (h1 : c ≠ ',')
    (h2 : c ≠ ' ') : argChar ext c = false := by
  simp [argChar, keyChar_of_isDelim ext h, h1, h2]

theorem argsStar_within (ext : Char → Bool) :
    (argsStar ext).Within (fun c => argChar ext c = true) := by
  have hk : (keyRegex ext).Within (fun c => argChar ext c = true) := by
    have h := keyRegex_within ext
    have mono : ∀ r : Re, r.Within (fun c => keyChar ext c = true) →
        r.Within (fun c => argChar ext c = true) := by
      intro r
      induction r with
      | chr c => exact fun h => argChar_of_keyChar ext h
      | cls p => exact fun h x hx => argChar_of_keyChar ext (h x hx)
      | bot => exact fun _ => trivial
      | eps => exact fun _ => trivial
      | seq a b iha ihb => exact fun h => ⟨iha h.1, ihb h.2⟩
      | alt a b iha ihb => exact fun h => ⟨iha h.1, ihb h.2⟩
      | star g a iha => exact fun h => iha h
      | grp n a iha => exact fun h => iha h
    exact mono _ h
  have hsp : ∀ x : Char, (x == ' ') = true → argChar ext x = true := by
    intro x hx
    simp [argChar, hx]
  have hc : argChar ext ',' = true := by simp [argChar]
  exact ⟨⟨hsp, hc, hsp, trivial⟩, hk⟩

theorem noBot_argsStar (ext : Char → Bool) : (argsStar ext).noBot = true := rfl

theorem noGrp_argsStar (ext : Char → Bool) : (argsStar ext).noGrp = true := rfl

/-- What `argsStar` consumes is empty or begins with a space or a comma. -/
theorem argsStar_head (ext : Char → Bool) {st s3 : MState} (h : s3 ∈ (argsStar ext).run st) :
    s3.rest = st.rest ∨ ∃ c tl, st.rest = c :: tl ∧ (c = ' ' ∨ c = ',') := by
  have hr := mem_run_star.1 h
  cases hr with
  | refl => exact Or.inl rfl
  | step h1 _ _ =>
    right
    simp only [functionsArgs, Re.cat] at h1
    obtain ⟨sa, ha, _⟩ := mem_run_seq.1 h1
    obtain ⟨sb, hb, hc⟩ := mem_run_seq.1 ha
    obtain ⟨w, e, hw, _⟩ := mem_run_star_cls hb
    obtain ⟨sc, hc1, _⟩ := mem_run_seq.1 hc
    obtain ⟨e2, _, _⟩ := mem_run_chr hc1
    cases w with
    | nil => exact ⟨',', sc.rest, by rw [e, e2]; rfl, Or.inr rfl⟩
    | cons x xs =>
      refine ⟨x, xs ++ sb.rest, by rw [e]; rfl, Or.inl ?_⟩
      simpa using hw x (by simp)

theorem mem_run_argsRegex (ext : Char → Bool) {n : Nat} {st s3 : MState}
    (h : s3 ∈ (argsRegex ext n).run st) :
    ∃ w, st.rest = w ++ s3.rest ∧ (∀ c ∈ w, argChar ext c = true) ∧ s3.caps = (n, w) :: st.caps ∧
      (s3.rest = st.rest ∨ ∃ c tl, st.rest = c :: tl ∧ (c = ' ' ∨ c = ',')) := by
  obtain ⟨s1, h1, w, e, h2⟩ := mem_run_grp_text h
  obtain ⟨w2, e2, hw2⟩ := (argsStar ext).run_within (argsStar_within ext) _ _ h1
  have hww : w = w2 := List.append_cancel_right (e.symm.trans e2)
  have hc := (argsStar ext).run_caps (noGrp_argsStar ext) _ _ h1
  refine ⟨w, by rw [h2]; exact e, by rw [hww]; exact hw2, by rw [h2, ← hc], ?_⟩
  rw [h2]
  exact (argsStar_head ext h1 : s1.rest = st.rest ∨ _)

theorem mem_run_grp_ident (ext : Char → Bool) {n : Nat} {st s2 : MState}
    (h : s2 ∈ (Re.grp n (identifierRegex ext)).run st) :
    ∃ w, st.rest = w ++ s2.rest ∧ (∀ c ∈ w, identRest ext c = true) ∧ s2.caps = (n, w) :: st.caps := by
  obtain ⟨s1, h1, w, e, h2⟩ := mem_run_grp_text h
  have hwi : (identifierRegex ext).Within (fun c => identRest ext c = true) :=
    ⟨fun x hx => identStart_imp_identRest ext hx, fun x hx => hx⟩
  obtain ⟨w2, e2, hw2⟩ := (identifierRegex ext).run_within hwi _ _ h1
  have hww : w = w2 := List.append_cancel_right (e.symm.trans e2)
  have hc := (identifierRegex ext).run_caps rfl _ _ h1
  exact ⟨w, by rw [h2]; exact e, by rw [hww]; exact hw2, by rw [h2, ← hc]⟩

/-- The head of an argument list matched by `argsStar`, followed by `}`. -/
theorem args_head (ext : Char → Bool) {args : Str} (ha : fullMatch (argsStar ext) args = true)
    (post : Str) : ∃ c tl, args ++ '\x7d' :: post = c :: tl ∧ identRest ext c = false ∧
      argChar ext '\x7d' = false := by
  obtain ⟨st, hst, e⟩ := fullMatch_iff.1 ha
  have hcl : argChar ext '\x7d' = false := argChar_of_isDelim ext (by decide) (by decide) (by decide)
  rcases argsStar_head ext hst with h | ⟨c, tl, h, hc⟩
  · have : args = [] := by
      have : ([] : Str) = args := by rw [← e]; exact h
      exact this.symm
    subst this
    exact ⟨'\x7d', post, rfl, identRest_of_isPunct ext (by decide), hcl⟩
  · have h2 : args = c :: tl := h
    refine ⟨c, tl ++ '\x7d' :: post, by rw [h2]; rfl, ?_, hcl⟩
    rcases hc with hc | hc <;> subst hc <;> exact identRest_of_isPunct ext (by decide)

/-- At a function-call reference `functionRegex` matches exactly the reference,
with the function name as group 1 and the argument text as group 2. -/
theorem function_matchAt (ext : Char → Bool) {n args : Str} (hn : isIdentifier ext n = true)
    (ha : fullMatch (argsStar ext) args = true) (post : Str) (b : Bool) :
    matchAt (functionRegex ext) b
        (("\x7bfunction.".toList ++ n ++ args ++ "\x7d".toList) ++ post) =
      some ⟨"\x7bfunction.".toList ++ n ++ args ++ "\x7d".toList, [(2, args), (1, n)]⟩ := by
  have hargs : ∀ c ∈ args, argChar ext c = true := by
    obtain ⟨st, hst, e⟩ := fullMatch_iff.1 ha
    obtain ⟨w, e1, hw⟩ := (argsStar ext).run_within (argsStar_within ext) _ _ hst
    have : args = w := by
      have : args = w ++ st.rest := e1
      rw [this, e]
      simp
    rw [this]
    exact hw
  obtain ⟨r0, R, eR, hr0, hcl⟩ := args_head ext ha post
  apply matchAt_eq
  · obtain ⟨s2, m2, e2⟩ := @fullMatch_frame (identifierRegex ext) _ rfl hn [] false
      (args ++ ("\x7d".toList ++ post))
    have g2 := mem_run_grp_of (n := 1) (w := n) m2 (by simp [e2])
    obtain ⟨s3, m3, e3⟩ := fullMatch_frame (noBot_argsStar ext) ha ((1, n) :: s2.caps) s2.atStart
      ("\x7d".toList ++ post)
    have g3 : (⟨(2, args) :: s3.caps, s3.atStart, s3.rest⟩ : MState) ∈ (argsRegex ext 2).run
        ⟨(1, n) :: s2.caps, s2.atStart, s2.rest⟩ := by
      rw [e2]
      exact mem_run_grp_of (n := 2) (w := args) m3 (by simp [e3])
    refine ⟨⟨(2, args) :: s3.caps, false, post⟩, ?_⟩
    simp only [functionRegex, Re.cat, List.append_assoc]
    refine mem_run_seq.2 ⟨_, mem_run_lit_append "\x7bfunction.".toList [] b _ (by simp), ?_⟩
    refine mem_run_seq.2 ⟨_, g2, ?_⟩
    refine mem_run_seq.2 ⟨_, g3, ?_⟩
    refine mem_run_seq.2 ⟨⟨(2, args) :: s3.caps, false, post⟩, ?_, by simp [run_eps]⟩
    rw [e3]
    simp [run_chr_cons]
  · intro st hst
    simp only [functionRegex, Re.cat, List.append_assoc] at hst
    obtain ⟨s1, h1, g1⟩ := mem_run_seq.1 hst
    obtain ⟨e1, c1⟩ := mem_run_lit h1
    have e1b : s1.rest = n ++ (args ++ ("\x7d".toList ++ post)) := (List.append_cancel_left e1).symm
    obtain ⟨s2, h2, g2⟩ := mem_run_seq.1 g1
    obtain ⟨w1, e2, hw1, c2⟩ := mem_run_grp_ident ext h2
    obtain ⟨s3, h3, g3⟩ := mem_run_seq.1 g2
    obtain ⟨w2, e3, hw2, c3, hhead⟩ := mem_run_argsRegex ext h3
    obtain ⟨s4, h4, g4⟩ := mem_run_seq.1 g3
    obtain ⟨e4, c4, _⟩ := mem_run_chr h4
    simp only [run_eps, List.mem_singleton] at g4
    -- the name
    have hs2 : ∃ c tl, s2.rest = c :: tl ∧ identRest ext c = false := by
      rcases hhead with hh | ⟨c, tl, hh, hc⟩
      · exact ⟨'\x7d', s4.rest, by rw [← hh, e4], identRest_of_isPunct ext (by decide)⟩
      · refine ⟨c, tl, hh, ?_⟩
        rcases hc with hc | hc <;> subst hc <;> exact identRest_of_isPunct ext (by decide)
    obtain ⟨c, tl, hs2, hc⟩ := hs2
    have eq1 : n ++ r0 :: R = w1 ++ c :: tl := by
      have : n ++ (args ++ '\x7d' :: post) = w1 ++ s2.rest := by
        rw [← e2, e1b]
        rfl
      rw [eR, hs2] at this
      exact this
    obtain ⟨hn1, _, _⟩ := append_cons_unique (P := identRest ext) (isIdentifier_chars ext hn).2 hw1
      hr0 hc eq1
    -- the arguments
    have eq2 : args ++ '\x7d' :: post = w2 ++ '\x7d' :: s4.rest := by
      have h5 : n ++ (args ++ '\x7d' :: post) = w1 ++ (w2 ++ '\x7d' :: s4.rest) := by
        rw [← e4, ← e3, ← e2, e1b]
        rfl
      rw [← hn1] at h5
      exact List.append_cancel_left h5
    obtain ⟨ha1, _, hp1⟩ := append_cons_unique (P := argChar ext) hargs hw2 hcl hcl eq2
    refine ⟨by rw [g4]; exact hp1.symm, ?_⟩
    rw [g4, c4, c3, c2, c1, ← ha1, ← hn1]
  · simp

theorem fullMatch_argsStar_nil (ext : Char → Bool) : fullMatch (argsStar ext) [] = true :=
  fullMatch_iff.2 ⟨_, mem_run_star.2 (Reach.refl _), rfl⟩

/-- One more argument `, a` in front of an argument list. -/
theorem fullMatch_argsStar_cons (ext : Char → Bool) {a rest : Str} (ha : isKey ext a = true)
    (hr : fullMatch (argsStar ext) rest = true) :
    fullMatch (argsStar ext) (", ".toList ++ a ++ rest) = true := by
  obtain ⟨s1, m1, e1⟩ := fullMatch_frame (noBot_keyRegex ext) ha [] false rest
  obtain ⟨s2, m2, e2⟩ := fullMatch_frame (noBot_argsStar ext) hr s1.caps s1.atStart []
  refine fullMatch_iff.2 ⟨s2, ?_, by simpa using e2⟩
  have hsep : (⟨[], false, a ++ rest⟩ : MState) ∈ functionsArgs.run
      ⟨[], false, ", ".toList ++ a ++ rest⟩ := by
    simp only [functionsArgs, Re.cat]
    refine mem_run_seq.2 ⟨⟨[], false, ',' :: ' ' :: (a ++ rest)⟩, ?_, ?_⟩
    · exact mem_run_star.2 (Reach.refl _)
    refine mem_run_seq.2 ⟨⟨[], false, ' ' :: (a ++ rest)⟩, by simp [run_chr_cons], ?_⟩
    refine mem_run_seq.2 ⟨⟨[], false, a ++ rest⟩, ?_, by simp [run_eps]⟩
    have := mem_run_star_cls_of (g := true) (p := fun c => c == ' ') [' '] (by simp) []
      (a ++ rest) false
    simpa using this
  refine mem_run_star.2 (@Reach.step _ _ s1 _ (mem_run_seq.2 ⟨_, hsep, m1⟩) ?_ ?_)
  · simp [e1]
    omega
  · have h3 := mem_run_star.1 m2
    have : s1 = ⟨s1.caps, s1.atStart, rest ++ []⟩ := by
      rw [List.append_nil, ← e1]
    rw [this]
    exact h3

/-- No single-brace reference begins at a brace that is followed by key
characters and then a character that is neither a key character nor `}`. -/
theorem escapedKey_matchAt_none (ext : Char → Bool) (w0 : Str) (x : Char) (R : Str)
    (hw0 : ∀ c ∈ w0, keyChar ext c = true) (hx : keyChar ext x = false) (hx2 : x ≠ '\x7d')
    (hdot : ∀ tl, w0 ++ x :: R ≠ '.' :: tl) (b : Bool) :
    matchAt (escapedKeyRegex ext) b ('\x7b' :: (w0 ++ x :: R)) = none := by
  apply matchAt_none_of_run
  apply List.eq_nil_iff_forall_not_mem.2
  intro st hst
  simp only [escapedKeyRegex, Re.cat] at hst
  obtain ⟨s1, h1, g1⟩ := mem_run_seq.1 hst
  obtain ⟨e1, _, _⟩ := mem_run_chr h1
  simp only [List.cons.injEq, true_and] at e1
  obtain ⟨s2, h2, g2⟩ := mem_run_seq.1 g1
  have e2 := mem_run_parent h2 (by rw [← e1]; exact hdot)
  obtain ⟨s3, h3, g3⟩ := mem_run_seq.1 g2
  obtain ⟨w, e3, hw, _⟩ := mem_run_grp_key ext h3
  obtain ⟨s4, h4, _⟩ := mem_run_seq.1 g3
  obtain ⟨e4, _, _⟩ := mem_run_chr h4
  rw [e2, ← e1, e4] at e3
  obtain ⟨_, hxe, _⟩ := append_cons_unique (P := keyChar ext) hw0 hw hx
    (keyChar_of_isDelim ext (by decide)) e3
  exact hx2 hxe

/-! ## A function-call reference with two arguments -/

theorem isIdentifier_keyChars (ext : Char → Bool) {n : Str} (hn : isIdentifier ext n = true) :
    ∀ c ∈ n, keyChar ext c = true :=
  fun c hc => keyChar_of_identRest ext ((isIdentifier_chars ext hn).2 c hc)

theorem replaceFunctions_single (fuel : Nat) (w n args t call : Str)
    (hcall : convertMethod fuel n (reSplit functionsArgs args) = .ret call) :
    replaceFunctions fuel [⟨w, [(2, args), (1, n)]⟩] t =
      .ret (strReplace t w ("\x7b\x7b".toList ++ call ++ "\x7d\x7d".toList)) := by
  have g1 : (⟨w, [(2, args), (1, n)]⟩ : Match).group 1 = n := rfl
  have g2 : (⟨w, [(2, args), (1, n)]⟩ : Match).group 2 = args := rfl
  have g0 : (⟨w, [(2, args), (1, n)]⟩ : Match).group 0 = w := rfl
  rw [replaceFunctions, g1, g2, g0, hcall]
  simp [Outcome.bind, replaceFunctions]

theorem convertVariables_function (ext : Char → Bool) (fuel : Nat) {n a1 a2 E1 E2 : Str}
    (hn : isIdentifier ext n = true) (h1 : isKey ext a1 = true) (h2 : isKey ext a2 = true)
    (hE1 : convertName fuel a1 = .ret E1) (hE2 : convertName fuel a2 = .ret E2) :
    convertVariables ext fuel
        ("\x7bfunction.".toList ++ n ++ (", ".toList ++ a1 ++ ", ".toList ++ a2) ++ "\x7d".toList) =
      .ret ("\x7b\x7b".toList ++ (n ++ " $".toList ++ (" ".toList ++ E1 ++ (" ".toList ++ E2)))
        ++ "\x7d\x7d".toList, none) := by
  have hnk := isIdentifier_keyChars ext hn
  have hk1 := isKey_chars ext h1
  have hk2 := isKey_chars ext h2
  have nb : ∀ (w : Str), (∀ c ∈ w, keyChar ext c = true) → ∀ c ∈ w, c ≠ '\x7b' :=
    fun w hw => keyChar_not_delim ext hw (by decide)
  have hsp : ∀ (w : Str), (∀ c ∈ w, keyChar ext c = true) → ∀ c ∈ w, c ≠ ' ' ∧ c ≠ ',' :=
    fun w hw c hc => ⟨keyChar_not_delim ext hw (by decide) c hc,
      keyChar_not_delim ext hw (by decide) c hc⟩
  have hu : ∀ c ∈ "function.".toList ++ n ++ (", ".toList ++ a1 ++ ", ".toList ++ a2)
      ++ "\x7d".toList, c ≠ '\x7b' :=
    not_mem_append (not_mem_append (not_mem_append (by decide) (nb n hnk))
      (not_mem_append (not_mem_append (not_mem_append (by decide) (nb a1 hk1)) (by decide))
        (nb a2 hk2))) (by decide)
  have eT : "\x7bfunction.".toList ++ n ++ (", ".toList ++ a1 ++ ", ".toList ++ a2)
      ++ "\x7d".toList = '\x7b' :: ("function.".toList ++ n ++
        (", ".toList ++ a1 ++ ", ".toList ++ a2) ++ "\x7d".toList) := rfl
  have hargs : fullMatch (argsStar ext) (", ".toList ++ a1 ++ ", ".toList ++ a2) = true := by
    have := fullMatch_argsStar_cons ext h1
      (fullMatch_argsStar_cons ext h2 (fullMatch_argsStar_nil ext))
    simpa using this
  have f1 : findAll (rawKeyRegex ext) ("\x7bfunction.".toList ++ n ++
      (", ".toList ++ a1 ++ ", ".toList ++ a2) ++ "\x7d".toList) = [] := by
    unfold findAll
    rw [eT]
    exact findAllFrom_block_last (needsHead_rawKey ext) _ _ hu (matchAt_lit_none _ _ _ _ rfl)
  have f2 : findAll (functionRegex ext) ("\x7bfunction.".toList ++ n ++
      (", ".toList ++ a1 ++ ", ".toList ++ a2) ++ "\x7d".toList) =
      [⟨"\x7bfunction.".toList ++ n ++ (", ".toList ++ a1 ++ ", ".toList ++ a2) ++ "\x7d".toList,
        [(2, ", ".toList ++ a1 ++ ", ".toList ++ a2), (1, n)]⟩] := by
    have hm := function_matchAt ext hn hargs [] true
    rw [List.append_nil] at hm
    exact findAllFrom_match_last hm rfl (by simp)
  have hcall : convertMethod fuel n (reSplit functionsArgs (", ".toList ++ a1 ++ ", ".toList ++ a2)) =
      .ret (n ++ " $".toList ++ (" ".toList ++ E1 ++ (" ".toList ++ E2))) := by
    rw [reSplit_two a1 a2 (hsp a1 hk1) (hsp a2 hk2),
      convertMethod_args fuel n [] (by simp)
        (List.Forall₂.cons hE1 (List.Forall₂.cons hE2 List.Forall₂.nil))]
    simp
  -- no single-brace reference is left
  have hE1c : ∀ c ∈ E1, c ≠ '\x7b' := convertName_key_not_mem ext h1 hE1 (by decide) (by decide)
  have hE2c : ∀ c ∈ E2, c ≠ '\x7b' := convertName_key_not_mem ext h2 hE2 (by decide) (by decide)
  have hX : ∀ c ∈ n ++ ' ' :: ("$".toList ++ (" ".toList ++ E1 ++ (" ".toList ++ E2))
      ++ "\x7d\x7d".toList), c ≠ '\x7b' :=
    not_mem_append (nb n hnk) (by
      intro c hc
      rcases List.mem_cons.1 hc with hc | hc
      · subst hc; decide
      · exact not_mem_append (not_mem_append (by decide)
          (not_mem_append (not_mem_append (by decide) hE1c) (not_mem_append (by decide) hE2c)))
          (by decide) c hc)
  have eOut : "\x7b\x7b".toList ++ (n ++ " $".toList ++ (" ".toList ++ E1 ++ (" ".toList ++ E2)))
      ++ "\x7d\x7d".toList = '\x7b' :: ('\x7b' :: (n ++ ' ' :: ("$".toList ++
        (" ".toList ++ E1 ++ (" ".toList ++ E2)) ++ "\x7d\x7d".toList))) := by
    simp
  have hdot : ∀ tl, n ++ ' ' :: ("$".toList ++ (" ".toList ++ E1 ++ (" ".toList ++ E2))
      ++ "\x7d\x7d".toList) ≠ '.' :: tl := by
    intro tl e
    obtain ⟨c, cs, rfl, _, _⟩ := (isIdentifier_iff ext n).1 hn
    simp only [List.cons_append, List.cons.injEq] at e
    have := isIdentifier_not_punct ext hn (c := c) (by simp)
    rw [e.1] at this
    exact absurd this (by decide)
  have f3 : findAll (escapedKeyRegex ext) ("\x7b\x7b".toList ++
      (n ++ " $".toList ++ (" ".toList ++ E1 ++ (" ".toList ++ E2))) ++ "\x7d\x7d".toList) = [] := by
    unfold findAll
    have hm0 : ∀ (b : Bool) (R : Str),
        matchAt (escapedKeyRegex ext) b ('\x7b' :: '\x7b' :: R) = none := by
      intro b R
      have := escapedKey_matchAt_none ext [] '\x7b' R (by simp)
        (keyChar_of_isDelim ext (by decide)) (by decide) (by simp) b
      simpa using this
    rw [eOut, findAllFrom_cons_none (hm0 _ _),
      findAllFrom_cons_none
      (escapedKey_matchAt_none ext n ' ' _ hnk (keyChar_of_isDelim ext (by decide))
        (by decide) hdot _)]
    exact findAllFrom_nil_of_not_mem (needsHead_escapedKey ext) _ hX _
  unfold convertVariables
  rw [f1, f2]
  simp only [List.take_nil]
  rw [replaceFunctions_single fuel _ n _ _ _ hcall]
  simp only [Outcome.bind]
  rw [strReplace_self _ _ (by simp), f3]
  simp only [replaceKeys]

/-- Claim C10: `convertMethod` drops the leading element of the argument list
and returns the name, ` $` and, for each remaining argument in order, a space
and the result of `convertName` on it; hence `Convert` turns the reference
`{function.n, a1, a2}`, for an identifier `n` and paths `a1`, `a2` of the key
grammar, into the interpolation of `n $ E1 E2`. -/
theorem C10_convertMethod_call (ext : Char → Bool) (fuel : Nat) (n a1 a2 : Str)
    (hn : isIdentifier ext n = true) (h1 : isKey ext a1 = true) (h2 : isKey ext a2 = true)
    (hf1 : a1.length + 1 < fuel) (hf2 : a2.length + 1 < fuel) :
    (∀ (name x0 : Str) (args Es : List Str), args ≠ [] →
      List.Forall₂ (fun a E => convertName fuel a = .ret E) args Es →
      convertMethod fuel name (x0 :: args) =
        .ret (name ++ " $".toList ++ (Es.map (fun e => " ".toList ++ e)).flatten)) ∧
    ∃ E1 E2, convertName fuel a1 = .ret E1 ∧ convertName fuel a2 = .ret E2 ∧
      Convert ext fuel
          ("\x7bfunction.".toList ++ n ++ (", ".toList ++ a1 ++ ", ".toList ++ a2) ++ "\x7d".toList) =
        .ret ("\x7b\x7b".toList ++ (n ++ " $".toList ++ (" ".toList ++ E1 ++ (" ".toList ++ E2)))
          ++ "\x7d\x7d".toList, none) := by
  refine ⟨fun name x0 args Es hne h => convertMethod_args fuel name x0 hne h, ?_⟩
  obtain ⟨E1, hE1⟩ := convertName_key ext h1 fuel hf1
  obtain ⟨E2, hE2⟩ := convertName_key ext h2 fuel hf2
  refine ⟨E1, E2, hE1, hE2, ?_⟩
  obtain ⟨k, rfl⟩ : ∃ k, fuel = k + 1 := ⟨fuel - 1, by omega⟩
  have hnc : ∀ c ∈ n, c ≠ '<' := keyChar_not_delim ext (isIdentifier_keyChars ext hn) (by decide)
  have hE1c : ∀ c ∈ E1, c ≠ '<' := convertName_key_not_mem ext h1 hE1 (by decide) (by decide)
  have hE2c : ∀ c ∈ E2, c ≠ '<' := convertName_key_not_mem ext h2 hE2 (by decide) (by decide)
  have hout : ∀ c ∈ "\x7b\x7b".toList ++ (n ++ " $".toList ++ (" ".toList ++ E1 ++
      (" ".toList ++ E2))) ++ "\x7d\x7d".toList, c ≠ '<' :=
    not_mem_append (not_mem_append (by decide) (not_mem_append (not_mem_append hnc (by decide))
      (not_mem_append (not_mem_append (by decide) hE1c) (not_mem_append (by decide) hE2c))))
      (by decide)
  exact parse_of_stages ext _ _ _ _ _ (convertVariables_function ext _ hn h1 h2 hE1 hE2)
    (convertConditions_of_not_mem ext _ _ hout) (convertLoopsFrom_of_not_mem ext k 0 _ _ _ hout)

/-- Claim C10 at the reference `{function.print, user.name, @index}`, which
converts to `{{print $ $.user.name @index}}`. -/
theorem C10_convertMethod_call_witness :
    isIdentifier asciiLetters "print".toList = true ∧ isKey asciiLetters "user.name".toList = true ∧
    isKey asciiLetters "@index".toList = true ∧
    convertMethod 12 "print".toList ["".toList, "user.name".toList, "@index".toList] =
      .ret "print $ $.user.name @index".toList ∧
    Convert asciiLetters 12 "\x7bfunction.print, user.name, @index\x7d".toList =
      .ret ("\x7b\x7bprint $ $.user.name @index\x7d\x7d".toList, none) := by
  obtain ⟨hm, E1, E2, h1, h2, h3⟩ := C10_convertMethod_call asciiLetters 12 "print".toList
    "user.name".toList "@index".toList (by decide) (by decide) (by decide) (by decide) (by decide)
  have hE1 : E1 = "$.user.name".toList := by
    have : convertName 12 "user.name".toList = .ret "$.user.name".toList := by decide
    rw [this] at h1
    exact (Outcome.ret.inj h1).symm
  have hE2 : E2 = "@index".toList := by
    have : convertName 12 "@index".toList = .ret "@index".toList := by decide
    rw [this] at h2
    exact (Outcome.ret.inj h2).symm
  refine ⟨by decide, by decide, by decide, ?_, ?_⟩
  · exact hm "print".toList [] ["user.name".toList, "@index".toList]
      ["$.user.name".toList, "@index".toList] (by simp)
      (List.Forall₂.cons (by decide) (List.Forall₂.cons (by decide) List.Forall₂.nil))
  · rw [hE1, hE2] at h3
    exact h3

/-! ## The preferred match of the pattern of a loop -/

theorem run_lit (w : Str) (st : MState) :
    (Re.lit w).run st =
      if w.isPrefixOf st.rest then [⟨st.caps, st.atStart && w.isEmpty, st.rest.drop w.length⟩]
      else [] := by
  have h := run_lit_seq w Re.eps st
  simp only [run_seq, run_eps] at h
  rw [← h]
  simp

theorem isPrefixOf_take {w t : Str} (h : w.isPrefixOf t = true) : t.take w.length = w := by
  rw [List.isPrefixOf_iff_prefix] at h
  obtain ⟨r, rfl⟩ := h
  simp

theorem run_grp_lit_seq (n : Nat) (w : Str) (r : Re) (st : MState) :
    (Re.seq (Re.grp n (Re.lit w)) r).run st =
      if w.isPrefixOf st.rest then
        r.run ⟨(n, w) :: st.caps, st.atStart && w.isEmpty, st.rest.drop w.length⟩
      else [] := by
  rw [run_seq]
  simp only [Re.run, run_lit]
  by_cases h : w.isPrefixOf st.rest = true
  · have hle : w.length ≤ st.rest.length := by
      rw [List.isPrefixOf_iff_prefix] at h
      exact h.length_le
    have hlen : st.rest.length - (st.rest.length - w.length) = w.length := by omega
    simp [h, hlen, isPrefixOf_take h]
  · simp [h]

theorem isPrefixOf_append_iff (a b t : Str) :
    (a ++ b).isPrefixOf t = (a.isPrefixOf t && b.isPrefixOf (t.drop a.length)) := by
  induction a generalizing t with
  | nil => simp
  | cons x xs ih =>
    cases t with
    | nil => simp
    | cons y ys => simp [List.isPrefixOf_cons₂, ih, Bool.and_assoc]

theorem run_lit_lit_seq (a b : Str) (r : Re) (st : MState) :
    (Re.seq (Re.lit a) (Re.seq (Re.lit b) r)).run st = (Re.seq (Re.lit (a ++ b)) r).run st := by
  rw [run_lit_seq, run_lit_seq (a ++ b), isPrefixOf_append_iff]
  by_cases h1 : a.isPrefixOf st.rest = true
  · rw [if_pos h1, run_lit_seq]
    by_cases h2 : b.isPrefixOf (st.rest.drop a.length) = true
    · have he : ((st.atStart && a.isEmpty) && b.isEmpty) = (st.atStart && (a ++ b).isEmpty) := by
        cases a <;> cases b <;> simp
      simp only [h1, h2, if_true, Bool.and_self, List.drop_drop, List.length_append, he]
    · simp [h1, h2]
  · simp [h1]

/-- The closing part of the pattern of a loop is the literal `<!-- END k -->`. -/
theorem run_endTail (k : Str) (st : MState) :
    (Re.cat [Re.lit "<!-- END ".toList, Re.lit k, Re.lit " -->".toList]).run st =
      if (endMarker k).isPrefixOf st.rest then
        [⟨st.caps, false, st.rest.drop (endMarker k).length⟩]
      else [] := by
  have hne : (endMarker k).isEmpty = false := by simp [endMarker]
  simp only [Re.cat]
  rw [run_lit_lit_seq, run_lit_lit_seq, run_lit_seq]
  simp only [run_eps]
  show (if (endMarker k).isPrefixOf st.rest = true then
      [(⟨st.caps, st.atStart && (endMarker k).isEmpty, st.rest.drop (endMarker k).length⟩ : MState)]
    else []) = _
  rw [hne]
  simp

theorem run_star_lazy_cons (p : Char → Bool) (caps : List (Nat × Str)) (b : Bool) (c : Char)
    (cs : Str) (hc : p c = true) :
    (Re.star false (Re.cls p)).run ⟨caps, b, c :: cs⟩ =
      ⟨caps, b, c :: cs⟩ :: (Re.star false (Re.cls p)).run ⟨caps, false, cs⟩ := by
  simp [Re.run, starRun, hc]

theorem run_star_lazy_head (a : Re) (st : MState) :
    ∃ tl, (Re.star false a).run st = st :: tl := by
  simp only [Re.run]
  cases st.rest.length with
  | zero => exact ⟨[], rfl⟩
  | succ n => exact ⟨_, rfl⟩

/-- The lazy `[\s\S]*?` in a group, followed by a literal: the preferred match
ends at the first occurrence of the literal. -/
theorem head_lazy_then (n : Nat) (R : Re) (pat : Str)
    (hR : ∀ st : MState, R.run st =
      if pat.isPrefixOf st.rest then [⟨st.caps, false, st.rest.drop pat.length⟩] else [])
    (caps : List (Nat × Str)) (post : Str) :
    ∀ (body pre : Str) (b : Bool), NoOcc pat body →
      ((((Re.star false (Re.cls (fun _ => true))).run ⟨caps, b, body ++ (pat ++ post)⟩).map
        (fun s2 => (⟨(n, (pre ++ (body ++ (pat ++ post))).take
          ((pre ++ (body ++ (pat ++ post))).length - s2.rest.length)) :: s2.caps, s2.atStart,
            s2.rest⟩ : MState))).flatMap (fun s => R.run s)).head? =
        some ⟨(n, pre ++ body) :: caps, false, post⟩ := by
  intro body
  induction body with
  | nil =>
    intro pre b _
    obtain ⟨tl, e⟩ := run_star_lazy_head (Re.cls (fun _ => true)) ⟨caps, b, [] ++ (pat ++ post)⟩
    rw [e]
    simp only [List.map_cons, List.flatMap_cons, List.nil_append]
    rw [hR]
    have hp : pat.isPrefixOf (pat ++ post) = true := by
      rw [List.isPrefixOf_iff_prefix]
      exact ⟨post, rfl⟩
    simp [hp]
  | cons c cs ih =>
    intro pre b hno
    have hno2 : NoOcc pat cs := by
      intro x y tail e hy
      exact hno (c :: x) y tail (by rw [e]; rfl) hy
    have hfalse : pat.isPrefixOf (c :: (cs ++ (pat ++ post))) = false :=
      hno [] (c :: cs) (pat ++ post) rfl (by simp)
    rw [List.cons_append, run_star_lazy_cons _ _ _ _ _ rfl]
    simp only [List.map_cons, List.flatMap_cons]
    rw [hR]
    simp only [hfalse, Bool.false_eq_true, if_false, List.nil_append]
    have := ih (pre ++ [c]) false hno2
    simp only [List.append_assoc, List.singleton_append] at this
    exact this

/-- The greedy `[\r\n]*` in front of a pattern `R`: the preferred match takes
all the line breaks. -/
theorem head_newlines_then (R : Re) (caps : List (Nat × Str)) (t : Str) (ht : noNewlineHead t)
    (s0 : MState) :
    ∀ (nl : Str) (b : Bool), (∀ c ∈ nl, (c == '\r' || c == '\n') = true) →
      (R.run ⟨caps, b && nl.isEmpty, t⟩).head? = some s0 →
      ((Re.seq newlinesRegex R).run ⟨caps, b, nl ++ t⟩).head? = some s0 := by
  intro nl
  induction nl with
  | nil =>
    intro b _ h
    have : newlinesRegex.run ⟨caps, b, t⟩ = [⟨caps, b, t⟩] := run_star_cls_stop _ _ _ ht
    simp only [List.nil_append, run_seq, this, List.flatMap_cons, List.flatMap_nil, List.append_nil]
    simpa using h
  | cons x xs ih =>
    intro b hnl h
    have h2 := ih false (fun c hc => hnl c (by simp [hc])) (by simpa using h)
    have hx : (x == '\r' || x == '\n') = true := hnl x (by simp)
    have e : newlinesRegex.run ⟨caps, b, x :: (xs ++ t)⟩ =
        newlinesRegex.run ⟨caps, false, xs ++ t⟩ ++ [⟨caps, b, x :: (xs ++ t)⟩] :=
      run_star_cls_cons _ _ _ _ _ hx
    rw [run_seq] at h2
    rw [List.cons_append, run_seq, e, List.flatMap_append]
    cases hl : (newlinesRegex.run ⟨caps, false, xs ++ t⟩).flatMap (fun s2 => R.run s2) with
    | nil => rw [hl] at h2; simp at h2
    | cons a as => rw [hl] at h2; simpa using h2

theorem matchAt_of_head {re : Re} {b b2 : Bool} {w post : Str} {caps0 : List (Nat × Str)}
    (h : (re.run ⟨[], b, w ++ post⟩).head? = some ⟨caps0, b2, post⟩) (hw : w ≠ []) :
    matchAt re b (w ++ post) = some ⟨w, caps0⟩ := by
  unfold matchAt
  cases hrun : re.run ⟨[], b, w ++ post⟩ with
  | nil => rw [hrun] at h; simp at h
  | cons s0 tl =>
    rw [hrun] at h
    simp only [List.head?_cons, Option.some.injEq] at h
    subst h
    have hlen : post.length < (w ++ post).length := by
      have : 0 < w.length := List.length_pos.2 hw
      simp only [List.length_append]
      omega
    simp only [hlen, if_true, List.length_append, Nat.add_sub_cancel]
    simp [hw]

/-- The preferred match of the pattern of the loop over `k` at a `BEGIN`
marker: it runs to the first `END` marker of `k`, group 2 is the text in
between without the line breaks that follow the `BEGIN` marker. -/
theorem loopRegex_matchAt (k nl body post : Str) (b : Bool)
    (hnl : ∀ c ∈ nl, (c == '\r' || c == '\n') = true)
    (hbody : noNewlineHead (body ++ (endMarker k ++ post))) (hno : NoOcc (endMarker k) body) :
    matchAt (loopRegex k) b ((beginMarker k ++ nl ++ body ++ endMarker k) ++ post) =
      some ⟨beginMarker k ++ nl ++ body ++ endMarker k, [(2, body), (1, k)]⟩ := by
  apply @matchAt_of_head _ _ false
  · have h1 := head_lazy_then 2
      (Re.cat [Re.lit "<!-- END ".toList, Re.lit k, Re.lit " -->".toList]) (endMarker k)
      (run_endTail k) [(1, k)] post body [] false hno
    have h2 : ((Re.seq (Re.grp 2 (Re.star false (Re.cls (fun _ => true))))
        (Re.cat [Re.lit "<!-- END ".toList, Re.lit k, Re.lit " -->".toList])).run
        ⟨[(1, k)], false, body ++ (endMarker k ++ post)⟩).head? =
        some ⟨[(2, body), (1, k)], false, post⟩ := by
      rw [run_seq]
      simp only [Re.run] at h1 ⊢
      simpa using h1
    have h3 := head_newlines_then _ [(1, k)] _ hbody _ nl false hnl (by simpa using h2)
    have hp1 : "<!-- BEGIN ".toList.isPrefixOf
        ("<!-- BEGIN ".toList ++ (k ++ (" -->".toList ++ (nl ++ (body ++ (endMarker k ++ post))))))
        = true := by
      rw [List.isPrefixOf_iff_prefix]
      exact ⟨_, rfl⟩
    have hp2 : k.isPrefixOf (k ++ (" -->".toList ++ (nl ++ (body ++ (endMarker k ++ post)))))
        = true := by
      rw [List.isPrefixOf_iff_prefix]
      exact ⟨_, rfl⟩
    have hp3 : " -->".toList.isPrefixOf (" -->".toList ++ (nl ++ (body ++ (endMarker k ++ post))))
        = true := by
      rw [List.isPrefixOf_iff_prefix]
      exact ⟨_, rfl⟩
    have e : (loopRegex k).run ⟨[], b, (beginMarker k ++ nl ++ body ++ endMarker k) ++ post⟩ =
        (Re.seq newlinesRegex (Re.seq (Re.grp 2 (Re.star false (Re.cls (fun _ => true))))
          (Re.cat [Re.lit "<!-- END ".toList, Re.lit k, Re.lit " -->".toList]))).run
          ⟨[(1, k)], false, nl ++ (body ++ (endMarker k ++ post))⟩ := by
      simp only [loopRegex, beginMarker, List.append_assoc]
      rw [Re.cat, run_lit_seq]
      simp only [hp1, if_true, List.drop_left]
      rw [Re.cat, run_grp_lit_seq]
      simp only [hp2, if_true, List.drop_left]
      rw [Re.cat, run_lit_seq]
      simp only [hp3, if_true, List.drop_left]
      simp [Re.cat]
    rw [e]
    exact h3
  · simp [beginMarker]

/-! ## Loop markers -/

theorem isKey_of_isIdentifier (ext : Char → Bool) {n : Str} (hn : isIdentifier ext n = true) :
    isKey ext n = true := by
  obtain ⟨st, hst, e⟩ := fullMatch_iff.1 hn
  refine fullMatch_iff.2 ⟨st, ?_, e⟩
  simp only [keyRegex]
  exact mem_run_alt.2 (Or.inr (mem_run_seq.2 ⟨st, hst, mem_run_star.2 (Reach.refl _)⟩))

theorem needsHead_loopRegex (k : Str) : NeedsHead (loopRegex k) '<' :=
  needsHead_lit _ _ _

/-- At a `BEGIN` marker `loopFindRegex` matches exactly the marker, with the key
as group 1. -/
theorem loopFind_matchAt (ext : Char → Bool) {k : Str} (hk : isKey ext k = true) (post : Str)
    (b : Bool) :
    matchAt (loopFindRegex ext) b (beginMarker k ++ post) = some ⟨beginMarker k, [(1, k)]⟩ := by
  apply matchAt_eq
  · obtain ⟨s3, m3, e3⟩ := mem_run_grp_key_of ext 1 [] false hk (" -->".toList ++ post)
    refine ⟨⟨s3.caps, false, post⟩, ?_⟩
    simp only [loopFindRegex, Re.cat, beginMarker, List.append_assoc]
    refine mem_run_seq.2 ⟨_, mem_run_lit_append "<!-- BEGIN ".toList [] b _ (by simp), ?_⟩
    refine mem_run_seq.2 ⟨s3, m3, ?_⟩
    refine mem_run_seq.2 ⟨_, mem_run_lit_self " -->".toList s3 post (by simp) e3, by simp [run_eps]⟩
  · intro st hst
    simp only [loopFindRegex, Re.cat, beginMarker, List.append_assoc] at hst
    obtain ⟨s1, h1, g1⟩ := mem_run_seq.1 hst
    obtain ⟨e1, c1⟩ := mem_run_lit h1
    have e1b : s1.rest = k ++ (" -->".toList ++ post) := (List.append_cancel_left e1).symm
    obtain ⟨s4, h4, g4⟩ := mem_run_seq.1 g1
    obtain ⟨w, e4, hw, c4⟩ := mem_run_grp_key ext h4
    obtain ⟨s5, h5, g5⟩ := mem_run_seq.1 g4
    obtain ⟨e5, c5⟩ := mem_run_lit h5
    simp only [run_eps, List.mem_singleton] at g5
    rw [e1b, e5] at e4
    have e4b : k ++ ' ' :: ("-->".toList ++ post) = w ++ ' ' :: ("-->".toList ++ s5.rest) := by
      simpa using e4
    obtain ⟨hpw, _, hrest⟩ := append_cons_unique (P := keyChar ext) (isKey_chars ext hk) hw
      (keyChar_of_isDelim ext (by decide)) (keyChar_of_isDelim ext (by decide)) e4b
    have hs5 : s5.rest = post := (List.append_cancel_left hrest).symm
    refine ⟨by rw [g5, hs5], ?_⟩
    rw [g5, c5, c4, c1, hpw]
  · simp [beginMarker]

theorem noOcc_append {pat a b : Str} (ha : NoOcc pat a) (hb : NoOcc pat b) : NoOcc pat (a ++ b) := by
  intro x y tail e hy
  rcases List.append_eq_append_iff.1 e with ⟨m, e1, e2⟩ | ⟨m, e1, e2⟩
  · -- the cut lies in `b`
    exact hb m y tail e2 hy
  · -- the cut lies in `a`
    cases m with
    | nil =>
      simp only [List.nil_append] at e2
      rw [e2]
      cases b with
      | nil => rw [e2] at hy; exact absurd rfl hy
      | cons c cs => exact hb [] (c :: cs) tail rfl (by simp)
    | cons c cs =>
      rw [e2, List.append_assoc]
      exact ha x (c :: cs) (b ++ tail) e1 (by simp)

theorem noOcc_of_not_mem (pat s : Str) (c0 : Char) (tl : Str) (hp : pat = c0 :: tl)
    (hs : ∀ c ∈ s, c ≠ c0) : NoOcc pat s := by
  intro x y tail e hy
  cases y with
  | nil => exact absurd rfl hy
  | cons c cs =>
    have hc : c ≠ c0 := hs c (by rw [e]; simp)
    have : (c0 == c) = false := by
      simp only [beq_eq_false_iff_ne, ne_eq]
      exact fun h => hc h.symm
    rw [hp, List.cons_append, List.isPrefixOf_cons₂, this]
    rfl

theorem noOcc_block (pat u : Str) (c0 : Char) (tl : Str) (hp : pat = c0 :: tl)
    (hu : ∀ c ∈ u, c ≠ c0) (h0 : ∀ tail, pat.isPrefixOf (c0 :: (u ++ tail)) = false) :
    NoOcc pat (c0 :: u) := by
  intro x y tail e hy
  cases x with
  | nil =>
    simp only [List.nil_append] at e
    rw [← e]
    exact h0 tail
  | cons c cs =>
    simp only [List.cons_append, List.cons.injEq] at e
    exact noOcc_of_not_mem pat u c0 tl hp hu cs y tail e.2 hy

theorem endMarker_ne_begin (k k2 : Str) (tail : Str) :
    (endMarker k).isPrefixOf (beginMarker k2 ++ tail) = false := by
  simp only [endMarker, List.append_assoc]
  exact isPrefixOf_append_false _ _ _ rfl

/-- The `END` markers of two different keys differ. -/
theorem endMarker_ne_end (ext : Char → Bool) {k k2 : Str} (hk : ∀ c ∈ k, keyChar ext c = true)
    (hk2 : ∀ c ∈ k2, keyChar ext c = true) (hne : k ≠ k2) (tail : Str) :
    (endMarker k).isPrefixOf (endMarker k2 ++ tail) = false := by
  cases hq : (endMarker k).isPrefixOf (endMarker k2 ++ tail) with
  | false => rfl
  | true =>
    rw [List.isPrefixOf_iff_prefix] at hq
    obtain ⟨r, e⟩ := hq
    simp only [endMarker, List.append_assoc] at e
    have e2 := List.append_cancel_left e
    have e3 : k ++ ' ' :: ("-->".toList ++ r) = k2 ++ ' ' :: ("-->".toList ++ tail) := by
      simpa using e2
    obtain ⟨h, _, _⟩ := append_cons_unique (P := keyChar ext) hk hk2
      (keyChar_of_isDelim ext (by decide)) (keyChar_of_isDelim ext (by decide)) e3
    exact absurd h hne

theorem marker_tail_not_mem (ext : Char → Bool) (w k : Str) (hw : ∀ c ∈ w, c ≠ '<')
    (hk : ∀ c ∈ k, keyChar ext c = true) : ∀ c ∈ w ++ k ++ " -->".toList, c ≠ '<' :=
  not_mem_append (not_mem_append hw (keyChar_not_delim ext hk (by decide))) (by decide)

theorem noOcc_beginMarker (ext : Char → Bool) (k k2 : Str) (hk2 : ∀ c ∈ k2, keyChar ext c = true) :
    NoOcc (endMarker k) (beginMarker k2) :=
  noOcc_block (endMarker k) ("!-- BEGIN ".toList ++ k2 ++ " -->".toList) '<' _ rfl
    (marker_tail_not_mem ext _ k2 (by decide) hk2)
    (fun tail => endMarker_ne_begin k k2 tail)

theorem noOcc_endMarker (ext : Char → Bool) {k k2 : Str} (hk : ∀ c ∈ k, keyChar ext c = true)
    (hk2 : ∀ c ∈ k2, keyChar ext c = true) (hne : k ≠ k2) :
    NoOcc (endMarker k) (endMarker k2) :=
  noOcc_block (endMarker k) ("!-- END ".toList ++ k2 ++ " -->".toList) '<' _ rfl
    (marker_tail_not_mem ext _ k2 (by decide) hk2)
    (fun tail => endMarker_ne_end ext hk hk2 hne tail)

theorem onlyLoopMarkers_of_not_mem (s : Str) (hs : ∀ c ∈ s, c ≠ '<') : OnlyLoopMarkers s := by
  intro x y e
  exact absurd rfl (hs '<' (by rw [e]; simp))

theorem onlyLoopMarkers_append {a b : Str} (ha : OnlyLoopMarkers a) (hb : OnlyLoopMarkers b) :
    OnlyLoopMarkers (a ++ b) := by
  intro x y e
  rcases List.append_eq_append_iff.1 e with ⟨m, e1, e2⟩ | ⟨m, e1, e2⟩
  · exact hb m y e2
  · cases m with
    | nil =>
      simp only [List.nil_append] at e2
      simp only [List.append_nil] at e1
      exact hb [] y e2.symm
    | cons c cs =>
      simp only [List.cons_append, List.cons.injEq] at e2
      obtain ⟨hc, e3⟩ := e2
      subst hc
      have := ha x cs e1
      rw [e3]
      rcases this with h | h
      · left
        rw [List.isPrefixOf_iff_prefix] at h ⊢
        exact h.trans (List.prefix_append cs b)
      · right
        rw [List.isPrefixOf_iff_prefix] at h ⊢
        exact h.trans (List.prefix_append cs b)

theorem onlyLoopMarkers_block (u : Str) (hu : ∀ c ∈ u, c ≠ '<')
    (h : "!-- BEGIN ".toList.isPrefixOf u = true ∨ "!-- END ".toList.isPrefixOf u = true) :
    OnlyLoopMarkers ('<' :: u) := by
  intro x y e
  cases x with
  | nil =>
    simp only [List.nil_append, List.cons.injEq, true_and] at e
    rw [← e]
    exact h
  | cons c cs =>
    simp only [List.cons_append, List.cons.injEq] at e
    exact absurd rfl (hu '<' (by rw [e.2]; simp))

theorem onlyLoopMarkers_begin (ext : Char → Bool) (k : Str) (hk : ∀ c ∈ k, keyChar ext c = true) :
    OnlyLoopMarkers (beginMarker k) :=
  onlyLoopMarkers_block ("!-- BEGIN ".toList ++ k ++ " -->".toList)
    (marker_tail_not_mem ext _ k (by decide) hk) (Or.inl (by
      rw [List.isPrefixOf_iff_prefix, List.append_assoc]
      exact List.prefix_append _ _))

theorem onlyLoopMarkers_end (ext : Char → Bool) (k : Str) (hk : ∀ c ∈ k, keyChar ext c = true) :
    OnlyLoopMarkers (endMarker k) :=
  onlyLoopMarkers_block ("!-- END ".toList ++ k ++ " -->".toList)
    (marker_tail_not_mem ext _ k (by decide) hk) (Or.inr (by
      rw [List.isPrefixOf_iff_prefix, List.append_assoc]
      exact List.prefix_append _ _))

theorem onlyLoopMarkers_tail {c : Char} {cs : Str} (h : OnlyLoopMarkers (c :: cs)) :
    OnlyLoopMarkers cs :=
  fun x y e => h (c :: x) y (by rw [e]; rfl)

/-- A pattern that begins with a literal other than the loop markers matches
nowhere in a text whose only `<` begin loop markers. -/
theorem matchAt_none_of_onlyLoopMarkers (w : Str) (r : Re)
    (hw1 : ∀ t, w.isPrefixOf ("<!-- BEGIN ".toList ++ t) = false)
    (hw2 : ∀ t, w.isPrefixOf ("<!-- END ".toList ++ t) = false)
    (hre : NeedsHead (Re.seq (Re.lit w) r) '<') (c : Char) (cs : Str)
    (hs : OnlyLoopMarkers (c :: cs)) (b : Bool) :
    matchAt (Re.seq (Re.lit w) r) b (c :: cs) = none := by
  by_cases hc : c = '<'
  · subst hc
    apply matchAt_lit_none
    rcases hs [] cs rfl with h | h
    · rw [List.isPrefixOf_iff_prefix] at h
      obtain ⟨t, e⟩ := h
      rw [← e]
      exact hw1 t
    · rw [List.isPrefixOf_iff_prefix] at h
      obtain ⟨t, e⟩ := h
      rw [← e]
      exact hw2 t
  · exact matchAt_none_of_head hre b c cs hc

theorem findAllFrom_nil_of_onlyLoopMarkers (w : Str) (r : Re)
    (hw1 : ∀ t, w.isPrefixOf ("<!-- BEGIN ".toList ++ t) = false)
    (hw2 : ∀ t, w.isPrefixOf ("<!-- END ".toList ++ t) = false)
    (hre : NeedsHead (Re.seq (Re.lit w) r) '<') (s : Str) (hs : OnlyLoopMarkers s) (b : Bool) :
    findAllFrom (Re.seq (Re.lit w) r) b 0 s = [] := by
  induction s generalizing b with
  | nil => rfl
  | cons c cs ih =>
    rw [findAllFrom_cons_none (matchAt_none_of_onlyLoopMarkers w r hw1 hw2 hre c cs hs b)]
    exact ih (onlyLoopMarkers_tail hs) false

theorem replaceAllFrom_id_of_onlyLoopMarkers (w : Str) (r : Re) (repl : Match → Str)
    (hw1 : ∀ t, w.isPrefixOf ("<!-- BEGIN ".toList ++ t) = false)
    (hw2 : ∀ t, w.isPrefixOf ("<!-- END ".toList ++ t) = false)
    (hre : NeedsHead (Re.seq (Re.lit w) r) '<') (s : Str) (hs : OnlyLoopMarkers s) (b : Bool) :
    replaceAllFrom (Re.seq (Re.lit w) r) repl b 0 s = s := by
  induction s generalizing b with
  | nil => rfl
  | cons c cs ih =>
    rw [replaceAllFrom_zero, matchAt_none_of_onlyLoopMarkers w r hw1 hw2 hre c cs hs b]
    simp only
    rw [ih (onlyLoopMarkers_tail hs) false]

/-- The Condition Pass returns unchanged a text whose only `<` begin loop
markers. -/
theorem convertConditions_of_onlyLoopMarkers (ext : Char → Bool) (fuel : Nat) (t : Str)
    (h : OnlyLoopMarkers t) : convertConditions ext fuel t = .ret (t, none) := by
  have h1 : findAll (ifFunctionRegex ext) t = [] :=
    findAllFrom_nil_of_onlyLoopMarkers "<!-- IF ".toList _ (fun _ => rfl) (fun _ => rfl)
      (needsHead_ifFunction ext) t h _
  have h2 : findAll (ifRegex ext) t = [] :=
    findAllFrom_nil_of_onlyLoopMarkers "<!-- IF ".toList _ (fun _ => rfl) (fun _ => rfl)
      (needsHead_if ext) t h _
  have h3 : ∀ f, replaceAll elseRegex f t = t :=
    fun f => replaceAllFrom_id_of_onlyLoopMarkers "<!-- ELSE -->".toList _ f (fun _ => rfl)
      (fun _ => rfl) needsHead_else t h _
  have h4 : ∀ f, replaceAll (endifRegex ext) f t = t :=
    fun f => replaceAllFrom_id_of_onlyLoopMarkers "<!-- ENDIF ".toList _ f (fun _ => rfl)
      (fun _ => rfl) (needsHead_endif ext) t h _
  unfold convertConditions
  rw [h1]
  simp only [replaceIfFunctions, Outcome.bind, h2, replaceIfs, h3, h4]

/-! ## The first block of the Loop Pass -/

theorem noOcc_ext {w : Str} (r : Str) {t : Str} (h : NoOcc w t) : NoOcc (w ++ r) t :=
  fun x y tail e hy => isPrefixOf_append_false w r _ (h x y tail e hy)

theorem noOcc_tail {pat : Str} {c : Char} {cs : Str} (h : NoOcc pat (c :: cs)) : NoOcc pat cs :=
  fun x y tail e hy => h (c :: x) y tail (by rw [e]; rfl) hy

theorem noOcc_nil (pat : Str) : NoOcc pat [] := by
  intro x y tail e hy
  exact absurd (List.append_eq_nil.1 e.symm).2 hy

/-- A pattern that begins with the literal `w` finds nothing in a stretch where
`w` does not begin. -/
theorem findAllFrom_skip_noOcc (w : Str) (r : Re) (pre s : Str) (hpre : NoOcc w pre) (b : Bool) :
    findAllFrom (Re.seq (Re.lit w) r) b 0 (pre ++ s) =
      findAllFrom (Re.seq (Re.lit w) r) (b && pre.isEmpty) 0 s := by
  induction pre generalizing b with
  | nil => simp
  | cons c cs ih =>
    have h0 : w.isPrefixOf (c :: (cs ++ s)) = false := hpre [] (c :: cs) s rfl (by simp)
    rw [List.cons_append, findAllFrom_cons_none (matchAt_lit_none w r b _ h0),
      ih (noOcc_tail hpre) false]
    simp

theorem strReplaceFrom_skip_noOcc (old new pre s : Str) (hpre : NoOcc old pre) :
    strReplaceFrom old new 0 (pre ++ s) = pre ++ strReplaceFrom old new 0 s := by
  induction pre with
  | nil => rfl
  | cons c cs ih =>
    have h0 : old.isPrefixOf (c :: (cs ++ s)) = false := hpre [] (c :: cs) s rfl (by simp)
    rw [List.cons_append, strReplaceFrom_zero, h0, ih (noOcc_tail hpre)]
    rfl

/-- The Loop Pass at the first `BEGIN` marker of the text: it takes the block
that runs to the first `END` marker of the same key. -/
theorem convertLoopsFrom_first (ext : Char → Bool) (fuel i : Nat)
    (pre k nl body post pfx iterator : Str) (hk : isKey ext k = true)
    (hpre : NoOcc "<!-- BEGIN ".toList pre)
    (hnl : ∀ c ∈ nl, (c == '\r' || c == '\n') = true)
    (hbody : noNewlineHead (body ++ (endMarker k ++ post))) (hno : NoOcc (endMarker k) body) :
    convertLoopsFrom ext (fuel + 1) i (pre ++ ((beginMarker k ++ nl ++ body ++ endMarker k) ++ post))
        pfx iterator =
      loopStep (fun j t p it => convertLoopsFrom ext fuel j t p it) fuel i
        (pre ++ ((beginMarker k ++ nl ++ body ++ endMarker k) ++ post)) pfx iterator
        ⟨beginMarker k ++ nl ++ body ++ endMarker k, [(2, body), (1, k)]⟩ := by
  have h1 : findFirst (loopFindRegex ext)
      (pre ++ ((beginMarker k ++ nl ++ body ++ endMarker k) ++ post)) =
      some ⟨beginMarker k, [(1, k)]⟩ := by
    unfold findFirst findAll
    have e := findAllFrom_skip_noOcc "<!-- BEGIN ".toList
      (Re.cat [.grp 1 (keyRegex ext), Re.lit " -->".toList]) pre
      ((beginMarker k ++ nl ++ body ++ endMarker k) ++ post) hpre true
    have e2 : findAllFrom (loopFindRegex ext) true 0
        (pre ++ ((beginMarker k ++ nl ++ body ++ endMarker k) ++ post)) =
        findAllFrom (loopFindRegex ext) (true && pre.isEmpty) 0
          ((beginMarker k ++ nl ++ body ++ endMarker k) ++ post) := e
    rw [e2]
    have hm := loopFind_matchAt ext hk (nl ++ body ++ endMarker k ++ post) (true && pre.isEmpty)
    have e3 : (beginMarker k ++ nl ++ body ++ endMarker k) ++ post =
        beginMarker k ++ (nl ++ body ++ endMarker k ++ post) := by
      simp only [List.append_assoc]
    rw [e3, findAllFrom_match hm rfl (by simp [beginMarker])]
    rfl
  have h2 : findFirst (loopRegex k)
      (pre ++ ((beginMarker k ++ nl ++ body ++ endMarker k) ++ post)) =
      some ⟨beginMarker k ++ nl ++ body ++ endMarker k, [(2, body), (1, k)]⟩ := by
    unfold findFirst findAll
    have e := findAllFrom_skip_noOcc "<!-- BEGIN ".toList
      (Re.cat [.grp 1 (Re.lit k), Re.lit " -->".toList, newlinesRegex,
        .grp 2 (.star false (.cls (fun _ => true))), Re.lit "<!-- END ".toList, Re.lit k,
        Re.lit " -->".toList]) pre
      ((beginMarker k ++ nl ++ body ++ endMarker k) ++ post) hpre true
    have e2 : findAllFrom (loopRegex k) true 0
        (pre ++ ((beginMarker k ++ nl ++ body ++ endMarker k) ++ post)) =
        findAllFrom (loopRegex k) (true && pre.isEmpty) 0
          ((beginMarker k ++ nl ++ body ++ endMarker k) ++ post) := e
    rw [e2, findAllFrom_match (loopRegex_matchAt k nl body post _ hnl hbody hno) rfl
      (by simp [beginMarker])]
    rfl
  have g1 : (⟨beginMarker k, [(1, k)]⟩ : Match).group 1 = k := rfl
  rw [convertLoopsFrom, h1]
  simp only [g1, h2]

/-- One round of the loop of `convertLoops` on the block `w` of the key `k`,
once the results of its calls are known. -/
theorem loopStep_eval (recur : Nat → Str → Str → Str → Outcome (Str × Option ConvError))
    (fuel i : Nat) (template pfx iterator w body k name key it body1 body2 : Str)
    (hname : convertName fuel k = .ret name)
    (hkey : key = strReplace name "$.".toList (pfx ++ ".".toList))
    (hit : it = iterator ++ "i".toList ++ itoa i)
    (hrec : recur 0 (strReplace body (key ++ ".".toList) (elemKey key it ++ ".".toList))
      (elemKey key it) it = .ret (body1, none))
    (hwrap : wrapSpecials fuel body1 = .ret body2) :
    loopStep recur fuel i template pfx iterator ⟨w, [(2, body), (1, k)]⟩ =
      recur (i + 1) (strReplace template w (rangeBlock it key (substSpecials it body2)))
        pfx iterator := by
  have g1 : (⟨w, [(2, body), (1, k)]⟩ : Match).group 1 = k := rfl
  have g2 : (⟨w, [(2, body), (1, k)]⟩ : Match).group 2 = body := rfl
  have g0 : (⟨w, [(2, body), (1, k)]⟩ : Match).group 0 = w := rfl
  subst hkey hit
  simp only [elemKey] at hrec
  simp only [loopStep, g1, g2, g0, hname, Outcome.bind, hrec, hwrap, rangeBlock, substSpecials]

/-! ## Special tokens -/

theorem rawSpecial_run_nil (caps : List (Nat × Str)) (b : Bool) (s : Str)
    (hs : ∀ c ∈ s, c ≠ '@') : rawSpecialRegex.run ⟨caps, b, s⟩ = [] := by
  apply List.eq_nil_iff_forall_not_mem.2
  intro st hst
  simp only [rawSpecialRegex, Re.cat] at hst
  obtain ⟨s1, h1, g1⟩ := mem_run_seq.1 hst
  obtain ⟨s2, h2, g2⟩ := mem_run_seq.1 g1
  obtain ⟨s3, h3, _⟩ := mem_run_seq.1 g2
  obtain ⟨w1, e1⟩ := Re.run_suffix _ h1
  obtain ⟨w2, e2⟩ := Re.run_suffix _ h2
  obtain ⟨s4, h4, _⟩ := mem_run_grp h3
  by_cases hh : ∃ tl, s2.rest = '@' :: tl
  · obtain ⟨tl, e⟩ := hh
    simp only at e1
    exact hs '@' (by rw [e1, e2, e]; simp) rfl
  · have hnil := needsHead_chr '@'
      (.alt (Re.lit "index".toList) (.alt (Re.lit "key".toList)
        (.alt (Re.lit "value".toList) (Re.lit "first".toList)))) s2 (fun tl e => hh ⟨tl, e⟩)
    rw [specialRegex, hnil] at h4
    simp at h4

theorem replaceAllFrom_rawSpecial_id (f : Match → Str) (s : Str) (hs : ∀ c ∈ s, c ≠ '@')
    (b : Bool) : replaceAllFrom rawSpecialRegex f b 0 s = s := by
  induction s generalizing b with
  | nil => rfl
  | cons c cs ih =>
    rw [replaceAllFrom_zero, matchAt_none_of_run (rawSpecial_run_nil [] b (c :: cs) hs)]
    simp only
    rw [ih (fun x hx => hs x (List.mem_cons_of_mem c hx)) false]

/-- The wrapping of special tokens stops at once on a text without `@`. -/
theorem wrapSpecials_of_not_mem (fuel : Nat) (s : Str) (hs : ∀ c ∈ s, c ≠ '@') :
    wrapSpecials (fuel + 1) s = .ret s := by
  have h : replaceAll rawSpecialRegex wrapSpecial s = s := replaceAllFrom_rawSpecial_id _ s hs true
  simp only [wrapSpecials, h, if_true]

theorem substSpecials_of_not_mem (it s : Str) (hs : ∀ c ∈ s, c ≠ '@') :
    substSpecials it s = s := by
  unfold substSpecials
  rw [strReplace_of_not_mem s "@index".toList it '@' "index".toList rfl hs,
    strReplace_of_not_mem s "@key".toList it '@' "key".toList rfl hs,
    strReplace_of_not_mem s "@value".toList _ '@' "value".toList rfl hs,
    strReplace_of_not_mem s "@first".toList _ '@' "first".toList rfl hs]

theorem strReplaceFrom_same (old : Str) (hne : old ≠ []) :
    ∀ (s : Str) (k : Nat), strReplaceFrom old old k s = s.drop k := by
  intro s
  induction s with
  | nil => intro k; cases k <;> rfl
  | cons c cs ih =>
    intro k
    cases k with
    | succ k => rw [strReplaceFrom_succ, ih k]; rfl
    | zero =>
      rw [strReplaceFrom_zero]
      by_cases h : old.isPrefixOf (c :: cs) = true
      · rw [if_pos h, ih]
        rw [List.isPrefixOf_iff_prefix] at h
        obtain ⟨r, e⟩ := h
        cases old with
        | nil => exact absurd rfl hne
        | cons o os =>
          simp only [List.cons_append, List.cons.injEq] at e
          obtain ⟨e1, e2⟩ := e
          subst e1
          rw [← e2]
          simp
      · rw [if_neg h, ih 0]
        rfl

/-- Replacing a text by itself changes nothing. -/
theorem strReplace_same (s old : Str) (hne : old ≠ []) : strReplace s old old = s := by
  rw [strReplace_eq s old old hne, strReplaceFrom_same old hne s 0]
  rfl

/-! ## A single block -/

theorem isKey_special (ext : Char → Bool) {p : Str} (h : p ∈ specialTokens) :
    isKey ext p = true := by
  simp only [specialTokens, List.mem_cons, List.mem_singleton, List.not_mem_nil, or_false] at h
  have key : ∃ st ∈ specialRegex.run ⟨[], false, p⟩, st.rest = [] := by
    rcases h with h | h | h | h <;> subst h <;> exact ⟨⟨[], false, []⟩, by simp [specialRegex, Re.run, Re.lit], rfl⟩
  obtain ⟨st, hst, e⟩ := key
  refine fullMatch_iff.2 ⟨st, ?_, e⟩
  simp only [keyRegex]
  exact mem_run_alt.2 (Or.inl hst)

/-- Replacing the only occurrence of `old`. -/
theorem strReplace_single (old new P Q : Str) (c0 : Char) (tl : Str) (ho : old = c0 :: tl)
    (hP : ∀ c ∈ P, c ≠ c0) (hQ : ∀ c ∈ Q, c ≠ c0) :
    strReplace (P ++ (old ++ Q)) old new = P ++ (new ++ Q) := by
  have hne : old ≠ [] := by rw [ho]; simp
  have hq : strReplaceFrom old new 0 Q = Q := by
    rw [← strReplace_eq Q old new hne]
    exact strReplace_of_not_mem Q old new c0 tl ho hQ
  rw [strReplace_eq _ old new hne, strReplaceFrom_skip old new c0 tl ho P _ hP,
    strReplaceFrom_match old new Q hne, hq]

theorem marker_not_mem (ext : Char → Bool) {k : Str} (hk : isIdentifier ext k = true) {x : Char}
    (hx : isPunct x = true) (hx2 : x ∉ markerLiterals) :
    (∀ c ∈ beginMarker k, c ≠ x) ∧ (∀ c ∈ endMarker k, c ≠ x) := by
  have hkx : ∀ c ∈ k, c ≠ x := by
    intro c hc e
    have := isIdentifier_not_punct ext hk hc
    rw [e, hx] at this
    exact absurd this (by simp)
  have h1 : ∀ c ∈ "<!-- BEGIN ".toList, c ≠ x := by
    intro c hc e
    have hm : ∀ d ∈ "<!-- BEGIN ".toList, d ∈ markerLiterals := by decide
    exact hx2 (e ▸ hm c hc)
  have h2 : ∀ c ∈ "<!-- END ".toList, c ≠ x := by
    intro c hc e
    have hm : ∀ d ∈ "<!-- END ".toList, d ∈ markerLiterals := by decide
    exact hx2 (e ▸ hm c hc)
  have h3 : ∀ c ∈ " -->".toList, c ≠ x := by
    intro c hc e
    have hm : ∀ d ∈ " -->".toList, d ∈ markerLiterals := by decide
    exact hx2 (e ▸ hm c hc)
  exact ⟨not_mem_append (not_mem_append h1 hkx) h3, not_mem_append (not_mem_append h2 hkx) h3⟩

/-- The Variable Pass on a text whose only brace pair is a single-brace
reference to the key `p`. -/
theorem convertVariables_key_in (ext : Char → Bool) (fuel : Nat) {p E : Str} (P Q : Str)
    (hk : isKey ext p = true) (hf : "function.".toList.isPrefixOf p = false)
    (hE : convertName fuel p = .ret E) (hP : ∀ c ∈ P, c ≠ '\x7b') (hQ : ∀ c ∈ Q, c ≠ '\x7b') :
    convertVariables ext fuel (P ++ (('\x7b' :: (p ++ ['\x7d'])) ++ Q)) =
      .ret (P ++ (("\x7b\x7b".toList ++ E ++ "\x7d\x7d".toList) ++ Q), none) := by
  have hchars : ∀ c ∈ p ++ '\x7d' :: Q, c ≠ '\x7b' := by
    intro c hc
    rcases List.mem_append.1 hc with hc | hc
    · exact keyChar_not_delim ext (isKey_chars ext hk) (by decide) c hc
    · rcases List.mem_cons.1 hc with hc | hc
      · subst hc
        decide
      · exact hQ c hc
  have ecat : ('\x7b' :: (p ++ ['\x7d'])) ++ Q = '\x7b' :: (p ++ '\x7d' :: Q) := by simp
  obtain ⟨c0, cs, e0, _⟩ := isKey_head ext hk
  have hc0 : c0 ≠ '\x7b' := hchars c0 (by simp [e0])
  have h1 : findAll (rawKeyRegex ext) (P ++ (('\x7b' :: (p ++ ['\x7d'])) ++ Q)) = [] := by
    unfold findAll
    rw [findAllFrom_skip (needsHead_rawKey ext) P _ hP true, ecat]
    apply findAllFrom_block_last (needsHead_rawKey ext) _ _ hchars
    apply matchAt_lit_none
    have : ('\x7b' == c0) = false := by
      simp only [beq_eq_false_iff_ne, ne_eq]
      exact fun e => hc0 e.symm
    simp [e0, List.isPrefixOf_cons₂, this]
  have h2 : findAll (functionRegex ext) (P ++ (('\x7b' :: (p ++ ['\x7d'])) ++ Q)) = [] := by
    unfold findAll
    rw [findAllFrom_skip (needsHead_function ext) P _ hP true, ecat]
    apply findAllFrom_block_last (needsHead_function ext) _ _ hchars
    apply matchAt_lit_none
    cases hq : ("\x7bfunction.".toList.isPrefixOf ('\x7b' :: (p ++ '\x7d' :: Q))) with
    | false => rfl
    | true =>
      have hq2 : "function.".toList.isPrefixOf (p ++ '\x7d' :: Q) = true := by
        simpa [List.isPrefixOf_cons₂] using hq
      have := isPrefixOf_append_cons _ p Q '\x7d' (by decide) hq2
      rw [hf] at this
      exact absurd this (by simp)
  have h3 : findAll (escapedKeyRegex ext) (P ++ (('\x7b' :: (p ++ ['\x7d'])) ++ Q)) =
      [⟨'\x7b' :: (p ++ ['\x7d']), [(2, p)]⟩] := by
    unfold findAll
    rw [findAllFrom_skip (needsHead_escapedKey ext) P _ hP true,
      findAllFrom_match (escapedKey_matchAt ext hk Q _) rfl (by simp),
      findAllFrom_nil_of_not_mem (needsHead_escapedKey ext) Q hQ false]
  unfold convertVariables
  rw [h1, h2]
  simp only [List.take_nil, replaceFunctions, Outcome.bind, h3, replaceKeys, Match.group,
    List.lookup, beq_self_eq_true, Option.getD_some, hE]
  rw [strReplace_single _ _ P Q '\x7b' (p ++ ['\x7d']) rfl hP hQ]

theorem wrapSpecials_fix (fuel : Nat) (s : Str)
    (h : replaceAll rawSpecialRegex wrapSpecial s = s) : wrapSpecials (fuel + 1) s = .ret s := by
  simp only [wrapSpecials, h, if_true]

theorem convertName_identifier (ext : Char → Bool) {k : Str} (hk : isIdentifier ext k = true)
    (fuel : Nat) : convertName (fuel + 2) k = .ret (Segment.apply "$".toList (.field k)) := by
  have h := convertName_path ext k [] (fuel + 2) hk (by simp) (by simp)
  simpa [pathText] using h

/-- The Loop Pass on a text that is one block of the identifier key `k`, given
what it does with the body. -/
theorem convertLoopsFrom_block (ext : Char → Bool) (fuel i : Nat)
    (k body pfx iterator key it body1 body2 : Str) (hk : isIdentifier ext k = true)
    (hbody : noNewlineHead (body ++ endMarker k)) (hno : NoOcc (endMarker k) body)
    (hkey : key = strReplace (Segment.apply "$".toList (.field k)) "$.".toList (pfx ++ ".".toList))
    (hit : it = iterator ++ "i".toList ++ itoa i)
    (hrec : convertLoopsFrom ext (fuel + 2) 0
      (strReplace body (key ++ ".".toList) (elemKey key it ++ ".".toList)) (elemKey key it) it =
        .ret (body1, none))
    (hwrap : wrapSpecials (fuel + 2) body1 = .ret body2)
    (hout : ∀ c ∈ rangeBlock it key (substSpecials it body2), c ≠ '<') :
    convertLoopsFrom ext (fuel + 3) i (beginMarker k ++ body ++ endMarker k) pfx iterator =
      .ret (rangeBlock it key (substSpecials it body2), none) := by
  have hf := convertLoopsFrom_first ext (fuel + 2) i [] k [] body [] pfx iterator
    (isKey_of_isIdentifier ext hk) (noOcc_nil _) (by simp) (by simpa using hbody) hno
  simp only [List.nil_append, List.append_nil] at hf
  rw [hf, loopStep_eval _ (fuel + 2) i _ pfx iterator _ body k _ key it body1 body2
    (convertName_identifier ext hk fuel) hkey hit hrec hwrap]
  rw [strReplace_self _ _ (by simp [beginMarker])]
  exact convertLoopsFrom_of_not_mem ext (fuel + 1) (i + 1) _ pfx iterator hout

/-! ## Two nested blocks -/

theorem apply_field_not_mem (ext : Char → Bool) {k : Str} (hk : isIdentifier ext k = true)
    {x : Char} (hx : isPunct x = true) (hx2 : x ∉ nameLiterals) (e : Str) (he : ∀ c ∈ e, c ≠ x) :
    ∀ c ∈ Segment.apply e (.field k), c ≠ x := by
  have hkx : ∀ c ∈ k, c ≠ x := by
    intro c hc h
    have := isIdentifier_not_punct ext hk hc
    rw [h, hx] at this
    exact absurd this (by simp)
  have hlit : ∀ w : Str, (∀ d ∈ w, d ∈ nameLiterals) → ∀ c ∈ w, c ≠ x :=
    fun w hw c hc h => hx2 (h ▸ hw c hc)
  simp only [Segment.apply]
  split
  · exact not_mem_append (not_mem_append (hlit _ (by decide)) he) (hlit _ (by decide))
  · exact not_mem_append (not_mem_append he (hlit _ (by decide))) hkx

theorem elemKey_not_mem {x : Char} (hx2 : x ∉ nameLiterals) (key it : Str)
    (hkey : ∀ c ∈ key, c ≠ x) (hit : ∀ c ∈ it, c ≠ x) : ∀ c ∈ elemKey key it, c ≠ x := by
  have hlit : ∀ w : Str, (∀ d ∈ w, d ∈ nameLiterals) → ∀ c ∈ w, c ≠ x :=
    fun w hw c hc h => hx2 (h ▸ hw c hc)
  unfold elemKey
  exact not_mem_append (not_mem_append (not_mem_append (not_mem_append (hlit _ (by decide)) hkey)
    (hlit _ (by decide))) hit) (hlit _ (by decide))

theorem rangeBlock_not_mem {x : Char} (hx2 : x ∉ rangeLiterals) (it key body : Str)
    (hit : ∀ c ∈ it, c ≠ x) (hkey : ∀ c ∈ key, c ≠ x) (hbody : ∀ c ∈ body, c ≠ x) :
    ∀ c ∈ rangeBlock it key body, c ≠ x := by
  have hlit : ∀ w : Str, (∀ d ∈ w, d ∈ rangeLiterals) → ∀ c ∈ w, c ≠ x :=
    fun w hw c hc h => hx2 (h ▸ hw c hc)
  unfold rangeBlock
  exact not_mem_append (not_mem_append (not_mem_append (not_mem_append (not_mem_append
    (not_mem_append (not_mem_append (not_mem_append (hlit _ (by decide)) hit) (hlit _ (by decide)))
    hit) (hlit _ (by decide))) hkey) (hlit _ (by decide))) hbody) (hlit _ (by decide))

/-- The collection a loop over the identifier `k` ranges over, inside the
element `pfx`. -/
theorem loopKey_identifier (ext : Char → Bool) {k : Str} (hk : isIdentifier ext k = true)
    (pfx : Str) :
    strReplace (Segment.apply "$".toList (.field k)) "$.".toList (pfx ++ ".".toList) =
      if k = "length".toList then "(len $)".toList else pfx ++ ".".toList ++ k := by
  by_cases h : k = "length".toList
  · subst h
    rfl
  · have hkx : ∀ c ∈ k, c ≠ '$' := by
      intro c hc e
      have := isIdentifier_not_punct ext hk hc
      rw [e] at this
      exact absurd this (by decide)
    have e : Segment.apply "$".toList (.field k) = [] ++ ("$.".toList ++ k) := by
      simp only [Segment.apply, h, if_false]
      rfl
    rw [e, strReplace_single "$.".toList _ [] k '$' ".".toList rfl (by simp) hkx, if_neg h]
    rfl

/-- The key of a loop begins with `$` or with `(`, so replacing it leaves a text
without these characters as it is. -/
theorem strReplace_key_id (body key new : Str)
    (hkey : ∃ tl, key = '(' :: tl ∨ key = '$' :: tl) (h1 : ∀ c ∈ body, c ≠ '(')
    (h2 : ∀ c ∈ body, c ≠ '$') : strReplace body (key ++ ".".toList) new = body := by
  obtain ⟨tl, e | e⟩ := hkey
  · exact strReplace_of_not_mem body _ new '(' (tl ++ ".".toList) (by rw [e]; rfl) h1
  · exact strReplace_of_not_mem body _ new '$' (tl ++ ".".toList) (by rw [e]; rfl) h2

theorem loopKey_head (k pfx : Str) (hpfx : ∃ tl, pfx = '(' :: tl ∨ pfx = '$' :: tl) :
    ∃ tl, (if k = "length".toList then "(len $)".toList else pfx ++ ".".toList ++ k) = '(' :: tl ∨
      (if k = "length".toList then "(len $)".toList else pfx ++ ".".toList ++ k) = '$' :: tl := by
  split
  · exact ⟨_, Or.inl rfl⟩
  · obtain ⟨tl, e | e⟩ := hpfx
    · exact ⟨tl ++ ".".toList ++ k, Or.inl (by rw [e]; rfl)⟩
    · exact ⟨tl ++ ".".toList ++ k, Or.inr (by rw [e]; rfl)⟩

theorem loopKey_not_mem (ext : Char → Bool) {k : Str} (hk : isIdentifier ext k = true) {x : Char}
    (hx : isPunct x = true) (hx2 : x ∉ nameLiterals) (pfx : Str) (hpfx : ∀ c ∈ pfx, c ≠ x) :
    ∀ c ∈ (if k = "length".toList then "(len $)".toList else pfx ++ ".".toList ++ k), c ≠ x := by
  have hkx : ∀ c ∈ k, c ≠ x := by
    intro c hc h
    have := isIdentifier_not_punct ext hk hc
    rw [h, hx] at this
    exact absurd this (by simp)
  have hlit : ∀ w : Str, (∀ d ∈ w, d ∈ nameLiterals) → ∀ c ∈ w, c ≠ x :=
    fun w hw c hc h => hx2 (h ▸ hw c hc)
  split
  · exact hlit _ (by decide)
  · exact not_mem_append (not_mem_append hpfx (hlit _ (by decide))) hkx

theorem noNewlineHead_begin (k rest : Str) : noNewlineHead (beginMarker k ++ rest) :=
  noNewlineHead_cons '<' ("!-- BEGIN ".toList ++ k ++ " -->".toList ++ rest) (by decide)

/-- Claim C6: for two distinct identifier keys `a` and `b`, `Convert` turns the
nested blocks `<!-- BEGIN a --><!-- BEGIN b -->{@index}<!-- END b --><!-- END a -->`
into two nested `range` blocks: the outer one with the iterator `$i0`, the
inner one with the different iterator `$i0i0`, and the `@index` of the inner
block becomes the inner iterator `$i0i0`. -/
theorem C6_nested_blocks (ext : Char → Bool) (fuel : Nat) (a b : Str)
    (ha : isIdentifier ext a = true) (hb : isIdentifier ext b = true) (hab : a ≠ b) :
    Convert ext (fuel + 4)
        (beginMarker a ++ beginMarker b ++ "\x7b@index\x7d".toList ++ endMarker b ++ endMarker a) =
      .ret (rangeBlock "$i0".toList (Segment.apply "$".toList (.field a))
        (rangeBlock "$i0i0".toList
          (if b = "length".toList then "(len $)".toList
           else elemKey (Segment.apply "$".toList (.field a)) "$i0".toList ++ ".".toList ++ b)
          "\x7b\x7b$i0i0\x7d\x7d".toList), none) ∧
    "$i0".toList ≠ "$i0i0".toList := by
  refine ⟨?_, by decide⟩
  have hma := fun x hx hx2 => marker_not_mem ext ha (x := x) hx hx2
  have hmb := fun x hx hx2 => marker_not_mem ext hb (x := x) hx hx2
  have hac := isIdentifier_keyChars ext ha
  have hbc := isIdentifier_keyChars ext hb
  -- the keys of the two loops
  have hkA : ∀ x, isPunct x = true → x ∉ nameLiterals →
      ∀ c ∈ Segment.apply "$".toList (.field a), c ≠ x :=
    fun x hx hx2 => apply_field_not_mem ext ha hx hx2 _ (fun c hc e => hx2 (e ▸ (by
      have : ∀ d ∈ "$".toList, d ∈ nameLiterals := by decide
      exact this c hc)))
  have hkB0 := loopKey_identifier ext hb (elemKey (Segment.apply "$".toList (.field a)) "$i0".toList)
  have hkBhead := loopKey_head b (elemKey (Segment.apply "$".toList (.field a)) "$i0".toList)
    ⟨_, Or.inl rfl⟩
  have hkB : ∀ x, isPunct x = true → x ∉ nameLiterals → (∀ c ∈ "$i0".toList, c ≠ x) →
      ∀ c ∈ (if b = "length".toList then "(len $)".toList
        else elemKey (Segment.apply "$".toList (.field a)) "$i0".toList ++ ".".toList ++ b), c ≠ x :=
    fun x hx hx2 hx3 => loopKey_not_mem ext hb hx hx2 _
      (elemKey_not_mem hx2 _ _ (hkA x hx hx2) hx3)
  have hkAhead : ∃ tl, Segment.apply "$".toList (.field a) = '(' :: tl ∨
      Segment.apply "$".toList (.field a) = '$' :: tl := by
    simp only [Segment.apply]
    split
    · exact ⟨_, Or.inl rfl⟩
    · exact ⟨_, Or.inr rfl⟩
  -- the inner block
  have hinner : convertLoopsFrom ext (fuel + 3) 0
      (beginMarker b ++ "\x7b\x7b@index\x7d\x7d".toList ++ endMarker b)
      (elemKey (Segment.apply "$".toList (.field a)) "$i0".toList) "$i0".toList =
      .ret (rangeBlock "$i0i0".toList
          (if b = "length".toList then "(len $)".toList
           else elemKey (Segment.apply "$".toList (.field a)) "$i0".toList ++ ".".toList ++ b)
          "\x7b\x7b$i0i0\x7d\x7d".toList, none) := by
    have hs : substSpecials "$i0i0".toList "\x7b\x7b@index\x7d\x7d".toList =
        "\x7b\x7b$i0i0\x7d\x7d".toList := by decide
    rw [← hs]
    apply convertLoopsFrom_block ext fuel 0 b _ _ _ _ _ "\x7b\x7b@index\x7d\x7d".toList
      "\x7b\x7b@index\x7d\x7d".toList hb
      (noNewlineHead_cons '\x7b' _ (by decide))
      (noOcc_of_not_mem _ _ '<' _ rfl (by decide)) hkB0.symm (by decide)
    · rw [strReplace_key_id _ _ _ hkBhead (by decide) (by decide)]
      exact convertLoopsFrom_of_not_mem ext (fuel + 1) 0 _ _ _ (by decide)
    · exact wrapSpecials_fix (fuel + 1) _ (by decide)
    · rw [hs]
      exact rangeBlock_not_mem (by decide) _ _ _ (by decide)
        (hkB '<' (by decide) (by decide) (by decide)) (by decide)
  -- the outer block
  have hR1 : ∀ c ∈ rangeBlock "$i0i0".toList
      (if b = "length".toList then "(len $)".toList
       else elemKey (Segment.apply "$".toList (.field a)) "$i0".toList ++ ".".toList ++ b)
      "\x7b\x7b$i0i0\x7d\x7d".toList, c ≠ '@' :=
    rangeBlock_not_mem (by decide) _ _ _ (by decide)
      (hkB '@' (by decide) (by decide) (by decide)) (by decide)
  have hR2 : ∀ c ∈ rangeBlock "$i0i0".toList
      (if b = "length".toList then "(len $)".toList
       else elemKey (Segment.apply "$".toList (.field a)) "$i0".toList ++ ".".toList ++ b)
      "\x7b\x7b$i0i0\x7d\x7d".toList, c ≠ '<' :=
    rangeBlock_not_mem (by decide) _ _ _ (by decide)
      (hkB '<' (by decide) (by decide) (by decide)) (by decide)
  have hbodyA : ∀ x, isPunct x = true → x ∉ markerLiterals →
      (∀ c ∈ "\x7b\x7b@index\x7d\x7d".toList, c ≠ x) →
      ∀ c ∈ beginMarker b ++ "\x7b\x7b@index\x7d\x7d".toList ++ endMarker b, c ≠ x :=
    fun x hx hx2 hx3 => not_mem_append (not_mem_append (hmb x hx hx2).1 hx3) (hmb x hx hx2).2
  have houter : convertLoopsFrom ext (fuel + 4) 0
      (beginMarker a ++ (beginMarker b ++ "\x7b\x7b@index\x7d\x7d".toList ++ endMarker b)
        ++ endMarker a) "$".toList "$".toList =
      .ret (rangeBlock "$i0".toList (Segment.apply "$".toList (.field a))
        (rangeBlock "$i0i0".toList
          (if b = "length".toList then "(len $)".toList
           else elemKey (Segment.apply "$".toList (.field a)) "$i0".toList ++ ".".toList ++ b)
          "\x7b\x7b$i0i0\x7d\x7d".toList), none) := by
    have hs := substSpecials_of_not_mem "$i0".toList _ hR1
    rw [← hs]
    apply convertLoopsFrom_block ext (fuel + 1) 0 a _ _ _ _ _ _ _ ha
      (by rw [List.append_assoc, List.append_assoc]; exact noNewlineHead_begin b _)
      (noOcc_append (noOcc_append (noOcc_beginMarker ext a b hbc)
        (noOcc_of_not_mem _ _ '<' _ rfl (by decide))) (noOcc_endMarker ext hac hbc hab))
      (strReplace_same _ "$.".toList (by decide)).symm (by decide)
    · rw [strReplace_key_id _ _ _ hkAhead (hbodyA '(' (by decide) (by decide) (by decide))
        (hbodyA '$' (by decide) (by decide) (by decide))]
      exact hinner
    · exact wrapSpecials_of_not_mem (fuel + 2) _ hR1
    · rw [hs]
      exact rangeBlock_not_mem (by decide) _ _ _ (by decide)
        (hkA '<' (by decide) (by decide)) hR2
  -- the three passes
  have hV : convertVariables ext (fuel + 4)
      (beginMarker a ++ beginMarker b ++ "\x7b@index\x7d".toList ++ endMarker b ++ endMarker a) =
      .ret (beginMarker a ++ (beginMarker b ++ "\x7b\x7b@index\x7d\x7d".toList ++ endMarker b)
        ++ endMarker a, none) := by
    have h := convertVariables_key_in ext (fuel + 4) (beginMarker a ++ beginMarker b)
      (endMarker b ++ endMarker a) (isKey_special ext (p := "@index".toList) (by decide))
      (by decide) (convertName_special (by decide) _)
      (not_mem_append (hma _ (by decide) (by decide)).1 (hmb _ (by decide) (by decide)).1)
      (not_mem_append (hmb _ (by decide) (by decide)).2 (hma _ (by decide) (by decide)).2)
    have e0 : beginMarker a ++ beginMarker b ++ "\x7b@index\x7d".toList ++ endMarker b
        ++ endMarker a = (beginMarker a ++ beginMarker b) ++
          (('\x7b' :: ("@index".toList ++ ['\x7d'])) ++ (endMarker b ++ endMarker a)) := by
      simp only [List.append_assoc]
      rfl
    have e1 : beginMarker a ++ (beginMarker b ++ "\x7b\x7b@index\x7d\x7d".toList ++ endMarker b)
        ++ endMarker a = (beginMarker a ++ beginMarker b) ++
          (("\x7b\x7b".toList ++ "@index".toList ++ "\x7d\x7d".toList) ++
            (endMarker b ++ endMarker a)) := by
      simp only [List.append_assoc]
      rfl
    rw [e0, e1]
    exact h
  have hC : convertConditions ext (fuel + 4)
      (beginMarker a ++ (beginMarker b ++ "\x7b\x7b@index\x7d\x7d".toList ++ endMarker b)
        ++ endMarker a) =
      .ret (beginMarker a ++ (beginMarker b ++ "\x7b\x7b@index\x7d\x7d".toList ++ endMarker b)
        ++ endMarker a, none) :=
    convertConditions_of_onlyLoopMarkers ext _ _
      (onlyLoopMarkers_append (onlyLoopMarkers_append (onlyLoopMarkers_begin ext a hac)
        (onlyLoopMarkers_append (onlyLoopMarkers_append (onlyLoopMarkers_begin ext b hbc)
          (onlyLoopMarkers_of_not_mem _ (by decide))) (onlyLoopMarkers_end ext b hbc)))
        (onlyLoopMarkers_end ext a hac))
  exact parse_of_stages ext _ _ _ _ _ hV hC houter

/-- Claim C6 at the keys `a` and `b`. -/
theorem C6_nested_blocks_witness :
    isIdentifier asciiLetters "a".toList = true ∧ isIdentifier asciiLetters "b".toList = true ∧
    "a".toList ≠ "b".toList ∧
    Convert asciiLetters 4
      "<!-- BEGIN a --><!-- BEGIN b -->\x7b@index\x7d<!-- END b --><!-- END a -->".toList =
      .ret (("\x7b\x7brange $i0, $i0_v := $.a\x7d\x7d\x7b\x7brange $i0i0, $i0i0_v := (index $.a $i0).b\x7d\x7d"
        ++ "\x7b\x7b$i0i0\x7d\x7d\x7b\x7b- end\x7d\x7d\x7b\x7b- end\x7d\x7d").toList, none) :=
  ⟨by decide, by decide, by decide,
    (C6_nested_blocks asciiLetters 0 "a".toList "b".toList (by decide) (by decide) (by decide)).1⟩

/-! ## A loop over `items` -/

theorem identStart_ascii (ext : Char → Bool) {c : Char} (h : c.toNat < 128 ∧ c.isAlpha = true) :
    identStart ext c = true := by
  simp [identStart, isLetterLike, Char.isAlphanum, h.1, h.2]

/-- A word of ASCII letters is an identifier, whatever the table of the other
letters. -/
theorem isIdentifier_ascii (ext : Char → Bool) (c : Char) (cs : Str)
    (h : ∀ x ∈ c :: cs, x.toNat < 128 ∧ x.isAlpha = true) : isIdentifier ext (c :: cs) = true :=
  (isIdentifier_iff ext _).2 ⟨c, cs, rfl, identStart_ascii ext (h c (by simp)),
    fun x hx => identStart_imp_identRest ext (identStart_ascii ext (h x (by simp [hx])))⟩

/-- The digits belong to the class `[_\pL\pNl]`, in which the library reads
`\pN`: a key may begin with a digit, and a segment name may be a number. So
`{1}` is a reference, `{{1}}` is the unsupported double-brace form, and
`<!-- IF 1 -->` is a condition marker. -/
theorem identifier_digit :
    identStart asciiLetters '1' = true ∧ isIdentifier asciiLetters "1".toList = true ∧
    isIdentifier asciiLetters "2nd".toList = true ∧ isKey asciiLetters "a.0".toList = true ∧
    Convert asciiLetters 6 "\x7b1\x7d".toList = .ret ("\x7b\x7b$.1\x7d\x7d".toList, none) ∧
    Convert asciiLetters 6 "\x7b\x7b1\x7d\x7d".toList =
      .ret ([], some (.doubleBraced "\x7b\x7b1\x7d\x7d".toList)) ∧
    Convert asciiLetters 8 "<!-- IF 1 -->x<!-- ENDIF 1 -->".toList =
      .ret ("\x7b\x7bif $.1\x7d\x7dx\x7b\x7b- end\x7d\x7d".toList, none) ∧
    Convert asciiLetters 8 "\x7ba.0\x7d".toList = .ret ("\x7b\x7b$.a.0\x7d\x7d".toList, none) := by
  decide

theorem replaceKeys_two (fuel : Nat) (w1 p1 w2 p2 t E1 E2 : Str)
    (h1 : convertName fuel p1 = .ret E1) (h2 : convertName fuel p2 = .ret E2) :
    replaceKeys fuel [⟨w1, [(2, p1)]⟩, ⟨w2, [(2, p2)]⟩] t =
      .ret (strReplace (strReplace t w1 ("\x7b\x7b".toList ++ E1 ++ "\x7d\x7d".toList)) w2
        ("\x7b\x7b".toList ++ E2 ++ "\x7d\x7d".toList)) := by
  have g1 : (⟨w1, [(2, p1)]⟩ : Match).group 2 = p1 := rfl
  have g2 : (⟨w2, [(2, p2)]⟩ : Match).group 2 = p2 := rfl
  have g3 : (⟨w1, [(2, p1)]⟩ : Match).group 0 = w1 := rfl
  have g4 : (⟨w2, [(2, p2)]⟩ : Match).group 0 = w2 := rfl
  simp only [replaceKeys, g1, g2, g3, g4, h1, h2, Outcome.bind]

/-- The Variable Pass on the text of claim C5. -/
theorem convertVariables_items (ext : Char → Bool) (fuel : Nat) :
    convertVariables ext (fuel + 2)
        "<!-- BEGIN items -->\x7b@index\x7d: \x7bname\x7d<!-- END items -->".toList =
      .ret ("<!-- BEGIN items -->\x7b\x7b@index\x7d\x7d: \x7b\x7b$.name\x7d\x7d<!-- END items -->".toList,
        none) := by
  have hname : isKey ext "name".toList = true :=
    isKey_of_isIdentifier ext (isIdentifier_ascii ext 'n' "ame".toList (by decide))
  have hindex : isKey ext "@index".toList = true := isKey_special ext (by decide)
  have e : "<!-- BEGIN items -->\x7b@index\x7d: \x7bname\x7d<!-- END items -->".toList =
      "<!-- BEGIN items -->".toList ++ ('\x7b' :: ("@index\x7d: ".toList ++
        ('\x7b' :: "name\x7d<!-- END items -->".toList))) := by decide
  have e2 : "<!-- BEGIN items -->\x7b@index\x7d: \x7bname\x7d<!-- END items -->".toList =
      "<!-- BEGIN items -->".toList ++ (('\x7b' :: ("@index".toList ++ ['\x7d'])) ++
        (": ".toList ++ (('\x7b' :: ("name".toList ++ ['\x7d'])) ++ "<!-- END items -->".toList)))
      := by decide
  have h1 : findAll (rawKeyRegex ext)
      "<!-- BEGIN items -->\x7b@index\x7d: \x7bname\x7d<!-- END items -->".toList = [] := by
    unfold findAll
    rw [e, findAllFrom_skip (needsHead_rawKey ext) _ _ (by decide) true,
      findAllFrom_block (needsHead_rawKey ext) _ _ _ (by decide)
        (matchAt_lit_none _ _ _ _ (by decide)),
      findAllFrom_block_last (needsHead_rawKey ext) _ _ (by decide)
        (matchAt_lit_none _ _ _ _ (by decide))]
  have h2 : findAll (functionRegex ext)
      "<!-- BEGIN items -->\x7b@index\x7d: \x7bname\x7d<!-- END items -->".toList = [] := by
    unfold findAll
    rw [e, findAllFrom_skip (needsHead_function ext) _ _ (by decide) true,
      findAllFrom_block (needsHead_function ext) _ _ _ (by decide)
        (matchAt_lit_none _ _ _ _ (by decide)),
      findAllFrom_block_last (needsHead_function ext) _ _ (by decide)
        (matchAt_lit_none _ _ _ _ (by decide))]
  have h3 : findAll (escapedKeyRegex ext)
      "<!-- BEGIN items -->\x7b@index\x7d: \x7bname\x7d<!-- END items -->".toList =
      [⟨'\x7b' :: ("@index".toList ++ ['\x7d']), [(2, "@index".toList)]⟩,
        ⟨'\x7b' :: ("name".toList ++ ['\x7d']), [(2, "name".toList)]⟩] := by
    unfold findAll
    rw [e2, findAllFrom_skip (needsHead_escapedKey ext) _ _ (by decide) true,
      findAllFrom_match (escapedKey_matchAt ext hindex _ _) rfl (by simp),
      findAllFrom_skip (needsHead_escapedKey ext) _ _ (by decide) false,
      findAllFrom_match (escapedKey_matchAt ext hname _ _) rfl (by simp),
      findAllFrom_nil_of_not_mem (needsHead_escapedKey ext) _ (by decide) false]
  unfold convertVariables
  rw [h1, h2]
  simp only [List.take_nil, replaceFunctions, Outcome.bind, h3]
  have hn : convertName (fuel + 2) "name".toList = .ret "$.name".toList :=
    convertName_identifier ext (isIdentifier_ascii ext 'n' "ame".toList (by decide)) fuel
  rw [replaceKeys_two (fuel + 2) _ "@index".toList _ "name".toList _ _ _
    (convertName_special (by decide) _) hn]
  have hs : strReplace (strReplace
      "<!-- BEGIN items -->\x7b@index\x7d: \x7bname\x7d<!-- END items -->".toList
      ('\x7b' :: ("@index".toList ++ ['\x7d']))
      ("\x7b\x7b".toList ++ "@index".toList ++ "\x7d\x7d".toList))
      ('\x7b' :: ("name".toList ++ ['\x7d']))
      ("\x7b\x7b".toList ++ "$.name".toList ++ "\x7d\x7d".toList) =
      "<!-- BEGIN items -->\x7b\x7b@index\x7d\x7d: \x7b\x7b$.name\x7d\x7d<!-- END items -->".toList
      := by decide
  rw [hs]

/-- Claim C5 as amended: `Convert` turns
`<!-- BEGIN items -->{@index}: {name}<!-- END items -->` into the single `range`
block over `$.items` with the iterator `$i0`, closed by an end marker; in its
body `@index` has become `$i0`, and `{name}`, which is not written with the
key of the loop, stays the reference `$.name` to the root. -/
theorem C5_items_loop (ext : Char → Bool) (fuel : Nat) :
    Convert ext (fuel + 3)
        "<!-- BEGIN items -->\x7b@index\x7d: \x7bname\x7d<!-- END items -->".toList =
      .ret (("\x7b\x7brange $i0, $i0_v := $.items\x7d\x7d" ++
        "\x7b\x7b$i0\x7d\x7d: \x7b\x7b$.name\x7d\x7d\x7b\x7b- end\x7d\x7d").toList, none) := by
  have hitems : isIdentifier ext "items".toList = true :=
    isIdentifier_ascii ext 'i' "tems".toList (by decide)
  have hic := isIdentifier_keyChars ext hitems
  have hV := convertVariables_items ext (fuel + 1)
  have e1 : "<!-- BEGIN items -->\x7b\x7b@index\x7d\x7d: \x7b\x7b$.name\x7d\x7d<!-- END items -->".toList
      = beginMarker "items".toList ++ "\x7b\x7b@index\x7d\x7d: \x7b\x7b$.name\x7d\x7d".toList ++
        endMarker "items".toList := by decide
  rw [e1] at hV
  have hC := convertConditions_of_onlyLoopMarkers ext (fuel + 3)
    (beginMarker "items".toList ++ "\x7b\x7b@index\x7d\x7d: \x7b\x7b$.name\x7d\x7d".toList ++
        endMarker "items".toList)
    (onlyLoopMarkers_append (onlyLoopMarkers_append (onlyLoopMarkers_begin ext _ hic)
      (onlyLoopMarkers_of_not_mem _ (by decide))) (onlyLoopMarkers_end ext _ hic))
  have hs : strReplace "\x7b\x7b@index\x7d\x7d: \x7b\x7b$.name\x7d\x7d".toList
      ("$.items".toList ++ ".".toList)
      (elemKey "$.items".toList "$i0".toList ++ ".".toList) =
      "\x7b\x7b@index\x7d\x7d: \x7b\x7b$.name\x7d\x7d".toList := by decide
  have ho : rangeBlock "$i0".toList "$.items".toList
      (substSpecials "$i0".toList "\x7b\x7b@index\x7d\x7d: \x7b\x7b$.name\x7d\x7d".toList) =
      ("\x7b\x7brange $i0, $i0_v := $.items\x7d\x7d" ++
        "\x7b\x7b$i0\x7d\x7d: \x7b\x7b$.name\x7d\x7d\x7b\x7b- end\x7d\x7d").toList := by decide
  have hL : convertLoops ext (fuel + 3)
      (beginMarker "items".toList ++ "\x7b\x7b@index\x7d\x7d: \x7b\x7b$.name\x7d\x7d".toList ++
        endMarker "items".toList) "$".toList "$".toList =
      .ret (("\x7b\x7brange $i0, $i0_v := $.items\x7d\x7d" ++
        "\x7b\x7b$i0\x7d\x7d: \x7b\x7b$.name\x7d\x7d\x7b\x7b- end\x7d\x7d").toList, none) := by
    unfold convertLoops
    rw [← ho]
    apply convertLoopsFrom_block ext fuel 0 "items".toList _ _ _ _ _
      "\x7b\x7b@index\x7d\x7d: \x7b\x7b$.name\x7d\x7d".toList
      "\x7b\x7b@index\x7d\x7d: \x7b\x7b$.name\x7d\x7d".toList hitems
      (noNewlineHead_cons '\x7b' _ (by decide))
      (noOcc_of_not_mem _ _ '<' _ rfl (by decide)) (by decide) (by decide)
    · rw [hs]
      exact convertLoopsFrom_of_not_mem ext (fuel + 1) 0 _ _ _ (by decide)
    · exact wrapSpecials_fix (fuel + 1) _ (by decide)
    · rw [ho]
      decide
  exact parse_of_stages ext _ _ _ _ _ hV hC hL

/-- Claim C5 as stated fails: in the result for
`<!-- BEGIN items -->{@index}: {name}<!-- END items -->` the element
`(index $.items I)` occurs nowhere, whatever the name `I`; `name` is
referenced as `$.name`. -/
theorem C5_name_not_per_element :
    Convert asciiLetters 6
        "<!-- BEGIN items -->\x7b@index\x7d: \x7bname\x7d<!-- END items -->".toList =
      .ret (("\x7b\x7brange $i0, $i0_v := $.items\x7d\x7d" ++
        "\x7b\x7b$i0\x7d\x7d: \x7b\x7b$.name\x7d\x7d\x7b\x7b- end\x7d\x7d").toList, none) ∧
    ¬ ∃ I pre post : Str, ("\x7b\x7brange $i0, $i0_v := $.items\x7d\x7d" ++
        "\x7b\x7b$i0\x7d\x7d: \x7b\x7b$.name\x7d\x7d\x7b\x7b- end\x7d\x7d").toList =
      pre ++ "(index $.items ".toList ++ I ++ ").name".toList ++ post := by
  refine ⟨by decide, ?_⟩
  rintro ⟨I, pre, post, e⟩
  have h1 : '(' ∈ pre ++ "(index $.items ".toList ++ I ++ ").name".toList ++ post := by simp
  rw [← e] at h1
  revert h1
  decide

/-! ## A `BEGIN` marker without `END` marker -/

/-- A match of the pattern of the loop over `k` holds the `END` marker of `k`
behind the `BEGIN` marker. -/
theorem mem_run_loopRegex {k : Str} {st st2 : MState} (h : st2 ∈ (loopRegex k).run st) :
    ∃ mid, st.rest = beginMarker k ++ mid ++ endMarker k ++ st2.rest := by
  simp only [loopRegex, Re.cat] at h
  obtain ⟨s1, h1, g1⟩ := mem_run_seq.1 h
  obtain ⟨s2, h2, g2⟩ := mem_run_seq.1 g1
  obtain ⟨s3, h3, g3⟩ := mem_run_seq.1 g2
  obtain ⟨s4, h4, g4⟩ := mem_run_seq.1 g3
  obtain ⟨s5, h5, g5⟩ := mem_run_seq.1 g4
  obtain ⟨s6, h6, g6⟩ := mem_run_seq.1 g5
  obtain ⟨s7, h7, g7⟩ := mem_run_seq.1 g6
  obtain ⟨s8, h8, g8⟩ := mem_run_seq.1 g7
  simp only [run_eps, List.mem_singleton] at g8
  obtain ⟨e1, _⟩ := mem_run_lit h1
  obtain ⟨t2, ht2, w2, e2, q2⟩ := mem_run_grp_text h2
  obtain ⟨e2b, _⟩ := mem_run_lit ht2
  obtain ⟨e3, _⟩ := mem_run_lit h3
  obtain ⟨w4, e4⟩ := Re.run_suffix _ h4
  obtain ⟨w5, e5⟩ := Re.run_suffix _ h5
  obtain ⟨e6, _⟩ := mem_run_lit h6
  obtain ⟨e7, _⟩ := mem_run_lit h7
  obtain ⟨e8, _⟩ := mem_run_lit h8
  have r2 : s2.rest = t2.rest := by rw [q2]
  refine ⟨w4 ++ w5, ?_⟩
  rw [e1, e2b, ← r2, e3, e4, e5, e6, e7, e8, g8]
  simp only [beginMarker, endMarker, List.append_assoc]

theorem findFirst_loopRegex_none (ext : Char → Bool) {k : Str} (hk : isKey ext k = true)
    (pre post : Str) (hpre : ∀ c ∈ pre, c ≠ '<') (hpost : ∀ c ∈ post, c ≠ '<') :
    findFirst (loopRegex k) (pre ++ beginMarker k ++ post) = none := by
  have hm : ∀ b, matchAt (loopRegex k) b (beginMarker k ++ post) = none := by
    intro b
    apply matchAt_none_of_run
    apply List.eq_nil_iff_forall_not_mem.2
    intro st hst
    obtain ⟨mid, e⟩ := mem_run_loopRegex hst
    have e2 : beginMarker k ++ post = beginMarker k ++ (mid ++ endMarker k ++ st.rest) := by
      simp only [List.append_assoc] at e ⊢
      exact e
    have e3 := List.append_cancel_left e2
    exact hpost '<' (by rw [e3]; simp [endMarker]) rfl
  have e0 : beginMarker k ++ post = '<' :: ("!-- BEGIN ".toList ++ k ++ " -->".toList ++ post) := by
    simp only [beginMarker, List.append_assoc]
    rfl
  have hb := findAllFrom_block_last (needsHead_loopRegex k)
    ("!-- BEGIN ".toList ++ k ++ " -->".toList ++ post) (true && pre.isEmpty)
    (not_mem_append (marker_tail_not_mem ext _ k (by decide) (isKey_chars ext hk)) hpost)
    (by rw [← e0]; exact hm _)
  rw [← e0] at hb
  unfold findFirst findAll
  rw [List.append_assoc, findAllFrom_skip (needsHead_loopRegex k) pre _ hpre true, hb]
  rfl

/-- Claim C7, what the code does: on a text with one `BEGIN` marker and no
other `<`, so that no `END` marker follows, `Convert` panics for every iteration
bound: `FindStringSubmatch` returns `nil` and `loop[0]` is out of range. It
returns neither an error value nor a text. -/
theorem C7_unmatched_begin_panics (ext : Char → Bool) (fuel : Nat) (k pre post : Str)
    (hk : isKey ext k = true) (hpre : ∀ c ∈ pre, c ≠ '<' ∧ c ≠ '\x7b')
    (hpost : ∀ c ∈ post, c ≠ '<' ∧ c ≠ '\x7b') :
    Convert ext (fuel + 1) (pre ++ beginMarker k ++ post) = .panic := by
  have hkc := isKey_chars ext hk
  have hB : ∀ c ∈ beginMarker k, c ≠ '\x7b' := by
    unfold beginMarker
    exact not_mem_append (not_mem_append (by decide) (keyChar_not_delim ext hkc (by decide)))
      (by decide)
  have hV := convertVariables_of_not_mem ext (fuel + 1) (pre ++ beginMarker k ++ post)
    (not_mem_append (not_mem_append (fun c hc => (hpre c hc).2) hB) (fun c hc => (hpost c hc).2))
  have hC := convertConditions_of_onlyLoopMarkers ext (fuel + 1) (pre ++ beginMarker k ++ post)
    (onlyLoopMarkers_append (onlyLoopMarkers_append
      (onlyLoopMarkers_of_not_mem _ (fun c hc => (hpre c hc).1)) (onlyLoopMarkers_begin ext k hkc))
      (onlyLoopMarkers_of_not_mem _ (fun c hc => (hpost c hc).1)))
  have h1 : findFirst (loopFindRegex ext) (pre ++ beginMarker k ++ post) =
      some ⟨beginMarker k, [(1, k)]⟩ := by
    unfold findFirst findAll
    rw [List.append_assoc, findAllFrom_skip (needsHead_loopFind ext) pre _
      (fun c hc => (hpre c hc).1) true,
      findAllFrom_match (loopFind_matchAt ext hk post _) rfl (by simp [beginMarker])]
    rfl
  have g1 : (⟨beginMarker k, [(1, k)]⟩ : Match).group 1 = k := rfl
  have hL : convertLoops ext (fuel + 1) (pre ++ beginMarker k ++ post) "$".toList "$".toList =
      .panic := by
    unfold convertLoops
    rw [convertLoopsFrom, h1]
    simp only [g1, findFirst_loopRegex_none ext hk pre post (fun c hc => (hpre c hc).1)
      (fun c hc => (hpost c hc).1)]
  simp only [Convert, parse, andThen, Outcome.bind, hV, hC, hL]

/-- Claim C7 at the texts `<!-- BEGIN a -->` and `Hi <!-- BEGIN a.b --> there`. -/
theorem C7_unmatched_begin_panics_witness :
    isKey asciiLetters "a".toList = true ∧ isKey asciiLetters "a.b".toList = true ∧
    Convert asciiLetters 6 "<!-- BEGIN a -->".toList = .panic ∧
    Convert asciiLetters 1 "Hi <!-- BEGIN a.b --> there".toList = .panic :=
  ⟨by decide, by decide,
    C7_unmatched_begin_panics asciiLetters 5 "a".toList [] [] (by decide) (by simp) (by simp),
    C7_unmatched_begin_panics asciiLetters 0 "a.b".toList "Hi ".toList " there".toList (by decide)
      (by decide) (by decide)⟩

/-! ## The record of the iterator names -/

theorem loopStepTrace_fst
    (recurT : Nat → Str → Str → Str → Outcome ((Str × Option ConvError) × List Str))
    (recur : Nat → Str → Str → Str → Outcome (Str × Option ConvError))
    (h : ∀ j t p it, (recurT j t p it).map Prod.fst = recur j t p it)
    (fuel i : Nat) (template pfx iterator : Str) (loop : Match) :
    (loopStepTrace recurT fuel i template pfx iterator loop).map Prod.fst =
      loopStep recur fuel i template pfx iterator loop := by
  unfold loopStepTrace loopStep
  cases convertName fuel (loop.group 1) with
  | panic => rfl
  | fuelOut => rfl
  | ret name =>
    simp only [Outcome.bind]
    rw [← h 0]
    cases recurT 0 _ _ _ with
    | panic => rfl
    | fuelOut => rfl
    | ret r =>
      obtain ⟨⟨body1, err⟩, inner⟩ := r
      cases err with
      | some e => rfl
      | none =>
        simp only [Outcome.map]
        cases wrapSpecials fuel body1 with
        | panic => rfl
        | fuelOut => rfl
        | ret body2 =>
          simp only
          rw [← h (i + 1)]
          cases recurT (i + 1) _ _ _ with
          | panic => rfl
          | fuelOut => rfl
          | ret r2 => rfl

/-- Dropping the record of `convertLoopsTrace` gives `convertLoops`. -/
theorem convertLoopsTrace_fst (ext : Char → Bool) (fuel i : Nat) (template pfx iterator : Str) :
    (convertLoopsTrace ext fuel i template pfx iterator).map Prod.fst =
      convertLoopsFrom ext fuel i template pfx iterator := by
  induction fuel generalizing i template pfx iterator with
  | zero => rfl
  | succ fuel ih =>
    rw [convertLoopsTrace, convertLoopsFrom]
    cases findFirst (loopFindRegex ext) template with
    | none => rfl
    | some found =>
      simp only
      cases findFirst (loopRegex (found.group 1)) template with
      | none => rfl
      | some loop =>
        simp only
        exact loopStepTrace_fst _ _ (fun j t p it => ih j t p it) fuel i template pfx iterator loop

theorem findFirst_loopFind_first (ext : Char → Bool) (pre k rest : Str) (hk : isKey ext k = true)
    (hpre : NoOcc "<!-- BEGIN ".toList pre) :
    findFirst (loopFindRegex ext) (pre ++ (beginMarker k ++ rest)) =
      some ⟨beginMarker k, [(1, k)]⟩ := by
  unfold findFirst findAll
  have e := findAllFrom_skip_noOcc "<!-- BEGIN ".toList
    (Re.cat [.grp 1 (keyRegex ext), Re.lit " -->".toList]) pre (beginMarker k ++ rest) hpre true
  have e2 : findAllFrom (loopFindRegex ext) true 0 (pre ++ (beginMarker k ++ rest)) =
      findAllFrom (loopFindRegex ext) (true && pre.isEmpty) 0 (beginMarker k ++ rest) := e
  rw [e2, findAllFrom_match (loopFind_matchAt ext hk rest _) rfl (by simp [beginMarker])]
  rfl

theorem findFirst_loopRegex_first (pre k nl body post : Str)
    (hpre : NoOcc "<!-- BEGIN ".toList pre)
    (hnl : ∀ c ∈ nl, (c == '\r' || c == '\n') = true)
    (hbody : noNewlineHead (body ++ (endMarker k ++ post))) (hno : NoOcc (endMarker k) body) :
    findFirst (loopRegex k) (pre ++ ((beginMarker k ++ nl ++ body ++ endMarker k) ++ post)) =
      some ⟨beginMarker k ++ nl ++ body ++ endMarker k, [(2, body), (1, k)]⟩ := by
  unfold findFirst findAll
  have e := findAllFrom_skip_noOcc "<!-- BEGIN ".toList
    (Re.cat [.grp 1 (Re.lit k), Re.lit " -->".toList, newlinesRegex,
      .grp 2 (.star false (.cls (fun _ => true))), Re.lit "<!-- END ".toList, Re.lit k,
      Re.lit " -->".toList]) pre
    ((beginMarker k ++ nl ++ body ++ endMarker k) ++ post) hpre true
  have e2 : findAllFrom (loopRegex k) true 0
      (pre ++ ((beginMarker k ++ nl ++ body ++ endMarker k) ++ post)) =
      findAllFrom (loopRegex k) (true && pre.isEmpty) 0
        ((beginMarker k ++ nl ++ body ++ endMarker k) ++ post) := e
  rw [e2, findAllFrom_match (loopRegex_matchAt k nl body post _ hnl hbody hno) rfl
    (by simp [beginMarker])]
  rfl

/-- The recording Loop Pass at the first `BEGIN` marker of the text. -/
theorem convertLoopsTrace_first (ext : Char → Bool) (fuel i : Nat)
    (pre k nl body post pfx iterator : Str) (hk : isKey ext k = true)
    (hpre : NoOcc "<!-- BEGIN ".toList pre)
    (hnl : ∀ c ∈ nl, (c == '\r' || c == '\n') = true)
    (hbody : noNewlineHead (body ++ (endMarker k ++ post))) (hno : NoOcc (endMarker k) body) :
    convertLoopsTrace ext (fuel + 1) i (pre ++ ((beginMarker k ++ nl ++ body ++ endMarker k) ++ post))
        pfx iterator =
      loopStepTrace (fun j t p it => convertLoopsTrace ext fuel j t p it) fuel i
        (pre ++ ((beginMarker k ++ nl ++ body ++ endMarker k) ++ post)) pfx iterator
        ⟨beginMarker k ++ nl ++ body ++ endMarker k, [(2, body), (1, k)]⟩ := by
  have h1 := findFirst_loopFind_first ext pre k (nl ++ body ++ endMarker k ++ post) hk hpre
  have e3 : beginMarker k ++ (nl ++ body ++ endMarker k ++ post) =
      (beginMarker k ++ nl ++ body ++ endMarker k) ++ post := by
    simp only [List.append_assoc]
  rw [e3] at h1
  have h2 := findFirst_loopRegex_first pre k nl body post hpre hnl hbody hno
  have g1 : (⟨beginMarker k, [(1, k)]⟩ : Match).group 1 = k := rfl
  rw [convertLoopsTrace, h1]
  simp only [g1, h2]

/-- One round of the recording loop, once the results of its calls are known. -/
theorem loopStepTrace_eval
    (recur : Nat → Str → Str → Str → Outcome ((Str × Option ConvError) × List Str))
    (fuel i : Nat) (template pfx iterator w body k name key it body1 body2 : Str)
    (inner later : List Str) (r : Str × Option ConvError)
    (hname : convertName fuel k = .ret name)
    (hkey : key = strReplace name "$.".toList (pfx ++ ".".toList))
    (hit : it = iterator ++ "i".toList ++ itoa i)
    (hrec : recur 0 (strReplace body (key ++ ".".toList) (elemKey key it ++ ".".toList))
      (elemKey key it) it = .ret ((body1, none), inner))
    (hwrap : wrapSpecials fuel body1 = .ret body2)
    (hnext : recur (i + 1) (strReplace template w (rangeBlock it key (substSpecials it body2)))
      pfx iterator = .ret (r, later)) :
    loopStepTrace recur fuel i template pfx iterator ⟨w, [(2, body), (1, k)]⟩ =
      .ret (r, it :: (inner ++ later)) := by
  have g1 : (⟨w, [(2, body), (1, k)]⟩ : Match).group 1 = k := rfl
  have g2 : (⟨w, [(2, body), (1, k)]⟩ : Match).group 2 = body := rfl
  have g0 : (⟨w, [(2, body), (1, k)]⟩ : Match).group 0 = w := rfl
  subst hkey hit
  simp only [elemKey] at hrec
  simp only [rangeBlock, substSpecials] at hnext
  simp only [loopStepTrace, g1, g2, g0, hname, Outcome.bind, hrec, hwrap, hnext]

/-! ## Replacement and plain text -/

theorem isPrefixOf_append_cons_eq (w p r : Str) (x : Char) (hx : x ∉ w) :
    w.isPrefixOf (p ++ x :: r) = w.isPrefixOf p := by
  cases h : w.isPrefixOf p with
  | true =>
    rw [List.isPrefixOf_iff_prefix] at h ⊢
    exact h.trans (List.prefix_append p _)
  | false =>
    cases h2 : w.isPrefixOf (p ++ x :: r) with
    | false => rfl
    | true =>
      have := isPrefixOf_append_cons w p r x hx h2
      rw [h] at this
      exact absurd this (by simp)

theorem strReplaceFrom_nil (old new : Str) (k : Nat) : strReplaceFrom old new k [] = [] := by
  cases k <;> rfl

/-- A replacement does not reach across a character that `old` does not hold. -/
theorem strReplaceFrom_boundary (old new : Str) (x : Char) (hx : x ∉ old) (hne : old ≠ [])
    (r : Str) : ∀ (t : Str) (k : Nat), k ≤ t.length →
      strReplaceFrom old new k (t ++ x :: r) =
        strReplaceFrom old new k t ++ x :: strReplaceFrom old new 0 r := by
  intro t
  induction t with
  | nil =>
    intro k hk
    have hk0 : k = 0 := by simpa using hk
    subst hk0
    have h0 : old.isPrefixOf (x :: r) = false := by
      cases old with
      | nil => exact absurd rfl hne
      | cons o os =>
        have : (o == x) = false := by
          simp only [beq_eq_false_iff_ne, ne_eq]
          intro e
          exact hx (by simp [e])
        simp [List.isPrefixOf_cons₂, this]
    rw [List.nil_append, strReplaceFrom_zero, h0]
    rfl
  | cons c cs ih =>
    intro k hk
    cases k with
    | succ k =>
      rw [List.cons_append, strReplaceFrom_succ, strReplaceFrom_succ]
      exact ih k (by simpa using hk)
    | zero =>
      rw [List.cons_append, strReplaceFrom_zero, strReplaceFrom_zero]
      have e := isPrefixOf_append_cons_eq old (c :: cs) r x hx
      rw [List.cons_append] at e
      rw [e]
      by_cases h : old.isPrefixOf (c :: cs) = true
      · have hlen : old.length - 1 ≤ cs.length := by
          rw [List.isPrefixOf_iff_prefix] at h
          have := h.length_le
          simp only [List.length_cons] at this
          omega
        rw [if_pos h, if_pos h, ih _ hlen, List.append_assoc]
      · rw [if_neg h, if_neg h, ih 0 (Nat.zero_le _)]
        rfl

theorem isPrefixOf_strReplaceFrom (old new : Str) (n0 : Char) (ntl : Str) (hnew : new = n0 :: ntl) :
    ∀ (w s tail : Str), n0 ∉ w → w.isPrefixOf (strReplaceFrom old new 0 s ++ tail) = true →
      ∃ tail2, w.isPrefixOf (s ++ tail2) = true := by
  intro w
  induction w with
  | nil => intro s tail _ _; exact ⟨[], by simp⟩
  | cons a w ih =>
    intro s tail hn0 h
    cases s with
    | nil => exact ⟨tail, by simpa [strReplaceFrom_nil] using h⟩
    | cons d ds =>
      rw [strReplaceFrom_zero] at h
      by_cases hp : old.isPrefixOf (d :: ds) = true
      · rw [if_pos hp, hnew] at h
        simp only [List.cons_append, List.isPrefixOf_cons₂, Bool.and_eq_true, beq_iff_eq] at h
        exact absurd (by simp [h.1]) hn0
      · rw [if_neg hp] at h
        simp only [List.cons_append, List.isPrefixOf_cons₂, Bool.and_eq_true, beq_iff_eq] at h
        obtain ⟨tail2, h2⟩ := ih ds tail (fun hm => hn0 (List.mem_cons_of_mem a hm)) h.2
        refine ⟨tail2, ?_⟩
        simp only [List.cons_append, List.isPrefixOf_cons₂, Bool.and_eq_true, beq_iff_eq]
        exact ⟨h.1, h2⟩

/-- A replacement by a text that cannot stand in `pat` creates no occurrence of
`pat`. -/
theorem noOcc_strReplaceFrom (pat old new : Str) (p0 n0 : Char) (ptl ntl : Str)
    (hp : pat = p0 :: ptl) (hnew : new = n0 :: ntl) (hn0 : n0 ∉ ptl) (hnp : ∀ c ∈ new, c ≠ p0) :
    ∀ (s : Str) (k : Nat), NoOcc pat s → NoOcc pat (strReplaceFrom old new k s) := by
  intro s
  induction s with
  | nil =>
    intro k _
    rw [strReplaceFrom_nil]
    exact noOcc_nil pat
  | cons c cs ih =>
    intro k h
    cases k with
    | succ k =>
      rw [strReplaceFrom_succ]
      exact ih k (noOcc_tail h)
    | zero =>
      rw [strReplaceFrom_zero]
      by_cases hpre : old.isPrefixOf (c :: cs) = true
      · rw [if_pos hpre]
        exact noOcc_append (noOcc_of_not_mem pat new p0 ptl hp hnp) (ih _ (noOcc_tail h))
      · rw [if_neg hpre]
        intro x y tail e hy
        cases x with
        | nil =>
          simp only [List.nil_append] at e
          rw [← e]
          cases hq : pat.isPrefixOf (c :: strReplaceFrom old new 0 cs ++ tail) with
          | false => rfl
          | true =>
            rw [hp] at hq
            simp only [List.cons_append, List.isPrefixOf_cons₂, Bool.and_eq_true, beq_iff_eq] at hq
            obtain ⟨tail2, h2⟩ := isPrefixOf_strReplaceFrom old new n0 ntl hnew ptl cs tail hn0 hq.2
            have h3 := h [] (c :: cs) tail2 rfl (by simp)
            rw [hp] at h3
            simp [List.isPrefixOf_cons₂, hq.1, h2] at h3
        | cons x0 xs =>
          simp only [List.cons_append, List.cons.injEq] at e
          exact ih 0 (noOcc_tail h) xs y tail e.2 hy

theorem mem_strReplaceFrom (old new : Str) :
    ∀ (s : Str) (k : Nat) (c : Char), c ∈ strReplaceFrom old new k s → c ∈ s ∨ c ∈ new := by
  intro s
  induction s with
  | nil => intro k c h; rw [strReplaceFrom_nil] at h; simp at h
  | cons d ds ih =>
    intro k c h
    cases k with
    | succ k =>
      rw [strReplaceFrom_succ] at h
      rcases ih k c h with h | h
      · exact Or.inl (List.mem_cons_of_mem d h)
      · exact Or.inr h
    | zero =>
      rw [strReplaceFrom_zero] at h
      by_cases hp : old.isPrefixOf (d :: ds) = true
      · rw [if_pos hp] at h
        rcases List.mem_append.1 h with h | h
        · exact Or.inr h
        · rcases ih _ c h with h | h
          · exact Or.inl (List.mem_cons_of_mem d h)
          · exact Or.inr h
      · rw [if_neg hp] at h
        rcases List.mem_cons.1 h with h | h
        · exact Or.inl (by simp [h])
        · rcases ih _ c h with h | h
          · exact Or.inl (List.mem_cons_of_mem d h)
          · exact Or.inr h

/-! ## Special tokens inside braces -/

theorem atOpen_cons (o : Bool) (c : Char) (cs : Str) :
    atOpen o (c :: cs) = ((c != '@' || o) &&
      atOpen (if c = '\x7b' then true else if c = '\x7d' then false else o) cs) := rfl

theorem atOpen_mono : ∀ (s : Str) (o : Bool), atOpen false s = true → atOpen o s = true := by
  intro s
  induction s with
  | nil => intro o _; rfl
  | cons c cs ih =>
    intro o h
    cases o with
    | false => exact h
    | true =>
      rw [atOpen_cons] at h ⊢
      simp only [Bool.and_eq_true, Bool.or_false, Bool.or_true, true_and] at h ⊢
      by_cases h1 : c = '\x7b'
      · simpa [h1] using h.2
      · by_cases h2 : c = '\x7d'
        · simpa [h1, h2] using h.2
        · simp only [h1, h2, if_false] at h ⊢
          exact ih true h.2

theorem atOpen_append : ∀ (a b : Str) (o : Bool), atOpen o a = true → atOpen false b = true →
    atOpen o (a ++ b) = true := by
  intro a
  induction a with
  | nil => intro b o _ hb; exact atOpen_mono b o hb
  | cons c cs ih =>
    intro b o ha hb
    rw [List.cons_append, atOpen_cons]
    rw [atOpen_cons] at ha
    simp only [Bool.and_eq_true] at ha ⊢
    exact ⟨ha.1, ih b _ ha.2 hb⟩

theorem atOpen_of_not_mem : ∀ (s : Str) (o : Bool), (∀ c ∈ s, c ≠ '@') → atOpen o s = true := by
  intro s
  induction s with
  | nil => intro o _; rfl
  | cons c cs ih =>
    intro o h
    rw [atOpen_cons]
    simp only [Bool.and_eq_true, Bool.or_eq_true, bne_iff_ne, ne_eq]
    exact ⟨Or.inl (h c (by simp)), ih _ (fun x hx => h x (List.mem_cons_of_mem c hx))⟩

/-- A stretch without `@` and without braces does not change whether what
follows it is inside braces. -/
theorem atOpen_plain_append : ∀ (w s : Str) (o : Bool),
    (∀ c ∈ w, c ≠ '@' ∧ c ≠ '\x7b' ∧ c ≠ '\x7d') → atOpen o (w ++ s) = atOpen o s := by
  intro w
  induction w with
  | nil => intro s o _; rfl
  | cons c cs ih =>
    intro s o h
    obtain ⟨h1, h2, h3⟩ := h c (by simp)
    rw [List.cons_append, atOpen_cons, ih s _ (fun x hx => h x (List.mem_cons_of_mem c hx))]
    simp [h1, h2, h3]

theorem atOpen_tail {o : Bool} {c : Char} {cs : Str} (hc : c ≠ '\x7b' ∧ c ≠ '\x7d')
    (h : atOpen o (c :: cs) = true) : atOpen o cs = true := by
  rw [atOpen_cons] at h
  simp only [Bool.and_eq_true] at h
  simpa [hc.1, hc.2] using h.2

/-- Replacing a text without braces by a text without braces and `@` leaves
every `@` inside braces. -/
theorem atOpen_strReplaceFrom (old new : Str) (hne : old ≠ [])
    (ho : ∀ c ∈ old, c ≠ '\x7b' ∧ c ≠ '\x7d')
    (hn : ∀ c ∈ new, c ≠ '@' ∧ c ≠ '\x7b' ∧ c ≠ '\x7d') :
    ∀ (s : Str) (k : Nat) (o : Bool), (∀ c ∈ s.take k, c ≠ '\x7b' ∧ c ≠ '\x7d') →
      atOpen o s = true → atOpen o (strReplaceFrom old new k s) = true := by
  intro s
  induction s with
  | nil => intro k o _ _; rw [strReplaceFrom_nil]; rfl
  | cons c cs ih =>
    intro k o hk h
    cases k with
    | succ k =>
      rw [strReplaceFrom_succ]
      have hc := hk c (by simp)
      exact ih k o (fun x hx => hk x (by simp [hx])) (atOpen_tail hc h)
    | zero =>
      rw [strReplaceFrom_zero]
      by_cases hp : old.isPrefixOf (c :: cs) = true
      · rw [if_pos hp, atOpen_plain_append new _ o hn]
        rw [List.isPrefixOf_iff_prefix] at hp
        obtain ⟨r, e⟩ := hp
        cases old with
        | nil => exact absurd rfl hne
        | cons x xs =>
          simp only [List.cons_append, List.cons.injEq] at e
          obtain ⟨e1, e2⟩ := e
          subst e1
          have hc := ho x (by simp)
          refine ih _ o ?_ (atOpen_tail hc h)
          intro y hy
          rw [← e2] at hy
          simp only [List.length_cons, Nat.add_sub_cancel, List.take_left'] at hy
          exact ho y (List.mem_cons_of_mem x (by simpa using hy))
      · rw [if_neg hp, atOpen_cons]
        rw [atOpen_cons] at h
        simp only [Bool.and_eq_true] at h ⊢
        exact ⟨h.1, ih 0 _ (by simp) h.2⟩

theorem atOpen_false_token : ∀ (w tl : Str), (∀ c ∈ w, (c != '\x7b') = true) →
    atOpen false (w ++ '@' :: tl) = false := by
  intro w
  induction w with
  | nil => intro tl _; rfl
  | cons c cs ih =>
    intro tl h
    have hc : c ≠ '\x7b' := by simpa using h c (by simp)
    rw [List.cons_append, atOpen_cons]
    have : (if c = '\x7b' then true else if c = '\x7d' then false else false) = false := by
      simp [hc]
    rw [this, ih tl (fun x hx => h x (List.mem_cons_of_mem c hx))]
    simp

/-- The pattern `rawSpecialRegex` matches nowhere in a text whose `@` all stand
inside braces. -/
theorem rawSpecial_run_nil_of_atOpen (caps : List (Nat × Str)) (b o : Bool) (s : Str)
    (hb : b = true → o = false) (h : atOpen o s = true) :
    rawSpecialRegex.run ⟨caps, b, s⟩ = [] := by
  apply List.eq_nil_iff_forall_not_mem.2
  intro st hst
  simp only [rawSpecialRegex, Re.cat] at hst
  obtain ⟨s1, h1, g1⟩ := mem_run_seq.1 hst
  obtain ⟨s2, h2, g2⟩ := mem_run_seq.1 g1
  obtain ⟨s3, h3, _⟩ := mem_run_seq.1 g2
  obtain ⟨t1, ht1, q1⟩ := mem_run_grp h1
  obtain ⟨t2, ht2, q2⟩ := mem_run_grp h2
  obtain ⟨t3, ht3, _⟩ := mem_run_grp h3
  obtain ⟨w, ew, hw, _⟩ := mem_run_star_cls ht2
  have r1 : s1.rest = t1.rest := by rw [q1]
  have r2 : s2.rest = t2.rest := by rw [q2]
  have htok : ∃ tl, s2.rest = '@' :: tl := by
    by_contra hh
    have hnil := needsHead_chr '@'
      (.alt (Re.lit "index".toList) (.alt (Re.lit "key".toList)
        (.alt (Re.lit "value".toList) (Re.lit "first".toList)))) s2 (fun tl e => hh ⟨tl, e⟩)
    rw [specialRegex, hnil] at ht3
    simp at ht3
  obtain ⟨tl, etl⟩ := htok
  have e1 : s1.rest = w ++ '@' :: tl := by rw [ew, ← r2, etl]
  rcases mem_run_alt.1 ht1 with hbot | hchr
  · simp only [Re.run] at hbot
    by_cases hbb : b = true
    · simp only [hbb, if_true, List.mem_singleton] at hbot
      have es : s = w ++ '@' :: tl := by rw [← e1, r1, hbot]
      rw [hb hbb, es, atOpen_false_token w tl hw] at h
      exact absurd h (by simp)
    · simp [hbb] at hbot
  · obtain ⟨ec, _, _⟩ := mem_run_chr hchr
    simp only at ec
    rw [ec, ← r1, e1, atOpen_cons] at h
    simp only [Bool.and_eq_true] at h
    have h2 := h.2
    simp only [show ('\x7d' : Char) ≠ '\x7b' by decide, if_false, if_true] at h2
    rw [atOpen_false_token w tl hw] at h2
    exact absurd h2 (by simp)

theorem replaceAllFrom_rawSpecial_atOpen (f : Match → Str) :
    ∀ (s : Str) (b o : Bool), (b = true → o = false) → atOpen o s = true →
      replaceAllFrom rawSpecialRegex f b 0 s = s := by
  intro s
  induction s with
  | nil => intro b o _ _; rfl
  | cons c cs ih =>
    intro b o hb h
    rw [replaceAllFrom_zero, matchAt_none_of_run (rawSpecial_run_nil_of_atOpen [] b o (c :: cs) hb h)]
    simp only
    rw [atOpen_cons] at h
    simp only [Bool.and_eq_true] at h
    rw [ih false _ (by simp) h.2]

/-- The wrapping of special tokens stops at once on a text whose `@` all stand
inside braces. -/
theorem wrapSpecials_of_atOpen (fuel : Nat) (s : Str) (hs : atOpen false s = true) :
    wrapSpecials (fuel + 1) s = .ret s := by
  have h : replaceAll rawSpecialRegex wrapSpecial s = s :=
    replaceAllFrom_rawSpecial_atOpen _ s true false (fun _ => rfl) hs
  simp only [wrapSpecials, h, if_true]

theorem plainChar_ne {c : Char} (h : plainChar c = true) :
    c ≠ '<' ∧ c ≠ '@' ∧ c ≠ '\x7b' ∧ c ≠ '\x7d' := by
  simpa [plainChar, and_assoc] using h

theorem plain_not_mem {s : Str} (h : ∀ c ∈ s, plainChar c = true) {x : Char}
    (hx : plainChar x = false) : ∀ c ∈ s, c ≠ x := by
  intro c hc e
  have := h c hc
  rw [e, hx] at this
  exact absurd this (by simp)

theorem plain_of_not_mem {s : Str} (h1 : ∀ c ∈ s, c ≠ '<') (h2 : ∀ c ∈ s, c ≠ '@')
    (h3 : ∀ c ∈ s, c ≠ '\x7b') (h4 : ∀ c ∈ s, c ≠ '\x7d') : ∀ c ∈ s, plainChar c = true := by
  intro c hc
  simp [plainChar, h1 c hc, h2 c hc, h3 c hc, h4 c hc]

theorem plain_append {a b : Str} (ha : ∀ c ∈ a, plainChar c = true)
    (hb : ∀ c ∈ b, plainChar c = true) : ∀ c ∈ a ++ b, plainChar c = true := by
  intro c hc
  rcases List.mem_append.1 hc with h | h
  · exact ha c h
  · exact hb c h

theorem plainText_of_not_mem (t : Str) (h : ∀ c ∈ t, c ≠ '<' ∧ c ≠ '@') : PlainText t :=
  ⟨noOcc_of_not_mem _ t '<' _ rfl (fun c hc => (h c hc).1),
    noOcc_of_not_mem _ t '<' _ rfl (fun c hc => (h c hc).1),
    atOpen_of_not_mem t false (fun c hc => (h c hc).2)⟩

theorem plainText_of_plain (t : Str) (h : ∀ c ∈ t, plainChar c = true) : PlainText t :=
  plainText_of_not_mem t (fun c hc => ⟨(plainChar_ne (h c hc)).1, (plainChar_ne (h c hc)).2.1⟩)

theorem plainText_append {a b : Str} (ha : PlainText a) (hb : PlainText b) : PlainText (a ++ b) :=
  ⟨noOcc_append ha.1 hb.1, noOcc_append ha.2.1 hb.2.1, atOpen_append a b false ha.2.2 hb.2.2⟩

/-- Replacing a text without braces by a text that begins with `(` or `$` and
holds no `<`, no `@` and no brace keeps a text plain. -/
theorem plainText_strReplaceFrom (old new : Str) (n0 : Char) (ntl : Str) (hne : old ≠ [])
    (ho : ∀ c ∈ old, c ≠ '\x7b' ∧ c ≠ '\x7d') (hnew : new = n0 :: ntl)
    (hn0 : n0 = '(' ∨ n0 = '$') (hn : ∀ c ∈ new, plainChar c = true) (t : Str)
    (h : PlainText t) : PlainText (strReplaceFrom old new 0 t) :=
  ⟨noOcc_strReplaceFrom _ old new '<' n0 _ ntl rfl hnew
      (by rcases hn0 with e | e <;> subst e <;> decide) (plain_not_mem hn (by decide)) t 0 h.1,
    noOcc_strReplaceFrom _ old new '<' n0 _ ntl rfl hnew
      (by rcases hn0 with e | e <;> subst e <;> decide) (plain_not_mem hn (by decide)) t 0 h.2.1,
    atOpen_strReplaceFrom old new hne ho (fun c hc => (plainChar_ne (hn c hc)).2) t 0 false
      (by simp) h.2.2⟩

theorem toDigitsCore_digits : ∀ (fuel n : Nat) (acc : List Char),
    (∀ c ∈ acc, c.isDigit = true) → ∀ c ∈ Nat.toDigitsCore 10 fuel n acc, c.isDigit = true := by
  intro fuel
  induction fuel with
  | zero => intro n acc h; simpa [Nat.toDigitsCore] using h
  | succ fuel ih =>
    intro n acc h
    have hd : (Nat.digitChar (n % 10)).isDigit = true := by
      have : ∀ d, d < 10 → (Nat.digitChar d).isDigit = true := by decide
      exact this _ (Nat.mod_lt _ (by decide))
    have hacc : ∀ c ∈ Nat.digitChar (n % 10) :: acc, c.isDigit = true := by
      intro c hc
      rcases List.mem_cons.1 hc with hc | hc
      · rw [hc]; exact hd
      · exact h c hc
    simp only [Nat.toDigitsCore]
    split
    · exact hacc
    · exact ih _ _ hacc

/-- The text of a number is made of digits. -/
theorem itoa_digits (n : Nat) : ∀ c ∈ itoa n, c.isDigit = true :=
  toDigitsCore_digits _ _ [] (by simp)

theorem itoa_not_mem (n : Nat) {x : Char} (hx : x.isDigit = false) : ∀ c ∈ itoa n, c ≠ x := by
  intro c hc e
  have := itoa_digits n c hc
  rw [e, hx] at this
  exact absurd this (by simp)

theorem itoa_plain (n : Nat) : ∀ c ∈ itoa n, plainChar c = true :=
  plain_of_not_mem (itoa_not_mem n (by decide)) (itoa_not_mem n (by decide))
    (itoa_not_mem n (by decide)) (itoa_not_mem n (by decide))

/-- The four replacements of special tokens keep a text plain. -/
theorem plainText_substSpecials (it body : Str) (hit : ItOk it) (hb : PlainText body) :
    PlainText (substSpecials it body) := by
  obtain ⟨⟨tl, e⟩, hp⟩ := hit
  have h1 : ∀ c ∈ "(not ".toList ++ it ++ ")".toList, plainChar c = true :=
    plain_append (plain_append (show ∀ c ∈ "(not ".toList, plainChar c = true by decide) hp)
      (show ∀ c ∈ ")".toList, plainChar c = true by decide)
  have h2 : ∀ c ∈ it ++ "_v".toList, plainChar c = true :=
    plain_append hp (show ∀ c ∈ "_v".toList, plainChar c = true by decide)
  unfold substSpecials
  rw [strReplace_eq _ "@first".toList _ (by decide), strReplace_eq _ "@value".toList _ (by decide),
    strReplace_eq _ "@key".toList _ (by decide), strReplace_eq _ "@index".toList _ (by decide)]
  exact plainText_strReplaceFrom _ _ '(' _ (by decide) (by decide) rfl (Or.inl rfl) h1 _
    (plainText_strReplaceFrom _ _ '$' (tl ++ "_v".toList) (by decide) (by decide)
      (by rw [e]; rfl) (Or.inr rfl) h2 _
      (plainText_strReplaceFrom _ _ '$' tl (by decide) (by decide) e (Or.inr rfl) hp _
        (plainText_strReplaceFrom _ _ '$' tl (by decide) (by decide) e (Or.inr rfl) hp _ hb)))

/-! ## Skeletons -/

theorem strReplaceFrom_cons_ne (old new : Str) (c0 : Char) (tl : Str) (ho : old = c0 :: tl)
    (c : Char) (s : Str) (hc : c ≠ c0) :
    strReplaceFrom old new 0 (c :: s) = c :: strReplaceFrom old new 0 s := by
  have h := strReplaceFrom_skip old new c0 tl ho [c] s (by simpa using hc)
  simpa using h

theorem strReplaceFrom_of_not_mem (old new : Str) (c0 : Char) (tl : Str) (ho : old = c0 :: tl)
    (s : Str) (hs : ∀ c ∈ s, c ≠ c0) : strReplaceFrom old new 0 s = s := by
  have h := strReplaceFrom_skip old new c0 tl ho s [] hs
  simpa [strReplaceFrom_nil] using h

theorem marker_tails (ext : Char → Bool) {k : Str} (hk : isIdentifier ext k = true) {c0 : Char}
    (hc0 : c0 = '(' ∨ c0 = '$') :
    (∃ u, beginMarker k = '<' :: u ∧ ∀ c ∈ u, c ≠ c0) ∧
    (∃ v, endMarker k = '<' :: v ∧ ∀ c ∈ v, c ≠ c0) := by
  have hp : isPunct c0 = true ∧ c0 ∉ markerLiterals := by
    rcases hc0 with e | e <;> subst e <;> exact ⟨by decide, by decide⟩
  have h := marker_not_mem ext hk hp.1 hp.2
  exact ⟨⟨"!-- BEGIN ".toList ++ k ++ " -->".toList, rfl,
      fun c hc => h.1 c (List.mem_cons_of_mem _ hc)⟩,
    ⟨"!-- END ".toList ++ k ++ " -->".toList, rfl, fun c hc => h.2 c (List.mem_cons_of_mem _ hc)⟩⟩

theorem newline_ne {c0 : Char} (hc0 : c0 = '(' ∨ c0 = '$') {nl : Str}
    (hnl : ∀ c ∈ nl, (c == '\r' || c == '\n') = true) : ∀ c ∈ nl, c ≠ c0 := by
  intro c hc e
  have := hnl c hc
  rw [e] at this
  rcases hc0 with e2 | e2 <;> subst e2 <;> exact absurd this (by decide)

/-- Replacing a text that begins with `(` or `$` and holds no `<` works on the
stretches of plain text of a skeleton one by one. -/
theorem strReplaceFrom_render (ext : Char → Bool) (old new : Str) (c0 : Char) (otl : Str)
    (ho : old = c0 :: otl) (hc0 : c0 = '(' ∨ c0 = '$') (hlt : '<' ∉ old) :
    ∀ sk : Skel, sk.Good ext → ∀ Z : Str, (Z = [] ∨ ∃ r, Z = '<' :: r) →
      strReplaceFrom old new 0 (sk.render ++ Z) =
        (sk.mapText (strReplaceFrom old new 0)).render ++ strReplaceFrom old new 0 Z := by
  have hne : old ≠ [] := by rw [ho]; simp
  have hlt0 : ('<' : Char) ≠ c0 := by
    rcases hc0 with e | e <;> subst e <;> decide
  intro sk
  induction sk with
  | text t =>
    intro _ Z hZ
    rcases hZ with e | ⟨r, e⟩
    · subst e
      simp [Skel.render, Skel.mapText, strReplaceFrom_nil]
    · subst e
      rw [strReplaceFrom_cons_ne old new c0 otl ho '<' r hlt0]
      exact strReplaceFrom_boundary old new '<' hlt hne r t 0 (Nat.zero_le _)
  | block pre k nl body rest ihb ihr =>
    intro hg Z hZ
    obtain ⟨_, hk, hnl, _, hgb, hgr⟩ := hg
    obtain ⟨⟨u, hB, hu⟩, ⟨v, hE, hv⟩⟩ := marker_tails ext hk hc0
    have hunl : ∀ c ∈ u ++ nl, c ≠ c0 := not_mem_append hu (newline_ne hc0 hnl)
    simp only [Skel.render, Skel.mapText, hB, hE, List.append_assoc, List.cons_append]
    rw [strReplaceFrom_boundary old new '<' hlt hne _ pre 0 (Nat.zero_le _),
      ← List.append_assoc u nl, strReplaceFrom_skip old new c0 otl ho (u ++ nl) _ hunl,
      ihb hgb ('<' :: _) (Or.inr ⟨_, rfl⟩),
      strReplaceFrom_cons_ne old new c0 otl ho '<' _ hlt0,
      strReplaceFrom_skip old new c0 otl ho v _ hv, ihr hgr Z hZ]
    simp only [List.append_assoc, List.cons_append]

theorem noNewlineHead_strReplaceFrom (old new : Str) (ntl : Str) (hnew : new = '(' :: ntl)
    (s : Str) (h : noNewlineHead s) : noNewlineHead (strReplaceFrom old new 0 s) := by
  cases s with
  | nil => rw [strReplaceFrom_nil]; exact noNewlineHead_nil
  | cons c cs =>
    rw [strReplaceFrom_zero]
    split
    · rw [hnew]
      exact noNewlineHead_cons '(' _ (by decide)
    · exact noNewlineHead_cons c _ (h c cs rfl)

theorem good_mapText (ext : Char → Bool) (old new : Str) (c0 : Char) (otl ntl : Str)
    (ho : old = c0 :: otl) (hc0 : c0 = '(' ∨ c0 = '$') (hlt : '<' ∉ old)
    (hob : ∀ c ∈ old, c ≠ '\x7b' ∧ c ≠ '\x7d')
    (hnew : new = '(' :: ntl) (hn : ∀ c ∈ new, plainChar c = true) :
    ∀ sk : Skel, sk.Good ext → (sk.mapText (strReplaceFrom old new 0)).Good ext := by
  intro sk
  induction sk with
  | text t =>
    exact fun h => plainText_strReplaceFrom old new '(' ntl (by rw [ho]; simp) hob hnew
      (Or.inl rfl) hn t h
  | block pre k nl body rest ihb ihr =>
    intro hg
    obtain ⟨hpre, hk, hnl, hhead, hgb, hgr⟩ := hg
    refine ⟨plainText_strReplaceFrom old new '(' ntl (by rw [ho]; simp) hob hnew (Or.inl rfl) hn
      pre hpre, hk, hnl, ?_, ihb hgb, ihr hgr⟩
    obtain ⟨_, ⟨v, hE, hv⟩⟩ := marker_tails ext hk hc0
    have h1 := strReplaceFrom_render ext old new c0 otl ho hc0 hlt body hgb (endMarker k)
      (Or.inr ⟨v, hE⟩)
    have h2 : strReplaceFrom old new 0 (endMarker k) = endMarker k := by
      apply strReplaceFrom_of_not_mem old new c0 otl ho
      intro c hc
      rw [hE] at hc
      rcases List.mem_cons.1 hc with e | e
      · rw [e]
        rcases hc0 with e2 | e2 <;> subst e2 <;> decide
      · exact hv c e
    rw [h2] at h1
    rw [← h1]
    exact noNewlineHead_strReplaceFrom old new ntl hnew _ hhead

theorem keys_mapText (g : Str → Str) : ∀ sk : Skel, (sk.mapText g).keys = sk.keys := by
  intro sk
  induction sk with
  | text t => rfl
  | block pre k nl body rest ihb ihr => simp [Skel.mapText, Skel.keys, ihb, ihr]

theorem blocks_mapText (g : Str → Str) : ∀ sk : Skel, (sk.mapText g).blocks = sk.blocks := by
  intro sk
  induction sk with
  | text t => rfl
  | block pre k nl body rest ihb ihr => simp [Skel.mapText, Skel.blocks, ihb, ihr]

theorem names_mapText (g : Str → Str) :
    ∀ (sk : Skel) (it : Str) (i : Nat), (sk.mapText g).names it i = sk.names it i := by
  intro sk
  induction sk with
  | text t => intro it i; rfl
  | block pre k nl body rest ihb ihr => intro it i; simp [Skel.mapText, Skel.names, ihb, ihr]

theorem render_prepend (w : Str) (sk : Skel) : (sk.prepend w).render = w ++ sk.render := by
  cases sk <;> simp [Skel.prepend, Skel.render]

theorem good_prepend (ext : Char → Bool) (w : Str) (hw : PlainText w) (sk : Skel)
    (h : sk.Good ext) : (sk.prepend w).Good ext := by
  cases sk with
  | text t => exact plainText_append hw h
  | block pre k nl body rest => exact ⟨plainText_append hw h.1, h.2⟩

theorem keys_prepend (w : Str) (sk : Skel) : (sk.prepend w).keys = sk.keys := by
  cases sk <;> rfl

theorem blocks_prepend (w : Str) (sk : Skel) : (sk.prepend w).blocks = sk.blocks := by
  cases sk <;> rfl

theorem names_prepend (w : Str) (sk : Skel) (it : Str) (i : Nat) :
    (sk.prepend w).names it i = sk.names it i := by
  cases sk <;> rfl

theorem beginMarker_ne_end (k k2 : Str) (tail : Str) :
    (beginMarker k).isPrefixOf (endMarker k2 ++ tail) = false := by
  simp only [beginMarker, List.append_assoc]
  exact isPrefixOf_append_false _ _ _ rfl

theorem beginMarker_ne_begin (ext : Char → Bool) {k k2 : Str} (hk : ∀ c ∈ k, keyChar ext c = true)
    (hk2 : ∀ c ∈ k2, keyChar ext c = true) (hne : k ≠ k2) (tail : Str) :
    (beginMarker k).isPrefixOf (beginMarker k2 ++ tail) = false := by
  cases hq : (beginMarker k).isPrefixOf (beginMarker k2 ++ tail) with
  | false => rfl
  | true =>
    rw [List.isPrefixOf_iff_prefix] at hq
    obtain ⟨r, e⟩ := hq
    simp only [beginMarker, List.append_assoc] at e
    have e2 := List.append_cancel_left e
    have e3 : k ++ ' ' :: ("-->".toList ++ r) = k2 ++ ' ' :: ("-->".toList ++ tail) := by
      simpa using e2
    obtain ⟨h, _, _⟩ := append_cons_unique (P := keyChar ext) hk hk2
      (keyChar_of_isDelim ext (by decide)) (keyChar_of_isDelim ext (by decide)) e3
    exact absurd h hne

theorem noOcc_newlines (pat : Str) (ptl : Str) (hp : pat = '<' :: ptl) (nl : Str)
    (hnl : ∀ c ∈ nl, (c == '\r' || c == '\n') = true) : NoOcc pat nl :=
  noOcc_of_not_mem pat nl '<' ptl hp (fun c hc e => by
    have := hnl c hc
    rw [e] at this
    exact absurd this (by decide))

/-- The `END` marker of a key that no block of the skeleton has occurs nowhere in
its text. -/
theorem noOcc_end_render (ext : Char → Bool) {k : Str} (hk : ∀ c ∈ k, keyChar ext c = true) :
    ∀ sk : Skel, sk.Good ext → k ∉ sk.keys → NoOcc (endMarker k) sk.render := by
  intro sk
  induction sk with
  | text t =>
    intro h _
    have := noOcc_ext (k ++ " -->".toList) h.2.1
    simpa [endMarker, Skel.render, List.append_assoc] using this
  | block pre k2 nl body rest ihb ihr =>
    intro hg hnot
    obtain ⟨hpre, hk2, hnl, _, hgb, hgr⟩ := hg
    simp only [Skel.keys, List.mem_cons, List.mem_append, not_or] at hnot
    obtain ⟨hne, hnb, hnr⟩ := hnot
    have hk2c := isIdentifier_keyChars ext hk2
    have h0 : NoOcc (endMarker k) pre := by
      have := noOcc_ext (k ++ " -->".toList) hpre.2.1
      simpa [endMarker, List.append_assoc] using this
    exact noOcc_append h0 (noOcc_append (noOcc_append (noOcc_append (noOcc_append
      (noOcc_beginMarker ext k k2 hk2c) (noOcc_newlines _ _ rfl nl hnl)) (ihb hgb hnb))
      (noOcc_endMarker ext hk hk2c hne)) (ihr hgr hnr))

theorem noOcc_begin_render (ext : Char → Bool) {k : Str} (hk : ∀ c ∈ k, keyChar ext c = true) :
    ∀ sk : Skel, sk.Good ext → k ∉ sk.keys → NoOcc (beginMarker k) sk.render := by
  intro sk
  induction sk with
  | text t =>
    intro h _
    have := noOcc_ext (k ++ " -->".toList) h.1
    simpa [beginMarker, Skel.render, List.append_assoc] using this
  | block pre k2 nl body rest ihb ihr =>
    intro hg hnot
    obtain ⟨hpre, hk2, hnl, _, hgb, hgr⟩ := hg
    simp only [Skel.keys, List.mem_cons, List.mem_append, not_or] at hnot
    obtain ⟨hne, hnb, hnr⟩ := hnot
    have hk2c := isIdentifier_keyChars ext hk2
    have h0 : NoOcc (beginMarker k) pre := by
      have := noOcc_ext (k ++ " -->".toList) hpre.1
      simpa [beginMarker, List.append_assoc] using this
    have h1 : NoOcc (beginMarker k) (beginMarker k2) :=
      noOcc_block (beginMarker k) ("!-- BEGIN ".toList ++ k2 ++ " -->".toList) '<' _ rfl
        (marker_tail_not_mem ext _ k2 (by decide) hk2c)
        (fun tail => beginMarker_ne_begin ext hk hk2c hne tail)
    have h2 : NoOcc (beginMarker k) (endMarker k2) :=
      noOcc_block (beginMarker k) ("!-- END ".toList ++ k2 ++ " -->".toList) '<' _ rfl
        (marker_tail_not_mem ext _ k2 (by decide) hk2c)
        (fun tail => beginMarker_ne_end k k2 tail)
    exact noOcc_append h0 (noOcc_append (noOcc_append (noOcc_append (noOcc_append
      h1 (noOcc_newlines _ _ rfl nl hnl)) (ihb hgb hnb)) h2) (ihr hgr hnr))

theorem findFirst_loopFind_none (ext : Char → Bool) (t : Str)
    (h : NoOcc "<!-- BEGIN ".toList t) : findFirst (loopFindRegex ext) t = none := by
  unfold findFirst findAll
  have e := findAllFrom_skip_noOcc "<!-- BEGIN ".toList
    (Re.cat [.grp 1 (keyRegex ext), Re.lit " -->".toList]) t [] h true
  have e2 : findAllFrom (loopFindRegex ext) true 0 (t ++ []) =
      findAllFrom (loopFindRegex ext) (true && t.isEmpty) 0 [] := e
  rw [List.append_nil] at e2
  rw [e2]
  rfl

/-! ## The Loop Pass on a skeleton -/

theorem noNewlineHead_append_right {x y : Str} (z : Str) (h : noNewlineHead (x ++ y))
    (hy : y ≠ []) : noNewlineHead (x ++ (y ++ z)) := by
  cases x with
  | nil =>
    cases y with
    | nil => exact absurd rfl hy
    | cons c tl => exact noNewlineHead_cons c _ (h c tl rfl)
  | cons c tl => exact noNewlineHead_cons c _ (h c _ rfl)

theorem plainText_rangeBlock (it key body : Str) (hit : ∀ c ∈ it, plainChar c = true)
    (hkey : ∀ c ∈ key, plainChar c = true) (hbody : PlainText body) :
    PlainText (rangeBlock it key body) := by
  unfold rangeBlock
  exact plainText_append (plainText_append (plainText_append (plainText_append (plainText_append
    (plainText_append (plainText_append (plainText_append (plainText_of_not_mem _ (by decide))
    (plainText_of_plain _ hit)) (plainText_of_not_mem _ (by decide)))
    (plainText_of_plain _ hit)) (plainText_of_not_mem _ (by decide)))
    (plainText_of_plain _ hkey)) (plainText_of_not_mem _ (by decide))) hbody)
    (plainText_of_not_mem _ (by decide))

/-- Replacing a block that stands once in the text. -/
theorem strReplace_block_once (pre w rest new : Str) (hne : w ≠ []) (hpre : NoOcc w pre)
    (hrest : NoOcc w rest) : strReplace (pre ++ (w ++ rest)) w new = pre ++ (new ++ rest) := by
  have h := strReplaceFrom_skip_noOcc w new rest [] hrest
  simp only [List.append_nil, strReplaceFrom_nil] at h
  rw [strReplace_eq _ w new hne, strReplaceFrom_skip_noOcc w new pre _ hpre,
    strReplaceFrom_match w new rest hne, h]

/-- The recording Loop Pass on the text of a skeleton with identifier keys that
are pairwise different: it returns a plain text, and the names it generates
are those of `Skel.names`. The iteration bound has to exceed the number of
blocks by two. -/
theorem convertLoopsTrace_skel (ext : Char → Bool) :
    ∀ (n : Nat) (sk : Skel), sk.blocks ≤ n → sk.Good ext → sk.keys.Nodup →
      ∀ (fuel i : Nat) (pfx it : Str), n + 2 ≤ fuel → PfxOk pfx → ItOk it →
        ∃ out, convertLoopsTrace ext fuel i sk.render pfx it = .ret ((out, none), sk.names it i) ∧
          PlainText out := by
  intro n
  induction n with
  | zero =>
    intro sk hn hg _ fuel i pfx it hfuel _ _
    obtain ⟨f, rfl⟩ : ∃ f, fuel = f + 1 := ⟨fuel - 1, by omega⟩
    cases sk with
    | text t =>
      refine ⟨t, ?_, hg⟩
      rw [Skel.render, convertLoopsTrace, findFirst_loopFind_none ext t hg.1]
      rfl
    | block pre k nl body rest =>
      simp only [Skel.blocks] at hn
      omega
  | succ m ih =>
    intro sk hn hg hnd fuel i pfx it hfuel hpfx hit
    obtain ⟨f, rfl⟩ : ∃ f, fuel = f + 3 := ⟨fuel - 3, by omega⟩
    cases sk with
    | text t =>
      refine ⟨t, ?_, hg⟩
      rw [Skel.render, convertLoopsTrace, findFirst_loopFind_none ext t hg.1]
      rfl
    | block pre k nl body rest =>
      obtain ⟨hpre, hk, hnl, hhead, hgb, hgr⟩ := hg
      simp only [Skel.blocks] at hn
      simp only [Skel.keys, List.nodup_cons, List.mem_append, not_or] at hnd
      obtain ⟨⟨hnb, hnr⟩, hnd2⟩ := hnd
      have hndb : body.keys.Nodup := (List.nodup_append.1 hnd2).1
      have hndr : rest.keys.Nodup := (List.nodup_append.1 hnd2).2.1
      have hkc := isIdentifier_keyChars ext hk
      -- the names of this round
      obtain ⟨key, hkey, hkhead, hkplain⟩ : ∃ key,
          key = strReplace (Segment.apply "$".toList (.field k)) "$.".toList (pfx ++ ".".toList) ∧
          (∃ tl, key = '(' :: tl ∨ key = '$' :: tl) ∧ ∀ c ∈ key, plainChar c = true :=
        ⟨_, (loopKey_identifier ext hk pfx).symm, loopKey_head k pfx hpfx.1, plain_of_not_mem
          (loopKey_not_mem ext hk (by decide) (by decide) pfx (plain_not_mem hpfx.2 (by decide)))
          (loopKey_not_mem ext hk (by decide) (by decide) pfx (plain_not_mem hpfx.2 (by decide)))
          (loopKey_not_mem ext hk (by decide) (by decide) pfx (plain_not_mem hpfx.2 (by decide)))
          (loopKey_not_mem ext hk (by decide) (by decide) pfx (plain_not_mem hpfx.2 (by decide)))⟩
      obtain ⟨it2, hit2def, hit2⟩ : ∃ it2, it2 = it ++ "i".toList ++ itoa i ∧ ItOk it2 := by
        obtain ⟨⟨tl, e⟩, hp⟩ := hit
        exact ⟨_, rfl, ⟨tl ++ "i".toList ++ itoa i, by rw [e]; rfl⟩,
          plain_append (plain_append hp (by decide)) (itoa_plain i)⟩
      have hnk : ∀ c ∈ elemKey key it2, plainChar c = true := plain_of_not_mem
        (elemKey_not_mem (by decide) _ _ (plain_not_mem hkplain (by decide))
          (plain_not_mem hit2.2 (by decide)))
        (elemKey_not_mem (by decide) _ _ (plain_not_mem hkplain (by decide))
          (plain_not_mem hit2.2 (by decide)))
        (elemKey_not_mem (by decide) _ _ (plain_not_mem hkplain (by decide))
          (plain_not_mem hit2.2 (by decide)))
        (elemKey_not_mem (by decide) _ _ (plain_not_mem hkplain (by decide))
          (plain_not_mem hit2.2 (by decide)))
      have hpfx2 : PfxOk (elemKey key it2) := ⟨⟨_, Or.inl rfl⟩, hnk⟩
      -- the replacement in the body
      obtain ⟨c0, otl, ho, hc0⟩ : ∃ c0 otl, key ++ ".".toList = c0 :: otl ∧
          (c0 = '(' ∨ c0 = '$') := by
        obtain ⟨tl, e | e⟩ := hkhead
        · exact ⟨'(', tl ++ ".".toList, by rw [e]; rfl, Or.inl rfl⟩
        · exact ⟨'$', tl ++ ".".toList, by rw [e]; rfl, Or.inr rfl⟩
      have hold : ∀ c ∈ key ++ ".".toList, plainChar c = true := plain_append hkplain (by decide)
      have hlt : '<' ∉ key ++ ".".toList := fun hm => plain_not_mem hold (by decide) _ hm rfl
      have hob : ∀ c ∈ key ++ ".".toList, c ≠ '\x7b' ∧ c ≠ '\x7d' :=
        fun c hc => (plainChar_ne (hold c hc)).2.2
      have hnew : ∀ c ∈ elemKey key it2 ++ ".".toList, plainChar c = true :=
        plain_append hnk (by decide)
      have hbody : strReplace body.render (key ++ ".".toList) (elemKey key it2 ++ ".".toList) =
          (body.mapText (strReplaceFrom (key ++ ".".toList)
            (elemKey key it2 ++ ".".toList) 0)).render := by
        have h := strReplaceFrom_render ext _ (elemKey key it2 ++ ".".toList)
          c0 otl ho hc0 hlt body hgb [] (Or.inl rfl)
        simp only [List.append_nil, strReplaceFrom_nil] at h
        rw [strReplace_eq _ _ _ (by rw [ho]; simp)]
        exact h
      -- the body
      obtain ⟨body1, hrec, hb1⟩ := ih
        (body.mapText (strReplaceFrom (key ++ ".".toList) (elemKey key it2 ++ ".".toList) 0))
        (by rw [blocks_mapText]; omega)
        (good_mapText ext _ _ c0 otl _ ho hc0 hlt hob rfl hnew body hgb)
        (by rw [keys_mapText]; exact hndb) (f + 2) 0 (elemKey key it2) it2 (by omega) hpfx2 hit2
      rw [names_mapText, ← hbody] at hrec
      -- the rest of the text
      have hw : beginMarker k ++ nl ++ body.render ++ endMarker k =
          beginMarker k ++ (nl ++ (body.render ++ endMarker k)) := by
        simp only [List.append_assoc]
      have hB : NoOcc (beginMarker k) pre := by
        have := noOcc_ext (k ++ " -->".toList) hpre.1
        simpa [beginMarker, List.append_assoc] using this
      have hrep := strReplace_block_once pre (beginMarker k ++ nl ++ body.render ++ endMarker k)
        rest.render (rangeBlock it2 key (substSpecials it2 body1))
        (by simp [beginMarker])
        (by rw [hw]; exact noOcc_ext _ hB)
        (by rw [hw]; exact noOcc_ext _ (noOcc_begin_render ext hkc rest hgr hnr))
      obtain ⟨out, hnext, hout⟩ := ih
        (rest.prepend (pre ++ rangeBlock it2 key (substSpecials it2 body1)))
        (by rw [blocks_prepend]; omega)
        (good_prepend ext _ (plainText_append hpre (plainText_rangeBlock _ _ _ hit2.2 hkplain
          (plainText_substSpecials it2 body1 hit2 hb1))) rest hgr)
        (by rw [keys_prepend]; exact hndr) (f + 2) (i + 1) pfx it (by omega) hpfx hit
      rw [names_prepend, render_prepend, List.append_assoc, ← hrep] at hnext
      refine ⟨out, ?_, hout⟩
      rw [Skel.render, convertLoopsTrace_first ext (f + 2) i pre k nl body.render rest.render pfx it
        (isKey_of_isIdentifier ext hk) hpre.1 hnl
        (noNewlineHead_append_right _ hhead (by simp [endMarker]))
        (noOcc_end_render ext hkc body hgb hnb)]
      have hfin := loopStepTrace_eval (fun j t p it => convertLoopsTrace ext (f + 2) j t p it)
        (f + 2) i (pre ++ ((beginMarker k ++ nl ++ body.render ++ endMarker k) ++ rest.render))
        pfx it (beginMarker k ++ nl ++ body.render ++ endMarker k) body.render k _ key it2
        body1 body1 _ _ (out, none)
        (convertName_identifier ext hk f) hkey hit2def hrec
        (wrapSpecials_of_atOpen (f + 1) body1 hb1.2.2) hnext
      rw [hfin, hit2def]
      rfl

/-! ## The iterator names -/

theorem toDigitsCore_append : ∀ (fuel n : Nat) (acc : List Char),
    Nat.toDigitsCore 10 fuel n acc = Nat.toDigitsCore 10 fuel n [] ++ acc := by
  intro fuel
  induction fuel with
  | zero => intro n acc; simp [Nat.toDigitsCore]
  | succ fuel ih =>
    intro n acc
    simp only [Nat.toDigitsCore]
    split
    · simp
    · rw [ih _ (_ :: acc), ih _ [_]]
      simp

theorem decodeFrom_toDigitsCore : ∀ (fuel n : Nat), n < fuel →
    decodeFrom 0 (Nat.toDigitsCore 10 fuel n []) = n := by
  have hd : ∀ d, d < 10 → (Nat.digitChar d).toNat - 48 = d := by decide
  intro fuel
  induction fuel with
  | zero => intro n h; omega
  | succ fuel ih =>
    intro n h
    simp only [Nat.toDigitsCore]
    split
    · rename_i h0
      have hn : n < 10 := by
        by_contra hc
        have : 1 ≤ n / 10 := (Nat.le_div_iff_mul_le (by decide)).2 (by omega)
        omega
      simp [decodeFrom, Nat.mod_eq_of_lt hn, hd n hn]
    · rename_i h0
      have hlt : n / 10 < fuel := by
        have : n / 10 < n := Nat.div_lt_self (by
          by_contra hc
          have : n = 0 := by omega
          simp [this] at h0) (by decide)
        omega
      rw [toDigitsCore_append]
      have := ih (n / 10) hlt
      simp only [decodeFrom] at this ⊢
      rw [List.foldl_append, this]
      simp only [List.foldl_cons, List.foldl_nil]
      rw [hd _ (Nat.mod_lt _ (by decide))]
      omega

/-- Different numbers have different texts. -/
theorem itoa_injective {a b : Nat} (h : itoa a = itoa b) : a = b := by
  have ha := decodeFrom_toDigitsCore (a + 1) a (Nat.lt_succ_self a)
  have hb := decodeFrom_toDigitsCore (b + 1) b (Nat.lt_succ_self b)
  have h2 : Nat.toDigitsCore 10 (a + 1) a [] = Nat.toDigitsCore 10 (b + 1) b [] := h
  rw [h2, hb] at ha
  exact ha.symm

/-- Two names that go on behind `i` with a number and end there or go on with
another `i` are equal only if the numbers are. -/
theorem name_index_unique {j1 j2 : Nat} {w1 w2 : Str}
    (h1 : w1 = [] ∨ ∃ r, w1 = 'i' :: r) (h2 : w2 = [] ∨ ∃ r, w2 = 'i' :: r)
    (e : itoa j1 ++ w1 = itoa j2 ++ w2) : j1 = j2 := by
  have hi : ('i' : Char).isDigit = false := by decide
  rcases h1 with e1 | ⟨r1, e1⟩ <;> rcases h2 with e2 | ⟨r2, e2⟩ <;> subst e1 <;> subst e2
  · exact itoa_injective (by simpa using e)
  · have : 'i' ∈ itoa j1 ++ [] := by rw [e]; simp
    rw [List.append_nil] at this
    exact absurd rfl (itoa_not_mem j1 hi _ this)
  · have : 'i' ∈ itoa j2 ++ [] := by rw [← e]; simp
    rw [List.append_nil] at this
    exact absurd rfl (itoa_not_mem j2 hi _ this)
  · exact itoa_injective (append_cons_unique (P := Char.isDigit) (itoa_digits j1) (itoa_digits j2)
      hi hi e).1

/-- Every name of the blocks of a skeleton is the name of the enclosing level
followed by `i`, the number of a block of the level, and the indices of the
levels further in. -/
theorem names_form : ∀ (sk : Skel) (it : Str) (i : Nat), ∀ nm ∈ sk.names it i,
    ∃ j w, i ≤ j ∧ nm = it ++ "i".toList ++ (itoa j ++ w) ∧ (w = [] ∨ ∃ r, w = 'i' :: r) := by
  intro sk
  induction sk with
  | text t => intro it i nm h; simp [Skel.names] at h
  | block pre k nl body rest ihb ihr =>
    intro it i nm h
    simp only [Skel.names, List.mem_cons, List.mem_append] at h
    rcases h with h | h | h
    · exact ⟨i, [], Nat.le_refl i, by rw [h]; simp, Or.inl rfl⟩
    · obtain ⟨j, w, _, e, _⟩ := ihb _ 0 nm h
      exact ⟨i, "i".toList ++ (itoa j ++ w), Nat.le_refl i,
        by rw [e]; simp only [List.append_assoc], Or.inr ⟨_, rfl⟩⟩
    · obtain ⟨j, w, hj, e, hw⟩ := ihr it (i + 1) nm h
      exact ⟨j, w, by omega, e, hw⟩

/-- The names of the blocks of a skeleton are pairwise different. -/
theorem names_nodup : ∀ (sk : Skel) (it : Str) (i : Nat), (sk.names it i).Nodup := by
  intro sk
  induction sk with
  | text t => intro it i; simp [Skel.names]
  | block pre k nl body rest ihb ihr =>
    intro it i
    simp only [Skel.names, List.nodup_cons, List.mem_append, not_or]
    refine ⟨⟨?_, ?_⟩, List.nodup_append.2 ⟨ihb _ 0, ihr it (i + 1), ?_⟩⟩
    · intro h
      obtain ⟨j, w, _, e, _⟩ := names_form body _ 0 _ h
      have := congrArg List.length e
      simp only [List.length_append, String.toList, List.length_cons, List.length_nil] at this
      omega
    · intro h
      obtain ⟨j, w, hj, e, hw⟩ := names_form rest it (i + 1) _ h
      have e2 : itoa i ++ [] = itoa j ++ w := by
        rw [List.append_nil]
        exact List.append_cancel_left e
      have := name_index_unique (Or.inl rfl) hw e2
      omega
    · intro nm hb hr
      obtain ⟨j1, w1, _, e1, _⟩ := names_form body _ 0 nm hb
      obtain ⟨j2, w2, hj2, e2, hw2⟩ := names_form rest it (i + 1) nm hr
      have e3 : itoa i ++ ("i".toList ++ (itoa j1 ++ w1)) = itoa j2 ++ w2 := by
        rw [e1] at e2
        simp only [List.append_assoc] at e2
        exact List.append_cancel_left (List.append_cancel_left e2)
      have := name_index_unique (Or.inr ⟨_, rfl⟩) hw2 e3
      omega

theorem length_names : ∀ (sk : Skel) (it : Str) (i : Nat), (sk.names it i).length = sk.blocks := by
  intro sk
  induction sk with
  | text t => intro it i; rfl
  | block pre k nl body rest ihb ihr =>
    intro it i
    simp only [Skel.names, Skel.blocks, List.length_cons, List.length_append, ihb, ihr]
    omega

theorem pfxOk_root : PfxOk "$".toList := ⟨⟨[], Or.inr rfl⟩, by decide⟩

theorem itOk_root : ItOk "$".toList := ⟨⟨[], rfl⟩, by decide⟩

/-! ## Names and rounds of the Loop Pass -/

/-- A text that begins with `<` followed by a character other than `!`, holds no
other `<`, and has every `@` inside braces is plain. -/
theorem plainText_tag (c : Char) (u : Str) (hc : c ≠ '!') (hu : ∀ x ∈ c :: u, x ≠ '<')
    (hat : atOpen false ('<' :: c :: u) = true) : PlainText ('<' :: c :: u) := by
  have hb : ('!' == c) = false := by
    simp only [beq_eq_false_iff_ne, ne_eq]
    exact fun e => hc e.symm
  refine ⟨noOcc_block _ (c :: u) '<' _ rfl hu ?_, noOcc_block _ (c :: u) '<' _ rfl hu ?_, hat⟩
  · intro tail
    simp [List.isPrefixOf_cons₂, hb]
  · intro tail
    simp [List.isPrefixOf_cons₂, hb]

theorem plainText_of_atOpen (t : Str) (h : ∀ c ∈ t, c ≠ '<') (hat : atOpen false t = true) :
    PlainText t :=
  ⟨noOcc_of_not_mem _ t '<' _ rfl h, noOcc_of_not_mem _ t '<' _ rfl h, hat⟩

theorem good_exampleSkel : exampleSkel.Good asciiLetters :=
  ⟨plainText_of_not_mem _ (by decide), by decide, by decide, noNewlineHead_cons '<' _ (by decide),
    ⟨plainText_of_not_mem _ (by decide), by decide, by decide,
      noNewlineHead_cons 'x' _ (by decide), plainText_of_not_mem _ (by decide),
      plainText_of_not_mem _ (by decide)⟩,
    ⟨plainText_of_not_mem _ (by decide), by decide, by decide,
      noNewlineHead_cons 'y' _ (by decide), plainText_of_not_mem _ (by decide),
      plainText_of_not_mem _ (by decide)⟩⟩

theorem good_listSkel : listSkel.Good asciiLetters :=
  ⟨plainText_tag 'u' "l>".toList (by decide) (by decide) (by decide), by decide, by decide,
    noNewlineHead_cons '<' _ (by decide),
    ⟨plainText_tag 'l' "i>\x7b\x7b@index\x7d\x7d: ".toList (by decide) (by decide) (by decide),
      by decide, by decide, noNewlineHead_cons '\x7b' _ (by decide),
      plainText_of_atOpen _ (by decide) (by decide),
      plainText_tag '/' "li>".toList (by decide) (by decide) (by decide)⟩,
    plainText_tag '/' "ul>".toList (by decide) (by decide) (by decide)⟩

/-- The number of indices in the name of a block is at least one more than in
the name of the enclosing level, and exceeds it by no more than the nesting
depth. -/
theorem names_depth : ∀ (sk : Skel) (it : Str) (i : Nat), ∀ nm ∈ sk.names it i,
    it.count 'i' < nm.count 'i' ∧ nm.count 'i' ≤ it.count 'i' + sk.depth := by
  have hi : ∀ j, (itoa j).count 'i' = 0 := fun j =>
    List.count_eq_zero.2 (fun h => itoa_not_mem j (x := 'i') (by decide) _ h rfl)
  intro sk
  induction sk with
  | text t => intro it i nm h; simp [Skel.names] at h
  | block pre k nl body rest ihb ihr =>
    intro it i nm h
    have hc : (it ++ "i".toList ++ itoa i).count 'i' = it.count 'i' + 1 := by
      rw [List.count_append, List.count_append, hi]
      rfl
    simp only [Skel.names, List.mem_cons, List.mem_append] at h
    simp only [Skel.depth]
    rcases h with h | h | h
    · rw [h, hc]
      omega
    · have := ihb _ 0 nm h
      rw [hc] at this
      omega
    · have := ihr it (i + 1) nm h
      omega

/-- Claim C8 as stated fails. Two blocks `a` and `b` side by side nest to depth 1
and get the two names `$i0` and `$i1`; the block `b` nested in `a`, at depth 2,
gets the name `$i0i0`; and two equal blocks side by side are converted in one
round and both get the name `$i0`. -/
theorem C8_names_counterexample :
    Skel.depth (.block [] "a".toList [] (.text "x".toList)
      (.block [] "b".toList [] (.text "y".toList) (.text []))) = 1 ∧
    convertLoopsTrace asciiLetters 6 0
        "<!-- BEGIN a -->x<!-- END a --><!-- BEGIN b -->y<!-- END b -->".toList
        "$".toList "$".toList =
      .ret ((("\x7b\x7brange $i0, $i0_v := $.a\x7d\x7dx\x7b\x7b- end\x7d\x7d" ++
        "\x7b\x7brange $i1, $i1_v := $.b\x7d\x7dy\x7b\x7b- end\x7d\x7d").toList, none),
        ["$i0".toList, "$i1".toList]) ∧
    convertLoopsTrace asciiLetters 6 0
        "<!-- BEGIN a --><!-- BEGIN b -->x<!-- END b --><!-- END a -->".toList
        "$".toList "$".toList =
      .ret ((("\x7b\x7brange $i0, $i0_v := $.a\x7d\x7d" ++
        "\x7b\x7brange $i0i0, $i0i0_v := (index $.a $i0).b\x7d\x7dx\x7b\x7b- end\x7d\x7d" ++
        "\x7b\x7b- end\x7d\x7d").toList, none), ["$i0".toList, "$i0i0".toList]) ∧
    convertLoopsTrace asciiLetters 6 0
        "<!-- BEGIN a -->x<!-- END a --><!-- BEGIN a -->x<!-- END a -->".toList
        "$".toList "$".toList =
      .ret ((("\x7b\x7brange $i0, $i0_v := $.a\x7d\x7dx\x7b\x7b- end\x7d\x7d" ++
        "\x7b\x7brange $i0, $i0_v := $.a\x7d\x7dx\x7b\x7b- end\x7d\x7d").toList, none),
        ["$i0".toList]) := by
  refine ⟨by decide, by decide, by decide, by decide⟩

/-! ## The segment `length` inside a path -/

theorem pathText_length (head : Str) (segs1 segs2 : List Segment) :
    pathText head segs1 ++ ".length".toList ++ (segs2.map Segment.text).flatten =
      pathText head (segs1 ++ Segment.field "length".toList :: segs2) := by
  simp [pathText, Segment.text]

/-- Claim C17 (amended): on a path `p.length` followed by further segments,
`convertName` wraps the resolution `E` of `p` as `(len E)` and goes on: the
segments after `length` are applied, in order, to `(len E)`. -/
theorem C17_length_then_segments (ext : Char → Bool) (head : Str) (segs1 segs2 : List Segment)
    (fuel : Nat) (hhead : isIdentifier ext head = true) (h1 : ∀ sg ∈ segs1, sg.wf ext)
    (h2 : ∀ sg ∈ segs2, sg.wf ext) (hfuel : segs1.length + segs2.length + 2 < fuel) :
    convertName fuel (pathText head segs1) =
        .ret ((Segment.field head :: segs1).foldl Segment.apply "$".toList) ∧
      convertName fuel (pathText head segs1 ++ ".length".toList ++ (segs2.map Segment.text).flatten) =
        .ret (segs2.foldl Segment.apply
          ("(len ".toList ++ (Segment.field head :: segs1).foldl Segment.apply "$".toList
            ++ ")".toList)) := by
  refine ⟨convertName_path ext head segs1 fuel hhead (fun sg h => loose_of_wf ext (h1 sg h))
    (by omega), ?_⟩
  rw [pathText_length, convertName_path ext head _ fuel hhead ?_ (by simp; omega)]
  · simp [List.foldl_append, Segment.apply]
  · intro sg hsg
    simp only [List.mem_append, List.mem_cons] at hsg
    rcases hsg with h | h | h
    · exact loose_of_wf ext (h1 sg h)
    · subst h
      intro c hc
      revert c
      decide
    · exact loose_of_wf ext (h2 sg h)

/-- Claim C17 at the path `a.length.b`, whose result is `(len $.a).b`. -/
theorem C17_length_then_segments_witness :
    convertName 4 (pathText "a".toList []) = .ret "$.a".toList ∧
      convertName 4 (pathText "a".toList [] ++ ".length".toList
        ++ ([Segment.field "b".toList].map Segment.text).flatten) = .ret "(len $.a).b".toList :=
  C17_length_then_segments asciiLetters "a".toList [] [.field "b".toList] 4 (by decide)
    (by simp)
    (by
      intro sg hsg
      simp only [List.mem_singleton] at hsg
      subst hsg
      show isIdentifier asciiLetters "b".toList = true
      decide)
    (by decide)

/-- The path `a.length.b`: the resolution of `a` is `$.a`, and the result is not
`(len $.a)`, since the segment `.b` after `length` has been applied. -/
theorem C17_length_not_final :
    convertName 6 "a".toList = .ret "$.a".toList ∧
      convertName 6 "a.length.b".toList = .ret "(len $.a).b".toList ∧
      convertName 6 "a.length.b".toList ≠ .ret "(len $.a)".toList := by
  decide

/-! ## The iterations of `convertName` -/

/-- The loop of `convertName` is the iteration of `convertNameStep`. -/
theorem convertNameLoop_step (fuel : Nat) (e r : Str) :
    convertNameLoop (fuel + 1) e r =
      match convertNameStep e r with
      | .done x => .ret x
      | .next e1 r1 => convertNameLoop fuel e1 r1
      | .fail => .panic := by
  cases r with
  | nil => rfl
  | cons c tl =>
    simp only [convertNameLoop, convertNameStep]
    split
    · cases indexOf (fun x => x == ']') tl <;> rfl
    · rfl

theorem indexOf_pos {p : Char → Bool} {c : Char} {tl : Str} {i : Nat} (hc : p c = false)
    (h : indexOf p (c :: tl) = some i) : 0 < i := by
  simp only [indexOf, hc, Bool.false_eq_true, if_false, Option.map_eq_some'] at h
  obtain ⟨j, _, e⟩ := h
  omega

/-- Every iteration that goes on leaves a strictly shorter remaining text,
whatever the text. -/
theorem convertNameStep_shorter {e r e1 r1 : Str} (h : convertNameStep e r = .next e1 r1) :
    r1.length < r.length := by
  cases r with
  | nil => simp [convertNameStep] at h
  | cons c tl =>
    simp only [convertNameStep] at h
    split at h
    · split at h
      · exact absurd h (by simp)
      · simp only [NameStep.next.injEq] at h
        rw [← h.2]
        simp only [List.length_drop, List.length_cons]
        omega
    · rename_i hc
      simp only [NameStep.next.injEq] at h
      rw [← h.2]
      by_cases hd : c = '.'
      · simp only [hd, if_true]
        cases indexOf (fun x => x == '.' || x == '[') tl with
        | none => simp
        | some i => simp only [List.length_drop, List.length_cons]; omega
      · simp only [hd, if_false]
        cases hi : indexOf (fun x => x == '.' || x == '[') (c :: tl) with
        | none => simp
        | some i =>
          have := indexOf_pos (p := fun x => x == '.' || x == '[') (by simp [hd, hc]) hi
          simp only [List.length_drop, List.length_cons]
          omega

theorem convertNameStep_field (e n rest : Str)
    (hn : ∀ c ∈ n, (c == '.' || c == '[') = false) (hrest : sepStart rest) :
    convertNameStep e ('.' :: (n ++ rest)) = .next (Segment.apply e (.field n)) rest := by
  simp only [convertNameStep, Segment.apply, ↓reduceIte]
  rw [if_neg (by decide)]
  rcases hrest with h | ⟨c, tl, h, hc⟩
  · subst h
    simp [indexOf_none hn]
  · subst h
    simp [indexOf_append hn c hc tl]

theorem convertNameStep_head (e n rest : Str) (hne : n ≠ [])
    (hn : ∀ c ∈ n, (c == '.' || c == '[') = false) (hrest : sepStart rest) :
    convertNameStep e (n ++ rest) = .next (Segment.apply e (.field n)) rest := by
  cases n with
  | nil => exact absurd rfl hne
  | cons c cs =>
    have hc := hn c (by simp)
    simp only [Bool.or_eq_false_iff, beq_eq_false_iff_ne, ne_eq] at hc
    simp only [List.cons_append, convertNameStep, Segment.apply]
    rw [if_neg hc.2, if_neg hc.1]
    rcases hrest with h | ⟨d, tl, h, hd⟩
    · subst h
      have := indexOf_none hn
      simp only [List.append_nil]
      rw [this]
    · subst h
      have := indexOf_append hn d hd tl
      simp only [List.cons_append] at this
      rw [this]
      simp

theorem convertNameStep_index (e d rest : Str) (hd : ∀ c ∈ d, (c == ']') = false) :
    convertNameStep e ('[' :: (d ++ ']' :: rest)) = .next (Segment.apply e (.index d)) rest := by
  simp only [convertNameStep, Segment.apply, ↓reduceIte]
  rw [indexOf_append hd ']' (by decide) rest]
  simp

/-- No iteration over the text of a list of segments fails. -/
theorem convertNameStates_segments (segs : List Segment) :
    (∀ sg ∈ segs, sg.loose) → ∀ (fuel : Nat) (e : Str),
      ∀ st ∈ convertNameStates fuel e (segs.map Segment.text).flatten,
        convertNameStep st.1 st.2 ≠ .fail := by
  induction segs with
  | nil =>
    intro _ fuel e st hst
    cases fuel with
    | zero => simp [convertNameStates] at hst
    | succ n =>
      simp only [List.map_nil, List.flatten_nil, convertNameStates, convertNameStep,
        List.mem_singleton] at hst
      subst hst
      simp [convertNameStep]
  | cons sg rest ih =>
    intro hwf fuel e st hst
    have hsg := hwf sg (by simp)
    cases fuel with
    | zero => simp [convertNameStates] at hst
    | succ n =>
      cases sg with
      | field f =>
        have hstep := convertNameStep_field e f _ hsg (sepStart_segments rest)
        simp only [List.map_cons, List.flatten_cons, Segment.text, List.cons_append,
          convertNameStates, List.mem_cons] at hst
        rw [hstep] at hst
        rcases hst with h | h
        · subst h
          simp only
          rw [hstep]
          simp
        · exact ih (fun x hx => hwf x (by simp [hx])) n _ st h
      | index d =>
        have hstep := convertNameStep_index e d (rest.map Segment.text).flatten hsg
        simp only [List.map_cons, List.flatten_cons, Segment.text, List.cons_append,
          List.append_assoc, List.singleton_append, List.nil_append, convertNameStates,
          List.mem_cons] at hst
        rw [hstep] at hst
        rcases hst with h | h
        · subst h
          simp only
          rw [hstep]
          simp
        · exact ih (fun x hx => hwf x (by simp [hx])) n _ st h

/-- No iteration over a path (an identifier followed by segments) fails. -/
theorem convertNameStates_path (ext : Char → Bool) (head : Str) (segs : List Segment)
    (hhead : isIdentifier ext head = true) (hsegs : ∀ sg ∈ segs, sg.loose) (fuel : Nat) :
    ∀ st ∈ convertNameStates fuel "$".toList (pathText head segs),
      convertNameStep st.1 st.2 ≠ .fail := by
  obtain ⟨hne, hchars⟩ := isIdentifier_chars ext hhead
  have hstep := convertNameStep_head "$".toList head (segs.map Segment.text).flatten hne
    (fun c hc => identRest_not_sep ext (hchars c hc)) (sepStart_segments segs)
  intro st hst
  cases fuel with
  | zero => simp [convertNameStates] at hst
  | succ n =>
    simp only [pathText, convertNameStates, List.mem_cons] at hst
    rw [hstep] at hst
    rcases hst with h | h
    · subst h
      simp only
      rw [hstep]
      simp
    · exact convertNameStates_segments segs hsegs n _ st h

/-- Claim C20: on every path of the key grammar, and on every identifier
followed by `.identifier` and `[digits]` segments, `convertName` returns a
result once the fuel exceeds the length of the path by more than one (it neither
stops at a slice nor uses up its iterations); no iteration of its loop fails,
so that every `[` met has its `]`; and every iteration that goes on leaves a
strictly shorter remaining text. -/
theorem C20_convertName_total (ext : Char → Bool) (p : Str) (fuel : Nat)
    (hp : isKey ext p = true ∨
      ∃ head segs, isIdentifier ext head = true ∧ (∀ sg ∈ segs, Segment.wf ext sg) ∧
        p = pathText head segs)
    (hfuel : p.length + 1 < fuel) :
    (∃ E, convertName fuel p = .ret E) ∧
      ∀ st ∈ convertNameStates fuel "$".toList p,
        convertNameStep st.1 st.2 ≠ .fail ∧
          ∀ e1 r1, convertNameStep st.1 st.2 = .next e1 r1 → r1.length < st.2.length := by
  have hcases : p ∈ specialTokens ∨
      ∃ head segs, isIdentifier ext head = true ∧ (∀ sg ∈ segs, sg.loose) ∧ p = pathText head segs := by
    rcases hp with hk | ⟨head, segs, hh, hs, e⟩
    · exact isKey_cases ext hk
    · exact Or.inr ⟨head, segs, hh, fun sg h => loose_of_wf ext (hs sg h), e⟩
  refine ⟨?_, fun st hst => ⟨?_, fun e1 r1 h => convertNameStep_shorter h⟩⟩
  · rcases hcases with h | ⟨head, segs, hh, hs, e⟩
    · exact ⟨p, convertName_special h fuel⟩
    · refine ⟨_, e ▸ convertName_path ext head segs fuel hh hs ?_⟩
      have h1 := length_segments_le segs
      have h2 : p.length = head.length + ((segs.map Segment.text).flatten).length := by
        rw [e, pathText, List.length_append]
      omega
  · rcases hcases with h | ⟨head, segs, hh, hs, e⟩
    · obtain ⟨k, rfl⟩ : ∃ k, fuel = k + 2 := ⟨fuel - 2, by omega⟩
      simp only [specialTokens, List.mem_cons, List.mem_singleton, List.not_mem_nil, or_false] at h
      have hstates : convertNameStates (k + 2) "$".toList p = [("$".toList, p), ("$.".toList ++ p, [])] := by
        rcases h with h | h | h | h <;> subst h <;> rfl
      rw [hstates] at hst
      simp only [List.mem_cons, List.mem_singleton, List.not_mem_nil, or_false] at hst
      rcases hst with e | e
      · subst e
        rcases h with h | h | h | h <;> subst h <;> decide
      · subst e
        simp [convertNameStep]
    · subst e
      exact convertNameStates_path ext head segs hh hs fuel st hst

/-- Claim C20 at the key `a.b.[2].c` and at the path `a.b[2].c`. -/
theorem C20_convertName_total_witness :
    ((∃ E, convertName 12 "a.b.[2].c".toList = .ret E) ∧
      ∀ st ∈ convertNameStates 12 "$".toList "a.b.[2].c".toList,
        convertNameStep st.1 st.2 ≠ .fail ∧
          ∀ e1 r1, convertNameStep st.1 st.2 = .next e1 r1 → r1.length < st.2.length) ∧
    ((∃ E, convertName 12 "a.b[2].c".toList = .ret E) ∧
      ∀ st ∈ convertNameStates 12 "$".toList "a.b[2].c".toList,
        convertNameStep st.1 st.2 ≠ .fail ∧
          ∀ e1 r1, convertNameStep st.1 st.2 = .next e1 r1 → r1.length < st.2.length) :=
  ⟨C20_convertName_total asciiLetters "a.b.[2].c".toList 12 (Or.inl (by decide)) (by decide),
   C20_convertName_total asciiLetters "a.b[2].c".toList 12
    (Or.inr ⟨"a".toList, [.field "b".toList, .index "2".toList, .field "c".toList], by decide,
      by
        intro sg hsg
        simp only [List.mem_cons, List.mem_singleton, List.not_mem_nil, or_false] at hsg
        rcases hsg with h | h | h <;> subst h
        · show isIdentifier asciiLetters "b".toList = true
          decide
        · exact ⟨by decide, by decide⟩
        · show isIdentifier asciiLetters "c".toList = true
          decide,
      by decide⟩) (by decide)⟩

/-! ## A function-call reference with any number of arguments -/

theorem argText_cons (a : Str) (as : List Str) :
    argText (a :: as) = ", ".toList ++ a ++ argText as := by
  simp [argText]

/-- The pieces of `pre, a1, …, ak` are `pre` and the arguments. -/
theorem splitFrom_argText (as : List Str) :
    (∀ a ∈ as, ∀ c ∈ a, c ≠ ' ' ∧ c ≠ ',') → ∀ (pre : Str), (∀ c ∈ pre, c ≠ ' ' ∧ c ≠ ',') →
      ∀ b, splitFrom functionsArgs b 0 (pre ++ argText as) = pre :: as := by
  induction as with
  | nil =>
    intro _ pre hpre b
    have := splitFrom_skip functionsArgs pre [] [] []
      (fun c hc b cs => functionsArgs_matchAt_none c cs b (hpre c hc).1 (hpre c hc).2)
      (fun _ => rfl) b
    simpa [argText] using this
  | cons a rest ih =>
    intro has pre hpre b
    have ha := has a (by simp)
    have hrest := ih (fun x hx => has x (by simp [hx])) a ha
    have hhead : ∀ c tl, a ++ argText rest = c :: tl → (c == ' ') = false := by
      intro c tl e
      cases a with
      | nil =>
        cases rest with
        | nil => simp [argText] at e
        | cons r rs =>
          rw [argText_cons] at e
          simp only [List.nil_append, List.append_assoc] at e
          have : c = ',' := by
            have := (List.cons.inj e).1
            exact this.symm
          subst this
          decide
      | cons x xs =>
        simp only [List.cons_append, List.cons.injEq] at e
        rw [← e.1]
        simpa using (ha x (by simp)).1
    have e3 : ∀ b, splitFrom functionsArgs b 0 (", ".toList ++ (a ++ argText rest)) =
        [] :: a :: rest := by
      intro b
      rw [splitFrom_match (functionsArgs_matchAt (a ++ argText rest) hhead b) rfl (by simp), hrest]
    have := splitFrom_skip functionsArgs pre _ [] (a :: rest)
      (fun c hc b cs => functionsArgs_matchAt_none c cs b (hpre c hc).1 (hpre c hc).2) e3 b
    rw [argText_cons, List.append_assoc]
    simpa using this

/-- The argument text splits into the empty leading element and the arguments. -/
theorem reSplit_argText (as : List Str) (has : ∀ a ∈ as, ∀ c ∈ a, c ≠ ' ' ∧ c ≠ ',') :
    reSplit functionsArgs (argText as) = [] :: as := by
  have := splitFrom_argText as has [] (by simp) true
  simpa [reSplit] using this

theorem fullMatch_argText (ext : Char → Bool) (as : List Str)
    (has : ∀ a ∈ as, isKey ext a = true) : fullMatch (argsStar ext) (argText as) = true := by
  induction as with
  | nil => exact fullMatch_argsStar_nil ext
  | cons a rest ih =>
    rw [argText_cons]
    exact fullMatch_argsStar_cons ext (has a (by simp)) (ih (fun x hx => has x (by simp [hx])))

/-- The result of `convertMethod` on a list with its leading element. -/
theorem convertMethod_list (fuel : Nat) (n x0 : Str) {args Es : List Str}
    (h : List.Forall₂ (fun a E => convertName fuel a = .ret E) args Es) :
    convertMethod fuel n (x0 :: args) = .ret (n ++ " $ ".toList ++ strJoin Es " ".toList) := by
  cases h with
  | nil => rfl
  | @cons a E as Es1 h1 h2 =>
    have hargs := convertArgs_of_forall₂ fuel (List.Forall₂.cons h1 h2)
    unfold convertMethod
    rw [if_pos (by simp)]
    simp only [List.drop_succ_cons, List.drop_zero, hargs, Outcome.bind]

/-- With enough fuel `convertName` returns on each path of a list. -/
theorem convertName_keys (ext : Char → Bool) (fuel : Nat) (as : List Str)
    (has : ∀ a ∈ as, isKey ext a = true) (hfuel : ∀ a ∈ as, a.length + 1 < fuel) :
    ∃ Es, List.Forall₂ (fun a E => convertName fuel a = .ret E) as Es := by
  induction as with
  | nil => exact ⟨[], List.Forall₂.nil⟩
  | cons a rest ih =>
    obtain ⟨Es, hEs⟩ := ih (fun x hx => has x (by simp [hx])) (fun x hx => hfuel x (by simp [hx]))
    obtain ⟨E, hE⟩ := convertName_key ext (has a (by simp)) fuel (hfuel a (by simp))
    exact ⟨E :: Es, List.Forall₂.cons hE hEs⟩

theorem strJoin_not_mem {x : Char} (Es : List Str) (sep : Str) (hsep : ∀ c ∈ sep, c ≠ x)
    (hEs : ∀ E ∈ Es, ∀ c ∈ E, c ≠ x) : ∀ c ∈ strJoin Es sep, c ≠ x := by
  induction Es with
  | nil => simp [strJoin]
  | cons E rest ih =>
    cases rest with
    | nil => simpa [strJoin] using hEs E (by simp)
    | cons F Fs =>
      simp only [strJoin]
      exact not_mem_append (not_mem_append (hEs E (by simp)) hsep)
        (ih (fun G hG => hEs G (by simp [hG])))

/-- No character `x` that is a delimiter foreign to `convertName` occurs in the
results of `convertName` on paths of the key grammar. -/
theorem results_not_mem (ext : Char → Bool) {fuel : Nat} {as Es : List Str}
    (has : ∀ a ∈ as, isKey ext a = true)
    (h : List.Forall₂ (fun a E => convertName fuel a = .ret E) as Es) {x : Char}
    (hx : isDelim x = true) (hx2 : x ∉ nameLiterals) : ∀ E ∈ Es, ∀ c ∈ E, c ≠ x := by
  induction h with
  | nil => simp
  | @cons a E as1 Es1 h1 _ ih =>
    intro G hG
    rcases List.mem_cons.1 hG with hG | hG
    · subst hG
      exact convertName_key_not_mem ext (has a (by simp)) h1 hx hx2
    · exact ih (fun y hy => has y (by simp [hy])) G hG

theorem argText_not_mem (ext : Char → Bool) (as : List Str) (has : ∀ a ∈ as, isKey ext a = true)
    {x : Char} (hx : isDelim x = true) (hx1 : x ≠ ',') (hx2 : x ≠ ' ') :
    ∀ c ∈ argText as, c ≠ x := by
  induction as with
  | nil => simp [argText]
  | cons a rest ih =>
    rw [argText_cons]
    refine not_mem_append (not_mem_append ?_ (keyChar_not_delim ext (isKey_chars ext (has a (by simp))) hx))
      (ih (fun y hy => has y (by simp [hy])))
    intro c hc
    simp only [String.toList, List.mem_cons, List.mem_singleton, List.not_mem_nil, or_false] at hc
    rcases hc with hc | hc <;> subst hc
    · exact fun e => hx1 e.symm
    · exact fun e => hx2 e.symm

/-- No single-brace reference is found in the interpolation of a call. -/
theorem findAll_escapedKey_interp (ext : Char → Bool) {n : Str} (hn : isIdentifier ext n = true)
    (rest : Str) (hrest : ∀ c ∈ rest, c ≠ '\x7b') :
    findAll (escapedKeyRegex ext) (interp (n ++ " $ ".toList ++ rest)) = [] := by
  have hnk := isIdentifier_keyChars ext hn
  have hX : ∀ c ∈ n ++ ' ' :: ("$ ".toList ++ rest ++ "\x7d\x7d".toList), c ≠ '\x7b' :=
    not_mem_append (keyChar_not_delim ext hnk (by decide)) (by
      intro c hc
      rcases List.mem_cons.1 hc with hc | hc
      · subst hc; decide
      · exact not_mem_append (not_mem_append (by decide) hrest) (by decide) c hc)
  have eOut : interp (n ++ " $ ".toList ++ rest) =
      '\x7b' :: ('\x7b' :: (n ++ ' ' :: ("$ ".toList ++ rest ++ "\x7d\x7d".toList))) := by
    simp [interp]
  have hdot : ∀ tl, n ++ ' ' :: ("$ ".toList ++ rest ++ "\x7d\x7d".toList) ≠ '.' :: tl := by
    intro tl e
    obtain ⟨c, cs, rfl, _, _⟩ := (isIdentifier_iff ext n).1 hn
    simp only [List.cons_append, List.cons.injEq] at e
    have := isIdentifier_not_punct ext hn (c := c) (by simp)
    rw [e.1] at this
    exact absurd this (by decide)
  unfold findAll
  have hm0 : ∀ (b : Bool) (R : Str),
      matchAt (escapedKeyRegex ext) b ('\x7b' :: '\x7b' :: R) = none := by
    intro b R
    have := escapedKey_matchAt_none ext [] '\x7b' R (by simp)
      (keyChar_of_isDelim ext (by decide)) (by decide) (by simp) b
    simpa using this
  rw [eOut, findAllFrom_cons_none (hm0 _ _),
    findAllFrom_cons_none
    (escapedKey_matchAt_none ext n ' ' _ hnk (keyChar_of_isDelim ext (by decide))
      (by decide) hdot _)]
  exact findAllFrom_nil_of_not_mem (needsHead_escapedKey ext) _ hX _

/-- The matches of the two first patterns of the Variable Pass on a function-call
reference: no double-braced reference, and the call as the one match of
`functionRegex`. -/
theorem findAll_callRef (ext : Char → Bool) {n : Str} {as : List Str}
    (hn : isIdentifier ext n = true) (has : ∀ a ∈ as, isKey ext a = true) :
    findAll (rawKeyRegex ext) (callRef n as) = [] ∧
      findAll (functionRegex ext) (callRef n as) = [⟨callRef n as, [(2, argText as), (1, n)]⟩] := by
  have hnk := isIdentifier_keyChars ext hn
  have hu : ∀ c ∈ "function.".toList ++ n ++ argText as ++ "\x7d".toList, c ≠ '\x7b' :=
    not_mem_append (not_mem_append (not_mem_append (by decide)
      (keyChar_not_delim ext hnk (by decide)))
      (argText_not_mem ext as has (by decide) (by decide) (by decide))) (by decide)
  have eT : callRef n as = '\x7b' :: ("function.".toList ++ n ++ argText as ++ "\x7d".toList) := rfl
  constructor
  · unfold findAll
    rw [eT]
    exact findAllFrom_block_last (needsHead_rawKey ext) _ _ hu (matchAt_lit_none _ _ _ _ rfl)
  · have hm := function_matchAt ext hn (fullMatch_argText ext as has) [] true
    rw [List.append_nil] at hm
    exact findAllFrom_match_last hm rfl (by rw [eT]; simp)

/-- The Variable Pass on a function-call reference. -/
theorem convertVariables_callRef (ext : Char → Bool) (fuel : Nat) {n : Str} {as Es : List Str}
    (hn : isIdentifier ext n = true) (has : ∀ a ∈ as, isKey ext a = true)
    (hEs : List.Forall₂ (fun a E => convertName fuel a = .ret E) as Es) :
    convertMethod fuel n (reSplit functionsArgs (argText as)) =
        .ret (n ++ " $ ".toList ++ strJoin Es " ".toList) ∧
      convertVariables ext fuel (callRef n as) =
        .ret (interp (n ++ " $ ".toList ++ strJoin Es " ".toList), none) ∧
      findAll (escapedKeyRegex ext) (interp (n ++ " $ ".toList ++ strJoin Es " ".toList)) = [] := by
  have hsp : ∀ a ∈ as, ∀ c ∈ a, c ≠ ' ' ∧ c ≠ ',' := fun a ha c hc =>
    ⟨keyChar_not_delim ext (isKey_chars ext (has a ha)) (by decide) c hc,
      keyChar_not_delim ext (isKey_chars ext (has a ha)) (by decide) c hc⟩
  have hcall : convertMethod fuel n (reSplit functionsArgs (argText as)) =
      .ret (n ++ " $ ".toList ++ strJoin Es " ".toList) := by
    rw [reSplit_argText as hsp]
    exact convertMethod_list fuel n [] hEs
  have f3 := findAll_escapedKey_interp ext hn (strJoin Es " ".toList)
    (strJoin_not_mem Es _ (by decide) (results_not_mem ext has hEs (by decide) (by decide)))
  obtain ⟨f1, f2⟩ := findAll_callRef ext hn has
  refine ⟨hcall, ?_, f3⟩
  unfold convertVariables
  rw [f1, f2]
  simp only [List.take_nil]
  rw [replaceFunctions_single fuel _ n _ _ _ hcall]
  simp only [Outcome.bind]
  have hself : strReplace (callRef n as) (callRef n as)
      ("\x7b\x7b".toList ++ (n ++ " $ ".toList ++ strJoin Es " ".toList) ++ "\x7d\x7d".toList) =
      interp (n ++ " $ ".toList ++ strJoin Es " ".toList) :=
    strReplace_self _ _ (by simp [callRef])
  rw [hself, f3]
  simp only [replaceKeys]

/-- An identifier followed by `.` and an identifier is a path of the key grammar. -/
theorem isKey_field (ext : Char → Bool) {K F : Str} (hK : isIdentifier ext K = true)
    (hF : isIdentifier ext F = true) : isKey ext (K ++ '.' :: F) = true := by
  obtain ⟨s1, m1, e1⟩ := @fullMatch_frame (identifierRegex ext) _ rfl hK [] false ('.' :: F)
  obtain ⟨s2, m2, e2⟩ := @fullMatch_frame (identifierRegex ext) _ rfl hF s1.caps false []
  rw [List.append_nil] at m2
  refine fullMatch_iff.2 ⟨s2, ?_, e2⟩
  simp only [keyRegex]
  refine mem_run_alt.2 (Or.inr (mem_run_seq.2 ⟨s1, m1, ?_⟩))
  refine mem_run_star.2 (@Reach.step _ _ s2 _ ?_ ?_ (Reach.refl _))
  · simp only [namespaceRegex]
    refine mem_run_seq.2 ⟨⟨s1.caps, false, F⟩, ?_, mem_run_alt.2 (Or.inl m2)⟩
    rw [show s1 = ⟨s1.caps, s1.atStart, '.' :: F⟩ by rw [← e1]]
    simp [run_chr_cons]
  · rw [e1, e2]
    simp

/-- Claim C11 (amended): for a zero-argument call, whose argument text is
empty, `convertMethod` returns the function name, a space, the root symbol `$`
and one more space, so that `Convert` turns `{function.n}` into `{{n $ }}`. -/
theorem C11_zero_argument_call (ext : Char → Bool) (fuel : Nat) (n : Str)
    (hn : isIdentifier ext n = true) :
    convertMethod fuel n (reSplit functionsArgs []) = .ret (n ++ " $ ".toList) ∧
      Convert ext (fuel + 1) ("\x7bfunction.".toList ++ n ++ "\x7d".toList) =
        .ret ("\x7b\x7b".toList ++ (n ++ " $ ".toList) ++ "\x7d\x7d".toList, none) := by
  obtain ⟨h1, h2, _⟩ := @convertVariables_callRef ext (fuel + 1) n [] [] hn (by simp)
    List.Forall₂.nil
  refine ⟨by simpa [argText, strJoin] using h1, ?_⟩
  have hnc : ∀ c ∈ n, c ≠ '<' := keyChar_not_delim ext (isIdentifier_keyChars ext hn) (by decide)
  have hout : ∀ c ∈ interp (n ++ " $ ".toList ++ strJoin [] " ".toList), c ≠ '<' :=
    not_mem_append (not_mem_append (by decide) (not_mem_append (not_mem_append hnc (by decide))
      (by simp [strJoin]))) (by decide)
  have := parse_of_stages ext _ _ _ _ _ h2 (convertConditions_of_not_mem ext _ _ hout)
    (convertLoopsFrom_of_not_mem ext fuel 0 _ _ _ hout)
  simpa [callRef, argText, interp, strJoin] using this

/-- Claim C11 at the call `{function.now}`, which converts to `{{now $ }}`. -/
theorem C11_zero_argument_call_witness :
    convertMethod 2 "now".toList (reSplit functionsArgs []) = .ret ("now".toList ++ " $ ".toList) ∧
      Convert asciiLetters (2 + 1) ("\x7bfunction.".toList ++ "now".toList ++ "\x7d".toList) =
        .ret ("\x7b\x7b".toList ++ ("now".toList ++ " $ ".toList) ++ "\x7d\x7d".toList, none) :=
  C11_zero_argument_call asciiLetters 2 "now".toList (by decide)

/-- The zero-argument call `{function.n}`: the argument text is empty, the
result of `convertMethod` is `n $ ` with a space behind the root symbol, and the
output of `Convert` is `{{n $ }}`, not `{{n $}}`. -/
theorem C11_trailing_space :
    convertMethod 3 "n".toList (reSplit functionsArgs []) = .ret "n $ ".toList ∧
      convertMethod 3 "n".toList (reSplit functionsArgs []) ≠ .ret "n $".toList ∧
      Convert asciiLetters 3 "\x7bfunction.n\x7d".toList = .ret ("\x7b\x7bn $ \x7d\x7d".toList, none) ∧
      Convert asciiLetters 3 "\x7bfunction.n\x7d".toList ≠ .ret ("\x7b\x7bn $\x7d\x7d".toList, none) := by
  decide

/-- Claim C18: on a function-call reference `{function.n, a1, …, ak}`, `k ≥ 0`,
with an identifier `n` and paths of the key grammar as arguments, the Variable
Pass returns the one interpolation of the result of `convertMethod`; this is not
the interpolation `{{$.function.n}}` of the variable `function.n`, although for
`k = 0` the reference is matched by the single-brace pattern with the path
`function.n`; and the step over the single-brace references, which runs
afterwards, finds no reference in that interpolation and leaves it as it is. -/
theorem C18_call_before_variable (ext : Char → Bool) (fuel : Nat) (n : Str) (as : List Str)
    (hn : isIdentifier ext n = true) (has : ∀ a ∈ as, isKey ext a = true)
    (hfuel : ∀ a ∈ as, a.length + 1 < fuel) :
    ∃ call, convertMethod fuel n (reSplit functionsArgs (argText as)) = .ret call ∧
      convertVariables ext fuel (callRef n as) = .ret (interp call, none) ∧
      interp call ≠ interp ("$.function.".toList ++ n) ∧
      findAll (escapedKeyRegex ext) (interp call) = [] ∧
      replaceKeys fuel (findAll (escapedKeyRegex ext) (interp call)) (interp call) =
        .ret (interp call) ∧
      matchAt (escapedKeyRegex ext) true (callRef n []) =
        some ⟨callRef n [], [(2, "function.".toList ++ n)]⟩ := by
  obtain ⟨Es, hEs⟩ := convertName_keys ext fuel as has hfuel
  obtain ⟨h1, h2, h3⟩ := convertVariables_callRef ext fuel hn has hEs
  refine ⟨_, h1, h2, ?_, h3, ?_, ?_⟩
  · intro e
    obtain ⟨c, cs, rfl, _, _⟩ := (isIdentifier_iff ext n).1 hn
    have hc := isIdentifier_not_punct ext hn (c := c) (by simp)
    simp only [interp, List.append_assoc, List.cons_append, String.toList, List.nil_append,
      List.cons.injEq, true_and] at e
    rw [e.1] at hc
    exact absurd hc (by decide)
  · rw [h3]
    rfl
  · have hf : isIdentifier ext "function".toList = true :=
      isIdentifier_ascii ext 'f' "unction".toList (by decide)
    have hk := isKey_field ext hf hn
    have := escapedKey_matchAt ext hk [] true
    simpa [callRef, argText] using this

/-- Claim C18 at the references `{function.print, user.name, @index}` and
`{function.now}`. -/
theorem C18_call_before_variable_witness :
    (∃ call, convertMethod 12 "print".toList
          (reSplit functionsArgs (argText ["user.name".toList, "@index".toList])) = .ret call ∧
      convertVariables asciiLetters 12 (callRef "print".toList ["user.name".toList, "@index".toList]) =
        .ret (interp call, none) ∧
      interp call ≠ interp ("$.function.".toList ++ "print".toList) ∧
      findAll (escapedKeyRegex asciiLetters) (interp call) = [] ∧
      replaceKeys 12 (findAll (escapedKeyRegex asciiLetters) (interp call)) (interp call) =
        .ret (interp call) ∧
      matchAt (escapedKeyRegex asciiLetters) true (callRef "print".toList []) =
        some ⟨callRef "print".toList [], [(2, "function.".toList ++ "print".toList)]⟩) ∧
    (∃ call, convertMethod 12 "now".toList (reSplit functionsArgs (argText [])) = .ret call ∧
      convertVariables asciiLetters 12 (callRef "now".toList []) = .ret (interp call, none) ∧
      interp call ≠ interp ("$.function.".toList ++ "now".toList) ∧
      findAll (escapedKeyRegex asciiLetters) (interp call) = [] ∧
      replaceKeys 12 (findAll (escapedKeyRegex asciiLetters) (interp call)) (interp call) =
        .ret (interp call) ∧
      matchAt (escapedKeyRegex asciiLetters) true (callRef "now".toList []) =
        some ⟨callRef "now".toList [], [(2, "function.".toList ++ "now".toList)]⟩) :=
  ⟨C18_call_before_variable asciiLetters 12 "print".toList ["user.name".toList, "@index".toList]
      (by decide) (by decide) (by decide),
   C18_call_before_variable asciiLetters 12 "now".toList [] (by decide) (by simp) (by simp)⟩

/-! ## A reference to a field of the collection inside its loop -/

theorem identifier_not_mem (ext : Char → Bool) {k : Str} (hk : isIdentifier ext k = true)
    {x : Char} (hx : isPunct x = true) : ∀ c ∈ k, c ≠ x := by
  intro c hc e
  have := isIdentifier_not_punct ext hk hc
  rw [e, hx] at this
  exact absurd this (by simp)

/-- A path `K.F` begins with `function.` only when `K` is `function`. -/
theorem function_prefix_field (ext : Char → Bool) {K F : Str} (hK : isIdentifier ext K = true)
    (hne : K ≠ "function".toList) : "function.".toList.isPrefixOf (K ++ '.' :: F) = false := by
  cases hq : "function.".toList.isPrefixOf (K ++ '.' :: F) with
  | false => rfl
  | true =>
    rw [List.isPrefixOf_iff_prefix] at hq
    obtain ⟨r, e⟩ := hq
    have e2 : "function".toList ++ '.' :: r = K ++ '.' :: F := by
      rw [← e]
      rfl
    obtain ⟨h1, _, _⟩ := append_cons_unique (P := fun c => c != '.')
      (by decide) (fun c hc => by simpa using identifier_not_mem ext hK (x := '.') (by decide) c hc)
      (by decide) (by decide) e2
    exact absurd h1.symm hne

/-- The result of `convertName` on the path `K.F`. -/
theorem convertName_field (ext : Char → Bool) {K F : Str} (hK : isIdentifier ext K = true)
    (hF : isIdentifier ext F = true) (hK2 : K ≠ "length".toList) (hF2 : F ≠ "length".toList)
    (fuel : Nat) :
    convertName (fuel + 3) (K ++ '.' :: F) = .ret ("$.".toList ++ K ++ ".".toList ++ F) := by
  have h := convertName_path ext K [.field F] (fuel + 3) hK
    (fun sg hsg => by
      simp only [List.mem_singleton] at hsg
      subst hsg
      exact @loose_of_wf ext (.field F) hF) (by simp)
  have e1 : pathText K [.field F] = K ++ '.' :: F := by simp [pathText, Segment.text]
  have e2 : (Segment.field K :: [Segment.field F]).foldl Segment.apply "$".toList =
      "$.".toList ++ K ++ ".".toList ++ F := by
    simp only [List.foldl_cons, List.foldl_nil, Segment.apply, if_neg hK2, if_neg hF2]
    rfl
  rw [e1, e2] at h
  exact h

/-- Claim C14: for identifiers `K`, other than `function` and `length`, and `F`,
other than `length`, `Convert` turns `<!-- BEGIN K -->{K.F}<!-- END K -->` into
the `range` block over `$.K` with the iterator `$i0` whose body is the
interpolation of `(index $.K $i0).F`, the field `F` of the element at the
iterator bound in the header. -/
theorem C14_collection_field (ext : Char → Bool) (fuel : Nat) (K F : Str)
    (hK : isIdentifier ext K = true) (hF : isIdentifier ext F = true)
    (hK1 : K ≠ "function".toList) (hK2 : K ≠ "length".toList) (hF2 : F ≠ "length".toList) :
    Convert ext (fuel + 3)
        (beginMarker K ++ ("\x7b".toList ++ K ++ ".".toList ++ F ++ "\x7d".toList) ++ endMarker K) =
      .ret (rangeBlock "$i0".toList ("$.".toList ++ K)
        ("\x7b\x7b".toList ++ (elemKey ("$.".toList ++ K) "$i0".toList ++ ".".toList ++ F)
          ++ "\x7d\x7d".toList), none) := by
  have hKc := isIdentifier_keyChars ext hK
  have hKn : ∀ {x : Char}, isPunct x = true → ∀ c ∈ K, c ≠ x := fun hx => identifier_not_mem ext hK hx
  have hFn : ∀ {x : Char}, isPunct x = true → ∀ c ∈ F, c ≠ x := fun hx => identifier_not_mem ext hF hx
  have hk : isKey ext (K ++ '.' :: F) = true := isKey_field ext hK hF
  -- the Variable Pass
  have hV := convertVariables_key_in ext (fuel + 3) (beginMarker K) (endMarker K) hk
    (function_prefix_field ext hK hK1) (convertName_field ext hK hF hK2 hF2 fuel)
    (marker_not_mem ext hK (by decide) (by decide)).1
    (marker_not_mem ext hK (by decide) (by decide)).2
  have eIn : beginMarker K ++ ("\x7b".toList ++ K ++ ".".toList ++ F ++ "\x7d".toList) ++ endMarker K
      = beginMarker K ++ (('\x7b' :: ((K ++ '.' :: F) ++ ['\x7d'])) ++ endMarker K) := by
    simp
  obtain ⟨body, hbody⟩ : ∃ body, body = "\x7b\x7b".toList ++ ("$.".toList ++ K ++ ".".toList ++ F)
      ++ "\x7d\x7d".toList := ⟨_, rfl⟩
  rw [← eIn, ← hbody] at hV
  have hV2 : convertVariables ext (fuel + 3)
      (beginMarker K ++ ("\x7b".toList ++ K ++ ".".toList ++ F ++ "\x7d".toList) ++ endMarker K) =
      .ret (beginMarker K ++ body ++ endMarker K, none) := by
    rw [List.append_assoc (beginMarker K) body]
    exact hV
  have hbc : ∀ c ∈ body, c ≠ '<' := by
    rw [hbody]
    exact not_mem_append (not_mem_append (by decide) (not_mem_append (not_mem_append
      (not_mem_append (by decide) (hKn (by decide))) (by decide)) (hFn (by decide)))) (by decide)
  -- the Condition Pass
  have hC := convertConditions_of_onlyLoopMarkers ext (fuel + 3)
    (beginMarker K ++ body ++ endMarker K)
    (onlyLoopMarkers_append (onlyLoopMarkers_append (onlyLoopMarkers_begin ext _ hKc)
      (onlyLoopMarkers_of_not_mem _ hbc)) (onlyLoopMarkers_end ext _ hKc))
  -- the Loop Pass
  have hkey : "$.".toList ++ K =
      strReplace (Segment.apply "$".toList (.field K)) "$.".toList ("$".toList ++ ".".toList) := by
    rw [loopKey_identifier ext hK, if_neg hK2]
    rfl
  have hrep : strReplace body (("$.".toList ++ K) ++ ".".toList)
      (elemKey ("$.".toList ++ K) "$i0".toList ++ ".".toList) =
      "\x7b\x7b".toList ++ (elemKey ("$.".toList ++ K) "$i0".toList ++ ".".toList ++ F)
        ++ "\x7d\x7d".toList := by
    have e : body = "\x7b\x7b".toList ++ ((("$.".toList ++ K) ++ ".".toList) ++
        (F ++ "\x7d\x7d".toList)) := by
      rw [hbody]
      simp
    rw [e, strReplace_single _ _ _ _ '$' (".".toList ++ K ++ ".".toList) (by simp) (by decide)
      (not_mem_append (hFn (by decide)) (by decide))]
    simp
  have hB1c : ∀ {x : Char}, isPunct x = true → x ∉ nameLiterals → x ∉ rangeLiterals →
      ∀ c ∈ "\x7b\x7b".toList ++ (elemKey ("$.".toList ++ K) "$i0".toList ++ ".".toList ++ F)
        ++ "\x7d\x7d".toList, c ≠ x := by
    intro x hx h1 h2
    have hlit : ∀ w : Str, (∀ d ∈ w, d ∈ rangeLiterals) → ∀ c ∈ w, c ≠ x :=
      fun w hw c hc h => h2 (h ▸ hw c hc)
    have hlit2 : ∀ w : Str, (∀ d ∈ w, d ∈ nameLiterals) → ∀ c ∈ w, c ≠ x :=
      fun w hw c hc h => h1 (h ▸ hw c hc)
    have hit : ∀ c ∈ "$i0".toList, c ≠ x := by
      intro c hc e
      subst e
      have hm : ∀ d ∈ "$i0".toList, isPunct d = false ∨ d ∈ nameLiterals := by decide
      rcases hm c hc with h | h
      · rw [hx] at h
        exact absurd h (by simp)
      · exact h1 h
    exact not_mem_append (not_mem_append (hlit _ (by decide)) (not_mem_append (not_mem_append
      (elemKey_not_mem h1 _ _ (not_mem_append (hlit2 _ (by decide)) (hKn hx)) hit)
      (hlit2 _ (by decide))) (hFn hx))) (hlit _ (by decide))
  have hL : convertLoops ext (fuel + 3) (beginMarker K ++ body ++ endMarker K) "$".toList
      "$".toList = .ret (rangeBlock "$i0".toList ("$.".toList ++ K)
        ("\x7b\x7b".toList ++ (elemKey ("$.".toList ++ K) "$i0".toList ++ ".".toList ++ F)
          ++ "\x7d\x7d".toList), none) := by
    unfold convertLoops
    have hsub := substSpecials_of_not_mem "$i0".toList _ (hB1c (x := '@') (by decide) (by decide)
      (by decide))
    rw [← hsub]
    apply convertLoopsFrom_block ext fuel 0 K body "$".toList "$".toList ("$.".toList ++ K)
      "$i0".toList _ _ hK
    · rw [hbody]
      exact noNewlineHead_cons '\x7b' _ (by decide)
    · exact noOcc_of_not_mem _ _ '<' _ rfl hbc
    · exact hkey
    · rfl
    · rw [hrep]
      exact convertLoopsFrom_of_not_mem ext (fuel + 1) 0 _ _ _
        (hB1c (x := '<') (by decide) (by decide) (by decide))
    · exact wrapSpecials_of_not_mem (fuel + 1) _ (hB1c (x := '@') (by decide) (by decide)
        (by decide))
    · rw [hsub]
      have hit : ∀ c ∈ "$i0".toList, c ≠ '<' := by decide
      exact rangeBlock_not_mem (by decide) _ _ _ hit
        (not_mem_append (by decide) (hKn (by decide)))
        (hB1c (x := '<') (by decide) (by decide) (by decide))
  exact parse_of_stages ext _ _ _ _ _ hV2 hC hL

/-- Claim C14 at the keys `items` and `name`: the result for
`<!-- BEGIN items -->{items.name}<!-- END items -->` is
`{{range $i0, $i0_v := $.items}}{{(index $.items $i0).name}}{{- end}}`. -/
theorem C14_collection_field_witness :
    Convert asciiLetters 6
        "<!-- BEGIN items -->\x7bitems.name\x7d<!-- END items -->".toList =
      .ret (("\x7b\x7brange $i0, $i0_v := $.items\x7d\x7d" ++
        "\x7b\x7b(index $.items $i0).name\x7d\x7d\x7b\x7b- end\x7d\x7d").toList, none) :=
  C14_collection_field asciiLetters 3 "items".toList "name".toList (by decide) (by decide)
    (by decide) (by decide) (by decide)

/-! ## The special tokens of a loop body -/

theorem tokenText_cons (p : Str × Str) (items : List (Str × Str)) (last : Str) :
    tokenText (p :: items) last = p.1 ++ (p.2 ++ tokenText items last) := by
  simp [tokenText]

theorem tokenText_nil (last : Str) : tokenText [] last = last := rfl

/-- A special token is `@` followed by letters. -/
theorem special_form {a : Str} (ha : a ∈ specialTokens) :
    ∃ u, a = '@' :: u ∧ ∀ c ∈ u, isPunct c = false := by
  simp only [specialTokens, List.mem_cons, List.mem_singleton, List.not_mem_nil, or_false] at ha
  rcases ha with h | h | h | h <;> subst h <;> exact ⟨_, rfl, by decide⟩

/-- No special token begins where another one stands. -/
theorem special_prefix_false {a b : Str} (ha : a ∈ specialTokens) (hb : b ∈ specialTokens)
    (hne : b ≠ a) (R : Str) : a.isPrefixOf (b ++ R) = false := by
  simp only [specialTokens, List.mem_cons, List.mem_singleton, List.not_mem_nil, or_false] at ha hb
  rcases ha with h | h | h | h <;> subst h <;> rcases hb with h | h | h | h <;> subst h <;>
    first
    | exact absurd rfl hne
    | rfl

/-- Replacing a special token in a text cut at its tokens, some of which may
have been replaced before by texts without `@`. -/
theorem strReplaceFrom_tokens (old new : Str) (hold : old ∈ specialTokens) :
    ∀ items : List (Str × Str),
      (∀ p ∈ items, (∀ c ∈ p.1, c ≠ '@') ∧ (p.2 ∈ specialTokens ∨ ∀ c ∈ p.2, c ≠ '@')) →
      ∀ last : Str, (∀ c ∈ last, c ≠ '@') →
        strReplaceFrom old new 0 (tokenText items last) =
          tokenText (items.map (fun p => (p.1, if p.2 = old then new else p.2))) last := by
  obtain ⟨otl, ho, hotl⟩ := special_form hold
  have hne : old ≠ [] := by rw [ho]; simp
  intro items
  induction items with
  | nil =>
    intro _ last hlast
    exact strReplaceFrom_of_not_mem old new '@' otl ho last hlast
  | cons p rest ih =>
    intro hitems last hlast
    obtain ⟨hp1, hp2⟩ := hitems p (by simp)
    have hrest := ih (fun q hq => hitems q (by simp [hq])) last hlast
    rw [tokenText_cons, List.map_cons, tokenText_cons, strReplaceFrom_skip old new '@' otl ho _ _ hp1]
    congr 1
    by_cases he : p.2 = old
    · simp only [he, if_true]
      rw [strReplaceFrom_match old new _ hne, hrest]
    · simp only [he, if_false]
      rcases hp2 with hs | hs
      · obtain ⟨u, eu, hu⟩ := special_form hs
        have hu2 : ∀ c ∈ u, c ≠ '@' := by
          intro c hc e
          have := hu c hc
          rw [e] at this
          exact absurd this (by decide)
        have hm := special_prefix_false hold hs he (tokenText rest last)
        rw [eu] at hm ⊢
        rw [List.cons_append] at hm ⊢
        rw [strReplaceFrom_block old new '@' otl ho u _ hu2 hm, hrest]
        rfl
      · rw [strReplaceFrom_skip old new '@' otl ho _ _ hs, hrest]

/-- The four replacements, one after the other, on a special token. -/
theorem specialValue_steps (it tok : Str) (hit : ∀ c ∈ it, c ≠ '@') (htok : tok ∈ specialTokens) :
    (if (if (if (if tok = "@index".toList then it else tok) = "@key".toList then it
          else (if tok = "@index".toList then it else tok)) = "@value".toList
        then it ++ "_v".toList
        else (if (if tok = "@index".toList then it else tok) = "@key".toList then it
          else (if tok = "@index".toList then it else tok))) = "@first".toList
      then "(not ".toList ++ it ++ ")".toList
      else (if (if (if tok = "@index".toList then it else tok) = "@key".toList then it
          else (if tok = "@index".toList then it else tok)) = "@value".toList
        then it ++ "_v".toList
        else (if (if tok = "@index".toList then it else tok) = "@key".toList then it
          else (if tok = "@index".toList then it else tok)))) = specialValue it tok := by
  have hnot : ∀ {w t : Str}, (∀ c ∈ w, c ≠ '@') → t ∈ specialTokens → w ≠ t := by
    intro w t hw ht e
    obtain ⟨u, eu, _⟩ := special_form ht
    exact hw '@' (by rw [e, eu]; simp) rfl
  have hv : ∀ c ∈ it ++ "_v".toList, c ≠ '@' := not_mem_append hit (by decide)
  have n2 : it ≠ "@value".toList := hnot hit (by decide)
  have n3 : it ≠ "@first".toList := hnot hit (by decide)
  have n4 : it ++ "_v".toList ≠ "@first".toList := hnot hv (by decide)
  have d1 : ¬ "@key".toList = "@index".toList := by decide
  have d2 : ¬ "@value".toList = "@index".toList := by decide
  have d3 : ¬ "@first".toList = "@index".toList := by decide
  have d4 : ¬ "@value".toList = "@key".toList := by decide
  have d5 : ¬ "@first".toList = "@key".toList := by decide
  have d6 : ¬ "@first".toList = "@value".toList := by decide
  simp only [specialTokens, List.mem_cons, List.mem_singleton, List.not_mem_nil, or_false] at htok
  unfold specialValue
  rcases htok with h | h | h | h <;> subst h
  · simp only [if_true, ite_self, if_neg n2, if_neg n3]
  · simp only [if_neg d1, if_true, if_neg n2, if_neg n3]
  · simp only [if_neg d2, if_neg d4, if_true, if_neg n4]
  · simp only [if_neg d3, if_neg d5, if_neg d6, if_true]

/-- The four replacements of the special tokens, on a text cut at its tokens. -/
theorem substSpecials_tokenText (it : Str) (hit : ∀ c ∈ it, c ≠ '@') (items : List (Str × Str))
    (last : Str) (htok : ∀ p ∈ items, p.2 ∈ specialTokens)
    (htext : ∀ p ∈ items, ∀ c ∈ p.1, c ≠ '@') (hlast : ∀ c ∈ last, c ≠ '@') :
    substSpecials it (tokenText items last) =
      tokenText (items.map (fun p => (p.1, specialValue it p.2))) last := by
  have hv : ∀ c ∈ it ++ "_v".toList, c ≠ '@' := not_mem_append hit (by decide)
  have hf : ∀ c ∈ "(not ".toList ++ it ++ ")".toList, c ≠ '@' :=
    not_mem_append (not_mem_append (by decide) hit) (by decide)
  -- the state of the items after each replacement
  have step : ∀ (old new : Str), old ∈ specialTokens → (∀ c ∈ new, c ≠ '@') →
      ∀ its : List (Str × Str),
        (∀ p ∈ its, (∀ c ∈ p.1, c ≠ '@') ∧ (p.2 ∈ specialTokens ∨ ∀ c ∈ p.2, c ≠ '@')) →
        strReplace (tokenText its last) old new =
            tokenText (its.map (fun p => (p.1, if p.2 = old then new else p.2))) last ∧
          ∀ p ∈ its.map (fun p => (p.1, if p.2 = old then new else p.2)),
            (∀ c ∈ p.1, c ≠ '@') ∧ (p.2 ∈ specialTokens ∨ ∀ c ∈ p.2, c ≠ '@') := by
    intro old new hold hnew its hits
    refine ⟨?_, ?_⟩
    · rw [strReplace_eq _ old new (by obtain ⟨u, eu, _⟩ := special_form hold; rw [eu]; simp)]
      exact strReplaceFrom_tokens old new hold its hits last hlast
    · intro p hp
      obtain ⟨q, hq, rfl⟩ := List.mem_map.1 hp
      refine ⟨(hits q hq).1, ?_⟩
      by_cases he : q.2 = old
      · simp only [he, if_true]
        exact Or.inr hnew
      · simp only [he, if_false]
        exact (hits q hq).2
  have h0 : ∀ p ∈ items, (∀ c ∈ p.1, c ≠ '@') ∧ (p.2 ∈ specialTokens ∨ ∀ c ∈ p.2, c ≠ '@') :=
    fun p hp => ⟨htext p hp, Or.inl (htok p hp)⟩
  obtain ⟨e1, h1⟩ := step "@index".toList it (by decide) hit items h0
  obtain ⟨e2, h2⟩ := step "@key".toList it (by decide) hit _ h1
  obtain ⟨e3, h3⟩ := step "@value".toList (it ++ "_v".toList) (by decide) hv _ h2
  obtain ⟨e4, _⟩ := step "@first".toList ("(not ".toList ++ it ++ ")".toList) (by decide) hf _ h3
  unfold substSpecials
  rw [e1, e2, e3, e4]
  simp only [List.map_map]
  congr 1
  apply List.map_congr_left
  intro p hp
  have hs := htok p hp
  simp only [Function.comp]
  congr 1
  exact specialValue_steps it p.2 hit hs

/-- Replacing a text that begins with `(` or `$` and holds no `@`, in a text cut
at its special tokens: the replacement is made inside the stretches of text. -/
theorem strReplaceFrom_tokenText (old new : Str) (c0 : Char) (otl : Str) (ho : old = c0 :: otl)
    (hc0 : isPunct c0 = true) (hat : '@' ∉ old) :
    ∀ items : List (Str × Str), (∀ p ∈ items, p.2 ∈ specialTokens) → ∀ last : Str,
      strReplaceFrom old new 0 (tokenText items last) =
        tokenText (items.map (fun p => (strReplaceFrom old new 0 p.1, p.2)))
          (strReplaceFrom old new 0 last) := by
  have hne : old ≠ [] := by rw [ho]; simp
  intro items
  induction items with
  | nil => intro _ last; rfl
  | cons p rest ih =>
    intro htok last
    obtain ⟨u, eu, hu⟩ := special_form (htok p (by simp))
    have hu2 : ∀ c ∈ u, c ≠ c0 := by
      intro c hc e
      have := hu c hc
      rw [e, hc0] at this
      exact absurd this (by simp)
    rw [tokenText_cons, List.map_cons, tokenText_cons, eu, List.cons_append,
      strReplaceFrom_boundary old new '@' hat hne _ p.1 0 (Nat.zero_le _),
      strReplaceFrom_skip old new c0 otl ho u _ hu2, ih (fun q hq => htok q (by simp [hq])) last]
    rfl

theorem tokenText_not_mem {x : Char} (items : List (Str × Str)) (last : Str)
    (h1 : ∀ p ∈ items, ∀ c ∈ p.1, c ≠ x) (h2 : ∀ p ∈ items, ∀ c ∈ p.2, c ≠ x)
    (h3 : ∀ c ∈ last, c ≠ x) : ∀ c ∈ tokenText items last, c ≠ x := by
  induction items with
  | nil => exact h3
  | cons p rest ih =>
    rw [tokenText_cons]
    exact not_mem_append (h1 p (by simp)) (not_mem_append (h2 p (by simp))
      (ih (fun q hq => h1 q (by simp [hq])) (fun q hq => h2 q (by simp [hq]))))

theorem strReplaceFrom_not_mem {x : Char} (old new s : Str) (hs : ∀ c ∈ s, c ≠ x)
    (hn : ∀ c ∈ new, c ≠ x) : ∀ c ∈ strReplaceFrom old new 0 s, c ≠ x := by
  intro c hc
  rcases mem_strReplaceFrom old new s 0 c hc with h | h
  · exact hs c h
  · exact hn c h

theorem specialValue_not_mem {x : Char} (hx : isPunct x = true) (hx2 : x ∉ "(not )_v".toList)
    (it tok : Str) (hit : ∀ c ∈ it, c ≠ x) (htok : tok ∈ specialTokens) (hx3 : x ≠ '@') :
    ∀ c ∈ specialValue it tok, c ≠ x := by
  have hlit : ∀ w : Str, (∀ d ∈ w, d ∈ "(not )_v".toList) → ∀ c ∈ w, c ≠ x :=
    fun w hw c hc h => hx2 (h ▸ hw c hc)
  unfold specialValue
  split
  · exact hit
  · split
    · exact hit
    · split
      · exact not_mem_append hit (hlit _ (by decide))
      · split
        · exact not_mem_append (not_mem_append (hlit _ (by decide)) hit) (hlit _ (by decide))
        · obtain ⟨u, eu, hu⟩ := special_form htok
          rw [eu]
          intro c hc e
          rcases List.mem_cons.1 hc with h | h
          · exact hx3 (e ▸ h)
          · have := hu c h
            rw [e, hx] at this
            exact absurd this (by simp)

/-- The block `<!-- BEGIN a -->{{@index}} {{@key}} {{@value}}<!-- END a -->`: the
header binds the value variable `$i0_v` and `@value` becomes `$i0_v`; the
result is not the text with `$i0_value` in these two places. The same holds for
`Convert` on the block with single-brace tokens. -/
theorem C15_value_name :
    convertLoops asciiLetters 6
        "<!-- BEGIN a -->\x7b\x7b@index\x7d\x7d \x7b\x7b@key\x7d\x7d \x7b\x7b@value\x7d\x7d<!-- END a -->".toList
        "$".toList "$".toList =
      .ret (("\x7b\x7brange $i0, $i0_v := $.a\x7d\x7d" ++
        "\x7b\x7b$i0\x7d\x7d \x7b\x7b$i0\x7d\x7d \x7b\x7b$i0_v\x7d\x7d\x7b\x7b- end\x7d\x7d").toList, none) ∧
    convertLoops asciiLetters 6
        "<!-- BEGIN a -->\x7b\x7b@index\x7d\x7d \x7b\x7b@key\x7d\x7d \x7b\x7b@value\x7d\x7d<!-- END a -->".toList
        "$".toList "$".toList ≠
      .ret (("\x7b\x7brange $i0, $i0_value := $.a\x7d\x7d" ++
        "\x7b\x7b$i0\x7d\x7d \x7b\x7b$i0\x7d\x7d \x7b\x7b$i0_value\x7d\x7d\x7b\x7b- end\x7d\x7d").toList, none) ∧
    Convert asciiLetters 6
        "<!-- BEGIN a -->\x7b@index\x7d \x7b@key\x7d \x7b@value\x7d<!-- END a -->".toList =
      .ret (("\x7b\x7brange $i0, $i0_v := $.a\x7d\x7d" ++
        "\x7b\x7b$i0\x7d\x7d \x7b\x7b$i0\x7d\x7d \x7b\x7b$i0_v\x7d\x7d\x7b\x7b- end\x7d\x7d").toList, none) := by
  decide

/-! ## A text without legacy forms -/

theorem noMatch_tail {re : Re} {c : Char} {cs : Str} (h : NoMatch re (c :: cs)) : NoMatch re cs :=
  fun x y b e => h (c :: x) y b (by rw [e]; rfl)

theorem findAllFrom_nil_of_noMatch {re : Re} :
    ∀ (s : Str), NoMatch re s → ∀ (b : Bool) (k : Nat), findAllFrom re b k s = [] := by
  intro s
  induction s with
  | nil => intro _ b k; cases k <;> rfl
  | cons c cs ih =>
    intro h b k
    cases k with
    | succ k => rw [findAllFrom_succ]; exact ih (noMatch_tail h) false k
    | zero =>
      rw [findAllFrom_zero, matchAt_none_of_run (h [] (c :: cs) b rfl)]
      exact ih (noMatch_tail h) false 0

theorem replaceAllFrom_id_of_noMatch {re : Re} (repl : Match → Str) :
    ∀ (s : Str), NoMatch re s → ∀ (b : Bool), replaceAllFrom re repl b 0 s = s := by
  intro s
  induction s with
  | nil => intro _ b; rfl
  | cons c cs ih =>
    intro h b
    rw [replaceAllFrom_zero, matchAt_none_of_run (h [] (c :: cs) b rfl)]
    simp only
    rw [ih (noMatch_tail h) false]

/-- `Convert` returns a text unchanged when none of its patterns matches a
substring of it. -/
theorem Convert_of_noMatch (ext : Char → Bool) (fuel : Nat) (s : Str)
    (h : ∀ re ∈ legacyPatterns ext, NoMatch re s) : Convert ext (fuel + 1) s = .ret (s, none) := by
  have h1 : findAll (rawKeyRegex ext) s = [] :=
    findAllFrom_nil_of_noMatch s (h _ (by simp [legacyPatterns])) _ _
  have h2 : findAll (functionRegex ext) s = [] :=
    findAllFrom_nil_of_noMatch s (h _ (by simp [legacyPatterns])) _ _
  have h3 : findAll (escapedKeyRegex ext) s = [] :=
    findAllFrom_nil_of_noMatch s (h _ (by simp [legacyPatterns])) _ _
  have h4 : findAll (ifFunctionRegex ext) s = [] :=
    findAllFrom_nil_of_noMatch s (h _ (by simp [legacyPatterns])) _ _
  have h5 : findAll (ifRegex ext) s = [] :=
    findAllFrom_nil_of_noMatch s (h _ (by simp [legacyPatterns])) _ _
  have h6 : ∀ f, replaceAll elseRegex f s = s :=
    fun f => replaceAllFrom_id_of_noMatch f s (h _ (by simp [legacyPatterns])) _
  have h7 : ∀ f, replaceAll (endifRegex ext) f s = s :=
    fun f => replaceAllFrom_id_of_noMatch f s (h _ (by simp [legacyPatterns])) _
  have h8 : findFirst (loopFindRegex ext) s = none := by
    unfold findFirst
    rw [show findAll (loopFindRegex ext) s = [] from
      findAllFrom_nil_of_noMatch s (h _ (by simp [legacyPatterns])) _ _]
    rfl
  have hV : convertVariables ext (fuel + 1) s = .ret (s, none) := by
    unfold convertVariables
    rw [h1, h2]
    simp only [List.take_nil, replaceFunctions, Outcome.bind, h3, replaceKeys]
  have hC : convertConditions ext (fuel + 1) s = .ret (s, none) := by
    unfold convertConditions
    rw [h4]
    simp only [replaceIfFunctions, Outcome.bind, h5, replaceIfs, h6, h7]
  have hL : convertLoops ext (fuel + 1) s "$".toList "$".toList = .ret (s, none) := by
    simp only [convertLoops, convertLoopsFrom, h8]
  exact parse_of_stages ext _ _ _ _ _ hV hC hL

theorem isPrefixOf_of_hasSubstring_false {pat s : Str} (h : hasSubstring pat s = false) :
    ∀ x y, s = x ++ y → pat.isPrefixOf y = false := by
  intro x y e
  unfold hasSubstring at h
  rw [List.any_eq_false] at h
  have hy : y ∈ s.tails := (List.mem_tails y s).2 ⟨x, e.symm⟩
  exact Bool.eq_false_iff.2 (h y hy)

/-- A pattern that begins with a character matches no substring of a text
without that character. -/
theorem noMatch_of_not_mem {re : Re} {c0 : Char} (hre : NeedsHead re c0) (s : Str)
    (hs : ∀ c ∈ s, c ≠ c0) : NoMatch re s := by
  intro x y b e
  apply hre
  intro tl e2
  have e3 : y = c0 :: tl := e2
  exact hs c0 (by rw [e, e3]; simp) rfl

/-- A pattern that begins with a literal matches no substring of a text in
which a beginning of that literal does not occur. -/
theorem noMatch_of_lit (w w2 : Str) (r : Re) (s : Str)
    (hs : ∀ x y, s = x ++ y → w.isPrefixOf y = false) : NoMatch (Re.seq (Re.lit (w ++ w2)) r) s := by
  intro x y b e
  rw [run_lit_seq]
  have := isPrefixOf_append_false w w2 y (hs x y e)
  simp [this]

/-- No pattern of `Convert` matches a substring of a text without `{` and
without `<!-- `. -/
theorem noMatch_legacy (ext : Char → Bool) (s : Str) (h1 : ∀ c ∈ s, c ≠ '\x7b')
    (h2 : hasSubstring "<!-- ".toList s = false) : ∀ re ∈ legacyPatterns ext, NoMatch re s := by
  have hs := isPrefixOf_of_hasSubstring_false h2
  intro re hre
  simp only [legacyPatterns, List.mem_cons, List.mem_singleton, List.not_mem_nil, or_false] at hre
  rcases hre with e | e | e | e | e | e | e | e <;> subst e
  · exact noMatch_of_not_mem (needsHead_rawKey ext) s h1
  · exact noMatch_of_not_mem (needsHead_escapedKey ext) s h1
  · exact noMatch_of_not_mem (needsHead_function ext) s h1
  · exact noMatch_of_lit "<!-- ".toList "IF ".toList _ s hs
  · exact noMatch_of_lit "<!-- ".toList "IF ".toList _ s hs
  · exact noMatch_of_lit "<!-- ".toList "ELSE -->".toList _ s hs
  · exact noMatch_of_lit "<!-- ".toList "ENDIF ".toList _ s hs
  · exact noMatch_of_lit "<!-- ".toList "BEGIN ".toList _ s hs

/-- Claim C12: `Convert` returns unchanged, with no error, every text in which
no substring is matched by any of its patterns (double- and single-brace
variable, function call, `IF`, `ELSE`, `ENDIF` and `BEGIN` marker); every text
without the character `{` and without the substring `<!-- ` is such a text. -/
theorem C12_pass_through (ext : Char → Bool) (fuel : Nat) (s : Str) :
    ((∀ re ∈ legacyPatterns ext, NoMatch re s) → Convert ext (fuel + 1) s = .ret (s, none)) ∧
    ((∀ c ∈ s, c ≠ '\x7b') → hasSubstring "<!-- ".toList s = false →
      (∀ re ∈ legacyPatterns ext, NoMatch re s) ∧ Convert ext (fuel + 1) s = .ret (s, none)) :=
  ⟨Convert_of_noMatch ext fuel s,
    fun h1 h2 => ⟨noMatch_legacy ext s h1 h2, Convert_of_noMatch ext fuel s (noMatch_legacy ext s h1 h2)⟩⟩

/-- Claim C12 at the text `a < b } <!-x --> <!--`, which has no `{` and no
`<!-- `. -/
theorem C12_pass_through_witness :
    (∀ re ∈ legacyPatterns asciiLetters, NoMatch re "a < b \x7d <!-x --> <!--".toList) ∧
      Convert asciiLetters (0 + 1) "a < b \x7d <!-x --> <!--".toList =
        .ret ("a < b \x7d <!-x --> <!--".toList, none) :=
  (C12_pass_through asciiLetters 0 "a < b \x7d <!-x --> <!--".toList).2 (by decide) (by decide)

/-! ## Markers with `!` and `../` -/

theorem mem_run_lit_atStart {w : Str} (hw : w ≠ []) {st st2 : MState}
    (h : st2 ∈ (Re.lit w).run st) : st2.atStart = false := by
  induction w generalizing st with
  | nil => exact absurd rfl hw
  | cons c cs ih =>
    simp only [Re.lit] at h
    obtain ⟨s1, h1, h2⟩ := mem_run_seq.1 h
    cases cs with
    | nil =>
      simp only [Re.lit, run_eps, List.mem_singleton] at h2
      rw [h2]
      exact (mem_run_chr h1).2.2
    | cons d ds => exact ih (by simp) h2

/-- The two ways of the optional `!`. -/
theorem mem_run_not_cases {n : Nat} {st s2 : MState} (h : s2 ∈ (notRegex n).run st) :
    s2 = ⟨(n, []) :: st.caps, st.atStart, st.rest⟩ ∨
      ∃ tl, st.rest = '!' :: tl ∧ s2 = ⟨(n, ['!']) :: st.caps, false, tl⟩ := by
  simp only [notRegex, Re.opt] at h
  obtain ⟨s1, h1, w, e, h2⟩ := mem_run_grp_text h
  rcases mem_run_alt.1 h1 with h1 | h1
  · right
    obtain ⟨e1, c1, b1⟩ := mem_run_chr h1
    have hw : w = ['!'] := by
      have : w ++ s1.rest = ['!'] ++ s1.rest := by rw [← e, e1]; rfl
      exact List.append_cancel_right this
    exact ⟨s1.rest, e1, by rw [h2, hw, c1, b1]⟩
  · left
    simp only [run_eps, List.mem_singleton] at h1
    subst h1
    have hw : w = [] := by
      have : w ++ s1.rest = [] ++ s1.rest := by rw [← e]; rfl
      exact List.append_cancel_right this
    rw [h2, hw]

/-- The two ways of the optional `../`. -/
theorem mem_run_parent_cases {n : Nat} {st s2 : MState} (h : s2 ∈ (parentRegex n).run st) :
    s2 = st ∨ ∃ tl, st.rest = "../".toList ++ tl ∧ s2 = ⟨(n, "../".toList) :: st.caps, false, tl⟩ := by
  simp only [parentRegex, Re.opt] at h
  rcases mem_run_alt.1 h with h | h
  · right
    obtain ⟨s1, h1, w, e, h2⟩ := mem_run_grp_text h
    obtain ⟨e1, c1⟩ := mem_run_lit h1
    have b1 := mem_run_lit_atStart (by simp) h1
    have hw : w = "../".toList := by
      have : w ++ s1.rest = "../".toList ++ s1.rest := by rw [← e, e1]
      exact List.append_cancel_right this
    exact ⟨s1.rest, e1, by rw [h2, hw, c1, b1]⟩
  · left
    simpa [run_eps] using h

theorem mem_run_not_take (n : Nat) (caps : List (Nat × Str)) (b : Bool) (tl : Str) :
    (⟨(n, ['!']) :: caps, false, tl⟩ : MState) ∈ (notRegex n).run ⟨caps, b, '!' :: tl⟩ := by
  simp only [notRegex, Re.opt]
  have h : (⟨caps, false, tl⟩ : MState) ∈ (Re.alt (Re.chr '!') Re.eps).run ⟨caps, b, '!' :: tl⟩ :=
    mem_run_alt.2 (Or.inl (by simp [run_chr_cons]))
  exact mem_run_grp_of (w := ['!']) h rfl

theorem mem_run_parent_take (n : Nat) (caps : List (Nat × Str)) (b : Bool) (tl : Str) :
    (⟨(n, "../".toList) :: caps, false, tl⟩ : MState) ∈
      (parentRegex n).run ⟨caps, b, "../".toList ++ tl⟩ := by
  simp only [parentRegex, Re.opt]
  refine mem_run_alt.2 (Or.inl ?_)
  have h := mem_run_lit_append "../".toList caps b tl (by simp)
  exact mem_run_grp_of (w := "../".toList) h rfl

/-- A match of `keyRegex` begins with `@` or with the first character of an
identifier. -/
theorem mem_run_key_head (ext : Char → Bool) {st s : MState} (h : s ∈ (keyRegex ext).run st) :
    ∃ c tl, st.rest = c :: tl ∧ (c = '@' ∨ identStart ext c = true) := by
  simp only [keyRegex, specialRegex, identifierRegex] at h
  rcases mem_run_alt.1 h with h1 | h1
  · obtain ⟨s1, h2, _⟩ := mem_run_seq.1 h1
    obtain ⟨e, _, _⟩ := mem_run_chr h2
    exact ⟨'@', s1.rest, e, Or.inl rfl⟩
  · obtain ⟨s1, h2, _⟩ := mem_run_seq.1 h1
    obtain ⟨s2, h3, _⟩ := mem_run_seq.1 h2
    obtain ⟨x, e, hx, _, _⟩ := mem_run_cls h3
    exact ⟨x, s2.rest, e, Or.inr hx⟩

/-- No key is matched at a punctuation character other than `@`. -/
theorem run_grp_key_punct (ext : Char → Bool) (n : Nat) {st s : MState} {x : Char} {tl : Str}
    (hx : isPunct x = true) (hx2 : x ≠ '@') (e : st.rest = x :: tl) :
    s ∉ (Re.grp n (keyRegex ext)).run st := by
  intro h
  obtain ⟨s1, h1, _⟩ := mem_run_grp h
  obtain ⟨c, tl2, e2, hc⟩ := mem_run_key_head ext h1
  rw [e] at e2
  simp only [List.cons.injEq] at e2
  rcases hc with hc | hc
  · exact hx2 (e2.1.trans hc)
  · have := identStart_imp_identRest ext hc
    rw [← e2.1, identRest_of_isPunct ext hx] at this
    exact absurd this (by simp)

/-- The part of a condition marker up to ` -->`: on a marker with the literal
`w0`, an optional `!`, an optional `../` and a path, every way of matching ends
behind the marker with the same groups, and there is such a way. -/
theorem markerCore_run (ext : Char → Bool) (w0 : Str) (hw0 : w0 ≠ []) (neg par : Bool) {p : Str}
    (hk : isKey ext p = true) (post : Str) (b : Bool) :
    (∃ st, st ∈ (Re.cat [Re.lit w0, notRegex 1, parentRegex 2, .grp 3 (keyRegex ext),
        Re.lit " -->".toList]).run ⟨[], b, w0 ++ (condPayload neg par p ++ (" -->".toList ++ post))⟩) ∧
      ∀ st ∈ (Re.cat [Re.lit w0, notRegex 1, parentRegex 2, .grp 3 (keyRegex ext),
        Re.lit " -->".toList]).run ⟨[], b, w0 ++ (condPayload neg par p ++ (" -->".toList ++ post))⟩,
        st.rest = post ∧ st.caps = condCaps neg par p ∧ st.atStart = false := by
  have hkey : ∀ (y tl : Str) {x : Char}, isPunct x = true → x ≠ '@' → p ++ y ≠ x :: tl :=
    fun y tl x hx hx2 => key_head_ne ext hk hx hx2 y tl
  constructor
  · -- a way of matching
    obtain ⟨s3, m3, e3⟩ := mem_run_grp_key_of ext 3
      ((if par then [(2, "../".toList)] else []) ++ [(1, if neg then "!".toList else [])])
      false hk (" -->".toList ++ post)
    refine ⟨⟨s3.caps, false, post⟩, ?_⟩
    simp only [Re.cat]
    refine mem_run_seq.2 ⟨_, mem_run_lit_append w0 [] b _ hw0, ?_⟩
    have hnot : (⟨[(1, if neg then "!".toList else [])], false,
        (if par then "../".toList else []) ++ (p ++ (" -->".toList ++ post))⟩ : MState) ∈
        (notRegex 1).run ⟨[], false, condPayload neg par p ++ (" -->".toList ++ post)⟩ := by
      cases neg with
      | true =>
        have := mem_run_not_take 1 [] false
          ((if par then "../".toList else []) ++ (p ++ (" -->".toList ++ post)))
        simpa [condPayload] using this
      | false =>
        have := mem_run_not_self 1 ⟨[], false, condPayload false par p ++ (" -->".toList ++ post)⟩
        simpa [condPayload] using this
    refine mem_run_seq.2 ⟨_, hnot, ?_⟩
    have hpar : (⟨(if par then [(2, "../".toList)] else []) ++ [(1, if neg then "!".toList else [])],
        false, p ++ (" -->".toList ++ post)⟩ : MState) ∈
        (parentRegex 2).run ⟨[(1, if neg then "!".toList else [])], false,
          (if par then "../".toList else []) ++ (p ++ (" -->".toList ++ post))⟩ := by
      cases par with
      | true => exact mem_run_parent_take 2 _ false _
      | false => exact mem_run_parent_self 2 _
    refine mem_run_seq.2 ⟨_, hpar, ?_⟩
    refine mem_run_seq.2 ⟨s3, m3, ?_⟩
    exact mem_run_seq.2 ⟨_, mem_run_lit_self " -->".toList s3 post (by simp) e3, by simp [run_eps]⟩
  · intro st hst
    simp only [Re.cat] at hst
    obtain ⟨s1, h1, g1⟩ := mem_run_seq.1 hst
    obtain ⟨e1, c1⟩ := mem_run_lit h1
    have e1b : s1.rest = condPayload neg par p ++ (" -->".toList ++ post) :=
      (List.append_cancel_left e1).symm
    obtain ⟨s2, h2, g2⟩ := mem_run_seq.1 g1
    obtain ⟨s3, h3, g3⟩ := mem_run_seq.1 g2
    obtain ⟨s4, h4, g4⟩ := mem_run_seq.1 g3
    obtain ⟨s5, h5, g5⟩ := mem_run_seq.1 g4
    simp only [run_eps, List.mem_singleton] at g5
    obtain ⟨e5, c5⟩ := mem_run_lit h5
    have b5 := mem_run_lit_atStart (by simp) h5
    -- the optional `!`
    have hs2 : s2.rest = (if par then "../".toList else []) ++ (p ++ (" -->".toList ++ post)) ∧
        s2.caps = [(1, if neg then "!".toList else [])] := by
      rcases mem_run_not_cases h2 with e2 | ⟨tl, et, e2⟩
      · cases neg with
        | false =>
          rw [e2]
          simp only [c1]
          exact ⟨by rw [e1b]; simp [condPayload], by simp⟩
        | true =>
          -- the `!` left in place stops the match
          exfalso
          have hr2 : s2.rest = '!' :: ((if par then "../".toList else []) ++
              (p ++ (" -->".toList ++ post))) := by
            rw [e2]
            simp only
            rw [e1b]
            simp [condPayload]
          rcases mem_run_parent_cases h3 with e3 | ⟨tl, et, _⟩
          · rw [e3] at h4
            exact run_grp_key_punct ext 3 (by decide) (by decide) hr2 h4
          · rw [hr2] at et
            simp at et
      · rw [e1b] at et
        cases neg with
        | false =>
          exfalso
          cases par with
          | false =>
            exact hkey _ tl (x := '!') (by decide) (by decide) (by simpa [condPayload] using et)
          | true => simp [condPayload] at et
        | true =>
          have : tl = (if par then "../".toList else []) ++ (p ++ (" -->".toList ++ post)) := by
            have : '!' :: ((if par then "../".toList else []) ++ (p ++ (" -->".toList ++ post))) =
                '!' :: tl := by
              rw [← et]
              simp [condPayload]
            exact (List.cons.inj this).2.symm
          rw [e2]
          simp only [c1]
          exact ⟨this, by simp⟩
    obtain ⟨r2, k2⟩ := hs2
    -- the optional `../`
    have hs3 : s3.rest = p ++ (" -->".toList ++ post) ∧
        s3.caps = (if par then [(2, "../".toList)] else []) ++ [(1, if neg then "!".toList else [])] := by
      rcases mem_run_parent_cases h3 with e3 | ⟨tl, et, e3⟩
      · cases par with
        | false =>
          rw [e3]
          exact ⟨by rw [r2]; simp, by rw [k2]; simp⟩
        | true =>
          exfalso
          rw [e3] at h4
          have hr : s2.rest = '.' :: ("./".toList ++ (p ++ (" -->".toList ++ post))) := by
            rw [r2]
            rfl
          exact run_grp_key_punct ext 3 (by decide) (by decide) hr h4
      · rw [r2] at et
        cases par with
        | false =>
          exfalso
          exact hkey _ ("./".toList ++ tl) (x := '.') (by decide) (by decide)
            (by simpa using et)
        | true =>
          have : tl = p ++ (" -->".toList ++ post) := by
            have : "../".toList ++ (p ++ (" -->".toList ++ post)) = "../".toList ++ tl := by
              rw [← et]
              simp
            exact (List.append_cancel_left this).symm
          rw [e3]
          simp only [k2]
          exact ⟨this, by simp⟩
    obtain ⟨r3, k3⟩ := hs3
    -- the path
    obtain ⟨w, e4, hw, c4⟩ := mem_run_grp_key ext h4
    rw [r3, e5] at e4
    have e4b : p ++ ' ' :: ("-->".toList ++ post) = w ++ ' ' :: ("-->".toList ++ s5.rest) := by
      simpa using e4
    obtain ⟨hpw, _, hrest⟩ := append_cons_unique (P := keyChar ext) (isKey_chars ext hk) hw
      (keyChar_of_isDelim ext (by decide)) (keyChar_of_isDelim ext (by decide)) e4b
    have hs5 : s5.rest = post := (List.append_cancel_left hrest).symm
    refine ⟨by rw [g5, hs5], ?_, by rw [g5, b5]⟩
    rw [g5, c5, c4, k3, hpw]
    rfl

theorem run_cat_append (rs ts : List Re) (st : MState) :
    (Re.cat (rs ++ ts)).run st = (Re.seq (Re.cat rs) (Re.cat ts)).run st := by
  induction rs generalizing st with
  | nil => simp [Re.cat, run_seq, run_eps]
  | cons r rest ih =>
    simp only [List.cons_append, Re.cat]
    rw [run_seq_assoc, run_seq, run_seq]
    congr 1
    funext s2
    exact ih s2

theorem matchAt_congr {re1 re2 : Re} (h : ∀ st, re1.run st = re2.run st) (b : Bool) (s : Str) :
    matchAt re1 b s = matchAt re2 b s := by
  simp only [matchAt, h]

theorem head?_flatMap_const {α β : Type} (l : List α) (f : α → List β) (a : α) (hne : l ≠ [])
    (h : ∀ x ∈ l, x = a) (hf : f a ≠ []) : (l.flatMap f).head? = (f a).head? := by
  cases l with
  | nil => exact absurd rfl hne
  | cons x xs =>
    have hx : x = a := h x (by simp)
    subst hx
    simp only [List.flatMap_cons]
    cases hfx : f x with
    | nil => exact absurd hfx hf
    | cons y ys => rfl

/-- A pattern followed by `[\r\n]*`: when every way of matching the pattern ends
at the same place with the same groups, the preferred match takes in addition
all the line breaks that follow. -/
theorem matchAt_then_newlines (C : Re) (w nl post : Str) (caps0 : List (Nat × Str)) (b : Bool)
    (hw : w ≠ []) (hnl : ∀ c ∈ nl, (c == '\r' || c == '\n') = true) (hpost : noNewlineHead post)
    (hex : ∃ st, st ∈ C.run ⟨[], b, w ++ (nl ++ post)⟩)
    (hall : ∀ st ∈ C.run ⟨[], b, w ++ (nl ++ post)⟩,
      st.rest = nl ++ post ∧ st.caps = caps0 ∧ st.atStart = false) :
    matchAt (Re.seq C (Re.seq newlinesRegex Re.eps)) b ((w ++ nl) ++ post) =
      some ⟨w ++ nl, caps0⟩ := by
  have hall2 : ∀ st ∈ C.run ⟨[], b, w ++ (nl ++ post)⟩, st = ⟨caps0, false, nl ++ post⟩ := by
    intro st hst
    obtain ⟨h1, h2, h3⟩ := hall st hst
    obtain ⟨c, a, r⟩ := st
    simp only at h1 h2 h3
    rw [h1, h2, h3]
  have hne : C.run ⟨[], b, w ++ (nl ++ post)⟩ ≠ [] := by
    obtain ⟨st, hst⟩ := hex
    exact List.ne_nil_of_mem hst
  have hhead : ((Re.seq newlinesRegex Re.eps).run ⟨caps0, false, nl ++ post⟩).head? =
      some ⟨caps0, false && nl.isEmpty, post⟩ :=
    head_newlines_then Re.eps caps0 post hpost _ nl false hnl (by simp [run_eps])
  apply @matchAt_of_head _ _ (false && nl.isEmpty) _ _ _ _ (by simp [hw])
  rw [List.append_assoc, run_seq, head?_flatMap_const _ _ _ hne hall2 (by
    intro e
    rw [e] at hhead
    simp at hhead), hhead]

/-- At a plain `IF` marker, with or without `!` and `../`, `ifRegex` matches the
marker and all the line breaks that follow it. -/
theorem if_matchAt_gen (ext : Char → Bool) (neg par : Bool) {p : Str} (hk : isKey ext p = true)
    (nl post : Str) (hnl : ∀ c ∈ nl, (c == '\r' || c == '\n') = true) (hpost : noNewlineHead post)
    (b : Bool) :
    matchAt (ifRegex ext) b
        ((("<!-- IF ".toList ++ (condPayload neg par p ++ " -->".toList)) ++ nl) ++ post) =
      some ⟨("<!-- IF ".toList ++ (condPayload neg par p ++ " -->".toList)) ++ nl,
        condCaps neg par p⟩ := by
  have hrun : ∀ st, (ifRegex ext).run st = (Re.seq (Re.cat [Re.lit "<!-- IF ".toList, notRegex 1,
      parentRegex 2, .grp 3 (keyRegex ext), Re.lit " -->".toList])
      (Re.seq newlinesRegex Re.eps)).run st :=
    fun st => run_cat_append [Re.lit "<!-- IF ".toList, notRegex 1, parentRegex 2,
      .grp 3 (keyRegex ext), Re.lit " -->".toList] [newlinesRegex] st
  rw [matchAt_congr hrun]
  obtain ⟨hex, hall⟩ := markerCore_run ext "<!-- IF ".toList (by simp) neg par hk (nl ++ post) b
  apply matchAt_then_newlines _ _ nl post _ b (by simp) hnl hpost
  · simpa using hex
  · simpa using hall

/-- At an `ENDIF` marker, with or without `!` and `../`, `endifRegex` matches
exactly the marker. -/
theorem endif_matchAt_gen (ext : Char → Bool) (neg par : Bool) {p : Str}
    (hk : isKey ext p = true) (post : Str) (b : Bool) :
    matchAt (endifRegex ext) b
        (("<!-- ENDIF ".toList ++ (condPayload neg par p ++ " -->".toList)) ++ post) =
      some ⟨"<!-- ENDIF ".toList ++ (condPayload neg par p ++ " -->".toList),
        condCaps neg par p⟩ := by
  obtain ⟨hex, hall⟩ := markerCore_run ext "<!-- ENDIF ".toList (by simp) neg par hk post b
  apply matchAt_eq
  · simpa [endifRegex] using hex
  · intro st hst
    have := hall st (by simpa [endifRegex] using hst)
    exact ⟨this.1, this.2.1⟩
  · simp

/-- At an `ELSE` marker `elseRegex` matches the marker and all the line breaks
that follow it. -/
theorem else_matchAt_gen (nl post : Str) (hnl : ∀ c ∈ nl, (c == '\r' || c == '\n') = true)
    (hpost : noNewlineHead post) (b : Bool) :
    matchAt elseRegex b (("<!-- ELSE -->".toList ++ nl) ++ post) =
      some ⟨"<!-- ELSE -->".toList ++ nl, []⟩ := by
  have hrun : ∀ st, elseRegex.run st = (Re.seq (Re.cat [Re.lit "<!-- ELSE -->".toList])
      (Re.seq newlinesRegex Re.eps)).run st :=
    fun st => run_cat_append [Re.lit "<!-- ELSE -->".toList] [newlinesRegex] st
  rw [matchAt_congr hrun]
  apply matchAt_then_newlines _ _ nl post _ b (by simp) hnl hpost
  · refine ⟨⟨[], false, nl ++ post⟩, ?_⟩
    simp only [Re.cat]
    exact mem_run_seq.2 ⟨_, mem_run_lit_append "<!-- ELSE -->".toList [] b _ (by simp),
      by simp [run_eps]⟩
  · intro st hst
    simp only [Re.cat] at hst
    obtain ⟨s1, h1, g1⟩ := mem_run_seq.1 hst
    simp only [run_eps, List.mem_singleton] at g1
    obtain ⟨e1, c1⟩ := mem_run_lit h1
    have b1 := mem_run_lit_atStart (by simp) h1
    rw [g1]
    exact ⟨(List.append_cancel_left e1).symm, c1, b1⟩

/-- The part of a function-based `IF` marker up to ` -->`: every way of
matching ends behind the marker with the same groups, and there is such a
way. -/
theorem ifFunctionCore_run (ext : Char → Bool) (neg : Bool) {n args : Str}
    (hn : isIdentifier ext n = true) (ha : fullMatch (argsStar ext) args = true) (post : Str)
    (b : Bool) :
    (∃ st, st ∈ (Re.cat [Re.lit "<!-- IF ".toList, notRegex 1, Re.lit "function.".toList,
        .grp 2 (identifierRegex ext), argsRegex ext 3, Re.lit " -->".toList]).run
        ⟨[], b, "<!-- IF ".toList ++ ((if neg then "!".toList else []) ++ ("function.".toList ++
          (n ++ (args ++ (" -->".toList ++ post)))))⟩) ∧
      ∀ st ∈ (Re.cat [Re.lit "<!-- IF ".toList, notRegex 1, Re.lit "function.".toList,
        .grp 2 (identifierRegex ext), argsRegex ext 3, Re.lit " -->".toList]).run
        ⟨[], b, "<!-- IF ".toList ++ ((if neg then "!".toList else []) ++ ("function.".toList ++
          (n ++ (args ++ (" -->".toList ++ post)))))⟩,
        st.rest = post ∧ st.caps = [(3, args), (2, n), (1, if neg then "!".toList else [])] ∧
          st.atStart = false := by
  have hargs : ∀ c ∈ args, argChar ext c = true := by
    obtain ⟨st, hst, e⟩ := fullMatch_iff.1 ha
    obtain ⟨w, e1, hw⟩ := (argsStar ext).run_within (argsStar_within ext) _ _ hst
    have : args = w := by
      have : args = w ++ st.rest := e1
      rw [this, e]
      simp
    rw [this]
    exact hw
  -- the character behind the name is no identifier character
  have hhead : ∃ r0 R, args ++ (" -->".toList ++ post) = r0 :: R ∧ identRest ext r0 = false := by
    obtain ⟨st, hst, e⟩ := fullMatch_iff.1 ha
    rcases argsStar_head ext hst with h | ⟨c, tl, h, hc⟩
    · have : args = [] := by
        have : ([] : Str) = args := by rw [← e]; exact h
        exact this.symm
      subst this
      exact ⟨' ', "-->".toList ++ post, rfl, identRest_of_isPunct ext (by decide)⟩
    · have h2 : args = c :: tl := h
      refine ⟨c, tl ++ (" -->".toList ++ post), by rw [h2]; rfl, ?_⟩
      rcases hc with hc | hc <;> subst hc <;> exact identRest_of_isPunct ext (by decide)
  obtain ⟨r0, R, eR, hr0⟩ := hhead
  constructor
  · obtain ⟨s2, m2, e2⟩ := @fullMatch_frame (identifierRegex ext) _ rfl hn
      [(1, if neg then "!".toList else [])] false (args ++ (" -->".toList ++ post))
    have g2 := mem_run_grp_of (n := 2) (w := n) m2 (by simp [e2])
    obtain ⟨s3, m3, e3⟩ := fullMatch_frame (noBot_argsStar ext) ha ((2, n) :: s2.caps) s2.atStart
      (" -->".toList ++ post)
    have g3 : (⟨(3, args) :: s3.caps, s3.atStart, s3.rest⟩ : MState) ∈ (argsRegex ext 3).run
        ⟨(2, n) :: s2.caps, s2.atStart, s2.rest⟩ := by
      rw [e2]
      exact mem_run_grp_of (n := 3) (w := args) m3 (by simp [e3])
    refine ⟨⟨(3, args) :: s3.caps, false, post⟩, ?_⟩
    simp only [Re.cat]
    refine mem_run_seq.2 ⟨_, mem_run_lit_append "<!-- IF ".toList [] b _ (by simp), ?_⟩
    have hnot : (⟨[(1, if neg then "!".toList else [])], false,
        "function.".toList ++ (n ++ (args ++ (" -->".toList ++ post)))⟩ : MState) ∈
        (notRegex 1).run ⟨[], false, (if neg then "!".toList else []) ++
          ("function.".toList ++ (n ++ (args ++ (" -->".toList ++ post))))⟩ := by
      cases neg with
      | true =>
        have := mem_run_not_take 1 [] false
          ("function.".toList ++ (n ++ (args ++ (" -->".toList ++ post))))
        simpa using this
      | false =>
        have := mem_run_not_self 1
          ⟨[], false, "function.".toList ++ (n ++ (args ++ (" -->".toList ++ post)))⟩
        simpa using this
    refine mem_run_seq.2 ⟨_, hnot, ?_⟩
    refine mem_run_seq.2 ⟨_, mem_run_lit_append "function.".toList _ false _ (by simp), ?_⟩
    refine mem_run_seq.2 ⟨_, g2, ?_⟩
    refine mem_run_seq.2 ⟨_, g3, ?_⟩
    refine mem_run_seq.2 ⟨⟨(3, args) :: s3.caps, false, post⟩, ?_, by simp [run_eps]⟩
    exact mem_run_lit_self " -->".toList _ post (by simp) e3
  · intro st hst
    simp only [Re.cat] at hst
    obtain ⟨s1, h1, g1⟩ := mem_run_seq.1 hst
    obtain ⟨e1, c1⟩ := mem_run_lit h1
    have e1b : s1.rest = (if neg then "!".toList else []) ++ ("function.".toList ++
        (n ++ (args ++ (" -->".toList ++ post)))) := (List.append_cancel_left e1).symm
    obtain ⟨s2, h2, g2⟩ := mem_run_seq.1 g1
    obtain ⟨s3, h3, g3⟩ := mem_run_seq.1 g2
    obtain ⟨e3, c3⟩ := mem_run_lit h3
    obtain ⟨s4, h4, g4⟩ := mem_run_seq.1 g3
    obtain ⟨w1, e4, hw1, c4⟩ := mem_run_grp_ident ext h4
    obtain ⟨s5, h5, g5⟩ := mem_run_seq.1 g4
    obtain ⟨w2, e5, hw2, c5, hh5⟩ := mem_run_argsRegex ext h5
    obtain ⟨s6, h6, g6⟩ := mem_run_seq.1 g5
    obtain ⟨e6, c6⟩ := mem_run_lit h6
    have b6 := mem_run_lit_atStart (by simp) h6
    simp only [run_eps, List.mem_singleton] at g6
    -- the optional `!`
    have hs2 : s2.rest = "function.".toList ++ (n ++ (args ++ (" -->".toList ++ post))) ∧
        s2.caps = [(1, if neg then "!".toList else [])] := by
      rcases mem_run_not_cases h2 with e2 | ⟨tl, et, e2⟩
      · cases neg with
        | false =>
          rw [e2]
          simp only [c1]
          exact ⟨by rw [e1b]; simp, by simp⟩
        | true =>
          exfalso
          rw [e2] at e3
          simp only at e3
          rw [e1b] at e3
          simp at e3
      · rw [e1b] at et
        cases neg with
        | false => simp at et
        | true =>
          have : tl = "function.".toList ++ (n ++ (args ++ (" -->".toList ++ post))) := by
            simpa using et.symm
          rw [e2]
          simp only [c1]
          exact ⟨this, by simp⟩
    obtain ⟨r2, k2⟩ := hs2
    have r3 : s3.rest = n ++ (args ++ (" -->".toList ++ post)) := by
      rw [r2] at e3
      exact (List.append_cancel_left e3).symm
    -- the name
    have hs4 : ∃ c tl, s4.rest = c :: tl ∧ identRest ext c = false := by
      rcases hh5 with hh | ⟨c, tl, hh, hc⟩
      · exact ⟨' ', "-->".toList ++ s6.rest, by rw [← hh, e6]; rfl,
          identRest_of_isPunct ext (by decide)⟩
      · refine ⟨c, tl, hh, ?_⟩
        rcases hc with hc | hc <;> subst hc <;> exact identRest_of_isPunct ext (by decide)
    obtain ⟨c, tl, hs4, hc⟩ := hs4
    have eq1 : n ++ r0 :: R = w1 ++ c :: tl := by
      rw [← eR, ← hs4, ← e4, r3]
    obtain ⟨hn1, _, _⟩ := append_cons_unique (P := identRest ext) (isIdentifier_chars ext hn).2 hw1
      hr0 hc eq1
    -- the arguments
    have hdash : argChar ext '-' = false := argChar_of_isDelim ext (by decide) (by decide) (by decide)
    have hsp : argChar ext ' ' = true := by simp [argChar]
    have eq2 : (args ++ [' ']) ++ '-' :: ("->".toList ++ post) =
        (w2 ++ [' ']) ++ '-' :: ("->".toList ++ s6.rest) := by
      have h5b : n ++ (args ++ (" -->".toList ++ post)) = w1 ++ (w2 ++ (" -->".toList ++ s6.rest)) := by
        rw [← e6, ← e5, ← e4, r3]
      rw [← hn1] at h5b
      have := List.append_cancel_left h5b
      simpa using this
    obtain ⟨ha1, _, hp1⟩ := append_cons_unique (P := argChar ext)
      (fun x hx => by
        rcases List.mem_append.1 hx with h | h
        · exact hargs x h
        · simp only [List.mem_singleton] at h
          rw [h]
          exact hsp)
      (fun x hx => by
        rcases List.mem_append.1 hx with h | h
        · exact hw2 x h
        · simp only [List.mem_singleton] at h
          rw [h]
          exact hsp)
      hdash hdash eq2
    have ha2 : args = w2 := List.append_cancel_right ha1
    have hpost : s6.rest = post := (List.append_cancel_left hp1).symm
    refine ⟨by rw [g6, hpost], ?_, by rw [g6, b6]⟩
    rw [g6, c6, c5, c4, c3, k2, ← ha2, ← hn1]

/-- At a function-based `IF` marker, with or without `!`, `ifFunctionRegex`
matches the marker and all the line breaks that follow it. -/
theorem ifFunction_matchAt (ext : Char → Bool) (neg : Bool) {n args : Str}
    (hn : isIdentifier ext n = true) (ha : fullMatch (argsStar ext) args = true)
    (nl post : Str) (hnl : ∀ c ∈ nl, (c == '\r' || c == '\n') = true) (hpost : noNewlineHead post)
    (b : Bool) :
    matchAt (ifFunctionRegex ext) b
        ((("<!-- IF ".toList ++ ((if neg then "!".toList else []) ++ ("function.".toList ++
          (n ++ (args ++ " -->".toList))))) ++ nl) ++ post) =
      some ⟨("<!-- IF ".toList ++ ((if neg then "!".toList else []) ++ ("function.".toList ++
          (n ++ (args ++ " -->".toList))))) ++ nl,
        [(3, args), (2, n), (1, if neg then "!".toList else [])]⟩ := by
  have hrun : ∀ st, (ifFunctionRegex ext).run st = (Re.seq (Re.cat [Re.lit "<!-- IF ".toList,
      notRegex 1, Re.lit "function.".toList, .grp 2 (identifierRegex ext), argsRegex ext 3,
      Re.lit " -->".toList]) (Re.seq newlinesRegex Re.eps)).run st :=
    fun st => run_cat_append [Re.lit "<!-- IF ".toList, notRegex 1, Re.lit "function.".toList,
      .grp 2 (identifierRegex ext), argsRegex ext 3, Re.lit " -->".toList] [newlinesRegex] st
  rw [matchAt_congr hrun]
  obtain ⟨hex, hall⟩ := ifFunctionCore_run ext neg hn ha (nl ++ post) b
  apply matchAt_then_newlines _ _ nl post _ b (by simp) hnl hpost
  · simpa using hex
  · simpa using hall

/-- A plain `IF` marker whose path does not begin with `function.`, or stands
behind `../`, is no match of `ifFunctionRegex`. -/
theorem ifFunction_matchAt_none_gen (ext : Char → Bool) (neg par : Bool) {p : Str}
    (hk : isKey ext p = true) (hf : par = true ∨ "function.".toList.isPrefixOf p = false)
    (post : Str) (b : Bool) :
    matchAt (ifFunctionRegex ext) b
      ("<!-- IF ".toList ++ (condPayload neg par p ++ (" -->".toList ++ post))) = none := by
  apply matchAt_none_of_run
  apply List.eq_nil_iff_forall_not_mem.2
  intro st hst
  simp only [ifFunctionRegex, Re.cat] at hst
  obtain ⟨s1, h1, g1⟩ := mem_run_seq.1 hst
  obtain ⟨e1, c1⟩ := mem_run_lit h1
  have e1b : s1.rest = condPayload neg par p ++ (" -->".toList ++ post) :=
    (List.append_cancel_left e1).symm
  obtain ⟨s2, h2, g2⟩ := mem_run_seq.1 g1
  obtain ⟨s3, h3, g3⟩ := mem_run_seq.1 g2
  obtain ⟨e3, _⟩ := mem_run_lit h3
  -- what stands behind the optional `!`
  have hcases : s2.rest = '!' :: ((if par then "../".toList else []) ++ (p ++ (" -->".toList ++ post)))
      ∨ s2.rest = (if par then "../".toList else []) ++ (p ++ (" -->".toList ++ post)) := by
    rcases mem_run_not_cases h2 with e2 | ⟨tl, et, e2⟩
    · rw [e2]
      simp only
      rw [e1b]
      cases neg with
      | true => exact Or.inl (by simp [condPayload])
      | false => exact Or.inr (by simp [condPayload])
    · rw [e2]
      simp only
      rw [e1b] at et
      cases neg with
      | true => exact Or.inr (by simpa [condPayload] using et.symm)
      | false =>
        exfalso
        cases par with
        | false =>
          exact key_head_ne ext hk (x := '!') (by decide) (by decide) _ tl
            (by simpa [condPayload] using et)
        | true => simp [condPayload] at et
  rcases hcases with e2 | e2
  · rw [e2] at e3
    simp at e3
  · rw [e2] at e3
    cases par with
    | true => simp at e3
    | false =>
      rcases hf with hf | hf
      · exact absurd hf (by simp)
      · have hpre : "function.".toList.isPrefixOf (p ++ ' ' :: ("-->".toList ++ post)) = true := by
          rw [List.isPrefixOf_iff_prefix]
          exact ⟨s3.rest, by simpa using e3.symm⟩
        have := isPrefixOf_append_cons _ p _ ' ' (by decide) hpre
        rw [hf] at this
        exact absurd this (by simp)

/-! ## The Condition Pass on a text with one marker -/

theorem condCaps_group3 (w : Str) (neg par : Bool) (p : Str) :
    (⟨w, condCaps neg par p⟩ : Match).group 3 = p := rfl

theorem condCaps_group1 (w : Str) (neg par : Bool) (p : Str) :
    (⟨w, condCaps neg par p⟩ : Match).group 1 = if neg then "!".toList else [] := by
  cases par <;> rfl

theorem condPayload_not_mem (ext : Char → Bool) (neg par : Bool) {p : Str}
    (hk : isKey ext p = true) {x : Char} (hx : isDelim x = true) (hx2 : x ≠ '!') (hx3 : x ≠ '/') :
    ∀ c ∈ condPayload neg par p, c ≠ x := by
  have hp := keyChar_not_delim ext (isKey_chars ext hk) hx
  have h1 : ∀ c ∈ (if neg then "!".toList else []), c ≠ x := by
    cases neg with
    | false => simp
    | true =>
      intro c hc e
      simp only [if_true, String.toList, List.mem_singleton] at hc
      exact hx2 (e.symm.trans hc)
  have h2 : ∀ c ∈ (if par then "../".toList else []), c ≠ x := by
    cases par with
    | false => simp
    | true =>
      intro c hc e
      simp only [if_true, String.toList, List.mem_cons, List.mem_singleton, List.not_mem_nil,
        or_false] at hc
      subst e
      rcases hc with h | h | h
      · rw [h] at hx
        exact absurd hx (by decide)
      · rw [h] at hx
        exact absurd hx (by decide)
      · exact hx3 h
  exact not_mem_append h1 (not_mem_append h2 hp)

theorem newlines_not_mem {nl : Str} (hnl : ∀ c ∈ nl, (c == '\r' || c == '\n') = true) {x : Char}
    (hx : (x == '\r' || x == '\n') = false) : ∀ c ∈ nl, c ≠ x := by
  intro c hc e
  have := hnl c hc
  rw [e, hx] at this
  exact absurd this (by simp)

theorem replaceIfs_one (fuel : Nat) (m : Match) (t E : Str)
    (hE : convertName fuel (m.group 3) = .ret E) :
    replaceIfs fuel [m] t =
      .ret (strReplace t (m.group 0) ("\x7b\x7bif ".toList ++
        (if m.group 1 ≠ [] then "not ".toList else []) ++ E ++ "\x7d\x7d".toList)) := by
  rw [replaceIfs, hE]
  simp [Outcome.bind, replaceIfs]

theorem replaceIfFunctions_one (fuel : Nat) (m : Match) (t call : Str)
    (hcall : convertMethod fuel (m.group 2) (reSplit functionsArgs (m.group 3)) = .ret call) :
    replaceIfFunctions fuel [m] t =
      .ret (strReplace t (m.group 0) ("\x7b\x7bif ".toList ++
        (if m.group 1 ≠ [] then "not ".toList else []) ++ " (".toList ++ call
          ++ ")\x7d\x7d".toList)) := by
  rw [replaceIfFunctions, hcall]
  simp [Outcome.bind, replaceIfFunctions]

/-- The Condition Pass on a text whose only `<` begins a plain `IF` marker: the
marker and the line breaks behind it become the `if` block opening. -/
theorem convertConditions_if_marker (ext : Char → Bool) (fuel : Nat) (neg par : Bool) {p E : Str}
    (pre nl post : Str) (hk : isKey ext p = true)
    (hf : par = true ∨ "function.".toList.isPrefixOf p = false)
    (hE : convertName fuel p = .ret E) (hpre : ∀ c ∈ pre, c ≠ '<') (hpost1 : ∀ c ∈ post, c ≠ '<')
    (hnl : ∀ c ∈ nl, (c == '\r' || c == '\n') = true) (hpost : noNewlineHead post) :
    convertConditions ext fuel
        (pre ++ ((("<!-- IF ".toList ++ (condPayload neg par p ++ " -->".toList)) ++ nl) ++ post)) =
      .ret (pre ++ (("\x7b\x7bif ".toList ++ (if neg then "not ".toList else []) ++ E
        ++ "\x7d\x7d".toList) ++ post), none) := by
  have hEc : ∀ c ∈ E, c ≠ '<' := convertName_key_not_mem ext hk hE (by decide) (by decide)
  have hpay : ∀ c ∈ condPayload neg par p, c ≠ '<' :=
    condPayload_not_mem ext neg par hk (by decide) (by decide) (by decide)
  have hnlc : ∀ c ∈ nl, c ≠ '<' := newlines_not_mem hnl (by decide)
  obtain ⟨u, hu⟩ : ∃ u, u = "!-- IF ".toList ++ (condPayload neg par p ++ " -->".toList) ++ nl :=
    ⟨_, rfl⟩
  have huc : ∀ c ∈ u ++ post, c ≠ '<' := by
    rw [hu]
    exact not_mem_append (not_mem_append (not_mem_append (by decide)
      (not_mem_append hpay (by decide))) hnlc) hpost1
  have eM : ("<!-- IF ".toList ++ (condPayload neg par p ++ " -->".toList)) ++ nl = '<' :: u := by
    rw [hu]
    rfl
  have f1 : findAll (ifFunctionRegex ext) (pre ++ ('<' :: u ++ post)) = [] := by
    unfold findAll
    rw [findAllFrom_skip (needsHead_ifFunction ext) pre _ hpre true]
    apply findAllFrom_block_last (needsHead_ifFunction ext) _ _ huc
    have := ifFunction_matchAt_none_gen ext neg par hk hf (nl ++ post) (true && pre.isEmpty)
    have e : "<!-- IF ".toList ++ (condPayload neg par p ++ (" -->".toList ++ (nl ++ post))) =
        '<' :: (u ++ post) := by
      rw [hu]
      simp
    rw [e] at this
    exact this
  have f2 : findAll (ifRegex ext) (pre ++ ('<' :: u ++ post)) = [⟨'<' :: u, condCaps neg par p⟩] := by
    unfold findAll
    have hm := if_matchAt_gen ext neg par hk nl post hnl hpost (true && pre.isEmpty)
    rw [eM] at hm
    rw [findAllFrom_skip (needsHead_if ext) pre _ hpre true,
      findAllFrom_match hm rfl (by simp),
      findAllFrom_nil_of_not_mem (needsHead_if ext) post hpost1 false]
  have hnot : (if (if neg then "!".toList else []) ≠ [] then "not ".toList else ([] : Str)) =
      if neg then "not ".toList else [] := by
    cases neg <;> simp
  have hout : ∀ c ∈ pre ++ (("\x7b\x7bif ".toList ++ (if neg then "not ".toList else []) ++ E
      ++ "\x7d\x7d".toList) ++ post), c ≠ '<' :=
    not_mem_append hpre (not_mem_append (not_mem_append (not_mem_append (not_mem_append (by decide)
      (by cases neg <;> decide)) hEc) (by decide)) hpost1)
  unfold convertConditions
  rw [eM, f1]
  simp only [replaceIfFunctions, Outcome.bind, f2]
  rw [replaceIfs_one fuel _ _ E (by rw [condCaps_group3]; exact hE), condCaps_group1, hnot]
  simp only []
  have g0 : (⟨'<' :: u, condCaps neg par p⟩ : Match).group 0 = '<' :: u := rfl
  rw [g0, strReplace_single _ _ pre post '<' u rfl hpre hpost1]
  have h3 : ∀ f, replaceAll elseRegex f (pre ++ (("\x7b\x7bif ".toList ++
      (if neg then "not ".toList else []) ++ E ++ "\x7d\x7d".toList) ++ post)) = _ :=
    fun f => replaceAllFrom_id_of_not_mem needsHead_else f _ hout _
  rw [h3]
  have h4 : ∀ f, replaceAll (endifRegex ext) f (pre ++ (("\x7b\x7bif ".toList ++
      (if neg then "not ".toList else []) ++ E ++ "\x7d\x7d".toList) ++ post)) = _ :=
    fun f => replaceAllFrom_id_of_not_mem (needsHead_endif ext) f _ hout _
  rw [h4]

/-- The Condition Pass on a text whose only `<` begins a function-based `IF`
marker: the marker and the line breaks behind it become the `if` block opening
over the call. -/
theorem convertConditions_ifFunction_marker (ext : Char → Bool) (fuel : Nat) (neg : Bool)
    {n args call : Str} (pre nl post : Str) (hn : isIdentifier ext n = true)
    (ha : fullMatch (argsStar ext) args = true)
    (hcall : convertMethod fuel n (reSplit functionsArgs args) = .ret call)
    (hcallc : ∀ c ∈ call, c ≠ '<')
    (hpre : ∀ c ∈ pre, c ≠ '<') (hpost1 : ∀ c ∈ post, c ≠ '<')
    (hnl : ∀ c ∈ nl, (c == '\r' || c == '\n') = true) (hpost : noNewlineHead post) :
    convertConditions ext fuel
        (pre ++ ((("<!-- IF ".toList ++ ((if neg then "!".toList else []) ++ ("function.".toList ++
          (n ++ (args ++ " -->".toList))))) ++ nl) ++ post)) =
      .ret (pre ++ (("\x7b\x7bif ".toList ++ (if neg then "not ".toList else []) ++ " (".toList
        ++ call ++ ")\x7d\x7d".toList) ++ post), none) := by
  have hargs : ∀ c ∈ args, c ≠ '<' := by
    obtain ⟨st, hst, e⟩ := fullMatch_iff.1 ha
    obtain ⟨w, e1, hw⟩ := (argsStar ext).run_within (argsStar_within ext) _ _ hst
    have : args = w := by
      have : args = w ++ st.rest := e1
      rw [this, e]
      simp
    rw [this]
    intro c hc e2
    have := hw c hc
    rw [e2, argChar_of_isDelim ext (by decide) (by decide) (by decide)] at this
    exact absurd this (by simp)
  have hnc : ∀ c ∈ n, c ≠ '<' := identifier_not_mem ext hn (by decide)
  have hnlc : ∀ c ∈ nl, c ≠ '<' := newlines_not_mem hnl (by decide)
  obtain ⟨u, hu⟩ : ∃ u, u = "!-- IF ".toList ++ ((if neg then "!".toList else []) ++
      ("function.".toList ++ (n ++ (args ++ " -->".toList)))) ++ nl := ⟨_, rfl⟩
  have eM : ("<!-- IF ".toList ++ ((if neg then "!".toList else []) ++ ("function.".toList ++
      (n ++ (args ++ " -->".toList))))) ++ nl = '<' :: u := by
    rw [hu]
    rfl
  have f1 : findAll (ifFunctionRegex ext) (pre ++ ('<' :: u ++ post)) =
      [⟨'<' :: u, [(3, args), (2, n), (1, if neg then "!".toList else [])]⟩] := by
    unfold findAll
    have hm := ifFunction_matchAt ext neg hn ha nl post hnl hpost (true && pre.isEmpty)
    rw [eM] at hm
    rw [findAllFrom_skip (needsHead_ifFunction ext) pre _ hpre true,
      findAllFrom_match hm rfl (by simp),
      findAllFrom_nil_of_not_mem (needsHead_ifFunction ext) post hpost1 false]
  have hnot : (if (if neg then "!".toList else []) ≠ [] then "not ".toList else ([] : Str)) =
      if neg then "not ".toList else [] := by
    cases neg <;> simp
  have hout : ∀ c ∈ pre ++ (("\x7b\x7bif ".toList ++ (if neg then "not ".toList else [])
      ++ " (".toList ++ call ++ ")\x7d\x7d".toList) ++ post), c ≠ '<' :=
    not_mem_append hpre (not_mem_append (not_mem_append (not_mem_append (not_mem_append
      (not_mem_append (by decide) (by cases neg <;> decide)) (by decide)) hcallc) (by decide))
      hpost1)
  have g1 : (⟨'<' :: u, [(3, args), (2, n), (1, if neg then "!".toList else [])]⟩ : Match).group 1 =
      if neg then "!".toList else [] := rfl
  have g0 : (⟨'<' :: u, [(3, args), (2, n), (1, if neg then "!".toList else [])]⟩ : Match).group 0 =
      '<' :: u := rfl
  unfold convertConditions
  rw [eM, f1, replaceIfFunctions_one fuel
    ⟨'<' :: u, [(3, args), (2, n), (1, if neg then "!".toList else [])]⟩ _ call hcall, g1, hnot, g0,
    strReplace_single _ _ pre post '<' u rfl hpre hpost1]
  simp only [Outcome.bind]
  have f2 : findAll (ifRegex ext) (pre ++ (("\x7b\x7bif ".toList ++
      (if neg then "not ".toList else []) ++ " (".toList ++ call ++ ")\x7d\x7d".toList) ++ post)) = [] :=
    findAllFrom_nil_of_not_mem (needsHead_if ext) _ hout _
  rw [f2]
  simp only [replaceIfs]
  have h3 : ∀ f, replaceAll elseRegex f (pre ++ (("\x7b\x7bif ".toList ++
      (if neg then "not ".toList else []) ++ " (".toList ++ call ++ ")\x7d\x7d".toList) ++ post)) = _ :=
    fun f => replaceAllFrom_id_of_not_mem needsHead_else f _ hout _
  rw [h3]
  have h4 : ∀ f, replaceAll (endifRegex ext) f (pre ++ (("\x7b\x7bif ".toList ++
      (if neg then "not ".toList else []) ++ " (".toList ++ call ++ ")\x7d\x7d".toList) ++ post)) = _ :=
    fun f => replaceAllFrom_id_of_not_mem (needsHead_endif ext) f _ hout _
  rw [h4]

/-- The Condition Pass on a text whose only `<` begins an `ELSE` marker: the
marker and the line breaks behind it become `{{- else}}`. -/
theorem convertConditions_else_marker (ext : Char → Bool) (fuel : Nat) (pre nl post : Str)
    (hpre : ∀ c ∈ pre, c ≠ '<') (hpost1 : ∀ c ∈ post, c ≠ '<')
    (hnl : ∀ c ∈ nl, (c == '\r' || c == '\n') = true) (hpost : noNewlineHead post) :
    convertConditions ext fuel (pre ++ (("<!-- ELSE -->".toList ++ nl) ++ post)) =
      .ret (pre ++ ("\x7b\x7b- else\x7d\x7d".toList ++ post), none) := by
  have hnlc : ∀ c ∈ nl, c ≠ '<' := newlines_not_mem hnl (by decide)
  obtain ⟨u, hu⟩ : ∃ u, u = "!-- ELSE -->".toList ++ nl := ⟨_, rfl⟩
  have huc : ∀ c ∈ u ++ post, c ≠ '<' := by
    rw [hu]
    exact not_mem_append (not_mem_append (by decide) hnlc) hpost1
  have eM : "<!-- ELSE -->".toList ++ nl = '<' :: u := by
    rw [hu]
    rfl
  have hpf : "<!-- IF ".toList.isPrefixOf ('<' :: (u ++ post)) = false := by
    rw [hu]
    rfl
  have f1 : findAll (ifFunctionRegex ext) (pre ++ ('<' :: u ++ post)) = [] := by
    unfold findAll
    rw [findAllFrom_skip (needsHead_ifFunction ext) pre _ hpre true]
    exact findAllFrom_block_last (needsHead_ifFunction ext) _ _ huc (matchAt_lit_none _ _ _ _ hpf)
  have f2 : findAll (ifRegex ext) (pre ++ ('<' :: u ++ post)) = [] := by
    unfold findAll
    rw [findAllFrom_skip (needsHead_if ext) pre _ hpre true]
    exact findAllFrom_block_last (needsHead_if ext) _ _ huc (matchAt_lit_none _ _ _ _ hpf)
  have h3 : replaceAll elseRegex (fun _ => "\x7b\x7b- else\x7d\x7d".toList)
      (pre ++ ('<' :: u ++ post)) = pre ++ ("\x7b\x7b- else\x7d\x7d".toList ++ post) := by
    unfold replaceAll
    have hm := else_matchAt_gen nl post hnl hpost (true && pre.isEmpty)
    rw [eM] at hm
    rw [replaceAllFrom_skip needsHead_else _ pre _ hpre true,
      replaceAllFrom_match hm rfl (by simp),
      replaceAllFrom_id_of_not_mem needsHead_else _ post hpost1 false]
  have hout : ∀ c ∈ pre ++ ("\x7b\x7b- else\x7d\x7d".toList ++ post), c ≠ '<' :=
    not_mem_append hpre (not_mem_append (by decide) hpost1)
  unfold convertConditions
  rw [eM, f1]
  simp only [replaceIfFunctions, Outcome.bind, f2, replaceIfs, h3]
  have h4 : ∀ f, replaceAll (endifRegex ext) f (pre ++ ("\x7b\x7b- else\x7d\x7d".toList ++ post)) = _ :=
    fun f => replaceAllFrom_id_of_not_mem (needsHead_endif ext) f _ hout _
  rw [h4]

/-- The Condition Pass on a text whose only `<` begins an `ENDIF` marker: the
marker alone becomes `{{- end}}`; what follows it, line breaks included, stays. -/
theorem convertConditions_endif_marker (ext : Char → Bool) (fuel : Nat) (neg par : Bool) {p : Str}
    (pre post : Str) (hk : isKey ext p = true) (hpre : ∀ c ∈ pre, c ≠ '<')
    (hpost1 : ∀ c ∈ post, c ≠ '<') :
    convertConditions ext fuel
        (pre ++ (("<!-- ENDIF ".toList ++ (condPayload neg par p ++ " -->".toList)) ++ post)) =
      .ret (pre ++ ("\x7b\x7b- end\x7d\x7d".toList ++ post), none) := by
  have hpay : ∀ c ∈ condPayload neg par p, c ≠ '<' :=
    condPayload_not_mem ext neg par hk (by decide) (by decide) (by decide)
  obtain ⟨u, hu⟩ : ∃ u, u = "!-- ENDIF ".toList ++ (condPayload neg par p ++ " -->".toList) :=
    ⟨_, rfl⟩
  have huc : ∀ c ∈ u ++ post, c ≠ '<' := by
    rw [hu]
    exact not_mem_append (not_mem_append (by decide) (not_mem_append hpay (by decide))) hpost1
  have eM : "<!-- ENDIF ".toList ++ (condPayload neg par p ++ " -->".toList) = '<' :: u := by
    rw [hu]
    rfl
  have hpf : "<!-- IF ".toList.isPrefixOf ('<' :: (u ++ post)) = false := by
    rw [hu]
    rfl
  have hpe : "<!-- ELSE -->".toList.isPrefixOf ('<' :: (u ++ post)) = false := by
    rw [hu]
    rfl
  have f1 : findAll (ifFunctionRegex ext) (pre ++ ('<' :: u ++ post)) = [] := by
    unfold findAll
    rw [findAllFrom_skip (needsHead_ifFunction ext) pre _ hpre true]
    exact findAllFrom_block_last (needsHead_ifFunction ext) _ _ huc (matchAt_lit_none _ _ _ _ hpf)
  have f2 : findAll (ifRegex ext) (pre ++ ('<' :: u ++ post)) = [] := by
    unfold findAll
    rw [findAllFrom_skip (needsHead_if ext) pre _ hpre true]
    exact findAllFrom_block_last (needsHead_if ext) _ _ huc (matchAt_lit_none _ _ _ _ hpf)
  have h3 : ∀ f, replaceAll elseRegex f (pre ++ ('<' :: u ++ post)) = pre ++ ('<' :: u ++ post) := by
    intro f
    unfold replaceAll
    have hb := replaceAllFrom_block_last needsHead_else f (u ++ post) (true && pre.isEmpty) huc
      (matchAt_lit_none _ _ _ _ hpe)
    rw [replaceAllFrom_skip needsHead_else _ pre _ hpre true]
    exact congrArg (fun x => pre ++ x) hb
  have h4 : replaceAll (endifRegex ext) (fun _ => "\x7b\x7b- end\x7d\x7d".toList)
      (pre ++ ('<' :: u ++ post)) = pre ++ ("\x7b\x7b- end\x7d\x7d".toList ++ post) := by
    unfold replaceAll
    have hm := endif_matchAt_gen ext neg par hk post (true && pre.isEmpty)
    rw [eM] at hm
    rw [replaceAllFrom_skip (needsHead_endif ext) _ pre _ hpre true,
      replaceAllFrom_match hm rfl (by simp),
      replaceAllFrom_id_of_not_mem (needsHead_endif ext) _ post hpost1 false]
  unfold convertConditions
  rw [eM, f1]
  simp only [replaceIfFunctions, Outcome.bind, f2, replaceIfs, h3, h4]

theorem condPayload_text (neg : Bool) {up : Str} (hup : up = [] ∨ up = "../".toList) (p : Str) :
    ∃ par : Bool, (par = true ↔ up = "../".toList) ∧
      (if neg then "!".toList else []) ++ (up ++ p) = condPayload neg par p := by
  rcases hup with h | h
  · exact ⟨false, by simp [h], by simp [condPayload, h]⟩
  · exact ⟨true, by simp [h], by simp [condPayload, h]⟩

/-- The call of a function-based marker: the result of `convertMethod` on the
argument text `, a1, …, ak`, which holds no `<`. -/
theorem convertMethod_argText (ext : Char → Bool) (fuel : Nat) {n : Str} {as : List Str}
    (hn : isIdentifier ext n = true) (has : ∀ a ∈ as, isKey ext a = true)
    (hfuel : ∀ a ∈ as, a.length + 1 < fuel) :
    ∃ call, convertMethod fuel n (reSplit functionsArgs (argText as)) = .ret call ∧
      ∀ c ∈ call, c ≠ '<' := by
  obtain ⟨Es, hEs⟩ := convertName_keys ext fuel as has hfuel
  obtain ⟨h1, _, _⟩ := convertVariables_callRef ext fuel hn has hEs
  refine ⟨_, h1, ?_⟩
  exact not_mem_append (not_mem_append (identifier_not_mem ext hn (by decide)) (by decide))
    (strJoin_not_mem Es _ (by decide) (results_not_mem ext has hEs (by decide) (by decide)))

/-- Claim C16: for a plain `IF` marker (a path of the key grammar, with or
without `../`, that is not taken for a function call) and for a function-based
`IF` marker (an identifier and paths as arguments), standing with the line
breaks behind it between two texts without `<`, the Condition Pass output for
the marker with `!` directly behind `IF ` is the output for the marker without
it, with `not ` put directly behind `{{if `. -/
theorem C16_negated_if (ext : Char → Bool) (fuel : Nat) (up p n : Str) (as : List Str)
    (pre nl post : Str)
    (hup : up = [] ∨ up = "../".toList) (hk : isKey ext p = true)
    (hf : up = "../".toList ∨ "function.".toList.isPrefixOf p = false) (hp : p.length + 1 < fuel)
    (hn : isIdentifier ext n = true) (has : ∀ a ∈ as, isKey ext a = true)
    (hfuel : ∀ a ∈ as, a.length + 1 < fuel)
    (hpre : ∀ c ∈ pre, c ≠ '<') (hpost1 : ∀ c ∈ post, c ≠ '<')
    (hnl : ∀ c ∈ nl, (c == '\r' || c == '\n') = true) (hpost : noNewlineHead post) :
    (∃ E, convertName fuel p = .ret E ∧
      convertConditions ext fuel
          (pre ++ ("<!-- IF ".toList ++ (up ++ p) ++ " -->".toList) ++ nl ++ post) =
        .ret (pre ++ ("\x7b\x7bif ".toList ++ (E ++ "\x7d\x7d".toList)) ++ post, none) ∧
      convertConditions ext fuel
          (pre ++ ("<!-- IF ".toList ++ ("!".toList ++ (up ++ p)) ++ " -->".toList) ++ nl ++ post) =
        .ret (pre ++ ("\x7b\x7bif ".toList ++ ("not ".toList ++ (E ++ "\x7d\x7d".toList))) ++ post,
          none)) ∧
    (∃ call, convertMethod fuel n (reSplit functionsArgs (argText as)) = .ret call ∧
      convertConditions ext fuel
          (pre ++ ("<!-- IF ".toList ++ ("function.".toList ++ n ++ argText as) ++ " -->".toList)
            ++ nl ++ post) =
        .ret (pre ++ ("\x7b\x7bif ".toList ++ (" (".toList ++ call ++ ")\x7d\x7d".toList)) ++ post,
          none) ∧
      convertConditions ext fuel
          (pre ++ ("<!-- IF ".toList ++ ("!".toList ++ ("function.".toList ++ n ++ argText as))
            ++ " -->".toList) ++ nl ++ post) =
        .ret (pre ++ ("\x7b\x7bif ".toList ++ ("not ".toList ++ (" (".toList ++ call
          ++ ")\x7d\x7d".toList))) ++ post, none)) := by
  constructor
  · obtain ⟨E, hE⟩ := convertName_key ext hk fuel hp
    refine ⟨E, hE, ?_, ?_⟩
    · obtain ⟨par, hpar, e⟩ := condPayload_text false hup p
      have h := convertConditions_if_marker ext fuel false par pre nl post hk
        (by rcases hf with h | h; exact Or.inl (hpar.2 h); exact Or.inr h) hE hpre hpost1 hnl hpost
      rw [← e] at h
      simpa using h
    · obtain ⟨par, hpar, e⟩ := condPayload_text true hup p
      have h := convertConditions_if_marker ext fuel true par pre nl post hk
        (by rcases hf with h | h; exact Or.inl (hpar.2 h); exact Or.inr h) hE hpre hpost1 hnl hpost
      rw [← e] at h
      simpa using h
  · obtain ⟨call, hcall, hcallc⟩ := convertMethod_argText ext fuel hn has hfuel
    have ha := fullMatch_argText ext as has
    refine ⟨call, hcall, ?_, ?_⟩
    · have h := convertConditions_ifFunction_marker ext fuel false pre nl post hn ha hcall hcallc
        hpre hpost1 hnl hpost
      simpa using h
    · have h := convertConditions_ifFunction_marker ext fuel true pre nl post hn ha hcall hcallc
        hpre hpost1 hnl hpost
      simpa using h

/-- Claim C16 at the markers `<!-- IF active -->`, `<!-- IF !active -->`,
`<!-- IF function.f, a -->` and `<!-- IF !function.f, a -->`. -/
theorem C16_negated_if_witness :
    convertConditions asciiLetters 8 "<!-- IF active -->".toList =
      .ret ("\x7b\x7bif $.active\x7d\x7d".toList, none) ∧
    convertConditions asciiLetters 8 "<!-- IF !active -->".toList =
      .ret ("\x7b\x7bif not $.active\x7d\x7d".toList, none) ∧
    convertConditions asciiLetters 8 "<!-- IF function.f, a -->".toList =
      .ret ("\x7b\x7bif  (f $ $.a)\x7d\x7d".toList, none) ∧
    convertConditions asciiLetters 8 "<!-- IF !function.f, a -->".toList =
      .ret ("\x7b\x7bif not  (f $ $.a)\x7d\x7d".toList, none) := by
  obtain ⟨⟨E, hE, h1, h2⟩, ⟨call, hc, h3, h4⟩⟩ := C16_negated_if asciiLetters 8 [] "active".toList
    "f".toList ["a".toList] [] [] [] (Or.inl rfl) (by decide) (Or.inr (by decide)) (by decide)
    (by decide) (by decide) (by decide) (by simp) (by simp) (by simp) noNewlineHead_nil
  have eE : E = "$.active".toList := by
    have : convertName 8 "active".toList = .ret "$.active".toList := by decide
    rw [this] at hE
    exact (Outcome.ret.inj hE).symm
  have eC : call = "f $ $.a".toList := by
    have : convertMethod 8 "f".toList (reSplit functionsArgs (argText ["a".toList])) =
        .ret "f $ $.a".toList := by decide
    rw [this] at hc
    exact (Outcome.ret.inj hc).symm
  rw [eE] at h1 h2
  rw [eC] at h3 h4
  exact ⟨h1, h2, h3, h4⟩

/-! ## Line breaks behind a condition marker -/

/-- The line break behind an `ENDIF` marker stays: `<!-- ENDIF a -->` followed
by a line break and `X` becomes `{{- end}}`, the line break and `X`. And of two
`IF` markers of the same path, the first followed by one line break and the
second by two, the second keeps one of its line breaks. -/
theorem C13_endif_keeps_line_break :
    convertConditions asciiLetters 8 "<!-- ENDIF a -->\nX".toList =
      .ret ("\x7b\x7b- end\x7d\x7d\nX".toList, none) ∧
    convertConditions asciiLetters 8 "<!-- ENDIF a -->\nX".toList ≠
      .ret ("\x7b\x7b- end\x7d\x7dX".toList, none) ∧
    convertConditions asciiLetters 8 "<!-- IF a -->\nX<!-- IF a -->\n\nY".toList =
      .ret ("\x7b\x7bif $.a\x7d\x7dX\x7b\x7bif $.a\x7d\x7d\nY".toList, none) := by
  decide

/-! ## A text followed by a marker: the matcher -/

theorem forall₂_flatMap {α β γ δ : Type} {R : α → β → Prop} {S : γ → δ → Prop}
    {f : α → List γ} {g : β → List δ} {l1 : List α} {l2 : List β} (h : List.Forall₂ R l1 l2)
    (hfg : ∀ x y, R x y → List.Forall₂ S (f x) (g y)) :
    List.Forall₂ S (l1.flatMap f) (l2.flatMap g) := by
  induction h with
  | nil => exact List.Forall₂.nil
  | cons hxy _ ih =>
    simp only [List.flatMap_cons]
    exact List.rel_append (hfg _ _ hxy) ih

theorem forall₂_map {α β γ δ : Type} {R : α → β → Prop} {S : γ → δ → Prop}
    {f : α → γ} {g : β → δ} {l1 : List α} {l2 : List β} (h : List.Forall₂ R l1 l2)
    (hfg : ∀ x y, R x y → S (f x) (g y)) : List.Forall₂ S (l1.map f) (l2.map g) := by
  induction h with
  | nil => exact List.Forall₂.nil
  | cons hxy _ ih => exact List.Forall₂.cons (hfg _ _ hxy) ih

theorem forall₂_filter {α β : Type} {R : α → β → Prop} {p : α → Bool} {q : β → Bool}
    {l1 : List α} {l2 : List β} (h : List.Forall₂ R l1 l2) (hpq : ∀ x y, R x y → p x = q y) :
    List.Forall₂ (fun x y => R x y ∧ q y = true) (l1.filter p) (l2.filter q) := by
  induction h with
  | nil => exact List.Forall₂.nil
  | @cons x y xs ys hxy _ ih =>
    have e := hpq x y hxy
    cases hq : q y with
    | true =>
      rw [List.filter_cons_of_pos (by rw [e, hq]), List.filter_cons_of_pos hq]
      exact List.Forall₂.cons ⟨hxy, hq⟩ ih
    | false =>
      rw [List.filter_cons_of_neg (by rw [e, hq]; simp), List.filter_cons_of_neg (by rw [hq]; simp)]
      exact ih

theorem framed_length {t : Str} {s1 s2 : MState} (h : Framed t s1 s2) :
    s1.rest.length = s2.rest.length + (t.length + 1) := by
  rw [h.2.2]
  simp

/-- When no round of the step consumes text, the iteration stops at once. -/
theorem starRun_stuck (f : MState → List MState) (g : Bool) (n : Nat) (s : MState)
    (h : (f s).filter (fun x => decide (x.rest.length < s.rest.length)) = []) :
    starRun f g n s = [s] := by
  cases n with
  | zero => rfl
  | succ m => cases g <;> simp [starRun, h]

theorem starRun_framed (t : Str) (f : MState → List MState)
    (hf : ∀ s1 s2, Framed t s1 s2 → List.Forall₂ (Framed t) (f s1) (f s2)) (g : Bool) :
    ∀ (k : Nat) (s1 s2 : MState), Framed t s1 s2 → s2.rest.length ≤ k →
      ∀ n1 n2, k ≤ n1 → k ≤ n2 →
        List.Forall₂ (Framed t) (starRun f g n1 s1) (starRun f g n2 s2) := by
  have hfilt : ∀ s1 s2, Framed t s1 s2 →
      List.Forall₂ (fun x y => Framed t x y ∧ decide (y.rest.length < s2.rest.length) = true)
        ((f s1).filter (fun x => decide (x.rest.length < s1.rest.length)))
        ((f s2).filter (fun x => decide (x.rest.length < s2.rest.length))) := by
    intro s1 s2 h
    apply forall₂_filter (hf s1 s2 h)
    intro x y hxy
    have e1 := framed_length h
    have e2 := framed_length hxy
    by_cases hlt : y.rest.length < s2.rest.length
    · have : x.rest.length < s1.rest.length := by omega
      simp [hlt, this]
    · have : ¬ x.rest.length < s1.rest.length := by omega
      simp [hlt, this]
  intro k
  induction k with
  | zero =>
    intro s1 s2 h hk n1 n2 _ _
    have h2 : (f s2).filter (fun x => decide (x.rest.length < s2.rest.length)) = [] := by
      apply List.filter_eq_nil_iff.2
      intro x _
      simp only [decide_eq_true_eq]
      omega
    have h1 : (f s1).filter (fun x => decide (x.rest.length < s1.rest.length)) = [] := by
      have := hfilt s1 s2 h
      rw [h2] at this
      exact List.forall₂_nil_right_iff.1 this
    rw [starRun_stuck f g n1 s1 h1, starRun_stuck f g n2 s2 h2]
    exact List.Forall₂.cons h List.Forall₂.nil
  | succ k ih =>
    intro s1 s2 h hk n1 n2 hn1 hn2
    obtain ⟨m1, rfl⟩ : ∃ m, n1 = m + 1 := ⟨n1 - 1, by omega⟩
    obtain ⟨m2, rfl⟩ : ∃ m, n2 = m + 1 := ⟨n2 - 1, by omega⟩
    have hmore : List.Forall₂ (Framed t)
        (((f s1).filter (fun x => decide (x.rest.length < s1.rest.length))).flatMap (starRun f g m1))
        (((f s2).filter (fun x => decide (x.rest.length < s2.rest.length))).flatMap (starRun f g m2)) := by
      apply forall₂_flatMap (hfilt s1 s2 h)
      intro x y hxy
      have hy : y.rest.length < s2.rest.length := by simpa using hxy.2
      exact ih x y hxy.1 (by omega) m1 m2 (by omega) (by omega)
    cases g with
    | true =>
      simp only [starRun, if_true]
      exact List.rel_append hmore (List.Forall₂.cons h List.Forall₂.nil)
    | false =>
      simp only [starRun, Bool.false_eq_true, if_false]
      exact List.Forall₂.cons h hmore

/-- A pattern that cannot consume `<` matches in a text followed by `<` and more
text as it does in the text alone. -/
theorem Re.run_framed (t : Str) (r : Re) :
    r.Within (fun c => c ≠ '<') → ∀ s1 s2, Framed t s1 s2 →
      List.Forall₂ (Framed t) (r.run s1) (r.run s2) := by
  induction r with
  | chr c =>
    intro hP s1 s2 h
    obtain ⟨c1, b1, r1⟩ := s1
    obtain ⟨c2, b2, r2⟩ := s2
    obtain ⟨hc, hb, hr⟩ := h
    simp only at hc hb hr
    subst hc hb hr
    cases r2 with
    | nil =>
      have : ¬ '<' = c := fun e => hP e.symm
      simp [Re.run, this]
    | cons x xs =>
      by_cases hx : x = c
      · simp only [List.cons_append, Re.run, hx, if_true]
        exact List.Forall₂.cons ⟨rfl, rfl, rfl⟩ List.Forall₂.nil
      · simp [Re.run, hx]
  | cls p =>
    intro hP s1 s2 h
    obtain ⟨c1, b1, r1⟩ := s1
    obtain ⟨c2, b2, r2⟩ := s2
    obtain ⟨hc, hb, hr⟩ := h
    simp only at hc hb hr
    subst hc hb hr
    cases r2 with
    | nil =>
      have : p '<' = false := by
        cases hp : p '<' with
        | false => rfl
        | true => exact absurd rfl (hP '<' hp)
      simp [Re.run, this]
    | cons x xs =>
      by_cases hx : p x = true
      · simp only [List.cons_append, Re.run, hx, if_true]
        exact List.Forall₂.cons ⟨rfl, rfl, rfl⟩ List.Forall₂.nil
      · simp [Re.run, hx]
  | bot =>
    intro _ s1 s2 h
    by_cases hb : s2.atStart = true
    · have hb1 : s1.atStart = true := by rw [h.2.1, hb]
      simp only [Re.run, hb, hb1, if_true]
      exact List.Forall₂.cons h List.Forall₂.nil
    · have hb1 : ¬ s1.atStart = true := by rw [h.2.1]; exact hb
      simp [Re.run, hb, hb1]
  | eps =>
    intro _ s1 s2 h
    simp only [Re.run]
    exact List.Forall₂.cons h List.Forall₂.nil
  | seq a b iha ihb =>
    intro hP s1 s2 h
    simp only [Re.run]
    exact forall₂_flatMap (iha hP.1 s1 s2 h) (fun x y hxy => ihb hP.2 x y hxy)
  | alt a b iha ihb =>
    intro hP s1 s2 h
    simp only [Re.run]
    exact List.rel_append (iha hP.1 s1 s2 h) (ihb hP.2 s1 s2 h)
  | star g a iha =>
    intro hP s1 s2 h
    simp only [Re.run]
    exact starRun_framed t (fun s => a.run s) (fun x y hxy => iha hP x y hxy) g s2.rest.length
      s1 s2 h (Nat.le_refl _) _ _ (by rw [framed_length h]; omega) (Nat.le_refl _)
  | grp n a iha =>
    intro hP s1 s2 h
    simp only [Re.run]
    apply forall₂_map (iha hP s1 s2 h)
    intro x y hxy
    refine ⟨?_, hxy.2.1, hxy.2.2⟩
    simp only
    rw [hxy.1]
    congr 2
    have e1 := framed_length h
    have e2 := framed_length hxy
    rw [show s1.rest.length - x.rest.length = s2.rest.length - y.rest.length by omega, h.2.2,
      List.take_append_of_le_length (by omega)]

/-! ## A text followed by a marker: scanning -/

/-- A literal without `<` stands at the head of a text followed by `<` exactly
when it stands at the head of the text alone. -/
theorem isPrefixOf_frame (L : Str) (hL : '<' ∉ L) (t : Str) :
    ∀ a : Str, L.isPrefixOf (a ++ '<' :: t) = L.isPrefixOf a := by
  induction L with
  | nil => intro a; simp
  | cons l Ls ih =>
    intro a
    cases a with
    | nil =>
      have : (l == '<') = false := by
        simp only [beq_eq_false_iff_ne, ne_eq]
        exact fun e => hL (by simp [e])
      simp [List.isPrefixOf, this]
    | cons x xs =>
      simp only [List.cons_append, List.isPrefixOf_cons₂]
      rw [ih (fun hm => hL (by simp [hm])) xs]

theorem length_le_of_isPrefixOf {L a : Str} (h : L.isPrefixOf a = true) : L.length ≤ a.length := by
  rw [List.isPrefixOf_iff_prefix] at h
  exact h.length_le

/-- A pattern that begins with a literal `<…` and cannot consume `<` afterwards
matches in a text followed by `<` and more text as it does in the text alone,
unless the position is that `<` and the literal stands there. -/
theorem run_lit_framed (t L : Str) (r : Re) (hL : '<' ∉ L) (hr : r.Within (fun c => c ≠ '<'))
    (s1 s2 : MState) (h : Framed t s1 s2)
    (hne : s2.rest ≠ [] ∨ ('<' :: L).isPrefixOf ('<' :: t) = false) :
    List.Forall₂ (Framed t) ((Re.seq (Re.lit ('<' :: L)) r).run s1)
      ((Re.seq (Re.lit ('<' :: L)) r).run s2) := by
  obtain ⟨c1, b1, r1⟩ := s1
  obtain ⟨c2, b2, r2⟩ := s2
  obtain ⟨hc, hb, hrest⟩ := h
  simp only at hc hb hrest hne
  subst hc hb hrest
  rw [run_lit_seq, run_lit_seq]
  cases r2 with
  | nil =>
    rcases hne with h | h
    · exact absurd rfl h
    · simp only [List.nil_append, h]
      simp [List.isPrefixOf]
  | cons x xs =>
    have e : ('<' :: L).isPrefixOf (x :: xs ++ '<' :: t) = ('<' :: L).isPrefixOf (x :: xs) := by
      simp only [List.cons_append, List.isPrefixOf_cons₂]
      rw [isPrefixOf_frame L hL t xs]
    simp only [e]
    by_cases hp : ('<' :: L).isPrefixOf (x :: xs) = true
    · simp only [hp, if_true]
      apply Re.run_framed t r hr
      refine ⟨rfl, rfl, ?_⟩
      simp only
      exact List.drop_append_of_le_length (length_le_of_isPrefixOf hp)
    · simp [hp]

/-- The preferred match in a text followed by `<` and more text, given that the
matcher runs there as in the text alone. -/
theorem matchAt_framed {re : Re} {t : Str} {b : Bool} {a : Str}
    (h : List.Forall₂ (Framed t) (re.run ⟨[], b, a ++ '<' :: t⟩) (re.run ⟨[], b, a⟩)) :
    matchAt re b (a ++ '<' :: t) = matchAt re b a := by
  unfold matchAt
  generalize re.run ⟨[], b, a ++ '<' :: t⟩ = l1 at h
  generalize re.run ⟨[], b, a⟩ = l2 at h
  cases h with
  | nil => rfl
  | @cons x y xs ys hxy _ =>
    have e := framed_length hxy
    simp only [List.length_append, List.length_cons]
    by_cases hlt : y.rest.length < a.length
    · have hlt1 : x.rest.length < a.length + (t.length + 1) := by omega
      simp only [hlt, hlt1, if_true, hxy.1]
      congr 2
      rw [show a.length + (t.length + 1) - x.rest.length = a.length - y.rest.length by omega,
        List.take_append_of_le_length (by omega)]
    · have hlt1 : ¬ x.rest.length < a.length + (t.length + 1) := by omega
      simp only [hlt, hlt1, if_false]

theorem matchAt_whole_length {re : Re} {b : Bool} {s : Str} {m : Match}
    (h : matchAt re b s = some m) : m.whole.length ≤ s.length := by
  unfold matchAt at h
  split at h
  · exact absurd h (by simp)
  · split at h
    · simp only [Option.some.injEq] at h
      rw [← h]
      simp
    · exact absurd h (by simp)

theorem matchAt_nil (re : Re) (b : Bool) : matchAt re b [] = none := by
  unfold matchAt
  split
  · rfl
  · simp

/-- The matches found in a text followed by `<` and more text, when no match
is found from that `<` on. -/
theorem findAllFrom_framed {re : Re} {t : Str}
    (hfr : ∀ a b, a ≠ [] → matchAt re b (a ++ '<' :: t) = matchAt re b a)
    (htail : ∀ b, findAllFrom re b 0 ('<' :: t) = []) :
    ∀ (a : Str) (b : Bool) (k : Nat), k ≤ a.length →
      findAllFrom re b k (a ++ '<' :: t) = findAllFrom re b k a := by
  intro a
  induction a with
  | nil =>
    intro b k hk
    have : k = 0 := by simpa using hk
    subst this
    rw [List.nil_append, htail]
    rfl
  | cons c cs ih =>
    intro b k hk
    cases k with
    | succ k =>
      rw [List.cons_append, findAllFrom_succ, findAllFrom_succ]
      exact ih false k (by simpa using hk)
    | zero =>
      have hm := hfr (c :: cs) b (by simp)
      rw [List.cons_append] at hm
      rw [List.cons_append, findAllFrom_zero, findAllFrom_zero, hm]
      cases hq : matchAt re b (c :: cs) with
      | none => exact ih false 0 (Nat.zero_le _)
      | some m =>
        have := matchAt_whole_length hq
        simp only
        rw [ih false (m.whole.length - 1) (by simp only [List.length_cons] at this; omega)]

/-- The replacement of the matches in a text followed by `<` and more text,
given what the replacement makes of the text from that `<` on. -/
theorem replaceAllFrom_framed {re : Re} {t X : Str} (repl : Match → Str)
    (hfr : ∀ a b, a ≠ [] → matchAt re b (a ++ '<' :: t) = matchAt re b a)
    (htail : ∀ b, replaceAllFrom re repl b 0 ('<' :: t) = X) :
    ∀ (a : Str) (b : Bool) (k : Nat), k ≤ a.length →
      replaceAllFrom re repl b k (a ++ '<' :: t) = replaceAllFrom re repl b k a ++ X := by
  intro a
  induction a with
  | nil =>
    intro b k hk
    have : k = 0 := by simpa using hk
    subst this
    rw [List.nil_append, htail]
    rfl
  | cons c cs ih =>
    intro b k hk
    cases k with
    | succ k =>
      rw [List.cons_append, replaceAllFrom_succ, replaceAllFrom_succ]
      exact ih false k (by simpa using hk)
    | zero =>
      have hm := hfr (c :: cs) b (by simp)
      rw [List.cons_append] at hm
      rw [List.cons_append, replaceAllFrom_zero, replaceAllFrom_zero, hm]
      cases hq : matchAt re b (c :: cs) with
      | none =>
        simp only
        rw [ih false 0 (Nat.zero_le _)]
        rfl
      | some m =>
        have := matchAt_whole_length hq
        simp only
        rw [ih false (m.whole.length - 1) (by simp only [List.length_cons] at this; omega),
          List.append_assoc]

/-- `strings.Replace` in a text followed by `<` and more text: a search text
that holds no `<` behind its first character, does not stand at that `<`, and
whose first character does not occur behind it, is replaced as in the text
alone. -/
theorem strReplaceFrom_framed (o : Char) (w new t : Str) (hw : '<' ∉ w)
    (hdead : (o :: w).isPrefixOf ('<' :: t) = false) (ht : ∀ c ∈ t, c ≠ o) :
    ∀ (a : Str) (k : Nat), k ≤ a.length →
      strReplaceFrom (o :: w) new k (a ++ '<' :: t) = strReplaceFrom (o :: w) new k a ++ '<' :: t := by
  intro a
  induction a with
  | nil =>
    intro k hk
    have : k = 0 := by simpa using hk
    subst this
    rw [List.nil_append, strReplaceFrom_zero, hdead]
    simp only [Bool.false_eq_true, if_false, strReplaceFrom_nil, List.nil_append]
    rw [strReplaceFrom_of_not_mem (o :: w) new o w rfl t ht]
  | cons c cs ih =>
    intro k hk
    cases k with
    | succ k =>
      rw [List.cons_append, strReplaceFrom_succ, strReplaceFrom_succ]
      exact ih k (by simpa using hk)
    | zero =>
      have e : (o :: w).isPrefixOf (c :: (cs ++ '<' :: t)) = (o :: w).isPrefixOf (c :: cs) := by
        simp only [List.isPrefixOf_cons₂]
        rw [isPrefixOf_frame w hw t cs]
      rw [List.cons_append, strReplaceFrom_zero, strReplaceFrom_zero, e]
      by_cases hp : (o :: w).isPrefixOf (c :: cs) = true
      · have hlen := length_le_of_isPrefixOf hp
        simp only [hp, if_true, List.length_cons, Nat.add_sub_cancel]
        rw [ih w.length (by simp only [List.length_cons] at hlen; omega), List.append_assoc]
      · simp only [hp, if_false]
        rw [ih 0 (Nat.zero_le _)]
        rfl

/-! ## A text followed by a marker: the patterns -/

theorem within_mono {P Q : Char → Prop} (h : ∀ c, P c → Q c) :
    ∀ r : Re, r.Within P → r.Within Q := by
  intro r
  induction r with
  | chr c => exact fun hw => h c hw
  | cls p => exact fun hw x hx => h x (hw x hx)
  | bot => exact fun _ => trivial
  | eps => exact fun _ => trivial
  | seq a b iha ihb => exact fun hw => ⟨iha hw.1, ihb hw.2⟩
  | alt a b iha ihb => exact fun hw => ⟨iha hw.1, ihb hw.2⟩
  | star g a iha => exact fun hw => iha hw
  | grp n a iha => exact fun hw => iha hw

theorem within_lit {P : Char → Prop} (w : Str) (h : ∀ c ∈ w, P c) : (Re.lit w).Within P := by
  induction w with
  | nil => exact trivial
  | cons c cs ih => exact ⟨h c (by simp), ih (fun x hx => h x (by simp [hx]))⟩

theorem key_within_lt (ext : Char → Bool) : (keyRegex ext).Within (fun c => c ≠ '<') :=
  within_mono (P := fun c => keyChar ext c = true) (fun c hc e => by
    rw [e, keyChar_of_isDelim ext (by decide)] at hc
    exact absurd hc (by simp)) _ (keyRegex_within ext)

theorem ident_within_lt (ext : Char → Bool) : (identifierRegex ext).Within (fun c => c ≠ '<') := by
  have h : ∀ x, identRest ext x = true → x ≠ '<' := by
    intro x hx e
    rw [e, identRest_of_isPunct ext (by decide)] at hx
    exact absurd hx (by simp)
  exact ⟨fun x hx => h x (identStart_imp_identRest ext hx), fun x hx => h x hx⟩

theorem args_within_lt (ext : Char → Bool) : (argsRegex ext 3).Within (fun c => c ≠ '<') ∧
    (argsRegex ext 2).Within (fun c => c ≠ '<') := by
  have h : (argsStar ext).Within (fun c => c ≠ '<') :=
    within_mono (P := fun c => argChar ext c = true) (fun c hc e => by
      rw [e, argChar_of_isDelim ext (by decide) (by decide) (by decide)] at hc
      exact absurd hc (by simp)) _ (argsStar_within ext)
  exact ⟨h, h⟩

theorem parent_within_lt (n : Nat) : (parentRegex n).Within (fun c => c ≠ '<') :=
  ⟨within_lit _ (by decide), trivial⟩

theorem not_within_lt (n : Nat) : (notRegex n).Within (fun c => c ≠ '<') :=
  ⟨show '!' ≠ '<' by decide, trivial⟩

theorem newlines_within_lt : newlinesRegex.Within (fun c => c ≠ '<') := by
  intro x hx e
  rw [e] at hx
  exact absurd hx (by decide)

theorem matchAt_some {re : Re} {b : Bool} {s : Str} {m : Match} (h : matchAt re b s = some m) :
    ∃ st ∈ re.run ⟨[], b, s⟩, ∃ w, s = w ++ st.rest ∧ w ≠ [] ∧ m.whole = w := by
  unfold matchAt at h
  split at h
  · exact absurd h (by simp)
  · rename_i st tl hrun
    split at h
    · rename_i hlt
      simp only [Option.some.injEq] at h
      have hst : st ∈ re.run ⟨[], b, s⟩ := by rw [hrun]; simp
      obtain ⟨w, e⟩ := re.run_suffix hst
      have e2 : s = w ++ st.rest := e
      refine ⟨st, hst, w, e2, ?_, ?_⟩
      · intro hw
        rw [hw] at e2
        rw [e2] at hlt
        simp at hlt
      · rw [← h]
        simp only
        have : s.length - st.rest.length = w.length := by
          rw [e2]
          simp
        rw [this, e2]
        simp
    · exact absurd h (by simp)

/-- A pattern that cannot consume `<` and begins with a character that is not
`<` and does not occur in `t`. -/
theorem barrier_of_within {re : Re} {t : Str} {c0 : Char} (hw : re.Within (fun c => c ≠ '<'))
    (hh : NeedsHead re c0) (hc0 : c0 ≠ '<') (ht : ∀ c ∈ t, c ≠ c0) : Barrier re t := by
  refine ⟨?_, ?_, ?_⟩
  · intro a b _
    exact matchAt_framed (re.run_framed t hw _ _ ⟨rfl, rfl, rfl⟩)
  · apply noMatch_of_not_mem hh
    intro c hc
    rcases List.mem_cons.1 hc with h | h
    · rw [h]
      exact fun e => hc0 e.symm
    · exact ht c h
  · intro b s m hm
    obtain ⟨st, hst, w, e, hne, hwhole⟩ := matchAt_some hm
    obtain ⟨w2, e2, hw2⟩ := re.run_within hw _ _ hst
    have hww : w = w2 := List.append_cancel_right (e.symm.trans e2)
    have hhead : ∃ tl, s = c0 :: tl := by
      by_contra hcon
      have := hh ⟨[], b, s⟩ (fun tl e => hcon ⟨tl, e⟩)
      rw [this] at hst
      simp at hst
    obtain ⟨tl, etl⟩ := hhead
    cases w with
    | nil => exact absurd rfl hne
    | cons o w1 =>
      have ho : o = c0 := by
        rw [etl] at e
        simp only [List.cons_append, List.cons.injEq] at e
        exact e.1.symm
      refine ⟨o, w1, hwhole, ?_, ?_, ?_⟩
      · intro hm1
        exact hw2 '<' (by rw [← hww]; simp [hm1]) rfl
      · have : (o == '<') = false := by
          simp only [beq_eq_false_iff_ne, ne_eq]
          rw [ho]
          exact hc0
        simp [List.isPrefixOf, this]
      · rw [ho]
        exact ht

/-- A pattern that begins with a literal `<…`, cannot consume `<` afterwards,
and whose literal does not stand at the `<` before `t`. -/
theorem barrier_of_lit {L : Str} {r : Re} {t : Str} (hL : '<' ∉ L)
    (hr : r.Within (fun c => c ≠ '<')) (hdead : ('<' :: L).isPrefixOf ('<' :: t) = false)
    (ht : ∀ c ∈ t, c ≠ '<') : Barrier (Re.seq (Re.lit ('<' :: L)) r) t := by
  refine ⟨?_, ?_, ?_⟩
  · intro a b ha
    exact matchAt_framed (run_lit_framed t L r hL hr _ _ ⟨rfl, rfl, rfl⟩ (Or.inl ha))
  · intro x y b e
    cases x with
    | nil =>
      rw [List.nil_append] at e
      rw [run_lit_seq, ← e, hdead]
      simp
    | cons c cs =>
      simp only [List.cons_append, List.cons.injEq] at e
      apply needsHead_lit '<' L r
      intro tl e2
      have e3 : y = '<' :: tl := e2
      exact ht '<' (by rw [e.2, e3]; simp) rfl
  · intro b s m hm
    obtain ⟨st, hst, w, e, hne, hwhole⟩ := matchAt_some hm
    obtain ⟨s1, h1, h2⟩ := mem_run_seq.1 hst
    obtain ⟨e1, _⟩ := mem_run_lit h1
    obtain ⟨w2, e2, hw2⟩ := r.run_within hr _ _ h2
    have e3 : s = ('<' :: L) ++ (w2 ++ st.rest) := by
      have : s = ('<' :: L) ++ s1.rest := e1
      rw [this, e2]
    have hww : w = ('<' :: L) ++ w2 := by
      have : w ++ st.rest = (('<' :: L) ++ w2) ++ st.rest := by
        rw [← e, e3, List.append_assoc]
      exact List.append_cancel_right this
    refine ⟨'<', L ++ w2, by rw [hwhole, hww]; rfl, ?_, ?_, ht⟩
    · intro hm1
      rcases List.mem_append.1 hm1 with h | h
      · exact hL h
      · exact hw2 '<' h rfl
    · exact isPrefixOf_append_false ('<' :: L) w2 ('<' :: t) hdead

theorem findAllFrom_forall {re : Re} {Q : Match → Prop}
    (h : ∀ b s m, matchAt re b s = some m → Q m) :
    ∀ (s : Str) (b : Bool) (k : Nat), ∀ m ∈ findAllFrom re b k s, Q m := by
  intro s
  induction s with
  | nil => intro b k m hm; cases k <;> simp [findAllFrom] at hm
  | cons c cs ih =>
    intro b k m hm
    cases k with
    | succ k =>
      rw [findAllFrom_succ] at hm
      exact ih false k m hm
    | zero =>
      rw [findAllFrom_zero] at hm
      cases hq : matchAt re b (c :: cs) with
      | none =>
        rw [hq] at hm
        exact ih false 0 m hm
      | some m0 =>
        rw [hq] at hm
        simp only [List.mem_cons] at hm
        rcases hm with e | hm
        · rw [e]
          exact h b _ m0 hq
        · exact ih false _ m hm

/-- The matches of a pattern in a text followed by `<` and `t` are its matches
in the text alone, and each is a search text the `<` does not disturb. -/
theorem findAll_barrier {re : Re} {t : Str} (h : Barrier re t) (A : Str) :
    findAll re (A ++ '<' :: t) = findAll re A ∧ ∀ m ∈ findAll re A, SearchOk t (m.group 0) :=
  ⟨findAllFrom_framed h.1 (fun b => findAllFrom_nil_of_noMatch _ h.2.1 b 0) A true 0 (Nat.zero_le _),
    findAllFrom_forall h.2.2 A true 0⟩

theorem replaceAll_barrier {re : Re} {t : Str} (h : Barrier re t) (repl : Match → Str) (A : Str) :
    replaceAll re repl (A ++ '<' :: t) = replaceAll re repl A ++ '<' :: t :=
  replaceAllFrom_framed repl h.1 (fun b => replaceAllFrom_id_of_noMatch repl _ h.2.1 b) A true 0
    (Nat.zero_le _)

theorem strReplace_framed {t old : Str} (h : SearchOk t old) (new A : Str) :
    strReplace (A ++ '<' :: t) old new = strReplace A old new ++ '<' :: t := by
  obtain ⟨o, w, e, hw, hdead, ht⟩ := h
  rw [strReplace_eq _ old new (by rw [e]; simp), strReplace_eq _ old new (by rw [e]; simp), e]
  exact strReplaceFrom_framed o w new t hw hdead ht A 0 (Nat.zero_le _)

/-! ## A text followed by an `ENDIF` marker: the passes -/

theorem barrier_rawKey (ext : Char → Bool) {t : Str} (ht : ∀ c ∈ t, c ≠ '\x7b') :
    Barrier (rawKeyRegex ext) t :=
  @barrier_of_within _ _ '\x7b'
    ⟨within_lit _ (by decide), parent_within_lt 1, key_within_lt ext, within_lit _ (by decide),
      trivial⟩
    (needsHead_rawKey ext) (by decide) ht

theorem barrier_escapedKey (ext : Char → Bool) {t : Str} (ht : ∀ c ∈ t, c ≠ '\x7b') :
    Barrier (escapedKeyRegex ext) t :=
  @barrier_of_within _ _ '\x7b'
    ⟨show '\x7b' ≠ '<' by decide, parent_within_lt 1, key_within_lt ext,
      show '\x7d' ≠ '<' by decide, trivial⟩
    (needsHead_escapedKey ext) (by decide) ht

theorem barrier_function (ext : Char → Bool) {t : Str} (ht : ∀ c ∈ t, c ≠ '\x7b') :
    Barrier (functionRegex ext) t :=
  @barrier_of_within _ _ '\x7b'
    ⟨within_lit _ (by decide), ident_within_lt ext, (args_within_lt ext).2,
      show '\x7d' ≠ '<' by decide, trivial⟩
    (needsHead_function ext) (by decide) ht

theorem barrier_ifFunction (ext : Char → Bool) {t : Str} (ht : ∀ c ∈ t, c ≠ '<')
    (hdead : "<!-- IF ".toList.isPrefixOf ('<' :: t) = false) : Barrier (ifFunctionRegex ext) t :=
  barrier_of_lit (L := "!-- IF ".toList) (by decide)
    ⟨not_within_lt 1, within_lit _ (by decide), ident_within_lt ext, (args_within_lt ext).1,
      within_lit _ (by decide), newlines_within_lt, trivial⟩ hdead ht

theorem barrier_if (ext : Char → Bool) {t : Str} (ht : ∀ c ∈ t, c ≠ '<')
    (hdead : "<!-- IF ".toList.isPrefixOf ('<' :: t) = false) : Barrier (ifRegex ext) t :=
  barrier_of_lit (L := "!-- IF ".toList) (by decide)
    ⟨not_within_lt 1, parent_within_lt 2, key_within_lt ext, within_lit _ (by decide),
      newlines_within_lt, trivial⟩ hdead ht

theorem barrier_else {t : Str} (ht : ∀ c ∈ t, c ≠ '<')
    (hdead : "<!-- ELSE -->".toList.isPrefixOf ('<' :: t) = false) : Barrier elseRegex t :=
  barrier_of_lit (L := "!-- ELSE -->".toList) (by decide) ⟨newlines_within_lt, trivial⟩ hdead ht

theorem replaceFunctions_framed (fuel : Nat) (t : Str) :
    ∀ ms : List Match, (∀ m ∈ ms, SearchOk t (m.group 0)) → ∀ A : Str,
      replaceFunctions fuel ms (A ++ '<' :: t) =
        (replaceFunctions fuel ms A).map (fun r => r ++ '<' :: t) := by
  intro ms
  induction ms with
  | nil => intro _ A; rfl
  | cons m rest ih =>
    intro h A
    simp only [replaceFunctions]
    cases convertMethod fuel (m.group 1) (reSplit functionsArgs (m.group 2)) with
    | ret call =>
      simp only [Outcome.bind]
      rw [strReplace_framed (h m (by simp))]
      exact ih (fun x hx => h x (by simp [hx])) _
    | panic => rfl
    | fuelOut => rfl

theorem replaceKeys_framed (fuel : Nat) (t : Str) :
    ∀ ms : List Match, (∀ m ∈ ms, SearchOk t (m.group 0)) → ∀ A : Str,
      replaceKeys fuel ms (A ++ '<' :: t) = (replaceKeys fuel ms A).map (fun r => r ++ '<' :: t) := by
  intro ms
  induction ms with
  | nil => intro _ A; rfl
  | cons m rest ih =>
    intro h A
    simp only [replaceKeys]
    cases convertName fuel (m.group 2) with
    | ret e =>
      simp only [Outcome.bind]
      rw [strReplace_framed (h m (by simp))]
      exact ih (fun x hx => h x (by simp [hx])) _
    | panic => rfl
    | fuelOut => rfl

theorem replaceIfFunctions_framed (fuel : Nat) (t : Str) :
    ∀ ms : List Match, (∀ m ∈ ms, SearchOk t (m.group 0)) → ∀ A : Str,
      replaceIfFunctions fuel ms (A ++ '<' :: t) =
        (replaceIfFunctions fuel ms A).map (fun r => r ++ '<' :: t) := by
  intro ms
  induction ms with
  | nil => intro _ A; rfl
  | cons m rest ih =>
    intro h A
    simp only [replaceIfFunctions]
    cases convertMethod fuel (m.group 2) (reSplit functionsArgs (m.group 3)) with
    | ret call =>
      simp only [Outcome.bind]
      rw [strReplace_framed (h m (by simp))]
      exact ih (fun x hx => h x (by simp [hx])) _
    | panic => rfl
    | fuelOut => rfl

theorem replaceIfs_framed (fuel : Nat) (t : Str) :
    ∀ ms : List Match, (∀ m ∈ ms, SearchOk t (m.group 0)) → ∀ A : Str,
      replaceIfs fuel ms (A ++ '<' :: t) = (replaceIfs fuel ms A).map (fun r => r ++ '<' :: t) := by
  intro ms
  induction ms with
  | nil => intro _ A; rfl
  | cons m rest ih =>
    intro h A
    simp only [replaceIfs]
    cases convertName fuel (m.group 3) with
    | ret e =>
      simp only [Outcome.bind]
      rw [strReplace_framed (h m (by simp))]
      exact ih (fun x hx => h x (by simp [hx])) _
    | panic => rfl
    | fuelOut => rfl

/-- The Variable Pass on a text followed by `<` and a text `t` without braces
and without `<`: it works on the text as if nothing followed, and leaves what
follows as it is. -/
theorem convertVariables_framed (ext : Char → Bool) (fuel : Nat) (t : Str)
    (ht : ∀ c ∈ t, c ≠ '\x7b') (A : Str) :
    convertVariables ext fuel (A ++ '<' :: t) =
      (convertVariables ext fuel A).map
        (fun r => (match r.2 with
          | none => r.1 ++ '<' :: t
          | some _ => r.1, r.2)) := by
  obtain ⟨h1, _⟩ := findAll_barrier (barrier_rawKey ext ht) A
  obtain ⟨h2, g2⟩ := findAll_barrier (barrier_function ext ht) A
  unfold convertVariables
  rw [h1]
  cases (findAll (rawKeyRegex ext) A).take 1 with
  | cons problem _ => rfl
  | nil =>
    simp only
    rw [h2, replaceFunctions_framed fuel t _ g2 A]
    cases replaceFunctions fuel (findAll (functionRegex ext) A) A with
    | ret t1 =>
      obtain ⟨h3, g3⟩ := findAll_barrier (barrier_escapedKey ext ht) t1
      simp only [Outcome.map, Outcome.bind]
      rw [h3, replaceKeys_framed fuel t _ g3 t1]
      cases replaceKeys fuel (findAll (escapedKeyRegex ext) t1) t1 <;> rfl
    | panic => rfl
    | fuelOut => rfl

/-- The Condition Pass on a text followed by an `ENDIF` marker: it works on the
text as if nothing followed, and puts `{{- end}}` for the marker, whatever the
payload of the marker is. -/
theorem convertConditions_framed_endif (ext : Char → Bool) (fuel : Nat) (neg par : Bool)
    {p : Str} (hk : isKey ext p = true) (A : Str) :
    convertConditions ext fuel
        (A ++ ("<!-- ENDIF ".toList ++ (condPayload neg par p ++ " -->".toList))) =
      (convertConditions ext fuel A).map (fun r => (r.1 ++ "\x7b\x7b- end\x7d\x7d".toList, r.2)) := by
  obtain ⟨t, ht⟩ : ∃ t, t = "!-- ENDIF ".toList ++ (condPayload neg par p ++ " -->".toList) :=
    ⟨_, rfl⟩
  have eM : "<!-- ENDIF ".toList ++ (condPayload neg par p ++ " -->".toList) = '<' :: t := by
    rw [ht]
    rfl
  have htc : ∀ c ∈ t, c ≠ '<' := by
    rw [ht]
    exact not_mem_append (by decide) (not_mem_append
      (condPayload_not_mem ext neg par hk (by decide) (by decide) (by decide)) (by decide))
  have hd1 : "<!-- IF ".toList.isPrefixOf ('<' :: t) = false := by rw [ht]; rfl
  have hd2 : "<!-- ELSE -->".toList.isPrefixOf ('<' :: t) = false := by rw [ht]; rfl
  obtain ⟨h1, g1⟩ := findAll_barrier (barrier_ifFunction ext htc hd1) A
  -- the `ENDIF` markers of the text, and the marker at the end
  have hend : ∀ B : Str, replaceAll (endifRegex ext) (fun _ => "\x7b\x7b- end\x7d\x7d".toList)
      (B ++ '<' :: t) =
      replaceAll (endifRegex ext) (fun _ => "\x7b\x7b- end\x7d\x7d".toList) B
        ++ "\x7b\x7b- end\x7d\x7d".toList := by
    intro B
    apply replaceAllFrom_framed _ _ _ B true 0 (Nat.zero_le _)
    · intro a b ha
      exact matchAt_framed (run_lit_framed t "!-- ENDIF ".toList
        (Re.cat [notRegex 1, parentRegex 2, .grp 3 (keyRegex ext), Re.lit " -->".toList])
        (by decide)
        ⟨not_within_lt 1, parent_within_lt 2, key_within_lt ext, within_lit _ (by decide), trivial⟩
        _ _ ⟨rfl, rfl, rfl⟩ (Or.inl ha))
    · intro b
      have hm := endif_matchAt_gen ext neg par hk [] b
      rw [List.append_nil, eM] at hm
      exact replaceAllFrom_match_last hm rfl (by simp)
  unfold convertConditions
  rw [eM, h1, replaceIfFunctions_framed fuel t _ g1 A]
  cases replaceIfFunctions fuel (findAll (ifFunctionRegex ext) A) A with
  | ret t1 =>
    obtain ⟨h2, g2⟩ := findAll_barrier (barrier_if ext htc hd1) t1
    simp only [Outcome.map, Outcome.bind]
    rw [h2, replaceIfs_framed fuel t _ g2 t1]
    cases replaceIfs fuel (findAll (ifRegex ext) t1) t1 with
    | ret t2 =>
      simp only [Outcome.map]
      rw [replaceAll_barrier (barrier_else htc hd2), hend]
    | panic => rfl
    | fuelOut => rfl
  | panic => rfl
  | fuelOut => rfl

/-- `Convert` on a text followed by an `ENDIF` marker: the Variable Pass on the
text, the Condition Pass on its result with `{{- end}}` appended, and the Loop
Pass; the payload of the marker plays no part. -/
theorem Convert_endif (ext : Char → Bool) (fuel : Nat) (neg par : Bool) {p : Str}
    (hk : isKey ext p = true) (Y : Str) :
    Convert ext fuel (Y ++ ("<!-- ENDIF ".toList ++ (condPayload neg par p ++ " -->".toList))) =
      andThen (andThen (convertVariables ext fuel Y)
          (fun s => (convertConditions ext fuel s).map
            (fun r => (r.1 ++ "\x7b\x7b- end\x7d\x7d".toList, r.2))))
        (fun s => convertLoops ext fuel s "$".toList "$".toList) := by
  obtain ⟨t, ht⟩ : ∃ t, t = "!-- ENDIF ".toList ++ (condPayload neg par p ++ " -->".toList) :=
    ⟨_, rfl⟩
  have eM : "<!-- ENDIF ".toList ++ (condPayload neg par p ++ " -->".toList) = '<' :: t := by
    rw [ht]
    rfl
  have htb : ∀ c ∈ t, c ≠ '\x7b' := by
    rw [ht]
    exact not_mem_append (by decide) (not_mem_append
      (condPayload_not_mem ext neg par hk (by decide) (by decide) (by decide)) (by decide))
  have hV := convertVariables_framed ext fuel t htb Y
  rw [← eM] at hV
  unfold Convert parse
  rw [hV]
  cases convertVariables ext fuel Y with
  | ret r =>
    obtain ⟨s, e⟩ := r
    cases e with
    | none =>
      simp only [Outcome.map, andThen, Outcome.bind]
      rw [convertConditions_framed_endif ext fuel neg par hk s]
      cases convertConditions ext fuel s <;> rfl
    | some err => rfl
  | panic => rfl
  | fuelOut => rfl

/-- Claim C19: for paths `p` and `q` of the key grammar, each with or without
`!` and `../`, the Condition Pass turns the markers `<!-- ENDIF p -->` and
`<!-- ENDIF q -->` into the same `{{- end}}`, and for every text `X` the call of
`Convert` on `<!-- IF p -->X<!-- ENDIF q -->` ends as the call on
`<!-- IF p -->X<!-- ENDIF p -->` does: with the same text, the same error, a
panic in both cases, or the iteration bound used up in both cases. -/
theorem C19_endif_payload (ext : Char → Bool) (fuel : Nat) (X : Str) (neg1 par1 neg2 par2 : Bool)
    (p q : Str) (hp : isKey ext p = true) (hq : isKey ext q = true) :
    convertConditions ext fuel
        ("<!-- ENDIF ".toList ++ (condPayload neg1 par1 p ++ " -->".toList)) =
      .ret ("\x7b\x7b- end\x7d\x7d".toList, none) ∧
    convertConditions ext fuel
        ("<!-- ENDIF ".toList ++ (condPayload neg2 par2 q ++ " -->".toList)) =
      .ret ("\x7b\x7b- end\x7d\x7d".toList, none) ∧
    Convert ext fuel (("<!-- IF ".toList ++ (condPayload neg1 par1 p ++ " -->".toList)) ++ X ++
        ("<!-- ENDIF ".toList ++ (condPayload neg2 par2 q ++ " -->".toList))) =
      Convert ext fuel (("<!-- IF ".toList ++ (condPayload neg1 par1 p ++ " -->".toList)) ++ X ++
        ("<!-- ENDIF ".toList ++ (condPayload neg1 par1 p ++ " -->".toList))) := by
  refine ⟨?_, ?_, ?_⟩
  · have h := convertConditions_endif_marker ext fuel neg1 par1 [] [] hp (by simp) (by simp)
    simpa using h
  · have h := convertConditions_endif_marker ext fuel neg2 par2 [] [] hq (by simp) (by simp)
    simpa using h
  · rw [Convert_endif ext fuel neg2 par2 hq, Convert_endif ext fuel neg1 par1 hp]

/-- Claim C19 at `<!-- IF a -->X<!-- ENDIF !../b.c -->` and at a text `X` with
an unclosed loop, on which both calls panic. -/
theorem C19_endif_payload_witness :
    (convertConditions asciiLetters 8 "<!-- ENDIF a -->".toList =
        .ret ("\x7b\x7b- end\x7d\x7d".toList, none) ∧
      convertConditions asciiLetters 8 "<!-- ENDIF !../b.c -->".toList =
        .ret ("\x7b\x7b- end\x7d\x7d".toList, none) ∧
      Convert asciiLetters 8 "<!-- IF a -->X<!-- ENDIF !../b.c -->".toList =
        Convert asciiLetters 8 "<!-- IF a -->X<!-- ENDIF a -->".toList) ∧
    Convert asciiLetters 8 "<!-- IF a --><!-- BEGIN z --><!-- ENDIF !../b.c -->".toList =
      Convert asciiLetters 8 "<!-- IF a --><!-- BEGIN z --><!-- ENDIF a -->".toList :=
  ⟨C19_endif_payload asciiLetters 8 "X".toList false false true true "a".toList "b.c".toList
      (by decide) (by decide),
    (C19_endif_payload asciiLetters 8 "<!-- BEGIN z -->".toList false false true true "a".toList
      "b.c".toList (by decide) (by decide)).2.2⟩

/-! ## The special token at the head of a text -/

theorem specialAt_some {s tok : Str} (h : specialAt s = some tok) :
    tok ∈ specialTokens ∧ tok.isPrefixOf s = true := by
  unfold specialAt at h
  have h1 := List.find?_some h
  have h2 := List.mem_of_find?_eq_some h
  exact ⟨h2, by simpa using h1⟩

theorem specialAt_none {s : Str} (h : specialAt s = none) :
    ∀ tok ∈ specialTokens, tok.isPrefixOf s = false := by
  unfold specialAt at h
  intro tok htok
  have h1 := List.find?_eq_none.1 h tok htok
  cases hq : tok.isPrefixOf s with
  | false => rfl
  | true => exact absurd (List.isPrefixOf_iff_prefix.1 hq) (by simpa using h1)

theorem special_head {tok : Str} (h : tok ∈ specialTokens) :
    ∃ u, tok = '@' :: u ∧ u ≠ [] ∧ ∀ c ∈ u, c ≠ '@' ∧ c ≠ '\x7b' ∧ c ≠ '\x7d' ∧ c ≠ '<' := by
  simp only [specialTokens, List.mem_cons, List.mem_singleton, List.not_mem_nil, or_false] at h
  rcases h with h | h | h | h <;> subst h <;> exact ⟨_, rfl, by decide, by decide⟩

/-- A special token that stands at the head of a text is the one found there. -/
theorem specialAt_of_prefix {s tok : Str} (htok : tok ∈ specialTokens)
    (h : tok.isPrefixOf s = true) : specialAt s = some tok := by
  cases hs : specialAt s with
  | none => rw [specialAt_none hs tok htok] at h; exact absurd h (by simp)
  | some t2 =>
    obtain ⟨h2, h3⟩ := specialAt_some hs
    by_cases e : t2 = tok
    · rw [e]
    · rw [List.isPrefixOf_iff_prefix] at h3
      obtain ⟨r, e3⟩ := h3
      have := special_prefix_false htok h2 e r
      rw [e3, h] at this
      exact absurd this (by simp)

theorem specialAt_append {tok : Str} (htok : tok ∈ specialTokens) (r : Str) :
    specialAt (tok ++ r) = some tok :=
  specialAt_of_prefix htok (by rw [List.isPrefixOf_iff_prefix]; exact ⟨r, rfl⟩)

theorem specialAt_cons_ne {c : Char} (hc : c ≠ '@') (cs : Str) : specialAt (c :: cs) = none := by
  cases hs : specialAt (c :: cs) with
  | none => rfl
  | some tok =>
    obtain ⟨h2, h3⟩ := specialAt_some hs
    obtain ⟨u, e, _⟩ := special_head h2
    rw [e] at h3
    simp only [List.isPrefixOf_cons₂, Bool.and_eq_true, beq_iff_eq] at h3
    exact absurd h3.1.symm hc

theorem specialAt_nil : specialAt [] = none := by decide

/-- A special token at the head of a text followed by `{` lies in the text. -/
theorem specialAt_brace {u Y tok : Str} (h : specialAt (u ++ '\x7b' :: Y) = some tok) (Z : Str) :
    specialAt (u ++ Z) = some tok := by
  obtain ⟨h2, h3⟩ := specialAt_some h
  obtain ⟨v, e, _, hv⟩ := special_head h2
  have hb : '\x7b' ∉ tok := by
    rw [e]
    intro hm
    rcases List.mem_cons.1 hm with h | h
    · exact absurd h (by decide)
    · exact (hv _ h).2.1 rfl
  have h4 := isPrefixOf_append_cons tok u Y '\x7b' hb h3
  apply specialAt_of_prefix h2
  rw [List.isPrefixOf_iff_prefix] at h4 ⊢
  exact h4.trans (List.prefix_append u Z)

/-! ## The matches of `rawSpecialRegex` -/

theorem run_grp (n : Nat) (a : Re) (st : MState) :
    (Re.grp n a).run st = (a.run st).map (fun s2 =>
      ⟨(n, st.rest.take (st.rest.length - s2.rest.length)) :: s2.caps, s2.atStart, s2.rest⟩) := rfl

theorem run_grp_special (n : Nat) (caps : List (Nat × Str)) (b : Bool) (s : Str) :
    (Re.grp n specialRegex).run ⟨caps, b, s⟩ =
      match specialAt s with
      | some tok => [⟨(n, tok) :: caps, false, s.drop tok.length⟩]
      | none => [] := by
  cases s with
  | nil => simp [specialAt_nil, Re.run, specialRegex]
  | cons c cs =>
    by_cases hc : c = '@'
    · subst hc
      have e1 : ∀ w : Str, ('@' :: w).isPrefixOf ('@' :: cs) = w.isPrefixOf cs := by
        intro w; simp [List.isPrefixOf_cons₂]
      have hrun : specialRegex.run ⟨caps, b, '@' :: cs⟩ =
          (Re.lit "index".toList).run ⟨caps, false, cs⟩ ++
            ((Re.lit "key".toList).run ⟨caps, false, cs⟩ ++
              ((Re.lit "value".toList).run ⟨caps, false, cs⟩ ++
                (Re.lit "first".toList).run ⟨caps, false, cs⟩)) := by
        simp [specialRegex, run_seq, run_chr_cons, run_alt]
      -- which of the four words stands behind the `@`
      have hw : ∀ u : Str, ('@' :: u) ∈ specialTokens →
          (u.isPrefixOf cs = true ↔ specialAt ('@' :: cs) = some ('@' :: u)) := by
        intro u hu
        constructor
        · intro h
          exact specialAt_of_prefix hu (by rw [e1]; exact h)
        · intro h
          have := (specialAt_some h).2
          rwa [e1] at this
      have h1 := hw "index".toList (by decide)
      have h2 := hw "key".toList (by decide)
      have h3 := hw "value".toList (by decide)
      have h4 := hw "first".toList (by decide)
      rw [run_grp, hrun, run_lit, run_lit, run_lit, run_lit]
      simp only
      cases hs : specialAt ('@' :: cs) with
      | none =>
        rw [hs] at h1 h2 h3 h4
        have p1 : ¬ "index".toList.isPrefixOf cs = true := fun h => by simpa using h1.1 h
        have p2 : ¬ "key".toList.isPrefixOf cs = true := fun h => by simpa using h2.1 h
        have p3 : ¬ "value".toList.isPrefixOf cs = true := fun h => by simpa using h3.1 h
        have p4 : ¬ "first".toList.isPrefixOf cs = true := fun h => by simpa using h4.1 h
        rw [if_neg p1, if_neg p2, if_neg p3, if_neg p4]
        rfl
      | some tok =>
        rw [hs] at h1 h2 h3 h4
        have hm := (specialAt_some hs).1
        simp only [specialTokens, List.mem_cons, List.mem_singleton, List.not_mem_nil,
          or_false] at hm
        rcases hm with e | e | e | e <;> subst e
        · have p1 : "index".toList.isPrefixOf cs = true := h1.2 rfl
          have p2 : ¬ "key".toList.isPrefixOf cs = true := fun h => absurd (h2.1 h) (by decide)
          have p3 : ¬ "value".toList.isPrefixOf cs = true := fun h => absurd (h3.1 h) (by decide)
          have p4 : ¬ "first".toList.isPrefixOf cs = true := fun h => absurd (h4.1 h) (by decide)
          rw [if_pos p1, if_neg p2, if_neg p3, if_neg p4]
          obtain ⟨r, rfl⟩ := List.isPrefixOf_iff_prefix.1 p1
          simp
          rw [show r.length + 1 + 1 + 1 + 1 + 1 + 1 - r.length = 6 from by omega]
          rfl
        · have p1 : ¬ "index".toList.isPrefixOf cs = true := fun h => absurd (h1.1 h) (by decide)
          have p2 : "key".toList.isPrefixOf cs = true := h2.2 rfl
          have p3 : ¬ "value".toList.isPrefixOf cs = true := fun h => absurd (h3.1 h) (by decide)
          have p4 : ¬ "first".toList.isPrefixOf cs = true := fun h => absurd (h4.1 h) (by decide)
          rw [if_neg p1, if_pos p2, if_neg p3, if_neg p4]
          obtain ⟨r, rfl⟩ := List.isPrefixOf_iff_prefix.1 p2
          simp
          rw [show r.length + 1 + 1 + 1 + 1 - r.length = 4 from by omega]
          rfl
        · have p1 : ¬ "index".toList.isPrefixOf cs = true := fun h => absurd (h1.1 h) (by decide)
          have p2 : ¬ "key".toList.isPrefixOf cs = true := fun h => absurd (h2.1 h) (by decide)
          have p3 : "value".toList.isPrefixOf cs = true := h3.2 rfl
          have p4 : ¬ "first".toList.isPrefixOf cs = true := fun h => absurd (h4.1 h) (by decide)
          rw [if_neg p1, if_neg p2, if_pos p3, if_neg p4]
          obtain ⟨r, rfl⟩ := List.isPrefixOf_iff_prefix.1 p3
          simp
          rw [show r.length + 1 + 1 + 1 + 1 + 1 + 1 - r.length = 6 from by omega]
          rfl
        · have p1 : ¬ "index".toList.isPrefixOf cs = true := fun h => absurd (h1.1 h) (by decide)
          have p2 : ¬ "key".toList.isPrefixOf cs = true := fun h => absurd (h2.1 h) (by decide)
          have p3 : ¬ "value".toList.isPrefixOf cs = true := fun h => absurd (h3.1 h) (by decide)
          have p4 : "first".toList.isPrefixOf cs = true := h4.2 rfl
          rw [if_neg p1, if_neg p2, if_neg p3, if_pos p4]
          obtain ⟨r, rfl⟩ := List.isPrefixOf_iff_prefix.1 p4
          simp
          rw [show r.length + 1 + 1 + 1 + 1 + 1 + 1 - r.length = 6 from by omega]
          rfl
    · rw [specialAt_cons_ne hc]
      simp [Re.run, specialRegex, hc]

/-- What `nextSpecial` finds: the token stands behind the text `w`, no `{` and
no special token stands in `w`. -/
theorem nextSpecial_some : ∀ (s w tok : Str), nextSpecial s = some (w, tok) →
    tok ∈ specialTokens ∧ ∃ r, s = w ++ (tok ++ r) ∧ (∀ c ∈ w, c ≠ '\x7b') ∧
      ∀ x y, w = x ++ y → y ≠ [] → specialAt (y ++ (tok ++ r)) = none := by
  intro s
  induction s with
  | nil => intro w tok h; simp [nextSpecial] at h
  | cons c cs ih =>
    intro w tok h
    simp only [nextSpecial] at h
    cases hs : specialAt (c :: cs) with
    | some t2 =>
      rw [hs] at h
      simp only [Option.some.injEq, Prod.mk.injEq] at h
      obtain ⟨rfl, rfl⟩ := h
      obtain ⟨h1, h2⟩ := specialAt_some hs
      obtain ⟨r, e⟩ := List.isPrefixOf_iff_prefix.1 h2
      refine ⟨h1, r, by simpa using e.symm, by simp, ?_⟩
      intro x y e2 hy
      have := (List.append_eq_nil.1 e2.symm).2
      exact absurd this hy
    | none =>
      rw [hs] at h
      simp only at h
      by_cases hc : c = '\x7b'
      · simp [hc] at h
      · simp only [hc, if_false, Option.map_eq_some'] at h
        obtain ⟨⟨w1, t1⟩, hn, e⟩ := h
        simp only [Prod.mk.injEq] at e
        obtain ⟨rfl, rfl⟩ := e
        obtain ⟨h1, r, e1, h2, h3⟩ := ih w1 t1 hn
        refine ⟨h1, r, by rw [e1]; rfl, ?_, ?_⟩
        · intro d hd
          rcases List.mem_cons.1 hd with h | h
          · rw [h]; exact hc
          · exact h2 d h
        · intro x y e2 hy
          cases x with
          | nil =>
            simp only [List.nil_append] at e2
            rw [← e2, List.cons_append, ← e1]
            exact hs
          | cons x0 xs =>
            simp only [List.cons_append, List.cons.injEq] at e2
            exact h3 xs y e2.2 hy

theorem nextSpecial_brace (cs : Str) : nextSpecial ('\x7d' :: cs) =
    (nextSpecial cs).map (fun p => ('\x7d' :: p.1, p.2)) := by
  simp [nextSpecial, specialAt_cons_ne (show ('\x7d' : Char) ≠ '@' by decide)]

/-- The lazy `[^{]*?` in its group, followed by the group of the special token:
the preferred match ends at the first special token that no `{` precedes. -/
theorem head_lazy_special (caps : List (Nat × Str)) : ∀ (s pre : Str) (b : Bool),
    ((((Re.star false (Re.cls (fun c => c != '\x7b'))).run ⟨caps, b, s⟩).map
      (fun s2 => (⟨(2, (pre ++ s).take ((pre ++ s).length - s2.rest.length)) :: s2.caps,
        s2.atStart, s2.rest⟩ : MState))).flatMap
      (fun st => (Re.grp 3 specialRegex).run st)).head? =
      (nextSpecial s).map (fun p => (⟨(3, p.2) :: (2, pre ++ p.1) :: caps, false,
        s.drop (p.1.length + p.2.length)⟩ : MState)) := by
  intro s
  induction s with
  | nil =>
    intro pre b
    rw [run_star_cls_stop false _ _ (by simp)]
    simp [run_grp_special, specialAt_nil, nextSpecial]
  | cons c cs ih =>
    intro pre b
    by_cases hc : c = '\x7b'
    · subst hc
      rw [run_star_cls_stop false _ _ (by
        intro d tl e
        simp only [List.cons.injEq] at e
        rw [← e.1]
        decide)]
      simp [run_grp_special, specialAt_cons_ne (show ('\x7b' : Char) ≠ '@' by decide), nextSpecial]
    · rw [run_star_lazy_cons _ _ _ _ _ (by simpa using hc)]
      simp only [List.map_cons, List.flatMap_cons]
      have e0 : (pre ++ c :: cs).take ((pre ++ c :: cs).length - (c :: cs).length) = pre := by
        simp
      rw [e0, run_grp_special]
      cases hs : specialAt (c :: cs) with
      | some tok =>
        simp [nextSpecial, hs]
      | none =>
        have h := ih (pre ++ [c]) false
        simp only [List.append_assoc, List.singleton_append] at h
        simp only [List.nil_append, h, nextSpecial, hs, hc, if_false, Option.map_map]
        congr 1
        funext p
        simp [Nat.add_right_comm]

theorem matchAt_eq_head (re : Re) (b : Bool) (s : Str) :
    matchAt re b s = ((re.run ⟨[], b, s⟩).head?).bind (fun st =>
      if st.rest.length < s.length then some ⟨s.take (s.length - st.rest.length), st.caps⟩
      else none) := by
  unfold matchAt
  cases re.run ⟨[], b, s⟩ <;> rfl

/-- The part of `rawSpecialRegex` behind its first group. -/
theorem head_rawSpecial_tail (caps : List (Nat × Str)) (b : Bool) (s : Str) :
    ((Re.cat [.grp 2 (.star false (.cls (fun c => c != '\x7b'))), .grp 3 specialRegex]).run
      ⟨caps, b, s⟩).head? =
      (nextSpecial s).map (fun p => (⟨(3, p.2) :: (2, p.1) :: caps, false,
        s.drop (p.1.length + p.2.length)⟩ : MState)) := by
  have h := head_lazy_special caps s [] b
  simp only [List.nil_append] at h
  rw [← h]
  simp [Re.cat, run_seq, run_grp, run_eps]

theorem run_rawSpecial (b : Bool) (s : Str) :
    rawSpecialRegex.run ⟨[], b, s⟩ =
      (if b then (Re.cat [.grp 2 (.star false (.cls (fun c => c != '\x7b'))),
          .grp 3 specialRegex]).run ⟨[(1, [])], b, s⟩ else []) ++
        match s with
        | [] => []
        | c :: cs =>
          if c = '\x7d' then (Re.cat [.grp 2 (.star false (.cls (fun c => c != '\x7b'))),
            .grp 3 specialRegex]).run ⟨[(1, "\x7d".toList)], false, cs⟩ else [] := by
  cases s with
  | nil => cases b <;> simp [rawSpecialRegex, Re.cat, run_seq, run_grp, run_alt, Re.run]
  | cons c cs =>
    by_cases hc : c = '\x7d'
    · subst hc
      cases b <;> simp [rawSpecialRegex, Re.cat, run_seq, run_grp, run_alt, Re.run]
    · cases b <;> simp [rawSpecialRegex, Re.cat, run_seq, run_grp, run_alt, Re.run, hc]

/-- The preferred match of `rawSpecialRegex` at the head of a text, and what the
replacement template `$1$2{{$3}}` makes of it. -/
theorem matchAt_rawSpecial (b : Bool) (s : Str) :
    (wrapMatch b s = none → matchAt rawSpecialRegex b s = none) ∧
    ∀ w tok, wrapMatch b s = some (w, tok) →
      ∃ m, matchAt rawSpecialRegex b s = some m ∧ m.whole = w ++ tok ∧
        wrapSpecial m = w ++ ("\x7b\x7b".toList ++ tok ++ "\x7d\x7d".toList) := by
  cases s with
  | nil =>
    refine ⟨fun _ => matchAt_nil _ _, ?_⟩
    intro w tok h
    simp [wrapMatch] at h
  | cons c cs =>
    have hfin : ∀ (g1 w tok r : Str) (bb : Bool) (l : List MState),
        c :: cs = g1 ++ w ++ (tok ++ r) → tok ∈ specialTokens →
        rawSpecialRegex.run ⟨[], b, c :: cs⟩ =
          (⟨(3, tok) :: (2, w) :: [(1, g1)], bb, r⟩ : MState) :: l →
        ∃ m, matchAt rawSpecialRegex b (c :: cs) = some m ∧ m.whole = g1 ++ w ++ tok ∧
          wrapSpecial m = g1 ++ w ++ ("\x7b\x7b".toList ++ tok ++ "\x7d\x7d".toList) := by
      intro g1 w tok r bb l e htok hrun
      obtain ⟨u, eu, _, _⟩ := special_head htok
      have hlen : r.length < (c :: cs).length := by
        rw [e, eu]
        simp only [List.length_append, List.length_cons]
        omega
      refine ⟨⟨g1 ++ w ++ tok, (3, tok) :: (2, w) :: [(1, g1)]⟩, ?_, rfl, ?_⟩
      · unfold matchAt
        rw [hrun]
        simp only [hlen, if_true]
        congr 2
        rw [e]
        have e2 : g1 ++ w ++ (tok ++ r) = (g1 ++ w ++ tok) ++ r := by
          simp only [List.append_assoc]
        rw [e2, List.length_append, Nat.add_sub_cancel, List.take_left]
      · simp [wrapSpecial, Match.group, List.lookup]
    by_cases hb : b = true
    · subst hb
      have hw : wrapMatch true (c :: cs) = nextSpecial (c :: cs) := by simp [wrapMatch]
      rw [hw]
      have h1 := head_rawSpecial_tail [(1, [])] true (c :: cs)
      constructor
      · intro hn
        rw [hn] at h1
        have hcs : c = '\x7d' → nextSpecial cs = none := by
          intro hc
          subst hc
          rw [nextSpecial_brace] at hn
          simpa using hn
        apply matchAt_none_of_run
        rw [run_rawSpecial]
        simp only [if_true]
        have e1 := List.head?_eq_none_iff.1 (by simpa using h1)
        rw [e1]
        by_cases hc : c = '\x7d'
        · have h2 := head_rawSpecial_tail [(1, "\x7d".toList)] false cs
          rw [hcs hc] at h2
          have e2 := List.head?_eq_none_iff.1 (by simpa using h2)
          simp [hc, e2]
        · simp [hc]
      · intro w tok hn
        rw [hn] at h1
        obtain ⟨htok, r, e, _, _⟩ := nextSpecial_some _ _ _ hn
        simp only [Option.map_some'] at h1
        obtain ⟨l, hl⟩ : ∃ l, (Re.cat [.grp 2 (.star false (.cls (fun c => c != '\x7b'))),
            .grp 3 specialRegex]).run ⟨[(1, [])], true, c :: cs⟩ =
            (⟨(3, tok) :: (2, w) :: [(1, [])], false, (c :: cs).drop (w.length + tok.length)⟩
              : MState) :: l := by
          cases hq : (Re.cat [.grp 2 (.star false (.cls (fun c => c != '\x7b'))),
            .grp 3 specialRegex]).run ⟨[(1, [])], true, c :: cs⟩ with
          | nil => rw [hq] at h1; simp at h1
          | cons a l =>
            rw [hq] at h1
            simp only [List.head?_cons, Option.some.injEq] at h1
            exact ⟨l, by rw [h1]⟩
        have hd : (c :: cs).drop (w.length + tok.length) = r := by
          rw [e, ← List.append_assoc, ← List.length_append, List.drop_left]
        rw [hd] at hl
        have := hfin [] w tok r false _ (by simpa using e) htok (by
          rw [run_rawSpecial]
          simp only [if_true]
          rw [hl]
          rfl)
        simpa using this
    · have hb2 : b = false := by simpa using hb
      subst hb2
      by_cases hc : c = '\x7d'
      · subst hc
        have hw : wrapMatch false ('\x7d' :: cs) =
            (nextSpecial cs).map (fun p => ('\x7d' :: p.1, p.2)) := by
          simp [wrapMatch, nextSpecial_brace]
        rw [hw]
        have h2 := head_rawSpecial_tail [(1, "\x7d".toList)] false cs
        have hrun : rawSpecialRegex.run ⟨[], false, '\x7d' :: cs⟩ =
            (Re.cat [.grp 2 (.star false (.cls (fun c => c != '\x7b'))),
              .grp 3 specialRegex]).run ⟨[(1, "\x7d".toList)], false, cs⟩ := by
          rw [run_rawSpecial]
          simp
        constructor
        · intro hn
          have hn2 : nextSpecial cs = none := by simpa using hn
          rw [hn2] at h2
          apply matchAt_none_of_run
          rw [hrun]
          exact List.head?_eq_none_iff.1 (by simpa using h2)
        · intro w tok hn
          simp only [Option.map_eq_some'] at hn
          obtain ⟨⟨w1, t1⟩, hn1, e1⟩ := hn
          simp only [Prod.mk.injEq] at e1
          obtain ⟨rfl, rfl⟩ := e1
          rw [hn1] at h2
          obtain ⟨htok, r, e, _, _⟩ := nextSpecial_some _ _ _ hn1
          simp only [Option.map_some'] at h2
          obtain ⟨l, hl⟩ : ∃ l, (Re.cat [.grp 2 (.star false (.cls (fun c => c != '\x7b'))),
              .grp 3 specialRegex]).run ⟨[(1, "\x7d".toList)], false, cs⟩ =
              (⟨(3, t1) :: (2, w1) :: [(1, "\x7d".toList)], false,
                cs.drop (w1.length + t1.length)⟩ : MState) :: l := by
            cases hq : (Re.cat [.grp 2 (.star false (.cls (fun c => c != '\x7b'))),
              .grp 3 specialRegex]).run ⟨[(1, "\x7d".toList)], false, cs⟩ with
            | nil => rw [hq] at h2; simp at h2
            | cons a l =>
              rw [hq] at h2
              simp only [List.head?_cons, Option.some.injEq] at h2
              exact ⟨l, by rw [h2]⟩
          have hd : cs.drop (w1.length + t1.length) = r := by
            rw [e, ← List.append_assoc, ← List.length_append, List.drop_left]
          rw [hd] at hl
          have := hfin "\x7d".toList w1 t1 r false _ (by rw [e]; rfl) htok (by rw [hrun, hl])
          simpa using this
      · have hw : wrapMatch false (c :: cs) = none := by simp [wrapMatch, hc]
        rw [hw]
        refine ⟨fun _ => ?_, fun w tok h => by simp at h⟩
        apply matchAt_none_of_run
        rw [run_rawSpecial]
        simp [hc]

/-! ## One scan of the wrapping loop -/

theorem wrapMatch_some {b : Bool} {s w tok : Str} (h : wrapMatch b s = some (w, tok)) :
    tok ∈ specialTokens ∧ (∃ r, s = w ++ (tok ++ r) ∧ (∀ c ∈ w, c ≠ '\x7b') ∧
      ∀ x y, w = x ++ y → y ≠ [] → specialAt (y ++ (tok ++ r)) = none) ∧
    (b = true ∨ ∃ w1, w = '\x7d' :: w1) := by
  cases s with
  | nil => simp [wrapMatch] at h
  | cons c cs =>
    simp only [wrapMatch] at h
    by_cases hc : b = true ∨ c = '\x7d'
    · rw [if_pos hc] at h
      obtain ⟨h1, h2⟩ := nextSpecial_some _ _ _ h
      refine ⟨h1, h2, ?_⟩
      rcases hc with hb | hc
      · exact Or.inl hb
      · subst hc
        rw [nextSpecial_brace] at h
        simp only [Option.map_eq_some'] at h
        obtain ⟨⟨w1, t1⟩, _, e⟩ := h
        simp only [Prod.mk.injEq] at e
        exact Or.inr ⟨w1, e.1.symm⟩
    · rw [if_neg hc] at h
      exact absurd h (by simp)

theorem wrapPass_nil (b : Bool) : wrapPass b [] = [] := rfl

theorem wrapPass_some {b : Bool} {w tok r : Str} (h : wrapMatch b (w ++ (tok ++ r)) = some (w, tok)) :
    wrapPass b (w ++ (tok ++ r)) =
      w ++ ("\x7b\x7b".toList ++ tok ++ "\x7d\x7d".toList) ++ wrapPass false r := by
  obtain ⟨m, hm, hw, hr⟩ := (matchAt_rawSpecial b _).2 w tok h
  obtain ⟨htok, _, _⟩ := wrapMatch_some h
  obtain ⟨u, eu, _, _⟩ := special_head htok
  have e : w ++ (tok ++ r) = (w ++ tok) ++ r := by simp only [List.append_assoc]
  unfold wrapPass
  rw [e] at hm ⊢
  rw [replaceAllFrom_match hm hw (by rw [eu]; simp), hr]

theorem wrapPass_none {b : Bool} {c : Char} {cs : Str} (h : wrapMatch b (c :: cs) = none) :
    wrapPass b (c :: cs) = c :: wrapPass false cs := by
  unfold wrapPass
  rw [replaceAllFrom_zero, (matchAt_rawSpecial b _).1 h]

theorem wrapMatch_false_ne {c : Char} (hc : c ≠ '\x7d') (cs : Str) :
    wrapMatch false (c :: cs) = none := by
  simp [wrapMatch, hc]

/-- The scan copies a stretch without `}` that does not begin the body. -/
theorem wrapPass_skip : ∀ (u r : Str), (∀ c ∈ u, c ≠ '\x7d') →
    wrapPass false (u ++ r) = u ++ wrapPass false r := by
  intro u
  induction u with
  | nil => intro r _; rfl
  | cons c cs ih =>
    intro r h
    rw [List.cons_append, wrapPass_none (wrapMatch_false_ne (h c (by simp)) _),
      ih r (fun x hx => h x (List.mem_cons_of_mem c hx))]
    rfl

/-- A text without `}` that begins the result of a scan begins the scanned
text. -/
theorem isPrefixOf_wrapPass : ∀ (u s : Str), (∀ c ∈ u, c ≠ '\x7d') →
    u.isPrefixOf (wrapPass false s) = true → u.isPrefixOf s = true := by
  intro u
  induction u with
  | nil => intro s _ _; simp
  | cons x xs ih =>
    intro s hu h
    cases s with
    | nil => simp [wrapPass_nil] at h
    | cons c cs =>
      cases hm : wrapMatch false (c :: cs) with
      | none =>
        rw [wrapPass_none hm] at h
        simp only [List.isPrefixOf_cons₂, Bool.and_eq_true, beq_iff_eq] at h ⊢
        exact ⟨h.1, ih cs (fun y hy => hu y (List.mem_cons_of_mem x hy)) h.2⟩
      | some p =>
        obtain ⟨w, tok⟩ := p
        obtain ⟨_, ⟨r, e, _, _⟩, hb⟩ := wrapMatch_some hm
        rcases hb with hb | ⟨w1, hw1⟩
        · exact absurd hb (by simp)
        · rw [e] at hm
          rw [e, wrapPass_some hm, hw1] at h
          simp only [List.cons_append, List.isPrefixOf_cons₂, Bool.and_eq_true, beq_iff_eq] at h
          exact absurd h.1 (hu x (by simp))

/-- A scan does not shorten the text, and changes it only by making it
longer. -/
theorem length_wrapPass : ∀ (n : Nat) (s : Str), s.length ≤ n → ∀ b : Bool,
    s.length ≤ (wrapPass b s).length ∧ ((wrapPass b s).length = s.length → wrapPass b s = s) := by
  intro n
  induction n with
  | zero =>
    intro s hs b
    have : s = [] := List.length_eq_zero.1 (Nat.le_zero.1 hs)
    subst this
    exact ⟨Nat.le_refl _, fun _ => rfl⟩
  | succ n ih =>
    intro s hs b
    cases s with
    | nil => exact ⟨Nat.le_refl _, fun _ => rfl⟩
    | cons c cs =>
      cases hm : wrapMatch b (c :: cs) with
      | none =>
        rw [wrapPass_none hm]
        obtain ⟨h1, h2⟩ := ih cs (by simpa using hs) false
        refine ⟨by simpa using h1, fun h => ?_⟩
        rw [h2 (by simpa using h)]
      | some p =>
        obtain ⟨w, tok⟩ := p
        obtain ⟨htok, ⟨r, e, _, _⟩, _⟩ := wrapMatch_some hm
        obtain ⟨u, eu, _, _⟩ := special_head htok
        rw [e] at hm
        have hr : r.length ≤ n := by
          have := congrArg List.length e
          simp only [List.length_cons, List.length_append, eu] at this hs
          omega
        obtain ⟨h1, _⟩ := ih r hr false
        rw [e, wrapPass_some hm]
        simp only [List.length_append, String.toList, String.length] at h1 ⊢
        simp only [List.length_cons, List.length_nil]
        constructor
        · omega
        · intro h
          omega

/-! ## The text the wrapping loop ends with -/

theorem wrapAllFrom_nil (o : Bool) (k : Nat) : wrapAllFrom o k [] = [] := by
  cases k <;> rfl

theorem wrapAllFrom_succ (o : Bool) (k : Nat) (c : Char) (cs : Str) :
    wrapAllFrom o (k + 1) (c :: cs) = wrapAllFrom o k cs := rfl

theorem wrapAllFrom_zero (o : Bool) (c : Char) (cs : Str) :
    wrapAllFrom o 0 (c :: cs) =
      match specialAt (c :: cs) with
      | some tok =>
        (if o then tok else "\x7b\x7b".toList ++ tok ++ "\x7d\x7d".toList) ++
          wrapAllFrom o (tok.length - 1) cs
      | none => c :: wrapAllFrom (braceStep o c) 0 cs := rfl

theorem wrapAllFrom_drop (o : Bool) (w s : Str) :
    wrapAllFrom o w.length (w ++ s) = wrapAllFrom o 0 s := by
  induction w with
  | nil => rfl
  | cons c cs ih => rw [List.length_cons, List.cons_append, wrapAllFrom_succ, ih]

/-- At a special token: it is wrapped when it stands outside braces. -/
theorem wrapAllFrom_token {tok : Str} (htok : tok ∈ specialTokens) (o : Bool) (r : Str) :
    wrapAllFrom o 0 (tok ++ r) =
      (if o then tok else "\x7b\x7b".toList ++ tok ++ "\x7d\x7d".toList) ++ wrapAllFrom o 0 r := by
  obtain ⟨u, eu, _, _⟩ := special_head htok
  have hs := specialAt_append htok r
  rw [eu] at hs ⊢
  rw [List.cons_append] at hs ⊢
  rw [wrapAllFrom_zero, hs]
  simp only
  have : ('@' :: u).length - 1 = u.length := by simp
  rw [this, wrapAllFrom_drop]

theorem wrapAllFrom_cons_none {c : Char} {cs : Str} (h : specialAt (c :: cs) = none) (o : Bool) :
    wrapAllFrom o 0 (c :: cs) = c :: wrapAllFrom (braceStep o c) 0 cs := by
  rw [wrapAllFrom_zero, h]

theorem braceState_nil (o : Bool) : braceState o [] = o := rfl

theorem braceState_cons (o : Bool) (c : Char) (cs : Str) :
    braceState o (c :: cs) = braceState (braceStep o c) cs := rfl

theorem braceState_append (o : Bool) (a b : Str) :
    braceState o (a ++ b) = braceState (braceState o a) b := by
  simp [braceState, List.foldl_append]

/-- A stretch in which no special token begins is copied. -/
theorem wrapAllFrom_stretch : ∀ (w : Str) (o : Bool) (Z : Str),
    (∀ x y, w = x ++ y → y ≠ [] → specialAt (y ++ Z) = none) →
      wrapAllFrom o 0 (w ++ Z) = w ++ wrapAllFrom (braceState o w) 0 Z := by
  intro w
  induction w with
  | nil => intro o Z _; rfl
  | cons c cs ih =>
    intro o Z h
    have h0 := h [] (c :: cs) rfl (by simp)
    rw [List.cons_append] at h0 ⊢
    rw [wrapAllFrom_cons_none h0, braceState_cons,
      ih _ Z (fun x y e hy => h (c :: x) y (by rw [e]; rfl) hy)]
    rfl

/-- Behind a stretch without `{` that begins outside braces or with a `}`, the
position is outside braces. -/
theorem braceState_false : ∀ (w : Str) (o : Bool), (∀ c ∈ w, c ≠ '\x7b') →
    (o = false ∨ ∃ w1, w = '\x7d' :: w1) → braceState o w = false := by
  intro w
  induction w with
  | nil =>
    intro o _ h
    rcases h with h | ⟨w1, h⟩
    · exact h
    · exact absurd h (by simp)
  | cons c cs ih =>
    intro o hw h
    rw [braceState_cons]
    apply ih _ (fun x hx => hw x (List.mem_cons_of_mem c hx))
    left
    have hc : c ≠ '\x7b' := hw c (by simp)
    rcases h with h | ⟨w1, h⟩
    · subst h
      simp [braceStep, hc]
    · simp only [List.cons.injEq] at h
      simp [braceStep, h.1]

/-- The text the wrapping loop ends with is the same for a text and for what one
scan makes of it. -/
theorem wrapAll_wrapPass : ∀ (n : Nat) (s : Str), s.length ≤ n → ∀ o b : Bool,
    (b = true → o = false) → wrapAllFrom o 0 (wrapPass b s) = wrapAllFrom o 0 s := by
  intro n
  induction n with
  | zero =>
    intro s hs o b _
    have : s = [] := List.length_eq_zero.1 (Nat.le_zero.1 hs)
    subst this
    rfl
  | succ n ih =>
    intro s hs o b hb
    cases s with
    | nil => rfl
    | cons c cs =>
      cases hm : wrapMatch b (c :: cs) with
      | some p =>
        obtain ⟨w, tok⟩ := p
        obtain ⟨htok, ⟨r, e, hw, hfree⟩, horig⟩ := wrapMatch_some hm
        obtain ⟨u, eu, _, hu⟩ := special_head htok
        have hr : r.length ≤ n := by
          have := congrArg List.length e
          simp only [List.length_cons, List.length_append, eu] at this hs
          omega
        have hst : braceState o w = false := by
          apply braceState_false w o hw
          rcases horig with h | h
          · exact Or.inl (hb h)
          · exact Or.inr h
        rw [e] at hm
        rw [e, wrapPass_some hm, wrapAllFrom_stretch w o _ hfree, hst,
          wrapAllFrom_token htok, List.append_assoc, wrapAllFrom_stretch w o _ ?_, hst]
        · congr 1
          have e1 : "\x7b\x7b".toList ++ tok ++ "\x7d\x7d".toList ++ wrapPass false r =
              '\x7b' :: '\x7b' :: (tok ++ ('\x7d' :: '\x7d' :: wrapPass false r)) := by
            simp
          have n1 : ∀ t, specialAt ('\x7b' :: t) = none :=
            fun t => specialAt_cons_ne (by decide) t
          have n2 : ∀ t, specialAt ('\x7d' :: t) = none :=
            fun t => specialAt_cons_ne (by decide) t
          rw [e1, wrapAllFrom_cons_none (n1 _), wrapAllFrom_cons_none (n1 _),
            wrapAllFrom_token htok, wrapAllFrom_cons_none (n2 _), wrapAllFrom_cons_none (n2 _)]
          have b1 : braceStep (braceStep (braceStep (braceStep false '\x7b') '\x7b') '\x7d') '\x7d'
              = false := by decide
          have b2 : braceStep (braceStep false '\x7b') '\x7b' = true := by decide
          rw [b2] at b1 ⊢
          rw [b1, ih r hr false false (by simp)]
          simp
        · intro x y e2 hy
          cases hq : specialAt (y ++ ("\x7b\x7b".toList ++ tok ++ "\x7d\x7d".toList ++
              wrapPass false r)) with
          | none => rfl
          | some t =>
            have e3 : y ++ ("\x7b\x7b".toList ++ tok ++ "\x7d\x7d".toList ++ wrapPass false r) =
                y ++ '\x7b' :: ('\x7b' :: (tok ++ "\x7d\x7d".toList ++ wrapPass false r)) := by
              simp
            rw [e3] at hq
            have := specialAt_brace hq (tok ++ r)
            rw [hfree x y e2 hy] at this
            exact absurd this (by simp)
      | none =>
        rw [wrapPass_none hm]
        cases hs2 : specialAt (c :: cs) with
        | some tok =>
          obtain ⟨htok, hpre⟩ := specialAt_some hs2
          obtain ⟨r, e⟩ := List.isPrefixOf_iff_prefix.1 hpre
          obtain ⟨u, eu, _, hu⟩ := special_head htok
          have hcs : cs = u ++ r := by
            rw [eu] at e
            simp only [List.cons_append, List.cons.injEq] at e
            exact e.2.symm
          have hr : r.length ≤ n := by
            rw [hcs] at hs
            simp only [List.length_cons, List.length_append] at hs
            omega
          have e4 : c :: wrapPass false cs = tok ++ wrapPass false r := by
            rw [hcs, wrapPass_skip u r (fun x hx => (hu x hx).2.2.1), eu]
            rw [eu] at e
            simp only [List.cons_append, List.cons.injEq] at e
            rw [← e.1]
            rfl
          rw [e4, wrapAllFrom_token htok, ← e, wrapAllFrom_token htok,
            ih r hr o false (by simp)]
        | none =>
          have hs3 : specialAt (c :: wrapPass false cs) = none := by
            cases hq : specialAt (c :: wrapPass false cs) with
            | none => rfl
            | some t =>
              obtain ⟨ht, hp⟩ := specialAt_some hq
              obtain ⟨u, eu, _, hu⟩ := special_head ht
              rw [eu] at hp
              simp only [List.isPrefixOf_cons₂, Bool.and_eq_true, beq_iff_eq] at hp
              have h2 := isPrefixOf_wrapPass u cs (fun x hx => (hu x hx).2.2.1) hp.2
              have := specialAt_of_prefix ht (s := c :: cs) (by
                rw [eu]
                simp only [List.isPrefixOf_cons₂, Bool.and_eq_true, beq_iff_eq]
                exact ⟨hp.1, h2⟩)
              rw [hs2] at this
              exact absurd this (by simp)
          rw [wrapAllFrom_cons_none hs3, wrapAllFrom_cons_none hs2,
            ih cs (by simpa using hs) _ false (by simp)]

theorem nextSpecial_cons_none {c : Char} {cs : Str} (h : nextSpecial (c :: cs) = none)
    (hc : c ≠ '\x7b') : specialAt (c :: cs) = none ∧ nextSpecial cs = none := by
  simp only [nextSpecial] at h
  cases hs : specialAt (c :: cs) with
  | some t => rw [hs] at h; simp at h
  | none =>
    rw [hs] at h
    simp only [hc, if_false, Option.map_eq_none'] at h
    exact ⟨rfl, h⟩

/-- A text that a scan leaves as it is holds no special token outside braces. -/
theorem wrapAll_of_fix : ∀ (n : Nat) (s : Str), s.length ≤ n → ∀ o b : Bool,
    (o = false → b = true ∨ nextSpecial s = none) → wrapPass b s = s →
      wrapAllFrom o 0 s = s := by
  intro n
  induction n with
  | zero =>
    intro s hs o b _ _
    have : s = [] := List.length_eq_zero.1 (Nat.le_zero.1 hs)
    subst this
    rfl
  | succ n ih =>
    intro s hs o b hJ hfix
    cases s with
    | nil => rfl
    | cons c cs =>
      have hm : wrapMatch b (c :: cs) = none := by
        cases hq : wrapMatch b (c :: cs) with
        | none => rfl
        | some p =>
          obtain ⟨w, tok⟩ := p
          obtain ⟨htok, ⟨r, e, _, _⟩, _⟩ := wrapMatch_some hq
          rw [e] at hq
          have h1 := (length_wrapPass r.length r (Nat.le_refl _) false).1
          have h2 := congrArg List.length hfix
          rw [e, wrapPass_some hq] at h2
          simp only [List.length_append, String.toList, String.length, List.length_cons,
            List.length_nil] at h2
          omega
      rw [wrapPass_none hm] at hfix
      have hfix2 : wrapPass false cs = cs := by
        simp only [List.cons.injEq, true_and] at hfix
        exact hfix
      -- no special token can be reached from here when the position is outside braces
      have hnone : o = false → nextSpecial (c :: cs) = none := by
        intro ho
        rcases hJ ho with h | h
        · subst h
          simpa [wrapMatch] using hm
        · exact h
      cases hs2 : specialAt (c :: cs) with
      | some tok =>
        obtain ⟨htok, hpre⟩ := specialAt_some hs2
        obtain ⟨r, e⟩ := List.isPrefixOf_iff_prefix.1 hpre
        obtain ⟨u, eu, _, hu⟩ := special_head htok
        have ho : o = true := by
          cases o with
          | true => rfl
          | false =>
            have := hnone rfl
            simp [nextSpecial, hs2] at this
        subst ho
        have hcs : cs = u ++ r := by
          rw [eu] at e
          simp only [List.cons_append, List.cons.injEq] at e
          exact e.2.symm
        have hr : r.length ≤ n := by
          rw [hcs] at hs
          simp only [List.length_cons, List.length_append] at hs
          omega
        have hfr : wrapPass false r = r := by
          rw [hcs, wrapPass_skip u r (fun x hx => (hu x hx).2.2.1)] at hfix2
          exact List.append_cancel_left hfix2
        rw [← e, wrapAllFrom_token htok, ih r hr true false (by simp) hfr]
        simp
      | none =>
        rw [wrapAllFrom_cons_none hs2, ih cs (by simpa using hs) _ false ?_ hfix2]
        intro hst
        right
        by_cases hc : c = '\x7d'
        · subst hc
          have : nextSpecial ('\x7d' :: cs) = none := by
            cases b with
            | true => simpa [wrapMatch] using hm
            | false => simpa [wrapMatch] using hm
          exact (nextSpecial_cons_none this (by decide)).2
        · have hcb : c ≠ '\x7b' := by
            intro e
            subst e
            simp [braceStep] at hst
          have ho : o = false := by
            simpa [braceStep, hc, hcb] using hst
          exact (nextSpecial_cons_none (hnone ho) hcb).2

theorem length_wrapAllFrom : ∀ (n : Nat) (s : Str), s.length ≤ n → ∀ o : Bool,
    s.length ≤ (wrapAllFrom o 0 s).length := by
  intro n
  induction n with
  | zero =>
    intro s hs o
    have : s = [] := List.length_eq_zero.1 (Nat.le_zero.1 hs)
    subst this
    exact Nat.le_refl _
  | succ n ih =>
    intro s hs o
    cases s with
    | nil => exact Nat.zero_le _
    | cons c cs =>
      cases hs2 : specialAt (c :: cs) with
      | some tok =>
        obtain ⟨htok, hpre⟩ := specialAt_some hs2
        obtain ⟨r, e⟩ := List.isPrefixOf_iff_prefix.1 hpre
        obtain ⟨u, eu, _, _⟩ := special_head htok
        have hr : r.length ≤ n := by
          have := congrArg List.length e
          simp only [List.length_cons, List.length_append, eu] at this hs
          omega
        rw [← e, wrapAllFrom_token htok]
        have := ih r hr o
        cases o <;> simp only [List.length_append] <;> simp <;> omega
      | none =>
        rw [wrapAllFrom_cons_none hs2]
        have := ih cs (by simpa using hs) (braceStep o c)
        simpa using this

/-- The inner loop of `convertLoops` returns, and what it returns is the text
with every special token outside braces put into `{{` and `}}`, once the
iteration bound exceeds the number of characters the loop adds. -/
theorem wrapSpecials_eq : ∀ (fuel : Nat) (s : Str), (wrapAll s).length - s.length < fuel →
    wrapSpecials fuel s = .ret (wrapAll s) := by
  intro fuel
  induction fuel with
  | zero => intro s h; omega
  | succ fuel ih =>
    intro s h
    have hP : replaceAll rawSpecialRegex wrapSpecial s = wrapPass true s := rfl
    simp only [wrapSpecials, hP]
    by_cases hfix : wrapPass true s = s
    · rw [if_pos hfix]
      have := wrapAll_of_fix s.length s (Nat.le_refl _) false true (fun _ => Or.inl rfl) hfix
      unfold wrapAll
      rw [this]
    · rw [if_neg hfix]
      have hW : wrapAll (wrapPass true s) = wrapAll s :=
        wrapAll_wrapPass s.length s (Nat.le_refl _) false true (fun _ => rfl)
      obtain ⟨h1, h2⟩ := length_wrapPass s.length s (Nat.le_refl _) true
      have h3 : s.length < (wrapPass true s).length := by
        rcases Nat.lt_or_ge s.length (wrapPass true s).length with h | h
        · exact h
        · exact absurd (h2 (Nat.le_antisymm h h1)) hfix
      have h4 := length_wrapAllFrom _ (wrapPass true s) (Nat.le_refl _) false
      rw [← hW]
      apply ih
      rw [hW]
      have h5 : (wrapAllFrom false 0 (wrapPass true s)).length = (wrapAll s).length := by
        rw [← hW]
        rfl
      omega

/-! ## Occurrences of a text in front of a given text -/

theorem noOccIn_of_noOcc {pat s : Str} (h : NoOcc pat s) (tail : Str) : NoOccIn pat s tail :=
  fun x y e hy => h x y tail e hy

theorem noOcc_of_noOccIn {pat s : Str} (h : ∀ tail, NoOccIn pat s tail) : NoOcc pat s :=
  fun x y tail e hy => h tail x y e hy

theorem noOccIn_nil (pat tail : Str) : NoOccIn pat [] tail := by
  intro x y e hy
  exact absurd (List.append_eq_nil.1 e.symm).2 hy

theorem noOccIn_tail {pat : Str} {c : Char} {cs tail : Str} (h : NoOccIn pat (c :: cs) tail) :
    NoOccIn pat cs tail :=
  fun x y e hy => h (c :: x) y (by rw [e]; rfl) hy

theorem noOccIn_head {pat : Str} {c : Char} {cs tail : Str} (h : NoOccIn pat (c :: cs) tail) :
    pat.isPrefixOf (c :: (cs ++ tail)) = false :=
  h [] (c :: cs) rfl (by simp)

theorem noOccIn_cons {pat : Str} {c : Char} {cs tail : Str}
    (h0 : pat.isPrefixOf (c :: (cs ++ tail)) = false) (h : NoOccIn pat cs tail) :
    NoOccIn pat (c :: cs) tail := by
  intro x y e hy
  cases x with
  | nil =>
    simp only [List.nil_append] at e
    rw [← e]
    exact h0
  | cons x0 xs =>
    simp only [List.cons_append, List.cons.injEq] at e
    exact h xs y e.2 hy

theorem noOccIn_right {pat : Str} : ∀ (a : Str) {b tail : Str}, NoOccIn pat (a ++ b) tail →
    NoOccIn pat b tail := by
  intro a
  induction a with
  | nil => intro b tail h; exact h
  | cons c cs ih => intro b tail h; exact ih (noOccIn_tail h)

theorem noOccIn_left {pat : Str} {a b tail : Str} (h : NoOccIn pat (a ++ b) tail) :
    NoOccIn pat a (b ++ tail) := by
  intro x y e hy
  have := h x (y ++ b) (by rw [e, List.append_assoc]) (by simp [hy])
  rw [List.append_assoc] at this
  exact this

theorem noOccIn_append {pat a b tail : Str} (ha : NoOccIn pat a (b ++ tail))
    (hb : NoOccIn pat b tail) : NoOccIn pat (a ++ b) tail := by
  induction a with
  | nil => exact hb
  | cons c cs ih =>
    refine noOccIn_cons ?_ (ih (noOccIn_tail ha))
    have := noOccIn_head ha
    show pat.isPrefixOf (c :: ((cs ++ b) ++ tail)) = false
    rw [List.append_assoc]
    exact this

theorem noOccIn_of_not_mem (pat s : Str) (c0 : Char) (tl : Str) (hp : pat = c0 :: tl)
    (hs : ∀ c ∈ s, c ≠ c0) (tail : Str) : NoOccIn pat s tail :=
  noOccIn_of_noOcc (noOcc_of_not_mem pat s c0 tl hp hs) tail

theorem noOccIn_ext {w : Str} (r : Str) {t tail : Str} (h : NoOccIn w t tail) :
    NoOccIn (w ++ r) t tail :=
  fun x y e hy => isPrefixOf_append_false w r _ (h x y e hy)

theorem isPrefixOf_cut {w a X : Str} (h : w.isPrefixOf (a ++ X) = true) :
    w.isPrefixOf a = true ∨ ∃ w2, w = a ++ w2 ∧ w2.isPrefixOf X = true := by
  rw [List.isPrefixOf_iff_prefix] at h
  rcases List.prefix_or_prefix_of_prefix h (List.prefix_append a X) with h1 | h1
  · exact Or.inl (List.isPrefixOf_iff_prefix.2 h1)
  · obtain ⟨w2, e⟩ := h1
    refine Or.inr ⟨w2, e.symm, ?_⟩
    rw [← e] at h
    exact List.isPrefixOf_iff_prefix.2 ((List.prefix_append_right_inj a).1 h)

/-- A text that is no substring of `s` does not begin in `s` either when `s` is
followed by nothing or by a character that the text holds at most in front. -/
theorem noOccIn_of_hasSubstring {p0 : Char} {ptl s tail : Str}
    (h : hasSubstring (p0 :: ptl) s = false) (ht : ∀ c tl, tail = c :: tl → c ∉ ptl) :
    NoOccIn (p0 :: ptl) s tail := by
  intro x y e hy
  have h1 := isPrefixOf_of_hasSubstring_false h x y e
  cases hq : (p0 :: ptl).isPrefixOf (y ++ tail) with
  | false => rfl
  | true =>
    rcases isPrefixOf_cut hq with h2 | ⟨w2, e2, h2⟩
    · rw [h1] at h2
      exact absurd h2 (by simp)
    · cases w2 with
      | nil =>
        rw [List.append_nil] at e2
        rw [e2] at h1
        have h5 : y.isPrefixOf y = true := List.isPrefixOf_iff_prefix.2 (List.prefix_refl y)
        rw [h1] at h5
        exact absurd h5 (by simp)
      | cons c w3 =>
        cases tail with
        | nil => simp at h2
        | cons d tl =>
          simp only [List.isPrefixOf_cons₂, Bool.and_eq_true, beq_iff_eq] at h2
          cases y with
          | nil => exact absurd rfl hy
          | cons y0 ys =>
            simp only [List.cons_append, List.cons.injEq] at e2
            have : d ∈ ptl := by
              rw [e2.2, ← h2.1]
              simp
            exact absurd this (ht d tl rfl)

theorem hasSubstring_of_noOccIn {pat s tail : Str} (hne : pat ≠ []) (h : NoOccIn pat s tail) :
    hasSubstring pat s = false := by
  unfold hasSubstring
  rw [List.any_eq_false]
  intro y hy
  obtain ⟨x, e⟩ := (List.mem_tails y s).1 hy
  cases y with
  | nil =>
    cases pat with
    | nil => exact absurd rfl hne
    | cons c cs => simp
  | cons y0 ys =>
    intro hp
    have := h x (y0 :: ys) e.symm (by simp)
    rw [List.isPrefixOf_iff_prefix] at hp
    have hp2 : pat.isPrefixOf (y0 :: ys ++ tail) = true :=
      List.isPrefixOf_iff_prefix.2 (hp.trans (List.prefix_append _ _))
    rw [this] at hp2
    exact absurd hp2 (by simp)

/-- The substring test on a text in two parts: nothing begins in the first part
and nothing lies in the second. -/
theorem hasSubstring_append {p0 : Char} {ptl a b : Str}
    (ha : NoOccIn (p0 :: ptl) a b) (hb : hasSubstring (p0 :: ptl) b = false) :
    hasSubstring (p0 :: ptl) (a ++ b) = false := by
  apply @hasSubstring_of_noOccIn _ _ [] (by simp)
  apply noOccIn_append
  · rw [List.append_nil]; exact ha
  · exact noOccIn_of_hasSubstring hb (fun c tl e => by simp at e)

/-! ## Scans over a stretch where the text sought does not begin -/

theorem findAllFrom_skipIn (w : Str) (r : Re) (pre s : Str) (hpre : NoOccIn w pre s) (b : Bool) :
    findAllFrom (Re.seq (Re.lit w) r) b 0 (pre ++ s) =
      findAllFrom (Re.seq (Re.lit w) r) (b && pre.isEmpty) 0 s := by
  induction pre generalizing b with
  | nil => simp
  | cons c cs ih =>
    have h0 : w.isPrefixOf (c :: (cs ++ s)) = false := noOccIn_head hpre
    rw [List.cons_append, findAllFrom_cons_none (matchAt_lit_none w r b _ h0),
      ih (noOccIn_tail hpre) false]
    simp

theorem strReplaceFrom_skipIn (old new pre s : Str) (hpre : NoOccIn old pre s) :
    strReplaceFrom old new 0 (pre ++ s) = pre ++ strReplaceFrom old new 0 s := by
  induction pre with
  | nil => rfl
  | cons c cs ih =>
    have h0 : old.isPrefixOf (c :: (cs ++ s)) = false := noOccIn_head hpre
    rw [List.cons_append, strReplaceFrom_zero, h0, ih (noOccIn_tail hpre)]
    rfl

/-- Nothing is replaced in a text of which `old` is no substring. -/
theorem strReplaceFrom_id (old new s : Str) (h : hasSubstring old s = false) (hne : old ≠ []) :
    strReplaceFrom old new 0 s = s := by
  cases old with
  | nil => exact absurd rfl hne
  | cons o os =>
    have := strReplaceFrom_skipIn (o :: os) new s []
      (by rw [← List.append_nil s] at h
          exact noOccIn_of_hasSubstring (by simpa using h) (fun c tl e => by simp at e))
    simpa [strReplaceFrom_nil] using this

/-- Replacing a block in a text in which it stands once. -/
theorem strReplace_block_in (pre w rest new : Str) (hne : w ≠ [])
    (hpre : NoOccIn w pre (w ++ rest)) (hrest : hasSubstring w rest = false) :
    strReplace (pre ++ (w ++ rest)) w new = pre ++ (new ++ rest) := by
  rw [strReplace_eq _ w new hne, strReplaceFrom_skipIn w new pre _ hpre,
    strReplaceFrom_match w new rest hne, strReplaceFrom_id w new rest hrest hne]

/-! ## The first block of a text -/

/-- The lazy `[\s\S]*?` in a group, followed by a literal: the preferred match
ends at the first occurrence of the literal. -/
theorem head_lazy_thenIn (n : Nat) (R : Re) (pat : Str)
    (hR : ∀ st : MState, R.run st =
      if pat.isPrefixOf st.rest then [⟨st.caps, false, st.rest.drop pat.length⟩] else [])
    (caps : List (Nat × Str)) (post : Str) :
    ∀ (body pre : Str) (b : Bool), NoOccIn pat body (pat ++ post) →
      ((((Re.star false (Re.cls (fun _ => true))).run ⟨caps, b, body ++ (pat ++ post)⟩).map
        (fun s2 => (⟨(n, (pre ++ (body ++ (pat ++ post))).take
          ((pre ++ (body ++ (pat ++ post))).length - s2.rest.length)) :: s2.caps, s2.atStart,
            s2.rest⟩ : MState))).flatMap (fun s => R.run s)).head? =
        some ⟨(n, pre ++ body) :: caps, false, post⟩ := by
  intro body
  induction body with
  | nil =>
    intro pre b _
    exact head_lazy_then n R pat hR caps post [] pre b (noOcc_nil _)
  | cons c cs ih =>
    intro pre b hno
    have hfalse : pat.isPrefixOf (c :: (cs ++ (pat ++ post))) = false := noOccIn_head hno
    rw [List.cons_append, run_star_lazy_cons _ _ _ _ _ rfl]
    simp only [List.map_cons, List.flatMap_cons]
    rw [hR]
    simp only [hfalse, Bool.false_eq_true, if_false, List.nil_append]
    have := ih (pre ++ [c]) false (noOccIn_tail hno)
    simp only [List.append_assoc, List.singleton_append] at this
    exact this

theorem loopRegex_matchAtIn (k nl body post : Str) (b : Bool)
    (hnl : ∀ c ∈ nl, (c == '\r' || c == '\n') = true)
    (hbody : noNewlineHead (body ++ (endMarker k ++ post)))
    (hno : NoOccIn (endMarker k) body (endMarker k ++ post)) :
    matchAt (loopRegex k) b ((beginMarker k ++ nl ++ body ++ endMarker k) ++ post) =
      some ⟨beginMarker k ++ nl ++ body ++ endMarker k, [(2, body), (1, k)]⟩ := by
  apply @matchAt_of_head _ _ false
  · have h1 := head_lazy_thenIn 2
      (Re.cat [Re.lit "<!-- END ".toList, Re.lit k, Re.lit " -->".toList]) (endMarker k)
      (run_endTail k) [(1, k)] post body [] false hno
    have h2 : ((Re.seq (Re.grp 2 (Re.star false (Re.cls (fun _ => true))))
        (Re.cat [Re.lit "<!-- END ".toList, Re.lit k, Re.lit " -->".toList])).run
        ⟨[(1, k)], false, body ++ (endMarker k ++ post)⟩).head? =
        some ⟨[(2, body), (1, k)], false, post⟩ := by
      rw [run_seq]
      simp only [Re.run] at h1 ⊢
      simpa using h1
    have h3 := head_newlines_then _ [(1, k)] _ hbody _ nl false hnl (by simpa using h2)
    have hp1 : "<!-- BEGIN ".toList.isPrefixOf
        ("<!-- BEGIN ".toList ++ (k ++ (" -->".toList ++ (nl ++ (body ++ (endMarker k ++ post))))))
        = true := by
      rw [List.isPrefixOf_iff_prefix]
      exact ⟨_, rfl⟩
    have hp2 : k.isPrefixOf (k ++ (" -->".toList ++ (nl ++ (body ++ (endMarker k ++ post)))))
        = true := by
      rw [List.isPrefixOf_iff_prefix]
      exact ⟨_, rfl⟩
    have hp3 : " -->".toList.isPrefixOf (" -->".toList ++ (nl ++ (body ++ (endMarker k ++ post))))
        = true := by
      rw [List.isPrefixOf_iff_prefix]
      exact ⟨_, rfl⟩
    have e : (loopRegex k).run ⟨[], b, (beginMarker k ++ nl ++ body ++ endMarker k) ++ post⟩ =
        (Re.seq newlinesRegex (Re.seq (Re.grp 2 (Re.star false (Re.cls (fun _ => true))))
          (Re.cat [Re.lit "<!-- END ".toList, Re.lit k, Re.lit " -->".toList]))).run
          ⟨[(1, k)], false, nl ++ (body ++ (endMarker k ++ post))⟩ := by
      simp only [loopRegex, beginMarker, List.append_assoc]
      rw [Re.cat, run_lit_seq]
      simp only [hp1, if_true, List.drop_left]
      rw [Re.cat, run_grp_lit_seq]
      simp only [hp2, if_true, List.drop_left]
      rw [Re.cat, run_lit_seq]
      simp only [hp3, if_true, List.drop_left]
      simp [Re.cat]
    rw [e]
    exact h3
  · simp [beginMarker]

theorem findFirst_loopFind_in (ext : Char → Bool) (pre k rest : Str) (hk : isKey ext k = true)
    (hpre : NoOccIn "<!-- BEGIN ".toList pre (beginMarker k ++ rest)) :
    findFirst (loopFindRegex ext) (pre ++ (beginMarker k ++ rest)) =
      some ⟨beginMarker k, [(1, k)]⟩ := by
  unfold findFirst findAll
  have e := findAllFrom_skipIn "<!-- BEGIN ".toList
    (Re.cat [.grp 1 (keyRegex ext), Re.lit " -->".toList]) pre (beginMarker k ++ rest) hpre true
  have e2 : findAllFrom (loopFindRegex ext) true 0 (pre ++ (beginMarker k ++ rest)) =
      findAllFrom (loopFindRegex ext) (true && pre.isEmpty) 0 (beginMarker k ++ rest) := e
  rw [e2, findAllFrom_match (loopFind_matchAt ext hk rest _) rfl (by simp [beginMarker])]
  rfl

theorem findFirst_loopRegex_in (pre k nl body post : Str)
    (hpre : NoOccIn "<!-- BEGIN ".toList pre ((beginMarker k ++ nl ++ body ++ endMarker k) ++ post))
    (hnl : ∀ c ∈ nl, (c == '\r' || c == '\n') = true)
    (hbody : noNewlineHead (body ++ (endMarker k ++ post)))
    (hno : NoOccIn (endMarker k) body (endMarker k ++ post)) :
    findFirst (loopRegex k) (pre ++ ((beginMarker k ++ nl ++ body ++ endMarker k) ++ post)) =
      some ⟨beginMarker k ++ nl ++ body ++ endMarker k, [(2, body), (1, k)]⟩ := by
  unfold findFirst findAll
  have e := findAllFrom_skipIn "<!-- BEGIN ".toList
    (Re.cat [.grp 1 (Re.lit k), Re.lit " -->".toList, newlinesRegex,
      .grp 2 (.star false (.cls (fun _ => true))), Re.lit "<!-- END ".toList, Re.lit k,
      Re.lit " -->".toList]) pre
    ((beginMarker k ++ nl ++ body ++ endMarker k) ++ post) hpre true
  have e2 : findAllFrom (loopRegex k) true 0
      (pre ++ ((beginMarker k ++ nl ++ body ++ endMarker k) ++ post)) =
      findAllFrom (loopRegex k) (true && pre.isEmpty) 0
        ((beginMarker k ++ nl ++ body ++ endMarker k) ++ post) := e
  rw [e2, findAllFrom_match (loopRegex_matchAtIn k nl body post _ hnl hbody hno) rfl
    (by simp [beginMarker])]
  rfl

theorem findFirst_loopFind_quiet (ext : Char → Bool) (t : Str)
    (h : hasSubstring "<!-- BEGIN ".toList t = false) :
    findFirst (loopFindRegex ext) t = none := by
  unfold findFirst findAll
  have e := findAllFrom_skipIn "<!-- BEGIN ".toList
    (Re.cat [.grp 1 (keyRegex ext), Re.lit " -->".toList]) t []
    (noOccIn_of_hasSubstring h (fun c tl e => by simp at e)) true
  have e2 : findAllFrom (loopFindRegex ext) true 0 (t ++ []) =
      findAllFrom (loopFindRegex ext) (true && t.isEmpty) 0 [] := e
  rw [List.append_nil] at e2
  rw [e2]
  rfl

/-- The recording Loop Pass at the first `BEGIN` marker of the text. -/
theorem convertLoopsTrace_in (ext : Char → Bool) (fuel i : Nat)
    (pre k nl body post pfx iterator : Str) (hk : isKey ext k = true)
    (hpre : NoOccIn "<!-- BEGIN ".toList pre ((beginMarker k ++ nl ++ body ++ endMarker k) ++ post))
    (hnl : ∀ c ∈ nl, (c == '\r' || c == '\n') = true)
    (hbody : noNewlineHead (body ++ (endMarker k ++ post)))
    (hno : NoOccIn (endMarker k) body (endMarker k ++ post)) :
    convertLoopsTrace ext (fuel + 1) i (pre ++ ((beginMarker k ++ nl ++ body ++ endMarker k) ++ post))
        pfx iterator =
      loopStepTrace (fun j t p it => convertLoopsTrace ext fuel j t p it) fuel i
        (pre ++ ((beginMarker k ++ nl ++ body ++ endMarker k) ++ post)) pfx iterator
        ⟨beginMarker k ++ nl ++ body ++ endMarker k, [(2, body), (1, k)]⟩ := by
  have e3 : beginMarker k ++ (nl ++ body ++ endMarker k ++ post) =
      (beginMarker k ++ nl ++ body ++ endMarker k) ++ post := by
    simp only [List.append_assoc]
  have h1 := findFirst_loopFind_in ext pre k (nl ++ body ++ endMarker k ++ post) hk
    (by rw [e3]; exact hpre)
  rw [e3] at h1
  have h2 := findFirst_loopRegex_in pre k nl body post hpre hnl hbody hno
  have g1 : (⟨beginMarker k, [(1, k)]⟩ : Match).group 1 = k := rfl
  rw [convertLoopsTrace, h1]
  simp only [g1, h2]

/-- The Loop Pass at the first `BEGIN` marker of the text. -/
theorem convertLoopsFrom_in (ext : Char → Bool) (fuel i : Nat)
    (pre k nl body post pfx iterator : Str) (hk : isKey ext k = true)
    (hpre : NoOccIn "<!-- BEGIN ".toList pre ((beginMarker k ++ nl ++ body ++ endMarker k) ++ post))
    (hnl : ∀ c ∈ nl, (c == '\r' || c == '\n') = true)
    (hbody : noNewlineHead (body ++ (endMarker k ++ post)))
    (hno : NoOccIn (endMarker k) body (endMarker k ++ post)) :
    convertLoopsFrom ext (fuel + 1) i (pre ++ ((beginMarker k ++ nl ++ body ++ endMarker k) ++ post))
        pfx iterator =
      loopStep (fun j t p it => convertLoopsFrom ext fuel j t p it) fuel i
        (pre ++ ((beginMarker k ++ nl ++ body ++ endMarker k) ++ post)) pfx iterator
        ⟨beginMarker k ++ nl ++ body ++ endMarker k, [(2, body), (1, k)]⟩ := by
  have e3 : beginMarker k ++ (nl ++ body ++ endMarker k ++ post) =
      (beginMarker k ++ nl ++ body ++ endMarker k) ++ post := by
    simp only [List.append_assoc]
  have h1 := findFirst_loopFind_in ext pre k (nl ++ body ++ endMarker k ++ post) hk
    (by rw [e3]; exact hpre)
  rw [e3] at h1
  have h2 := findFirst_loopRegex_in pre k nl body post hpre hnl hbody hno
  have g1 : (⟨beginMarker k, [(1, k)]⟩ : Match).group 1 = k := rfl
  rw [convertLoopsFrom, h1]
  simp only [g1, h2]

theorem convertLoopsFrom_quiet (ext : Char → Bool) (fuel i : Nat) (t pfx iterator : Str)
    (h : hasSubstring "<!-- BEGIN ".toList t = false) :
    convertLoopsFrom ext (fuel + 1) i t pfx iterator = .ret (t, none) := by
  rw [convertLoopsFrom, findFirst_loopFind_quiet ext t h]

theorem convertLoopsTrace_quiet (ext : Char → Bool) (fuel i : Nat) (t pfx iterator : Str)
    (h : hasSubstring "<!-- BEGIN ".toList t = false) :
    convertLoopsTrace ext (fuel + 1) i t pfx iterator = .ret ((t, none), []) := by
  rw [convertLoopsTrace, findFirst_loopFind_quiet ext t h]

/-! ## Replacements keep a text out -/

theorem isPrefixOf_strReplaceFrom_in (old new : Str) (n0 : Char) (ntl : Str)
    (hnew : new = n0 :: ntl) (tail : Str) :
    ∀ (w s : Str), n0 ∉ w → w.isPrefixOf (strReplaceFrom old new 0 s ++ tail) = true →
      w.isPrefixOf (s ++ tail) = true := by
  intro w
  induction w with
  | nil => intro s _ _; simp
  | cons a w ih =>
    intro s hn0 h
    cases s with
    | nil => simpa [strReplaceFrom_nil] using h
    | cons d ds =>
      rw [strReplaceFrom_zero] at h
      by_cases hp : old.isPrefixOf (d :: ds) = true
      · rw [if_pos hp, hnew] at h
        simp only [List.cons_append, List.isPrefixOf_cons₂, Bool.and_eq_true, beq_iff_eq] at h
        exact absurd (by simp [h.1]) hn0
      · rw [if_neg hp] at h
        simp only [List.cons_append, List.isPrefixOf_cons₂, Bool.and_eq_true, beq_iff_eq] at h
        have h2 := ih ds (fun hm => hn0 (List.mem_cons_of_mem a hm)) h.2
        simp only [List.cons_append, List.isPrefixOf_cons₂, Bool.and_eq_true, beq_iff_eq]
        exact ⟨h.1, h2⟩

/-- A replacement by a text that cannot stand in `pat` creates no occurrence of
`pat`. -/
theorem noOccIn_strReplaceFrom (pat old new : Str) (p0 n0 : Char) (ptl ntl : Str)
    (hp : pat = p0 :: ptl) (hnew : new = n0 :: ntl) (hn0 : n0 ∉ ptl) (hnp : ∀ c ∈ new, c ≠ p0)
    (tail : Str) :
    ∀ (s : Str) (k : Nat), NoOccIn pat s tail → NoOccIn pat (strReplaceFrom old new k s) tail := by
  intro s
  induction s with
  | nil =>
    intro k _
    rw [strReplaceFrom_nil]
    exact noOccIn_nil pat tail
  | cons c cs ih =>
    intro k h
    cases k with
    | succ k =>
      rw [strReplaceFrom_succ]
      exact ih k (noOccIn_tail h)
    | zero =>
      rw [strReplaceFrom_zero]
      by_cases hpre : old.isPrefixOf (c :: cs) = true
      · rw [if_pos hpre]
        exact noOccIn_append (noOccIn_of_not_mem pat new p0 ptl hp hnp _) (ih _ (noOccIn_tail h))
      · rw [if_neg hpre]
        refine noOccIn_cons ?_ (ih 0 (noOccIn_tail h))
        cases hq : pat.isPrefixOf (c :: (strReplaceFrom old new 0 cs ++ tail)) with
        | false => rfl
        | true =>
          rw [hp] at hq
          simp only [List.isPrefixOf_cons₂, Bool.and_eq_true, beq_iff_eq] at hq
          have h2 := isPrefixOf_strReplaceFrom_in old new n0 ntl hnew tail ptl cs hn0 hq.2
          have h3 := noOccIn_head h
          rw [hp] at h3
          simp [List.isPrefixOf_cons₂, hq.1, h2] at h3

theorem hasSubstring_strReplace (pat old new : Str) (p0 n0 : Char) (ptl ntl : Str)
    (hp : pat = p0 :: ptl) (hnew : new = n0 :: ntl) (hn0 : n0 ∉ ptl) (hnp : ∀ c ∈ new, c ≠ p0)
    (hne : old ≠ []) (s : Str) (h : hasSubstring pat s = false) :
    hasSubstring pat (strReplace s old new) = false := by
  rw [strReplace_eq _ _ _ hne]
  apply @hasSubstring_of_noOccIn _ _ [] (by rw [hp]; simp)
  apply noOccIn_strReplaceFrom pat old new p0 n0 ptl ntl hp hnew hn0 hnp
  rw [hp] at h ⊢
  exact noOccIn_of_hasSubstring h (fun c tl e => by simp at e)

/-- A text without `{` that begins the wrapped text begins the text itself. -/
theorem isPrefixOf_wrapAllFrom_in (tail : Str) : ∀ (n : Nat) (s : Str), s.length ≤ n →
    ∀ (w : Str) (o : Bool), (∀ c ∈ w, c ≠ '\x7b') →
      w.isPrefixOf (wrapAllFrom o 0 s ++ tail) = true → w.isPrefixOf (s ++ tail) = true := by
  intro n
  induction n with
  | zero =>
    intro s hs w o _ h
    have : s = [] := List.length_eq_zero.1 (Nat.le_zero.1 hs)
    subst this
    simpa [wrapAllFrom_nil] using h
  | succ n ih =>
    intro s hs w o hw h
    cases s with
    | nil => simpa [wrapAllFrom_nil] using h
    | cons c cs =>
      cases w with
      | nil => simp
      | cons a w1 =>
        cases hs2 : specialAt (c :: cs) with
        | some tok =>
          obtain ⟨htok, hpre⟩ := specialAt_some hs2
          obtain ⟨r, e⟩ := List.isPrefixOf_iff_prefix.1 hpre
          obtain ⟨u, eu, _, hu⟩ := special_head htok
          have hr : r.length ≤ n := by
            have := congrArg List.length e
            simp only [List.length_cons, List.length_append, eu] at this hs
            omega
          rw [← e, wrapAllFrom_token htok] at h
          cases o with
          | false =>
            simp only [Bool.false_eq_true, if_false, String.toList, List.append_assoc,
              List.cons_append, List.isPrefixOf_cons₂, Bool.and_eq_true, beq_iff_eq] at h
            exact absurd h.1 (hw a (by simp))
          | true =>
            simp only [if_true, List.append_assoc] at h
            rcases isPrefixOf_cut h with h1 | ⟨w2, e2, h2⟩
            · rw [← e, List.append_assoc]
              rw [List.isPrefixOf_iff_prefix] at h1 ⊢
              exact h1.trans (List.prefix_append tok _)
            · have h3 := ih r hr w2 true (fun x hx => hw x (by rw [e2]; simp [hx])) h2
              rw [← e, e2, List.append_assoc]
              rw [List.isPrefixOf_iff_prefix] at h3 ⊢
              exact (List.prefix_append_right_inj tok).2 h3
        | none =>
          rw [wrapAllFrom_cons_none hs2] at h
          simp only [List.cons_append, List.isPrefixOf_cons₂, Bool.and_eq_true, beq_iff_eq] at h
          have h3 := ih cs (by simpa using hs) w1 _
            (fun x hx => hw x (List.mem_cons_of_mem a hx)) h.2
          simp only [List.cons_append, List.isPrefixOf_cons₂, Bool.and_eq_true, beq_iff_eq]
          exact ⟨h.1, h3⟩

/-- The wrapping of special tokens creates no occurrence of a text that begins
with `<` and holds no `{`. -/
theorem noOccIn_wrapAllFrom (ptl : Str) (hp : ∀ c ∈ ptl, c ≠ '\x7b') (tail : Str) :
    ∀ (n : Nat) (s : Str), s.length ≤ n → ∀ o : Bool, NoOccIn ('<' :: ptl) s tail →
      NoOccIn ('<' :: ptl) (wrapAllFrom o 0 s) tail := by
  intro n
  induction n with
  | zero =>
    intro s hs o _
    have : s = [] := List.length_eq_zero.1 (Nat.le_zero.1 hs)
    subst this
    rw [wrapAllFrom_nil]
    exact noOccIn_nil _ _
  | succ n ih =>
    intro s hs o h
    cases s with
    | nil => rw [wrapAllFrom_nil]; exact noOccIn_nil _ _
    | cons c cs =>
      cases hs2 : specialAt (c :: cs) with
      | some tok =>
        obtain ⟨htok, hpre⟩ := specialAt_some hs2
        obtain ⟨r, e⟩ := List.isPrefixOf_iff_prefix.1 hpre
        obtain ⟨u, eu, _, hu⟩ := special_head htok
        have hr : r.length ≤ n := by
          have := congrArg List.length e
          simp only [List.length_cons, List.length_append, eu] at this hs
          omega
        have htk : ∀ x ∈ tok, x ≠ '<' := by
          intro x hx
          rw [eu] at hx
          rcases List.mem_cons.1 hx with h1 | h1
          · rw [h1]; decide
          · exact (hu x h1).2.2.2
        rw [← e] at h
        rw [← e, wrapAllFrom_token htok]
        refine noOccIn_append ?_ (ih r hr o (noOccIn_right tok h))
        apply noOccIn_of_not_mem _ _ '<' ptl rfl
        cases o with
        | true => simpa using htk
        | false =>
          simp only [Bool.false_eq_true, if_false]
          exact not_mem_append (not_mem_append (by decide) htk) (by decide)
      | none =>
        rw [wrapAllFrom_cons_none hs2]
        refine noOccIn_cons ?_ (ih cs (by simpa using hs) _ (noOccIn_tail h))
        cases hq : ('<' :: ptl).isPrefixOf (c :: (wrapAllFrom (braceStep o c) 0 cs ++ tail)) with
        | false => rfl
        | true =>
          simp only [List.isPrefixOf_cons₂, Bool.and_eq_true, beq_iff_eq] at hq
          have h3 := isPrefixOf_wrapAllFrom_in tail cs.length cs (Nat.le_refl _) ptl _ hp hq.2
          have := noOccIn_head h
          simp only [List.isPrefixOf_cons₂, hq.1, h3, beq_self_eq_true, Bool.and_self] at this
          exact absurd this (by simp)

theorem hasSubstring_wrapAll (ptl : Str) (hp : ∀ c ∈ ptl, c ≠ '\x7b') (s : Str)
    (h : hasSubstring ('<' :: ptl) s = false) : hasSubstring ('<' :: ptl) (wrapAll s) = false := by
  apply @hasSubstring_of_noOccIn _ _ [] (by simp)
  exact noOccIn_wrapAllFrom ptl hp [] s.length s (Nat.le_refl _) false
    (noOccIn_of_hasSubstring h (fun c tl e => by simp at e))

/-- The four replacements of special tokens create no occurrence of a text that
begins with `<` and holds no `$` and no `(`. -/
theorem hasSubstring_substSpecials (ptl : Str) (hp : ∀ c ∈ ptl, c ≠ '$' ∧ c ≠ '(') (it body : Str)
    (hit : ∃ tl, it = '$' :: tl) (hit2 : ∀ c ∈ it, c ≠ '<')
    (hb : hasSubstring ('<' :: ptl) body = false) :
    hasSubstring ('<' :: ptl) (substSpecials it body) = false := by
  obtain ⟨tl, e⟩ := hit
  have h1 : ∀ c ∈ "(not ".toList ++ it ++ ")".toList, c ≠ '<' :=
    not_mem_append (not_mem_append (by decide) hit2) (by decide)
  have h2 : ∀ c ∈ it ++ "_v".toList, c ≠ '<' := not_mem_append hit2 (by decide)
  have d1 : '$' ∉ ptl := fun hm => (hp _ hm).1 rfl
  have d2 : '(' ∉ ptl := fun hm => (hp _ hm).2 rfl
  unfold substSpecials
  exact hasSubstring_strReplace _ _ _ '<' '(' ptl _ rfl rfl d2 h1 (by decide) _
    (hasSubstring_strReplace _ _ _ '<' '$' ptl (tl ++ "_v".toList) rfl (by rw [e]; rfl) d1 h2
      (by decide) _
      (hasSubstring_strReplace _ _ _ '<' '$' ptl tl rfl e d1 hit2 (by decide) _
        (hasSubstring_strReplace _ _ _ '<' '$' ptl tl rfl e d1 hit2 (by decide) _ hb)))

/-- The `range` block holds no text that begins with `<` and holds no `{` when
its body holds none, whatever follows the block. -/
theorem noOcc_rangeBlock_in (ptl it key body : Str) (hp : ∀ c ∈ ptl, c ≠ '\x7b')
    (hit : ∀ c ∈ it, c ≠ '<') (hkey : ∀ c ∈ key, c ≠ '<')
    (hbody : hasSubstring ('<' :: ptl) body = false) :
    NoOcc ('<' :: ptl) (rangeBlock it key body) := by
  have hn : ∀ w : Str, (∀ c ∈ w, c ≠ '<') → NoOcc ('<' :: ptl) w :=
    fun w hw => noOcc_of_not_mem _ w '<' ptl rfl hw
  have hhead : NoOcc ('<' :: ptl) ("\x7b\x7brange ".toList ++ it ++ ", ".toList ++ it ++
      "_v := ".toList ++ key ++ "\x7d\x7d".toList) :=
    noOcc_append (noOcc_append (noOcc_append (noOcc_append (noOcc_append (noOcc_append
      (hn _ (by decide)) (hn _ hit)) (hn _ (by decide))) (hn _ hit))
      (hn _ (by decide))) (hn _ hkey)) (hn _ (by decide))
  apply noOcc_of_noOccIn
  intro tail
  unfold rangeBlock
  rw [List.append_assoc]
  refine noOccIn_append (noOccIn_of_noOcc hhead _) (noOccIn_append ?_
    (noOccIn_of_noOcc (hn _ (by decide)) tail))
  apply noOccIn_of_hasSubstring hbody
  intro c tl e hm
  have e2 : c = '\x7b' := by
    have : "\x7b\x7b- end\x7d\x7d".toList ++ tail = '\x7b' :: ("\x7b- end\x7d\x7d".toList ++ tail) :=
      rfl
    rw [this] at e
    simp only [List.cons.injEq] at e
    exact e.1.symm
  exact hp c hm e2

/-! ## A loop body cut at its special tokens -/

/-- No special token begins in a text without token that is followed by nothing
or by a punctuation character. -/
theorem tokenFree_in {t : Str} (h : TokenFree t) {tok : Str} (htok : tok ∈ specialTokens)
    (Z : Str) (hZ : ∀ c tl, Z = c :: tl → isPunct c = true) : NoOccIn tok t Z := by
  obtain ⟨u, eu, hu⟩ := special_form htok
  have := h tok htok
  rw [eu] at this ⊢
  apply noOccIn_of_hasSubstring this
  intro c tl e hm
  have h1 := hZ c tl e
  rw [hu c hm] at h1
  exact absurd h1 (by simp)

theorem tokenFree_stretch {t : Str} (h : TokenFree t) (Z : Str)
    (hZ : ∀ c tl, Z = c :: tl → isPunct c = true) :
    ∀ x y, t = x ++ y → y ≠ [] → specialAt (y ++ Z) = none := by
  intro x y e hy
  cases hq : specialAt (y ++ Z) with
  | none => rfl
  | some tok =>
    obtain ⟨htok, hp⟩ := specialAt_some hq
    rw [tokenFree_in h htok Z hZ x y e hy] at hp
    exact absurd hp (by simp)

theorem tokenFree_of_not_mem {t : Str} (h : ∀ c ∈ t, c ≠ '@') : TokenFree t := by
  intro tok htok
  obtain ⟨u, eu, _, _⟩ := special_head htok
  exact @hasSubstring_of_noOccIn _ _ [] (by rw [eu]; simp) (noOccIn_of_not_mem tok t '@' u eu h [])

/-- A text without token stays so when a text without `@` that begins with a
punctuation character is put behind it. -/
theorem tokenFree_append {a b : Str} (ha : TokenFree a) (hb : ∀ c ∈ b, c ≠ '@')
    (hb2 : ∀ c tl, b = c :: tl → isPunct c = true) : TokenFree (a ++ b) := by
  intro tok htok
  obtain ⟨u, eu, _, _⟩ := special_head htok
  have h1 := tokenFree_in ha htok b hb2
  have h2 := tokenFree_of_not_mem hb tok htok
  rw [eu] at h1 h2 ⊢
  exact hasSubstring_append h1 h2

theorem wrapAllFrom_tokenFree {t : Str} (h : TokenFree t) (o : Bool) (Z : Str)
    (hZ : ∀ c tl, Z = c :: tl → isPunct c = true) :
    wrapAllFrom o 0 (t ++ Z) = t ++ wrapAllFrom (braceState o t) 0 Z :=
  wrapAllFrom_stretch t o Z (tokenFree_stretch h Z hZ)

theorem special_punct {tok : Str} (htok : tok ∈ specialTokens) (R : Str) :
    ∀ c tl, tok ++ R = c :: tl → isPunct c = true := by
  obtain ⟨u, eu, _⟩ := special_form htok
  intro c tl e
  rw [eu] at e
  simp only [List.cons_append, List.cons.injEq] at e
  rw [← e.1]
  decide

/-- The wrapped text of a text cut at its special tokens. -/
theorem wrapAllFrom_tokenText : ∀ (items : List (Str × Str)) (o : Bool) (last : Str),
    (∀ p ∈ items, p.2 ∈ specialTokens ∧ TokenFree p.1) → TokenFree last →
      wrapAllFrom o 0 (tokenText items last) = tokenText (wrapItems o items) last := by
  intro items
  induction items with
  | nil =>
    intro o last _ hlast
    have := wrapAllFrom_tokenFree hlast o [] (fun c tl e => by simp at e)
    simpa [wrapAllFrom_nil, tokenText, wrapItems] using this
  | cons p rest ih =>
    intro o last hitems hlast
    obtain ⟨htok, hfree⟩ := hitems p (by simp)
    have hrest := fun o2 => ih o2 last (fun q hq => hitems q (by simp [hq])) hlast
    rw [tokenText_cons, wrapAllFrom_tokenFree hfree _ _ (special_punct htok _),
      wrapAllFrom_token htok]
    simp only [wrapItems]
    cases hst : braceState o p.1 with
    | true =>
      simp only [if_true, tokenText_cons]
      rw [hrest true]
    | false =>
      simp only [Bool.false_eq_true, if_false, tokenText_cons]
      rw [hrest false]
      simp

/-- Replacing a special token in a text cut at its tokens, some of which may
have been replaced before by texts without `@`. A stretch of text holds no
`@` or is followed by a punctuation character. -/
theorem strReplaceFrom_items (old new : Str) (hold : old ∈ specialTokens) :
    ∀ items : List (Str × Str),
      (∀ p ∈ items, ((∀ c ∈ p.1, c ≠ '@') ∨
          (hasSubstring old p.1 = false ∧ ∃ c tl, p.2 = c :: tl ∧ isPunct c = true)) ∧
        (p.2 ∈ specialTokens ∨ ∀ c ∈ p.2, c ≠ '@')) →
      ∀ last : Str, hasSubstring old last = false →
        strReplaceFrom old new 0 (tokenText items last) =
          tokenText (items.map (fun p => (p.1, if p.2 = old then new else p.2))) last := by
  obtain ⟨otl, ho, hotl⟩ := special_form hold
  have hne : old ≠ [] := by rw [ho]; simp
  intro items
  induction items with
  | nil =>
    intro _ last hlast
    have := strReplaceFrom_id old new last hlast hne
    simpa [tokenText] using this
  | cons p rest ih =>
    intro hitems last hlast
    obtain ⟨hp1, hp2⟩ := hitems p (by simp)
    have hrest := ih (fun q hq => hitems q (by simp [hq])) last hlast
    have hin : NoOccIn old p.1 (p.2 ++ tokenText rest last) := by
      rcases hp1 with h | ⟨h, c, tl, e, hc⟩
      · exact noOccIn_of_not_mem old p.1 '@' otl ho h _
      · rw [ho] at h ⊢
        apply noOccIn_of_hasSubstring h
        intro d tl2 e2 hm
        rw [e] at e2
        simp only [List.cons_append, List.cons.injEq] at e2
        rw [e2.1, hotl d hm] at hc
        exact absurd hc (by simp)
    rw [tokenText_cons, List.map_cons, tokenText_cons, strReplaceFrom_skipIn old new _ _ hin]
    congr 1
    by_cases he : p.2 = old
    · simp only [he, if_true]
      rw [strReplaceFrom_match old new _ hne, hrest]
    · simp only [he, if_false]
      rcases hp2 with hs | hs
      · obtain ⟨u, eu, hu⟩ := special_form hs
        have hu2 : ∀ c ∈ u, c ≠ '@' := by
          intro c hc e
          have := hu c hc
          rw [e] at this
          exact absurd this (by decide)
        have hm := special_prefix_false hold hs he (tokenText rest last)
        rw [eu] at hm ⊢
        rw [List.cons_append] at hm ⊢
        rw [strReplaceFrom_block old new '@' otl ho u _ hu2 hm, hrest]
        rfl
      · rw [strReplaceFrom_skip old new '@' otl ho _ _ hs, hrest]

/-- The four replacements of the special tokens, on a text cut at its tokens;
an item may also hold the empty text in the place of a token when its text
holds no `@`. -/
theorem substSpecials_items (it : Str) (hit : ∀ c ∈ it, c ≠ '@') (hit2 : ∃ tl, it = '$' :: tl)
    (items : List (Str × Str)) (last : Str)
    (htok : ∀ p ∈ items, p.2 ∈ specialTokens ∨ (p.2 = [] ∧ ∀ c ∈ p.1, c ≠ '@'))
    (htext : ∀ p ∈ items, TokenFree p.1) (hlast : TokenFree last) :
    substSpecials it (tokenText items last) =
      tokenText (items.map (fun p => (p.1, specialValue it p.2))) last := by
  obtain ⟨itl, eit⟩ := hit2
  have hv : ∀ c ∈ it ++ "_v".toList, c ≠ '@' := not_mem_append hit (by decide)
  have hf : ∀ c ∈ "(not ".toList ++ it ++ ")".toList, c ≠ '@' :=
    not_mem_append (not_mem_append (by decide) hit) (by decide)
  have step : ∀ (old new : Str), old ∈ specialTokens → (∀ c ∈ new, c ≠ '@') →
      (∃ c tl, new = c :: tl ∧ isPunct c = true) →
      ∀ its : List (Str × Str),
        (∀ p ∈ its, TokenFree p.1 ∧ ((∀ c ∈ p.1, c ≠ '@') ∨ ∃ c tl, p.2 = c :: tl ∧ isPunct c = true)
          ∧ (p.2 ∈ specialTokens ∨ ∀ c ∈ p.2, c ≠ '@')) →
        strReplace (tokenText its last) old new =
            tokenText (its.map (fun p => (p.1, if p.2 = old then new else p.2))) last ∧
          ∀ p ∈ its.map (fun p => (p.1, if p.2 = old then new else p.2)),
            TokenFree p.1 ∧ ((∀ c ∈ p.1, c ≠ '@') ∨ ∃ c tl, p.2 = c :: tl ∧ isPunct c = true)
              ∧ (p.2 ∈ specialTokens ∨ ∀ c ∈ p.2, c ≠ '@') := by
    intro old new hold hnew hnew2 its hits
    refine ⟨?_, ?_⟩
    · rw [strReplace_eq _ old new (by obtain ⟨u, eu, _⟩ := special_form hold; rw [eu]; simp)]
      refine strReplaceFrom_items old new hold its (fun p hp => ⟨?_, (hits p hp).2.2⟩) last
        (hlast old hold)
      rcases (hits p hp).2.1 with h | h
      · exact Or.inl h
      · exact Or.inr ⟨(hits p hp).1 old hold, h⟩
    · intro p hp
      obtain ⟨q, hq, rfl⟩ := List.mem_map.1 hp
      refine ⟨(hits q hq).1, ?_, ?_⟩
      · by_cases he : q.2 = old
        · simp only [he, if_true]
          exact Or.inr hnew2
        · simp only [he, if_false]
          exact (hits q hq).2.1
      · by_cases he : q.2 = old
        · simp only [he, if_true]
          exact Or.inr hnew
        · simp only [he, if_false]
          exact (hits q hq).2.2
  have h0 : ∀ p ∈ items, TokenFree p.1 ∧
      ((∀ c ∈ p.1, c ≠ '@') ∨ ∃ c tl, p.2 = c :: tl ∧ isPunct c = true) ∧
      (p.2 ∈ specialTokens ∨ ∀ c ∈ p.2, c ≠ '@') := by
    intro p hp
    refine ⟨htext p hp, ?_, ?_⟩
    · rcases htok p hp with h | h
      · obtain ⟨u, eu, _⟩ := special_form h
        exact Or.inr ⟨'@', u, eu, by decide⟩
      · exact Or.inl h.2
    · rcases htok p hp with h | h
      · exact Or.inl h
      · exact Or.inr (by rw [h.1]; simp)
  have p1 : ∃ c tl, it = c :: tl ∧ isPunct c = true := ⟨'$', itl, eit, by decide⟩
  have p2 : ∃ c tl, it ++ "_v".toList = c :: tl ∧ isPunct c = true :=
    ⟨'$', itl ++ "_v".toList, by rw [eit]; rfl, by decide⟩
  have p3 : ∃ c tl, "(not ".toList ++ it ++ ")".toList = c :: tl ∧ isPunct c = true :=
    ⟨'(', "not ".toList ++ it ++ ")".toList, rfl, by decide⟩
  obtain ⟨e1, h1⟩ := step "@index".toList it (by decide) hit p1 items h0
  obtain ⟨e2, h2⟩ := step "@key".toList it (by decide) hit p1 _ h1
  obtain ⟨e3, h3⟩ := step "@value".toList (it ++ "_v".toList) (by decide) hv p2 _ h2
  obtain ⟨e4, _⟩ := step "@first".toList ("(not ".toList ++ it ++ ")".toList) (by decide) hf p3 _ h3
  unfold substSpecials
  rw [e1, e2, e3, e4]
  simp only [List.map_map]
  congr 1
  apply List.map_congr_left
  intro p hp
  simp only [Function.comp]
  congr 1
  rcases htok p hp with hs | hs
  · exact specialValue_steps it p.2 hit hs
  · rw [hs.1]
    rfl

theorem wrapItems_ok : ∀ (items : List (Str × Str)) (o : Bool),
    (∀ p ∈ items, p.2 ∈ specialTokens ∧ TokenFree p.1) →
      ∀ p ∈ wrapItems o items,
        (p.2 ∈ specialTokens ∨ (p.2 = [] ∧ ∀ c ∈ p.1, c ≠ '@')) ∧ TokenFree p.1 := by
  intro items
  induction items with
  | nil => intro o _ p hp; simp [wrapItems] at hp
  | cons q rest ih =>
    intro o h p hp
    obtain ⟨hq1, hq2⟩ := h q (by simp)
    have hr := fun o2 => ih o2 (fun x hx => h x (by simp [hx]))
    simp only [wrapItems] at hp
    split at hp
    · rcases List.mem_cons.1 hp with e | e
      · rw [e]; exact ⟨Or.inl hq1, hq2⟩
      · exact hr true p e
    · rcases List.mem_cons.1 hp with e | e
      · rw [e]
        refine ⟨Or.inl hq1, tokenFree_append hq2 (by decide) ?_⟩
        intro c tl e2
        have : c = '\x7b' := by
          have e3 : "\x7b\x7b".toList = '\x7b' :: "\x7b".toList := rfl
          rw [e3] at e2
          simp only [List.cons.injEq] at e2
          exact e2.1.symm
        rw [this]
        decide
      · rcases List.mem_cons.1 e with e | e
        · rw [e]
          exact ⟨Or.inr ⟨rfl, by decide⟩, tokenFree_of_not_mem (by decide)⟩
        · exact hr false p e

theorem tokenText_wrapItems (it : Str) : ∀ (items : List (Str × Str)) (o : Bool) (last : Str),
    tokenText ((wrapItems o items).map (fun p => (p.1, specialValue it p.2))) last =
      bodyOut it o items last := by
  intro items
  induction items with
  | nil => intro o last; rfl
  | cons q rest ih =>
    intro o last
    simp only [wrapItems, bodyOut]
    cases hst : braceState o q.1 with
    | true =>
      simp only [if_true, List.map_cons, tokenText_cons, ih true last]
    | false =>
      simp only [Bool.false_eq_true, if_false, List.map_cons, tokenText_cons, ih false last]
      have : specialValue it [] = [] := rfl
      rw [this]
      simp

/-- What the wrapping loop and the four replacements make of a loop body cut
at its special tokens: every token is replaced by its value, in an
interpolation of its own when it stood outside braces. -/
theorem substSpecials_wrapAll (it : Str) (hit : ∀ c ∈ it, c ≠ '@') (hit2 : ∃ tl, it = '$' :: tl)
    (items : List (Str × Str))
    (last : Str) (hitems : ∀ p ∈ items, p.2 ∈ specialTokens ∧ TokenFree p.1)
    (hlast : TokenFree last) :
    substSpecials it (wrapAll (tokenText items last)) = bodyOut it false items last := by
  unfold wrapAll
  rw [wrapAllFrom_tokenText items false last hitems hlast,
    substSpecials_items it hit hit2 _ last (fun p hp => (wrapItems_ok items false hitems p hp).1)
      (fun p hp => (wrapItems_ok items false hitems p hp).2) hlast,
    tokenText_wrapItems]

/-! ## The collection of a loop -/

theorem step_first (cond : Prop) [Decidable cond] (e y : Str)
    (he : ∃ tl, e = '(' :: tl ∨ e = '$' :: tl) :
    ∃ tl, (if cond then "(len ".toList ++ e ++ ")".toList else e ++ ".".toList ++ y) = '(' :: tl ∨
      (if cond then "(len ".toList ++ e ++ ")".toList else e ++ ".".toList ++ y) = '$' :: tl := by
  by_cases h : cond
  · simp only [h, if_true]
    exact ⟨_, Or.inl rfl⟩
  · simp only [h, if_false]
    obtain ⟨t, e1 | e1⟩ := he
    · exact ⟨_, Or.inl (by rw [e1]; rfl)⟩
    · exact ⟨_, Or.inr (by rw [e1]; rfl)⟩

/-- The loop of `convertName` keeps the first character `$` or `(` of the
expression. -/
theorem convertNameLoop_first : ∀ (fuel : Nat) (e r E : Str),
    (∃ tl, e = '(' :: tl ∨ e = '$' :: tl) → convertNameLoop fuel e r = .ret E →
      ∃ tl, E = '(' :: tl ∨ E = '$' :: tl := by
  intro fuel
  induction fuel with
  | zero => intro e r E _ h; simp [convertNameLoop] at h
  | succ n ih =>
    intro e r E he h
    cases r with
    | nil =>
      simp only [convertNameLoop, Outcome.ret.injEq] at h
      subst h
      exact he
    | cons c tl =>
      simp only [convertNameLoop] at h
      split at h
      · split at h
        · exact absurd h (by simp)
        · exact ih _ _ _ ⟨_, Or.inl rfl⟩ h
      · exact ih _ _ _ (step_first _ _ _ he) h

theorem special_not_mem {tok : Str} (h : tok ∈ specialTokens) {x : Char} (hx : isPunct x = true)
    (hx2 : x ≠ '@') : ∀ c ∈ tok, c ≠ x := by
  obtain ⟨u, eu, hu⟩ := special_form h
  intro c hc e
  rw [eu] at hc
  rcases List.mem_cons.1 hc with h1 | h1
  · exact hx2 (by rw [← e, h1])
  · have := hu c h1
    rw [e, hx] at this
    exact absurd this (by simp)

/-- The result of `convertName` on a path that is not a special token begins
with `$` or `(`. -/
theorem convertName_head (ext : Char → Bool) {k name : Str} (hk : isKey ext k = true)
    (hns : k ∉ specialTokens) {fuel : Nat} (h : convertName fuel k = .ret name) :
    ∃ tl, name = '(' :: tl ∨ name = '$' :: tl := by
  rcases isKey_cases ext hk with h1 | ⟨head, segs, hh, _, e⟩
  · exact absurd h1 hns
  · have hne := (isIdentifier_chars ext hh).1
    have hat : ("@".toList.isPrefixOf k) = false := by
      cases head with
      | nil => exact absurd rfl hne
      | cons c cs =>
        have hc := isIdentifier_not_punct ext hh (c := c) (by simp)
        cases hq : ("@".toList.isPrefixOf k) with
        | false => rfl
        | true =>
          rw [e] at hq
          simp only [pathText, String.toList, List.cons_append, List.isPrefixOf_cons₂,
            Bool.and_eq_true, beq_iff_eq] at hq
          rw [← hq.1] at hc
          exact absurd hc (by decide)
    unfold convertName at h
    rw [hat] at h
    exact convertNameLoop_first fuel _ _ _ ⟨[], Or.inr rfl⟩ h

/-- The collection of a loop, as `convertLoops` writes it inside the element
`pfx`: it holds no `<`, and it begins with `$` or `(` unless the key is a
special token, which stands for itself. -/
theorem loopKey_facts (ext : Char → Bool) {k name pfx : Str} (hk : isKey ext k = true)
    {fuel : Nat} (hname : convertName fuel k = .ret name)
    (hpfx1 : ∃ tl, pfx = '(' :: tl ∨ pfx = '$' :: tl) (hpfx2 : ∀ c ∈ pfx, c ≠ '<') :
    (∀ c ∈ strReplace name "$.".toList (pfx ++ ".".toList), c ≠ '<') ∧
    ((∃ tl, strReplace name "$.".toList (pfx ++ ".".toList) = '(' :: tl ∨
        strReplace name "$.".toList (pfx ++ ".".toList) = '$' :: tl) ∨
      (k ∈ specialTokens ∧ strReplace name "$.".toList (pfx ++ ".".toList) = k)) := by
  have hn : ∀ c ∈ name, c ≠ '<' :=
    convertName_key_not_mem ext hk hname (x := '<') (by decide) (by decide)
  refine ⟨?_, ?_⟩
  · rw [strReplace_eq _ _ _ (by decide)]
    intro c hc
    rcases mem_strReplaceFrom _ _ name 0 c hc with h | h
    · exact hn c h
    · exact not_mem_append hpfx2 (by decide) c h
  · by_cases hs : k ∈ specialTokens
    · right
      have e : name = k := by
        rw [convertName_special hs] at hname
        simp only [Outcome.ret.injEq] at hname
        exact hname.symm
      refine ⟨hs, ?_⟩
      rw [e]
      exact strReplace_of_not_mem k _ _ '$' ".".toList rfl
        (special_not_mem hs (by decide) (by decide))
    · left
      obtain ⟨tl, hh⟩ := convertName_head ext hk hs hname
      rw [strReplace_eq _ _ _ (by decide)]
      obtain ⟨c, e⟩ : ∃ c, name = c :: tl ∧ (c = '(' ∨ c = '$') := by
        rcases hh with e | e
        · exact ⟨'(', e, Or.inl rfl⟩
        · exact ⟨'$', e, Or.inr rfl⟩
      rw [e.1, strReplaceFrom_zero]
      split
      · obtain ⟨t2, e2 | e2⟩ := hpfx1
        · exact ⟨_, Or.inl (by rw [e2]; rfl)⟩
        · exact ⟨_, Or.inr (by rw [e2]; rfl)⟩
      · rcases e.2 with e3 | e3
        · exact ⟨_, Or.inl (by rw [e3])⟩
        · exact ⟨_, Or.inr (by rw [e3])⟩

/-- More iterations do not change what the loop of `convertName` returns. -/
theorem convertNameLoop_mono : ∀ (fuel : Nat) (e r E : Str),
    convertNameLoop fuel e r = .ret E → ∀ m, fuel ≤ m → convertNameLoop m e r = .ret E := by
  intro fuel
  induction fuel with
  | zero => intro e r E h; simp [convertNameLoop] at h
  | succ n ih =>
    intro e r E h m hm
    obtain ⟨m1, rfl⟩ : ∃ m1, m = m1 + 1 := ⟨m - 1, by omega⟩
    have hm1 : n ≤ m1 := by omega
    cases r with
    | nil =>
      simp only [convertNameLoop] at h ⊢
      exact h
    | cons c tl =>
      rw [convertNameLoop] at h ⊢
      by_cases hc : c = '['
      · rw [if_pos hc] at h ⊢
        cases hi : indexOf (fun x => x == ']') tl with
        | none => rw [hi] at h; exact absurd h (by simp)
        | some i =>
          rw [hi] at h
          exact ih _ _ _ h m1 hm1
      · rw [if_neg hc] at h ⊢
        exact ih _ _ _ h m1 hm1

theorem convertName_mono {fuel : Nat} {k E : Str} (h : convertName fuel k = .ret E) {m : Nat}
    (hm : fuel ≤ m) : convertName m k = .ret E := by
  unfold convertName at h ⊢
  split
  · rename_i hp
    rw [if_pos hp] at h
    exact h
  · rename_i hp
    rw [if_neg hp] at h
    exact convertNameLoop_mono fuel _ _ _ h m hm

/-- The `END` marker of a key does not begin in a text of which it is no
substring when the text is followed by an `END` marker. -/
theorem endMarker_in (ext : Char → Bool) {k : Str} (hk : isKey ext k = true) (k2 s post : Str)
    (h : hasSubstring (endMarker k) s = false) : NoOccIn (endMarker k) s (endMarker k2 ++ post) := by
  have e : endMarker k = '<' :: ("!-- END ".toList ++ k ++ " -->".toList) := by
    simp [endMarker]
  rw [e] at h ⊢
  apply noOccIn_of_hasSubstring h
  intro c tl e2 hm
  have e3 : endMarker k2 ++ post = '<' :: ("!-- END ".toList ++ k2 ++ " -->".toList ++ post) := by
    simp [endMarker]
  rw [e3] at e2
  simp only [List.cons.injEq] at e2
  exact marker_tail_not_mem ext _ k (by decide) (isKey_chars ext hk) c hm e2.1.symm

/-- The text `<!-- BEGIN ` does not begin in a text of which it is no substring
when the text is followed by `<` or by `{`. -/
theorem begin_in {s : Str} (h : hasSubstring "<!-- BEGIN ".toList s = false) (tail : Str)
    (ht : ∀ c tl, tail = c :: tl → c = '<' ∨ c = '\x7b') :
    NoOccIn "<!-- BEGIN ".toList s tail := by
  have e : "<!-- BEGIN ".toList = '<' :: "!-- BEGIN ".toList := rfl
  rw [e] at h ⊢
  apply noOccIn_of_hasSubstring h
  intro c tl e2 hm
  rcases ht c tl e2 with h1 | h1 <;> rw [h1] at hm <;> exact absurd hm (by decide)

/-- The Loop Pass on a text that is one block whose body holds no `<!-- BEGIN `:
the body has the path of the collection replaced by the path of the element,
its special tokens outside braces wrapped, and the four special tokens
replaced. -/
theorem convertLoopsFrom_one (ext : Char → Bool) (fuel i : Nat)
    (k nl B pfx iterator name : Str) (hk : isKey ext k = true)
    (hname : convertName (fuel + 1) k = .ret name)
    (hpfx1 : ∃ tl, pfx = '(' :: tl ∨ pfx = '$' :: tl) (hpfx2 : ∀ c ∈ pfx, c ≠ '<')
    (hit : ItOk iterator)
    (hnl : ∀ c ∈ nl, (c == '\r' || c == '\n') = true)
    (hhead : noNewlineHead (B ++ endMarker k))
    (hB : hasSubstring "<!-- BEGIN ".toList B = false)
    (hE : hasSubstring (endMarker k) B = false)
    (hfuel : (wrapAll (strReplace B (strReplace name "$.".toList (pfx ++ ".".toList) ++ ".".toList)
        (elemKey (strReplace name "$.".toList (pfx ++ ".".toList))
          (iterator ++ "i".toList ++ itoa i) ++ ".".toList))).length -
      (strReplace B (strReplace name "$.".toList (pfx ++ ".".toList) ++ ".".toList)
        (elemKey (strReplace name "$.".toList (pfx ++ ".".toList))
          (iterator ++ "i".toList ++ itoa i) ++ ".".toList)).length < fuel + 1) :
    convertLoopsFrom ext (fuel + 2) i (beginMarker k ++ nl ++ B ++ endMarker k) pfx iterator =
      .ret (rangeBlock (iterator ++ "i".toList ++ itoa i)
        (strReplace name "$.".toList (pfx ++ ".".toList))
        (substSpecials (iterator ++ "i".toList ++ itoa i)
          (wrapAll (strReplace B (strReplace name "$.".toList (pfx ++ ".".toList) ++ ".".toList)
            (elemKey (strReplace name "$.".toList (pfx ++ ".".toList))
              (iterator ++ "i".toList ++ itoa i) ++ ".".toList)))), none) := by
  obtain ⟨hkey1, _⟩ := loopKey_facts ext hk hname hpfx1 hpfx2
  generalize hC : strReplace name "$.".toList (pfx ++ ".".toList) = C at *
  generalize hI : iterator ++ "i".toList ++ itoa i = I at *
  have hI1 : ItOk I := by
    obtain ⟨⟨tl, e⟩, hp⟩ := hit
    rw [← hI]
    exact ⟨⟨tl ++ "i".toList ++ itoa i, by rw [e]; rfl⟩,
      plain_append (plain_append hp (by decide)) (itoa_plain i)⟩
  have hI2 : ∀ c ∈ I, c ≠ '<' := plain_not_mem hI1.2 (by decide)
  have hnew : ∀ c ∈ elemKey C I ++ ".".toList, c ≠ '<' :=
    not_mem_append (elemKey_not_mem (by decide) _ _ hkey1 hI2) (by decide)
  have hB1 : hasSubstring "<!-- BEGIN ".toList
      (strReplace B (C ++ ".".toList) (elemKey C I ++ ".".toList)) = false :=
    hasSubstring_strReplace _ _ _ '<' '(' _ _ rfl rfl (by decide) hnew (by simp) B hB
  generalize hB1def : strReplace B (C ++ ".".toList) (elemKey C I ++ ".".toList) = B1 at *
  have hf := convertLoopsFrom_in ext (fuel + 1) i [] k nl B [] pfx iterator hk (noOccIn_nil _ _) hnl
    (by simpa using hhead) (endMarker_in ext hk k B [] hE)
  simp only [List.nil_append, List.append_nil] at hf
  rw [hf, loopStep_eval _ (fuel + 1) i _ pfx iterator _ B k name C I B1 (wrapAll B1) hname hC.symm
    hI.symm (by rw [hB1def]; exact convertLoopsFrom_quiet ext fuel 0 B1 _ _ hB1)
    (wrapSpecials_eq (fuel + 1) B1 hfuel)]
  rw [strReplace_self _ _ (by simp [beginMarker])]
  apply convertLoopsFrom_quiet
  apply @hasSubstring_of_noOccIn _ _ [] (by simp)
  apply noOccIn_of_noOcc
  exact noOcc_rangeBlock_in _ I C _ (by decide) hI2 hkey1
    (hasSubstring_substSpecials _ (by decide) I _ hI1.1 hI2
      (hasSubstring_wrapAll _ (by decide) B1 hB1))

/-! ## Skeletons as the Loop Pass reads them -/

theorem noNewlineHead_iff (s : Str) : noNewlineHead s ↔ newlineHead s = false := by
  cases s with
  | nil => exact ⟨fun _ => rfl, fun _ => noNewlineHead_nil⟩
  | cons c cs =>
    refine ⟨fun h => h c cs rfl, fun h => noNewlineHead_cons c cs h⟩

theorem wf_text (ext : Char → Bool) (t : Str) :
    (Skel.text t).wf ext = true ↔ hasSubstring "<!-- BEGIN ".toList t = false := by
  simp [Skel.wf]

theorem wf_block (ext : Char → Bool) (pre k nl : Str) (body rest : Skel) :
    (Skel.block pre k nl body rest).wf ext = true ↔
      hasSubstring "<!-- BEGIN ".toList pre = false ∧ isKey ext k = true ∧
      (∀ c ∈ nl, (c == '\r' || c == '\n') = true) ∧ noNewlineHead (body.render ++ endMarker k) ∧
      hasSubstring (endMarker k) body.render = false ∧ body.wf ext = true ∧ rest.wf ext = true := by
  rw [noNewlineHead_iff]
  simp only [Skel.wf, Bool.and_eq_true, Bool.not_eq_true', List.all_eq_true, and_assoc]

theorem loopKey_eq {k name : Str} (hn : convertName (k.length + 2) k = .ret name) (pfx : Str) :
    loopKey k pfx = strReplace name "$.".toList (pfx ++ ".".toList) := by
  simp only [loopKey, hn]

/-- A path of the key grammar that is no special token holds no `@`. -/
theorem reach_namespace_at (ext : Char → Bool) {s st : MState}
    (h : Reach (fun x => (namespaceRegex ext).run x) s st) :
    ∃ w : Str, (∀ c ∈ w, c ≠ '@') ∧ s.rest = w ++ st.rest := by
  have hid : ∀ c, identRest ext c = true → c ≠ '@' := by
    intro c hc e
    rw [e, identRest_of_isPunct ext (by decide)] at hc
    exact absurd hc (by simp)
  have hdig : ∀ c : Char, c.isDigit = true → c ≠ '@' := by
    intro c hc e
    rw [e] at hc
    exact absurd hc (by decide)
  induction h with
  | refl s => exact ⟨[], by simp, by simp⟩
  | @step s s2 st h1 _ _ ih =>
    obtain ⟨w0, hl, e⟩ := ih
    simp only [namespaceRegex, identifierRegex, arrayRegex, Re.cat, Re.plus] at h1
    obtain ⟨sa, ha, hb⟩ := mem_run_seq.1 h1
    obtain ⟨ea, _, _⟩ := mem_run_chr ha
    rcases mem_run_alt.1 hb with hb | hb
    · obtain ⟨sb, hb1, hb2⟩ := mem_run_seq.1 hb
      obtain ⟨x, ex, px, _, _⟩ := mem_run_cls hb1
      obtain ⟨w, ew, pw, _⟩ := mem_run_star_cls hb2
      refine ⟨'.' :: x :: (w ++ w0), ?_, ?_⟩
      · intro c hc
        simp only [List.mem_cons, List.mem_append] at hc
        rcases hc with hc | hc | hc | hc
        · rw [hc]; decide
        · rw [hc]; exact hid x (identStart_imp_identRest ext px)
        · exact hid c (pw c hc)
        · exact hl c hc
      · rw [ea, ex, ew, e]
        simp
    · obtain ⟨sb, hb1, hb2⟩ := mem_run_seq.1 hb
      obtain ⟨eb, _, _⟩ := mem_run_chr hb1
      obtain ⟨sc, hc1, hc2⟩ := mem_run_seq.1 hb2
      obtain ⟨sd, hd1, hd2⟩ := mem_run_seq.1 hc1
      obtain ⟨x, ex, px, _, _⟩ := mem_run_cls hd1
      obtain ⟨w, ew, pw, _⟩ := mem_run_star_cls hd2
      obtain ⟨se, he1, he2⟩ := mem_run_seq.1 hc2
      obtain ⟨ee, _, _⟩ := mem_run_chr he1
      simp only [run_eps, List.mem_singleton] at he2
      subst he2
      refine ⟨'.' :: '[' :: x :: (w ++ ']' :: w0), ?_, ?_⟩
      · intro c hc
        simp only [List.mem_cons, List.mem_append] at hc
        rcases hc with hc | hc | hc | hc | hc | hc
        · rw [hc]; decide
        · rw [hc]; decide
        · rw [hc]; exact hdig x px
        · exact hdig c (pw c hc)
        · rw [hc]; decide
        · exact hl c hc
      · rw [ea, eb, ex, ew, ee, e]
        simp

theorem isKey_at (ext : Char → Bool) {p : Str} (h : isKey ext p = true) :
    p ∈ specialTokens ∨ ∀ c ∈ p, c ≠ '@' := by
  obtain ⟨st, hst, e⟩ := fullMatch_iff.1 h
  simp only [keyRegex, specialRegex, identifierRegex] at hst
  rcases mem_run_alt.1 hst with h1 | h1
  · exact Or.inl (by
      obtain ⟨s1, h2, h3⟩ := mem_run_seq.1 h1
      obtain ⟨e1, _, _⟩ := mem_run_chr h2
      have hp : p = '@' :: s1.rest := e1
      rcases mem_run_alt.1 h3 with h3 | h3
      · have := (mem_run_lit h3).1
        rw [e] at this
        rw [hp, this]
        decide
      · rcases mem_run_alt.1 h3 with h3 | h3
        · have := (mem_run_lit h3).1
          rw [e] at this
          rw [hp, this]
          decide
        · rcases mem_run_alt.1 h3 with h3 | h3
          · have := (mem_run_lit h3).1
            rw [e] at this
            rw [hp, this]
            decide
          · have := (mem_run_lit h3).1
            rw [e] at this
            rw [hp, this]
            decide)
  · right
    obtain ⟨s1, h2, h3⟩ := mem_run_seq.1 h1
    obtain ⟨s2, h4, h5⟩ := mem_run_seq.1 h2
    obtain ⟨x, ex, px, _, _⟩ := mem_run_cls h4
    obtain ⟨w, ew, pw, _⟩ := mem_run_star_cls h5
    obtain ⟨w0, hw0, es⟩ := reach_namespace_at ext (mem_run_star.1 h3)
    have hp : p = x :: (w ++ w0) := by
      have e0 : p = x :: s2.rest := ex
      rw [e0, ew, es, e]
      simp
    rw [hp]
    intro c hc
    simp only [List.mem_cons, List.mem_append] at hc
    have hid : ∀ c, identRest ext c = true → c ≠ '@' := by
      intro c hc e
      rw [e, identRest_of_isPunct ext (by decide)] at hc
      exact absurd hc (by simp)
    rcases hc with hc | hc | hc
    · rw [hc]; exact hid x (identStart_imp_identRest ext px)
    · exact hid c (pw c hc)
    · exact hw0 c hc

/-- The path of a collection followed by `.` begins nowhere in the part of a
loop marker behind `<` and the line breaks that follow the marker. -/
theorem noOcc_markerTail (ext : Char → Bool) (C : Str)
    (hC : (∃ tl, C = '(' :: tl ∨ C = '$' :: tl) ∨ C ∈ specialTokens) {k2 : Str}
    (hk2 : isKey ext k2 = true) (w : Str) (hw : w = "!-- BEGIN ".toList ∨ w = "!-- END ".toList)
    (nl : Str) (hnl : ∀ c ∈ nl, (c == '\r' || c == '\n') = true) :
    NoOcc (C ++ ".".toList) (w ++ k2 ++ " -->".toList ++ nl) := by
  rcases hC with ⟨tl, hC⟩ | hC
  · obtain ⟨c0, hc0, e⟩ : ∃ c0, (c0 = '(' ∨ c0 = '$') ∧ C = c0 :: tl := by
      rcases hC with e | e
      · exact ⟨'(', Or.inl rfl, e⟩
      · exact ⟨'$', Or.inr rfl, e⟩
    have hd : isDelim c0 = true := by rcases hc0 with h | h <;> subst h <;> decide
    have hw2 : ∀ c ∈ w, c ≠ c0 := by
      rcases hw with h | h <;> subst h <;> rcases hc0 with h | h <;> subst h <;> decide
    have h3 : ∀ c ∈ " -->".toList, c ≠ c0 := by
      rcases hc0 with h | h <;> subst h <;> decide
    apply noOcc_of_not_mem _ _ c0 (tl ++ ".".toList) (by rw [e]; rfl)
    exact not_mem_append (not_mem_append (not_mem_append hw2
      (keyChar_not_delim ext (isKey_chars ext hk2) hd)) h3) (newline_ne hc0 hnl)
  · obtain ⟨otl, ho, hotl⟩ := special_form hC
    have hold : C ++ ".".toList = '@' :: (otl ++ ".".toList) := by rw [ho]; rfl
    have hw2 : ∀ c ∈ w, c ≠ '@' := by
      rcases hw with h | h <;> subst h <;> decide
    have hnl2 : ∀ c ∈ nl, c ≠ '@' := by
      intro c hc e
      have := hnl c hc
      rw [e] at this
      exact absurd this (by decide)
    rcases isKey_at ext hk2 with hs | hs
    · have h0 : ∀ tail, (C ++ ".".toList).isPrefixOf (k2 ++ (" -->".toList ++ nl) ++ tail) = false := by
        intro tail
        simp only [specialTokens, List.mem_cons, List.mem_singleton, List.not_mem_nil,
          or_false] at hC hs
        rcases hC with h | h | h | h <;> subst h <;> rcases hs with h | h | h | h <;> subst h <;> rfl
      obtain ⟨u2, eu2, _, hu2⟩ := special_head hs
      rw [List.append_assoc, List.append_assoc]
      refine noOcc_append (noOcc_of_not_mem _ _ '@' _ hold hw2) ?_
      rw [eu2] at h0 ⊢
      refine noOcc_block _ (u2 ++ (" -->".toList ++ nl)) '@' _ hold ?_ h0
      exact not_mem_append (fun c hc => (hu2 c hc).1) (not_mem_append (by decide) hnl2)
    · apply noOcc_of_not_mem _ _ '@' _ hold
      exact not_mem_append (not_mem_append (not_mem_append hw2 hs) (by decide)) hnl2

/-- Replacing the path of a collection followed by `.` works on the stretches
of text of a skeleton one by one. -/
theorem strReplaceFrom_render_wf (ext : Char → Bool) (C new : Str) (hC1 : ∀ c ∈ C, c ≠ '<')
    (hC : (∃ tl, C = '(' :: tl ∨ C = '$' :: tl) ∨ C ∈ specialTokens) :
    ∀ sk : Skel, sk.wf ext = true → ∀ Z : Str, (Z = [] ∨ ∃ r, Z = '<' :: r) →
      strReplaceFrom (C ++ ".".toList) new 0 (sk.render ++ Z) =
        (sk.mapText (strReplaceFrom (C ++ ".".toList) new 0)).render ++
          strReplaceFrom (C ++ ".".toList) new 0 Z := by
  obtain ⟨c0, otl, ho, hlt0⟩ : ∃ c0 otl, C ++ ".".toList = c0 :: otl ∧ '<' ≠ c0 := by
    rcases hC with ⟨tl, e | e⟩ | hs
    · exact ⟨'(', tl ++ ".".toList, by rw [e]; rfl, by decide⟩
    · exact ⟨'$', tl ++ ".".toList, by rw [e]; rfl, by decide⟩
    · obtain ⟨u, eu, _⟩ := special_form hs
      exact ⟨'@', u ++ ".".toList, by rw [eu]; rfl, by decide⟩
  have hlt : '<' ∉ C ++ ".".toList := by
    intro hm
    rcases List.mem_append.1 hm with h | h
    · exact hC1 _ h rfl
    · exact absurd h (by decide)
  have hne : C ++ ".".toList ≠ [] := by rw [ho]; simp
  have hm := fun (k2 : Str) (hk2 : isKey ext k2 = true) => noOcc_markerTail ext C hC hk2
  generalize C ++ ".".toList = old at *
  intro sk
  induction sk with
  | text t =>
    intro _ Z hZ
    rcases hZ with e | ⟨r, e⟩
    · subst e
      simp [Skel.render, Skel.mapText, strReplaceFrom_nil]
    · subst e
      rw [strReplaceFrom_cons_ne old new c0 otl ho '<' r hlt0]
      exact strReplaceFrom_boundary old new '<' hlt hne r t 0 (Nat.zero_le _)
  | block pre k nl body rest ihb ihr =>
    intro hg Z hZ
    obtain ⟨_, hk, hnl, _, _, hgb, hgr⟩ := (wf_block ext pre k nl body rest).1 hg
    have hu := hm k hk _ (Or.inl rfl) nl hnl
    have hv := hm k hk _ (Or.inr rfl) [] (by simp)
    have e1 : (Skel.block pre k nl body rest).render ++ Z =
        pre ++ '<' :: (("!-- BEGIN ".toList ++ k ++ " -->".toList ++ nl) ++
          (body.render ++ '<' :: (("!-- END ".toList ++ k ++ " -->".toList ++ []) ++
            (rest.render ++ Z)))) := by
      simp [Skel.render, beginMarker, endMarker]
    have e2 : ∀ (p2 z2 : Str) (b2 r2 : Skel), (Skel.block p2 k nl b2 r2).render ++ z2 =
        p2 ++ '<' :: (("!-- BEGIN ".toList ++ k ++ " -->".toList ++ nl) ++
          (b2.render ++ '<' :: (("!-- END ".toList ++ k ++ " -->".toList ++ []) ++
            (r2.render ++ z2)))) := by
      intro p2 z2 b2 r2
      simp [Skel.render, beginMarker, endMarker]
    rw [e1, strReplaceFrom_boundary old new '<' hlt hne _ pre 0 (Nat.zero_le _),
      strReplaceFrom_skip_noOcc old new _ _ hu, ihb hgb ('<' :: _) (Or.inr ⟨_, rfl⟩),
      strReplaceFrom_cons_ne old new c0 otl ho '<' _ hlt0,
      strReplaceFrom_skip_noOcc old new _ _ hv, ihr hgr Z hZ]
    simp only [Skel.mapText]
    rw [e2]

/-- The replacement of the path of a collection by the path of the element
keeps a skeleton as the Loop Pass reads it. -/
theorem wf_mapText (ext : Char → Bool) (C new ntl : Str) (hC1 : ∀ c ∈ C, c ≠ '<')
    (hC : (∃ tl, C = '(' :: tl ∨ C = '$' :: tl) ∨ C ∈ specialTokens)
    (hnew : new = '(' :: ntl) (hn : ∀ c ∈ new, c ≠ '<') :
    ∀ sk : Skel, sk.wf ext = true →
      (sk.mapText (strReplaceFrom (C ++ ".".toList) new 0)).wf ext = true := by
  have hne : C ++ ".".toList ≠ [] := by simp
  have hbegin : ∀ t : Str, hasSubstring "<!-- BEGIN ".toList t = false →
      hasSubstring "<!-- BEGIN ".toList (strReplaceFrom (C ++ ".".toList) new 0 t) = false := by
    intro t ht
    rw [← strReplace_eq _ _ _ hne]
    exact hasSubstring_strReplace _ _ _ '<' '(' _ _ rfl hnew (by decide) hn hne t ht
  intro sk
  induction sk with
  | text t =>
    intro h
    rw [wf_text] at h
    simp only [Skel.mapText]
    rw [wf_text]
    exact hbegin t h
  | block pre k nl body rest ihb ihr =>
    intro hg
    obtain ⟨hpre, hk, hnl, hhead, hE, hgb, hgr⟩ := (wf_block ext pre k nl body rest).1 hg
    simp only [Skel.mapText]
    rw [wf_block]
    have hend : strReplaceFrom (C ++ ".".toList) new 0 (endMarker k) = endMarker k := by
      have := noOcc_markerTail ext C hC hk _ (Or.inr rfl) [] (by simp)
      have e : endMarker k = '<' :: ("!-- END ".toList ++ k ++ " -->".toList ++ []) := by
        simp [endMarker]
      obtain ⟨c0, otl, ho, hlt0⟩ : ∃ c0 otl, C ++ ".".toList = c0 :: otl ∧ '<' ≠ c0 := by
        rcases hC with ⟨tl, e | e⟩ | hs
        · exact ⟨'(', tl ++ ".".toList, by rw [e]; rfl, by decide⟩
        · exact ⟨'$', tl ++ ".".toList, by rw [e]; rfl, by decide⟩
        · obtain ⟨u, eu, _⟩ := special_form hs
          exact ⟨'@', u ++ ".".toList, by rw [eu]; rfl, by decide⟩
      rw [e, strReplaceFrom_cons_ne _ new c0 otl ho '<' _ hlt0]
      have h2 := strReplaceFrom_skip_noOcc (C ++ ".".toList) new _ [] this
      simp only [List.append_nil, strReplaceFrom_nil] at h2
      rw [List.append_nil, h2]
    have h1 := strReplaceFrom_render_wf ext C new hC1 hC body hgb (endMarker k)
      (Or.inr ⟨"!-- END ".toList ++ k ++ " -->".toList, by simp [endMarker]⟩)
    have h0 := strReplaceFrom_render_wf ext C new hC1 hC body hgb [] (Or.inl rfl)
    simp only [List.append_nil, strReplaceFrom_nil] at h0
    rw [hend] at h1
    refine ⟨hbegin pre hpre, hk, hnl, ?_, ?_, ihb hgb, ihr hgr⟩
    · rw [← h1]
      exact noNewlineHead_strReplaceFrom _ new ntl hnew _ hhead
    · rw [← h0, ← strReplace_eq _ _ _ hne]
      have e : endMarker k = '<' :: ("!-- END ".toList ++ k ++ " -->".toList) := by
        simp [endMarker]
      refine hasSubstring_strReplace _ _ _ '<' '(' _ _ e hnew ?_ hn hne _ hE
      intro hm
      have hd : ∀ c ∈ "!-- END ".toList ++ k ++ " -->".toList, c ≠ '(' :=
        not_mem_append (not_mem_append (by decide)
          (keyChar_not_delim ext (isKey_chars ext hk) (by decide))) (by decide)
      exact hd _ hm rfl

theorem wf_prepend (ext : Char → Bool) (P : Str)
    (hP : ∀ t, hasSubstring "<!-- BEGIN ".toList t = false →
      hasSubstring "<!-- BEGIN ".toList (P ++ t) = false)
    (sk : Skel) (h : sk.wf ext = true) : (sk.prepend P).wf ext = true := by
  cases sk with
  | text t =>
    rw [wf_text] at h
    simp only [Skel.prepend]
    rw [wf_text]
    exact hP t h
  | block pre k nl body rest =>
    rw [wf_block] at h
    simp only [Skel.prepend]
    rw [wf_block]
    exact ⟨hP pre h.1, h.2⟩

theorem fresh_prepend (P : Str) {sk : Skel} {pfx it : Str} {i : Nat} (h : sk.Fresh pfx it i) :
    (sk.prepend P).Fresh pfx it i := by
  cases h with
  | text t pfx it i => exact Skel.Fresh.text _ _ _ _
  | block pre k nl body rest pfx it i hcopy hbody hrest =>
    exact Skel.Fresh.block _ _ _ _ _ _ _ _ hcopy hbody hrest

theorem begin_in_marker {s : Str} (h : hasSubstring "<!-- BEGIN ".toList s = false) (k X : Str) :
    NoOccIn "<!-- BEGIN ".toList s (beginMarker k ++ X) := by
  apply begin_in h
  intro c tl e
  have e2 : beginMarker k ++ X = '<' :: ("!-- BEGIN ".toList ++ k ++ " -->".toList ++ X) := by
    simp [beginMarker]
  rw [e2] at e
  simp only [List.cons.injEq] at e
  exact Or.inl e.1.symm

theorem begin_in_range {s : Str} (h : hasSubstring "<!-- BEGIN ".toList s = false)
    (it key body X : Str) : NoOccIn "<!-- BEGIN ".toList s (rangeBlock it key body ++ X) := by
  apply begin_in h
  intro c tl e
  have e2 : rangeBlock it key body ++ X = '\x7b' :: ("\x7brange ".toList ++ it ++ ", ".toList ++ it
      ++ "_v := ".toList ++ key ++ "\x7d\x7d".toList ++ body ++ "\x7b\x7b- end\x7d\x7d".toList ++ X) := by
    simp [rangeBlock]
  rw [e2] at e
  simp only [List.cons.injEq] at e
  exact Or.inr e.1.symm

/-- The recording Loop Pass on the text of a skeleton in which no block stands
a second time behind itself: given enough iterations it returns a text without
`<!-- BEGIN `, and the names it generates are those of `Skel.names`. -/
theorem convertLoopsTrace_wf (ext : Char → Bool) :
    ∀ (n : Nat) (sk : Skel), sk.blocks ≤ n → sk.wf ext = true →
      ∀ (pfx it : Str) (i : Nat), sk.Fresh pfx it i →
        (∃ tl, pfx = '(' :: tl ∨ pfx = '$' :: tl) → (∀ c ∈ pfx, c ≠ '<') → ItOk it →
        ∃ N out, (∀ fuel, N ≤ fuel →
            convertLoopsTrace ext fuel i sk.render pfx it = .ret ((out, none), sk.names it i)) ∧
          hasSubstring "<!-- BEGIN ".toList out = false := by
  have htext : ∀ (t pfx it : Str) (i : Nat), (Skel.text t).wf ext = true →
      ∃ N out, (∀ fuel, N ≤ fuel →
          convertLoopsTrace ext fuel i (Skel.text t).render pfx it =
            .ret ((out, none), (Skel.text t).names it i)) ∧
        hasSubstring "<!-- BEGIN ".toList out = false := by
    intro t pfx it i hg
    rw [wf_text] at hg
    refine ⟨1, t, ?_, hg⟩
    intro fuel hfuel
    obtain ⟨f, rfl⟩ : ∃ f, fuel = f + 1 := ⟨fuel - 1, by omega⟩
    exact convertLoopsTrace_quiet ext f i t pfx it hg
  intro n
  induction n with
  | zero =>
    intro sk hn hg pfx it i _ _ _ _
    cases sk with
    | text t => exact htext t pfx it i hg
    | block pre k nl body rest =>
      simp only [Skel.blocks] at hn
      omega
  | succ m ih =>
    intro sk hn hg pfx it i hfresh hpfx1 hpfx2 hit
    cases sk with
    | text t => exact htext t pfx it i hg
    | block pre k nl body rest =>
      obtain ⟨hpre, hk, hnl, hhead, hE, hgb, hgr⟩ := (wf_block ext pre k nl body rest).1 hg
      simp only [Skel.blocks] at hn
      obtain ⟨name, hname⟩ := convertName_key ext hk (k.length + 2) (by omega)
      obtain ⟨hkey1, hkey2⟩ := loopKey_facts ext hk hname hpfx1 hpfx2
      have hlk := loopKey_eq hname pfx
      generalize hC : strReplace name "$.".toList (pfx ++ ".".toList) = C at *
      have hCc : (∃ tl, C = '(' :: tl ∨ C = '$' :: tl) ∨ C ∈ specialTokens := by
        rcases hkey2 with h | ⟨h1, h2⟩
        · exact Or.inl h
        · exact Or.inr (by rw [h2]; exact h1)
      obtain ⟨I, hIdef, hI1⟩ : ∃ I, I = it ++ "i".toList ++ itoa i ∧ ItOk I := by
        obtain ⟨⟨tl, e⟩, hp⟩ := hit
        exact ⟨_, rfl, ⟨tl ++ "i".toList ++ itoa i, by rw [e]; rfl⟩,
          plain_append (plain_append hp (by decide)) (itoa_plain i)⟩
      have hI2 : ∀ c ∈ I, c ≠ '<' := plain_not_mem hI1.2 (by decide)
      have hek : ∀ c ∈ elemKey C I, c ≠ '<' := elemKey_not_mem (by decide) _ _ hkey1 hI2
      have hn2 : ∀ c ∈ elemKey C I ++ ".".toList, c ≠ '<' := not_mem_append hek (by decide)
      have hne : C ++ ".".toList ≠ [] := by simp
      -- the body
      have hfb : (body.mapText (strReplaceFrom (C ++ ".".toList) (elemKey C I ++ ".".toList) 0)).Fresh
          (elemKey C I) I 0 := by
        cases hfresh with
        | block _ _ _ _ _ _ _ _ hcopy hbody hrest =>
          rw [hlk, ← hIdef] at hbody
          have e : (fun t => strReplace t (C ++ ".".toList) (elemKey C I ++ ".".toList)) =
              strReplaceFrom (C ++ ".".toList) (elemKey C I ++ ".".toList) 0 :=
            funext (fun t => strReplace_eq t _ _ hne)
          rw [e] at hbody
          exact hbody
      have hcopy : hasSubstring (beginMarker k ++ nl ++ body.render ++ endMarker k) rest.render
          = false := by
        cases hfresh with
        | block _ _ _ _ _ _ _ _ hcopy hbody hrest => exact hcopy
      have hfr : rest.Fresh pfx it (i + 1) := by
        cases hfresh with
        | block _ _ _ _ _ _ _ _ hcopy hbody hrest => exact hrest
      have hbodyeq : strReplace body.render (C ++ ".".toList) (elemKey C I ++ ".".toList) =
          (body.mapText (strReplaceFrom (C ++ ".".toList) (elemKey C I ++ ".".toList) 0)).render := by
        have h := strReplaceFrom_render_wf ext C (elemKey C I ++ ".".toList) hkey1 hCc body hgb []
          (Or.inl rfl)
        simp only [List.append_nil, strReplaceFrom_nil] at h
        rw [strReplace_eq _ _ _ hne]
        exact h
      obtain ⟨Nb, body1, hrunb, hq1⟩ := ih
        (body.mapText (strReplaceFrom (C ++ ".".toList) (elemKey C I ++ ".".toList) 0))
        (by rw [blocks_mapText]; omega)
        (wf_mapText ext C _ ("index ".toList ++ C ++ " ".toList ++ I ++ ")".toList ++ ".".toList)
          hkey1 hCc (by simp [elemKey]) hn2 body hgb)
        (elemKey C I) I 0 hfb ⟨_, Or.inl rfl⟩ hek hI1
      rw [names_mapText, ← hbodyeq] at hrunb
      -- the block that replaces the loop
      have hreplace : NoOcc "<!-- BEGIN ".toList
          (rangeBlock I C (substSpecials I (wrapAll body1))) :=
        noOcc_rangeBlock_in _ I C _ (by decide) hI2 hkey1
          (hasSubstring_substSpecials _ (by decide) I _ hI1.1 hI2
            (hasSubstring_wrapAll _ (by decide) body1 hq1))
      have hw : beginMarker k ++ nl ++ body.render ++ endMarker k =
          "<!-- BEGIN ".toList ++ (k ++ " -->".toList ++ nl ++ body.render ++ endMarker k) := by
        simp [beginMarker]
      have hrep := strReplace_block_in pre (beginMarker k ++ nl ++ body.render ++ endMarker k)
        rest.render (rangeBlock I C (substSpecials I (wrapAll body1)))
        (by simp [beginMarker])
        (by
          have := begin_in_marker hpre k (nl ++ body.render ++ endMarker k ++ rest.render)
          rw [hw]
          apply noOccIn_ext
          simpa [beginMarker, List.append_assoc] using this)
        hcopy
      -- the rest of the text
      obtain ⟨Nr, out, hrunr, hout⟩ := ih
        (rest.prepend (pre ++ rangeBlock I C (substSpecials I (wrapAll body1))))
        (by rw [blocks_prepend]; omega)
        (wf_prepend ext _ (by
          intro t ht
          have e : "<!-- BEGIN ".toList = '<' :: "!-- BEGIN ".toList := rfl
          rw [e] at ht ⊢
          refine hasSubstring_append ?_ ht
          refine noOccIn_append ?_ (noOccIn_of_noOcc hreplace t)
          exact begin_in_range hpre _ _ _ t) rest hgr)
        pfx it (i + 1) (fresh_prepend _ hfr) hpfx1 hpfx2 hit
      rw [names_prepend, render_prepend, List.append_assoc, ← hrep] at hrunr
      refine ⟨Nb + Nr + k.length + ((wrapAll body1).length - body1.length) + 3, out, ?_, hout⟩
      intro fuel hfuel
      obtain ⟨f, rfl⟩ : ∃ f, fuel = f + 1 := ⟨fuel - 1, by omega⟩
      rw [Skel.render, convertLoopsTrace_in ext f i pre k nl body.render rest.render pfx it hk
        (begin_in_marker hpre k _ |> fun h => by
          simpa [List.append_assoc] using h) hnl
        (noNewlineHead_append_right _ hhead (by simp [endMarker]))
        (endMarker_in ext hk k _ _ hE)]
      have hfin := loopStepTrace_eval (fun j t p it => convertLoopsTrace ext f j t p it)
        f i (pre ++ ((beginMarker k ++ nl ++ body.render ++ endMarker k) ++ rest.render))
        pfx it (beginMarker k ++ nl ++ body.render ++ endMarker k) body.render k name C I
        body1 (wrapAll body1) _ _ (out, none)
        (convertName_mono hname (by omega)) hC.symm hIdef (hrunb f (by omega))
        (wrapSpecials_eq f body1 (by omega)) (hrunr f (by omega))
      rw [hfin, hIdef]
      rfl

/-! ## The iterator names of the blocks of a template -/

/-- Claim C8 (amended): the iterator name the Loop Pass generates for a block is
the name of the enclosing block (the root name `$` at the top level) followed
by `i` and the 0-based number of the block among the blocks of its level.
The template is the text of a skeleton `sk` as the Loop Pass reads it
(`Skel.wf`: stretches of text without `<!-- BEGIN `, blocks of any key of the
key grammar, each ending at the first `END` marker of its key) in which no
block stands a second time behind itself when the pass reaches it
(`Skel.Fresh`). Given enough iterations the Loop Pass returns a text, and the
names it generates, one for each round of the loop, are exactly the names of
`Skel.names`, in the order of the text. These names are pairwise different, and
each of them has at least one index and no more indices than the blocks nest
deep. -/
theorem C8_iterator_names (ext : Char → Bool) (sk : Skel) (hwf : sk.wf ext = true)
    (hfresh : sk.Fresh "$".toList "$".toList 0) :
    ∃ N out, (∀ fuel, N ≤ fuel →
        convertLoopsTrace ext fuel 0 sk.render "$".toList "$".toList =
          .ret ((out, none), sk.names "$".toList 0) ∧
        convertLoops ext fuel sk.render "$".toList "$".toList = .ret (out, none)) ∧
      (sk.names "$".toList 0).Nodup ∧
      ∀ nm ∈ sk.names "$".toList 0, 1 ≤ nm.count 'i' ∧ nm.count 'i' ≤ sk.depth := by
  obtain ⟨N, out, h, _⟩ := convertLoopsTrace_wf ext sk.blocks sk (Nat.le_refl _) hwf
    "$".toList "$".toList 0 hfresh ⟨[], Or.inr rfl⟩ (by decide) itOk_root
  refine ⟨N, out, fun fuel hfuel => ⟨h fuel hfuel, ?_⟩, names_nodup sk _ 0, fun nm hnm => ?_⟩
  · have h2 := convertLoopsTrace_fst ext fuel 0 sk.render "$".toList "$".toList
    rw [h fuel hfuel] at h2
    exact h2.symm
  · have h3 := names_depth sk "$".toList 0 nm hnm
    have h4 : "$".toList.count 'i' = 0 := by decide
    rw [h4] at h3
    omega

theorem fresh_siblingSkel : siblingSkel.Fresh "$".toList "$".toList 0 := by
  refine Skel.Fresh.block _ _ _ _ _ _ _ _ (by decide) ?_ ?_
  · exact Skel.Fresh.block _ _ _ _ _ _ _ _ (by decide) (Skel.Fresh.text _ _ _ _)
      (Skel.Fresh.text _ _ _ _)
  · exact Skel.Fresh.block _ _ _ _ _ _ _ _ (by decide) (Skel.Fresh.text _ _ _ _)
      (Skel.Fresh.text _ _ _ _)

/-- Claim C8 at two blocks over the dotted key `a.b` with different bodies, the
first with a nested block over `c`: the names are `$i0`, `$i0i0` and `$i1`. -/
theorem C8_iterator_names_witness :
    siblingSkel.wf asciiLetters = true ∧ siblingSkel.Fresh "$".toList "$".toList 0 ∧
    siblingSkel.render =
      ("<ul><!-- BEGIN a.b -->\n<li>@index <!-- BEGIN c -->\x7b\x7b@value\x7d\x7d<!-- END c --></li>" ++
        "<!-- END a.b --></ul><p><!-- BEGIN a.b -->y<!-- END a.b --></p>").toList ∧
    siblingSkel.names "$".toList 0 = ["$i0".toList, "$i0i0".toList, "$i1".toList] ∧
    siblingSkel.depth = 2 ∧
    ∃ N out, (∀ fuel, N ≤ fuel →
        convertLoopsTrace asciiLetters fuel 0 siblingSkel.render "$".toList "$".toList =
          .ret ((out, none), siblingSkel.names "$".toList 0) ∧
        convertLoops asciiLetters fuel siblingSkel.render "$".toList "$".toList = .ret (out, none)) ∧
      (siblingSkel.names "$".toList 0).Nodup ∧
      ∀ nm ∈ siblingSkel.names "$".toList 0, 1 ≤ nm.count 'i' ∧ nm.count 'i' ≤ siblingSkel.depth :=
  ⟨by decide, fresh_siblingSkel, by decide, by decide, by decide,
    C8_iterator_names asciiLetters siblingSkel (by decide) fresh_siblingSkel⟩

set_option maxRecDepth 100000 in
/-- The Loop Pass on the text of `siblingSkel`, evaluated: the text it returns
and the names it generates. -/
theorem siblingSkel_run :
    convertLoopsTrace asciiLetters 40 0 siblingSkel.render "$".toList "$".toList =
      .ret ((("<ul>\x7b\x7brange $i0, $i0_v := $.a.b\x7d\x7d<li>\x7b\x7b$i0\x7d\x7d " ++
        "\x7b\x7brange $i0i0, $i0i0_v := (index $.a.b $i0).c\x7d\x7d\x7b\x7b$i0i0_v\x7d\x7d\x7b\x7b- end\x7d\x7d" ++
        "</li>\x7b\x7b- end\x7d\x7d</ul><p>\x7b\x7brange $i1, $i1_v := $.a.b\x7d\x7dy\x7b\x7b- end\x7d\x7d" ++
        "</p>").toList, none), ["$i0".toList, "$i0i0".toList, "$i1".toList]) := by
  decide

/-! ## A loop block without nested loop -/

theorem special_length {tok : Str} (h : tok ∈ specialTokens) : 4 ≤ tok.length := by
  simp only [specialTokens, List.mem_cons, List.mem_singleton, List.not_mem_nil, or_false] at h
  rcases h with h | h | h | h <;> subst h <;> decide

/-- The wrapping of special tokens at most doubles the length of a text. -/
theorem length_wrapAllFrom_le : ∀ (n : Nat) (s : Str), s.length ≤ n → ∀ o : Bool,
    (wrapAllFrom o 0 s).length ≤ 2 * s.length := by
  intro n
  induction n with
  | zero =>
    intro s hs o
    have : s = [] := List.length_eq_zero.1 (Nat.le_zero.1 hs)
    subst this
    simp [wrapAllFrom_nil]
  | succ n ih =>
    intro s hs o
    cases s with
    | nil => simp [wrapAllFrom_nil]
    | cons c cs =>
      cases hs2 : specialAt (c :: cs) with
      | some tok =>
        obtain ⟨htok, hpre⟩ := specialAt_some hs2
        obtain ⟨r, e⟩ := List.isPrefixOf_iff_prefix.1 hpre
        have h4 := special_length htok
        have hr : r.length ≤ n := by
          have := congrArg List.length e
          simp only [List.length_cons, List.length_append] at this hs
          omega
        have := ih r hr o
        rw [← e, wrapAllFrom_token htok]
        cases o <;> simp only [List.length_append] <;> simp <;> omega
      | none =>
        rw [wrapAllFrom_cons_none hs2]
        have := ih cs (by simpa using hs) (braceStep o c)
        simp only [List.length_cons]
        omega

/-- Claim C15 (amended): the Loop Pass on a loop block that contains no nested
loop: a `BEGIN` marker of any key `k` of the key grammar, line breaks, a body
`B` that holds no `<!-- BEGIN ` and not the `END` marker of `k`, and the `END`
marker of `k`; at any level (the path `pfx` of the enclosing element
begins with `$` or `(` and holds no `<`, the enclosing iterator name begins with
`$`) and for any loop counter `i`. With the generated iterator name `I` and the
collection expression `C`, the block becomes `{{range I, I_v := C}}`, the body
and `{{- end}}`, for every iteration bound of at least the lengths of the key
and the body plus 3. The body is `B1`, the text `B` with `C.` replaced by
`(index C I).`, in which every special token has been replaced: `@index` and
`@key` by `I`, `@value` by `I_v`, the value variable bound in the header, and
`@first` by `(not I)`, each in an interpolation `{{…}}` of its own when the
token stood outside braces. When `C` holds no `@`, the tokens of `B1` are those
of `B`, and the replacement of `C.` is made in the stretches of text between
them. -/
theorem C15_special_tokens (ext : Char → Bool) (i : Nat) (k nl B pfx iterator : Str)
    (hk : isKey ext k = true)
    (hpfx1 : ∃ tl, pfx = '(' :: tl ∨ pfx = '$' :: tl) (hpfx2 : ∀ c ∈ pfx, c ≠ '<')
    (hit : ItOk iterator)
    (hnl : ∀ c ∈ nl, (c == '\r' || c == '\n') = true)
    (hhead : noNewlineHead (B ++ endMarker k))
    (hB : hasSubstring "<!-- BEGIN ".toList B = false)
    (hE : hasSubstring (endMarker k) B = false) :
    ∃ name I C B1 : Str,
      convertName (k.length + 2) k = .ret name ∧
      I = iterator ++ "i".toList ++ itoa i ∧
      C = strReplace name "$.".toList (pfx ++ ".".toList) ∧
      B1 = strReplace B (C ++ ".".toList) (elemKey C I ++ ".".toList) ∧
      (∀ fuel, k.length + B1.length + 3 ≤ fuel →
        convertLoopsFrom ext fuel i (beginMarker k ++ nl ++ B ++ endMarker k) pfx iterator =
          .ret ("\x7b\x7brange ".toList ++ I ++ ", ".toList ++ I ++ "_v := ".toList ++ C
            ++ "\x7d\x7d".toList ++ substSpecials I (wrapAll B1)
            ++ "\x7b\x7b- end\x7d\x7d".toList, none)) ∧
      (∀ (items : List (Str × Str)) (last : Str), B1 = tokenText items last →
        (∀ p ∈ items, p.2 ∈ specialTokens ∧ TokenFree p.1) → TokenFree last →
          substSpecials I (wrapAll B1) = bodyOut I false items last) ∧
      ('@' ∉ C → ∀ (items : List (Str × Str)) (last : Str), B = tokenText items last →
        (∀ p ∈ items, p.2 ∈ specialTokens ∧ TokenFree p.1) → TokenFree last →
          substSpecials I (wrapAll B1) =
            bodyOut I false
              (items.map (fun p =>
                (strReplace p.1 (C ++ ".".toList) (elemKey C I ++ ".".toList), p.2)))
              (strReplace last (C ++ ".".toList) (elemKey C I ++ ".".toList))) := by
  obtain ⟨name, hname⟩ := convertName_key ext hk (k.length + 2) (by omega)
  obtain ⟨hkey1, hkey2⟩ := loopKey_facts ext hk hname hpfx1 hpfx2
  refine ⟨name, _, _, _, hname, rfl, rfl, rfl, ?_, ?_, ?_⟩
  · intro fuel hfuel
    obtain ⟨f, rfl⟩ : ∃ f, fuel = f + 2 := ⟨fuel - 2, by omega⟩
    have h := convertLoopsFrom_one ext f i k nl B pfx iterator name hk
      (convertName_mono hname (by omega)) hpfx1 hpfx2 hit hnl hhead hB hE (by
        have := length_wrapAllFrom_le _ (strReplace B
          (strReplace name "$.".toList (pfx ++ ".".toList) ++ ".".toList)
          (elemKey (strReplace name "$.".toList (pfx ++ ".".toList))
            (iterator ++ "i".toList ++ itoa i) ++ ".".toList)) (Nat.le_refl _) false
        unfold wrapAll
        omega)
    rw [h]
    simp only [rangeBlock]
  · intro items last e hitems hlast
    rw [e]
    exact substSpecials_wrapAll _ (plain_not_mem (by
      obtain ⟨_, hp⟩ := hit
      exact plain_append (plain_append hp (by decide)) (itoa_plain i)) (by decide))
      (by obtain ⟨⟨tl, e⟩, _⟩ := hit; exact ⟨tl ++ "i".toList ++ itoa i, by rw [e]; rfl⟩)
      items last hitems hlast
  · intro hat items last e hitems hlast
    generalize hC : strReplace name "$.".toList (pfx ++ ".".toList) = C at *
    generalize hI : iterator ++ "i".toList ++ itoa i = I at *
    have hIp : ∀ c ∈ I, plainChar c = true := by
      rw [← hI]
      exact plain_append (plain_append hit.2 (by decide)) (itoa_plain i)
    have hIat : ∀ c ∈ I, c ≠ '@' := plain_not_mem hIp (by decide)
    have hCat : ∀ c ∈ C, c ≠ '@' := fun c hc e => hat (e ▸ hc)
    obtain ⟨c0, otl, ho, hc0⟩ : ∃ c0 otl, C ++ ".".toList = c0 :: otl ∧ isPunct c0 = true := by
      rcases hkey2 with ⟨tl, e1 | e1⟩ | ⟨hs, e1⟩
      · exact ⟨'(', tl ++ ".".toList, by rw [e1]; rfl, by decide⟩
      · exact ⟨'$', tl ++ ".".toList, by rw [e1]; rfl, by decide⟩
      · obtain ⟨u, eu, _⟩ := special_form hs
        exact absurd (by rw [e1, eu]; simp) hat
    have hne : C ++ ".".toList ≠ [] := by rw [ho]; simp
    have hold : '@' ∉ C ++ ".".toList := by
      intro hm
      rcases List.mem_append.1 hm with h | h
      · exact hat h
      · exact absurd h (by decide)
    have hnew : ∀ c ∈ elemKey C I ++ ".".toList, c ≠ '@' :=
      not_mem_append (elemKey_not_mem (by decide) _ _ hCat hIat) (by decide)
    have e1 : ∀ t : Str, strReplace t (C ++ ".".toList) (elemKey C I ++ ".".toList) =
        strReplaceFrom (C ++ ".".toList) (elemKey C I ++ ".".toList) 0 t :=
      fun t => strReplace_eq t _ _ hne
    have hfree : ∀ t : Str, TokenFree t →
        TokenFree (strReplaceFrom (C ++ ".".toList) (elemKey C I ++ ".".toList) 0 t) := by
      intro t ht tok htok
      obtain ⟨u, eu, hu⟩ := special_form htok
      rw [← e1]
      refine hasSubstring_strReplace tok _ _ '@' '(' u _ eu rfl ?_ hnew hne t (ht tok htok)
      intro hm
      exact absurd (hu _ hm) (by decide)
    simp only [e1]
    rw [e, strReplaceFrom_tokenText _ _ c0 otl ho hc0 hold items (fun p hp => (hitems p hp).1) last]
    apply substSpecials_wrapAll I hIat
      (by obtain ⟨⟨tl, e⟩, _⟩ := hit; exact ⟨tl ++ "i".toList ++ itoa i, by rw [← hI, e]; rfl⟩)
    · intro p hp
      obtain ⟨q, hq, rfl⟩ := List.mem_map.1 hp
      exact ⟨(hitems q hq).1, hfree _ (hitems q hq).2⟩
    · exact hfree _ hlast

/-- Claim C15 at the block of the dotted key `a.b` with a line break behind the
`BEGIN` marker and the body `<li>@index: {{@key}} {{@value}} {{$.a.b.c}}</li>`,
at the top level: the iterator is `$i0`, the collection `$.a.b`, the value
variable `$i0_v`; the token `@index` outside braces gets an interpolation of its
own. -/
theorem C15_special_tokens_witness :
    convertLoopsFrom asciiLetters 80 0
        ("<!-- BEGIN a.b -->\n<li>@index: \x7b\x7b@key\x7d\x7d \x7b\x7b@value\x7d\x7d " ++
          "\x7b\x7b$.a.b.c\x7d\x7d</li><!-- END a.b -->").toList
        "$".toList "$".toList =
      .ret (("\x7b\x7brange $i0, $i0_v := $.a.b\x7d\x7d<li>\x7b\x7b$i0\x7d\x7d: " ++
        "\x7b\x7b$i0\x7d\x7d \x7b\x7b$i0_v\x7d\x7d \x7b\x7b(index $.a.b $i0).c\x7d\x7d</li>" ++
        "\x7b\x7b- end\x7d\x7d").toList, none) := by
  obtain ⟨name, I, C, B1, hname, hI, hC, hB1, h, _, _⟩ := C15_special_tokens asciiLetters 0
    "a.b".toList "\n".toList
    "<li>@index: \x7b\x7b@key\x7d\x7d \x7b\x7b@value\x7d\x7d \x7b\x7b$.a.b.c\x7d\x7d</li>".toList
    "$".toList "$".toList (by decide) ⟨[], Or.inr rfl⟩ (by decide) itOk_root (by decide)
    (noNewlineHead_cons '<' _ (by decide)) (by decide) (by decide)
  have e0 : convertName ("a.b".toList.length + 2) "a.b".toList = .ret "$.a.b".toList := by decide
  rw [e0] at hname
  simp only [Outcome.ret.injEq] at hname
  subst hname
  have eI : I = "$i0".toList := by rw [hI]; decide
  have eC : C = "$.a.b".toList := by rw [hC]; decide
  subst eI eC
  have eB : B1 = ("<li>@index: \x7b\x7b@key\x7d\x7d \x7b\x7b@value\x7d\x7d " ++
      "\x7b\x7b(index $.a.b $i0).c\x7d\x7d</li>").toList := by rw [hB1]; decide
  subst eB
  have e1 : beginMarker "a.b".toList ++ "\n".toList ++
      "<li>@index: \x7b\x7b@key\x7d\x7d \x7b\x7b@value\x7d\x7d \x7b\x7b$.a.b.c\x7d\x7d</li>".toList ++
      endMarker "a.b".toList =
      ("<!-- BEGIN a.b -->\n<li>@index: \x7b\x7b@key\x7d\x7d \x7b\x7b@value\x7d\x7d " ++
          "\x7b\x7b$.a.b.c\x7d\x7d</li><!-- END a.b -->").toList := by decide
  have h2 := h 80 (by decide)
  rw [e1] at h2
  rw [h2]
  decide

/-! ## A block nested in a block of the same key -/

/-- Claim C9, what the code does: on a block of the key `k` nested in a block of
the same key, the lazy pattern of the outer block ends at the `END` marker of
the inner block, the body handed to the recursive call holds a `BEGIN` marker
without `END` marker, and the Loop Pass (and with it `Convert`) panics at
`loop[0]` for every iteration bound of at least 4. It does not terminate
normally. -/
theorem C9_same_key_nesting_panics (ext : Char → Bool) (fuel : Nat) (k x : Str)
    (hk : isIdentifier ext k = true) (hx : ∀ c ∈ x, c ≠ '<' ∧ c ≠ '\x7b') :
    convertLoops ext (fuel + 4)
        (beginMarker k ++ (beginMarker k ++ x ++ endMarker k) ++ endMarker k)
        "$".toList "$".toList = .panic ∧
      Convert ext (fuel + 4)
        (beginMarker k ++ (beginMarker k ++ x ++ endMarker k) ++ endMarker k) = .panic := by
  have hkey := isKey_of_isIdentifier ext hk
  have hkc := isIdentifier_keyChars ext hk
  have hx1 : ∀ c ∈ x, c ≠ '<' := fun c hc => (hx c hc).1
  have eT : beginMarker k ++ (beginMarker k ++ x ++ endMarker k) ++ endMarker k =
      [] ++ ((beginMarker k ++ [] ++ (beginMarker k ++ x) ++ endMarker k) ++ endMarker k) := by
    simp only [List.append_assoc, List.nil_append, List.append_nil]
  have eB : beginMarker k = '<' :: ("!-- BEGIN ".toList ++ k ++ " -->".toList) := by
    simp only [beginMarker, List.append_assoc]
    rfl
  have hno : NoOcc (endMarker k) (beginMarker k ++ x) := by
    rw [eB, List.cons_append]
    refine noOcc_block (endMarker k) _ '<' ("!-- END ".toList ++ k ++ " -->".toList)
      (by simp only [endMarker, List.append_assoc]; rfl)
      (not_mem_append (marker_tail_not_mem ext _ k (by decide) hkc) hx1) ?_
    intro tail
    have := endMarker_ne_begin k k (x ++ tail)
    rw [eB] at this
    simpa [List.append_assoc] using this
  have hL : convertLoops ext (fuel + 4)
      (beginMarker k ++ (beginMarker k ++ x ++ endMarker k) ++ endMarker k)
      "$".toList "$".toList = .panic := by
    unfold convertLoops
    rw [eT, convertLoopsFrom_first ext (fuel + 3) 0 [] k [] (beginMarker k ++ x) (endMarker k)
      "$".toList "$".toList hkey (noOcc_nil _) (by simp)
      (by rw [eB]; exact noNewlineHead_cons '<' _ (by decide)) hno]
    -- the key of the round and the replacement in the body
    obtain ⟨c0, otl, ho, hc0⟩ : ∃ c0 otl,
        strReplace (Segment.apply "$".toList (.field k)) "$.".toList ("$".toList ++ ".".toList)
          ++ ".".toList = c0 :: otl ∧ (c0 = '(' ∨ c0 = '$') := by
      rw [loopKey_identifier ext hk]
      obtain ⟨tl, e | e⟩ := loopKey_head k "$".toList ⟨[], Or.inr rfl⟩
      · exact ⟨'(', tl ++ ".".toList, by rw [e]; rfl, Or.inl rfl⟩
      · exact ⟨'$', tl ++ ".".toList, by rw [e]; rfl, Or.inr rfl⟩
    obtain ⟨⟨u, hu1, hu2⟩, _⟩ := marker_tails ext hk hc0
    have hBc : ∀ c ∈ beginMarker k, c ≠ c0 := by
      intro c hc
      rw [hu1] at hc
      rcases List.mem_cons.1 hc with e | e
      · rw [e]
        rcases hc0 with e2 | e2 <;> subst e2 <;> decide
      · exact hu2 c e
    have g1 : (⟨beginMarker k ++ [] ++ (beginMarker k ++ x) ++ endMarker k,
        [(2, beginMarker k ++ x), (1, k)]⟩ : Match).group 1 = k := rfl
    have g2 : (⟨beginMarker k ++ [] ++ (beginMarker k ++ x) ++ endMarker k,
        [(2, beginMarker k ++ x), (1, k)]⟩ : Match).group 2 = beginMarker k ++ x := rfl
    simp only [loopStep, g1, g2, convertName_identifier ext hk (fuel + 1), Outcome.bind]
    rw [strReplace_eq _ _ _ (by rw [ho]; simp), strReplaceFrom_skip _ _ c0 otl ho _ _ hBc]
    have hx2 : ∀ c ∈ strReplaceFrom
        (strReplace (Segment.apply "$".toList (.field k)) "$.".toList ("$".toList ++ ".".toList)
          ++ ".".toList)
        ("(index ".toList ++
          strReplace (Segment.apply "$".toList (.field k)) "$.".toList ("$".toList ++ ".".toList)
          ++ " ".toList ++ ("$".toList ++ "i".toList ++ itoa 0) ++ ")".toList ++ ".".toList) 0 x,
        c ≠ '<' := by
      intro c hc
      rcases mem_strReplaceFrom _ _ x 0 c hc with h | h
      · exact hx1 c h
      · revert h c
        rw [loopKey_identifier ext hk]
        intro c _
        have hkey2 := loopKey_not_mem ext hk (x := '<') (by decide) (by decide) "$".toList
          (by decide)
        have d1 : ∀ c ∈ "(index ".toList, c ≠ '<' := by decide
        have d2 : ∀ c ∈ " ".toList, c ≠ '<' := by decide
        have d3 : ∀ c ∈ "$".toList ++ "i".toList ++ itoa 0, c ≠ '<' := by decide
        have d4 : ∀ c ∈ ")".toList, c ≠ '<' := by decide
        have d5 : ∀ c ∈ ".".toList, c ≠ '<' := by decide
        exact not_mem_append (not_mem_append (not_mem_append (not_mem_append (not_mem_append
          d1 hkey2) d2) d3) d4) d5 c
    generalize strReplaceFrom _ _ 0 x = x2 at hx2
    have h1 := findFirst_loopFind_first ext [] k x2 hkey (noOcc_nil _)
    have h2 := findFirst_loopRegex_none ext hkey [] x2 (by simp) hx2
    simp only [List.nil_append] at h1 h2
    have g3 : (⟨beginMarker k, [(1, k)]⟩ : Match).group 1 = k := rfl
    rw [convertLoopsFrom, h1]
    simp only [g3, h2]
  refine ⟨hL, ?_⟩
  have hm := marker_not_mem ext hk (x := '\x7b') (by decide) (by decide)
  have hV := convertVariables_of_not_mem ext (fuel + 4)
    (beginMarker k ++ (beginMarker k ++ x ++ endMarker k) ++ endMarker k)
    (not_mem_append (not_mem_append hm.1 (not_mem_append (not_mem_append hm.1
      (fun c hc => (hx c hc).2)) hm.2)) hm.2)
  have hC := convertConditions_of_onlyLoopMarkers ext (fuel + 4)
    (beginMarker k ++ (beginMarker k ++ x ++ endMarker k) ++ endMarker k)
    (onlyLoopMarkers_append (onlyLoopMarkers_append (onlyLoopMarkers_begin ext k hkc)
      (onlyLoopMarkers_append (onlyLoopMarkers_append (onlyLoopMarkers_begin ext k hkc)
        (onlyLoopMarkers_of_not_mem _ hx1)) (onlyLoopMarkers_end ext k hkc)))
      (onlyLoopMarkers_end ext k hkc))
  simp only [Convert, parse, andThen, Outcome.bind, hV, hC, hL]

/-- Claim C9 at the text `<!-- BEGIN a --><!-- BEGIN a -->x<!-- END a --><!-- END a -->`. -/
theorem C9_same_key_nesting_panics_witness :
    isIdentifier asciiLetters "a".toList = true ∧
    convertLoops asciiLetters 4
        "<!-- BEGIN a --><!-- BEGIN a -->x<!-- END a --><!-- END a -->".toList
        "$".toList "$".toList = .panic ∧
      Convert asciiLetters 4
        "<!-- BEGIN a --><!-- BEGIN a -->x<!-- END a --><!-- END a -->".toList = .panic :=
  ⟨by decide, C9_same_key_nesting_panics asciiLetters 0 "a".toList "x".toList (by decide)
    (by decide)⟩

/-! ## A text followed by a character the pattern cannot consume -/

theorem framedAt_length {x : Char} {t : Str} {s1 s2 : MState} (h : FramedAt x t s1 s2) :
    s1.rest.length = s2.rest.length + (t.length + 1) := by
  rw [h.2.2]
  simp

theorem starRun_framedAt (x : Char) (t : Str) (f : MState → List MState)
    (hf : ∀ s1 s2, FramedAt x t s1 s2 → List.Forall₂ (FramedAt x t) (f s1) (f s2)) (g : Bool) :
    ∀ (k : Nat) (s1 s2 : MState), FramedAt x t s1 s2 → s2.rest.length ≤ k →
      ∀ n1 n2, k ≤ n1 → k ≤ n2 →
        List.Forall₂ (FramedAt x t) (starRun f g n1 s1) (starRun f g n2 s2) := by
  have hfilt : ∀ s1 s2, FramedAt x t s1 s2 →
      List.Forall₂ (fun a b => FramedAt x t a b ∧ decide (b.rest.length < s2.rest.length) = true)
        ((f s1).filter (fun a => decide (a.rest.length < s1.rest.length)))
        ((f s2).filter (fun a => decide (a.rest.length < s2.rest.length))) := by
    intro s1 s2 h
    apply forall₂_filter (hf s1 s2 h)
    intro a b hab
    have e1 := framedAt_length h
    have e2 := framedAt_length hab
    by_cases hlt : b.rest.length < s2.rest.length
    · have : a.rest.length < s1.rest.length := by omega
      simp [hlt, this]
    · have : ¬ a.rest.length < s1.rest.length := by omega
      simp [hlt, this]
  intro k
  induction k with
  | zero =>
    intro s1 s2 h hk n1 n2 _ _
    have h2 : (f s2).filter (fun a => decide (a.rest.length < s2.rest.length)) = [] := by
      apply List.filter_eq_nil_iff.2
      intro a _
      simp only [decide_eq_true_eq]
      omega
    have h1 : (f s1).filter (fun a => decide (a.rest.length < s1.rest.length)) = [] := by
      have := hfilt s1 s2 h
      rw [h2] at this
      exact List.forall₂_nil_right_iff.1 this
    rw [starRun_stuck f g n1 s1 h1, starRun_stuck f g n2 s2 h2]
    exact List.Forall₂.cons h List.Forall₂.nil
  | succ k ih =>
    intro s1 s2 h hk n1 n2 hn1 hn2
    obtain ⟨m1, rfl⟩ : ∃ m, n1 = m + 1 := ⟨n1 - 1, by omega⟩
    obtain ⟨m2, rfl⟩ : ∃ m, n2 = m + 1 := ⟨n2 - 1, by omega⟩
    have hmore : List.Forall₂ (FramedAt x t)
        (((f s1).filter (fun a => decide (a.rest.length < s1.rest.length))).flatMap (starRun f g m1))
        (((f s2).filter (fun a => decide (a.rest.length < s2.rest.length))).flatMap (starRun f g m2)) := by
      apply forall₂_flatMap (hfilt s1 s2 h)
      intro a b hab
      have hy : b.rest.length < s2.rest.length := by simpa using hab.2
      exact ih a b hab.1 (by omega) m1 m2 (by omega) (by omega)
    cases g with
    | true =>
      simp only [starRun, if_true]
      exact List.rel_append hmore (List.Forall₂.cons h List.Forall₂.nil)
    | false =>
      simp only [starRun, Bool.false_eq_true, if_false]
      exact List.Forall₂.cons h hmore

/-- A pattern that cannot consume `x` matches in a text followed by `x` and
more text as it does in the text alone. -/
theorem Re.run_framedAt (x : Char) (t : Str) (r : Re) :
    r.Within (fun c => c ≠ x) → ∀ s1 s2, FramedAt x t s1 s2 →
      List.Forall₂ (FramedAt x t) (r.run s1) (r.run s2) := by
  induction r with
  | chr c =>
    intro hP s1 s2 h
    obtain ⟨c1, b1, r1⟩ := s1
    obtain ⟨c2, b2, r2⟩ := s2
    obtain ⟨hc, hb, hr⟩ := h
    simp only at hc hb hr
    subst hc hb hr
    cases r2 with
    | nil =>
      have : ¬ x = c := fun e => hP e.symm
      simp [Re.run, this]
    | cons y ys =>
      by_cases hx : y = c
      · simp only [List.cons_append, Re.run, hx, if_true]
        exact List.Forall₂.cons ⟨rfl, rfl, rfl⟩ List.Forall₂.nil
      · simp [Re.run, hx]
  | cls p =>
    intro hP s1 s2 h
    obtain ⟨c1, b1, r1⟩ := s1
    obtain ⟨c2, b2, r2⟩ := s2
    obtain ⟨hc, hb, hr⟩ := h
    simp only at hc hb hr
    subst hc hb hr
    cases r2 with
    | nil =>
      have : p x = false := by
        cases hp : p x with
        | false => rfl
        | true => exact absurd rfl (hP x hp)
      simp [Re.run, this]
    | cons y ys =>
      by_cases hx : p y = true
      · simp only [List.cons_append, Re.run, hx, if_true]
        exact List.Forall₂.cons ⟨rfl, rfl, rfl⟩ List.Forall₂.nil
      · simp [Re.run, hx]
  | bot =>
    intro _ s1 s2 h
    by_cases hb : s2.atStart = true
    · have hb1 : s1.atStart = true := by rw [h.2.1, hb]
      simp only [Re.run, hb, hb1, if_true]
      exact List.Forall₂.cons h List.Forall₂.nil
    · have hb1 : ¬ s1.atStart = true := by rw [h.2.1]; exact hb
      simp [Re.run, hb, hb1]
  | eps =>
    intro _ s1 s2 h
    simp only [Re.run]
    exact List.Forall₂.cons h List.Forall₂.nil
  | seq a b iha ihb =>
    intro hP s1 s2 h
    simp only [Re.run]
    exact forall₂_flatMap (iha hP.1 s1 s2 h) (fun a b hab => ihb hP.2 a b hab)
  | alt a b iha ihb =>
    intro hP s1 s2 h
    simp only [Re.run]
    exact List.rel_append (iha hP.1 s1 s2 h) (ihb hP.2 s1 s2 h)
  | star g a iha =>
    intro hP s1 s2 h
    simp only [Re.run]
    exact starRun_framedAt x t (fun s => a.run s) (fun a b hab => iha hP a b hab) g s2.rest.length
      s1 s2 h (Nat.le_refl _) _ _ (by rw [framedAt_length h]; omega) (Nat.le_refl _)
  | grp n a iha =>
    intro hP s1 s2 h
    simp only [Re.run]
    apply forall₂_map (iha hP s1 s2 h)
    intro a b hab
    refine ⟨?_, hab.2.1, hab.2.2⟩
    simp only
    rw [hab.1]
    congr 2
    have e1 := framedAt_length h
    have e2 := framedAt_length hab
    rw [show s1.rest.length - a.rest.length = s2.rest.length - b.rest.length by omega, h.2.2,
      List.take_append_of_le_length (by omega)]

/-- The preferred match in a text followed by `x` and more text, given that the
matcher runs there as in the text alone. -/
theorem matchAt_framedAt {re : Re} {x : Char} {t : Str} {b : Bool} {a : Str}
    (h : List.Forall₂ (FramedAt x t) (re.run ⟨[], b, a ++ x :: t⟩) (re.run ⟨[], b, a⟩)) :
    matchAt re b (a ++ x :: t) = matchAt re b a := by
  unfold matchAt
  generalize re.run ⟨[], b, a ++ x :: t⟩ = l1 at h
  generalize re.run ⟨[], b, a⟩ = l2 at h
  cases h with
  | nil => rfl
  | @cons p q ps qs hpq _ =>
    have e := framedAt_length hpq
    simp only [List.length_append, List.length_cons]
    by_cases hlt : q.rest.length < a.length
    · have hlt1 : p.rest.length < a.length + (t.length + 1) := by omega
      simp only [hlt, hlt1, if_true, hpq.1]
      congr 2
      rw [show a.length + (t.length + 1) - p.rest.length = a.length - q.rest.length by omega,
        List.take_append_of_le_length (by omega)]
    · have hlt1 : ¬ p.rest.length < a.length + (t.length + 1) := by omega
      simp only [hlt, hlt1, if_false]

/-- A pattern that cannot consume `x` finds in a text followed by `x` the match
it finds in the text alone. -/
theorem matchAt_within {re : Re} {x : Char} (hw : re.Within (fun c => c ≠ x)) (t : Str) (b : Bool)
    (a : Str) : matchAt re b (a ++ x :: t) = matchAt re b a :=
  matchAt_framedAt (re.run_framedAt x t hw _ _ ⟨rfl, rfl, rfl⟩)

/-- A pattern that begins with a literal `<…` and cannot consume `<` afterwards
finds in a non-empty text followed by `<` the match it finds in the text
alone. -/
theorem matchAt_lit_lt (L : Str) (r : Re) (hL : '<' ∉ L) (hr : r.Within (fun c => c ≠ '<'))
    (t : Str) (a : Str) (b : Bool) (ha : a ≠ []) :
    matchAt (Re.seq (Re.lit ('<' :: L)) r) b (a ++ '<' :: t) =
      matchAt (Re.seq (Re.lit ('<' :: L)) r) b a :=
  matchAt_framed (run_lit_framed t L r hL hr _ _ ⟨rfl, rfl, rfl⟩ (Or.inl ha))

/-- A pattern that begins with a non-empty literal does not look at the
beginning-of-text flag. -/
theorem matchAt_lit_flag (c : Char) (w : Str) (r : Re) (b : Bool) (s : Str) :
    matchAt (Re.seq (Re.lit (c :: w)) r) b s = matchAt (Re.seq (Re.lit (c :: w)) r) false s := by
  unfold matchAt
  rw [run_lit_seq, run_lit_seq]
  simp

theorem findAllFrom_flag {re : Re} (hflag : ∀ b s, matchAt re b s = matchAt re false s) (b : Bool)
    (s : Str) : findAllFrom re b 0 s = findAllFrom re false 0 s := by
  cases s with
  | nil => rfl
  | cons c cs => rw [findAllFrom_zero, findAllFrom_zero, hflag b]

theorem replaceAllFrom_flag {re : Re} (repl : Match → Str)
    (hflag : ∀ b s, matchAt re b s = matchAt re false s) (b : Bool) (s : Str) :
    replaceAllFrom re repl b 0 s = replaceAllFrom re repl false 0 s := by
  cases s with
  | nil => rfl
  | cons c cs => rw [replaceAllFrom_zero, replaceAllFrom_zero, hflag b]

/-! ## Scanning a text in two parts -/

/-- The matches in a text of two parts, when no match of the first part reaches
into the second: the matches of the first part and those of the second. -/
theorem findAllFrom_cut {re : Re} {x : Char} {t : Str}
    (hfr : ∀ a b, a ≠ [] → matchAt re b (a ++ x :: t) = matchAt re b a)
    (hflag : ∀ b s, matchAt re b s = matchAt re false s) :
    ∀ (a : Str) (b : Bool) (k : Nat), k ≤ a.length →
      findAllFrom re b k (a ++ x :: t) = findAllFrom re b k a ++ findAllFrom re false 0 (x :: t) := by
  intro a
  induction a with
  | nil =>
    intro b k hk
    have : k = 0 := by simpa using hk
    subst this
    rw [List.nil_append, findAllFrom_flag hflag b]
    cases b <;> rfl
  | cons c cs ih =>
    intro b k hk
    cases k with
    | succ k =>
      rw [List.cons_append, findAllFrom_succ, findAllFrom_succ]
      exact ih false k (by simpa using hk)
    | zero =>
      have hm := hfr (c :: cs) b (by simp)
      rw [List.cons_append] at hm
      rw [List.cons_append, findAllFrom_zero, findAllFrom_zero, hm]
      cases hq : matchAt re b (c :: cs) with
      | none => exact ih false 0 (Nat.zero_le _)
      | some m =>
        have := matchAt_whole_length hq
        simp only
        rw [ih false (m.whole.length - 1) (by simp only [List.length_cons] at this; omega)]
        rfl

/-- The replacement of the matches in a text of two parts, when no match of the
first part reaches into the second. -/
theorem replaceAllFrom_cut {re : Re} {x : Char} {t : Str} (repl : Match → Str)
    (hfr : ∀ a b, a ≠ [] → matchAt re b (a ++ x :: t) = matchAt re b a)
    (hflag : ∀ b s, matchAt re b s = matchAt re false s) :
    ∀ (a : Str) (b : Bool) (k : Nat), k ≤ a.length →
      replaceAllFrom re repl b k (a ++ x :: t) =
        replaceAllFrom re repl b k a ++ replaceAllFrom re repl false 0 (x :: t) := by
  intro a
  induction a with
  | nil =>
    intro b k hk
    have : k = 0 := by simpa using hk
    subst this
    rw [List.nil_append, replaceAllFrom_flag repl hflag b]
    cases b <;> rfl
  | cons c cs ih =>
    intro b k hk
    cases k with
    | succ k =>
      rw [List.cons_append, replaceAllFrom_succ, replaceAllFrom_succ]
      exact ih false k (by simpa using hk)
    | zero =>
      have hm := hfr (c :: cs) b (by simp)
      rw [List.cons_append] at hm
      rw [List.cons_append, replaceAllFrom_zero, replaceAllFrom_zero, hm]
      cases hq : matchAt re b (c :: cs) with
      | none =>
        simp only
        rw [ih false 0 (Nat.zero_le _)]
        rfl
      | some m =>
        have := matchAt_whole_length hq
        simp only
        rw [ih false (m.whole.length - 1) (by simp only [List.length_cons] at this; omega),
          List.append_assoc]

/-- A literal without `x` stands at the head of a text followed by `x` exactly
when it stands at the head of the text alone. -/
theorem isPrefixOf_frameAt (x : Char) (L : Str) (hL : x ∉ L) (t : Str) :
    ∀ a : Str, L.isPrefixOf (a ++ x :: t) = L.isPrefixOf a := by
  induction L with
  | nil => intro a; simp
  | cons l Ls ih =>
    intro a
    cases a with
    | nil =>
      have : (l == x) = false := by
        simp only [beq_eq_false_iff_ne, ne_eq]
        exact fun e => hL (by simp [e])
      simp [List.isPrefixOf, this]
    | cons y ys =>
      simp only [List.cons_append, List.isPrefixOf_cons₂]
      rw [ih (fun hm => hL (by simp [hm])) ys]

/-- `strings.Replace` in a text of two parts, the second beginning with a
character that the search text does not hold behind its head. -/
theorem strReplaceFrom_cut (o : Char) (w new : Str) (x : Char) (t : Str) (hw : x ∉ w) :
    ∀ (a : Str) (k : Nat), k ≤ a.length →
      strReplaceFrom (o :: w) new k (a ++ x :: t) =
        strReplaceFrom (o :: w) new k a ++ strReplaceFrom (o :: w) new 0 (x :: t) := by
  intro a
  induction a with
  | nil =>
    intro k hk
    have : k = 0 := by simpa using hk
    subst this
    rfl
  | cons c cs ih =>
    intro k hk
    cases k with
    | succ k =>
      rw [List.cons_append, strReplaceFrom_succ, strReplaceFrom_succ]
      exact ih k (by simpa using hk)
    | zero =>
      have e : (o :: w).isPrefixOf (c :: (cs ++ x :: t)) = (o :: w).isPrefixOf (c :: cs) := by
        simp only [List.isPrefixOf_cons₂]
        rw [isPrefixOf_frameAt x w hw t cs]
      rw [List.cons_append, strReplaceFrom_zero, strReplaceFrom_zero, e]
      by_cases hp : (o :: w).isPrefixOf (c :: cs) = true
      · have hlen := length_le_of_isPrefixOf hp
        simp only [hp, if_true, List.length_cons, Nat.add_sub_cancel]
        rw [ih w.length (by simp only [List.length_cons] at hlen; omega), List.append_assoc]
      · simp only [hp, if_false]
        rw [ih 0 (Nat.zero_le _)]
        rfl

theorem strReplace_cons (s : Str) (o : Char) (w new : Str) :
    strReplace s (o :: w) new = strReplaceFrom (o :: w) new 0 s := by
  simp [strReplace]

/-- `strings.Replace` in a text of two parts, for a search text `<…` without a
second `<` and a second part that begins with `<`. -/
theorem strReplace_cut (a t w new : Str) (x : Char) (o : Char) (hw : x ∉ w) :
    strReplace (a ++ x :: t) (o :: w) new =
      strReplace a (o :: w) new ++ strReplace (x :: t) (o :: w) new := by
  rw [strReplace_cons, strReplace_cons, strReplace_cons]
  exact strReplaceFrom_cut o w new x t hw a 0 (Nat.zero_le _)

/-! ## The loops of the Condition Pass as lists of replacements -/

theorem applyOps_nil (s : Str) : applyOps [] s = s := rfl

theorem applyOps_cons (op : Str × Str) (ops : List (Str × Str)) (s : Str) :
    applyOps (op :: ops) s = applyOps ops (strReplace s op.1 op.2) := rfl

theorem applyOps_append (o1 o2 : List (Str × Str)) (s : Str) :
    applyOps (o1 ++ o2) s = applyOps o2 (applyOps o1 s) := by
  simp [applyOps, List.foldl_append]

theorem replaceIfFunctions_ops (fuel : Nat) :
    ∀ (ms : List Match) (s : Str),
      replaceIfFunctions fuel ms s =
        (collectOps (ifFunctionOp fuel) ms).map (fun ops => applyOps ops s) := by
  intro ms
  induction ms with
  | nil => intro s; rfl
  | cons m ms ih =>
    intro s
    simp only [replaceIfFunctions, collectOps, ifFunctionOp]
    cases convertMethod fuel (m.group 2) (reSplit functionsArgs (m.group 3)) with
    | ret call =>
      simp only [Outcome.bind, Outcome.map]
      rw [ih]
      cases collectOps (ifFunctionOp fuel) ms <;> rfl
    | panic => rfl
    | fuelOut => rfl

theorem replaceIfs_ops (fuel : Nat) :
    ∀ (ms : List Match) (s : Str),
      replaceIfs fuel ms s = (collectOps (ifOp fuel) ms).map (fun ops => applyOps ops s) := by
  intro ms
  induction ms with
  | nil => intro s; rfl
  | cons m ms ih =>
    intro s
    simp only [replaceIfs, collectOps, ifOp]
    cases convertName fuel (m.group 3) with
    | ret e =>
      simp only [Outcome.bind, Outcome.map]
      rw [ih]
      cases collectOps (ifOp fuel) ms <;> rfl
    | panic => rfl
    | fuelOut => rfl

theorem collectOps_cons_ret {f : Match → Outcome (Str × Str)} {m : Match} {ms : List Match}
    {ops : List (Str × Str)} (h : collectOps f (m :: ms) = .ret ops) :
    ∃ op rest, f m = .ret op ∧ collectOps f ms = .ret rest ∧ ops = op :: rest := by
  simp only [collectOps] at h
  cases hf : f m with
  | ret op =>
    rw [hf] at h
    simp only [Outcome.bind] at h
    cases hr : collectOps f ms with
    | ret rest =>
      rw [hr] at h
      simp only [Outcome.ret.injEq] at h
      exact ⟨op, rest, rfl, rfl, h.symm⟩
    | panic => rw [hr] at h; exact absurd h (by simp)
    | fuelOut => rw [hr] at h; exact absurd h (by simp)
  | panic => rw [hf] at h; exact absurd h (by simp [Outcome.bind])
  | fuelOut => rw [hf] at h; exact absurd h (by simp [Outcome.bind])

theorem collectOps_mem {f : Match → Outcome (Str × Str)} :
    ∀ {ms : List Match} {ops : List (Str × Str)}, collectOps f ms = .ret ops →
      ∀ op ∈ ops, ∃ m ∈ ms, f m = .ret op := by
  intro ms
  induction ms with
  | nil =>
    intro ops h op hop
    simp only [collectOps, Outcome.ret.injEq] at h
    rw [← h] at hop
    exact absurd hop (by simp)
  | cons m ms ih =>
    intro ops h op hop
    obtain ⟨op0, rest, h0, hr, e⟩ := collectOps_cons_ret h
    rw [e] at hop
    rcases List.mem_cons.1 hop with e1 | h1
    · exact ⟨m, by simp, by rw [e1]; exact h0⟩
    · obtain ⟨m1, hm1, h2⟩ := ih hr op h1
      exact ⟨m1, by simp [hm1], h2⟩

theorem collectOps_append {f : Match → Outcome (Str × Str)} :
    ∀ {l1 l2 : List Match} {ops : List (Str × Str)}, collectOps f (l1 ++ l2) = .ret ops →
      ∃ o1 o2, collectOps f l1 = .ret o1 ∧ collectOps f l2 = .ret o2 ∧ ops = o1 ++ o2 := by
  intro l1
  induction l1 with
  | nil =>
    intro l2 ops h
    exact ⟨[], ops, rfl, h, rfl⟩
  | cons m ms ih =>
    intro l2 ops h
    rw [List.cons_append] at h
    obtain ⟨op0, rest, h0, hr, e⟩ := collectOps_cons_ret h
    obtain ⟨o1, o2, h1, h2, e2⟩ := ih hr
    refine ⟨op0 :: o1, o2, ?_, h2, ?_⟩
    · simp only [collectOps, h0, h1, Outcome.bind]
    · rw [e, e2]
      rfl

/-! ## `strings.Replace` around a marker -/

theorem noNewlineHead_strReplace (w v : Str) (s : Str) (h : noNewlineHead s) :
    noNewlineHead (strReplace s ('<' :: w) ('\x7b' :: v)) := by
  rw [strReplace_cons]
  cases s with
  | nil => rw [strReplaceFrom_nil]; exact noNewlineHead_nil
  | cons c cs =>
    rw [strReplaceFrom_zero]
    split
    · exact noNewlineHead_cons _ _ (by decide)
    · exact noNewlineHead_cons _ _ (h c cs rfl)

/-- A replacement leaves a text that begins with `{` and holds no `<` as it
is, and works on the texts before and behind it separately. -/
theorem strReplace_dead (A d P w new : Str) (hw : '\x7b' ∉ w) (hd : '<' ∉ d) :
    strReplace (A ++ ('\x7b' :: d) ++ P) ('<' :: w) new =
      strReplace A ('<' :: w) new ++ ('\x7b' :: d) ++ strReplace P ('<' :: w) new := by
  rw [List.append_assoc, List.cons_append, strReplace_cut A (d ++ P) w new '\x7b' '<' hw,
    List.append_assoc]
  congr 1
  rw [strReplace_cons, strReplace_cons]
  have := strReplaceFrom_skip ('<' :: w) new '<' w rfl ('\x7b' :: d) P (by
    intro c hc
    rcases List.mem_cons.1 hc with e | h
    · rw [e]; decide
    · exact fun e => hd (e ▸ h))
  simpa using this

/-- A replacement whose search text does not stand at a marker leaves the
marker as it is, and works on the texts before and behind it separately. -/
theorem strReplace_live (A z P w new : Str) (hw : '<' ∉ w) (hz : '<' ∉ z)
    (hno : ('<' :: w).isPrefixOf (('<' :: z) ++ P) = false) :
    strReplace (A ++ ('<' :: z) ++ P) ('<' :: w) new =
      strReplace A ('<' :: w) new ++ ('<' :: z) ++ strReplace P ('<' :: w) new := by
  rw [List.append_assoc, List.cons_append, strReplace_cut A (z ++ P) w new '<' '<' hw,
    List.append_assoc]
  congr 1
  rw [strReplace_cons, strReplace_cons, strReplaceFrom_zero]
  rw [List.cons_append] at hno
  rw [hno]
  simp only [Bool.false_eq_true, if_false, List.cons_append, List.cons.injEq, true_and]
  exact strReplaceFrom_skip ('<' :: w) new '<' w rfl z P (fun c hc e => hz (e ▸ hc))

/-- The replacement of a marker that stands in the text: the marker is
replaced, and the texts before and behind it are worked on separately. -/
theorem strReplace_hit (A P w new : Str) (hw : '<' ∉ w) :
    strReplace (A ++ ('<' :: w) ++ P) ('<' :: w) new =
      strReplace A ('<' :: w) new ++ new ++ strReplace P ('<' :: w) new := by
  rw [List.append_assoc, List.cons_append, strReplace_cut A (w ++ P) w new '<' '<' hw,
    List.append_assoc]
  congr 1
  rw [strReplace_cons, strReplace_cons]
  exact strReplaceFrom_match ('<' :: w) new P (by simp)

theorem applyOps_noNewlineHead :
    ∀ (ops : List (Str × Str)), (∀ op ∈ ops, OpOk op) → ∀ P, noNewlineHead P →
      noNewlineHead (applyOps ops P) := by
  intro ops
  induction ops with
  | nil => intro _ P h; exact h
  | cons op ops ih =>
    intro hok P h
    rw [applyOps_cons]
    obtain ⟨w, v, e1, _, _, e2, _⟩ := hok op (by simp)
    apply ih (fun o ho => hok o (by simp [ho]))
    rw [e1, e2]
    exact noNewlineHead_strReplace w v P h

theorem applyOps_dead (d : Str) (hd : '<' ∉ d) :
    ∀ (ops : List (Str × Str)), (∀ op ∈ ops, OpOk op) → ∀ A P,
      applyOps ops (A ++ ('\x7b' :: d) ++ P) =
        applyOps ops A ++ ('\x7b' :: d) ++ applyOps ops P := by
  intro ops
  induction ops with
  | nil => intro _ A P; rfl
  | cons op ops ih =>
    intro hok A P
    obtain ⟨w, v, e1, _, h2, _, _⟩ := hok op (by simp)
    rw [applyOps_cons, applyOps_cons, applyOps_cons, e1, strReplace_dead A d P w op.2 h2 hd]
    exact ih (fun o ho => hok o (by simp [ho])) _ _

theorem applyOps_live (z : Str) (hz : '<' ∉ z) :
    ∀ (ops : List (Str × Str)), (∀ op ∈ ops, OpOk op ∧ NoHit ('<' :: z) op.1) → ∀ A P,
      noNewlineHead P →
      applyOps ops (A ++ ('<' :: z) ++ P) = applyOps ops A ++ ('<' :: z) ++ applyOps ops P := by
  intro ops
  induction ops with
  | nil => intro _ A P _; rfl
  | cons op ops ih =>
    intro hok A P hP
    obtain ⟨⟨w, v, e1, h1, _, e2, _⟩, hno⟩ := hok op (by simp)
    have hno2 := hno P hP
    rw [e1] at hno2
    rw [applyOps_cons, applyOps_cons, applyOps_cons, e1, strReplace_live A z P w op.2 h1 hz hno2]
    apply ih (fun o ho => hok o (by simp [ho]))
    rw [e2]
    exact noNewlineHead_strReplace w v P hP

/-- The loop over a list of replacements in which the marker `<…` is replaced by
`R`, and no replacement before that one finds its search text at the marker:
the marker becomes `R`, and the texts before and behind it are worked on
separately. -/
theorem applyOps_hit (z v : Str) (hz : '<' ∉ z) (hzb : '\x7b' ∉ z) (hv : '<' ∉ v)
    (ops2 : List (Str × Str)) (hok2 : ∀ op ∈ ops2, OpOk op) :
    ∀ (ops1 : List (Str × Str)),
      (∀ op ∈ ops1, OpOk op ∧ (NoHit ('<' :: z) op.1 ∨ op = ('<' :: z, '\x7b' :: v))) → ∀ A P,
      noNewlineHead P →
      applyOps (ops1 ++ ('<' :: z, '\x7b' :: v) :: ops2) (A ++ ('<' :: z) ++ P) =
        applyOps (ops1 ++ ('<' :: z, '\x7b' :: v) :: ops2) A ++ ('\x7b' :: v) ++
          applyOps (ops1 ++ ('<' :: z, '\x7b' :: v) :: ops2) P := by
  have hself : OpOk ('<' :: z, '\x7b' :: v) := ⟨z, v, rfl, hz, hzb, rfl, hv⟩
  have hstep : ∀ (rest : List (Str × Str)), (∀ op ∈ rest, OpOk op) → ∀ A P,
      applyOps (('<' :: z, '\x7b' :: v) :: rest) (A ++ ('<' :: z) ++ P) =
        applyOps (('<' :: z, '\x7b' :: v) :: rest) A ++ ('\x7b' :: v) ++
          applyOps (('<' :: z, '\x7b' :: v) :: rest) P := by
    intro rest hrest A P
    rw [applyOps_cons, applyOps_cons, applyOps_cons]
    simp only
    rw [strReplace_hit A P z ('\x7b' :: v) hz]
    exact applyOps_dead v hv rest hrest _ _
  intro ops1
  induction ops1 with
  | nil =>
    intro _ A P _
    exact hstep ops2 hok2 A P
  | cons op ops1 ih =>
    intro hok A P hP
    obtain ⟨hop, hcase⟩ := hok op (by simp)
    rcases hcase with hno | e
    · obtain ⟨w, v1, e1, h1, _, e2, _⟩ := hop
      have hno2 := hno P hP
      rw [e1] at hno2
      rw [List.cons_append, applyOps_cons, applyOps_cons, applyOps_cons, e1,
        strReplace_live A z P w op.2 h1 hz hno2]
      apply ih (fun o ho => hok o (by simp [ho]))
      rw [e2]
      exact noNewlineHead_strReplace w v1 P hP
    · rw [e, List.cons_append]
      apply hstep
      intro o ho
      rcases List.mem_append.1 ho with h | h
      · exact (hok o (by simp [h])).1
      · rcases List.mem_cons.1 h with h | h
        · rw [h]; exact hself
        · exact hok2 o h

/-! ## A match read off a longer or a shorter text -/

theorem reach_length_le {f : MState → List MState} {st st2 : MState} (h : Reach f st st2) :
    st2.rest.length ≤ st.rest.length := by
  induction h with
  | refl st => exact Nat.le_refl _
  | step _ hlt _ ih => omega

theorem reach_cut {f : MState → List MState}
    (hf : ∀ st st2, st2 ∈ f st → ∀ x y, st.rest = x ++ y → y.length ≤ st2.rest.length →
      ∀ caps b, ∃ s3 ∈ f ⟨caps, b, x⟩, s3.rest ++ y = st2.rest)
    {st st2 : MState} (h : Reach f st st2) :
    ∀ x y, st.rest = x ++ y → y.length ≤ st2.rest.length →
      ∀ caps b, ∃ s3, Reach f ⟨caps, b, x⟩ s3 ∧ s3.rest ++ y = st2.rest := by
  induction h with
  | refl st =>
    intro x y e _ caps b
    exact ⟨_, Reach.refl _, e.symm⟩
  | @step st s1 st2 h1 hlt hr ih =>
    intro x y e hy caps b
    have hl := reach_length_le hr
    obtain ⟨s3, m3, e3⟩ := hf _ _ h1 x y e (by omega) caps b
    obtain ⟨s4, r4, e4⟩ := ih s3.rest y e3.symm hy s3.caps s3.atStart
    refine ⟨s4, Reach.step m3 ?_ r4, e4⟩
    have l1 := congrArg List.length e3
    have l2 := congrArg List.length e
    simp only [List.length_append] at l1 l2
    simp only
    omega

/-- A match that ends before the last `y` characters of the text is a match in
the text without them (for a pattern without `\A`). -/
theorem Re.run_cut (r : Re) :
    r.noBot = true → ∀ st st2, st2 ∈ r.run st → ∀ x y, st.rest = x ++ y →
      y.length ≤ st2.rest.length → ∀ caps b, ∃ s3 ∈ r.run ⟨caps, b, x⟩, s3.rest ++ y = st2.rest := by
  induction r with
  | chr c =>
    intro _ st st2 h x y e hy caps b
    obtain ⟨h1, _, _⟩ := mem_run_chr h
    cases x with
    | nil =>
      rw [List.nil_append] at e
      rw [e] at h1
      have := congrArg List.length h1
      simp only [List.length_cons] at this
      omega
    | cons x0 xs =>
      rw [h1, List.cons_append] at e
      simp only [List.cons.injEq] at e
      refine ⟨⟨caps, false, xs⟩, ?_, e.2.symm⟩
      rw [← e.1]
      simp [run_chr_cons]
  | cls p =>
    intro _ st st2 h x y e hy caps b
    obtain ⟨x1, h1, h2, _, _⟩ := mem_run_cls h
    cases x with
    | nil =>
      rw [List.nil_append] at e
      rw [e] at h1
      have := congrArg List.length h1
      simp only [List.length_cons] at this
      omega
    | cons x0 xs =>
      rw [h1, List.cons_append] at e
      simp only [List.cons.injEq] at e
      refine ⟨⟨caps, false, xs⟩, ?_, e.2.symm⟩
      rw [← e.1]
      simp [run_cls_cons, h2]
  | bot => intro hb; simp [Re.noBot] at hb
  | eps =>
    intro _ st st2 h x y e _ caps b
    simp [Re.run] at h
    subst h
    exact ⟨⟨caps, b, x⟩, by simp [Re.run], e.symm⟩
  | seq a b iha ihb =>
    intro hb st st2 h x y e hy caps b0
    simp only [Re.noBot, Bool.and_eq_true] at hb
    obtain ⟨s1, h1, h2⟩ := mem_run_seq.1 h
    have hl := b.run_length_le h2
    obtain ⟨s3, m3, e3⟩ := iha hb.1 _ _ h1 x y e (by omega) caps b0
    obtain ⟨s4, m4, e4⟩ := ihb hb.2 _ _ h2 s3.rest y e3.symm hy s3.caps s3.atStart
    exact ⟨s4, mem_run_seq.2 ⟨s3, m3, m4⟩, e4⟩
  | alt a b iha ihb =>
    intro hb st st2 h x y e hy caps b0
    simp only [Re.noBot, Bool.and_eq_true] at hb
    rcases mem_run_alt.1 h with h | h
    · obtain ⟨s3, m3, e3⟩ := iha hb.1 _ _ h x y e hy caps b0
      exact ⟨s3, mem_run_alt.2 (Or.inl m3), e3⟩
    · obtain ⟨s3, m3, e3⟩ := ihb hb.2 _ _ h x y e hy caps b0
      exact ⟨s3, mem_run_alt.2 (Or.inr m3), e3⟩
  | star g a iha =>
    intro hb st st2 h x y e hy caps b0
    simp only [Re.noBot] at hb
    obtain ⟨s3, r3, e3⟩ := reach_cut (fun s s2 hs => iha hb s s2 hs) (mem_run_star.1 h) x y e hy
      caps b0
    exact ⟨s3, mem_run_star.2 r3, e3⟩
  | grp n a iha =>
    intro hb st st2 h x y e hy caps b0
    simp only [Re.noBot] at hb
    obtain ⟨s1, h1, h2⟩ := mem_run_grp h
    have hy1 : y.length ≤ s1.rest.length := by rw [h2] at hy; exact hy
    obtain ⟨s3, m3, e3⟩ := iha hb _ _ h1 x y e hy1 caps b0
    refine ⟨⟨(n, x.take (x.length - s3.rest.length)) :: s3.caps, s3.atStart, s3.rest⟩, ?_, ?_⟩
    · simp only [Re.run, List.mem_map]
      exact ⟨s3, m3, rfl⟩
    · simp [e3, h2]

/-- The text a pattern consumed is matched by the pattern from its first to its
last character. -/
theorem fullMatch_of_run {r : Re} (hb : r.noBot = true) {st st2 : MState} (h : st2 ∈ r.run st)
    {w : Str} (e : st.rest = w ++ st2.rest) : fullMatch r w = true := by
  obtain ⟨s3, m3, e3⟩ := r.run_cut hb _ _ h w st2.rest e (Nat.le_refl _) [] false
  apply fullMatch_iff.2
  refine ⟨s3, m3, ?_⟩
  have := congrArg List.length e3
  simp only [List.length_append] at this
  exact List.length_eq_zero.1 (by omega)

theorem matchAt_some_caps {re : Re} {b : Bool} {s : Str} {m : Match}
    (h : matchAt re b s = some m) :
    ∃ st ∈ re.run ⟨[], b, s⟩, s = m.whole ++ st.rest ∧ m.whole ≠ [] ∧ m.caps = st.caps := by
  unfold matchAt at h
  split at h
  · exact absurd h (by simp)
  · rename_i st tl hrun
    split at h
    · rename_i hlt
      simp only [Option.some.injEq] at h
      have hst : st ∈ re.run ⟨[], b, s⟩ := by rw [hrun]; simp
      obtain ⟨w, e⟩ := re.run_suffix hst
      have e2 : s = w ++ st.rest := e
      have hw : m.whole = w := by
        rw [← h]
        simp only
        have : s.length - st.rest.length = w.length := by
          rw [e2]
          simp
        rw [this, e2]
        simp
      refine ⟨st, hst, by rw [hw]; exact e2, ?_, by rw [← h]⟩
      rw [hw]
      intro hw0
      rw [hw0] at e2
      rw [e2] at hlt
      simp at hlt
    · exact absurd h (by simp)

/-- A match whose text stands at the head of `Z` is a way of matching at the
head of `Z`. -/
theorem run_at_head (re : Re) (hb : re.noBot = true) {b : Bool} {q Z : Str} {m : Match}
    (hm : matchAt re b q = some m) (hpre : m.whole.isPrefixOf Z = true) :
    ∃ s4 ∈ re.run ⟨[], b, Z⟩, Z = m.whole ++ s4.rest := by
  obtain ⟨st, hst, e, _, _⟩ := matchAt_some_caps hm
  obtain ⟨z, ez⟩ := List.isPrefixOf_iff_prefix.1 hpre
  obtain ⟨s3, m3, e3⟩ := re.run_cut hb _ _ hst m.whole st.rest e (Nat.le_refl _) [] b
  have h0 : s3.rest = [] := by
    have := congrArg List.length e3
    simp only [List.length_append] at this
    exact List.length_eq_zero.1 (by omega)
  obtain ⟨s4, m4, e4⟩ := re.run_frame hb _ _ m3 [] b z
  simp only [h0, List.nil_append] at e4
  rw [ez] at m4
  exact ⟨s4, m4, by rw [e4, ez]⟩

/-! ## Runs of line breaks -/

theorem newline_run_split (r : Str) :
    ∃ u t, r = u ++ t ∧ (∀ c ∈ u, (c == '\r' || c == '\n') = true) ∧ noNewlineHead t := by
  induction r with
  | nil => exact ⟨[], [], rfl, by simp, noNewlineHead_nil⟩
  | cons c cs ih =>
    by_cases hc : (c == '\r' || c == '\n') = true
    · obtain ⟨u, t, e, hu, ht⟩ := ih
      refine ⟨c :: u, t, by rw [e]; rfl, ?_, ht⟩
      intro x hx
      rcases List.mem_cons.1 hx with h | h
      · rw [h]; exact hc
      · exact hu x h
    · exact ⟨[], c :: cs, rfl, by simp, noNewlineHead_cons c cs (by simpa using hc)⟩

/-- A run of line breaks at the head of a run of line breaks followed by a text
that begins with no line break is a beginning of that run. -/
theorem newline_prefix_split :
    ∀ (u nl P z : Str), (∀ c ∈ u, (c == '\r' || c == '\n') = true) → noNewlineHead P →
      nl ++ P = u ++ z → ∃ n2, nl = u ++ n2 ∧ z = n2 ++ P := by
  intro u
  induction u with
  | nil =>
    intro nl P z _ _ e
    exact ⟨nl, rfl, by simpa using e.symm⟩
  | cons c u ih =>
    intro nl P z hu hP e
    cases nl with
    | nil =>
      rw [List.nil_append, List.cons_append] at e
      have := hP c _ e
      rw [hu c (by simp)] at this
      exact absurd this (by simp)
    | cons d nl =>
      simp only [List.cons_append, List.cons.injEq] at e
      obtain ⟨n2, e1, e2⟩ := ih nl P z (fun x hx => hu x (by simp [hx])) hP e.2
      exact ⟨n2, by rw [e.1, e1]; rfl, e2⟩

theorem newlines_within_nl :
    newlinesRegex.Within (fun c => (c == '\r' || c == '\n') = true) := fun _ hx => hx

/-! ## A match of a marker pattern whose text stands at a marker -/

/-- A pattern that ends with `[\r\n]*`, at a marker `M` at which the part of the
pattern before `[\r\n]*` matches in one way only: a match whose text stands at
the head of the marker followed by the line breaks `nl` is a match of the
marker followed by a beginning of `nl`, found where no further line break
follows. -/
theorem hit_core (C : Re) (hC : C.noBot = true) (M : Str) (caps0 : List (Nat × Str)) (hM : M ≠ [])
    (hrun : ∀ (post : Str) (b : Bool), (∃ st, st ∈ C.run ⟨[], b, M ++ post⟩) ∧
      ∀ st ∈ C.run ⟨[], b, M ++ post⟩, st.rest = post ∧ st.caps = caps0 ∧ st.atStart = false)
    (nl P : Str) (hP : noNewlineHead P) {b : Bool} {q : Str} {m : Match}
    (hm : matchAt (Re.seq C (Re.seq newlinesRegex Re.eps)) b q = some m)
    (hpre : m.whole.isPrefixOf ((M ++ nl) ++ P) = true) :
    ∃ n1 n2 r, nl = n1 ++ n2 ∧ q = (M ++ n1) ++ r ∧ noNewlineHead r ∧ m = ⟨M ++ n1, caps0⟩ := by
  have hnb : (Re.seq C (Re.seq newlinesRegex Re.eps)).noBot = true := by
    simp [Re.noBot, hC, newlinesRegex]
  obtain ⟨s4, h4, e4⟩ := run_at_head _ hnb hm hpre
  rw [List.append_assoc] at h4 e4
  obtain ⟨s1, h1, g1⟩ := mem_run_seq.1 h4
  obtain ⟨s5, h5, g5⟩ := mem_run_seq.1 g1
  simp only [run_eps, List.mem_singleton] at g5
  subst g5
  obtain ⟨u, eu, hu⟩ := newlinesRegex.run_within newlines_within_nl _ _ h5
  rw [((hrun (nl ++ P) b).2 s1 h1).1] at eu
  obtain ⟨n2, en, ez⟩ := newline_prefix_split u nl P s4.rest hu hP eu
  have hw : m.whole = M ++ u := by
    have : (M ++ u) ++ s4.rest = m.whole ++ s4.rest := by
      rw [← e4, List.append_assoc, eu]
    exact (List.append_cancel_right this).symm
  obtain ⟨st, _, e, _, _⟩ := matchAt_some_caps hm
  obtain ⟨u2, r2, er, hu2, hr2⟩ := newline_run_split st.rest
  have hq : q = (M ++ (u ++ u2)) ++ r2 := by
    rw [e, hw, er]
    simp only [List.append_assoc]
  have hm2 := matchAt_then_newlines C M (u ++ u2) r2 caps0 b hM (by
      intro c hc
      rcases List.mem_append.1 hc with h | h
      · exact hu c h
      · exact hu2 c h) hr2 (hrun ((u ++ u2) ++ r2) b).1 (hrun ((u ++ u2) ++ r2) b).2
  rw [← hq, hm] at hm2
  simp only [Option.some.injEq] at hm2
  have hu0 : u2 = [] := by
    have h1 : m.whole = M ++ (u ++ u2) := by rw [hm2]
    rw [hw] at h1
    have h2 := List.append_cancel_left h1
    have := congrArg List.length h2
    simp only [List.length_append] at this
    exact List.length_eq_zero.1 (by omega)
  rw [hu0, List.append_nil] at hq hm2
  rw [hu0, List.nil_append] at er
  exact ⟨u, n2, r2, en, hq, hr2, hm2⟩

/-! ## What the marker patterns consume -/

theorem keyChar_ne (ext : Char → Bool) {c : Char} (h : keyChar ext c = true) :
    c ≠ '<' ∧ c ≠ '\x7b' := by
  constructor
  · intro e
    rw [e, keyChar_of_isDelim ext (by decide)] at h
    exact absurd h (by simp)
  · intro e
    rw [e, keyChar_of_isDelim ext (by decide)] at h
    exact absurd h (by simp)

theorem argChar_ne (ext : Char → Bool) {c : Char} (h : argChar ext c = true) :
    c ≠ '<' ∧ c ≠ '\x7b' := by
  constructor
  · intro e
    rw [e, argChar_of_isDelim ext (by decide) (by decide) (by decide)] at h
    exact absurd h (by simp)
  · intro e
    rw [e, argChar_of_isDelim ext (by decide) (by decide) (by decide)] at h
    exact absurd h (by simp)

theorem key_within_mark (ext : Char → Bool) :
    (keyRegex ext).Within (fun c => c ≠ '<' ∧ c ≠ '\x7b') :=
  within_mono (P := fun c => keyChar ext c = true) (fun _ hc => keyChar_ne ext hc) _
    (keyRegex_within ext)

theorem newlines_within_mark : newlinesRegex.Within (fun c => c ≠ '<' ∧ c ≠ '\x7b') := by
  intro x hx
  constructor
  · intro e
    rw [e] at hx
    exact absurd hx (by decide)
  · intro e
    rw [e] at hx
    exact absurd hx (by decide)

theorem not_within_mark (n : Nat) : (notRegex n).Within (fun c => c ≠ '<' ∧ c ≠ '\x7b') :=
  ⟨show ('!' : Char) ≠ '<' ∧ ('!' : Char) ≠ '\x7b' by decide, trivial⟩

theorem ifTail_within (ext : Char → Bool) :
    (Re.cat [notRegex 1, parentRegex 2, .grp 3 (keyRegex ext), Re.lit " -->".toList,
      newlinesRegex]).Within (fun c => c ≠ '<' ∧ c ≠ '\x7b') :=
  ⟨not_within_mark 1, ⟨within_lit _ (by decide), trivial⟩, key_within_mark ext,
    within_lit _ (by decide), newlines_within_mark, trivial⟩

theorem endifTail_within (ext : Char → Bool) :
    (Re.cat [notRegex 1, parentRegex 2, .grp 3 (keyRegex ext), Re.lit " -->".toList]).Within
      (fun c => c ≠ '<' ∧ c ≠ '\x7b') :=
  ⟨not_within_mark 1, ⟨within_lit _ (by decide), trivial⟩, key_within_mark ext,
    within_lit _ (by decide), trivial⟩

theorem ifFunctionTail_within (ext : Char → Bool) :
    (Re.cat [notRegex 1, Re.lit "function.".toList, .grp 2 (identifierRegex ext), argsRegex ext 3,
      Re.lit " -->".toList, newlinesRegex]).Within (fun c => c ≠ '<' ∧ c ≠ '\x7b') := by
  have hid : ∀ x, identRest ext x = true → x ≠ '<' ∧ x ≠ '\x7b' :=
    fun x hx => keyChar_ne ext (keyChar_of_identRest ext hx)
  exact ⟨not_within_mark 1, within_lit _ (by decide),
    ⟨fun x hx => hid x (identStart_imp_identRest ext hx), fun x hx => hid x hx⟩,
    within_mono (P := fun c => argChar ext c = true) (fun _ hc => argChar_ne ext hc) _
      (argsStar_within ext),
    within_lit _ (by decide), newlines_within_mark, trivial⟩

/-- A match of a pattern that begins with a literal: the literal, and behind it
what the rest of the pattern consumed. -/
theorem match_lit {L : Str} {r : Re} {Q : Char → Prop} (hr : r.Within Q) {b : Bool} {s : Str}
    {m : Match} (hm : matchAt (Re.seq (Re.lit L) r) b s = some m) :
    ∃ s1 w2 st b1, s = L ++ s1 ∧ st ∈ r.run ⟨[], b1, s1⟩ ∧ s1 = w2 ++ st.rest ∧
      m.whole = L ++ w2 ∧ (∀ c ∈ w2, Q c) ∧ m.caps = st.caps := by
  obtain ⟨st, hst, e, _, hcaps⟩ := matchAt_some_caps hm
  obtain ⟨s0, h0, g0⟩ := mem_run_seq.1 hst
  obtain ⟨e0, c0⟩ := mem_run_lit h0
  obtain ⟨w2, e2, hw2⟩ := r.run_within hr _ _ g0
  simp only at e0 c0
  refine ⟨s0.rest, w2, st, s0.atStart, e0, ?_, e2, ?_, hw2, hcaps⟩
  · have : s0 = ⟨[], s0.atStart, s0.rest⟩ := by rw [← c0]
    rw [← this]
    exact g0
  · have : m.whole ++ st.rest = (L ++ w2) ++ st.rest := by
      rw [← e, e0, e2, List.append_assoc]
    exact List.append_cancel_right this

/-- A match of a pattern `<…` that cannot consume `<` or `{` behind its literal
is a search text of the form the loops of the Condition Pass need. -/
theorem match_lit_form {L : Str} {r : Re} (hL : '<' ∉ L ∧ '\x7b' ∉ L)
    (hr : r.Within (fun c => c ≠ '<' ∧ c ≠ '\x7b')) {b : Bool} {s : Str} {m : Match}
    (hm : matchAt (Re.seq (Re.lit ('<' :: L)) r) b s = some m) :
    ∃ w, m.whole = '<' :: w ∧ '<' ∉ w ∧ '\x7b' ∉ w ∧ ('<' :: L).isPrefixOf m.whole = true := by
  obtain ⟨s1, w2, st, b1, _, _, _, hw, hq, _⟩ := match_lit hr hm
  refine ⟨L ++ w2, by rw [hw]; rfl, ?_, ?_, ?_⟩
  · intro h
    rcases List.mem_append.1 h with h | h
    · exact hL.1 h
    · exact (hq _ h).1 rfl
  · intro h
    rcases List.mem_append.1 h with h | h
    · exact hL.2 h
    · exact (hq _ h).2 rfl
  · rw [hw, List.isPrefixOf_iff_prefix]
    exact List.prefix_append _ _

theorem group_cons_self (w : Str) (n : Nat) (v : Str) (caps : List (Nat × Str)) :
    (⟨w, (n + 1, v) :: caps⟩ : Match).group (n + 1) = v := by
  simp [Match.group, List.lookup]

/-- A match of `ifRegex`: its text begins with `<!-- IF `, holds no second `<`
and no `{`, and its third group is a path of the key grammar. -/
theorem if_match (ext : Char → Bool) {b : Bool} {s : Str} {m : Match}
    (hm : matchAt (ifRegex ext) b s = some m) :
    (∃ w, m.whole = '<' :: w ∧ '<' ∉ w ∧ '\x7b' ∉ w ∧
      "<!-- IF ".toList.isPrefixOf m.whole = true) ∧ isKey ext (m.group 3) = true := by
  have hm1 : matchAt (Re.seq (Re.lit ('<' :: "!-- IF ".toList)) (Re.cat [notRegex 1, parentRegex 2,
      .grp 3 (keyRegex ext), Re.lit " -->".toList, newlinesRegex])) b s = some m := hm
  refine ⟨match_lit_form (by decide) (ifTail_within ext) hm1, ?_⟩
  obtain ⟨s1, w2, st, b1, _, hst, _, _, _, hcaps⟩ := match_lit (ifTail_within ext) hm1
  simp only [Re.cat] at hst
  obtain ⟨s2, _, g2⟩ := mem_run_seq.1 hst
  obtain ⟨s3, _, g3⟩ := mem_run_seq.1 g2
  obtain ⟨s4, h4, g4⟩ := mem_run_seq.1 g3
  obtain ⟨s5, h5, g5⟩ := mem_run_seq.1 g4
  obtain ⟨sk, hk, w, ew, e4⟩ := mem_run_grp_text h4
  have hkey : isKey ext w = true := fullMatch_of_run (noBot_keyRegex ext) hk ew
  obtain ⟨_, c5⟩ := mem_run_lit h5
  have c6 : st.caps = s5.caps :=
    Re.run_caps (Re.seq newlinesRegex Re.eps) rfl _ _ g5
  have hc : m.caps = (3, w) :: sk.caps := by
    rw [hcaps, c6, c5, e4]
  have hg : m.group 3 = w := by
    obtain ⟨mw, mc⟩ := m
    simp only at hc
    rw [hc]
    exact group_cons_self mw 2 w sk.caps
  rw [hg]
  exact hkey

theorem ret_of_map {α β : Type} {f : α → β} {x : Outcome α} {y : β} (h : x.map f = .ret y) :
    ∃ a, x = .ret a ∧ y = f a := by
  cases x with
  | ret a =>
    simp only [Outcome.map, Outcome.ret.injEq] at h
    exact ⟨a, rfl, h.symm⟩
  | panic => exact absurd h (by simp [Outcome.map])
  | fuelOut => exact absurd h (by simp [Outcome.map])

/-- The replacement made for a match of `ifRegex` has the form the loops of the
Condition Pass need. -/
theorem ifOp_ok (ext : Char → Bool) (fuel : Nat) {b : Bool} {s : Str} {m : Match}
    (hm : matchAt (ifRegex ext) b s = some m) {op : Str × Str} (hop : ifOp fuel m = .ret op) :
    OpOk op := by
  obtain ⟨⟨w, hw, h1, h2, _⟩, hkey⟩ := if_match ext hm
  obtain ⟨E, hE, e⟩ := ret_of_map hop
  have hEc : ∀ c ∈ E, c ≠ '<' :=
    convertName_chars (fun c => c ≠ '<') (by decide) fuel _ E
      (fun c hc => (keyChar_ne ext (isKey_chars ext hkey c hc)).1) hE
  refine ⟨w, "\x7bif ".toList ++ (if m.group 1 ≠ [] then "not ".toList else []) ++ E
    ++ "\x7d\x7d".toList, by rw [e]; exact hw, h1, h2, by rw [e]; rfl, ?_⟩
  intro h
  simp only [List.mem_append] at h
  rcases h with ((h | h) | h) | h
  · exact absurd h (by decide)
  · split at h
    · exact absurd h (by decide)
    · exact absurd h (by simp)
  · exact hEc _ h rfl
  · exact absurd h (by decide)

/-! ## The pieces of a split -/

theorem splitFrom_mem (re : Re) :
    ∀ (s : Str) (b : Bool) (k : Nat), ∀ p ∈ splitFrom re b k s, ∀ c ∈ p, c ∈ s := by
  intro s
  induction s with
  | nil =>
    intro b k p hp c hc
    have : p = [] := by
      cases k <;> simpa [splitFrom] using hp
    rw [this] at hc
    exact absurd hc (by simp)
  | cons x xs ih =>
    intro b k p hp c hc
    cases k with
    | succ k =>
      rw [splitFrom_succ] at hp
      exact List.mem_cons_of_mem _ (ih false k p hp c hc)
    | zero =>
      rw [splitFrom_zero] at hp
      cases hq : matchAt re b (x :: xs) with
      | some m =>
        rw [hq] at hp
        simp only [List.mem_cons] at hp
        rcases hp with e | hp
        · rw [e] at hc
          exact absurd hc (by simp)
        · exact List.mem_cons_of_mem _ (ih false _ p hp c hc)
      | none =>
        rw [hq] at hp
        simp only at hp
        cases hs : splitFrom re false 0 xs with
        | nil =>
          rw [hs] at hp
          simp only [List.mem_singleton] at hp
          rw [hp] at hc
          simp only [List.mem_singleton] at hc
          rw [hc]
          simp
        | cons q qs =>
          rw [hs] at hp
          simp only [List.mem_cons] at hp
          rcases hp with e | hp
          · rw [e] at hc
            rcases List.mem_cons.1 hc with h | h
            · rw [h]; simp
            · exact List.mem_cons_of_mem _ (ih false 0 q (by rw [hs]; simp) c h)
          · exact List.mem_cons_of_mem _ (ih false 0 p (by rw [hs]; simp [hp]) c hc)

theorem convertArgs_chars (P : Char → Prop) (hlit : ∀ c ∈ nameLiterals, P c) (fuel : Nat) :
    ∀ (args Es : List Str), (∀ a ∈ args, ∀ c ∈ a, P c) → convertArgs fuel args = .ret Es →
      ∀ E ∈ Es, ∀ c ∈ E, P c := by
  intro args
  induction args with
  | nil =>
    intro Es _ h E hE
    simp only [convertArgs, Outcome.ret.injEq] at h
    rw [← h] at hE
    exact absurd hE (by simp)
  | cons a as ih =>
    intro Es ha h E hE
    simp only [convertArgs] at h
    cases h1 : convertName fuel a with
    | ret e1 =>
      rw [h1] at h
      simp only [Outcome.bind] at h
      cases h2 : convertArgs fuel as with
      | ret es =>
        rw [h2] at h
        simp only [Outcome.ret.injEq] at h
        rw [← h] at hE
        rcases List.mem_cons.1 hE with e | hE
        · rw [e]
          exact convertName_chars P hlit fuel a e1 (ha a (by simp)) h1
        · exact ih es (fun x hx => ha x (by simp [hx])) h2 E hE
      | panic => rw [h2] at h; exact absurd h (by simp)
      | fuelOut => rw [h2] at h; exact absurd h (by simp)
    | panic => rw [h1] at h; exact absurd h (by simp [Outcome.bind])
    | fuelOut => rw [h1] at h; exact absurd h (by simp [Outcome.bind])

theorem strJoin_chars (P : Char → Prop) (sep : Str) (hsep : ∀ c ∈ sep, P c) :
    ∀ (Es : List Str), (∀ E ∈ Es, ∀ c ∈ E, P c) → ∀ c ∈ strJoin Es sep, P c := by
  intro Es
  induction Es with
  | nil => intro _ c hc; simp [strJoin] at hc
  | cons E Es ih =>
    intro h c hc
    cases Es with
    | nil =>
      simp only [strJoin] at hc
      exact h E (by simp) c hc
    | cons F Fs =>
      simp only [strJoin, List.mem_append] at hc
      rcases hc with (hc | hc) | hc
      · exact h E (by simp) c hc
      · exact hsep c hc
      · exact ih (fun X hX => h X (by simp [hX])) c hc

theorem convertMethod_chars (P : Char → Prop) (hlit : ∀ c ∈ nameLiterals, P c) (fuel : Nat)
    (n : Str) (args : List Str) (call : Str) (hn : ∀ c ∈ n, P c)
    (ha : ∀ a ∈ args, ∀ c ∈ a, P c) (h : convertMethod fuel n args = .ret call) :
    ∀ c ∈ call, P c := by
  unfold convertMethod at h
  have hsp : P ' ' := hlit ' ' (by decide)
  have hd : P '$' := hlit '$' (by decide)
  have key : ∀ ps : List Str, (∀ E ∈ ps, ∀ c ∈ E, P c) →
      ∀ c ∈ n ++ " $ ".toList ++ strJoin ps " ".toList, P c := by
    intro ps hps c hc
    simp only [List.mem_append] at hc
    rcases hc with (hc | hc) | hc
    · exact hn c hc
    · simp only [String.toList, List.mem_cons, List.mem_singleton, List.not_mem_nil,
        or_false] at hc
      rcases hc with e | e | e
      · rw [e]; exact hsp
      · rw [e]; exact hd
      · rw [e]; exact hsp
    · exact strJoin_chars P _ (by
        intro x hx
        simp only [String.toList, List.mem_singleton] at hx
        rw [hx]; exact hsp) ps hps c hc
  split at h
  · cases h2 : convertArgs fuel (args.drop 1) with
    | ret ps =>
      rw [h2] at h
      simp only [Outcome.bind, Outcome.ret.injEq] at h
      rw [← h]
      exact key ps (convertArgs_chars P hlit fuel _ ps
        (fun a ha1 => ha a (List.mem_of_mem_drop ha1)) h2)
    | panic => rw [h2] at h; exact absurd h (by simp [Outcome.bind])
    | fuelOut => rw [h2] at h; exact absurd h (by simp [Outcome.bind])
  · simp only [Outcome.bind, Outcome.ret.injEq] at h
    rw [← h]
    exact key [] (by simp)

/-- A match of `ifFunctionRegex`: its text begins with `<!-- IF `, holds no
second `<` and no `{`, and its groups hold no `<`. -/
theorem ifFunction_match (ext : Char → Bool) {b : Bool} {s : Str} {m : Match}
    (hm : matchAt (ifFunctionRegex ext) b s = some m) :
    (∃ w, m.whole = '<' :: w ∧ '<' ∉ w ∧ '\x7b' ∉ w ∧
      "<!-- IF ".toList.isPrefixOf m.whole = true) ∧
      (∀ c ∈ m.group 2, c ≠ '<') ∧ ∀ c ∈ m.group 3, c ≠ '<' := by
  have hm1 : matchAt (Re.seq (Re.lit ('<' :: "!-- IF ".toList)) (Re.cat [notRegex 1,
      Re.lit "function.".toList, .grp 2 (identifierRegex ext), argsRegex ext 3,
      Re.lit " -->".toList, newlinesRegex])) b s = some m := hm
  refine ⟨match_lit_form (by decide) (ifFunctionTail_within ext) hm1, ?_⟩
  obtain ⟨s1, w2, st, b1, _, hst, _, _, _, hcaps⟩ := match_lit (ifFunctionTail_within ext) hm1
  simp only [Re.cat] at hst
  obtain ⟨s2, _, g2⟩ := mem_run_seq.1 hst
  obtain ⟨s3, _, g3⟩ := mem_run_seq.1 g2
  obtain ⟨s4, h4, g4⟩ := mem_run_seq.1 g3
  obtain ⟨s5, h5, g5⟩ := mem_run_seq.1 g4
  obtain ⟨s6, h6, g6⟩ := mem_run_seq.1 g5
  obtain ⟨n, _, hn, c4⟩ := mem_run_grp_ident ext h4
  obtain ⟨a, _, ha, c5, _⟩ := mem_run_argsRegex ext h5
  obtain ⟨_, c6⟩ := mem_run_lit h6
  have c7 : st.caps = s6.caps :=
    Re.run_caps (Re.seq newlinesRegex Re.eps) rfl _ _ g6
  have hc : m.caps = (3, a) :: (2, n) :: s3.caps := by
    rw [hcaps, c7, c6, c5, c4]
  obtain ⟨mw, mc⟩ := m
  simp only at hc
  rw [hc]
  constructor
  · have : (⟨mw, (3, a) :: (2, n) :: s3.caps⟩ : Match).group 2 = n := by
      simp [Match.group, List.lookup]
    rw [this]
    exact fun c hc => (keyChar_ne ext (keyChar_of_identRest ext (hn c hc))).1
  · rw [group_cons_self mw 2 a]
    exact fun c hc => (argChar_ne ext (ha c hc)).1

/-- The replacement made for a match of `ifFunctionRegex` has the form the
loops of the Condition Pass need. -/
theorem ifFunctionOp_ok (ext : Char → Bool) (fuel : Nat) {b : Bool} {s : Str} {m : Match}
    (hm : matchAt (ifFunctionRegex ext) b s = some m) {op : Str × Str}
    (hop : ifFunctionOp fuel m = .ret op) : OpOk op := by
  obtain ⟨⟨w, hw, h1, h2, _⟩, hg2, hg3⟩ := ifFunction_match ext hm
  obtain ⟨call, hcall, e⟩ := ret_of_map hop
  have hcc : ∀ c ∈ call, c ≠ '<' :=
    convertMethod_chars (fun c => c ≠ '<') (by decide) fuel _ _ call hg2
      (fun a ha c hc => hg3 c (splitFrom_mem functionsArgs _ true 0 a ha c hc)) hcall
  refine ⟨w, "\x7bif ".toList ++ (if m.group 1 ≠ [] then "not ".toList else []) ++ " (".toList
    ++ call ++ ")\x7d\x7d".toList, by rw [e]; exact hw, h1, h2, by rw [e]; rfl, ?_⟩
  intro h
  simp only [List.mem_append] at h
  rcases h with (((h | h) | h) | h) | h
  · exact absurd h (by decide)
  · split at h
    · exact absurd h (by decide)
    · exact absurd h (by simp)
  · exact absurd h (by decide)
  · exact hcc _ h rfl
  · exact absurd h (by decide)

/-! ## The matches whose text stands at a given marker -/

/-- A match of `ifRegex` whose text stands at the head of a plain `IF` marker
followed by the line breaks `nl`: it is a match of that marker and of a
beginning of `nl`, found at a place where no further line break follows. -/
theorem if_hit (ext : Char → Bool) (neg par : Bool) {p : Str} (hk : isKey ext p = true)
    (nl P : Str) (hP : noNewlineHead P) {b : Bool} {q : Str} {m : Match}
    (hm : matchAt (ifRegex ext) b q = some m)
    (hpre : m.whole.isPrefixOf
      ((("<!-- IF ".toList ++ (condPayload neg par p ++ " -->".toList)) ++ nl) ++ P) = true) :
    ∃ n1 n2 r, nl = n1 ++ n2 ∧
      q = (("<!-- IF ".toList ++ (condPayload neg par p ++ " -->".toList)) ++ n1) ++ r ∧
      noNewlineHead r ∧
      m = ⟨("<!-- IF ".toList ++ (condPayload neg par p ++ " -->".toList)) ++ n1,
        condCaps neg par p⟩ := by
  have hrun : ∀ st, (ifRegex ext).run st = (Re.seq (Re.cat [Re.lit "<!-- IF ".toList, notRegex 1,
      parentRegex 2, .grp 3 (keyRegex ext), Re.lit " -->".toList])
      (Re.seq newlinesRegex Re.eps)).run st :=
    fun st => run_cat_append [Re.lit "<!-- IF ".toList, notRegex 1, parentRegex 2,
      .grp 3 (keyRegex ext), Re.lit " -->".toList] [newlinesRegex] st
  rw [matchAt_congr hrun] at hm
  refine hit_core (Re.cat [Re.lit "<!-- IF ".toList, notRegex 1, parentRegex 2,
    .grp 3 (keyRegex ext), Re.lit " -->".toList]) rfl _ (condCaps neg par p) (by simp) ?_ nl P hP
    hm hpre
  intro post b1
  obtain ⟨hex, hall⟩ := markerCore_run ext "<!-- IF ".toList (by simp) neg par hk post b1
  constructor
  · simpa using hex
  · simpa using hall

/-- A match of `ifFunctionRegex` whose text stands at the head of a
function-based `IF` marker followed by the line breaks `nl`: it is a match of
that marker and of a beginning of `nl`, found at a place where no further line
break follows. -/
theorem ifFunction_hit (ext : Char → Bool) (neg : Bool) {n args : Str}
    (hn : isIdentifier ext n = true) (ha : fullMatch (argsStar ext) args = true)
    (nl P : Str) (hP : noNewlineHead P) {b : Bool} {q : Str} {m : Match}
    (hm : matchAt (ifFunctionRegex ext) b q = some m)
    (hpre : m.whole.isPrefixOf
      ((("<!-- IF ".toList ++ ((if neg then "!".toList else []) ++ ("function.".toList ++
        (n ++ (args ++ " -->".toList))))) ++ nl) ++ P) = true) :
    ∃ n1 n2 r, nl = n1 ++ n2 ∧
      q = (("<!-- IF ".toList ++ ((if neg then "!".toList else []) ++ ("function.".toList ++
        (n ++ (args ++ " -->".toList))))) ++ n1) ++ r ∧
      noNewlineHead r ∧
      m = ⟨("<!-- IF ".toList ++ ((if neg then "!".toList else []) ++ ("function.".toList ++
          (n ++ (args ++ " -->".toList))))) ++ n1,
        [(3, args), (2, n), (1, if neg then "!".toList else [])]⟩ := by
  have hrun : ∀ st, (ifFunctionRegex ext).run st = (Re.seq (Re.cat [Re.lit "<!-- IF ".toList,
      notRegex 1, Re.lit "function.".toList, .grp 2 (identifierRegex ext), argsRegex ext 3,
      Re.lit " -->".toList]) (Re.seq newlinesRegex Re.eps)).run st :=
    fun st => run_cat_append [Re.lit "<!-- IF ".toList, notRegex 1, Re.lit "function.".toList,
      .grp 2 (identifierRegex ext), argsRegex ext 3, Re.lit " -->".toList] [newlinesRegex] st
  rw [matchAt_congr hrun] at hm
  refine hit_core (Re.cat [Re.lit "<!-- IF ".toList, notRegex 1, Re.lit "function.".toList,
    .grp 2 (identifierRegex ext), argsRegex ext 3, Re.lit " -->".toList]) rfl _ _ (by simp) ?_
    nl P hP hm hpre
  intro post b1
  obtain ⟨hex, hall⟩ := ifFunctionCore_run ext neg hn ha post b1
  constructor
  · simpa using hex
  · simpa using hall

/-- A plain `IF` marker that is not of the form `<!-- IF function.name -->` is
no match of `ifFunctionRegex`, in no way. -/
theorem ifFunction_run_nil (ext : Char → Bool) (neg par : Bool) {p : Str}
    (hk : isKey ext p = true)
    (hf : par = true ∨ ∀ n, isIdentifier ext n = true → p ≠ "function.".toList ++ n)
    (post : Str) (b : Bool) :
    (ifFunctionRegex ext).run
      ⟨[], b, "<!-- IF ".toList ++ (condPayload neg par p ++ (" -->".toList ++ post))⟩ = [] := by
  apply List.eq_nil_iff_forall_not_mem.2
  intro st hst
  simp only [ifFunctionRegex, Re.cat] at hst
  obtain ⟨s1, h1, g1⟩ := mem_run_seq.1 hst
  obtain ⟨e1, c1⟩ := mem_run_lit h1
  have e1b : s1.rest = condPayload neg par p ++ (" -->".toList ++ post) :=
    (List.append_cancel_left e1).symm
  obtain ⟨s2, h2, g2⟩ := mem_run_seq.1 g1
  obtain ⟨s3, h3, g3⟩ := mem_run_seq.1 g2
  obtain ⟨e3, _⟩ := mem_run_lit h3
  -- what stands behind the optional `!`
  have hcases : s2.rest = '!' :: ((if par then "../".toList else []) ++ (p ++ (" -->".toList ++ post)))
      ∨ s2.rest = (if par then "../".toList else []) ++ (p ++ (" -->".toList ++ post)) := by
    rcases mem_run_not_cases h2 with e2 | ⟨tl, et, e2⟩
    · rw [e2]
      simp only
      rw [e1b]
      cases neg with
      | true => exact Or.inl (by simp [condPayload])
      | false => exact Or.inr (by simp [condPayload])
    · rw [e2]
      simp only
      rw [e1b] at et
      cases neg with
      | true => exact Or.inr (by simpa [condPayload] using et.symm)
      | false =>
        exfalso
        cases par with
        | false =>
          exact key_head_ne ext hk (x := '!') (by decide) (by decide) _ tl
            (by simpa [condPayload] using et)
        | true => simp [condPayload] at et
  rcases hcases with e2 | e2
  · rw [e2] at e3
    simp at e3
  · rw [e2] at e3
    cases par with
    | true => simp at e3
    | false =>
      rcases hf with hf | hf
      · exact absurd hf (by simp)
      · simp only [Bool.false_eq_true, if_false, List.nil_append] at e3
        obtain ⟨s4, h4, g4⟩ := mem_run_seq.1 g3
        obtain ⟨s5, h5, g5⟩ := mem_run_seq.1 g4
        obtain ⟨s6, h6, _⟩ := mem_run_seq.1 g5
        obtain ⟨si, hi, w, ew, e4⟩ := mem_run_grp_text h4
        have hid : isIdentifier ext w = true :=
          fullMatch_of_run (r := identifierRegex ext) rfl hi ew
        have e4r : s4.rest = si.rest := by rw [e4]
        obtain ⟨a, ea, _, _, hhead⟩ := mem_run_argsRegex ext h5
        obtain ⟨e6, _⟩ := mem_run_lit h6
        have hsp : ∃ c tl, s4.rest = c :: tl ∧ (c = ' ' ∨ c = ',') := by
          rcases hhead with h | h
          · refine ⟨' ', "-->".toList ++ s6.rest, ?_, Or.inl rfl⟩
            rw [← h, e6]
            rfl
          · exact h
        obtain ⟨c, tl, ec, hc⟩ := hsp
        have hfull : p ++ ' ' :: ("-->".toList ++ post) = ("function.".toList ++ w) ++ c :: tl := by
          have : p ++ (" -->".toList ++ post) = "function.".toList ++ s3.rest := e3
          rw [List.append_assoc, ← ec, e4r, ← ew, ← this]
          rfl
        have hkc : ∀ x ∈ "function.".toList ++ w, keyChar ext x = true := by
          intro x hx
          rcases List.mem_append.1 hx with h | h
          · simp only [String.toList, List.mem_cons, List.mem_singleton, List.not_mem_nil,
              or_false] at h
            rcases h with h | h | h | h | h | h | h | h | h <;> subst h <;>
              first
                | exact keyChar_of_identRest ext (identRest_letter ext (by decide) (by decide))
                | simp [keyChar]
          · exact keyChar_of_identRest ext ((isIdentifier_chars ext hid).2 x h)
        have hc2 : keyChar ext c = false := by
          rcases hc with h | h <;> rw [h] <;> exact keyChar_of_isDelim ext (by decide)
        have := (append_cons_unique (P := keyChar ext) (isKey_chars ext hk) hkc
          (keyChar_of_isDelim ext (by decide)) hc2 hfull).1
        exact hf w hid this

/-- The text of a match of `ifFunctionRegex` does not stand at the head of a
plain `IF` marker that is not of the form `<!-- IF function.name -->`. -/
theorem ifFunction_nohit (ext : Char → Bool) (neg par : Bool) {p : Str}
    (hk : isKey ext p = true)
    (hf : par = true ∨ ∀ n, isIdentifier ext n = true → p ≠ "function.".toList ++ n)
    (post : Str) {b : Bool} {q : Str} {m : Match}
    (hm : matchAt (ifFunctionRegex ext) b q = some m) :
    m.whole.isPrefixOf
      ("<!-- IF ".toList ++ (condPayload neg par p ++ (" -->".toList ++ post))) = false := by
  cases hpre : m.whole.isPrefixOf
      ("<!-- IF ".toList ++ (condPayload neg par p ++ (" -->".toList ++ post))) with
  | false => rfl
  | true =>
    obtain ⟨s4, h4, _⟩ := run_at_head (ifFunctionRegex ext) rfl hm hpre
    rw [ifFunction_run_nil ext neg par hk hf post b] at h4
    exact absurd h4 (by simp)

/-- A text that has `<!-- IF ` at its head does not stand at the head of a text
that begins differently. -/
theorem nohit_of_head {o Z : Str} (ho : "<!-- IF ".toList.isPrefixOf o = true)
    (hZ : "<!-- IF ".toList.isPrefixOf Z = false) : o.isPrefixOf Z = false := by
  cases h : o.isPrefixOf Z with
  | false => rfl
  | true =>
    have := (List.isPrefixOf_iff_prefix.1 ho).trans (List.isPrefixOf_iff_prefix.1 h)
    rw [List.isPrefixOf_iff_prefix.2 this] at hZ
    exact absurd hZ (by simp)

/-! ## Replacing the matches of a pattern around a marker -/

theorem within_lt_of_mark {r : Re} (h : r.Within (fun c => c ≠ '<' ∧ c ≠ '\x7b')) :
    r.Within (fun c => c ≠ '<') :=
  within_mono (fun _ hc => hc.1) r h

theorem within_lb_of_mark {r : Re} (h : r.Within (fun c => c ≠ '<' ∧ c ≠ '\x7b')) :
    r.Within (fun c => c ≠ '\x7b') :=
  within_mono (fun _ hc => hc.2) r h

/-- The matches of a marker pattern are replaced in the texts before and behind
a text that begins with `{` and holds no `<`, and that text stays. -/
theorem replaceAll_dead {L : Str} {r : Re} (hL : '\x7b' ∉ L)
    (hr : r.Within (fun c => c ≠ '<' ∧ c ≠ '\x7b')) (repl : Match → Str) (A d P : Str)
    (hd : '<' ∉ d) :
    replaceAll (Re.seq (Re.lit ('<' :: L)) r) repl (A ++ ('\x7b' :: d) ++ P) =
      replaceAll (Re.seq (Re.lit ('<' :: L)) r) repl A ++ ('\x7b' :: d) ++
        replaceAll (Re.seq (Re.lit ('<' :: L)) r) repl P := by
  have hw : (Re.seq (Re.lit ('<' :: L)) r).Within (fun c => c ≠ '\x7b') :=
    ⟨within_lit _ (by
      intro c hc e
      rcases List.mem_cons.1 hc with h | h
      · rw [h] at e
        exact absurd e (by decide)
      · exact hL (e ▸ h)), within_lb_of_mark hr⟩
  unfold replaceAll
  rw [List.append_assoc, List.cons_append,
    replaceAllFrom_cut repl (fun a b _ => matchAt_within hw (d ++ P) b a)
      (matchAt_lit_flag '<' L r) A true 0 (Nat.zero_le _), List.append_assoc]
  congr 1
  have := replaceAllFrom_skip (needsHead_lit '<' L r) repl ('\x7b' :: d) P (by
    intro c hc
    rcases List.mem_cons.1 hc with e | h
    · rw [e]; decide
    · exact fun e => hd (e ▸ h)) false
  rw [replaceAllFrom_flag repl (matchAt_lit_flag '<' L r) true P]
  simpa using this

/-- The matches of a marker pattern are replaced in the texts before and behind
a marker at which the pattern does not match, and the marker stays. -/
theorem replaceAll_live {L : Str} {r : Re} (hL : '<' ∉ L)
    (hr : r.Within (fun c => c ≠ '<' ∧ c ≠ '\x7b')) (repl : Match → Str) (A z P : Str)
    (hz : '<' ∉ z)
    (hno : matchAt (Re.seq (Re.lit ('<' :: L)) r) false (('<' :: z) ++ P) = none) :
    replaceAll (Re.seq (Re.lit ('<' :: L)) r) repl (A ++ ('<' :: z) ++ P) =
      replaceAll (Re.seq (Re.lit ('<' :: L)) r) repl A ++ ('<' :: z) ++
        replaceAll (Re.seq (Re.lit ('<' :: L)) r) repl P := by
  unfold replaceAll
  rw [List.append_assoc, List.cons_append,
    replaceAllFrom_cut repl
      (fun a b ha => matchAt_lit_lt L r hL (within_lt_of_mark hr) (z ++ P) a b ha)
      (matchAt_lit_flag '<' L r) A true 0 (Nat.zero_le _), List.append_assoc]
  congr 1
  rw [List.cons_append] at hno
  rw [replaceAllFrom_zero, hno]
  simp only [List.cons_append, List.cons.injEq, true_and]
  have := replaceAllFrom_skip (needsHead_lit '<' L r) repl z P
    (fun c hc e => hz (e ▸ hc)) false
  rw [replaceAllFrom_flag repl (matchAt_lit_flag '<' L r) true P]
  simpa using this

/-- The matches of a marker pattern are replaced in the texts before and behind
a marker at which the pattern matches, and the marker is replaced. -/
theorem replaceAll_hit {L : Str} {r : Re} (hL : '<' ∉ L)
    (hr : r.Within (fun c => c ≠ '<' ∧ c ≠ '\x7b')) (repl : Match → Str) (A w P : Str)
    {m : Match} (hm : matchAt (Re.seq (Re.lit ('<' :: L)) r) false (('<' :: w) ++ P) = some m)
    (hw : m.whole = '<' :: w) :
    replaceAll (Re.seq (Re.lit ('<' :: L)) r) repl (A ++ ('<' :: w) ++ P) =
      replaceAll (Re.seq (Re.lit ('<' :: L)) r) repl A ++ repl m ++
        replaceAll (Re.seq (Re.lit ('<' :: L)) r) repl P := by
  unfold replaceAll
  rw [List.append_assoc, List.cons_append,
    replaceAllFrom_cut repl
      (fun a b ha => matchAt_lit_lt L r hL (within_lt_of_mark hr) (w ++ P) a b ha)
      (matchAt_lit_flag '<' L r) A true 0 (Nat.zero_le _), List.append_assoc]
  congr 1
  rw [replaceAllFrom_flag repl (matchAt_lit_flag '<' L r) true P]
  exact replaceAllFrom_match (w := '<' :: w) hm hw (by simp)

/-- The matches of a marker pattern in a text that begins with characters other
than `<`. -/
theorem replaceAll_skip {L : Str} {r : Re} (repl : Match → Str) (pre P : Str)
    (hpre : ∀ c ∈ pre, c ≠ '<') :
    replaceAll (Re.seq (Re.lit ('<' :: L)) r) repl (pre ++ P) =
      pre ++ replaceAll (Re.seq (Re.lit ('<' :: L)) r) repl P := by
  unfold replaceAll
  rw [replaceAllFrom_skip (needsHead_lit '<' L r) repl pre P hpre true,
    replaceAllFrom_flag repl (matchAt_lit_flag '<' L r) (true && pre.isEmpty) P,
    replaceAllFrom_flag repl (matchAt_lit_flag '<' L r) true P]

/-! ## The matches of a pattern, with the places where they were found -/

theorem findAllFrom_pos {re : Re} :
    ∀ (s : Str) (b : Bool) (k : Nat), ∀ m ∈ findAllFrom re b k s,
      ∃ x q b1, s = x ++ q ∧ matchAt re b1 q = some m := by
  intro s
  induction s with
  | nil => intro b k m hm; cases k <;> simp [findAllFrom] at hm
  | cons c cs ih =>
    intro b k m hm
    have hstep : ∀ b2 k2, m ∈ findAllFrom re b2 k2 cs →
        ∃ x q b1, c :: cs = x ++ q ∧ matchAt re b1 q = some m := by
      intro b2 k2 h
      obtain ⟨x, q, b1, e, hq⟩ := ih b2 k2 m h
      exact ⟨c :: x, q, b1, by rw [e]; rfl, hq⟩
    cases k with
    | succ k =>
      rw [findAllFrom_succ] at hm
      exact hstep false k hm
    | zero =>
      rw [findAllFrom_zero] at hm
      cases hq : matchAt re b (c :: cs) with
      | none =>
        rw [hq] at hm
        exact hstep false 0 hm
      | some m0 =>
        rw [hq] at hm
        simp only [List.mem_cons] at hm
        rcases hm with e | hm
        · rw [e]
          exact ⟨[], c :: cs, b, rfl, hq⟩
        · exact hstep false _ hm

/-- The matches of a marker pattern in a text with a marker at which it
matches: the matches before the marker, the match of the marker, and the
matches behind it. -/
theorem findAll_hit {L : Str} {r : Re} (hL : '<' ∉ L)
    (hr : r.Within (fun c => c ≠ '<' ∧ c ≠ '\x7b')) (A w P : Str) {m : Match}
    (hm : matchAt (Re.seq (Re.lit ('<' :: L)) r) false (('<' :: w) ++ P) = some m)
    (hw : m.whole = '<' :: w) :
    findAll (Re.seq (Re.lit ('<' :: L)) r) (A ++ ('<' :: w) ++ P) =
      findAll (Re.seq (Re.lit ('<' :: L)) r) A ++
        m :: findAllFrom (Re.seq (Re.lit ('<' :: L)) r) false 0 P := by
  unfold findAll
  rw [List.append_assoc, List.cons_append,
    findAllFrom_cut
      (fun a b ha => matchAt_lit_lt L r hL (within_lt_of_mark hr) (w ++ P) a b ha)
      (matchAt_lit_flag '<' L r) A true 0 (Nat.zero_le _)]
  congr 1
  exact findAllFrom_match (w := '<' :: w) hm hw (by simp)

/-! ## An earlier marker with a shorter run of line breaks -/

theorem takeWhile_newlines (n1 y : Str) (hn : ∀ c ∈ n1, (c == '\r' || c == '\n') = true)
    (hy : noNewlineHead y) :
    (n1 ++ y).takeWhile (fun c => c == '\r' || c == '\n') = n1 := by
  induction n1 with
  | nil =>
    cases y with
    | nil => rfl
    | cons c cs =>
      have := hy c cs rfl
      simp [List.takeWhile, this]
  | cons c cs ih =>
    have hc := hn c (by simp)
    have h2 := ih (fun x hx => hn x (by simp [hx]))
    simp only [List.cons_append, List.takeWhile_cons, hc, if_true, h2]

/-- The decidable form of the condition: when `shortRunIn` is false, the marker
stands nowhere in the text followed by a proper beginning of the run. -/
theorem noShort_of_shortRunIn {M nl s : Str}
    (hnl : ∀ c ∈ nl, (c == '\r' || c == '\n') = true) (h : shortRunIn M nl s = false) :
    NoShort M nl s := by
  intro x y n1 n2 e en hn2 hy
  have hmem : (M ++ n1) ++ y ∈ s.tails := by
    rw [List.mem_tails, e]
    exact ⟨x, by simp only [List.append_assoc]⟩
  have hn1 : ∀ c ∈ n1, (c == '\r' || c == '\n') = true :=
    fun c hc => hnl c (by rw [en]; simp [hc])
  have hat : shortRunAt M nl ((M ++ n1) ++ y) = true := by
    unfold shortRunAt
    have hd : ((M ++ n1) ++ y).drop M.length = n1 ++ y := by
      rw [List.append_assoc]
      exact List.drop_left _ _
    have hp : M.isPrefixOf ((M ++ n1) ++ y) = true := by
      rw [List.isPrefixOf_iff_prefix, List.append_assoc]
      exact List.prefix_append _ _
    rw [hd, takeWhile_newlines n1 y hn1 hy, hp]
    have hp2 : n1.isPrefixOf nl = true := by
      rw [List.isPrefixOf_iff_prefix, en]
      exact List.prefix_append _ _
    have hl : n1.length < nl.length := by
      rw [en, List.length_append]
      have : 0 < n2.length := List.length_pos.2 hn2
      omega
    simp [hp2, hl]
  have : shortRunIn M nl s = true := by
    unfold shortRunIn
    rw [List.any_eq_true]
    exact ⟨_, hmem, hat⟩
  rw [h] at this
  exact absurd this (by simp)

theorem append_eq_of_not_mem {new R x t : Str} {c : Char} (hnew : c ∉ new)
    (h : new ++ R = x ++ c :: t) : ∃ x2, x = new ++ x2 ∧ R = x2 ++ c :: t := by
  induction new generalizing x with
  | nil => exact ⟨x, rfl, by simpa using h⟩
  | cons n ns ih =>
    cases x with
    | nil =>
      simp only [List.cons_append, List.nil_append, List.cons.injEq] at h
      exact absurd (by rw [h.1]; simp) hnew
    | cons x0 xs =>
      simp only [List.cons_append, List.cons.injEq] at h
      obtain ⟨x2, e1, e2⟩ := ih (fun hm => hnew (by simp [hm])) h.2
      exact ⟨x2, by rw [h.1, e1]; rfl, e2⟩

/-- What `strings.Replace` leaves unchanged at the head of its result stood at
the head of the text. -/
theorem strReplaceFrom_pull_head (w v : Str) :
    ∀ (u cs y1 : Str), (∀ c ∈ u, c ≠ '<' ∧ c ≠ '\x7b') → noNewlineHead y1 →
      strReplaceFrom ('<' :: w) ('\x7b' :: v) 0 cs = u ++ y1 →
      ∃ y, cs = u ++ y ∧ noNewlineHead y := by
  intro u
  induction u with
  | nil =>
    intro cs y1 _ hy1 h
    refine ⟨cs, rfl, ?_⟩
    cases cs with
    | nil => exact noNewlineHead_nil
    | cons c cs =>
      rw [strReplaceFrom_zero] at h
      split at h
      · rename_i hp
        have : c = '<' := by
          simp only [List.isPrefixOf_cons₂, Bool.and_eq_true, beq_iff_eq] at hp
          exact hp.1.symm
        rw [this]
        exact noNewlineHead_cons _ _ (by decide)
      · exact noNewlineHead_cons _ _ (hy1 c _ (by rw [List.nil_append] at h; exact h.symm))
  | cons a u ih =>
    intro cs y1 hu hy1 h
    cases cs with
    | nil =>
      rw [strReplaceFrom_nil] at h
      exact absurd h (by simp)
    | cons c cs =>
      rw [strReplaceFrom_zero] at h
      split at h
      · simp only [List.cons_append, List.cons.injEq] at h
        exact absurd h.1.symm (hu a (by simp)).2
      · simp only [List.cons_append, List.cons.injEq] at h
        obtain ⟨y, e, hy⟩ := ih cs y1 (fun x hx => hu x (by simp [hx])) hy1 h.2
        exact ⟨y, by rw [h.1, e]; rfl, hy⟩

/-- A marker followed by a text without `<` and `{` in the result of
`strings.Replace` stood in the text, followed by the same text. -/
theorem strReplaceFrom_pull (w v u : Str) (hv : '<' ∉ v)
    (hu : ∀ c ∈ u, c ≠ '<' ∧ c ≠ '\x7b') :
    ∀ (n : Nat) (s x1 y1 : Str), s.length ≤ n → noNewlineHead y1 →
      strReplaceFrom ('<' :: w) ('\x7b' :: v) 0 s = x1 ++ '<' :: (u ++ y1) →
      ∃ x y, s = x ++ '<' :: (u ++ y) ∧ noNewlineHead y := by
  intro n
  induction n with
  | zero =>
    intro s x1 y1 hs _ h
    have : s = [] := List.length_eq_zero.1 (by omega)
    rw [this, strReplaceFrom_nil] at h
    exact absurd h (by simp)
  | succ n ih =>
    intro s x1 y1 hs hy1 h
    cases s with
    | nil =>
      rw [strReplaceFrom_nil] at h
      exact absurd h (by simp)
    | cons c cs =>
      by_cases hp : ('<' :: w).isPrefixOf (c :: cs) = true
      · obtain ⟨rest, er⟩ := List.isPrefixOf_iff_prefix.1 hp
        rw [← er, strReplaceFrom_match _ _ _ (by simp)] at h
        have hnew : '<' ∉ '\x7b' :: v := by
          intro hm
          rcases List.mem_cons.1 hm with e | e
          · exact absurd e (by decide)
          · exact hv e
        obtain ⟨x2, _, e2⟩ := append_eq_of_not_mem hnew h
        have hl : rest.length ≤ n := by
          have := congrArg List.length er
          simp only [List.length_append, List.length_cons] at this hs
          omega
        obtain ⟨x, y, e, hy⟩ := ih rest x2 y1 hl hy1 e2
        exact ⟨('<' :: w) ++ x, y, by rw [← er, e, List.append_assoc], hy⟩
      · rw [strReplaceFrom_zero, if_neg hp] at h
        cases x1 with
        | nil =>
          simp only [List.nil_append, List.cons.injEq] at h
          obtain ⟨y, e, hy⟩ := strReplaceFrom_pull_head w v u cs y1 hu hy1 h.2
          exact ⟨[], y, by rw [h.1, e]; rfl, hy⟩
        | cons x0 xs =>
          simp only [List.cons_append, List.cons.injEq] at h
          obtain ⟨x, y, e, hy⟩ := ih cs xs y1
            (by simp only [List.length_cons] at hs; omega) hy1 h.2
          exact ⟨c :: x, y, by rw [e]; rfl, hy⟩

/-- The loops of the Condition Pass do not bring about an earlier marker with a
shorter run of line breaks. -/
theorem noShort_applyOps (mu nl : Str) (hmu : ∀ c ∈ mu, c ≠ '<' ∧ c ≠ '\x7b')
    (hnl : ∀ c ∈ nl, (c == '\r' || c == '\n') = true) :
    ∀ (ops : List (Str × Str)), (∀ op ∈ ops, OpOk op) → ∀ s,
      NoShort ('<' :: mu) nl s → NoShort ('<' :: mu) nl (applyOps ops s) := by
  intro ops
  induction ops with
  | nil => intro _ s h; exact h
  | cons op ops ih =>
    intro hok s h
    rw [applyOps_cons]
    apply ih (fun o ho => hok o (by simp [ho]))
    obtain ⟨w, v, e1, _, _, e2, hv⟩ := hok op (by simp)
    intro x y n1 n2 e en hn2 hy
    have hn1 : ∀ c ∈ n1, (c == '\r' || c == '\n') = true :=
      fun c hc => hnl c (by rw [en]; simp [hc])
    have hu : ∀ c ∈ mu ++ n1, c ≠ '<' ∧ c ≠ '\x7b' := by
      intro c hc
      rcases List.mem_append.1 hc with h1 | h1
      · exact hmu c h1
      · have := hn1 c h1
        constructor
        · intro ec
          rw [ec] at this
          exact absurd this (by decide)
        · intro ec
          rw [ec] at this
          exact absurd this (by decide)
    rw [e1, e2, strReplace_cons] at e
    have e3 : strReplaceFrom ('<' :: w) ('\x7b' :: v) 0 s = x ++ '<' :: ((mu ++ n1) ++ y) := by
      rw [e]
      simp only [List.append_assoc, List.cons_append]
    obtain ⟨x0, y0, e0, hy0⟩ := strReplaceFrom_pull w v (mu ++ n1) hv hu s.length s x y
      (Nat.le_refl _) hy e3
    exact h x0 y0 n1 n2 (by rw [e0]; simp only [List.append_assoc, List.cons_append]) en hn2 hy0

/-! ## The Condition Pass on the parts of a template -/

theorem convertConditions_ops (ext : Char → Bool) (fuel : Nat) (T : Str) :
    convertConditions ext fuel T =
      (collectOps (ifFunctionOp fuel) (findAll (ifFunctionRegex ext) T)).bind fun o1 =>
        (collectOps (ifOp fuel) (findAll (ifRegex ext) (applyOps o1 T))).bind fun o2 =>
          .ret (replaceElseEndif ext (applyOps o2 (applyOps o1 T)), none) := by
  unfold convertConditions
  rw [replaceIfFunctions_ops]
  cases collectOps (ifFunctionOp fuel) (findAll (ifFunctionRegex ext) T) with
  | ret o1 =>
    simp only [Outcome.map, Outcome.bind]
    rw [replaceIfs_ops]
    cases collectOps (ifOp fuel) (findAll (ifRegex ext) (applyOps o1 T)) <;> rfl
  | panic => rfl
  | fuelOut => rfl

theorem convertConditionsOf_ops (ext : Char → Bool) (fuel : Nat) (T s : Str) :
    convertConditionsOf ext fuel T s =
      (collectOps (ifFunctionOp fuel) (findAll (ifFunctionRegex ext) T)).bind fun o1 =>
        (collectOps (ifOp fuel) (findAll (ifRegex ext) (applyOps o1 T))).bind fun o2 =>
          .ret (replaceElseEndif ext (applyOps o2 (applyOps o1 s))) := by
  unfold convertConditionsOf
  rw [replaceIfFunctions_ops, replaceIfFunctions_ops]
  cases collectOps (ifFunctionOp fuel) (findAll (ifFunctionRegex ext) T) with
  | ret o1 =>
    simp only [Outcome.map, Outcome.bind]
    rw [replaceIfs_ops]
    cases collectOps (ifOp fuel) (findAll (ifRegex ext) (applyOps o1 T)) <;> rfl
  | panic => rfl
  | fuelOut => rfl

/-- The Condition Pass carried out on the whole template is `convertConditions`. -/
theorem convertConditionsOf_self (ext : Char → Bool) (fuel : Nat) (T : Str) :
    convertConditions ext fuel T = (convertConditionsOf ext fuel T T).map (fun r => (r, none)) := by
  rw [convertConditions_ops, convertConditionsOf_ops]
  cases collectOps (ifFunctionOp fuel) (findAll (ifFunctionRegex ext) T) with
  | ret o1 =>
    simp only [Outcome.bind]
    cases collectOps (ifOp fuel) (findAll (ifRegex ext) (applyOps o1 T)) <;> rfl
  | panic => rfl
  | fuelOut => rfl

/-- When the replacements of the two loops and of the last two statements turn
`T` into what they make of `A`, a text `R` and what they make of `P`, the
Condition Pass on `T` returns the results of the pass carried out on `A` and on
`P`, with `R` between them. -/
theorem conditions_parts (ext : Char → Bool) (fuel : Nat) (T A P R : Str)
    (h : ∀ o1 o2, collectOps (ifFunctionOp fuel) (findAll (ifFunctionRegex ext) T) = .ret o1 →
      collectOps (ifOp fuel) (findAll (ifRegex ext) (applyOps o1 T)) = .ret o2 →
      replaceElseEndif ext (applyOps o2 (applyOps o1 T)) =
        replaceElseEndif ext (applyOps o2 (applyOps o1 A)) ++ R ++
          replaceElseEndif ext (applyOps o2 (applyOps o1 P))) :
    convertConditions ext fuel T =
      (convertConditionsOf ext fuel T A).bind fun X =>
        (convertConditionsOf ext fuel T P).map fun Y => (X ++ R ++ Y, none) := by
  rw [convertConditions_ops, convertConditionsOf_ops, convertConditionsOf_ops]
  cases hF : collectOps (ifFunctionOp fuel) (findAll (ifFunctionRegex ext) T) with
  | ret o1 =>
    simp only [Outcome.bind]
    cases hG : collectOps (ifOp fuel) (findAll (ifRegex ext) (applyOps o1 T)) with
    | ret o2 =>
      simp only [Outcome.bind, Outcome.map]
      rw [h o1 o2 hF hG]
    | panic => rfl
    | fuelOut => rfl
  | panic => rfl
  | fuelOut => rfl

/-- Every replacement of the first loop has the form the loops need, its search
text begins with `<!-- IF `, and it was made for a match of `ifFunctionRegex`. -/
theorem ifFunctionOps_ok (ext : Char → Bool) (fuel : Nat) (T : Str) {o1 : List (Str × Str)}
    (h : collectOps (ifFunctionOp fuel) (findAll (ifFunctionRegex ext) T) = .ret o1) :
    ∀ op ∈ o1, OpOk op ∧ "<!-- IF ".toList.isPrefixOf op.1 = true ∧
      ∃ b q m, matchAt (ifFunctionRegex ext) b q = some m ∧ op.1 = m.whole := by
  intro op hop
  obtain ⟨m, hm, hf⟩ := collectOps_mem h op hop
  obtain ⟨b, q, hq⟩ := findAllFrom_forall (Q := fun m => ∃ b q, matchAt (ifFunctionRegex ext) b q = some m)
    (fun b s m h => ⟨b, s, h⟩) T true 0 m hm
  obtain ⟨call, _, e⟩ := ret_of_map hf
  have e1 : op.1 = m.whole := by rw [e]; rfl
  refine ⟨ifFunctionOp_ok ext fuel hq hf, ?_, b, q, m, hq, e1⟩
  obtain ⟨⟨w, _, _, _, hpre⟩, _⟩ := ifFunction_match ext hq
  rw [e1]
  exact hpre

/-- Every replacement of the second loop has the form the loops need, and its
search text begins with `<!-- IF `. -/
theorem ifOps_ok (ext : Char → Bool) (fuel : Nat) (T : Str) {o2 : List (Str × Str)}
    (h : collectOps (ifOp fuel) (findAll (ifRegex ext) T) = .ret o2) :
    ∀ op ∈ o2, OpOk op ∧ "<!-- IF ".toList.isPrefixOf op.1 = true := by
  intro op hop
  obtain ⟨m, hm, hf⟩ := collectOps_mem h op hop
  obtain ⟨b, q, hq⟩ := findAllFrom_forall (Q := fun m => ∃ b q, matchAt (ifRegex ext) b q = some m)
    (fun b s m h => ⟨b, s, h⟩) T true 0 m hm
  obtain ⟨E, _, e⟩ := ret_of_map hf
  have e1 : op.1 = m.whole := by rw [e]; rfl
  refine ⟨ifOp_ok ext fuel hq hf, ?_⟩
  obtain ⟨⟨w, _, _, _, hpre⟩, _⟩ := if_match ext hq
  rw [e1]
  exact hpre

/-! ## The last two statements of the Condition Pass around a marker -/

theorem elseTail_within : (Re.seq newlinesRegex Re.eps).Within (fun c => c ≠ '<' ∧ c ≠ '\x7b') :=
  ⟨newlines_within_mark, trivial⟩

/-- The last two statements leave a text that begins with `{` and holds no `<`
as it is. -/
theorem elseEndif_dead (ext : Char → Bool) (A d P : Str) (hd : '<' ∉ d) :
    replaceElseEndif ext (A ++ ('\x7b' :: d) ++ P) =
      replaceElseEndif ext A ++ ('\x7b' :: d) ++ replaceElseEndif ext P := by
  unfold replaceElseEndif
  have h1 := replaceAll_dead (L := "!-- ELSE -->".toList) (r := Re.seq newlinesRegex Re.eps)
    (by decide) elseTail_within (fun _ => "\x7b\x7b- else\x7d\x7d".toList) A d P hd
  have h1b : replaceAll elseRegex (fun _ => "\x7b\x7b- else\x7d\x7d".toList)
      (A ++ ('\x7b' :: d) ++ P) =
      replaceAll elseRegex (fun _ => "\x7b\x7b- else\x7d\x7d".toList) A ++ ('\x7b' :: d) ++
        replaceAll elseRegex (fun _ => "\x7b\x7b- else\x7d\x7d".toList) P := h1
  rw [h1b]
  exact replaceAll_dead (L := "!-- ENDIF ".toList)
    (r := Re.cat [notRegex 1, parentRegex 2, .grp 3 (keyRegex ext), Re.lit " -->".toList])
    (by decide) (endifTail_within ext) (fun _ => "\x7b\x7b- end\x7d\x7d".toList) _ d _ hd

/-- The last two statements at an `ELSE` marker followed by line breaks: the
marker and the line breaks become `{{- else}}`. -/
theorem elseEndif_else (ext : Char → Bool) (A nl P : Str)
    (hnl : ∀ c ∈ nl, (c == '\r' || c == '\n') = true) (hP : noNewlineHead P) :
    replaceElseEndif ext (A ++ ('<' :: ("!-- ELSE -->".toList ++ nl)) ++ P) =
      replaceElseEndif ext A ++ "\x7b\x7b- else\x7d\x7d".toList ++ replaceElseEndif ext P := by
  unfold replaceElseEndif
  have hm := else_matchAt_gen nl P hnl hP false
  have h1 := replaceAll_hit (L := "!-- ELSE -->".toList) (r := Re.seq newlinesRegex Re.eps)
    (by decide) elseTail_within (fun _ => "\x7b\x7b- else\x7d\x7d".toList) A
    ("!-- ELSE -->".toList ++ nl) P hm rfl
  have h1b : replaceAll elseRegex (fun _ => "\x7b\x7b- else\x7d\x7d".toList)
      (A ++ ('<' :: ("!-- ELSE -->".toList ++ nl)) ++ P) =
      replaceAll elseRegex (fun _ => "\x7b\x7b- else\x7d\x7d".toList) A ++
        "\x7b\x7b- else\x7d\x7d".toList ++
        replaceAll elseRegex (fun _ => "\x7b\x7b- else\x7d\x7d".toList) P := h1
  rw [h1b]
  exact replaceAll_dead (L := "!-- ENDIF ".toList)
    (r := Re.cat [notRegex 1, parentRegex 2, .grp 3 (keyRegex ext), Re.lit " -->".toList])
    (by decide) (endifTail_within ext) (fun _ => "\x7b\x7b- end\x7d\x7d".toList) _
    "\x7b- else\x7d\x7d".toList _ (by decide)

theorem newline_ne_lt {nl : Str} (hnl : ∀ c ∈ nl, (c == '\r' || c == '\n') = true) :
    ∀ c ∈ nl, c ≠ '<' ∧ c ≠ '\x7b' := by
  intro c hc
  have := hnl c hc
  constructor
  · intro e
    rw [e] at this
    exact absurd this (by decide)
  · intro e
    rw [e] at this
    exact absurd this (by decide)

/-- The last two statements at an `ENDIF` marker followed by line breaks: the
marker becomes `{{- end}}`, the line breaks stay. -/
theorem elseEndif_endif (ext : Char → Bool) (neg par : Bool) {p : Str} (hk : isKey ext p = true)
    (A nl P : Str) (hnl : ∀ c ∈ nl, (c == '\r' || c == '\n') = true) :
    replaceElseEndif ext
        (A ++ ('<' :: (("!-- ENDIF ".toList ++ (condPayload neg par p ++ " -->".toList)) ++ nl))
          ++ P) =
      replaceElseEndif ext A ++ "\x7b\x7b- end\x7d\x7d".toList ++ nl ++ replaceElseEndif ext P := by
  unfold replaceElseEndif
  have hpay : ∀ c ∈ condPayload neg par p, c ≠ '<' :=
    condPayload_not_mem ext neg par hk (by decide) (by decide) (by decide)
  have hz : '<' ∉ ("!-- ENDIF ".toList ++ (condPayload neg par p ++ " -->".toList)) ++ nl := by
    intro h
    simp only [List.mem_append] at h
    rcases h with (h | h | h) | h
    · exact absurd h (by decide)
    · exact hpay _ h rfl
    · exact absurd h (by decide)
    · exact (newline_ne_lt hnl _ h).1 rfl
  have hno : matchAt (Re.seq (Re.lit ('<' :: "!-- ELSE -->".toList)) (Re.seq newlinesRegex Re.eps))
      false (('<' :: (("!-- ENDIF ".toList ++ (condPayload neg par p ++ " -->".toList)) ++ nl))
        ++ P) = none :=
    matchAt_lit_none _ _ _ _ rfl
  have h1 := replaceAll_live (L := "!-- ELSE -->".toList) (r := Re.seq newlinesRegex Re.eps)
    (by decide) elseTail_within (fun _ => "\x7b\x7b- else\x7d\x7d".toList) A _ P hz hno
  have h1b : replaceAll elseRegex (fun _ => "\x7b\x7b- else\x7d\x7d".toList)
      (A ++ ('<' :: (("!-- ENDIF ".toList ++ (condPayload neg par p ++ " -->".toList)) ++ nl))
        ++ P) =
      replaceAll elseRegex (fun _ => "\x7b\x7b- else\x7d\x7d".toList) A ++
        ('<' :: (("!-- ENDIF ".toList ++ (condPayload neg par p ++ " -->".toList)) ++ nl)) ++
        replaceAll elseRegex (fun _ => "\x7b\x7b- else\x7d\x7d".toList) P := h1
  rw [h1b]
  have hm := endif_matchAt_gen ext neg par hk
    (nl ++ replaceAll elseRegex (fun _ => "\x7b\x7b- else\x7d\x7d".toList) P) false
  have h2 := replaceAll_hit (L := "!-- ENDIF ".toList)
    (r := Re.cat [notRegex 1, parentRegex 2, .grp 3 (keyRegex ext), Re.lit " -->".toList])
    (by decide) (endifTail_within ext) (fun _ => "\x7b\x7b- end\x7d\x7d".toList)
    (replaceAll elseRegex (fun _ => "\x7b\x7b- else\x7d\x7d".toList) A)
    ("!-- ENDIF ".toList ++ (condPayload neg par p ++ " -->".toList))
    (nl ++ replaceAll elseRegex (fun _ => "\x7b\x7b- else\x7d\x7d".toList) P) hm rfl
  have h3 := replaceAll_skip (L := "!-- ENDIF ".toList)
    (r := Re.cat [notRegex 1, parentRegex 2, .grp 3 (keyRegex ext), Re.lit " -->".toList])
    (fun _ => "\x7b\x7b- end\x7d\x7d".toList) nl
    (replaceAll elseRegex (fun _ => "\x7b\x7b- else\x7d\x7d".toList) P)
    (fun c hc => (newline_ne_lt hnl c hc).1)
  rw [h3] at h2
  have e : ∀ X Y : Str, X ++ ('<' :: (("!-- ENDIF ".toList ++ (condPayload neg par p ++
      " -->".toList)) ++ nl)) ++ Y =
      X ++ ('<' :: ("!-- ENDIF ".toList ++ (condPayload neg par p ++ " -->".toList))) ++
        (nl ++ Y) := by
    intro X Y
    simp only [List.append_assoc, List.cons_append]
  rw [e]
  have h2b : replaceAll (endifRegex ext) (fun _ => "\x7b\x7b- end\x7d\x7d".toList)
      (replaceAll elseRegex (fun _ => "\x7b\x7b- else\x7d\x7d".toList) A ++
        ('<' :: ("!-- ENDIF ".toList ++ (condPayload neg par p ++ " -->".toList))) ++
        (nl ++ replaceAll elseRegex (fun _ => "\x7b\x7b- else\x7d\x7d".toList) P)) =
      replaceAll (endifRegex ext) (fun _ => "\x7b\x7b- end\x7d\x7d".toList)
          (replaceAll elseRegex (fun _ => "\x7b\x7b- else\x7d\x7d".toList) A) ++
        "\x7b\x7b- end\x7d\x7d".toList ++
        (nl ++ replaceAll (endifRegex ext) (fun _ => "\x7b\x7b- end\x7d\x7d".toList)
          (replaceAll elseRegex (fun _ => "\x7b\x7b- else\x7d\x7d".toList) P)) := h2
  rw [h2b]
  simp only [List.append_assoc]

/-! ## The loop in which a marker is replaced -/

/-- One loop of the Condition Pass on a template with a marker at which the
pattern of the loop matches, when no earlier place of the template has the
marker followed by a shorter run of line breaks: the marker and its line breaks
are replaced by the replacement made for them, and the texts before and behind
are worked on separately. -/
theorem phase_hit {L : Str} {r : Re} (hL : '<' ∉ L)
    (hr : r.Within (fun c => c ≠ '<' ∧ c ≠ '\x7b')) (f : Match → Outcome (Str × Str))
    (hok : ∀ b q m op, matchAt (Re.seq (Re.lit ('<' :: L)) r) b q = some m → f m = .ret op →
      OpOk op ∧ op.1 = m.whole)
    (mu nl : Str) (m0 : Match) (hm0w : m0.whole = '<' :: (mu ++ nl))
    (A P : Str) (hP : noNewlineHead P)
    (hm0 : matchAt (Re.seq (Re.lit ('<' :: L)) r) false (('<' :: (mu ++ nl)) ++ P) = some m0)
    (hhit : ∀ b q m P1, matchAt (Re.seq (Re.lit ('<' :: L)) r) b q = some m → noNewlineHead P1 →
      m.whole.isPrefixOf (('<' :: (mu ++ nl)) ++ P1) = true →
      ∃ n1 n2 r1, nl = n1 ++ n2 ∧ q = (('<' :: mu) ++ n1) ++ r1 ∧ noNewlineHead r1 ∧
        (n2 = [] → m = m0))
    (hns : NoShort ('<' :: mu) nl A) {ops : List (Str × Str)}
    (hops : collectOps f (findAll (Re.seq (Re.lit ('<' :: L)) r)
      (A ++ ('<' :: (mu ++ nl)) ++ P)) = .ret ops) :
    ∃ v, f m0 = .ret ('<' :: (mu ++ nl), '\x7b' :: v) ∧ '<' ∉ v ∧ (∀ op ∈ ops, OpOk op) ∧
      applyOps ops (A ++ ('<' :: (mu ++ nl)) ++ P) =
        applyOps ops A ++ ('\x7b' :: v) ++ applyOps ops P := by
  rw [findAll_hit hL hr A (mu ++ nl) P hm0 hm0w] at hops
  obtain ⟨oA, oR, hA, hR, e⟩ := collectOps_append hops
  obtain ⟨op0, oP, h0, hPo, e2⟩ := collectOps_cons_ret hR
  obtain ⟨⟨w, v, e1, hw1, hw2, ev, hv⟩, e0⟩ := hok false _ m0 op0 hm0 h0
  have ew : w = mu ++ nl := by
    rw [e0, hm0w] at e1
    simp only [List.cons.injEq, true_and] at e1
    exact e1.symm
  have eop : op0 = ('<' :: (mu ++ nl), '\x7b' :: v) := by
    obtain ⟨a, b⟩ := op0
    simp only at e1 ev
    rw [e1, ev, ew]
  have hokP : ∀ op ∈ oP, OpOk op := by
    intro op hop
    obtain ⟨m, hm, hf⟩ := collectOps_mem hPo op hop
    obtain ⟨b, q, hq⟩ := findAllFrom_forall
      (Q := fun m => ∃ b q, matchAt (Re.seq (Re.lit ('<' :: L)) r) b q = some m)
      (fun b s m h => ⟨b, s, h⟩) P false 0 m hm
    exact (hok b q m op hq hf).1
  have hokA : ∀ op ∈ oA,
      OpOk op ∧ (NoHit ('<' :: (mu ++ nl)) op.1 ∨ op = ('<' :: (mu ++ nl), '\x7b' :: v)) := by
    intro op hop
    obtain ⟨m, hm, hf⟩ := collectOps_mem hA op hop
    obtain ⟨x, q, b1, eA, hq⟩ := findAllFrom_pos A true 0 m hm
    obtain ⟨hop1, hop2⟩ := hok b1 q m op hq hf
    refine ⟨hop1, ?_⟩
    by_cases hh : ∃ P1, noNewlineHead P1 ∧ op.1.isPrefixOf (('<' :: (mu ++ nl)) ++ P1) = true
    · obtain ⟨P1, hP1, hpre⟩ := hh
      rw [hop2] at hpre
      obtain ⟨n1, n2, r1, en, eq, hr1, hm⟩ := hhit b1 q m P1 hq hP1 hpre
      by_cases hn2 : n2 = []
      · right
        have : m = m0 := hm hn2
        rw [this, h0] at hf
        simp only [Outcome.ret.injEq] at hf
        rw [← hf, eop]
      · exact absurd (hns x r1 n1 n2 (by rw [eA, eq]; simp only [List.append_assoc]) en hn2 hr1) id
    · left
      intro P1 hP1
      cases hc : op.1.isPrefixOf (('<' :: (mu ++ nl)) ++ P1) with
      | false => rfl
      | true => exact absurd ⟨P1, hP1, hc⟩ hh
  have hz : '<' ∉ mu ++ nl := by rw [← ew]; exact hw1
  have hzb : '\x7b' ∉ mu ++ nl := by rw [← ew]; exact hw2
  refine ⟨v, by rw [h0, eop], hv, ?_, ?_⟩
  · intro op hop
    rw [e, e2] at hop
    rcases List.mem_append.1 hop with h | h
    · exact (hokA op h).1
    · rcases List.mem_cons.1 h with h | h
      · rw [h]
        exact ⟨w, v, e1, hw1, hw2, ev, hv⟩
      · exact hokP op h
  · rw [e, e2, eop]
    exact applyOps_hit (mu ++ nl) v hz hzb hv oP hokP oA hokA A P hP

/-! ## The Condition Pass at a marker between two texts -/

/-- The Condition Pass at an `ELSE` marker followed by line breaks, between any
two texts. -/
theorem conditions_else (ext : Char → Bool) (fuel : Nat) (A nl P : Str)
    (hnl : ∀ c ∈ nl, (c == '\r' || c == '\n') = true) (hP : noNewlineHead P) :
    convertConditions ext fuel (A ++ ('<' :: ("!-- ELSE -->".toList ++ nl)) ++ P) =
      (convertConditionsOf ext fuel (A ++ ('<' :: ("!-- ELSE -->".toList ++ nl)) ++ P) A).bind
        fun X =>
          (convertConditionsOf ext fuel (A ++ ('<' :: ("!-- ELSE -->".toList ++ nl)) ++ P) P).map
            fun Y => (X ++ "\x7b\x7b- else\x7d\x7d".toList ++ Y, none) := by
  apply conditions_parts
  intro o1 o2 hF hG
  have hz : '<' ∉ "!-- ELSE -->".toList ++ nl := by
    intro h
    rcases List.mem_append.1 h with h | h
    · exact absurd h (by decide)
    · exact (newline_ne_lt hnl _ h).1 rfl
  have hok1 := ifFunctionOps_ok ext fuel _ hF
  have h1 := applyOps_live _ hz o1
    (fun op hop => ⟨(hok1 op hop).1, fun P1 _ => nohit_of_head (hok1 op hop).2.1 rfl⟩) A P hP
  rw [h1] at hG ⊢
  have hP1 := applyOps_noNewlineHead o1 (fun op hop => (hok1 op hop).1) P hP
  have hok2 := ifOps_ok ext fuel _ hG
  have h2 := applyOps_live _ hz o2
    (fun op hop => ⟨(hok2 op hop).1, fun P1 _ => nohit_of_head (hok2 op hop).2 rfl⟩)
    (applyOps o1 A) (applyOps o1 P) hP1
  rw [h2]
  exact elseEndif_else ext _ nl _ hnl
    (applyOps_noNewlineHead o2 (fun op hop => (hok2 op hop).1) _ hP1)

/-- The Condition Pass at an `ENDIF` marker followed by line breaks, between
any two texts. -/
theorem conditions_endif (ext : Char → Bool) (fuel : Nat) (neg par : Bool) {p : Str}
    (hk : isKey ext p = true) (A nl P : Str)
    (hnl : ∀ c ∈ nl, (c == '\r' || c == '\n') = true) (hP : noNewlineHead P) :
    convertConditions ext fuel
        (A ++ ('<' :: (("!-- ENDIF ".toList ++ (condPayload neg par p ++ " -->".toList)) ++ nl))
          ++ P) =
      (convertConditionsOf ext fuel
        (A ++ ('<' :: (("!-- ENDIF ".toList ++ (condPayload neg par p ++ " -->".toList)) ++ nl))
          ++ P) A).bind fun X =>
        (convertConditionsOf ext fuel
          (A ++ ('<' :: (("!-- ENDIF ".toList ++ (condPayload neg par p ++ " -->".toList)) ++ nl))
            ++ P) P).map fun Y => (X ++ ("\x7b\x7b- end\x7d\x7d".toList ++ nl) ++ Y, none) := by
  apply conditions_parts
  intro o1 o2 hF hG
  have hpay : ∀ c ∈ condPayload neg par p, c ≠ '<' :=
    condPayload_not_mem ext neg par hk (by decide) (by decide) (by decide)
  have hz : '<' ∉ ("!-- ENDIF ".toList ++ (condPayload neg par p ++ " -->".toList)) ++ nl := by
    intro h
    simp only [List.mem_append] at h
    rcases h with (h | h | h) | h
    · exact absurd h (by decide)
    · exact hpay _ h rfl
    · exact absurd h (by decide)
    · exact (newline_ne_lt hnl _ h).1 rfl
  have hok1 := ifFunctionOps_ok ext fuel _ hF
  have h1 := applyOps_live _ hz o1
    (fun op hop => ⟨(hok1 op hop).1, fun P1 _ => nohit_of_head (hok1 op hop).2.1 rfl⟩) A P hP
  rw [h1] at hG ⊢
  have hP1 := applyOps_noNewlineHead o1 (fun op hop => (hok1 op hop).1) P hP
  have hok2 := ifOps_ok ext fuel _ hG
  have h2 := applyOps_live _ hz o2
    (fun op hop => ⟨(hok2 op hop).1, fun P1 _ => nohit_of_head (hok2 op hop).2 rfl⟩)
    (applyOps o1 A) (applyOps o1 P) hP1
  rw [h2, elseEndif_endif ext neg par hk _ nl _ hnl]
  simp only [List.append_assoc]

/-- The Condition Pass at a function-based `IF` marker followed by line breaks,
between any two texts, when the marker does not stand before with a shorter
run of line breaks. -/
theorem conditions_ifFunction (ext : Char → Bool) (fuel : Nat) (neg : Bool) {n args : Str}
    (hn : isIdentifier ext n = true) (ha : fullMatch (argsStar ext) args = true)
    (A nl P : Str) (hnl : ∀ c ∈ nl, (c == '\r' || c == '\n') = true) (hP : noNewlineHead P)
    (hns : NoShort ('<' :: ("!-- IF ".toList ++ ((if neg then "!".toList else []) ++
      ("function.".toList ++ (n ++ (args ++ " -->".toList)))))) nl A)
    {call : Str} (hcall : convertMethod fuel n (reSplit functionsArgs args) = .ret call) :
    convertConditions ext fuel
        (A ++ ('<' :: (("!-- IF ".toList ++ ((if neg then "!".toList else []) ++
          ("function.".toList ++ (n ++ (args ++ " -->".toList))))) ++ nl)) ++ P) =
      (convertConditionsOf ext fuel
        (A ++ ('<' :: (("!-- IF ".toList ++ ((if neg then "!".toList else []) ++
          ("function.".toList ++ (n ++ (args ++ " -->".toList))))) ++ nl)) ++ P) A).bind fun X =>
        (convertConditionsOf ext fuel
          (A ++ ('<' :: (("!-- IF ".toList ++ ((if neg then "!".toList else []) ++
            ("function.".toList ++ (n ++ (args ++ " -->".toList))))) ++ nl)) ++ P) P).map
          fun Y => (X ++ ("\x7b\x7bif ".toList ++ (if neg then "not ".toList else []) ++
            " (".toList ++ call ++ ")\x7d\x7d".toList) ++ Y, none) := by
  apply conditions_parts
  intro o1 o2 hF hG
  have hm0 := ifFunction_matchAt ext neg hn ha nl P hnl hP false
  obtain ⟨v, hv0, hv, hok1, h1⟩ := phase_hit (L := "!-- IF ".toList)
    (r := Re.cat [notRegex 1, Re.lit "function.".toList, .grp 2 (identifierRegex ext),
      argsRegex ext 3, Re.lit " -->".toList, newlinesRegex])
    (by decide) (ifFunctionTail_within ext) (ifFunctionOp fuel)
    (fun b q m op hq hf => ⟨ifFunctionOp_ok ext fuel hq hf, by
      obtain ⟨_, _, e⟩ := ret_of_map hf
      rw [e]
      rfl⟩)
    ("!-- IF ".toList ++ ((if neg then "!".toList else []) ++
      ("function.".toList ++ (n ++ (args ++ " -->".toList))))) nl _ rfl A P hP hm0
    (fun b q m P1 hq hP1 hpre => by
      obtain ⟨n1, n2, r1, en, eq, hr1, em⟩ := ifFunction_hit ext neg hn ha nl P1 hP1 hq hpre
      refine ⟨n1, n2, r1, en, eq, hr1, ?_⟩
      intro h2
      rw [h2, List.append_nil] at en
      rw [em, en])
    hns hF
  have eR : ('\x7b' :: v) = "\x7b\x7bif ".toList ++ (if neg then "not ".toList else []) ++
      " (".toList ++ call ++ ")\x7d\x7d".toList := by
    have h3 : ifFunctionOp fuel
        ⟨("<!-- IF ".toList ++ ((if neg then "!".toList else []) ++ ("function.".toList ++
          (n ++ (args ++ " -->".toList))))) ++ nl,
          [(3, args), (2, n), (1, if neg then "!".toList else [])]⟩ =
        .ret (("<!-- IF ".toList ++ ((if neg then "!".toList else []) ++ ("function.".toList ++
          (n ++ (args ++ " -->".toList))))) ++ nl,
          "\x7b\x7bif ".toList ++ (if neg then "not ".toList else []) ++
            " (".toList ++ call ++ ")\x7d\x7d".toList) := by
      have g2 : (⟨("<!-- IF ".toList ++ ((if neg then "!".toList else []) ++ ("function.".toList ++
          (n ++ (args ++ " -->".toList))))) ++ nl,
          [(3, args), (2, n), (1, if neg then "!".toList else [])]⟩ : Match).group 2 = n := by
        simp [Match.group, List.lookup]
      have g3 : (⟨("<!-- IF ".toList ++ ((if neg then "!".toList else []) ++ ("function.".toList ++
          (n ++ (args ++ " -->".toList))))) ++ nl,
          [(3, args), (2, n), (1, if neg then "!".toList else [])]⟩ : Match).group 3 = args := by
        simp [Match.group, List.lookup]
      have g1 : (⟨("<!-- IF ".toList ++ ((if neg then "!".toList else []) ++ ("function.".toList ++
          (n ++ (args ++ " -->".toList))))) ++ nl,
          [(3, args), (2, n), (1, if neg then "!".toList else [])]⟩ : Match).group 1 =
          if neg then "!".toList else [] := by
        simp [Match.group, List.lookup]
      unfold ifFunctionOp
      rw [g2, g3, g1, hcall]
      cases neg <;> rfl
    rw [h3] at hv0
    simp only [Outcome.ret.injEq, Prod.mk.injEq] at hv0
    exact hv0.2.symm
  rw [h1] at hG ⊢
  have hok2 := ifOps_ok ext fuel _ hG
  rw [applyOps_dead v hv o2 (fun op hop => (hok2 op hop).1), elseEndif_dead ext _ v _ hv, eR]

/-- The Condition Pass at a plain `IF` marker followed by line breaks, between
any two texts, when the marker does not stand before with a shorter run of line
breaks. -/
theorem conditions_if (ext : Char → Bool) (fuel : Nat) (neg par : Bool) {p : Str}
    (hk : isKey ext p = true)
    (hf : par = true ∨ ∀ n, isIdentifier ext n = true → p ≠ "function.".toList ++ n)
    (A nl P : Str) (hnl : ∀ c ∈ nl, (c == '\r' || c == '\n') = true) (hP : noNewlineHead P)
    (hns : NoShort ('<' :: ("!-- IF ".toList ++ (condPayload neg par p ++ " -->".toList))) nl A)
    {E : Str} (hE : convertName fuel p = .ret E) :
    convertConditions ext fuel
        (A ++ ('<' :: (("!-- IF ".toList ++ (condPayload neg par p ++ " -->".toList)) ++ nl))
          ++ P) =
      (convertConditionsOf ext fuel
        (A ++ ('<' :: (("!-- IF ".toList ++ (condPayload neg par p ++ " -->".toList)) ++ nl))
          ++ P) A).bind fun X =>
        (convertConditionsOf ext fuel
          (A ++ ('<' :: (("!-- IF ".toList ++ (condPayload neg par p ++ " -->".toList)) ++ nl))
            ++ P) P).map fun Y =>
          (X ++ ("\x7b\x7bif ".toList ++ (if neg then "not ".toList else []) ++ E ++
            "\x7d\x7d".toList) ++ Y, none) := by
  apply conditions_parts
  intro o1 o2 hF hG
  have hpay : ∀ c ∈ condPayload neg par p, c ≠ '<' ∧ c ≠ '\x7b' := fun c hc =>
    ⟨condPayload_not_mem ext neg par hk (by decide) (by decide) (by decide) c hc,
      condPayload_not_mem ext neg par hk (by decide) (by decide) (by decide) c hc⟩
  have hmu : ∀ c ∈ "!-- IF ".toList ++ (condPayload neg par p ++ " -->".toList),
      c ≠ '<' ∧ c ≠ '\x7b' := by
    intro c h
    simp only [List.mem_append] at h
    rcases h with h | h | h
    · simp only [String.toList, List.mem_cons, List.mem_singleton, List.not_mem_nil,
        or_false] at h
      rcases h with h | h | h | h | h | h | h <;> subst h <;> decide
    · exact hpay c h
    · simp only [String.toList, List.mem_cons, List.mem_singleton, List.not_mem_nil,
        or_false] at h
      rcases h with h | h | h | h <;> subst h <;> decide
  have hz : '<' ∉ ("!-- IF ".toList ++ (condPayload neg par p ++ " -->".toList)) ++ nl := by
    intro h
    rcases List.mem_append.1 h with h | h
    · exact (hmu _ h).1 rfl
    · exact (newline_ne_lt hnl _ h).1 rfl
  -- the first loop leaves the marker alone
  have hok1 := ifFunctionOps_ok ext fuel _ hF
  have h1 := applyOps_live _ hz o1
    (fun op hop => ⟨(hok1 op hop).1, fun P1 _ => by
      obtain ⟨b, q, m, hq, e⟩ := (hok1 op hop).2.2
      have := ifFunction_nohit ext neg par hk hf (nl ++ P1) hq
      rw [e]
      simpa only [List.append_assoc, List.cons_append] using this⟩) A P hP
  rw [h1] at hG ⊢
  have hP1 := applyOps_noNewlineHead o1 (fun op hop => (hok1 op hop).1) P hP
  have hns1 := noShort_applyOps _ nl hmu hnl o1 (fun op hop => (hok1 op hop).1) A hns
  -- the second loop replaces it
  have hm0 := if_matchAt_gen ext neg par hk nl (applyOps o1 P) hnl hP1 false
  obtain ⟨v, hv0, hv, hok2, h2⟩ := phase_hit (L := "!-- IF ".toList)
    (r := Re.cat [notRegex 1, parentRegex 2, .grp 3 (keyRegex ext), Re.lit " -->".toList,
      newlinesRegex])
    (by decide) (ifTail_within ext) (ifOp fuel)
    (fun b q m op hq hf => ⟨ifOp_ok ext fuel hq hf, by
      obtain ⟨_, _, e⟩ := ret_of_map hf
      rw [e]
      rfl⟩)
    ("!-- IF ".toList ++ (condPayload neg par p ++ " -->".toList)) nl _ rfl (applyOps o1 A)
    (applyOps o1 P) hP1 hm0
    (fun b q m P1 hq hP1 hpre => by
      obtain ⟨n1, n2, r1, en, eq, hr1, em⟩ := if_hit ext neg par hk nl P1 hP1 hq hpre
      refine ⟨n1, n2, r1, en, eq, hr1, ?_⟩
      intro h2
      rw [h2, List.append_nil] at en
      rw [em, en])
    hns1 hG
  have eR : ('\x7b' :: v) = "\x7b\x7bif ".toList ++ (if neg then "not ".toList else []) ++ E ++
      "\x7d\x7d".toList := by
    have h3 : ifOp fuel
        ⟨("<!-- IF ".toList ++ (condPayload neg par p ++ " -->".toList)) ++ nl,
          condCaps neg par p⟩ =
        .ret (("<!-- IF ".toList ++ (condPayload neg par p ++ " -->".toList)) ++ nl,
          "\x7b\x7bif ".toList ++ (if neg then "not ".toList else []) ++ E ++
            "\x7d\x7d".toList) := by
      unfold ifOp
      rw [condCaps_group3, condCaps_group1, hE]
      cases neg <;> rfl
    rw [h3] at hv0
    simp only [Outcome.ret.injEq, Prod.mk.injEq] at hv0
    exact hv0.2.symm
  rw [h2, elseEndif_dead ext _ v _ hv, eR]

/-! ## The argument list of a function-based marker -/

/-- A greedy `[…]*` in front of a pattern `R`: the preferred match takes all the
characters of the class. -/
theorem head_star_cls_then (p : Char → Bool) (R : Re) (caps : List (Nat × Str)) (t : Str)
    (ht : ∀ c tl, t = c :: tl → p c = false) (s0 : MState) :
    ∀ (sp : Str) (b : Bool), (∀ c ∈ sp, p c = true) →
      (R.run ⟨caps, b && sp.isEmpty, t⟩).head? = some s0 →
      ((Re.seq (Re.star true (Re.cls p)) R).run ⟨caps, b, sp ++ t⟩).head? = some s0 := by
  intro sp
  induction sp with
  | nil =>
    intro b _ h
    have : (Re.star true (Re.cls p)).run ⟨caps, b, t⟩ = [⟨caps, b, t⟩] :=
      run_star_cls_stop _ _ _ ht
    simp only [List.nil_append, run_seq, this, List.flatMap_cons, List.flatMap_nil, List.append_nil]
    simpa using h
  | cons x xs ih =>
    intro b hsp h
    have h2 := ih false (fun c hc => hsp c (by simp [hc])) (by simpa using h)
    have hx : p x = true := hsp x (by simp)
    have e : (Re.star true (Re.cls p)).run ⟨caps, b, x :: (xs ++ t)⟩ =
        (Re.star true (Re.cls p)).run ⟨caps, false, xs ++ t⟩ ++ [⟨caps, b, x :: (xs ++ t)⟩] :=
      run_star_cls_cons _ _ _ _ _ hx
    rw [run_seq] at h2
    rw [List.cons_append, run_seq, e, List.flatMap_append]
    cases hl : ((Re.star true (Re.cls p)).run ⟨caps, false, xs ++ t⟩).flatMap
        (fun s2 => R.run s2) with
    | nil => rw [hl] at h2; simp at h2
    | cons a as => rw [hl] at h2; simpa using h2

/-- The separator pattern takes a whole separator when no further space
follows. -/
theorem functionsArgs_matchAt_sep {sep : Str} (hsep : IsSep sep) (y : Str)
    (hy : ∀ c tl, y = c :: tl → (c == ' ') = false) (b : Bool) :
    matchAt functionsArgs b (sep ++ y) = some ⟨sep, []⟩ := by
  obtain ⟨sp1, sp2, e, h1, h2⟩ := hsep
  have hne : sep ≠ [] := by rw [e]; simp
  apply @matchAt_of_head _ _ (false && sp2.isEmpty) _ _ _ _ hne
  have hin : ((Re.seq (Re.star true (Re.cls (fun c => c == ' '))) Re.eps).run
      ⟨[], false, sp2 ++ y⟩).head? = some ⟨[], false && sp2.isEmpty, y⟩ :=
    head_star_cls_then _ Re.eps [] y hy _ sp2 false h2 (by simp [run_eps])
  have hmid : ((Re.seq (Re.chr ',') (Re.seq (Re.star true (Re.cls (fun c => c == ' ')))
      Re.eps)).run ⟨[], b && sp1.isEmpty, ',' :: (sp2 ++ y)⟩).head? =
      some ⟨[], false && sp2.isEmpty, y⟩ := by
    rw [run_seq, run_chr_cons]
    simpa using hin
  have := head_star_cls_then (fun c => c == ' ') _ [] (',' :: (sp2 ++ y))
    (by
      intro c tl ec
      simp only [List.cons.injEq] at ec
      rw [← ec.1]
      decide) _ sp1 b h1 hmid
  rw [e]
  simpa [functionsArgs, Re.cat, List.append_assoc] using this

theorem mem_run_functionsArgs {st s2 : MState} (h : s2 ∈ functionsArgs.run st) :
    ∃ sep, IsSep sep ∧ st.rest = sep ++ s2.rest := by
  simp only [functionsArgs, Re.cat] at h
  obtain ⟨s1, h1, g1⟩ := mem_run_seq.1 h
  obtain ⟨s3, h3, g3⟩ := mem_run_seq.1 g1
  obtain ⟨s4, h4, g4⟩ := mem_run_seq.1 g3
  simp only [run_eps, List.mem_singleton] at g4
  subst g4
  obtain ⟨sp1, e1, p1, _⟩ := mem_run_star_cls h1
  obtain ⟨e3, _, _⟩ := mem_run_chr h3
  obtain ⟨sp2, e4, p4, _⟩ := mem_run_star_cls h4
  refine ⟨sp1 ++ ',' :: sp2, ⟨sp1, sp2, rfl, p1, p4⟩, ?_⟩
  rw [e1, e3, e4]
  simp

/-- A text matched by the argument pattern is a list of separators, each
followed by a path of the key grammar. -/
theorem reach_args (ext : Char → Bool) {s st : MState}
    (h : Reach (fun x => (Re.seq functionsArgs (keyRegex ext)).run x) s st) :
    ∃ items : List (Str × Str), (∀ it ∈ items, IsSep it.1 ∧ isKey ext it.2 = true) ∧
      s.rest = (items.map (fun it => it.1 ++ it.2)).flatten ++ st.rest := by
  induction h with
  | refl s => exact ⟨[], by simp, by simp⟩
  | @step s s2 st hs _ _ ih =>
    obtain ⟨items, hit, e⟩ := ih
    obtain ⟨s1, h1, g1⟩ := mem_run_seq.1 hs
    obtain ⟨sep, hsep, e1⟩ := mem_run_functionsArgs h1
    obtain ⟨k, ek⟩ := (keyRegex ext).run_suffix g1
    have hk : isKey ext k = true := fullMatch_of_run (noBot_keyRegex ext) g1 ek
    refine ⟨(sep, k) :: items, ?_, ?_⟩
    · intro it hmem
      rcases List.mem_cons.1 hmem with h | h
      · rw [h]
        exact ⟨hsep, hk⟩
      · exact hit it h
    · rw [e1, ek, e]
      simp

theorem key_not_sep (ext : Char → Bool) {k : Str} (hk : isKey ext k = true) :
    ∀ c ∈ k, c ≠ ' ' ∧ c ≠ ',' := by
  intro c hc
  have := isKey_chars ext hk c hc
  constructor
  · intro e
    rw [e, keyChar_of_isDelim ext (by decide)] at this
    exact absurd this (by simp)
  · intro e
    rw [e, keyChar_of_isDelim ext (by decide)] at this
    exact absurd this (by simp)

/-- The pieces into which `functionsArgs` splits a list of separators and
paths: the text before the first separator, and the paths. -/
theorem splitFrom_items (ext : Char → Bool) (items : List (Str × Str)) :
    (∀ it ∈ items, IsSep it.1 ∧ isKey ext it.2 = true) → ∀ (pre : Str),
      (∀ c ∈ pre, c ≠ ' ' ∧ c ≠ ',') → ∀ b,
      splitFrom functionsArgs b 0 (pre ++ (items.map (fun it => it.1 ++ it.2)).flatten) =
        pre :: items.map (fun it => it.2) := by
  induction items with
  | nil =>
    intro _ pre hpre b
    have := splitFrom_skip functionsArgs pre [] [] []
      (fun c hc b cs => functionsArgs_matchAt_none c cs b (hpre c hc).1 (hpre c hc).2)
      (fun _ => rfl) b
    simpa using this
  | cons it rest ih =>
    intro hit pre hpre b
    obtain ⟨hsep, hk⟩ := hit it (by simp)
    have hkc := key_not_sep ext hk
    have hrest := ih (fun x hx => hit x (by simp [hx])) it.2 hkc
    have hhead : ∀ c tl, it.2 ++ (rest.map (fun it => it.1 ++ it.2)).flatten = c :: tl →
        (c == ' ') = false := by
      intro c tl e
      obtain ⟨c0, cs0, e0, _⟩ := isKey_head ext hk
      rw [e0] at e
      simp only [List.cons_append, List.cons.injEq] at e
      rw [← e.1]
      simpa using (hkc c0 (by rw [e0]; simp)).1
    have e3 : ∀ b, splitFrom functionsArgs b 0
        (it.1 ++ (it.2 ++ (rest.map (fun it => it.1 ++ it.2)).flatten)) =
        [] :: it.2 :: rest.map (fun it => it.2) := by
      intro b
      obtain ⟨sp1, sp2, es, _, _⟩ := hsep
      rw [splitFrom_match (functionsArgs_matchAt_sep ⟨sp1, sp2, es, by assumption, by assumption⟩
        _ hhead b) rfl (by rw [es]; simp), hrest]
    have := splitFrom_skip functionsArgs pre _ [] (it.2 :: rest.map (fun it => it.2))
      (fun c hc b cs => functionsArgs_matchAt_none c cs b (hpre c hc).1 (hpre c hc).2) e3 b
    simp only [List.map_cons, List.flatten_cons, List.append_assoc]
    simpa using this

/-- The arguments of a function-based marker split into an empty first piece
and paths of the key grammar. -/
theorem reSplit_args (ext : Char → Bool) {a : Str} (ha : fullMatch (argsStar ext) a = true) :
    ∃ keys : List Str, (∀ k ∈ keys, isKey ext k = true) ∧
      reSplit functionsArgs a = [] :: keys := by
  obtain ⟨st, hst, e⟩ := fullMatch_iff.1 ha
  obtain ⟨items, hit, ei⟩ := reach_args ext (mem_run_star.1 hst)
  simp only [e, List.append_nil] at ei
  refine ⟨items.map (fun it => it.2), ?_, ?_⟩
  · intro k hk
    obtain ⟨it, hmem, e2⟩ := List.mem_map.1 hk
    rw [← e2]
    exact (hit it hmem).2
  · have := splitFrom_items ext items hit [] (by simp) true
    rw [ei]
    simpa [reSplit] using this

/-! ## The loops of the Condition Pass return -/

theorem exists_length_bound (l : List Str) : ∃ N, ∀ k ∈ l, k.length + 1 < N := by
  induction l with
  | nil => exact ⟨0, by simp⟩
  | cons a as ih =>
    obtain ⟨N, hN⟩ := ih
    refine ⟨N + a.length + 2, ?_⟩
    intro k hk
    rcases List.mem_cons.1 hk with h | h
    · rw [h]; omega
    · have := hN k h
      omega

/-- The call made for the arguments of a function-based marker returns, with
the same text for every iteration bound from some bound on. -/
theorem convertMethod_returns (ext : Char → Bool) (n : Str) {a : Str}
    (ha : fullMatch (argsStar ext) a = true) :
    ∃ N call, ∀ fuel, N ≤ fuel → convertMethod fuel n (reSplit functionsArgs a) = .ret call := by
  obtain ⟨keys, hkeys, e⟩ := reSplit_args ext ha
  obtain ⟨N, hN⟩ := exists_length_bound keys
  obtain ⟨Es, hEs⟩ := convertName_keys ext N keys hkeys hN
  refine ⟨N, n ++ " $ ".toList ++ strJoin Es " ".toList, ?_⟩
  intro fuel hfuel
  rw [e]
  apply convertMethod_list
  exact List.Forall₂.imp (fun k E h => convertName_mono h hfuel) hEs

/-- A match of `ifFunctionRegex`: its third group is matched by the argument
pattern. -/
theorem ifFunction_match_args (ext : Char → Bool) {b : Bool} {s : Str} {m : Match}
    (hm : matchAt (ifFunctionRegex ext) b s = some m) :
    fullMatch (argsStar ext) (m.group 3) = true := by
  have hm1 : matchAt (Re.seq (Re.lit ('<' :: "!-- IF ".toList)) (Re.cat [notRegex 1,
      Re.lit "function.".toList, .grp 2 (identifierRegex ext), argsRegex ext 3,
      Re.lit " -->".toList, newlinesRegex])) b s = some m := hm
  obtain ⟨s1, w2, st, b1, _, hst, _, _, _, hcaps⟩ := match_lit (ifFunctionTail_within ext) hm1
  simp only [Re.cat] at hst
  obtain ⟨s2, _, g2⟩ := mem_run_seq.1 hst
  obtain ⟨s3, _, g3⟩ := mem_run_seq.1 g2
  obtain ⟨s4, _, g4⟩ := mem_run_seq.1 g3
  obtain ⟨s5, h5, g5⟩ := mem_run_seq.1 g4
  obtain ⟨s6, h6, g6⟩ := mem_run_seq.1 g5
  obtain ⟨sa, hsa, a, ea, e5⟩ := mem_run_grp_text (a := argsStar ext) h5
  have hfull : fullMatch (argsStar ext) a = true := fullMatch_of_run (noBot_argsStar ext) hsa ea
  obtain ⟨_, c6⟩ := mem_run_lit h6
  have c7 : st.caps = s6.caps :=
    Re.run_caps (Re.seq newlinesRegex Re.eps) rfl _ _ g6
  have hc : m.caps = (3, a) :: sa.caps := by
    rw [hcaps, c7, c6, e5]
  obtain ⟨mw, mc⟩ := m
  simp only at hc
  rw [hc, group_cons_self mw 2 a]
  exact hfull

theorem ifFunctionOp_returns (ext : Char → Bool) {b : Bool} {s : Str} {m : Match}
    (hm : matchAt (ifFunctionRegex ext) b s = some m) :
    ∃ N op, ∀ fuel, N ≤ fuel → ifFunctionOp fuel m = .ret op := by
  obtain ⟨N, call, h⟩ := convertMethod_returns ext (m.group 2) (ifFunction_match_args ext hm)
  refine ⟨N, (m.group 0, "\x7b\x7bif ".toList ++ (if m.group 1 ≠ [] then "not ".toList else [])
    ++ " (".toList ++ call ++ ")\x7d\x7d".toList), fun fuel hfuel => ?_⟩
  unfold ifFunctionOp
  rw [h fuel hfuel]
  rfl

theorem ifOp_returns (ext : Char → Bool) {b : Bool} {s : Str} {m : Match}
    (hm : matchAt (ifRegex ext) b s = some m) :
    ∃ N op, ∀ fuel, N ≤ fuel → ifOp fuel m = .ret op := by
  obtain ⟨E, hE⟩ := convertName_key ext (if_match ext hm).2 ((m.group 3).length + 2)
    (by omega)
  refine ⟨(m.group 3).length + 2, (m.group 0, "\x7b\x7bif ".toList ++
    (if m.group 1 ≠ [] then "not ".toList else []) ++ E ++ "\x7d\x7d".toList),
    fun fuel hfuel => ?_⟩
  unfold ifOp
  rw [convertName_mono hE hfuel]
  rfl

theorem collectOps_returns (f : Nat → Match → Outcome (Str × Str)) :
    ∀ ms : List Match, (∀ m ∈ ms, ∃ N op, ∀ fuel, N ≤ fuel → f fuel m = .ret op) →
      ∃ N ops, ∀ fuel, N ≤ fuel → collectOps (f fuel) ms = .ret ops := by
  intro ms
  induction ms with
  | nil => intro _; exact ⟨0, [], fun _ _ => rfl⟩
  | cons m ms ih =>
    intro h
    obtain ⟨N1, op, h1⟩ := h m (by simp)
    obtain ⟨N2, ops, h2⟩ := ih (fun x hx => h x (by simp [hx]))
    refine ⟨N1 + N2, op :: ops, fun fuel hfuel => ?_⟩
    simp only [collectOps, h1 fuel (by omega), h2 fuel (by omega), Outcome.bind]

/-- The Condition Pass returns on every template: from some iteration bound
on, its two loops make the same replacements, and the pass carried out on a
text returns what the replacements and the last two statements make of it. -/
theorem convertConditionsOf_returns (ext : Char → Bool) (T : Str) :
    ∃ N o1 o2, ∀ fuel, N ≤ fuel → ∀ s,
      convertConditionsOf ext fuel T s =
        .ret (replaceElseEndif ext (applyOps o2 (applyOps o1 s))) := by
  obtain ⟨N1, o1, h1⟩ := collectOps_returns ifFunctionOp (findAll (ifFunctionRegex ext) T)
    (fun m hm => by
      obtain ⟨b, q, hq⟩ := findAllFrom_forall
        (Q := fun m => ∃ b q, matchAt (ifFunctionRegex ext) b q = some m)
        (fun b s m h => ⟨b, s, h⟩) T true 0 m hm
      exact ifFunctionOp_returns ext hq)
  obtain ⟨N2, o2, h2⟩ := collectOps_returns ifOp (findAll (ifRegex ext) (applyOps o1 T))
    (fun m hm => by
      obtain ⟨b, q, hq⟩ := findAllFrom_forall
        (Q := fun m => ∃ b q, matchAt (ifRegex ext) b q = some m)
        (fun b s m h => ⟨b, s, h⟩) _ true 0 m hm
      exact ifOp_returns ext hq)
  refine ⟨N1 + N2, o1, o2, fun fuel hfuel s => ?_⟩
  rw [convertConditionsOf_ops, h1 fuel (by omega)]
  simp only [Outcome.bind]
  rw [h2 fuel (by omega)]

/-! ## Line breaks behind a condition marker, in any template -/

theorem ifMarker_eq (neg par : Bool) (up p : Str)
    (hpar : up = if par then "../".toList else []) :
    "<!-- IF ".toList ++ ((if neg then "!".toList else []) ++ (up ++ p)) ++ " -->".toList =
      '<' :: ("!-- IF ".toList ++ (condPayload neg par p ++ " -->".toList)) := by
  rw [hpar]
  simp [condPayload, List.append_assoc]

theorem endifMarker_eq (neg par : Bool) (up p : Str)
    (hpar : up = if par then "../".toList else []) :
    "<!-- ENDIF ".toList ++ ((if neg then "!".toList else []) ++ (up ++ p)) ++ " -->".toList =
      '<' :: ("!-- ENDIF ".toList ++ (condPayload neg par p ++ " -->".toList)) := by
  rw [hpar]
  simp [condPayload, List.append_assoc]

theorem ifFunctionMarker_eq (neg : Bool) (n args : Str) :
    "<!-- IF ".toList ++ ((if neg then "!".toList else []) ++ ("function.".toList ++ n ++ args))
        ++ " -->".toList =
      '<' :: ("!-- IF ".toList ++ ((if neg then "!".toList else []) ++
        ("function.".toList ++ (n ++ (args ++ " -->".toList))))) := by
  simp [List.append_assoc]

theorem marker_text_eq (A M nl P mu : Str) (h : M = '<' :: mu) :
    A ++ M ++ nl ++ P = A ++ ('<' :: (mu ++ nl)) ++ P := by
  rw [h]
  simp [List.append_assoc]

/-- Claim C13 (amended): in any template, an `ELSE` marker is replaced together
with the whole run of line breaks that follows it, and so is an `IF` marker
(plain or function-based) unless the same marker stands earlier in the template
followed by a shorter run of line breaks that is a beginning of this one; an
`ENDIF` marker is replaced alone, and the line breaks behind it stay. For the
template made of a text `A`, the marker, the line breaks `nl` and a text `P`
that begins with no line break, and for every iteration bound from some bound
on, the Condition Pass returns what it makes of `A`, the replacement of the
marker (followed by `nl` in the case of `ENDIF`), and what it makes of `P`. -/
theorem C13_line_breaks (ext : Char → Bool) (neg : Bool) (up p n args : Str) (A nl P : Str)
    (hup : up = [] ∨ up = "../".toList) (hk : isKey ext p = true)
    (hf : up = "../".toList ∨ ∀ m, isIdentifier ext m = true → p ≠ "function.".toList ++ m)
    (hn : isIdentifier ext n = true) (ha : fullMatch (argsStar ext) args = true)
    (hnl : ∀ c ∈ nl, (c == '\r' || c == '\n') = true) (hP : noNewlineHead P) :
    (shortRunIn ("<!-- IF ".toList ++ ((if neg then "!".toList else []) ++ (up ++ p))
        ++ " -->".toList) nl A = false →
      ∃ E N, convertName (p.length + 2) p = .ret E ∧ ∀ fuel, N ≤ fuel → ∃ X Y,
        convertConditionsOf ext fuel (A ++ ("<!-- IF ".toList ++
          ((if neg then "!".toList else []) ++ (up ++ p)) ++ " -->".toList) ++ nl ++ P) A =
          .ret X ∧
        convertConditionsOf ext fuel (A ++ ("<!-- IF ".toList ++
          ((if neg then "!".toList else []) ++ (up ++ p)) ++ " -->".toList) ++ nl ++ P) P =
          .ret Y ∧
        convertConditions ext fuel (A ++ ("<!-- IF ".toList ++
          ((if neg then "!".toList else []) ++ (up ++ p)) ++ " -->".toList) ++ nl ++ P) =
          .ret (X ++ ("\x7b\x7bif ".toList ++ (if neg then "not ".toList else []) ++ E
            ++ "\x7d\x7d".toList) ++ Y, none)) ∧
    (shortRunIn ("<!-- IF ".toList ++ ((if neg then "!".toList else []) ++
        ("function.".toList ++ n ++ args)) ++ " -->".toList) nl A = false →
      ∃ call N, ∀ fuel, N ≤ fuel →
        convertMethod fuel n (reSplit functionsArgs args) = .ret call ∧ ∃ X Y,
        convertConditionsOf ext fuel (A ++ ("<!-- IF ".toList ++
          ((if neg then "!".toList else []) ++ ("function.".toList ++ n ++ args))
            ++ " -->".toList) ++ nl ++ P) A = .ret X ∧
        convertConditionsOf ext fuel (A ++ ("<!-- IF ".toList ++
          ((if neg then "!".toList else []) ++ ("function.".toList ++ n ++ args))
            ++ " -->".toList) ++ nl ++ P) P = .ret Y ∧
        convertConditions ext fuel (A ++ ("<!-- IF ".toList ++
          ((if neg then "!".toList else []) ++ ("function.".toList ++ n ++ args))
            ++ " -->".toList) ++ nl ++ P) =
          .ret (X ++ ("\x7b\x7bif ".toList ++ (if neg then "not ".toList else []) ++ " (".toList
            ++ call ++ ")\x7d\x7d".toList) ++ Y, none)) ∧
    (∃ N, ∀ fuel, N ≤ fuel → ∃ X Y,
      convertConditionsOf ext fuel (A ++ "<!-- ELSE -->".toList ++ nl ++ P) A = .ret X ∧
      convertConditionsOf ext fuel (A ++ "<!-- ELSE -->".toList ++ nl ++ P) P = .ret Y ∧
      convertConditions ext fuel (A ++ "<!-- ELSE -->".toList ++ nl ++ P) =
        .ret (X ++ "\x7b\x7b- else\x7d\x7d".toList ++ Y, none)) ∧
    ∃ N, ∀ fuel, N ≤ fuel → ∃ X Y,
      convertConditionsOf ext fuel (A ++ ("<!-- ENDIF ".toList ++
        ((if neg then "!".toList else []) ++ (up ++ p)) ++ " -->".toList) ++ nl ++ P) A =
        .ret X ∧
      convertConditionsOf ext fuel (A ++ ("<!-- ENDIF ".toList ++
        ((if neg then "!".toList else []) ++ (up ++ p)) ++ " -->".toList) ++ nl ++ P) P =
        .ret Y ∧
      convertConditions ext fuel (A ++ ("<!-- ENDIF ".toList ++
        ((if neg then "!".toList else []) ++ (up ++ p)) ++ " -->".toList) ++ nl ++ P) =
        .ret (X ++ "\x7b\x7b- end\x7d\x7d".toList ++ nl ++ Y, none) := by
  obtain ⟨par, hpar⟩ : ∃ par : Bool, up = if par then "../".toList else [] := by
    rcases hup with h | h
    · exact ⟨false, by rw [h]; rfl⟩
    · exact ⟨true, by rw [h]; rfl⟩
  have hf2 : par = true ∨ ∀ m, isIdentifier ext m = true → p ≠ "function.".toList ++ m := by
    rcases hf with h | h
    · left
      cases par with
      | true => rfl
      | false =>
        rw [h] at hpar
        exact absurd hpar (by decide)
    · exact Or.inr h
  refine ⟨?_, ?_, ?_, ?_⟩
  · intro hs
    have eM := ifMarker_eq neg par up p hpar
    rw [marker_text_eq A _ nl P _ eM]
    rw [eM] at hs
    have hns := noShort_of_shortRunIn hnl hs
    obtain ⟨E, hE⟩ := convertName_key ext hk (p.length + 2) (by omega)
    obtain ⟨N, o1, o2, hret⟩ := convertConditionsOf_returns ext
      (A ++ ('<' :: (("!-- IF ".toList ++ (condPayload neg par p ++ " -->".toList)) ++ nl)) ++ P)
    refine ⟨E, N + (p.length + 2), hE, fun fuel hfuel => ⟨_, _, hret fuel (by omega) A,
      hret fuel (by omega) P, ?_⟩⟩
    rw [conditions_if ext fuel neg par hk hf2 A nl P hnl hP hns
      (convertName_mono hE (by omega)), hret fuel (by omega) A, hret fuel (by omega) P]
    rfl
  · intro hs
    have eM := ifFunctionMarker_eq neg n args
    rw [marker_text_eq A _ nl P _ eM]
    rw [eM] at hs
    have hns := noShort_of_shortRunIn hnl hs
    obtain ⟨N1, call, hcall⟩ := convertMethod_returns ext n ha
    obtain ⟨N, o1, o2, hret⟩ := convertConditionsOf_returns ext
      (A ++ ('<' :: (("!-- IF ".toList ++ ((if neg then "!".toList else []) ++
        ("function.".toList ++ (n ++ (args ++ " -->".toList))))) ++ nl)) ++ P)
    refine ⟨call, N + N1, fun fuel hfuel => ⟨hcall fuel (by omega), _, _,
      hret fuel (by omega) A, hret fuel (by omega) P, ?_⟩⟩
    rw [conditions_ifFunction ext fuel neg hn ha A nl P hnl hP hns (hcall fuel (by omega)),
      hret fuel (by omega) A, hret fuel (by omega) P]
    rfl
  · have eT : A ++ "<!-- ELSE -->".toList ++ nl ++ P =
        A ++ ('<' :: ("!-- ELSE -->".toList ++ nl)) ++ P := marker_text_eq A _ nl P _ rfl
    rw [eT]
    obtain ⟨N, o1, o2, hret⟩ := convertConditionsOf_returns ext
      (A ++ ('<' :: ("!-- ELSE -->".toList ++ nl)) ++ P)
    refine ⟨N, fun fuel hfuel => ⟨_, _, hret fuel hfuel A, hret fuel hfuel P, ?_⟩⟩
    rw [conditions_else ext fuel A nl P hnl hP, hret fuel hfuel A, hret fuel hfuel P]
    rfl
  · have eM := endifMarker_eq neg par up p hpar
    rw [marker_text_eq A _ nl P _ eM]
    obtain ⟨N, o1, o2, hret⟩ := convertConditionsOf_returns ext
      (A ++ ('<' :: (("!-- ENDIF ".toList ++ (condPayload neg par p ++ " -->".toList)) ++ nl))
        ++ P)
    refine ⟨N, fun fuel hfuel => ⟨_, _, hret fuel hfuel A, hret fuel hfuel P, ?_⟩⟩
    rw [conditions_endif ext fuel neg par hk A nl P hnl hP, hret fuel hfuel A,
      hret fuel hfuel P]
    simp only [Outcome.bind, Outcome.map, List.append_assoc]

/-- Claim C13 at the second `<!-- IF a -->` of the template
`<!-- IF a -->`, two line breaks, `X`, `<!-- IF a -->`, two line breaks,
`Y<!-- ELSE -->`, a line break and `Z`, at a function-based marker, an `ELSE`
marker and an `ENDIF` marker in its place, and the result of the Condition Pass
on a template with the three markers. -/
theorem C13_line_breaks_witness :
    ((∃ E N, convertName 3 "a".toList = .ret E ∧ ∀ fuel, N ≤ fuel → ∃ X Y,
        convertConditionsOf asciiLetters fuel
          "<!-- IF a -->\n\nX<!-- IF a -->\n\nY<!-- ELSE -->\nZ".toList
          "<!-- IF a -->\n\nX".toList = .ret X ∧
        convertConditionsOf asciiLetters fuel
          "<!-- IF a -->\n\nX<!-- IF a -->\n\nY<!-- ELSE -->\nZ".toList
          "Y<!-- ELSE -->\nZ".toList = .ret Y ∧
        convertConditions asciiLetters fuel
          "<!-- IF a -->\n\nX<!-- IF a -->\n\nY<!-- ELSE -->\nZ".toList =
          .ret (X ++ ("\x7b\x7bif ".toList ++ E ++ "\x7d\x7d".toList) ++ Y, none)) ∧
      (∃ call N, ∀ fuel, N ≤ fuel →
        convertMethod fuel "f".toList (reSplit functionsArgs ", b".toList) = .ret call ∧ ∃ X Y,
        convertConditionsOf asciiLetters fuel
          "<!-- IF a -->\n\nX<!-- IF function.f, b -->\n\nY<!-- ELSE -->\nZ".toList
          "<!-- IF a -->\n\nX".toList = .ret X ∧
        convertConditionsOf asciiLetters fuel
          "<!-- IF a -->\n\nX<!-- IF function.f, b -->\n\nY<!-- ELSE -->\nZ".toList
          "Y<!-- ELSE -->\nZ".toList = .ret Y ∧
        convertConditions asciiLetters fuel
          "<!-- IF a -->\n\nX<!-- IF function.f, b -->\n\nY<!-- ELSE -->\nZ".toList =
          .ret (X ++ ("\x7b\x7bif  (".toList ++ call ++ ")\x7d\x7d".toList) ++ Y, none)) ∧
      (∃ N, ∀ fuel, N ≤ fuel → ∃ X Y,
        convertConditionsOf asciiLetters fuel
          "<!-- IF a -->\n\nX<!-- ELSE -->\n\nY<!-- ELSE -->\nZ".toList
          "<!-- IF a -->\n\nX".toList = .ret X ∧
        convertConditionsOf asciiLetters fuel
          "<!-- IF a -->\n\nX<!-- ELSE -->\n\nY<!-- ELSE -->\nZ".toList
          "Y<!-- ELSE -->\nZ".toList = .ret Y ∧
        convertConditions asciiLetters fuel
          "<!-- IF a -->\n\nX<!-- ELSE -->\n\nY<!-- ELSE -->\nZ".toList =
          .ret (X ++ "\x7b\x7b- else\x7d\x7d".toList ++ Y, none)) ∧
      ∃ N, ∀ fuel, N ≤ fuel → ∃ X Y,
        convertConditionsOf asciiLetters fuel
          "<!-- IF a -->\n\nX<!-- ENDIF a -->\n\nY<!-- ELSE -->\nZ".toList
          "<!-- IF a -->\n\nX".toList = .ret X ∧
        convertConditionsOf asciiLetters fuel
          "<!-- IF a -->\n\nX<!-- ENDIF a -->\n\nY<!-- ELSE -->\nZ".toList
          "Y<!-- ELSE -->\nZ".toList = .ret Y ∧
        convertConditions asciiLetters fuel
          "<!-- IF a -->\n\nX<!-- ENDIF a -->\n\nY<!-- ELSE -->\nZ".toList =
          .ret (X ++ "\x7b\x7b- end\x7d\x7d".toList ++ "\n\n".toList ++ Y, none)) ∧
    convertConditions asciiLetters 8
        "<!-- IF a -->\n\nX<!-- IF a -->\n\nY<!-- ELSE -->\nZ<!-- ENDIF a -->\nW".toList =
      .ret ("\x7b\x7bif $.a\x7d\x7dX\x7b\x7bif $.a\x7d\x7dY\x7b\x7b- else\x7d\x7dZ\x7b\x7b- end\x7d\x7d\nW".toList,
        none) := by
  have h := C13_line_breaks asciiLetters false [] "a".toList "f".toList ", b".toList
    "<!-- IF a -->\n\nX".toList "\n\n".toList "Y<!-- ELSE -->\nZ".toList (Or.inl rfl) (by decide)
    (Or.inr (fun m _ e => by simp at e)) (by decide) (by decide) (by decide)
    (noNewlineHead_cons 'Y' _ (by decide))
  exact ⟨⟨h.1 (by decide), h.2.1 (by decide), h.2.2.1, h.2.2.2⟩, by decide⟩

end Templatesjs
